import Mathlib

/-!
# Thor user-memory manager: address tree, allocation, map / unmap / fork

A shallow embedding of `thor/kernel/src/usermem.cpp`.

* `Mapping` objects live in the kernel heap; the heap is a map from object
  identities to records, and a `Mapping *` is an `Option Nat` (`none` is
  `nullptr`).  Reading or writing through `nullptr` or through a pointer to a
  destroyed object is the error `Err.nullDeref`.
* A failed `assert` is the error `Err.assertion`.
* Recursion and loops of the source that follow pointers take a fuel argument;
  running out of fuel is the error `Err.fuel`.
* `size_t` / `VirtualAddr` arithmetic is arithmetic modulo `2 ^ 64`.
* Locks and guards are not modelled (all operations run under the address
  space lock, one at a time).
-/

namespace Thor

/-! ## Machine words -/

/-- Word size of `size_t`, `VirtualAddr` and `PhysicalAddr`. -/
def wordMod : Nat := 2 ^ 64

/-- Unsigned 64-bit addition. -/
def add64 (a b : Nat) : Nat := (a + b) % wordMod

/-- Unsigned 64-bit subtraction. -/
def sub64 (a b : Nat) : Nat := (a + wordMod - b % wordMod) % wordMod

/-- Unsigned 64-bit multiplication. -/
def mul64 (a b : Nat) : Nat := (a * b) % wordMod

/-- Modelled from the spec: `kPageSize` is declared in a header outside the
sources at hand; the page size is 4096 bytes. -/
def kPageSize : Nat := 0x1000

/-- The value `PhysicalAddr(-1)`, the "not yet backed" sentinel. -/
def noPage : Nat := wordMod - 1

/-! ## Errors -/

/-- Ways in which an operation can fail to complete. -/
inductive Err where
  | assertion
  | nullDeref
  | bounds
  | fuel
  deriving DecidableEq, Repr

/-- A pointer to a heap object: `none` is `nullptr`. -/
abbrev Ptr := Option Nat

/-! ## Flags

Modelled from the spec: the enumerators below are declared in `kernel.hpp`,
which is not among the sources at hand.  Each flag is one distinct bit. -/

/-- Modelled from the spec: map flag `fixed`. -/
def kMapFixed : Nat := 0x01
/-- Modelled from the spec: map flag `prefer_bottom`. -/
def kMapPreferBottom : Nat := 0x02
/-- Modelled from the spec: map flag `prefer_top`. -/
def kMapPreferTop : Nat := 0x04
/-- Modelled from the spec: map flag `read_only`. -/
def kMapReadOnly : Nat := 0x08
/-- Modelled from the spec: map flag `read_write`. -/
def kMapReadWrite : Nat := 0x10
/-- Modelled from the spec: map flag `read_execute`. -/
def kMapReadExecute : Nat := 0x20
/-- Modelled from the spec: map flag `share_on_fork`. -/
def kMapShareOnFork : Nat := 0x40

/-- Modelled from the spec: `Mapping::kFlagShareOnFork`. -/
def kFlagShareOnFork : Nat := 0x01
/-- Modelled from the spec: `Memory::kFlagOnDemand`. -/
def kFlagOnDemand : Nat := 0x01
/-- Modelled from the spec: `PageSpace::kAccessWrite`. -/
def kAccessWrite : Nat := 0x01
/-- Modelled from the spec: `PageSpace::kAccessExecute`. -/
def kAccessExecute : Nat := 0x02

/-! ## Memory objects -/

/-- The type discriminator `Memory::Type`. -/
inductive MemoryType where
  | kTypePhysical
  | kTypeAllocated
  | kTypeCopyOnWrite
  deriving DecidableEq, Repr

/-- A `Memory` object: `p_physicalPages` holds one frame (or `noPage`) per
page slot. -/
structure Memory where
  p_type : MemoryType
  flags : Nat
  p_physicalPages : List Nat
  master : Ptr
  deriving DecidableEq, Repr

/-- A call to the page-table facade, tagged with the page space it is made on. -/
inductive PageOp where
  | mapSingle4k (space vaddr physical : Nat) (user : Bool) (flags : Nat)
  | unmapSingle4k (space vaddr : Nat)
  deriving DecidableEq, Repr

/-- The collaborators of the address space: the heap of `Memory` objects and
the trace of page-table calls issued so far (most recent last). -/
structure Env where
  memories : Nat → Option Memory
  nextMemory : Nat
  nextPageSpace : Nat
  pageOps : List PageOp

/-! ## Mapping objects -/

/-- The discriminator `Mapping::Type`. -/
inductive MappingType where
  | kTypeNone
  | kTypeHole
  | kTypeMemory
  deriving DecidableEq, Repr

/-- The colour `Mapping::Color`. -/
inductive Color where
  | kColorNone
  | kColorRed
  | kColorBlack
  deriving DecidableEq, Repr

/-- A `Mapping` object. -/
structure Mapping where
  baseAddress : Nat
  length : Nat
  type : MappingType
  lowerPtr : Ptr
  higherPtr : Ptr
  leftPtr : Ptr
  rightPtr : Ptr
  parentPtr : Ptr
  color : Color
  largestHole : Nat
  memoryRegion : Ptr
  memoryOffset : Nat
  flags : Nat
  writePermission : Bool
  executePermission : Bool
  deriving DecidableEq, Repr

/-- The constructor `Mapping::Mapping(type, base_address, length)`. -/
def Mapping.mk0 (type : MappingType) (base_address length : Nat) : Mapping :=
  { baseAddress := base_address, length := length, type := type,
    lowerPtr := none, higherPtr := none, leftPtr := none, rightPtr := none,
    parentPtr := none, color := Color.kColorNone,
    largestHole := if type = MappingType.kTypeHole then length else 0,
    memoryRegion := none,
    memoryOffset := 0, flags := 0, writePermission := false, executePermission := false }

/-- An address space seen together with the kernel heap of `Mapping` objects:
`cells` is the heap, `next` the identity the next constructed object gets,
`p_root` the root of the address tree and `p_pageSpace` the page space. -/
structure Space where
  cells : Nat → Option Mapping
  next : Nat
  p_root : Ptr
  p_pageSpace : Nat

namespace Space

/-- Read the object behind a non-null pointer. -/
def get (s : Space) (i : Nat) : Except Err Mapping :=
  match s.cells i with
  | some m => Except.ok m
  | none => Except.error Err.nullDeref

/-- Read the object behind a pointer that the source dereferences unchecked. -/
def getP (s : Space) (p : Ptr) : Except Err Mapping :=
  match p with
  | some i => s.get i
  | none => Except.error Err.nullDeref

/-- Overwrite fields of the object behind a non-null pointer. -/
def modify (s : Space) (i : Nat) (f : Mapping → Mapping) : Except Err Space :=
  match s.cells i with
  | some m => Except.ok { s with cells := fun j => if j = i then some (f m) else s.cells j }
  | none => Except.error Err.nullDeref

/-- Overwrite fields behind a pointer that the source checked to be non-null
(`if(p) p->f = v`). -/
def modifyIf (s : Space) (p : Ptr) (f : Mapping → Mapping) : Except Err Space :=
  match p with
  | some i => s.modify i f
  | none => Except.ok s

/-- The allocation `frigg::construct<Mapping>(*kernelAlloc, ...)`. -/
def construct (s : Space) (m : Mapping) : Space × Nat :=
  ({ s with cells := fun j => if j = s.next then some m else s.cells j, next := s.next + 1 },
    s.next)

end Space

/-- Turn a pointer that is dereferenced unchecked into an object identity. -/
def deref (p : Ptr) : Except Err Nat :=
  match p with
  | some i => Except.ok i
  | none => Except.error Err.nullDeref

/-- The statement `assert(c)`. -/
def assert (c : Bool) : Except Err Unit :=
  if c then Except.ok () else Except.error Err.assertion

/-- The statement `assert(p)` for a pointer `p`, giving the identity of the
object it points to. -/
def assertSome (p : Ptr) : Except Err Nat :=
  match p with
  | some i => Except.ok i
  | none => Except.error Err.assertion

/-- The destructor call `frigg::destruct(*kernelAlloc, p)`: nothing for
`nullptr`; otherwise `~Mapping` destroys the left and the right child, and the
object is released. -/
def destruct : Nat → Space → Ptr → Except Err Space
  | 0, _, _ => Except.error Err.fuel
  | _ + 1, s, none => Except.ok s
  | fuel + 1, s, some i => do
    let m ← s.get i
    let s ← destruct fuel s m.leftPtr
    let s ← destruct fuel s m.rightPtr
    Except.ok { s with cells := fun j => if j = i then none else s.cells j }

/-! ## The address tree -/

/-- The function `AddressSpace::isRed`. -/
def isRed (s : Space) (p : Ptr) : Except Err Bool :=
  match p with
  | none => Except.ok false
  | some i => do
    let m ← s.get i
    Except.ok (decide (m.color = Color.kColorRed))

/-- The function `AddressSpace::isBlack`. -/
def isBlack (s : Space) (p : Ptr) : Except Err Bool :=
  match p with
  | none => Except.ok true
  | some i => do
    let m ← s.get i
    Except.ok (decide (m.color = Color.kColorBlack))

/-- The value `hole` computed at the start of `updateLargestHoleAt` and of
`checkInvariant`: the node's own length if it is a hole, raised to the
`largestHole` of either child. -/
def computeHole (s : Space) (m : Mapping) : Except Err Nat := do
  let hole := if m.type = MappingType.kTypeHole then m.length else 0
  let hole ← match m.leftPtr with
    | some l => do
      let lm ← s.get l
      Except.ok (if lm.largestHole > hole then lm.largestHole else hole)
    | none => Except.ok hole
  let hole ← match m.rightPtr with
    | some r => do
      let rm ← s.get r
      Except.ok (if rm.largestHole > hole then rm.largestHole else hole)
    | none => Except.ok hole
  Except.ok hole

/-- The function `AddressSpace::updateLargestHoleAt`. -/
def updateLargestHoleAt (s : Space) (mapping : Ptr) : Except Err (Space × Bool) := do
  let i ← deref mapping
  let m ← s.get i
  let hole ← computeHole s m
  if m.largestHole ≠ hole then
    let s ← s.modify i (fun m => { m with largestHole := hole })
    Except.ok (s, true)
  else
    Except.ok (s, false)

/-- The function `AddressSpace::updateLargestHoleUpwards`. -/
def updateLargestHoleUpwards : Nat → Space → Ptr → Except Err Space
  | 0, _, _ => Except.error Err.fuel
  | fuel + 1, s, mapping => do
    let (s, changed) ← updateLargestHoleAt s mapping
    if !changed then
      Except.ok s
    else
      let m ← s.getP mapping
      match m.parentPtr with
      | some p => updateLargestHoleUpwards fuel s (some p)
      | none => Except.ok s

/-- Hang `child` where `node` hung below `parent` (or make it the root): the
`if(!parent) ... else if(parent->leftPtr == node) ... else ...` block shared by
the rotations, `replaceNode` and `removeHalfLeaf`. -/
def replaceChild (s : Space) (parent : Ptr) (node : Nat) (child : Ptr) : Except Err Space :=
  match parent with
  | none => Except.ok { s with p_root := child }
  | some p => do
    let pm ← s.get p
    if pm.leftPtr = some node then
      s.modify p (fun m => { m with leftPtr := child })
    else do
      assert (decide (pm.rightPtr = some node))
      s.modify p (fun m => { m with rightPtr := child })

/-- The function `AddressSpace::rotateLeft`. -/
def rotateLeft (s : Space) (n : Nat) : Except Err Space := do
  let nm ← s.get n
  let u ← assertSome nm.parentPtr
  let um ← s.get u
  assert (decide (um.rightPtr = some n))
  let v := nm.leftPtr
  let w := um.parentPtr
  let s ← s.modifyIf v (fun m => { m with parentPtr := some u })
  let s ← s.modify u (fun m => { m with rightPtr := v, parentPtr := some n })
  let s ← s.modify n (fun m => { m with leftPtr := some u, parentPtr := w })
  let s ← replaceChild s w u (some n)
  let (s, _) ← updateLargestHoleAt s (some u)
  let (s, _) ← updateLargestHoleAt s (some n)
  Except.ok s

/-- The function `AddressSpace::rotateRight`. -/
def rotateRight (s : Space) (n : Nat) : Except Err Space := do
  let nm ← s.get n
  let u ← assertSome nm.parentPtr
  let um ← s.get u
  assert (decide (um.leftPtr = some n))
  let v := nm.rightPtr
  let w := um.parentPtr
  let s ← s.modifyIf v (fun m => { m with parentPtr := some u })
  let s ← s.modify u (fun m => { m with leftPtr := v, parentPtr := some n })
  let s ← s.modify n (fun m => { m with rightPtr := some u, parentPtr := w })
  let s ← replaceChild s w u (some n)
  let (s, _) ← updateLargestHoleAt s (some u)
  let (s, _) ← updateLargestHoleAt s (some n)
  Except.ok s

/-- Short-circuit conjunction `a && b` whose right operand reads the heap. -/
def andAlso (a : Bool) (b : Except Err Bool) : Except Err Bool :=
  if a then b else Except.ok false

/-- The function `AddressSpace::fixAfterInsert`. -/
def fixAfterInsert : Nat → Space → Nat → Except Err Space
  | 0, _, _ => Except.error Err.fuel
  | fuel + 1, s, n => do
    let nm ← s.get n
    match nm.parentPtr with
    | none => s.modify n (fun m => { m with color := Color.kColorBlack })
    | some parent => do
      let s ← s.modify n (fun m => { m with color := Color.kColorRed })
      let pm ← s.get parent
      if pm.color = Color.kColorBlack then
        Except.ok s
      else
        -- the rb invariants guarantee that a grandparent exists
        let grand ← assertSome pm.parentPtr
        let gm ← s.get grand
        assert (decide (gm.color = Color.kColorBlack))
        -- handle the red uncle case
        let c1 ← andAlso (decide (gm.leftPtr = some parent)) (isRed s gm.rightPtr)
        if c1 then
          let s ← s.modify grand (fun m => { m with color := Color.kColorRed })
          let s ← s.modify parent (fun m => { m with color := Color.kColorBlack })
          let uncle ← deref gm.rightPtr
          let s ← s.modify uncle (fun m => { m with color := Color.kColorBlack })
          fixAfterInsert fuel s grand
        else
          let c2 ← andAlso (decide (gm.rightPtr = some parent)) (isRed s gm.leftPtr)
          if c2 then
            let s ← s.modify grand (fun m => { m with color := Color.kColorRed })
            let s ← s.modify parent (fun m => { m with color := Color.kColorBlack })
            let uncle ← deref gm.leftPtr
            let s ← s.modify uncle (fun m => { m with color := Color.kColorBlack })
            fixAfterInsert fuel s grand
          else if some parent = gm.leftPtr then
            let s ←
              if some n = pm.rightPtr then do
                let s ← rotateLeft s n
                let s ← rotateRight s n
                s.modify n (fun m => { m with color := Color.kColorBlack })
              else do
                let s ← rotateRight s parent
                s.modify parent (fun m => { m with color := Color.kColorBlack })
            s.modify grand (fun m => { m with color := Color.kColorRed })
          else do
            assert (decide (some parent = gm.rightPtr))
            let s ←
              if some n = pm.leftPtr then do
                let s ← rotateRight s n
                let s ← rotateLeft s n
                s.modify n (fun m => { m with color := Color.kColorBlack })
              else do
                let s ← rotateLeft s parent
                s.modify parent (fun m => { m with color := Color.kColorBlack })
            s.modify grand (fun m => { m with color := Color.kColorRed })

/-- The recursive function
`AddressSpace::checkInvariant(mapping, black_depth, minimal, maximal)`:
`none` is the result `false`, `some (black_depth, minimal, maximal)` is the
result `true` together with the values written to the three out-parameters. -/
def checkInvariantAt : Nat → Space → Nat → Except Err (Option (Nat × Nat × Nat))
  | 0, _, _ => Except.error Err.fuel
  | fuel + 1, s, mapping => do
    let m ← s.get mapping
    -- check largest hole invariant
    let hole ← computeHole s m
    if m.largestHole ≠ hole then Except.ok none else
    -- check alternating colors invariant
    let lb ← isBlack s m.leftPtr
    let bad ← if m.color = Color.kColorRed then
        (if !lb then Except.ok true else do
          let rb ← isBlack s m.rightPtr
          Except.ok (!rb))
      else Except.ok false
    if bad then Except.ok none else
    -- check recursive invariants
    let left ← match m.leftPtr with
      | some l => do
        let r ← checkInvariantAt fuel s l
        match r with
        | none => Except.ok none
        | some (left_black_depth, minimal, predecessor) => do
          let pm ← s.get predecessor
          -- check search tree invariant
          if m.baseAddress < add64 pm.baseAddress pm.length then Except.ok none
          -- check predecessor invariant
          else if pm.higherPtr ≠ some mapping then Except.ok none
          else if m.lowerPtr ≠ some predecessor then Except.ok none
          else Except.ok (some (left_black_depth, minimal))
      | none => Except.ok (some (0, mapping))
    match left with
    | none => Except.ok none
    | some (left_black_depth, minimal) => do
      let right ← match m.rightPtr with
        | some r => do
          let res ← checkInvariantAt fuel s r
          match res with
          | none => Except.ok none
          | some (right_black_depth, successor, maximal) => do
            let sm ← s.get successor
            -- check search tree invariant
            if add64 m.baseAddress m.length > sm.baseAddress then Except.ok none
            -- check successor invariant
            else if m.higherPtr ≠ some successor then Except.ok none
            else if sm.lowerPtr ≠ some mapping then Except.ok none
            else Except.ok (some (right_black_depth, maximal))
        | none => Except.ok (some (0, mapping))
      match right with
      | none => Except.ok none
      | some (right_black_depth, maximal) =>
        -- check black-depth invariant
        if left_black_depth ≠ right_black_depth then Except.ok none
        else
          Except.ok (some
            (if m.color = Color.kColorBlack then left_black_depth + 1 else left_black_depth,
              minimal, maximal))

/-- The function `AddressSpace::checkInvariant()`. -/
def checkInvariant (fuel : Nat) (s : Space) : Except Err Bool :=
  match s.p_root with
  | none => Except.ok true
  | some r => do
    let res ← checkInvariantAt fuel s r
    Except.ok res.isSome

/-- The statement `assert(checkInvariant())`. -/
def assertInvariant (fuel : Nat) (s : Space) : Except Err Unit := do
  let ok ← checkInvariant fuel s
  assert ok

/-- The `while(true)` loop of `AddressSpace::addressTreeInsert`, from the
point where `current` is set; ends with the closing `assert(checkInvariant())`. -/
def insertLoop (full : Nat) : Nat → Space → Nat → Nat → Except Err Space
  | 0, _, _, _ => Except.error Err.fuel
  | fuel + 1, s, mapping, current => do
    let m ← s.get mapping
    let cm ← s.get current
    if m.baseAddress < cm.baseAddress then do
      assert (decide (add64 m.baseAddress m.length ≤ cm.baseAddress))
      match cm.leftPtr with
      | none => do
        let s ← s.modify current (fun c => { c with leftPtr := some mapping })
        let s ← s.modify mapping (fun c => { c with parentPtr := some current })
        -- "current" is the successor of "mapping"
        let predecessor := cm.lowerPtr
        let s ← s.modifyIf predecessor (fun c => { c with higherPtr := some mapping })
        let s ← s.modify mapping
          (fun c => { c with lowerPtr := predecessor, higherPtr := some current })
        let s ← s.modify current (fun c => { c with lowerPtr := some mapping })
        let s ← updateLargestHoleUpwards full s (some current)
        let s ← fixAfterInsert full s mapping
        assertInvariant full s
        Except.ok s
      | some l => insertLoop full fuel s mapping l
    else do
      assert (decide (m.baseAddress ≥ add64 cm.baseAddress cm.length))
      match cm.rightPtr with
      | none => do
        let s ← s.modify current (fun c => { c with rightPtr := some mapping })
        let s ← s.modify mapping (fun c => { c with parentPtr := some current })
        -- "current" is the predecessor of "mapping"
        let successor := cm.higherPtr
        let s ← s.modify current (fun c => { c with higherPtr := some mapping })
        let s ← s.modify mapping
          (fun c => { c with lowerPtr := some current, higherPtr := successor })
        let s ← s.modifyIf successor (fun c => { c with lowerPtr := some mapping })
        let s ← updateLargestHoleUpwards full s (some current)
        let s ← fixAfterInsert full s mapping
        assertInvariant full s
        Except.ok s
      | some r => insertLoop full fuel s mapping r

/-- The function `AddressSpace::addressTreeInsert`. -/
def addressTreeInsert (fuel : Nat) (s : Space) (mapping : Nat) : Except Err Space := do
  assertInvariant fuel s
  match s.p_root with
  | none => do
    let s := { s with p_root := some mapping }
    let s ← fixAfterInsert fuel s mapping
    assertInvariant fuel s
    Except.ok s
  | some current => insertLoop fuel fuel s mapping current

/-- The function `AddressSpace::fixAfterRemove`. -/
def fixAfterRemove : Nat → Space → Nat → Except Err Space
  | 0, _, _ => Except.error Err.fuel
  | fuel + 1, s, n => do
    let nm ← s.get n
    assert (decide (nm.color = Color.kColorBlack))
    match nm.parentPtr with
    | none => Except.ok s
    | some parent => do
      let pm ← s.get parent
      let onLeft := decide (pm.leftPtr = some n)
      -- rotate so that our node has a black sibling
      let s ←
        if onLeft then do
          let x ← assertSome pm.rightPtr
          let xm ← s.get x
          if xm.color = Color.kColorRed then do
            let s ← rotateLeft s x
            let pm1 ← s.get parent
            assert (decide (some n = pm1.leftPtr))
            let s ← s.modify parent (fun m => { m with color := Color.kColorRed })
            s.modify x (fun m => { m with color := Color.kColorBlack })
          else Except.ok s
        else do
          assert (decide (pm.rightPtr = some n))
          let x ← assertSome pm.leftPtr
          let xm ← s.get x
          if xm.color = Color.kColorRed then do
            let s ← rotateRight s x
            let pm1 ← s.get parent
            assert (decide (some n = pm1.rightPtr))
            let s ← s.modify parent (fun m => { m with color := Color.kColorRed })
            s.modify x (fun m => { m with color := Color.kColorBlack })
          else Except.ok s
      let pm ← s.get parent
      -- this will always be the sibling of our node
      let sib ← deref (if onLeft then pm.rightPtr else pm.leftPtr)
      let sm ← s.get sib
      let lb ← isBlack s sm.leftPtr
      let both ← andAlso lb (isBlack s sm.rightPtr)
      if both then
        if pm.color = Color.kColorBlack then do
          let s ← s.modify sib (fun m => { m with color := Color.kColorRed })
          fixAfterRemove fuel s parent
        else do
          let s ← s.modify parent (fun m => { m with color := Color.kColorBlack })
          s.modify sib (fun m => { m with color := Color.kColorRed })
      else
        -- now at least one of s children is red
        let parent_color := pm.color
        if pm.leftPtr = some n then do
          -- rotate so that s->rightPtr is red
          let lr ← isRed s sm.leftPtr
          let c ← andAlso lr (isBlack s sm.rightPtr)
          let (s, sib) ←
            if c then do
              let child ← deref sm.leftPtr
              let s ← rotateRight s child
              let s ← s.modify sib (fun m => { m with color := Color.kColorRed })
              let s ← s.modify child (fun m => { m with color := Color.kColorBlack })
              Except.ok (s, child)
            else Except.ok (s, sib)
          let sm ← s.get sib
          let rr ← isRed s sm.rightPtr
          assert rr
          let s ← rotateLeft s sib
          let s ← s.modify parent (fun m => { m with color := Color.kColorBlack })
          let s ← s.modify sib (fun m => { m with color := parent_color })
          let sm ← s.get sib
          let far ← deref sm.rightPtr
          s.modify far (fun m => { m with color := Color.kColorBlack })
        else do
          assert (decide (pm.rightPtr = some n))
          -- rotate so that s->leftPtr is red
          let rr ← isRed s sm.rightPtr
          let c ← andAlso rr (isBlack s sm.leftPtr)
          let (s, sib) ←
            if c then do
              let child ← deref sm.rightPtr
              let s ← rotateLeft s child
              let s ← s.modify sib (fun m => { m with color := Color.kColorRed })
              let s ← s.modify child (fun m => { m with color := Color.kColorBlack })
              Except.ok (s, child)
            else Except.ok (s, sib)
          let sm ← s.get sib
          let lr ← isRed s sm.leftPtr
          assert lr
          let s ← rotateRight s sib
          let s ← s.modify parent (fun m => { m with color := Color.kColorBlack })
          let s ← s.modify sib (fun m => { m with color := parent_color })
          let sm ← s.get sib
          let far ← deref sm.leftPtr
          s.modify far (fun m => { m with color := Color.kColorBlack })

/-- The function `AddressSpace::replaceNode`. -/
def replaceNode (fuel : Nat) (s : Space) (node replacement : Nat) : Except Err Space := do
  let nm ← s.get node
  let parent := nm.parentPtr
  let left := nm.leftPtr
  let right := nm.rightPtr
  -- fix the red-black tree
  let s ← replaceChild s parent node (some replacement)
  let nm ← s.get node
  let s ← s.modify replacement (fun m => { m with parentPtr := parent, color := nm.color })
  let s ← s.modify replacement (fun m => { m with leftPtr := left })
  let s ← s.modifyIf left (fun m => { m with parentPtr := some replacement })
  let s ← s.modify replacement (fun m => { m with rightPtr := right })
  let s ← s.modifyIf right (fun m => { m with parentPtr := some replacement })
  -- fix the linked list
  let nm ← s.get node
  let s ← s.modifyIf nm.lowerPtr (fun m => { m with higherPtr := some replacement })
  let s ← s.modify replacement
    (fun m => { m with lowerPtr := nm.lowerPtr, higherPtr := nm.higherPtr })
  let s ← s.modifyIf nm.higherPtr (fun m => { m with lowerPtr := some replacement })
  let s ← s.modify node (fun m =>
    { m with leftPtr := none, rightPtr := none, parentPtr := none,
             lowerPtr := none, higherPtr := none })
  let (s, _) ← updateLargestHoleAt s (some replacement)
  updateLargestHoleUpwards fuel s parent

/-- The function `AddressSpace::removeHalfLeaf`. -/
def removeHalfLeaf (fuel : Nat) (s : Space) (mapping : Nat) (child : Ptr) :
    Except Err Space := do
  let m ← s.get mapping
  let predecessor := m.lowerPtr
  let successor := m.higherPtr
  let s ← s.modifyIf predecessor (fun c => { c with higherPtr := successor })
  let s ← s.modifyIf successor (fun c => { c with lowerPtr := predecessor })
  let m ← s.get mapping
  let s ←
    if m.color = Color.kColorBlack then do
      let cr ← isRed s child
      if cr then do
        let c ← deref child
        s.modify c (fun c => { c with color := Color.kColorBlack })
      else
        -- decrement the number of black nodes all paths through "mapping"
        -- before removing the child
        fixAfterRemove fuel s mapping
    else Except.ok s
  let m ← s.get mapping
  assert ((decide (m.leftPtr = none) && decide (m.rightPtr = child))
    || (decide (m.leftPtr = child) && decide (m.rightPtr = none)))
  let parent := m.parentPtr
  let s ← replaceChild s parent mapping child
  let s ← s.modifyIf child (fun c => { c with parentPtr := parent })
  let s ← s.modify mapping (fun c =>
    { c with leftPtr := none, rightPtr := none, parentPtr := none,
             lowerPtr := none, higherPtr := none })
  match parent with
  | some p => updateLargestHoleUpwards fuel s (some p)
  | none => Except.ok s

/-- The function `AddressSpace::addressTreeRemove`. -/
def addressTreeRemove (fuel : Nat) (s : Space) (mapping : Nat) : Except Err Space := do
  assertInvariant fuel s
  let m ← s.get mapping
  let left_ptr := m.leftPtr
  let right_ptr := m.rightPtr
  let s ←
    match left_ptr, right_ptr with
    | none, _ => removeHalfLeaf fuel s mapping right_ptr
    | some _, none => removeHalfLeaf fuel s mapping left_ptr
    | some _, some _ => do
      -- replace the mapping by its predecessor
      let predecessor ← deref m.lowerPtr
      let pm ← s.get predecessor
      let s ← removeHalfLeaf fuel s predecessor pm.leftPtr
      replaceNode fuel s mapping predecessor
  assertInvariant fuel s
  Except.ok s

/-- The function `AddressSpace::getMapping`; `current` is the loop variable. -/
def getMappingLoop : Nat → Space → Ptr → Nat → Except Err Ptr
  | 0, _, _, _ => Except.error Err.fuel
  | _ + 1, _, none, _ => Except.ok none
  | fuel + 1, s, some current, address => do
    let cm ← s.get current
    if address < cm.baseAddress then
      getMappingLoop fuel s cm.leftPtr address
    else if address ≥ add64 cm.baseAddress cm.length then
      getMappingLoop fuel s cm.rightPtr address
    else do
      assert (decide (address ≥ cm.baseAddress)
        && decide (address < add64 cm.baseAddress cm.length))
      Except.ok (some current)

/-- The function `AddressSpace::getMapping`. -/
def getMapping (fuel : Nat) (s : Space) (address : Nat) : Except Err Ptr :=
  getMappingLoop fuel s s.p_root address

/-- The function `AddressSpace::splitHole`. -/
def splitHole (fuel : Nat) (s : Space) (mapping : Nat) (split_offset split_length : Nat) :
    Except Err (Space × Nat) := do
  assert (decide (split_length > 0))
  let m ← s.get mapping
  assert (decide (m.type = MappingType.kTypeHole))
  assert (decide (add64 split_offset split_length ≤ m.length))
  let hole_address := m.baseAddress
  let hole_length := m.length
  let s ←
    if split_offset = 0 then do
      -- the split mapping starts at the beginning of the hole
      -- we have to delete the hole mapping
      let s ← addressTreeRemove fuel s mapping
      destruct fuel s (some mapping)
    else do
      -- the split mapping starts in the middle of the hole
      let s ← s.modify mapping (fun c => { c with length := split_offset })
      updateLargestHoleUpwards fuel s (some mapping)
  let (s, split) := s.construct
    (Mapping.mk0 MappingType.kTypeNone (add64 hole_address split_offset) split_length)
  let s ← addressTreeInsert fuel s split
  let s ←
    if hole_length > add64 split_offset split_length then do
      -- the split mapping does not go on until the end of the hole
      -- we have to create another mapping for the rest of the hole
      let (s, following) := s.construct
        (Mapping.mk0 MappingType.kTypeHole
          (add64 hole_address (add64 split_offset split_length))
          (sub64 hole_length (add64 split_offset split_length)))
      addressTreeInsert fuel s following
    else do
      assert (decide (hole_length = add64 split_offset split_length))
      Except.ok s
  Except.ok (s, split)

/-- The function `AddressSpace::allocateDfs`; `full` is the fuel handed to
`splitHole`. -/
def allocateDfs (full : Nat) : Nat → Space → Nat → Nat → Nat → Except Err (Space × Nat)
  | 0, _, _, _, _ => Except.error Err.fuel
  | fuel + 1, s, mapping, length, flags => do
    let m ← s.get mapping
    if flags &&& kMapPreferBottom ≠ 0 then
      -- try to allocate memory at the bottom of the range
      if m.type = MappingType.kTypeHole ∧ m.length ≥ length then
        splitHole full s mapping 0 length
      else do
        let goLeft ← match m.leftPtr with
          | some l => do
            let lm ← s.get l
            Except.ok (decide (lm.largestHole ≥ length))
          | none => Except.ok false
        if goLeft then do
          let l ← deref m.leftPtr
          allocateDfs full fuel s l length flags
        else do
          let r ← assertSome m.rightPtr
          let rm ← s.get r
          assert (decide (rm.largestHole ≥ length))
          allocateDfs full fuel s r length flags
    else do
      -- try to allocate memory at the top of the range
      assert (decide (flags &&& kMapPreferTop ≠ 0))
      if m.type = MappingType.kTypeHole ∧ m.length ≥ length then
        splitHole full s mapping (sub64 m.length length) length
      else do
        let goRight ← match m.rightPtr with
          | some r => do
            let rm ← s.get r
            Except.ok (decide (rm.largestHole ≥ length))
          | none => Except.ok false
        if goRight then do
          let r ← deref m.rightPtr
          allocateDfs full fuel s r length flags
        else do
          let l ← assertSome m.leftPtr
          let lm ← s.get l
          assert (decide (lm.largestHole ≥ length))
          allocateDfs full fuel s l length flags

/-- The function `AddressSpace::allocate`; the result `none` is `nullptr`. -/
def allocate (fuel : Nat) (s : Space) (length flags : Nat) : Except Err (Space × Ptr) := do
  assert (decide (length % kPageSize = 0))
  let rm ← s.getP s.p_root
  if rm.largestHole < length then
    Except.ok (s, none)
  else do
    let (s, mapping) ← allocateDfs fuel fuel s (← deref s.p_root) length flags
    Except.ok (s, some mapping)

/-- The function `AddressSpace::allocateAt`. -/
def allocateAt (fuel : Nat) (s : Space) (address length : Nat) : Except Err (Space × Nat) := do
  assert (decide (address % kPageSize = 0))
  assert (decide (length % kPageSize = 0))
  let hole ← getMapping fuel s address
  let h ← assertSome hole
  let hm ← s.get h
  assert (decide (hm.type = MappingType.kTypeHole))
  splitHole fuel s h (sub64 address hm.baseAddress) length

/-- The function `AddressSpace::setupDefaultMappings`. -/
def setupDefaultMappings (fuel : Nat) (s : Space) : Except Err Space :=
  let (s, mapping) := s.construct
    (Mapping.mk0 MappingType.kTypeHole 0x100000 0x7ffffff00000)
  addressTreeInsert fuel s mapping

/-- The function `Memory::getPage`. -/
def Memory.getPage (m : Memory) (index : Nat) : Except Err Nat :=
  match m.p_physicalPages.get? index with
  | some page => Except.ok page
  | none => Except.error Err.bounds

/-- Read the `Memory` object behind a pointer. -/
def Env.getMemory (e : Env) (p : Ptr) : Except Err Memory :=
  match p with
  | some i =>
    match e.memories i with
    | some m => Except.ok m
    | none => Except.error Err.nullDeref
  | none => Except.error Err.nullDeref

/-- The loop `for(i = 0; i < length / kPageSize; i++)` that walks the page
slots of `memory` and installs every bound one at `base + i * kPageSize` in
page space `space`; with `remap` set, the page is unmapped first (the loop on
the source side of a fork).  `count` is the number of iterations left. -/
def installLoop (e : Env) (memory : Ptr) (space base page_flags : Nat) (remap : Bool) :
    Nat → Nat → List PageOp → Except Err (List PageOp)
  | 0, _, ops => Except.ok ops
  | count + 1, i, ops => do
    let mem ← e.getMemory memory
    let physical ← mem.getPage i
    if physical = noPage then
      installLoop e memory space base page_flags remap count (i + 1) ops
    else
      let vaddr := add64 base (mul64 i kPageSize)
      let ops := if remap then ops ++ [PageOp.unmapSingle4k space vaddr] else ops
      installLoop e memory space base page_flags remap count (i + 1)
        (ops ++ [PageOp.mapSingle4k space vaddr physical true page_flags])

/-- The function `AddressSpace::map`; the last component of the result is the
value stored to `*actual_address`. -/
def map (fuel : Nat) (s : Space) (e : Env) (memory : Ptr) (address length flags : Nat) :
    Except Err (Space × Env × Nat) := do
  assert (decide (length % kPageSize = 0))
  let (s, mapping) ←
    if flags &&& kMapFixed ≠ 0 then do
      assert (decide (address % kPageSize = 0))
      let (s, m) ← allocateAt fuel s address length
      Except.ok (s, some m)
    else
      allocate fuel s length flags
  let mapping ← assertSome mapping
  let s ← s.modify mapping
    (fun c => { c with type := MappingType.kTypeMemory, memoryRegion := memory })
  let mask := kMapReadOnly ||| kMapReadExecute ||| kMapReadWrite
  let (s, page_flags) ←
    if flags &&& mask = kMapReadWrite then do
      let s ← s.modify mapping (fun c => { c with writePermission := true })
      Except.ok (s, kAccessWrite)
    else if flags &&& mask = kMapReadExecute then do
      let s ← s.modify mapping (fun c => { c with executePermission := true })
      Except.ok (s, kAccessExecute)
    else do
      assert (decide (flags &&& mask = kMapReadOnly))
      Except.ok (s, 0)
  let s ←
    if flags &&& kMapShareOnFork ≠ 0 then
      s.modify mapping (fun c => { c with flags := c.flags ||| kFlagShareOnFork })
    else Except.ok s
  let m ← s.get mapping
  let ops ← installLoop e memory s.p_pageSpace m.baseAddress page_flags false
    (length / kPageSize) 0 e.pageOps
  Except.ok (s, { e with pageOps := ops }, m.baseAddress)

/-- The loop of `AddressSpace::unmap` that issues one `unmapSingle4k` per page. -/
def unmapLoop (space base : Nat) : Nat → Nat → List PageOp → List PageOp
  | 0, _, ops => ops
  | count + 1, i, ops =>
    unmapLoop space base count (i + 1)
      (ops ++ [PageOp.unmapSingle4k space (add64 base (mul64 i kPageSize))])

/-- The function `AddressSpace::unmap`.  Dropping the `Memory` reference
clears `memoryRegion`; reference counts are not modelled. -/
def unmap (fuel : Nat) (s : Space) (e : Env) (address length : Nat) :
    Except Err (Space × Env) := do
  let found ← getMapping fuel s address
  let mapping ← assertSome found
  let m ← s.get mapping
  assert (decide (m.type = MappingType.kTypeMemory))
  assert (decide (m.baseAddress = address))
  assert (decide (m.length = length))
  let ops := unmapLoop s.p_pageSpace m.baseAddress (m.length / kPageSize) 0 e.pageOps
  let e := { e with pageOps := ops }
  let s ← s.modify mapping (fun c => { c with memoryRegion := none })
  let lower_ptr := m.lowerPtr
  let higher_ptr := m.higherPtr
  let lowerHole ← match lower_ptr with
    | some l => do
      let lm ← s.get l
      Except.ok (decide (lm.type = MappingType.kTypeHole))
    | none => Except.ok false
  let higherHole ← match higher_ptr with
    | some h => do
      let hm ← s.get h
      Except.ok (decide (hm.type = MappingType.kTypeHole))
    | none => Except.ok false
  if lower_ptr.isSome && higher_ptr.isSome && lowerHole && higherHole then do
    -- grow the lower region and remove both the mapping and the higher region
    let lower ← deref lower_ptr
    let higher ← deref higher_ptr
    let mapping_length := m.length
    let hm ← s.get higher
    let higher_length := hm.length
    let s ← addressTreeRemove fuel s mapping
    let s ← addressTreeRemove fuel s higher
    let s ← destruct fuel s (some mapping)
    let s ← destruct fuel s (some higher)
    let s ← s.modify lower
      (fun c => { c with length := add64 c.length (add64 mapping_length higher_length) })
    let s ← updateLargestHoleUpwards fuel s (some lower)
    Except.ok (s, e)
  else if lower_ptr.isSome && lowerHole then do
    -- grow the lower region and remove the mapping
    let lower ← deref lower_ptr
    let mapping_length := m.length
    let s ← addressTreeRemove fuel s mapping
    let s ← destruct fuel s (some mapping)
    let s ← s.modify lower (fun c => { c with length := add64 c.length mapping_length })
    let s ← updateLargestHoleUpwards fuel s (some lower)
    Except.ok (s, e)
  else if higher_ptr.isSome && higherHole then do
    -- grow the higher region and remove the mapping
    let higher ← deref higher_ptr
    let mapping_length := m.length
    let s ← addressTreeRemove fuel s mapping
    let s ← destruct fuel s (some mapping)
    let s ← s.modify higher (fun c =>
      { c with baseAddress := sub64 c.baseAddress mapping_length,
               length := add64 c.length mapping_length })
    let s ← updateLargestHoleUpwards fuel s (some higher)
    Except.ok (s, e)
  else do
    -- turn the mapping into a hole
    let s ← s.modify mapping (fun c => { c with type := MappingType.kTypeHole })
    let s ← updateLargestHoleUpwards fuel s (some mapping)
    Except.ok (s, e)

/-- The function `Memory::resize`. -/
def Memory.resize (m : Memory) (num_pages : Nat) : Except Err Memory := do
  assert (decide (m.p_physicalPages.length < num_pages))
  Except.ok { m with p_physicalPages :=
    m.p_physicalPages ++ List.replicate (num_pages - m.p_physicalPages.length) noPage }

/-- The allocation `frigg::makeShared<Memory>(*kernelAlloc, type)` followed by
`resize(num_pages)` and the assignment of `master`. -/
def Env.makeCopyOnWrite (e : Env) (num_pages : Nat) (master : Ptr) : Except Err (Env × Nat) := do
  let fresh : Memory :=
    { p_type := MemoryType.kTypeCopyOnWrite, flags := 0, p_physicalPages := [], master := none }
  let sized ← fresh.resize num_pages
  let made := { sized with master := master }
  Except.ok
    ({ e with memories := fun j => if j = e.nextMemory then some made else e.memories j,
              nextMemory := e.nextMemory + 1 },
      e.nextMemory)

/-- The function `AddressSpace::cloneRecursive`.  `d` is the destination
space (it shares the heap with the source), `srcPageSpace` the page space of
the source; `full` is the fuel handed to `addressTreeInsert`. -/
def cloneRecursive (full srcPageSpace : Nat) :
    Nat → Space → Env → Nat → Except Err (Space × Env)
  | 0, _, _, _ => Except.error Err.fuel
  | fuel + 1, d, e, mapping => do
    let m ← d.get mapping
    let (d, dest_mapping) := d.construct (Mapping.mk0 m.type m.baseAddress m.length)
    let (d, e) ←
      if m.type = MappingType.kTypeHole then
        -- holes do not require additional handling
        Except.ok (d, e)
      else if m.type = MappingType.kTypeMemory ∧ m.flags &&& kFlagShareOnFork ≠ 0 then do
        let memory := m.memoryRegion
        let mem ← e.getMemory memory
        assert (decide (mem.p_type = MemoryType.kTypeAllocated)
          || decide (mem.p_type = MemoryType.kTypePhysical))
        -- `if(mapping->executePermission);` is an empty statement
        let page_flags := (if m.writePermission then kAccessWrite else 0) ||| kAccessExecute
        let dm ← d.get dest_mapping
        let ops ← installLoop e memory d.p_pageSpace dm.baseAddress page_flags false
          (dm.length / kPageSize) 0 e.pageOps
        let d ← d.modify dest_mapping (fun c =>
          { c with memoryRegion := memory, writePermission := m.writePermission,
                   executePermission := m.executePermission })
        Except.ok (d, { e with pageOps := ops })
      else if m.type = MappingType.kTypeMemory then do
        let memory := m.memoryRegion
        let mem ← e.getMemory memory
        assert (decide (mem.p_type = MemoryType.kTypeAllocated))
        -- don't set the write flag to enable copy-on-write
        let page_flags := kAccessExecute
        -- create a copy-on-write region for the original space
        let (e, src_memory) ← e.makeCopyOnWrite mem.p_physicalPages.length memory
        let d ← d.modify mapping (fun c => { c with memoryRegion := some src_memory })
        let ops ← installLoop e memory srcPageSpace m.baseAddress page_flags true
          (m.length / kPageSize) 0 e.pageOps
        let e := { e with pageOps := ops }
        -- create a copy-on-write region for the forked space
        let (e, dest_memory) ← e.makeCopyOnWrite mem.p_physicalPages.length memory
        let d ← d.modify dest_mapping (fun c => { c with memoryRegion := some dest_memory })
        let ops ← installLoop e memory d.p_pageSpace m.baseAddress page_flags false
          (m.length / kPageSize) 0 e.pageOps
        let d ← d.modify dest_mapping (fun c =>
          { c with writePermission := m.writePermission,
                   executePermission := m.executePermission })
        Except.ok (d, { e with pageOps := ops })
      else
        Except.error Err.assertion
    let d ← addressTreeInsert full d dest_mapping
    let m ← d.get mapping
    let (d, e) ← match m.leftPtr with
      | some l => cloneRecursive full srcPageSpace fuel d e l
      | none => Except.ok (d, e)
    let m ← d.get mapping
    match m.rightPtr with
    | some r => cloneRecursive full srcPageSpace fuel d e r
    | none => Except.ok (d, e)

/-- The function `AddressSpace::fork`: the result is the source space as it is
left behind, the forked space, and the collaborators. -/
def fork (fuel : Nat) (s : Space) (e : Env) : Except Err (Space × Space × Env) := do
  let forked : Space :=
    { cells := s.cells, next := s.next, p_root := none, p_pageSpace := e.nextPageSpace }
  let e := { e with nextPageSpace := e.nextPageSpace + 1 }
  let root ← deref s.p_root
  let (d, e) ← cloneRecursive fuel s.p_pageSpace fuel forked e root
  Except.ok ({ s with cells := d.cells, next := d.next }, d, e)

/-! ## The tree invariants, stated over an abstract binary tree -/

/-- The error an operation ends with, if it does not complete. -/
def failure {α : Type} : Except Err α → Option Err
  | Except.ok _ => none
  | Except.error e => some e

/-- The shape of an address tree: a binary tree of object identities. -/
inductive Tree where
  | nil : Tree
  | node (l : Tree) (i : Nat) (r : Tree) : Tree
  deriving DecidableEq, Repr

namespace Tree

/-- The pointer to the root of a tree. -/
def root : Tree → Ptr
  | nil => none
  | node _ i _ => some i

/-- The in-order sequence of a tree. -/
def toList : Tree → List Nat
  | nil => []
  | node l i r => toList l ++ i :: toList r

end Tree

/-- A field of the object `i`, with a default for destroyed objects. -/
def fieldOf {α : Type} (c : Nat → Option Mapping) (f : Mapping → α) (d : α) (i : Nat) : α :=
  match c i with
  | some m => f m
  | none => d

/-- The base address of object `i`. -/
def baseOf (c : Nat → Option Mapping) (i : Nat) : Nat := fieldOf c Mapping.baseAddress 0 i
/-- The length of object `i`. -/
def lengthOf (c : Nat → Option Mapping) (i : Nat) : Nat := fieldOf c Mapping.length 0 i
/-- The kind of object `i`. -/
def typeOf (c : Nat → Option Mapping) (i : Nat) : MappingType :=
  fieldOf c Mapping.type MappingType.kTypeNone i
/-- The end address `base + length` of object `i`. -/
def endOf (c : Nat → Option Mapping) (i : Nat) : Nat := baseOf c i + lengthOf c i
/-- The colour of object `i`. -/
def colorOf (c : Nat → Option Mapping) (i : Nat) : Color := fieldOf c Mapping.color Color.kColorNone i
/-- The field `largestHole` of the object behind `p`; 0 for `nullptr`. -/
def largestHoleAt (c : Nat → Option Mapping) (p : Ptr) : Nat :=
  match p with
  | some i => fieldOf c Mapping.largestHole 0 i
  | none => 0
/-- The function `own_hole`: the length of a hole, 0 for any other mapping. -/
def ownHole (c : Nat → Option Mapping) (i : Nat) : Nat :=
  if typeOf c i = MappingType.kTypeHole then lengthOf c i else 0

/-- The heap holds the tree `t` below a node whose identity is `par`: every
node is alive, its `leftPtr` and `rightPtr` point to the roots of its
subtrees, and its `parentPtr` points to its parent. -/
def Shape (c : Nat → Option Mapping) : Tree → Ptr → Prop
  | Tree.nil, _ => True
  | Tree.node l i r, par =>
    match c i with
    | some m =>
      m.parentPtr = par ∧ m.leftPtr = l.root ∧ m.rightPtr = r.root ∧
        Shape c l (some i) ∧ Shape c r (some i)
    | none => False

/-- Search-tree order of the in-order sequence: every mapping ends at or before
the base of every later one. -/
def Ordered (c : Nat → Option Mapping) (l : List Nat) : Prop :=
  l.Pairwise (fun i j => endOf c i ≤ baseOf c j)

/-- No interval of the sequence wraps around the 64-bit address space. -/
def Fits (c : Nat → Option Mapping) (l : List Nat) : Prop :=
  ∀ i ∈ l, endOf c i < wordMod

/-- The order list: `lowerPtr` and `higherPtr` thread the sequence `l`, with
`prev` before its first and `next` after its last element. -/
def Linked (c : Nat → Option Mapping) : Ptr → List Nat → Ptr → Prop
  | _, [], _ => True
  | prev, i :: rest, next =>
    fieldOf c Mapping.lowerPtr none i = prev ∧
    fieldOf c Mapping.higherPtr none i = (match rest with | [] => next | j :: _ => some j) ∧
    Linked c (some i) rest next

/-- The augment is correct at every node of `t`:
`largestHole = max(own_hole, left.largestHole, right.largestHole)`. -/
def Augmented (c : Nat → Option Mapping) : Tree → Prop
  | Tree.nil => True
  | Tree.node l i r =>
    largestHoleAt c (some i) =
        max (ownHole c i) (max (largestHoleAt c l.root) (largestHoleAt c r.root)) ∧
      Augmented c l ∧ Augmented c r

/-- The pointer is `nullptr` or points to a black node. -/
def blackPtr (c : Nat → Option Mapping) (p : Ptr) : Prop :=
  match p with
  | some i => colorOf c i = Color.kColorBlack
  | none => True

/-- The red-black rules below the root: every node is red or black, a red node
has no red child, and every path from the root of `t` to a null link passes
`n` black nodes. -/
def RedBlack (c : Nat → Option Mapping) : Tree → Nat → Prop
  | Tree.nil, n => n = 0
  | Tree.node l i r, n =>
    (colorOf c i = Color.kColorRed ∧ blackPtr c l.root ∧ blackPtr c r.root ∧
        RedBlack c l n ∧ RedBlack c r n) ∨
      (colorOf c i = Color.kColorBlack ∧ 0 < n ∧ RedBlack c l (n - 1) ∧ RedBlack c r (n - 1))

instance decShape (c : Nat → Option Mapping) : (t : Tree) → (par : Ptr) → Decidable (Shape c t par)
  | Tree.nil, _ => isTrue trivial
  | Tree.node l i r, par =>
    match h : c i with
    | some m =>
      have : Decidable (Shape c l (some i)) := decShape c l (some i)
      have : Decidable (Shape c r (some i)) := decShape c r (some i)
      decidable_of_iff
        (m.parentPtr = par ∧ m.leftPtr = l.root ∧ m.rightPtr = r.root ∧
          Shape c l (some i) ∧ Shape c r (some i))
        (by simp only [Shape, h])
    | none => isFalse (by simp only [Shape, h, not_false_eq_true])

instance decOrdered (c : Nat → Option Mapping) (l : List Nat) : Decidable (Ordered c l) :=
  inferInstanceAs (Decidable (l.Pairwise _))

instance decFits (c : Nat → Option Mapping) (l : List Nat) : Decidable (Fits c l) :=
  inferInstanceAs (Decidable (∀ i ∈ l, _))

instance decLinked (c : Nat → Option Mapping) :
    (prev : Ptr) → (l : List Nat) → (next : Ptr) → Decidable (Linked c prev l next)
  | _, [], _ => isTrue trivial
  | prev, i :: rest, next =>
    have : Decidable (Linked c (some i) rest next) := decLinked c (some i) rest next
    inferInstanceAs (Decidable (_ ∧ _ ∧ _))

instance decAugmented (c : Nat → Option Mapping) : (t : Tree) → Decidable (Augmented c t)
  | Tree.nil => isTrue trivial
  | Tree.node l i r =>
    have : Decidable (Augmented c l) := decAugmented c l
    have : Decidable (Augmented c r) := decAugmented c r
    inferInstanceAs (Decidable (_ ∧ _ ∧ _))

instance decBlackPtr (c : Nat → Option Mapping) : (p : Ptr) → Decidable (blackPtr c p)
  | some i => inferInstanceAs (Decidable (colorOf c i = Color.kColorBlack))
  | none => isTrue trivial

instance decRedBlack (c : Nat → Option Mapping) :
    (t : Tree) → (n : Nat) → Decidable (RedBlack c t n)
  | Tree.nil, n => inferInstanceAs (Decidable (n = 0))
  | Tree.node l i r, n =>
    have : Decidable (RedBlack c l n) := decRedBlack c l n
    have : Decidable (RedBlack c r n) := decRedBlack c r n
    have : Decidable (RedBlack c l (n - 1)) := decRedBlack c l (n - 1)
    have : Decidable (RedBlack c r (n - 1)) := decRedBlack c r (n - 1)
    inferInstanceAs (Decidable ((_ ∧ _ ∧ _ ∧ _ ∧ _) ∨ (_ ∧ _ ∧ _ ∧ _)))

/-- The number of black nodes on the leftmost path of `t`. -/
def blackHeight (c : Nat → Option Mapping) : Tree → Nat
  | Tree.nil => 0
  | Tree.node l i _ =>
    if colorOf c i = Color.kColorBlack then blackHeight c l + 1 else blackHeight c l

/-- The tree invariants of the address tree of `s`, for the shape `t`: the
heap holds `t` at `p_root`, no node occurs twice, search-tree order, the
red-black rules with a black root, correct augment, correct order list. -/
def ValidTree (s : Space) (t : Tree) : Prop :=
  s.p_root = t.root ∧ Shape s.cells t none ∧ t.toList.Nodup ∧
    Ordered s.cells t.toList ∧ Fits s.cells t.toList ∧
    Linked s.cells none t.toList none ∧ Augmented s.cells t ∧
    blackPtr s.cells t.root ∧ RedBlack s.cells t (blackHeight s.cells t)

instance decValidTree (s : Space) (t : Tree) : Decidable (ValidTree s t) :=
  inferInstanceAs (Decidable (_ ∧ _ ∧ _ ∧ _ ∧ _ ∧ _ ∧ _ ∧ _ ∧ _))

/-- The address tree of `s` satisfies the tree invariants. -/
def Valid (s : Space) : Prop := ∃ t, ValidTree s t

/-- The operation `x` completes, and its result satisfies `p`. -/
def Returns {α : Type} (x : Except Err α) (p : α → Prop) : Prop :=
  match x with
  | Except.ok a => p a
  | Except.error _ => False

instance decReturns {α : Type} (x : Except Err α) (p : α → Prop) [DecidablePred p] :
    Decidable (Returns x p) :=
  match x with
  | Except.ok a => inferInstanceAs (Decidable (p a))
  | Except.error _ => isFalse (fun h => h)

/-! ## Scenarios -/

/-- A kernel heap without objects and an address space without mappings. -/
def emptySpace : Space :=
  { cells := fun _ => none, next := 0, p_root := none, p_pageSpace := 0 }

/-- An `allocated` memory object of `n` unbound page slots. -/
def blankMemory (n : Nat) : Memory :=
  { p_type := MemoryType.kTypeAllocated, flags := 0,
    p_physicalPages := List.replicate n noPage, master := none }

/-- Collaborators holding one memory object, number 0, of 16 page slots. -/
def oneMemoryEnv : Env :=
  { memories := fun i => if i = 0 then some (blankMemory 16) else none,
    nextMemory := 1, nextPageSpace := 1, pageOps := [] }

/-- The flags `prefer_bottom | read_write`. -/
def bottomReadWrite : Nat := kMapPreferBottom ||| kMapReadWrite
/-- The flags `prefer_top | read_write`. -/
def topReadWrite : Nat := kMapPreferTop ||| kMapReadWrite

/-- Map one page with `prefer_bottom`, `n` times in a row. -/
def mapPages (fuel : Nat) : Nat → Space × Env → Except Err (Space × Env)
  | 0, x => Except.ok x
  | n + 1, x => do
    let (s, e, _) ← map fuel x.1 x.2 (some 0) 0 kPageSize bottomReadWrite
    mapPages fuel n (s, e)

/-- A fresh address space (`setupDefaultMappings`) in which `n` single pages
were mapped with `prefer_bottom`. -/
def pagesMapped (n : Nat) : Except Err (Space × Env) := do
  let s ← setupDefaultMappings 16 emptySpace
  mapPages 16 n (s, oneMemoryEnv)

/-- The address of page `k` of the managed window. -/
def pageAddr (k : Nat) : Nat := 0x100000 + k * kPageSize

/-- The space `pagesMapped n` after unmapping the pages listed in `ks`. -/
def pagesUnmapped (n : Nat) : List Nat → Except Err (Space × Env)
  | [] => pagesMapped n
  | k :: ks => do
    let x ← pagesUnmapped n ks
    unmap 16 x.1 x.2 (pageAddr k) kPageSize

/-- The shape of the address tree after two single-page maps: the second
mapping is the root, between the first mapping and the remaining hole. -/
def twoMapsTree : Tree :=
  Tree.node (Tree.node Tree.nil 1 Tree.nil) 3 (Tree.node Tree.nil 4 Tree.nil)

/-- The shape of the address tree after seven single-page maps and the unmap
of page 3: the hole at page 3, object 7, is the root and has two children. -/
def sevenMapsTree : Tree :=
  Tree.node
    (Tree.node (Tree.node Tree.nil 1 Tree.nil) 3 (Tree.node Tree.nil 5 Tree.nil))
    7
    (Tree.node (Tree.node Tree.nil 9 Tree.nil) 11
      (Tree.node Tree.nil 13 (Tree.node Tree.nil 14 Tree.nil)))

/-- The shape of the address tree after nine single-page maps and the unmap of
pages 0 and 3. -/
def nineMapsTree : Tree :=
  Tree.node
    (Tree.node (Tree.node Tree.nil 1 Tree.nil) 3 (Tree.node Tree.nil 5 Tree.nil))
    7
    (Tree.node (Tree.node Tree.nil 9 Tree.nil) 11
      (Tree.node (Tree.node Tree.nil 13 Tree.nil) 15
        (Tree.node Tree.nil 17 (Tree.node Tree.nil 18 Tree.nil))))

/-- The shape of the address tree after three single-page maps and the unmap
of page 1. -/
def threeMapsTree : Tree :=
  Tree.node (Tree.node Tree.nil 1 Tree.nil) 3
    (Tree.node Tree.nil 5 (Tree.node Tree.nil 6 Tree.nil))


/-! ## Definitions used by the proofs -/

/-- Partial correctness: if the operation `x` completes, its result satisfies `Q`. -/
def Post {α : Type} (x : Except Err α) (Q : α → Prop) : Prop :=
  ∀ a, x = Except.ok a → Q a

/-- The fields of a mapping that describe the mapped range and its backing,
as opposed to the links, the colour and the augment of the address tree. -/
structure Keys where
  baseAddress : Nat
  length : Nat
  type : MappingType
  memoryRegion : Ptr
  memoryOffset : Nat
  flags : Nat
  writePermission : Bool
  executePermission : Bool
  deriving DecidableEq

/-- The range and backing fields of a mapping. -/
def Mapping.keys (m : Mapping) : Keys :=
  { baseAddress := m.baseAddress, length := m.length, type := m.type,
    memoryRegion := m.memoryRegion, memoryOffset := m.memoryOffset, flags := m.flags,
    writePermission := m.writePermission, executePermission := m.executePermission }

/-- Between `s` and `t` no object was created or destroyed and no object
changed its range or backing fields. -/
def KeyFrame (s t : Space) : Prop :=
  t.next = s.next ∧ t.p_pageSpace = s.p_pageSpace ∧
    ∀ j, (t.cells j).map Mapping.keys = (s.cells j).map Mapping.keys

/-- The object `i` is a hole of length at least `len`. -/
def Fitting (c : Nat → Option Mapping) (len : Nat) (i : Nat) : Prop :=
  typeOf c i = MappingType.kTypeHole ∧ len ≤ lengthOf c i

instance decFitting (c : Nat → Option Mapping) (len i : Nat) : Decidable (Fitting c len i) :=
  inferInstanceAs (Decidable (_ ∧ _))

/-- The holes of length at least `len` that have no such hole among their
proper ancestors in `t`, in address order. -/
def topFits (c : Nat → Option Mapping) (len : Nat) : Tree → List Nat
  | Tree.nil => []
  | Tree.node l i r => if Fitting c len i then [i] else topFits c len l ++ topFits c len r

/-- Some proper ancestor of the node `g` in `t` satisfies `P`. -/
def HasAncestor (P : Nat → Prop) : Tree → Nat → Prop
  | Tree.nil, _ => False
  | Tree.node l i r, g =>
    (g ∈ l.toList ∧ (P i ∨ HasAncestor P l g)) ∨ (g ∈ r.toList ∧ (P i ∨ HasAncestor P r g))

/-- The address space a scenario ends with (the empty one if it fails). -/
def scenarioSpace (x : Except Err (Space × Env)) : Space :=
  match x with
  | Except.ok r => r.1
  | Except.error _ => emptySpace


/-! ## Subtrees in their context -/

/-- The cells after the object `i` is overwritten with `m`. -/
def upd (c : Nat → Option Mapping) (i : Nat) (m : Mapping) : Nat → Option Mapping :=
  fun j => if j = i then some m else c j

/-- One step of the path from a subtree to the root: the parent of the subtree
and the subtree on the other side of that parent. -/
inductive Frame where
  | left (p : Nat) (sib : Tree) : Frame
  | right (sib : Tree) (p : Nat) : Frame

namespace Frame

/-- The parent node of a path step. -/
def id : Frame → Nat
  | left p _ => p
  | right _ p => p

/-- The subtree on the other side of the parent. -/
def sib : Frame → Tree
  | left _ t => t
  | right t _ => t

/-- Put a subtree below the parent of a path step. -/
def fill : Frame → Tree → Tree
  | left p sib, t => Tree.node t p sib
  | right sib p, t => Tree.node sib p t

end Frame

/-- Put a subtree at the end of a path; the path starts with the step next to
the subtree and ends with the step below the root. -/
def plug : List Frame → Tree → Tree
  | [], t => t
  | f :: fs, t => plug fs (f.fill t)

/-- The parent of the subtree at the end of a path. -/
def ctxParent : List Frame → Ptr
  | [] => none
  | f :: _ => some f.id

/-- The nodes before the subtree at the end of a path, in address order. -/
def ctxBefore : List Frame → List Nat
  | [] => []
  | Frame.left _ _ :: fs => ctxBefore fs
  | Frame.right sib p :: fs => ctxBefore fs ++ (sib.toList ++ [p])

/-- The nodes after the subtree at the end of a path, in address order. -/
def ctxAfter : List Frame → List Nat
  | [] => []
  | Frame.left p sib :: fs => (p :: sib.toList) ++ ctxAfter fs
  | Frame.right _ _ :: fs => ctxAfter fs

/-- The heap holds the path `fs` from the pointer `hole` up to the root
pointer `root`. -/
def ShapeCtx (c : Nat → Option Mapping) : List Frame → Ptr → Ptr → Prop
  | [], hole, root => hole = root
  | Frame.left p sib :: fs, hole, root =>
    (∃ m, c p = some m ∧ m.parentPtr = ctxParent fs ∧ m.leftPtr = hole ∧ m.rightPtr = sib.root) ∧
      Shape c sib (some p) ∧ ShapeCtx c fs (some p) root
  | Frame.right sib p :: fs, hole, root =>
    (∃ m, c p = some m ∧ m.parentPtr = ctxParent fs ∧ m.leftPtr = sib.root ∧ m.rightPtr = hole) ∧
      Shape c sib (some p) ∧ ShapeCtx c fs (some p) root

/-- The augment is correct along the path `fs` and in the subtrees beside it,
when the subtree at its end has the largest hole `v`. -/
def AugCtx (c : Nat → Option Mapping) : List Frame → Nat → Prop
  | [], _ => True
  | f :: fs, v =>
    largestHoleAt c (some f.id) = max (ownHole c f.id) (max v (largestHoleAt c f.sib.root)) ∧
      Augmented c f.sib ∧ AugCtx c fs (largestHoleAt c (some f.id))

/-- The heap of `s` holds the tree `t` at the root pointer, and no node occurs
twice in `t`. -/
def TreeAt (s : Space) (t : Tree) : Prop :=
  s.p_root = t.root ∧ Shape s.cells t none ∧ t.toList.Nodup

/-- The fields of a mapping other than `largestHole`. -/
def Mapping.noHole (m : Mapping) : Mapping := { m with largestHole := 0 }

/-- The fields of a mapping that a rotation leaves alone. -/
def Mapping.noRot (m : Mapping) : Mapping :=
  { m with largestHole := 0, leftPtr := none, rightPtr := none, parentPtr := none }

/-- The fields of a mapping that rebalancing leaves alone. -/
def Mapping.noFix (m : Mapping) : Mapping :=
  { m with largestHole := 0, leftPtr := none, rightPtr := none, parentPtr := none,
           color := Color.kColorNone }

/-- The fields of a mapping that the shape and the augment of the tree depend on. -/
def Mapping.treeData (m : Mapping) : Ptr × Ptr × Ptr × Nat × MappingType × Nat :=
  (m.leftPtr, m.rightPtr, m.parentPtr, m.largestHole, m.type, m.length)

/-- Between `s` and `t` no object was created or destroyed, and the part `f`
of every object is unchanged. -/
def Same {α : Type} (f : Mapping → α) (s t : Space) : Prop :=
  t.next = s.next ∧ t.p_pageSpace = s.p_pageSpace ∧
    ∀ j, (t.cells j).map f = (s.cells j).map f

/-- The value of `largestHole` that the own range and the children of `m` call for. -/
def wantedHole (c : Nat → Option Mapping) (m : Mapping) : Nat :=
  max (if m.type = MappingType.kTypeHole then m.length else 0)
    (max (largestHoleAt c m.leftPtr) (largestHoleAt c m.rightPtr))

/-- The fields of a mapping other than the three tree links. -/
def Mapping.noLinks (m : Mapping) : Mapping :=
  { m with leftPtr := none, rightPtr := none, parentPtr := none }

/-- The heap of `s` holds a tree with the in-order sequence `l` whose augment is correct. -/
def TreeInv (l : List Nat) (s : Space) : Prop :=
  ∃ t, TreeAt s t ∧ t.toList = l ∧ Augmented s.cells t

/-- The first element of a sequence as a pointer, or `d` for the empty sequence. -/
def headOr (l : List Nat) (d : Ptr) : Ptr :=
  match l with
  | [] => d
  | i :: _ => some i

/-- The last element of a sequence as a pointer, or `d` for the empty sequence. -/
def lastOr : List Nat → Ptr → Ptr
  | [], d => d
  | i :: rest, _ => lastOr rest (some i)

/-- The tree of `s` has the in-order sequence `l`, a correct augment and a
correct order list. -/
def ListInv (l : List Nat) (s : Space) : Prop :=
  TreeInv l s ∧ Linked s.cells none l none

/-- The cells after the fields of the object `i` are overwritten by `f`. -/
def updF (c : Nat → Option Mapping) (i : Nat) (f : Mapping → Mapping) : Nat → Option Mapping :=
  fun j => if j = i then (c i).map f else c j

/-- The cells after the fields of the object behind `p`, if any, are overwritten by `f`. -/
def updIf (c : Nat → Option Mapping) (p : Ptr) (f : Mapping → Mapping) : Nat → Option Mapping :=
  match p with
  | some i => updF c i f
  | none => c

/-- The fields of a mapping other than the two links of the order list. -/
def Mapping.noOrder (m : Mapping) : Mapping :=
  { m with lowerPtr := none, higherPtr := none }

/-- The bounds that the descent of an insertion has checked on its way down
the path `fs`: the new range `[base, wend)` lies after every node the descent
left to the right and before every node it left to the left. -/
def PathOk (c : Nat → Option Mapping) (base wend : Nat) : List Frame → Prop
  | [] => True
  | Frame.left p _ :: fs =>
    (base < baseOf c p ∧ wend ≤ baseOf c p) ∧ PathOk c base wend fs
  | Frame.right _ p :: fs =>
    (baseOf c p ≤ base ∧ add64 (baseOf c p) (lengthOf c p) ≤ base) ∧ PathOk c base wend fs

/-- The cells after `addressTreeInsert` made the fresh node `n` the left child
of `cur` and threaded it into the order list between `pred` and `cur`. -/
def linkLeft (c : Nat → Option Mapping) (n cur : Nat) (pred : Ptr) : Nat → Option Mapping :=
  updF (updF (updIf (updF (updF c cur (fun c => { c with leftPtr := some n })) n
    (fun c => { c with parentPtr := some cur })) pred
    (fun c => { c with higherPtr := some n })) n
    (fun c => { c with lowerPtr := pred, higherPtr := some cur })) cur
    (fun c => { c with lowerPtr := some n })

/-- The cells after `addressTreeInsert` made the fresh node `n` the right child
of `cur` and threaded it into the order list between `cur` and `succ`. -/
def linkRight (c : Nat → Option Mapping) (n cur : Nat) (succ : Ptr) : Nat → Option Mapping :=
  updIf (updF (updF (updF (updF c cur (fun c => { c with rightPtr := some n })) n
    (fun c => { c with parentPtr := some cur })) cur
    (fun c => { c with higherPtr := some n })) n
    (fun c => { c with lowerPtr := some cur, higherPtr := succ })) succ
    (fun c => { c with lowerPtr := some n })

/-- A mapping with all five links cleared, as `removeHalfLeaf` and
`replaceNode` leave the node they take out of the tree. -/
def Mapping.cleared (m : Mapping) : Mapping :=
  { m with leftPtr := none, rightPtr := none, parentPtr := none,
           lowerPtr := none, higherPtr := none }

/-- The two links of the order list. -/
def Mapping.order (m : Mapping) : Ptr × Ptr := (m.lowerPtr, m.higherPtr)

/-- The fields that the augment depends on. -/
def Mapping.aug (m : Mapping) : Nat × MappingType × Nat := (m.largestHole, m.type, m.length)

/-- The cells after `replaceNode` gave the tree links of `node` (whose fields
are `nm`) to `repl`. -/
def replaceTree (c : Nat → Option Mapping) (repl : Nat) (nm : Mapping) : Nat → Option Mapping :=
  updIf (updF (updIf (updF (updF c repl
    (fun m => { m with parentPtr := nm.parentPtr, color := nm.color })) repl
    (fun m => { m with leftPtr := nm.leftPtr })) nm.leftPtr
    (fun m => { m with parentPtr := some repl })) repl
    (fun m => { m with rightPtr := nm.rightPtr })) nm.rightPtr
    (fun m => { m with parentPtr := some repl })

/-- The cells after `replaceNode` also gave the place of `node` in the order
list to `repl` and cleared the links of `node`. -/
def replaceCells (c : Nat → Option Mapping) (node repl : Nat) (nm : Mapping) :
    Nat → Option Mapping :=
  updF (updIf (updF (updIf (replaceTree c repl nm) nm.lowerPtr
    (fun m => { m with higherPtr := some repl })) repl
    (fun m => { m with lowerPtr := nm.lowerPtr, higherPtr := nm.higherPtr })) nm.higherPtr
    (fun m => { m with lowerPtr := some repl })) node
    (fun m =>
      { m with leftPtr := none, rightPtr := none, parentPtr := none,
               lowerPtr := none, higherPtr := none })

/-! ## The invariants of an address space -/

/-- The first address of the managed virtual window. -/
def windowBase : Nat := 0x100000

/-- The end of the managed virtual window. -/
def windowEnd : Nat := 0x800000000000

/-- The mappings of the sequence `l` tile the range from `lo` to `hi`: the
first one starts at `lo`, each one is non-empty and starts where the one
before it ends, and the last one ends at `hi`. -/
def Covers (c : Nat → Option Mapping) : Nat → List Nat → Nat → Prop
  | lo, [], hi => lo = hi
  | lo, i :: rest, hi => baseOf c i = lo ∧ 0 < lengthOf c i ∧ Covers c (endOf c i) rest hi

/-- No two mappings that are neighbours in the sequence `l` are both holes. -/
def NoAdjacentHoles (c : Nat → Option Mapping) (l : List Nat) : Prop :=
  l.Chain' (fun i j =>
    ¬ (typeOf c i = MappingType.kTypeHole ∧ typeOf c j = MappingType.kTypeHole))

/-- The invariants of an address space that manages the range from `lo` to
`hi`: its tree has a correct augment and a correct order list, its mappings
tile the range, no two neighbours are holes, and every node of the tree was
allocated before the next allocation. -/
def RangeInv (lo hi : Nat) (s : Space) : Prop :=
  ∃ l, ListInv l s ∧ Covers s.cells lo l hi ∧ NoAdjacentHoles s.cells l ∧ ∀ i ∈ l, i < s.next

/-- The pointer `p` is null or points to an object of `l`. -/
def PtrIn (l : List Nat) (p : Ptr) : Prop := ∀ j, p = some j → j ∈ l

/-- All five links of the mapping are null or point to objects of `l`. -/
def Mapping.linksIn (l : List Nat) (m : Mapping) : Prop :=
  PtrIn l m.leftPtr ∧ PtrIn l m.rightPtr ∧ PtrIn l m.parentPtr ∧
    PtrIn l m.lowerPtr ∧ PtrIn l m.higherPtr

/-- The objects of `l` are closed under the links in `s`, the root of `s` is
null or in `l`, and every object outside `l` is in `s` as it was in `s0`. -/
def Foot (l : List Nat) (s0 s : Space) : Prop :=
  PtrIn l s.p_root ∧ (∀ i ∈ l, ∀ m, s.cells i = some m → m.linksIn l) ∧
    (s.next = s0.next ∧ s.p_pageSpace = s0.p_pageSpace ∧ ∀ j, j ∉ l → s.cells j = s0.cells j)

/-- The range and the kind of the object `i`. -/
def seg (c : Nat → Option Mapping) (i : Nat) : Nat × Nat × MappingType :=
  (baseOf c i, lengthOf c i, typeOf c i)

/-- The outcome `r` of carving a mapping out of a hole of the space `s` with
the mappings `l`: the new space has the tree invariants, the carved mapping
`r.2` is one of its mappings and has the kind none, and, under the side
condition `pre`, the mappings keep tiling every range that they tiled before,
without adjacent holes. -/
def Carved (s : Space) (l : List Nat) (pre : Prop) (r : Space × Nat) : Prop :=
  ∃ l', ListInv l' r.1 ∧ (∀ i ∈ l', i < r.1.next) ∧ r.2 ∈ l' ∧
    typeOf r.1.cells r.2 = MappingType.kTypeNone ∧ r.1.p_pageSpace = s.p_pageSpace ∧
    (∀ lo hi, hi < wordMod → Covers s.cells lo l hi → NoAdjacentHoles s.cells l → pre →
      Covers r.1.cells lo l' hi ∧ NoAdjacentHoles r.1.cells l')

/-- The flags `fixed | read_write`. -/
def fixedReadWrite : Nat := kMapFixed ||| kMapReadWrite

/-- The flags `prefer_bottom | prefer_top | read_write`. -/
def bothReadWrite : Nat := kMapPreferBottom ||| kMapPreferTop ||| kMapReadWrite

/-- A fresh address space: `setupDefaultMappings` on the empty heap. -/
def freshSpace : Except Err Space := setupDefaultMappings 16 emptySpace

/-- Scenario C up to the unmap: on a fresh address space, `map` of two pages
and then of one page, both with `prefer_bottom`; the result keeps the address
the second `map` returned. -/
def scenarioCMaps : Except Err (Space × Env × Nat) := do
  let s ← freshSpace
  let (s, e, _) ← map 16 s oneMemoryEnv (some 0) 0 0x2000 bottomReadWrite
  map 16 s e (some 0) 0 0x1000 bottomReadWrite

/-- Scenario C: the two maps followed by `unmap(0x100000, 0x2000)`. -/
def scenarioC : Except Err (Space × Env) := do
  let (s, e, _) ← scenarioCMaps
  unmap 16 s e 0x100000 0x2000

/-- The kind of the mapping that `getMapping` finds at `address`. -/
def lookupKind (s : Space) (address : Nat) : Except Err (Option MappingType) := do
  let p ← getMapping 16 s address
  Except.ok (p.map (typeOf s.cells))

/-- The operation does not complete. -/
def Rejected {α : Type} (x : Except Err α) : Prop := ∃ err, x = Except.error err

/-- The address space `freshSpace` as a value. -/
def theFreshSpace : Space :=
  match freshSpace with
  | Except.ok s => s
  | Except.error _ => emptySpace

/-- The permission bits of the flags of `map`. -/
def permissionMask : Nat := kMapReadOnly ||| kMapReadExecute ||| kMapReadWrite

/-- The flag `f` is present in `flags`. -/
def hasFlag (flags f : Nat) : Prop := flags &&& f ≠ 0

instance decHasFlag (flags f : Nat) : Decidable (hasFlag flags f) :=
  inferInstanceAs (Decidable (flags &&& f ≠ 0))

instance decCovers (c : Nat → Option Mapping) :
    (lo : Nat) → (l : List Nat) → (hi : Nat) → Decidable (Covers c lo l hi)
  | lo, [], hi => inferInstanceAs (Decidable (lo = hi))
  | _, i :: rest, hi =>
    have : Decidable (Covers c (endOf c i) rest hi) := decCovers c (endOf c i) rest hi
    inferInstanceAs (Decidable (_ ∧ _ ∧ _))

instance decNoAdjacentHoles (c : Nat → Option Mapping) (l : List Nat) :
    Decidable (NoAdjacentHoles c l) :=
  inferInstanceAs (Decidable (l.Chain' _))

instance decTreeAt (s : Space) (t : Tree) : Decidable (TreeAt s t) :=
  inferInstanceAs (Decidable (_ ∧ _ ∧ _))

/-- The outcome `s'` of an operation on the space `s` with the mappings `l`:
the new space has the tree invariants, its nodes are older than the next
allocation, and, under the side condition `pre`, its mappings keep tiling every
range that the mappings of `s` tiled, without adjacent holes. -/
def Kept (s : Space) (l : List Nat) (pre : Prop) (s' : Space) : Prop :=
  ∃ l', ListInv l' s' ∧ (∀ i ∈ l', i < s'.next) ∧ s'.p_pageSpace = s.p_pageSpace ∧
    (∀ lo hi, hi < wordMod → Covers s.cells lo l hi → NoAdjacentHoles s.cells l → pre →
      Covers s'.cells lo l' hi ∧ NoAdjacentHoles s'.cells l')

/-- Between `s` and `s'` only backing fields and the kind of the mapping `i`
changed, and `i` is not a hole in `s'`; the tree with the mappings `l` is intact. -/
def Relabelled (l : List Nat) (i : Nat) (s s' : Space) : Prop :=
  ListInv l s' ∧ s'.next = s.next ∧ s'.p_pageSpace = s.p_pageSpace ∧
    (∀ j, j ≠ i → seg s'.cells j = seg s.cells j) ∧
    baseOf s'.cells i = baseOf s.cells i ∧ lengthOf s'.cells i = lengthOf s.cells i ∧
    typeOf s'.cells i ≠ MappingType.kTypeHole

/-- The address spaces that arise from a new address space, whose tree is
empty, by `setupDefaultMappings` followed by any number of `map` and `unmap`
calls that complete; the address and the length handed to `map` are 64-bit
values. -/
inductive Reachable : Space → Prop
  | setup {fuel : Nat} {s0 s : Space} :
    s0.p_root = none → setupDefaultMappings fuel s0 = Except.ok s → Reachable s
  | map {fuel : Nat} {s : Space} {e : Env} {memory : Ptr} {address length flags : Nat}
      {r : Space × Env × Nat} :
    Reachable s → address < wordMod → length < wordMod →
      Thor.map fuel s e memory address length flags = Except.ok r → Reachable r.1
  | unmap {fuel : Nat} {s : Space} {e : Env} {address length : Nat} {r : Space × Env} :
    Reachable s → Thor.unmap fuel s e address length = Except.ok r → Reachable r.1

/-- The result of one `map` of a page with `prefer_bottom` on the fresh address
space, as a value. -/
def theMappedSpace : Space × Env × Nat :=
  match map 16 theFreshSpace oneMemoryEnv (some 0) 0 0x1000 bottomReadWrite with
  | Except.ok r => r
  | Except.error _ => (emptySpace, oneMemoryEnv, 0)

/-- The source space as `fork` sees it while it runs: the heap of the
destination `d`, which the two spaces share, with the root of the source. -/
def sourceView (d : Space) (root : Ptr) : Space := { d with p_root := root }

/-- The invariant of `cloneRecursive`: the shared heap holds the source tree
with the mappings `S` and the destination tree with the mappings `D`, both
with their invariants, the two trees share no mapping, and all their mappings
were allocated before the next allocation. -/
def CloneInv (root : Ptr) (S D : List Nat) (d : Space) : Prop :=
  ListInv S (sourceView d root) ∧ ListInv D d ∧ (∀ i ∈ S, i < d.next) ∧
    (∀ i ∈ D, i < d.next) ∧ ∀ i ∈ S, i ∉ D

/-- A mapping as its constructor leaves the tree fields: no links, and the
augment of a leaf. -/
def Mapping.unlinked (m : Mapping) : Prop :=
  m.leftPtr = none ∧ m.rightPtr = none ∧ m.parentPtr = none ∧ m.lowerPtr = none ∧
    m.higherPtr = none ∧
    m.largestHole = if m.type = MappingType.kTypeHole then m.length else 0

/-- The address spaces that arise from a new address space, whose tree is
empty, by `setupDefaultMappings` followed by any number of `map`, `unmap` and
`fork` calls that complete; `fork` leads to the source space as it is left
behind and to the forked space. -/
inductive ForkReachable : Space → Prop
  | setup {fuel : Nat} {s0 s : Space} :
    s0.p_root = none → setupDefaultMappings fuel s0 = Except.ok s → ForkReachable s
  | map {fuel : Nat} {s : Space} {e : Env} {memory : Ptr} {address length flags : Nat}
      {r : Space × Env × Nat} :
    ForkReachable s →
      Thor.map fuel s e memory address length flags = Except.ok r → ForkReachable r.1
  | unmap {fuel : Nat} {s : Space} {e : Env} {address length : Nat} {r : Space × Env} :
    ForkReachable s → Thor.unmap fuel s e address length = Except.ok r → ForkReachable r.1
  | forkSource {fuel : Nat} {s : Space} {e : Env} {r : Space × Space × Env} :
    ForkReachable s → fork fuel s e = Except.ok r → ForkReachable r.1
  | forkChild {fuel : Nat} {s : Space} {e : Env} {r : Space × Space × Env} :
    ForkReachable s → fork fuel s e = Except.ok r → ForkReachable r.2.1

/-- The order list of `s` is correct: the heap holds a tree at the root of
`s`, and following `higherPtr` from its first node enumerates its in-order
sequence, with `lowerPtr` as the inverse link and null at both ends. -/
def OrderListOk (s : Space) : Prop :=
  ∃ t, TreeAt s t ∧ Linked s.cells none t.toList none

/-- The augment of `s` is correct: the heap holds a tree at the root of `s`,
and every node of it has
`largestHole = max(own_hole, left.largestHole, right.largestHole)`. -/
def AugmentOk (s : Space) : Prop :=
  ∃ t, TreeAt s t ∧ Augmented s.cells t

/-- The result of `fork` on the address space with one mapped page, as a value. -/
def theForkedSpaces : Space × Space × Env :=
  match fork 16 theMappedSpace.1 theMappedSpace.2.1 with
  | Except.ok r => r
  | Except.error _ => (emptySpace, emptySpace, oneMemoryEnv)

/-- The first node of a tree in address order, or `d` for the empty tree. -/
def Tree.minId : Tree → Nat → Nat
  | Tree.nil, d => d
  | Tree.node l i _, _ => l.minId i

/-- The last node of a tree in address order, or `d` for the empty tree. -/
def Tree.maxId : Tree → Nat → Nat
  | Tree.nil, d => d
  | Tree.node _ i r, _ => r.maxId i

/-- The number of nodes on the longest path from the root to a leaf. -/
def Tree.height : Tree → Nat
  | Tree.nil => 0
  | Tree.node l _ r => max l.height r.height + 1

/-- The red-black rules hold on the path `fs` and in the subtrees beside it,
when every path of the subtree at its end has `k` black nodes; with `red`
set, the root of that subtree is red, so its parent has to be black. -/
def RBCtx (c : Nat → Option Mapping) : List Frame → Nat → Bool → Prop
  | [], _, red => red = false
  | f :: fs, k, red =>
    RedBlack c f.sib k ∧
      ((colorOf c f.id = Color.kColorRed ∧ red = false ∧ blackPtr c f.sib.root ∧
          RBCtx c fs k true) ∨
        (colorOf c f.id = Color.kColorBlack ∧ RBCtx c fs (k + 1) false))

/-- The state of the path `fs` when `fixAfterInsert` is called for the node at
its end: the red-black rules hold around the path for a red node at its end,
except that the parent of that node may be red as well. -/
def RBViol (c : Nat → Option Mapping) : List Frame → Nat → Prop
  | [], _ => True
  | f :: fs, k =>
    RedBlack c f.sib k ∧
      ((colorOf c f.id = Color.kColorRed ∧ blackPtr c f.sib.root ∧ RBCtx c fs k true) ∨
        (colorOf c f.id = Color.kColorBlack ∧ RBCtx c fs (k + 1) false))

/-- The heap of `s` holds a tree with the in-order sequence `l`, a correct
augment, a black root and the red-black rules. -/
def RBTree (s : Space) (l : List Nat) : Prop :=
  ∃ t, TreeAt s t ∧ t.toList = l ∧ Augmented s.cells t ∧ blackPtr s.cells t.root ∧
    ∃ K, RedBlack s.cells t K

/-- The colour and the range of a mapping. -/
def Mapping.paint (m : Mapping) : Color × Nat × Nat := (m.color, m.baseAddress, m.length)

/-- The range `[base, base + len)` lies apart from the range of the object `i`. -/
def Apart (c : Nat → Option Mapping) (base len i : Nat) : Prop :=
  base + len ≤ baseOf c i ∨ endOf c i ≤ base

instance decApart (c : Nat → Option Mapping) (base len i : Nat) : Decidable (Apart c base len i) :=
  inferInstanceAs (Decidable (_ ∨ _))

instance decUnlinked (m : Mapping) : Decidable m.unlinked :=
  inferInstanceAs (Decidable (_ ∧ _ ∧ _ ∧ _ ∧ _ ∧ _))

/-- The five links of the object `i`. -/
def linksOf (c : Nat → Option Mapping) (i : Nat) : Option (Ptr × Ptr × Ptr × Ptr × Ptr) :=
  (c i).map (fun m => (m.leftPtr, m.rightPtr, m.parentPtr, m.lowerPtr, m.higherPtr))

/-- The fresh address space, whose tree is the one hole that starts at
0x100000, with one more object constructed: a mapping of kind none with the
base 0x100000 and the length 0. -/
def emptyRangeSpace : Space :=
  (theFreshSpace.construct (Mapping.mk0 MappingType.kTypeNone 0x100000 0)).1

/-- The fresh address space with one more object: a hole of one page below
the managed window whose `largestHole` is 0 instead of its length. -/
def staleAugmentSpace : Space :=
  (theFreshSpace.construct
    { Mapping.mk0 MappingType.kTypeHole 0x1000 0x1000 with largestHole := 0 }).1

/-- The fresh address space with one more object constructed: a mapping of
kind none of one page below the managed window. -/
def belowWindowSpace : Space :=
  (theFreshSpace.construct (Mapping.mk0 MappingType.kTypeNone 0x1000 0x1000)).1

/-! ## The page-fault handler -/

/-- The physical side of the machine as `handleFault` uses it: `free` holds
the frames that the physical allocator hands out on its next calls, in that
order, `allocated` records the frames handed out so far (most recent last),
and `bytes` is the content of physical memory, one byte per physical address. -/
structure Phys where
  free : List Nat
  allocated : List Nat
  bytes : Nat → Nat

/-- Modelled from the spec: the physical page allocator is a collaborator of
which only the call `physicalAllocator->allocate(physical_guard, 1)` is used.
The call hands out the next frame of `free`; an allocator without a frame
left does not return. -/
def Phys.allocate (p : Phys) : Except Err (Phys × Nat) :=
  match p.free with
  | f :: rest => Except.ok ({ p with free := rest, allocated := p.allocated ++ [f] }, f)
  | [] => Except.error Err.assertion

/-- The call `memcpy(physicalToVirtual(dest), physicalToVirtual(src), n)`:
the `n` bytes at `dest` become the `n` bytes that were at `src`. -/
def Phys.memcpy (p : Phys) (dest src n : Nat) : Phys :=
  { p with bytes := fun a =>
      if dest ≤ a ∧ a < dest + n then p.bytes (src + (a - dest)) else p.bytes a }

/-- The function `Memory::setPage`. -/
def Memory.setPage (m : Memory) (index page : Nat) : Except Err Memory :=
  if index < m.p_physicalPages.length then
    Except.ok { m with p_physicalPages := m.p_physicalPages.set index page }
  else Except.error Err.bounds

/-- The call `memory->setPage(index, page)` on the `Memory` object behind a pointer. -/
def Env.setPage (e : Env) (memory : Ptr) (index page : Nat) : Except Err Env := do
  let mem ← e.getMemory memory
  let mem ← mem.setPage index page
  let i ← deref memory
  Except.ok { e with memories := fun j => if j = i then some mem else e.memories j }

/-- One more call to the page-table facade. -/
def Env.issue (e : Env) (op : PageOp) : Env := { e with pageOps := e.pageOps ++ [op] }

/-- The function `AddressSpace::handleFault`.  The result is the address
space, the collaborators and the physical side as the call leaves them, and
the value returned. -/
def handleFault (fuel : Nat) (s : Space) (e : Env) (p : Phys) (address flags : Nat) :
    Except Err (Space × Env × Phys × Bool) := do
  let found ← getMapping fuel s address
  match found with
  | none => Except.ok (s, e, p, false)
  | some mapping => do
    let m ← s.get mapping
    if m.type ≠ MappingType.kTypeMemory then
      Except.ok (s, e, p, false)
    else do
      let offset := sub64 address m.baseAddress
      let page_vaddr := sub64 address (address % kPageSize)
      let page_index := offset / kPageSize
      let memory := m.memoryRegion
      let mem ← e.getMemory memory
      if mem.p_type = MemoryType.kTypeAllocated ∧ mem.flags &&& kFlagOnDemand ≠ 0 then do
        -- allocate a new page
        let (p, physical) ← p.allocate
        let page ← mem.getPage page_index
        assert (decide (page = noPage))
        let e ← e.setPage memory page_index physical
        -- map the new page into the address space;
        -- `if(mapping->executePermission);` is an empty statement
        let page_flags := (if m.writePermission then kAccessWrite else 0) ||| kAccessExecute
        let e := e.issue (PageOp.mapSingle4k s.p_pageSpace page_vaddr physical true page_flags)
        Except.ok (s, e, p, true)
      else if mem.p_type = MemoryType.kTypeCopyOnWrite then do
        -- allocate a new page and copy content from the master page
        let (p, physical) ← p.allocate
        let master ← e.getMemory mem.master
        let origin ← master.getPage page_index
        assert (decide (origin ≠ noPage))
        let p := p.memcpy physical origin kPageSize
        let page ← mem.getPage page_index
        assert (decide (page = noPage))
        let e ← e.setPage memory page_index physical
        -- map the new page into the address space;
        -- `if(mapping->executePermission);` is an empty statement
        let page_flags := (if m.writePermission then kAccessWrite else 0) ||| kAccessExecute
        let e := e.issue (PageOp.unmapSingle4k s.p_pageSpace page_vaddr)
        let e := e.issue (PageOp.mapSingle4k s.p_pageSpace page_vaddr physical true page_flags)
        Except.ok (s, e, p, true)
      else
        Except.ok (s, e, p, false)

/-! ## Definitions used by the proofs about page tables and faults -/

/-- The `Memory` object `m` after slot `index` of its page vector is set to
`page`; no other slot and no other field changes. -/
def Memory.withPage (m : Memory) (index page : Nat) : Memory :=
  { m with p_physicalPages := m.p_physicalPages.set index page }

instance decEqExcept {α : Type} [DecidableEq α] : DecidableEq (Except Err α)
  | Except.ok a, Except.ok b => decidable_of_iff (a = b) (by simp)
  | Except.error a, Except.error b => decidable_of_iff (a = b) (by simp)
  | Except.ok _, Except.error _ => isFalse (by simp)
  | Except.error _, Except.ok _ => isFalse (by simp)

/-- The page-table calls of the install loop for the slot `i` of the page
vector `pages`: none for an unbound slot, else the mapping of the frame at
`base + i * kPageSize`, after an unmapping when `remap` is set. -/
def slotOps (pages : List Nat) (space base page_flags : Nat) (remap : Bool) (i : Nat) :
    List PageOp :=
  if pages.getD i noPage = noPage then []
  else
    (if remap then [PageOp.unmapSingle4k space (add64 base (mul64 i kPageSize))] else []) ++
      [PageOp.mapSingle4k space (add64 base (mul64 i kPageSize)) (pages.getD i noPage) true
        page_flags]

/-- The page-table calls of the install loop for `count` slots from slot `i` on. -/
def installOps (pages : List Nat) (space base page_flags : Nat) (remap : Bool) :
    Nat → Nat → List PageOp
  | 0, _ => []
  | count + 1, i =>
    slotOps pages space base page_flags remap i ++
      installOps pages space base page_flags remap count (i + 1)

/-- Modelled from the spec: the page-table facade `PageSpace` is a
collaborator with the calls `mapSingle4k` and `unmapSingle4k`.  The entry of
page space `space` at `vaddr` after the calls `ops`: the frame, the user bit
and the permissions of the last `mapSingle4k` there, unless an
`unmapSingle4k` there came after it. -/
def entryOf (space vaddr : Nat) (ops : List PageOp) : Option (Nat × Bool × Nat) :=
  ops.foldl (fun cur op =>
    match op with
    | PageOp.mapSingle4k sp v physical user flags =>
      if sp = space ∧ v = vaddr then some (physical, user, flags) else cur
    | PageOp.unmapSingle4k sp v => if sp = space ∧ v = vaddr then none else cur) none

/-- The page-table call `op` is made on page space `space` at `vaddr`. -/
def PageOp.touches (space vaddr : Nat) : PageOp → Bool
  | PageOp.mapSingle4k sp v _ _ _ => decide (sp = space ∧ v = vaddr)
  | PageOp.unmapSingle4k sp v => decide (sp = space ∧ v = vaddr)

/-- The page space on which the page-table call `op` is made. -/
def PageOp.space : PageOp → Nat
  | PageOp.mapSingle4k sp _ _ _ _ => sp
  | PageOp.unmapSingle4k sp _ => sp

/-- The permissions of `map` for the flags `flags`: write for `read_write`,
execute for `read_execute`, none otherwise. -/
def mapPageFlags (flags : Nat) : Nat :=
  if flags &&& permissionMask = kMapReadWrite then kAccessWrite
  else if flags &&& permissionMask = kMapReadExecute then kAccessExecute
  else 0

/-! ## Scenarios with faults -/

/-- A heap with one `Memory` object of type allocated with the on-demand flag
and `n` unbound page slots. -/
def onDemandEnv (n : Nat) : Env :=
  { memories := fun i =>
      if i = 0 then some { blankMemory n with flags := kFlagOnDemand } else none,
    nextMemory := 1, nextPageSpace := 1, pageOps := [] }

/-- A physical side whose allocator hands out the frames `0x200000`,
`0x201000`, `0x202000` and whose memory holds the byte `a % 251` at address `a`. -/
def somePhys : Phys :=
  { free := [0x200000, 0x201000, 0x202000], allocated := [], bytes := fun a => a % 251 }

/-- A heap with one `Memory` object of type allocated whose three page slots
hold the frame `0x300000`, no frame, and the frame `0x302000`. -/
def threeSlotEnv : Env :=
  { memories := fun i =>
      if i = 0 then
        some { p_type := MemoryType.kTypeAllocated, flags := 0,
               p_physicalPages := [0x300000, noPage, 0x302000], master := none }
      else none,
    nextMemory := 1, nextPageSpace := 1, pageOps := [] }

/-- The `Memory` object of `threeSlotEnv`. -/
def threeSlotMemory : Memory :=
  { p_type := MemoryType.kTypeAllocated, flags := 0,
    p_physicalPages := [0x300000, noPage, 0x302000], master := none }

/-- The result of `map` of the three pages of `threeSlotEnv` with
`prefer_bottom | read_write` on the fresh address space, as a value. -/
def theThreeSlotMap : Space × Env × Nat :=
  match map 16 theFreshSpace threeSlotEnv (some 0) 0 0x3000 bottomReadWrite with
  | Except.ok r => r
  | Except.error _ => (emptySpace, threeSlotEnv, 0)

/-- The `Memory` object behind the mapping `i` is one whose faults
`handleFault` resolves: it is of type allocated with the on-demand flag, or of
type copy-on-write. -/
def resolvingMemory (s : Space) (e : Env) (i : Nat) : Bool :=
  match s.cells i with
  | some m =>
    match e.getMemory m.memoryRegion with
    | Except.ok mem =>
      (decide (mem.p_type = MemoryType.kTypeAllocated) &&
        decide (mem.flags &&& kFlagOnDemand ≠ 0)) ||
        decide (mem.p_type = MemoryType.kTypeCopyOnWrite)
    | Except.error _ => false
  | none => false

/-- The fault at `address` is one that `handleFault` resolves: a mapping of
the sequence `l` contains the address, its kind is memory, and its `Memory`
object is of type allocated with the on-demand flag or of type copy-on-write. -/
def Resolvable (s : Space) (e : Env) (l : List Nat) (address : Nat) : Prop :=
  ∃ i ∈ l, baseOf s.cells i ≤ address ∧ address < endOf s.cells i ∧
    typeOf s.cells i = MappingType.kTypeMemory ∧ resolvingMemory s e i = true

instance decResolvable (s : Space) (e : Env) (l : List Nat) (address : Nat) :
    Decidable (Resolvable s e l address) :=
  inferInstanceAs (Decidable (∃ i ∈ l, _))

/-- Scenario D, the mapping: four unbound on-demand pages mapped with
`prefer_bottom | read_write` on the fresh address space, as a value. -/
def theOnDemandMap : Space × Env × Nat :=
  match map 16 theFreshSpace (onDemandEnv 4) (some 0) 0 0x4000 bottomReadWrite with
  | Except.ok r => r
  | Except.error _ => (emptySpace, onDemandEnv 4, 0)

/-- Scenario D, the first touch: the fault at `0x101234`, in page 1 of the
mapping, as a value. -/
def theFirstFault : Space × Env × Phys × Bool :=
  match handleFault 16 theOnDemandMap.1 theOnDemandMap.2.1 somePhys 0x101234 0 with
  | Except.ok r => r
  | Except.error _ => (emptySpace, onDemandEnv 4, somePhys, false)

/-- Scenario E, the fork: `fork` of the address space `theThreeSlotMap`, whose
one mapping is writable and has the pages 0 and 2 bound, as a value. -/
def theThreeSlotFork : Space × Space × Env :=
  match fork 16 theThreeSlotMap.1 theThreeSlotMap.2.1 with
  | Except.ok r => r
  | Except.error _ => (emptySpace, emptySpace, threeSlotEnv)

/-- Scenario E, the write in the parent: the fault at `0x100010`, in page 0 of
the mapping, in the source space of the fork, as a value. -/
def theParentWrite : Space × Env × Phys × Bool :=
  match handleFault 16 theThreeSlotFork.1 theThreeSlotFork.2.2 somePhys 0x100010 0 with
  | Except.ok r => r
  | Except.error _ => (emptySpace, threeSlotEnv, somePhys, false)

/-- The tree of an address space with one mapping at the bottom of the window:
the mapping (object 1) is the root, the hole after it (object 2) its right child. -/
def oneMapTree : Tree := Tree.node Tree.nil 1 (Tree.node Tree.nil 2 Tree.nil)

/-- The mapping of scenario D (object 1 of `theOnDemandMap`). -/
def theOnDemandMapping : Mapping :=
  (theOnDemandMap.1.cells 1).getD (Mapping.mk0 MappingType.kTypeNone 0 0)

/-- The mapping of scenario E in the source space after the fork (object 1). -/
def theParentMapping : Mapping :=
  (theThreeSlotFork.1.cells 1).getD (Mapping.mk0 MappingType.kTypeNone 0 0)

/-- The copy-on-write `Memory` object of the source space in scenario E. -/
def theParentMemory : Memory :=
  { p_type := MemoryType.kTypeCopyOnWrite, flags := 0,
    p_physicalPages := [noPage, noPage, noPage], master := some 0 }

/-! ## Definitions used by the proofs about `fork` -/

/-- The pre-order sequence of a tree: the order in which `cloneRecursive`
visits the mappings. -/
def Tree.preorder : Tree → List Nat
  | Tree.nil => []
  | Tree.node l i r => i :: (l.preorder ++ r.preorder)

/-- The part of `cloneRecursive` that handles the mapping itself: all of its
body before the two recursive calls. -/
def cloneNode (full srcPageSpace : Nat) (d : Space) (e : Env) (mapping : Nat) :
    Except Err (Space × Env) := do
  let m ← d.get mapping
  let (d, dest_mapping) := d.construct (Mapping.mk0 m.type m.baseAddress m.length)
  let (d, e) ←
    if m.type = MappingType.kTypeHole then
      Except.ok (d, e)
    else if m.type = MappingType.kTypeMemory ∧ m.flags &&& kFlagShareOnFork ≠ 0 then do
      let memory := m.memoryRegion
      let mem ← e.getMemory memory
      assert (decide (mem.p_type = MemoryType.kTypeAllocated)
        || decide (mem.p_type = MemoryType.kTypePhysical))
      let page_flags := (if m.writePermission then kAccessWrite else 0) ||| kAccessExecute
      let dm ← d.get dest_mapping
      let ops ← installLoop e memory d.p_pageSpace dm.baseAddress page_flags false
        (dm.length / kPageSize) 0 e.pageOps
      let d ← d.modify dest_mapping (fun c =>
        { c with memoryRegion := memory, writePermission := m.writePermission,
                 executePermission := m.executePermission })
      Except.ok (d, { e with pageOps := ops })
    else if m.type = MappingType.kTypeMemory then do
      let memory := m.memoryRegion
      let mem ← e.getMemory memory
      assert (decide (mem.p_type = MemoryType.kTypeAllocated))
      let page_flags := kAccessExecute
      let (e, src_memory) ← e.makeCopyOnWrite mem.p_physicalPages.length memory
      let d ← d.modify mapping (fun c => { c with memoryRegion := some src_memory })
      let ops ← installLoop e memory srcPageSpace m.baseAddress page_flags true
        (m.length / kPageSize) 0 e.pageOps
      let e := { e with pageOps := ops }
      let (e, dest_memory) ← e.makeCopyOnWrite mem.p_physicalPages.length memory
      let d ← d.modify dest_mapping (fun c => { c with memoryRegion := some dest_memory })
      let ops ← installLoop e memory d.p_pageSpace m.baseAddress page_flags false
        (m.length / kPageSize) 0 e.pageOps
      let d ← d.modify dest_mapping (fun c =>
        { c with writePermission := m.writePermission,
                 executePermission := m.executePermission })
      Except.ok (d, { e with pageOps := ops })
    else
      Except.error Err.assertion
  let d ← addressTreeInsert full d dest_mapping
  Except.ok (d, e)

/-- The two recursive calls of `cloneRecursive` on the mapping `mapping`, with
`fuel` for each. -/
def cloneChildren (full srcPageSpace fuel : Nat) (d : Space) (e : Env) (mapping : Nat) :
    Except Err (Space × Env) := do
  let m ← d.get mapping
  let (d, e) ← match m.leftPtr with
    | some l => cloneRecursive full srcPageSpace fuel d e l
    | none => Except.ok (d, e)
  let m ← d.get mapping
  match m.rightPtr with
  | some r => cloneRecursive full srcPageSpace fuel d e r
  | none => Except.ok (d, e)

/-- The flag share-on-fork is set in the mapping. -/
def Mapping.shared (m : Mapping) : Prop := m.flags &&& kFlagShareOnFork ≠ 0

instance decShared (m : Mapping) : Decidable m.shared :=
  inferInstanceAs (Decidable (_ ≠ _))

/-- The mapping is a memory mapping without share-on-fork: `fork` breaks it
to copy-on-write. -/
def Mapping.breaks (m : Mapping) : Prop := m.type = MappingType.kTypeMemory ∧ ¬ m.shared

instance decBreaks (m : Mapping) : Decidable m.breaks :=
  inferInstanceAs (Decidable (_ ∧ _))

/-- The copy-on-write `Memory` object that `fork` creates for a `Memory`
object of `n` page slots behind the pointer `master`. -/
def cowMemory (n : Nat) (master : Ptr) : Memory :=
  { p_type := MemoryType.kTypeCopyOnWrite, flags := 0,
    p_physicalPages := List.replicate n noPage, master := master }

/-- The destination mapping that `cloneRecursive` builds for the source
mapping `m`, as it is when it is inserted into the destination tree; `a` is
the number of the next `Memory` object when `m` is visited. -/
def cloneCell (m : Mapping) (a : Nat) : Mapping :=
  if m.type = MappingType.kTypeHole then Mapping.mk0 m.type m.baseAddress m.length
  else
    { Mapping.mk0 m.type m.baseAddress m.length with
      memoryRegion := if m.shared then m.memoryRegion else some (a + 1),
      writePermission := m.writePermission, executePermission := m.executePermission }

/-- The source mapping `m` as `cloneRecursive` leaves it; `a` is the number of
the next `Memory` object when `m` is visited. -/
def sourceCell (m : Mapping) (a : Nat) : Mapping :=
  if m.breaks then { m with memoryRegion := some a } else m

/-- The heap as `cloneRecursive` prepares it for the insertion of the copy of
the source mapping `m`, the object `i`. -/
def cloneSpace (d : Space) (i : Nat) (m : Mapping) (a : Nat) : Space :=
  { d with cells := upd (upd d.cells i (sourceCell m a)) d.next (cloneCell m a),
           next := d.next + 1 }

/-- The page-table calls of `cloneRecursive` for the source mapping `m` whose
`Memory` object has the page vector `pages`; `sps` and `dps` are the page
spaces of the source and of the destination. -/
def cloneOps (m : Mapping) (pages : List Nat) (sps dps : Nat) : List PageOp :=
  if m.type = MappingType.kTypeHole then []
  else if m.shared then
    installOps pages dps m.baseAddress
      ((if m.writePermission then kAccessWrite else 0) ||| kAccessExecute) false
      (m.length / kPageSize) 0
  else
    installOps pages sps m.baseAddress kAccessExecute true (m.length / kPageSize) 0 ++
      installOps pages dps m.baseAddress kAccessExecute false (m.length / kPageSize) 0

/-- The collaborators as `cloneRecursive` leaves them after the source mapping
`m` whose `Memory` object has the page vector `pages`. -/
def cloneEnv (e : Env) (m : Mapping) (pages : List Nat) (sps dps : Nat) : Env :=
  if m.breaks then
    { memories := fun j =>
        if j = e.nextMemory + 1 then some (cowMemory pages.length m.memoryRegion)
        else if j = e.nextMemory then some (cowMemory pages.length m.memoryRegion)
        else e.memories j,
      nextMemory := e.nextMemory + 2, nextPageSpace := e.nextPageSpace,
      pageOps := e.pageOps ++ cloneOps m pages sps dps }
  else { e with pageOps := e.pageOps ++ cloneOps m pages sps dps }

/-- The page vector of the `Memory` object behind the pointer `memory`. -/
def pagesOf (e : Env) (memory : Ptr) : List Nat :=
  match e.getMemory memory with
  | Except.ok mem => mem.p_physicalPages
  | Except.error _ => []

/-- The mapping `m` is one that `fork` can clone: it is a hole, or a memory
mapping whose `Memory` object is an older object of the heap with a page slot
for every page of the mapping, of type allocated or, with share-on-fork,
physical, and with at least one page slot unless it is shared. -/
def Forkable (e : Env) (m : Mapping) : Prop :=
  m.type = MappingType.kTypeHole ∨
    (m.type = MappingType.kTypeMemory ∧
      ∃ k mem, m.memoryRegion = some k ∧ k < e.nextMemory ∧ e.memories k = some mem ∧
        m.length / kPageSize ≤ mem.p_physicalPages.length ∧
        (m.shared → mem.p_type = MemoryType.kTypeAllocated ∨
          mem.p_type = MemoryType.kTypePhysical) ∧
        (¬ m.shared → mem.p_type = MemoryType.kTypeAllocated ∧
          0 < mem.p_physicalPages.length))

/-- The page-table calls of `cloneRecursive` for the object `i` of the source
heap `c0`, with the `Memory` objects of `e0`. -/
def nodeOps (c0 : Nat → Option Mapping) (e0 : Env) (sps dps : Nat) (i : Nat) : List PageOp :=
  match c0 i with
  | some m0 => cloneOps m0 (pagesOf e0 m0.memoryRegion) sps dps
  | none => []

/-- The object `j` is the copy that `cloneRecursive` made of the source mapping
`i`: with `m0` the source mapping as it was before the fork and `a` the number
of the next `Memory` object when it was visited, the source mapping now is
`sourceCell m0 a`, the range and backing fields of `j` are those of
`cloneCell m0 a`, and, if the mapping was broken to copy-on-write, the `Memory`
objects `a` and `a + 1` are the two fresh copy-on-write objects. -/
def Copied (c0 : Nat → Option Mapping) (e0 : Env) (d : Space) (e : Env) (i j : Nat) : Prop :=
  ∃ m0 a, c0 i = some m0 ∧ e0.nextMemory ≤ a ∧ d.cells i = some (sourceCell m0 a) ∧
    (d.cells j).map Mapping.keys = some (cloneCell m0 a).keys ∧
    (m0.breaks → a + 2 ≤ e.nextMemory ∧
      e.memories a =
        some (cowMemory (pagesOf e0 m0.memoryRegion).length m0.memoryRegion) ∧
      e.memories (a + 1) =
        some (cowMemory (pagesOf e0 m0.memoryRegion).length m0.memoryRegion))

/-- The state of `cloneRecursive` after it visited the source mappings `V`, in
this order: `c0`, `e0` and `n0` are the source heap, the collaborators and the
number of the next object before the fork, `S` is the sequence of the source
mappings, `sps` and `dps` are the page spaces of the source and of the
destination. -/
structure Walk (c0 : Nat → Option Mapping) (e0 : Env) (n0 sps dps : Nat) (S V : List Nat)
    (d : Space) (e : Env) : Prop where
  next_eq : d.next = n0 + V.length
  space_eq : d.p_pageSpace = dps
  visited : ∀ i ∈ V, i ∈ S
  nodup : V.Nodup
  unvisited : ∀ i ∈ S, i ∉ V → d.cells i = c0 i
  dest : ∃ Dt, ValidTree d Dt ∧
    (∀ j ∈ Dt.toList, n0 ≤ j ∧ j < d.next ∧ ∃ i ∈ V, Copied c0 e0 d e i j) ∧
    (∀ i ∈ V, ∃ j ∈ Dt.toList, Copied c0 e0 d e i j)
  mem_old : ∀ k, k < e0.nextMemory → e.memories k = e0.memories k
  mem_next : e0.nextMemory ≤ e.nextMemory
  ops : e.pageOps = e0.pageOps ++ V.flatMap (nodeOps c0 e0 sps dps)

/-- The layout of the object `i`: its range and kind, and, for a memory
mapping, its write and execute permissions. -/
def layout (c : Nat → Option Mapping) (i : Nat) : Nat × Nat × MappingType × Bool × Bool :=
  (baseOf c i, lengthOf c i, typeOf c i,
    decide (typeOf c i = MappingType.kTypeMemory) && fieldOf c Mapping.writePermission false i,
    decide (typeOf c i = MappingType.kTypeMemory) && fieldOf c Mapping.executePermission false i)

/-- The range, the kind and the permission fields of the object `i`. -/
def rangePerms (c : Nat → Option Mapping) (i : Nat) : Nat × Nat × MappingType × Bool × Bool :=
  (baseOf c i, lengthOf c i, typeOf c i, fieldOf c Mapping.writePermission false i,
    fieldOf c Mapping.executePermission false i)

/-- The source space as `fork` leaves it, given the destination space: the two
share the heap. -/
def sourceAfter (s d : Space) : Space := { s with cells := d.cells, next := d.next }

/-- The virtual address at which the page-table call `op` is made. -/
def PageOp.vaddr : PageOp → Nat
  | PageOp.mapSingle4k _ v _ _ _ => v
  | PageOp.unmapSingle4k _ v => v

/-- The flags `prefer_bottom | read_write | share_on_fork`. -/
def sharedReadWrite : Nat := kMapPreferBottom ||| kMapReadWrite ||| kMapShareOnFork

/-- The result of `map` of the three pages of `threeSlotEnv` with
`prefer_bottom | read_write | share_on_fork` on the fresh address space, as a
value. -/
def theSharedMap : Space × Env × Nat :=
  match map 16 theFreshSpace threeSlotEnv (some 0) 0 0x3000 sharedReadWrite with
  | Except.ok r => r
  | Except.error _ => (emptySpace, threeSlotEnv, 0)

/-! ## The function `Memory::copyTo` -/

/-- The call `memcpy(physicalToVirtual(dest), source, n)` for a source buffer
that lies outside of the frames: byte `k` of the buffer is `source k`, and the
`n` bytes at `dest` become the first `n` bytes of the buffer. -/
def Phys.store (p : Phys) (dest : Nat) (source : Nat → Nat) (n : Nat) : Phys :=
  { p with bytes := fun a => if dest ≤ a ∧ a < dest + n then source (a - dest) else p.bytes a }

/-- The loop `while(length - disp >= kPageSize)` of `Memory::copyTo`.  The
list `seen` collects the indices at which `p_physicalPages` is read; the
result holds the physical side, that list, `disp` and `index` as the loop
leaves them. -/
def copyLoop (m : Memory) (offset : Nat) (source : Nat → Nat) (length : Nat) :
    Nat → Phys → List Nat → Nat → Nat → Except Err (Phys × List Nat × Nat × Nat)
  | 0, _, _, _, _ => Except.error Err.fuel
  | fuel + 1, p, seen, disp, index =>
    if sub64 length disp ≥ kPageSize then do
      assert (decide (add64 offset disp % kPageSize = 0))
      let page ← m.getPage index
      assert (decide (page ≠ noPage))
      let p := p.store page (fun k => source (disp + k)) kPageSize
      copyLoop m offset source length fuel p (seen ++ [index]) (add64 disp kPageSize)
        (add64 index 1)
    else Except.ok (p, seen, disp, index)

/-- The function `Memory::copyTo`.  The result is the physical side as the
call leaves it and the indices at which `p_physicalPages` was read, in the
order of the reads. -/
def Memory.copyTo (m : Memory) (fuel : Nat) (p : Phys) (offset : Nat) (source : Nat → Nat)
    (length : Nat) : Except Err (Phys × List Nat) := do
  assert (decide (m.p_type = MemoryType.kTypeAllocated))
  let disp := 0
  let index := offset / kPageSize
  let misalign := offset % kPageSize
  let (p, seen, disp, index) ←
    if misalign > 0 then do
      let pre := min (sub64 kPageSize misalign) length
      let page ← m.getPage index
      assert (decide (page ≠ noPage))
      let p := p.store (page + misalign) source pre
      Except.ok (p, [index], add64 disp pre, add64 index 1)
    else Except.ok (p, [], disp, index)
  let (p, seen, disp, index) ← copyLoop m offset source length fuel p seen disp index
  if sub64 length disp > 0 then do
    let page ← m.getPage index
    assert (decide (page ≠ noPage))
    let p := p.store page (fun k => source (disp + k)) (sub64 length disp)
    Except.ok (p, seen ++ [index])
  else Except.ok (p, seen)

/-- The physical address of byte `x` of a `Memory` object, seen as the
concatenation of its pages. -/
def Memory.addrOf (m : Memory) (x : Nat) : Nat :=
  m.p_physicalPages.getD (x / kPageSize) noPage + x % kPageSize

/-- Byte `x` of a `Memory` object, seen as the concatenation of its pages. -/
def Memory.byteAt (m : Memory) (p : Phys) (x : Nat) : Nat := p.bytes (m.addrOf x)

/-- The page slot `i` holds bytes of the range of `length` bytes from `offset`
on, or `offset` points into it: these are the slots from `offset / 4096` to
`(offset + length - 1) / 4096`. -/
def touched (offset length i : Nat) : Prop :=
  offset / kPageSize ≤ i ∧ i * kPageSize < offset + length

instance decTouched (offset length i : Nat) : Decidable (touched offset length i) :=
  inferInstanceAs (Decidable (_ ∧ _))

/-- The bound slots of the `Memory` object hold page-aligned frames, and no
frame is held by two slots. -/
def Memory.framed (m : Memory) : Prop :=
  (∀ i, i < m.p_physicalPages.length → m.p_physicalPages.getD i noPage ≠ noPage →
    m.p_physicalPages.getD i noPage % kPageSize = 0) ∧
  ∀ i, i < m.p_physicalPages.length → ∀ j, j < m.p_physicalPages.length →
    m.p_physicalPages.getD i noPage ≠ noPage →
    m.p_physicalPages.getD i noPage = m.p_physicalPages.getD j noPage → i = j

instance decFramed (m : Memory) : Decidable m.framed :=
  inferInstanceAs (Decidable (_ ∧ _))

/-- The state of `Memory::copyTo` after `disp` bytes: the bytes of the
`Memory` object from `offset` to `offset + disp` hold the first `disp` bytes of
the source, every other physical byte is as in `p`, every slot read so far is
one of the slots of the range, and the allocator is as in `p`. -/
def CopyInv (m : Memory) (p : Phys) (offset : Nat) (source : Nat → Nat) (length : Nat)
    (p' : Phys) (seen : List Nat) (disp : Nat) : Prop :=
  (∀ x, offset ≤ x → x < offset + disp → p'.bytes (m.addrOf x) = source (x - offset)) ∧
  (∀ a, (∀ x, offset ≤ x → x < offset + disp → a ≠ m.addrOf x) → p'.bytes a = p.bytes a) ∧
  (∀ i ∈ seen, touched offset length i) ∧ p'.free = p.free ∧ p'.allocated = p.allocated

/-! ## What `checkInvariant` tests -/

/-- Search-tree order as `checkInvariant` tests it: the end of every mapping
of the sequence, computed in 64-bit arithmetic, is at or below the base of the
next mapping. -/
def OrderedMod (c : Nat → Option Mapping) (l : List Nat) : Prop :=
  l.Chain' (fun i j => add64 (baseOf c i) (lengthOf c i) ≤ baseOf c j)

instance decOrderedMod (c : Nat → Option Mapping) (l : List Nat) : Decidable (OrderedMod c l) :=
  inferInstanceAs (Decidable (l.Chain' _))

/-- The order list between the mappings of the sequence: `higherPtr` of every
mapping points to the next one, and `lowerPtr` of that one points back. -/
def Threaded (c : Nat → Option Mapping) (l : List Nat) : Prop :=
  l.Chain' (fun i j =>
    fieldOf c Mapping.higherPtr none i = some j ∧ fieldOf c Mapping.lowerPtr none j = some i)

instance decThreaded (c : Nat → Option Mapping) (l : List Nat) : Decidable (Threaded c l) :=
  inferInstanceAs (Decidable (l.Chain' _))

/-- Both children of every red node are black or null. -/
def RedRule (c : Nat → Option Mapping) : Tree → Prop
  | Tree.nil => True
  | Tree.node l i r =>
    (colorOf c i = Color.kColorRed → blackPtr c l.root ∧ blackPtr c r.root) ∧
      RedRule c l ∧ RedRule c r

instance decRedRule (c : Nat → Option Mapping) : (t : Tree) → Decidable (RedRule c t)
  | Tree.nil => isTrue trivial
  | Tree.node l i r =>
    have : Decidable (RedRule c l) := decRedRule c l
    have : Decidable (RedRule c r) := decRedRule c r
    inferInstanceAs (Decidable (_ ∧ _ ∧ _))

/-- Every path from the root of the tree to a null link passes `n` black nodes. -/
def BlackCount (c : Nat → Option Mapping) : Tree → Nat → Prop
  | Tree.nil, n => n = 0
  | Tree.node l i r, n =>
    if colorOf c i = Color.kColorBlack then 0 < n ∧ BlackCount c l (n - 1) ∧ BlackCount c r (n - 1)
    else BlackCount c l n ∧ BlackCount c r n

instance decBlackCount (c : Nat → Option Mapping) :
    (t : Tree) → (n : Nat) → Decidable (BlackCount c t n)
  | Tree.nil, n => inferInstanceAs (Decidable (n = 0))
  | Tree.node l i r, n =>
    have : Decidable (BlackCount c l n) := decBlackCount c l n
    have : Decidable (BlackCount c r n) := decBlackCount c r n
    have : Decidable (BlackCount c l (n - 1)) := decBlackCount c l (n - 1)
    have : Decidable (BlackCount c r (n - 1)) := decBlackCount c r (n - 1)
    inferInstanceAs (Decidable (if _ then _ else _))

/-- Every node of the tree is red or black. -/
def Coloured (c : Nat → Option Mapping) (l : List Nat) : Prop :=
  ∀ i ∈ l, colorOf c i = Color.kColorRed ∨ colorOf c i = Color.kColorBlack

instance decColoured (c : Nat → Option Mapping) (l : List Nat) : Decidable (Coloured c l) :=
  inferInstanceAs (Decidable (∀ i ∈ l, _))

/-- The tests of `checkInvariant` on a node `i` and the last node of its left
subtree `l`: search-tree order with the end computed in 64-bit arithmetic, and
the two links of the order list. -/
def leftOK (c : Nat → Option Mapping) (l : Tree) (i : Nat) : Bool :=
  match l with
  | Tree.nil => true
  | Tree.node _ _ _ =>
    decide (add64 (baseOf c (l.maxId i)) (lengthOf c (l.maxId i)) ≤ baseOf c i) &&
    decide (fieldOf c Mapping.higherPtr none (l.maxId i) = some i) &&
    decide (fieldOf c Mapping.lowerPtr none i = some (l.maxId i))

/-- The tests of `checkInvariant` on a node `i` and the first node of its
right subtree `r`. -/
def rightOK (c : Nat → Option Mapping) (r : Tree) (i : Nat) : Bool :=
  match r with
  | Tree.nil => true
  | Tree.node _ _ _ =>
    decide (add64 (baseOf c i) (lengthOf c i) ≤ baseOf c (r.minId i)) &&
    decide (fieldOf c Mapping.higherPtr none i = some (r.minId i)) &&
    decide (fieldOf c Mapping.lowerPtr none (r.minId i) = some i)

/-- The tests of `checkInvariant(mapping, ...)` on the subtree `t`, in the
order of the code: the augment of the node, the children of a red node, the
left subtree and the predecessor, the right subtree and the successor, and the
two black depths. -/
def checked (c : Nat → Option Mapping) : Tree → Bool
  | Tree.nil => true
  | Tree.node l i r =>
    decide (largestHoleAt c (some i) =
        max (ownHole c i) (max (largestHoleAt c l.root) (largestHoleAt c r.root))) &&
    decide (colorOf c i = Color.kColorRed → blackPtr c l.root ∧ blackPtr c r.root) &&
    (checked c l && leftOK c l i) &&
    (checked c r && rightOK c r i) &&
    decide (blackHeight c l = blackHeight c r)

/-- An address space whose heap holds the one mapping `m` (object 1), which is
the root of the tree. -/
def loneSpace (m : Mapping) : Space :=
  { cells := fun i => if i = 1 then some m else none, next := 2, p_root := some 1,
    p_pageSpace := 0 }

/-- A memory mapping of one page at `0x1000` of the colour `color`, with the
order-list pointers `lower` and `higher` and no child. -/
def loneMapping (color : Color) (lower higher : Ptr) : Mapping :=
  { Mapping.mk0 MappingType.kTypeMemory 0x1000 0x1000 with
    color := color, lowerPtr := lower, higherPtr := higher }

/-- An address space of two mappings: the black root (object 1) is the page at
`0x1000`, its red left child (object 2) has the base `2^64 - 0x1000` and the
length `0x2000`, so that its end wraps around to `0x1000`. -/
def wrappedSpace : Space :=
  { cells := fun i =>
      if i = 1 then
        some { Mapping.mk0 MappingType.kTypeMemory 0x1000 0x1000 with
          color := Color.kColorBlack, lowerPtr := some 2, leftPtr := some 2 }
      else if i = 2 then
        some { Mapping.mk0 MappingType.kTypeMemory (wordMod - 0x1000) 0x2000 with
          color := Color.kColorRed, higherPtr := some 1, parentPtr := some 1 }
      else none,
    next := 3, p_root := some 1, p_pageSpace := 0 }

/-- The tree of `wrappedSpace`. -/
def wrappedTree : Tree := Tree.node (Tree.node Tree.nil 2 Tree.nil) 1 Tree.nil

/-! ## Mappings at which `cloneRecursive` stops -/

/-- The mapping `m` is one at which `cloneRecursive` stops at an assertion: its
kind is neither hole nor memory, or it is a memory mapping whose `Memory`
object has a type that the branch taken does not accept (with share-on-fork:
not allocated and not physical; without: not allocated), or, without
share-on-fork, a `Memory` object without a page slot, which `resize` rejects. -/
def Asserting (e : Env) (m : Mapping) : Prop :=
  m.type = MappingType.kTypeNone ∨
    (m.type = MappingType.kTypeMemory ∧
      ∃ k mem, m.memoryRegion = some k ∧ k < e.nextMemory ∧ e.memories k = some mem ∧
        ((m.shared ∧ mem.p_type = MemoryType.kTypeCopyOnWrite) ∨
          (¬ m.shared ∧ (mem.p_type ≠ MemoryType.kTypeAllocated ∨
            mem.p_physicalPages.length = 0))))

/-- The mapping `m` is a memory mapping without share-on-fork whose `Memory`
object is of type copy-on-write. -/
def Recursive (e : Env) (m : Mapping) : Prop :=
  m.breaks ∧ ∃ k mem, m.memoryRegion = some k ∧ k < e.nextMemory ∧ e.memories k = some mem ∧
    mem.p_type = MemoryType.kTypeCopyOnWrite

/-- The outcome of an operation that either completes with a result
satisfying `p` or stops at an assertion. -/
def Outcome {α : Type} (x : Except Err α) (p : α → Prop) : Prop :=
  match x with
  | Except.ok a => p a
  | Except.error err => err = Err.assertion

/-- An `allocated` memory object of three page slots, the first two bound to
the frames `0x5000` and `0x9000`. -/
def twoPageMemory : Memory :=
  { p_type := MemoryType.kTypeAllocated, flags := 0,
    p_physicalPages := [0x5000, 0x9000, noPage], master := none }

/-- A physical side without free frames whose memory holds the byte `7`
everywhere. -/
def sevenPhys : Phys := { free := [], allocated := [], bytes := fun _ => 7 }

/-! ## Runs that keep the state in which they stopped

In the definitions above a run that does not complete yields an `Err` and
nothing else.  The definitions of this section follow the same source
functions statement by statement, and a run that does not complete yields, next
to the `Err`, the state at the statement that stopped it: the kernel heap and
root pointer, and for `map` and `unmap` also the `Memory` objects and the page
table operations issued so far.  A statement that only reads, or that fails
before it writes (`Space.modify` on a null pointer), stops in the state it
was started in. -/

namespace Traced

/-- The step `x`, which does not write before it fails, run in the state `st`. -/
def inState {σ α : Type} (st : σ) (x : Except Err α) : Except (Err × σ) α :=
  match x with
  | Except.ok a => Except.ok a
  | Except.error err => Except.error (err, st)

/-- A run on the address tree inside `map` or `unmap`: it cannot touch the
`Memory` objects or the page table, so where it stops they are as in `e`. -/
def withEnv {α : Type} (e : Env) (x : Except (Err × Space) α) :
    Except (Err × Space × Env) α :=
  match x with
  | Except.ok a => Except.ok a
  | Except.error (err, s) => Except.error (err, s, e)

/-- A run that issues page table operations inside `map`: it cannot touch the
address tree, so where it stops the tree is `s` and the page table has the
operations issued up to there. -/
def withOps {α : Type} (s : Space) (e : Env) (x : Except (Err × List PageOp) α) :
    Except (Err × Space × Env) α :=
  match x with
  | Except.ok a => Except.ok a
  | Except.error (err, ops) => Except.error (err, s, { e with pageOps := ops })

/-- The error of a run, without the state in which it stopped. -/
def forget {σ α : Type} (x : Except (Err × σ) α) : Except Err α :=
  match x with
  | Except.ok a => Except.ok a
  | Except.error (err, _) => Except.error err

/-- The destructor call `frigg::destruct(*kernelAlloc, p)`: nothing for
`nullptr`; otherwise `~Mapping` destroys the left and the right child, and the
object is released. -/
def destruct : Nat → Space → Ptr → Except (Err × Space) Space
  | 0, s, _ => Except.error (Err.fuel, s)
  | _ + 1, s, none => Except.ok s
  | fuel + 1, s, some i => do
    let m ← inState s (s.get i)
    let s ← destruct fuel s m.leftPtr
    let s ← destruct fuel s m.rightPtr
    Except.ok { s with cells := fun j => if j = i then none else s.cells j }

/-- The function `AddressSpace::updateLargestHoleAt`. -/
def updateLargestHoleAt (s : Space) (mapping : Ptr) : Except (Err × Space) (Space × Bool) := do
  let i ← inState s (deref mapping)
  let m ← inState s (s.get i)
  let hole ← inState s (computeHole s m)
  if m.largestHole ≠ hole then
    let s ← inState s (s.modify i (fun m => { m with largestHole := hole }))
    Except.ok (s, true)
  else
    Except.ok (s, false)

/-- The function `AddressSpace::updateLargestHoleUpwards`. -/
def updateLargestHoleUpwards : Nat → Space → Ptr → Except (Err × Space) Space
  | 0, s, _ => Except.error (Err.fuel, s)
  | fuel + 1, s, mapping => do
    let (s, changed) ← updateLargestHoleAt s mapping
    if !changed then
      Except.ok s
    else
      let m ← inState s (s.getP mapping)
      match m.parentPtr with
      | some p => updateLargestHoleUpwards fuel s (some p)
      | none => Except.ok s

/-- Hang `child` where `node` hung below `parent` (or make it the root): the
`if(!parent) ... else if(parent->leftPtr == node) ... else ...` block shared by
the rotations, `replaceNode` and `removeHalfLeaf`. -/
def replaceChild (s : Space) (parent : Ptr) (node : Nat) (child : Ptr) :
    Except (Err × Space) Space :=
  match parent with
  | none => Except.ok { s with p_root := child }
  | some p => do
    let pm ← inState s (s.get p)
    if pm.leftPtr = some node then
      inState s (s.modify p (fun m => { m with leftPtr := child }))
    else do
      inState s (assert (decide (pm.rightPtr = some node)))
      inState s (s.modify p (fun m => { m with rightPtr := child }))

/-- The function `AddressSpace::rotateLeft`. -/
def rotateLeft (s : Space) (n : Nat) : Except (Err × Space) Space := do
  let nm ← inState s (s.get n)
  let u ← inState s (assertSome nm.parentPtr)
  let um ← inState s (s.get u)
  inState s (assert (decide (um.rightPtr = some n)))
  let v := nm.leftPtr
  let w := um.parentPtr
  let s ← inState s (s.modifyIf v (fun m => { m with parentPtr := some u }))
  let s ← inState s (s.modify u (fun m => { m with rightPtr := v, parentPtr := some n }))
  let s ← inState s (s.modify n (fun m => { m with leftPtr := some u, parentPtr := w }))
  let s ← replaceChild s w u (some n)
  let (s, _) ← updateLargestHoleAt s (some u)
  let (s, _) ← updateLargestHoleAt s (some n)
  Except.ok s

/-- The function `AddressSpace::rotateRight`. -/
def rotateRight (s : Space) (n : Nat) : Except (Err × Space) Space := do
  let nm ← inState s (s.get n)
  let u ← inState s (assertSome nm.parentPtr)
  let um ← inState s (s.get u)
  inState s (assert (decide (um.leftPtr = some n)))
  let v := nm.rightPtr
  let w := um.parentPtr
  let s ← inState s (s.modifyIf v (fun m => { m with parentPtr := some u }))
  let s ← inState s (s.modify u (fun m => { m with leftPtr := v, parentPtr := some n }))
  let s ← inState s (s.modify n (fun m => { m with rightPtr := some u, parentPtr := w }))
  let s ← replaceChild s w u (some n)
  let (s, _) ← updateLargestHoleAt s (some u)
  let (s, _) ← updateLargestHoleAt s (some n)
  Except.ok s

/-- The function `AddressSpace::fixAfterInsert`. -/
def fixAfterInsert : Nat → Space → Nat → Except (Err × Space) Space
  | 0, s, _ => Except.error (Err.fuel, s)
  | fuel + 1, s, n => do
    let nm ← inState s (s.get n)
    match nm.parentPtr with
    | none => inState s (s.modify n (fun m => { m with color := Color.kColorBlack }))
    | some parent => do
      let s ← inState s (s.modify n (fun m => { m with color := Color.kColorRed }))
      let pm ← inState s (s.get parent)
      if pm.color = Color.kColorBlack then
        Except.ok s
      else
        -- the rb invariants guarantee that a grandparent exists
        let grand ← inState s (assertSome pm.parentPtr)
        let gm ← inState s (s.get grand)
        inState s (assert (decide (gm.color = Color.kColorBlack)))
        -- handle the red uncle case
        let c1 ← inState s (andAlso (decide (gm.leftPtr = some parent)) (isRed s gm.rightPtr))
        if c1 then
          let s ← inState s (s.modify grand (fun m => { m with color := Color.kColorRed }))
          let s ← inState s (s.modify parent (fun m => { m with color := Color.kColorBlack }))
          let uncle ← inState s (deref gm.rightPtr)
          let s ← inState s (s.modify uncle (fun m => { m with color := Color.kColorBlack }))
          fixAfterInsert fuel s grand
        else
          let c2 ← inState s (andAlso (decide (gm.rightPtr = some parent)) (isRed s gm.leftPtr))
          if c2 then
            let s ← inState s (s.modify grand (fun m => { m with color := Color.kColorRed }))
            let s ← inState s (s.modify parent (fun m => { m with color := Color.kColorBlack }))
            let uncle ← inState s (deref gm.leftPtr)
            let s ← inState s (s.modify uncle (fun m => { m with color := Color.kColorBlack }))
            fixAfterInsert fuel s grand
          else if some parent = gm.leftPtr then
            let s ←
              if some n = pm.rightPtr then do
                let s ← rotateLeft s n
                let s ← rotateRight s n
                inState s (s.modify n (fun m => { m with color := Color.kColorBlack }))
              else do
                let s ← rotateRight s parent
                inState s (s.modify parent (fun m => { m with color := Color.kColorBlack }))
            inState s (s.modify grand (fun m => { m with color := Color.kColorRed }))
          else do
            inState s (assert (decide (some parent = gm.rightPtr)))
            let s ←
              if some n = pm.leftPtr then do
                let s ← rotateRight s n
                let s ← rotateLeft s n
                inState s (s.modify n (fun m => { m with color := Color.kColorBlack }))
              else do
                let s ← rotateLeft s parent
                inState s (s.modify parent (fun m => { m with color := Color.kColorBlack }))
            inState s (s.modify grand (fun m => { m with color := Color.kColorRed }))

/-- The `while(true)` loop of `AddressSpace::addressTreeInsert`, from the
point where `current` is set; ends with the closing `assert(checkInvariant())`. -/
def insertLoop (full : Nat) : Nat → Space → Nat → Nat → Except (Err × Space) Space
  | 0, s, _, _ => Except.error (Err.fuel, s)
  | fuel + 1, s, mapping, current => do
    let m ← inState s (s.get mapping)
    let cm ← inState s (s.get current)
    if m.baseAddress < cm.baseAddress then do
      inState s (assert (decide (add64 m.baseAddress m.length ≤ cm.baseAddress)))
      match cm.leftPtr with
      | none => do
        let s ← inState s (s.modify current (fun c => { c with leftPtr := some mapping }))
        let s ← inState s (s.modify mapping (fun c => { c with parentPtr := some current }))
        -- "current" is the successor of "mapping"
        let predecessor := cm.lowerPtr
        let s ← inState s (s.modifyIf predecessor (fun c => { c with higherPtr := some mapping }))
        let s ← inState s (s.modify mapping
          (fun c => { c with lowerPtr := predecessor, higherPtr := some current }))
        let s ← inState s (s.modify current (fun c => { c with lowerPtr := some mapping }))
        let s ← updateLargestHoleUpwards full s (some current)
        let s ← fixAfterInsert full s mapping
        inState s (assertInvariant full s)
        Except.ok s
      | some l => insertLoop full fuel s mapping l
    else do
      inState s (assert (decide (m.baseAddress ≥ add64 cm.baseAddress cm.length)))
      match cm.rightPtr with
      | none => do
        let s ← inState s (s.modify current (fun c => { c with rightPtr := some mapping }))
        let s ← inState s (s.modify mapping (fun c => { c with parentPtr := some current }))
        -- "current" is the predecessor of "mapping"
        let successor := cm.higherPtr
        let s ← inState s (s.modify current (fun c => { c with higherPtr := some mapping }))
        let s ← inState s (s.modify mapping
          (fun c => { c with lowerPtr := some current, higherPtr := successor }))
        let s ← inState s (s.modifyIf successor (fun c => { c with lowerPtr := some mapping }))
        let s ← updateLargestHoleUpwards full s (some current)
        let s ← fixAfterInsert full s mapping
        inState s (assertInvariant full s)
        Except.ok s
      | some r => insertLoop full fuel s mapping r

/-- The function `AddressSpace::addressTreeInsert`. -/
def addressTreeInsert (fuel : Nat) (s : Space) (mapping : Nat) : Except (Err × Space) Space := do
  inState s (assertInvariant fuel s)
  match s.p_root with
  | none => do
    let s := { s with p_root := some mapping }
    let s ← fixAfterInsert fuel s mapping
    inState s (assertInvariant fuel s)
    Except.ok s
  | some current => insertLoop fuel fuel s mapping current

/-- The function `AddressSpace::fixAfterRemove`. -/
def fixAfterRemove : Nat → Space → Nat → Except (Err × Space) Space
  | 0, s, _ => Except.error (Err.fuel, s)
  | fuel + 1, s, n => do
    let nm ← inState s (s.get n)
    inState s (assert (decide (nm.color = Color.kColorBlack)))
    match nm.parentPtr with
    | none => Except.ok s
    | some parent => do
      let pm ← inState s (s.get parent)
      let onLeft := decide (pm.leftPtr = some n)
      -- rotate so that our node has a black sibling
      let s ←
        if onLeft then do
          let x ← inState s (assertSome pm.rightPtr)
          let xm ← inState s (s.get x)
          if xm.color = Color.kColorRed then do
            let s ← rotateLeft s x
            let pm1 ← inState s (s.get parent)
            inState s (assert (decide (some n = pm1.leftPtr)))
            let s ← inState s (s.modify parent (fun m => { m with color := Color.kColorRed }))
            inState s (s.modify x (fun m => { m with color := Color.kColorBlack }))
          else Except.ok s
        else do
          inState s (assert (decide (pm.rightPtr = some n)))
          let x ← inState s (assertSome pm.leftPtr)
          let xm ← inState s (s.get x)
          if xm.color = Color.kColorRed then do
            let s ← rotateRight s x
            let pm1 ← inState s (s.get parent)
            inState s (assert (decide (some n = pm1.rightPtr)))
            let s ← inState s (s.modify parent (fun m => { m with color := Color.kColorRed }))
            inState s (s.modify x (fun m => { m with color := Color.kColorBlack }))
          else Except.ok s
      let pm ← inState s (s.get parent)
      -- this will always be the sibling of our node
      let sib ← inState s (deref (if onLeft then pm.rightPtr else pm.leftPtr))
      let sm ← inState s (s.get sib)
      let lb ← inState s (isBlack s sm.leftPtr)
      let both ← inState s (andAlso lb (isBlack s sm.rightPtr))
      if both then
        if pm.color = Color.kColorBlack then do
          let s ← inState s (s.modify sib (fun m => { m with color := Color.kColorRed }))
          fixAfterRemove fuel s parent
        else do
          let s ← inState s (s.modify parent (fun m => { m with color := Color.kColorBlack }))
          inState s (s.modify sib (fun m => { m with color := Color.kColorRed }))
      else
        -- now at least one of s children is red
        let parent_color := pm.color
        if pm.leftPtr = some n then do
          -- rotate so that s->rightPtr is red
          let lr ← inState s (isRed s sm.leftPtr)
          let c ← inState s (andAlso lr (isBlack s sm.rightPtr))
          let (s, sib) ←
            if c then do
              let child ← inState s (deref sm.leftPtr)
              let s ← rotateRight s child
              let s ← inState s (s.modify sib (fun m => { m with color := Color.kColorRed }))
              let s ← inState s (s.modify child (fun m => { m with color := Color.kColorBlack }))
              Except.ok (s, child)
            else Except.ok (s, sib)
          let sm ← inState s (s.get sib)
          let rr ← inState s (isRed s sm.rightPtr)
          inState s (assert rr)
          let s ← rotateLeft s sib
          let s ← inState s (s.modify parent (fun m => { m with color := Color.kColorBlack }))
          let s ← inState s (s.modify sib (fun m => { m with color := parent_color }))
          let sm ← inState s (s.get sib)
          let far ← inState s (deref sm.rightPtr)
          inState s (s.modify far (fun m => { m with color := Color.kColorBlack }))
        else do
          inState s (assert (decide (pm.rightPtr = some n)))
          -- rotate so that s->leftPtr is red
          let rr ← inState s (isRed s sm.rightPtr)
          let c ← inState s (andAlso rr (isBlack s sm.leftPtr))
          let (s, sib) ←
            if c then do
              let child ← inState s (deref sm.rightPtr)
              let s ← rotateLeft s child
              let s ← inState s (s.modify sib (fun m => { m with color := Color.kColorRed }))
              let s ← inState s (s.modify child (fun m => { m with color := Color.kColorBlack }))
              Except.ok (s, child)
            else Except.ok (s, sib)
          let sm ← inState s (s.get sib)
          let lr ← inState s (isRed s sm.leftPtr)
          inState s (assert lr)
          let s ← rotateRight s sib
          let s ← inState s (s.modify parent (fun m => { m with color := Color.kColorBlack }))
          let s ← inState s (s.modify sib (fun m => { m with color := parent_color }))
          let sm ← inState s (s.get sib)
          let far ← inState s (deref sm.leftPtr)
          inState s (s.modify far (fun m => { m with color := Color.kColorBlack }))

/-- The function `AddressSpace::replaceNode`. -/
def replaceNode (fuel : Nat) (s : Space) (node replacement : Nat) :
    Except (Err × Space) Space := do
  let nm ← inState s (s.get node)
  let parent := nm.parentPtr
  let left := nm.leftPtr
  let right := nm.rightPtr
  -- fix the red-black tree
  let s ← replaceChild s parent node (some replacement)
  let nm ← inState s (s.get node)
  let s ← inState s
    (s.modify replacement (fun m => { m with parentPtr := parent, color := nm.color }))
  let s ← inState s (s.modify replacement (fun m => { m with leftPtr := left }))
  let s ← inState s (s.modifyIf left (fun m => { m with parentPtr := some replacement }))
  let s ← inState s (s.modify replacement (fun m => { m with rightPtr := right }))
  let s ← inState s (s.modifyIf right (fun m => { m with parentPtr := some replacement }))
  -- fix the linked list
  let nm ← inState s (s.get node)
  let s ← inState s (s.modifyIf nm.lowerPtr (fun m => { m with higherPtr := some replacement }))
  let s ← inState s (s.modify replacement
    (fun m => { m with lowerPtr := nm.lowerPtr, higherPtr := nm.higherPtr }))
  let s ← inState s (s.modifyIf nm.higherPtr (fun m => { m with lowerPtr := some replacement }))
  let s ← inState s (s.modify node (fun m =>
    { m with leftPtr := none, rightPtr := none, parentPtr := none,
             lowerPtr := none, higherPtr := none }))
  let (s, _) ← updateLargestHoleAt s (some replacement)
  updateLargestHoleUpwards fuel s parent

/-- The function `AddressSpace::removeHalfLeaf`. -/
def removeHalfLeaf (fuel : Nat) (s : Space) (mapping : Nat) (child : Ptr) :
    Except (Err × Space) Space := do
  let m ← inState s (s.get mapping)
  let predecessor := m.lowerPtr
  let successor := m.higherPtr
  let s ← inState s (s.modifyIf predecessor (fun c => { c with higherPtr := successor }))
  let s ← inState s (s.modifyIf successor (fun c => { c with lowerPtr := predecessor }))
  let m ← inState s (s.get mapping)
  let s ←
    if m.color = Color.kColorBlack then do
      let cr ← inState s (isRed s child)
      if cr then do
        let c ← inState s (deref child)
        inState s (s.modify c (fun c => { c with color := Color.kColorBlack }))
      else
        -- decrement the number of black nodes all paths through "mapping"
        -- before removing the child
        fixAfterRemove fuel s mapping
    else Except.ok s
  let m ← inState s (s.get mapping)
  inState s (assert ((decide (m.leftPtr = none) && decide (m.rightPtr = child))
    || (decide (m.leftPtr = child) && decide (m.rightPtr = none))))
  let parent := m.parentPtr
  let s ← replaceChild s parent mapping child
  let s ← inState s (s.modifyIf child (fun c => { c with parentPtr := parent }))
  let s ← inState s (s.modify mapping (fun c =>
    { c with leftPtr := none, rightPtr := none, parentPtr := none,
             lowerPtr := none, higherPtr := none }))
  match parent with
  | some p => updateLargestHoleUpwards fuel s (some p)
  | none => Except.ok s

/-- The function `AddressSpace::addressTreeRemove`. -/
def addressTreeRemove (fuel : Nat) (s : Space) (mapping : Nat) : Except (Err × Space) Space := do
  inState s (assertInvariant fuel s)
  let m ← inState s (s.get mapping)
  let left_ptr := m.leftPtr
  let right_ptr := m.rightPtr
  let s ←
    match left_ptr, right_ptr with
    | none, _ => removeHalfLeaf fuel s mapping right_ptr
    | some _, none => removeHalfLeaf fuel s mapping left_ptr
    | some _, some _ => do
      -- replace the mapping by its predecessor
      let predecessor ← inState s (deref m.lowerPtr)
      let pm ← inState s (s.get predecessor)
      let s ← removeHalfLeaf fuel s predecessor pm.leftPtr
      replaceNode fuel s mapping predecessor
  inState s (assertInvariant fuel s)
  Except.ok s

/-- The function `AddressSpace::splitHole`. -/
def splitHole (fuel : Nat) (s : Space) (mapping : Nat) (split_offset split_length : Nat) :
    Except (Err × Space) (Space × Nat) := do
  inState s (assert (decide (split_length > 0)))
  let m ← inState s (s.get mapping)
  inState s (assert (decide (m.type = MappingType.kTypeHole)))
  inState s (assert (decide (add64 split_offset split_length ≤ m.length)))
  let hole_address := m.baseAddress
  let hole_length := m.length
  let s ←
    if split_offset = 0 then do
      -- the split mapping starts at the beginning of the hole
      -- we have to delete the hole mapping
      let s ← addressTreeRemove fuel s mapping
      destruct fuel s (some mapping)
    else do
      -- the split mapping starts in the middle of the hole
      let s ← inState s (s.modify mapping (fun c => { c with length := split_offset }))
      updateLargestHoleUpwards fuel s (some mapping)
  let (s, split) := s.construct
    (Mapping.mk0 MappingType.kTypeNone (add64 hole_address split_offset) split_length)
  let s ← addressTreeInsert fuel s split
  let s ←
    if hole_length > add64 split_offset split_length then do
      -- the split mapping does not go on until the end of the hole
      -- we have to create another mapping for the rest of the hole
      let (s, following) := s.construct
        (Mapping.mk0 MappingType.kTypeHole
          (add64 hole_address (add64 split_offset split_length))
          (sub64 hole_length (add64 split_offset split_length)))
      addressTreeInsert fuel s following
    else do
      inState s (assert (decide (hole_length = add64 split_offset split_length)))
      Except.ok s
  Except.ok (s, split)

/-- The function `AddressSpace::allocateDfs`; `full` is the fuel handed to
`splitHole`. -/
def allocateDfs (full : Nat) :
    Nat → Space → Nat → Nat → Nat → Except (Err × Space) (Space × Nat)
  | 0, s, _, _, _ => Except.error (Err.fuel, s)
  | fuel + 1, s, mapping, length, flags => do
    let m ← inState s (s.get mapping)
    if flags &&& kMapPreferBottom ≠ 0 then
      -- try to allocate memory at the bottom of the range
      if m.type = MappingType.kTypeHole ∧ m.length ≥ length then
        splitHole full s mapping 0 length
      else do
        let goLeft ← match m.leftPtr with
          | some l => do
            let lm ← inState s (s.get l)
            Except.ok (decide (lm.largestHole ≥ length))
          | none => Except.ok false
        if goLeft then do
          let l ← inState s (deref m.leftPtr)
          allocateDfs full fuel s l length flags
        else do
          let r ← inState s (assertSome m.rightPtr)
          let rm ← inState s (s.get r)
          inState s (assert (decide (rm.largestHole ≥ length)))
          allocateDfs full fuel s r length flags
    else do
      -- try to allocate memory at the top of the range
      inState s (assert (decide (flags &&& kMapPreferTop ≠ 0)))
      if m.type = MappingType.kTypeHole ∧ m.length ≥ length then
        splitHole full s mapping (sub64 m.length length) length
      else do
        let goRight ← match m.rightPtr with
          | some r => do
            let rm ← inState s (s.get r)
            Except.ok (decide (rm.largestHole ≥ length))
          | none => Except.ok false
        if goRight then do
          let r ← inState s (deref m.rightPtr)
          allocateDfs full fuel s r length flags
        else do
          let l ← inState s (assertSome m.leftPtr)
          let lm ← inState s (s.get l)
          inState s (assert (decide (lm.largestHole ≥ length)))
          allocateDfs full fuel s l length flags

/-- The function `AddressSpace::allocate`; the result `none` is `nullptr`. -/
def allocate (fuel : Nat) (s : Space) (length flags : Nat) :
    Except (Err × Space) (Space × Ptr) := do
  inState s (assert (decide (length % kPageSize = 0)))
  let rm ← inState s (s.getP s.p_root)
  if rm.largestHole < length then
    Except.ok (s, none)
  else do
    let (s, mapping) ← allocateDfs fuel fuel s (← inState s (deref s.p_root)) length flags
    Except.ok (s, some mapping)

/-- The function `AddressSpace::allocateAt`. -/
def allocateAt (fuel : Nat) (s : Space) (address length : Nat) :
    Except (Err × Space) (Space × Nat) := do
  inState s (assert (decide (address % kPageSize = 0)))
  inState s (assert (decide (length % kPageSize = 0)))
  let hole ← inState s (getMapping fuel s address)
  let h ← inState s (assertSome hole)
  let hm ← inState s (s.get h)
  inState s (assert (decide (hm.type = MappingType.kTypeHole)))
  splitHole fuel s h (sub64 address hm.baseAddress) length

/-- The loop `for(i = 0; i < length / kPageSize; i++)` that walks the page
slots of `memory` and installs every bound one at `base + i * kPageSize` in
page space `space`; the state of this loop is the list of page table
operations.  `count` is the number of iterations left. -/
def installLoop (e : Env) (memory : Ptr) (space base page_flags : Nat) (remap : Bool) :
    Nat → Nat → List PageOp → Except (Err × List PageOp) (List PageOp)
  | 0, _, ops => Except.ok ops
  | count + 1, i, ops => do
    let mem ← inState ops (e.getMemory memory)
    let physical ← inState ops (mem.getPage i)
    if physical = noPage then
      installLoop e memory space base page_flags remap count (i + 1) ops
    else
      let vaddr := add64 base (mul64 i kPageSize)
      let ops := if remap then ops ++ [PageOp.unmapSingle4k space vaddr] else ops
      installLoop e memory space base page_flags remap count (i + 1)
        (ops ++ [PageOp.mapSingle4k space vaddr physical true page_flags])

/-- The function `AddressSpace::map`; the last component of the result is the
value stored to `*actual_address`. -/
def map (fuel : Nat) (s : Space) (e : Env) (memory : Ptr) (address length flags : Nat) :
    Except (Err × Space × Env) (Space × Env × Nat) := do
  inState (s, e) (assert (decide (length % kPageSize = 0)))
  let (s, mapping) ←
    if flags &&& kMapFixed ≠ 0 then do
      inState (s, e) (assert (decide (address % kPageSize = 0)))
      let (s, m) ← withEnv e (allocateAt fuel s address length)
      Except.ok (s, some m)
    else
      withEnv e (allocate fuel s length flags)
  let mapping ← inState (s, e) (assertSome mapping)
  let s ← inState (s, e) (s.modify mapping
    (fun c => { c with type := MappingType.kTypeMemory, memoryRegion := memory }))
  let mask := kMapReadOnly ||| kMapReadExecute ||| kMapReadWrite
  let (s, page_flags) ←
    if flags &&& mask = kMapReadWrite then do
      let s ← inState (s, e) (s.modify mapping (fun c => { c with writePermission := true }))
      Except.ok (s, kAccessWrite)
    else if flags &&& mask = kMapReadExecute then do
      let s ← inState (s, e) (s.modify mapping (fun c => { c with executePermission := true }))
      Except.ok (s, kAccessExecute)
    else do
      inState (s, e) (assert (decide (flags &&& mask = kMapReadOnly)))
      Except.ok (s, 0)
  let s ←
    if flags &&& kMapShareOnFork ≠ 0 then
      inState (s, e)
        (s.modify mapping (fun c => { c with flags := c.flags ||| kFlagShareOnFork }))
    else Except.ok s
  let m ← inState (s, e) (s.get mapping)
  let ops ← withOps s e (installLoop e memory s.p_pageSpace m.baseAddress page_flags false
    (length / kPageSize) 0 e.pageOps)
  Except.ok (s, { e with pageOps := ops }, m.baseAddress)

/-- The function `AddressSpace::unmap`.  Dropping the `Memory` reference
clears `memoryRegion`; reference counts are not modelled. -/
def unmap (fuel : Nat) (s : Space) (e : Env) (address length : Nat) :
    Except (Err × Space × Env) (Space × Env) := do
  let found ← inState (s, e) (getMapping fuel s address)
  let mapping ← inState (s, e) (assertSome found)
  let m ← inState (s, e) (s.get mapping)
  inState (s, e) (assert (decide (m.type = MappingType.kTypeMemory)))
  inState (s, e) (assert (decide (m.baseAddress = address)))
  inState (s, e) (assert (decide (m.length = length)))
  let ops := unmapLoop s.p_pageSpace m.baseAddress (m.length / kPageSize) 0 e.pageOps
  let e := { e with pageOps := ops }
  let s ← inState (s, e) (s.modify mapping (fun c => { c with memoryRegion := none }))
  let lower_ptr := m.lowerPtr
  let higher_ptr := m.higherPtr
  let lowerHole ← match lower_ptr with
    | some l => do
      let lm ← inState (s, e) (s.get l)
      Except.ok (decide (lm.type = MappingType.kTypeHole))
    | none => Except.ok false
  let higherHole ← match higher_ptr with
    | some h => do
      let hm ← inState (s, e) (s.get h)
      Except.ok (decide (hm.type = MappingType.kTypeHole))
    | none => Except.ok false
  if lower_ptr.isSome && higher_ptr.isSome && lowerHole && higherHole then do
    -- grow the lower region and remove both the mapping and the higher region
    let lower ← inState (s, e) (deref lower_ptr)
    let higher ← inState (s, e) (deref higher_ptr)
    let mapping_length := m.length
    let hm ← inState (s, e) (s.get higher)
    let higher_length := hm.length
    let s ← withEnv e (addressTreeRemove fuel s mapping)
    let s ← withEnv e (addressTreeRemove fuel s higher)
    let s ← withEnv e (destruct fuel s (some mapping))
    let s ← withEnv e (destruct fuel s (some higher))
    let s ← inState (s, e) (s.modify lower
      (fun c => { c with length := add64 c.length (add64 mapping_length higher_length) }))
    let s ← withEnv e (updateLargestHoleUpwards fuel s (some lower))
    Except.ok (s, e)
  else if lower_ptr.isSome && lowerHole then do
    -- grow the lower region and remove the mapping
    let lower ← inState (s, e) (deref lower_ptr)
    let mapping_length := m.length
    let s ← withEnv e (addressTreeRemove fuel s mapping)
    let s ← withEnv e (destruct fuel s (some mapping))
    let s ← inState (s, e)
      (s.modify lower (fun c => { c with length := add64 c.length mapping_length }))
    let s ← withEnv e (updateLargestHoleUpwards fuel s (some lower))
    Except.ok (s, e)
  else if higher_ptr.isSome && higherHole then do
    -- grow the higher region and remove the mapping
    let higher ← inState (s, e) (deref higher_ptr)
    let mapping_length := m.length
    let s ← withEnv e (addressTreeRemove fuel s mapping)
    let s ← withEnv e (destruct fuel s (some mapping))
    let s ← inState (s, e) (s.modify higher (fun c =>
      { c with baseAddress := sub64 c.baseAddress mapping_length,
               length := add64 c.length mapping_length }))
    let s ← withEnv e (updateLargestHoleUpwards fuel s (some higher))
    Except.ok (s, e)
  else do
    -- turn the mapping into a hole
    let s ← inState (s, e) (s.modify mapping (fun c => { c with type := MappingType.kTypeHole }))
    let s ← withEnv e (updateLargestHoleUpwards fuel s (some mapping))
    Except.ok (s, e)

end Traced

/-- The run `x` stopped without completing, in the state `st`. -/
def StopsIn {σ α : Type} (x : Except (Err × σ) α) (st : σ) : Prop :=
  ∃ err, x = Except.error (err, st)

/-! ## Theorems -/

/-! ### Sequencing -/

/-- Sequencing after a completed step. -/
@[simp] theorem bind_okE {α β : Type} (a : α) (f : α → Except Err β) : (Except.ok a >>= f) = f a := rfl
/-- Sequencing after a failed step. -/
@[simp] theorem bind_errE {α β : Type} (e : Err) (f : α → Except Err β) : ((Except.error e : Except Err α) >>= f) = Except.error e := rfl


/-! ### Partial correctness -/

theorem Post.ok {α : Type} {a : α} {Q : α → Prop} (h : Q a) : Post (Except.ok a) Q :=
  fun b hb => by cases hb; exact h

theorem Post.error {α : Type} {e : Err} {Q : α → Prop} : Post (Except.error e) Q :=
  fun _ h => by cases h

theorem Post.bind {α β : Type} {x : Except Err α} {f : α → Except Err β} {P : α → Prop}
    {Q : β → Prop} (hx : Post x P) (hf : ∀ a, P a → Post (f a) Q) : Post (x >>= f) Q := by
  intro b hb
  cases x with
  | error e => cases hb
  | ok a => exact hf a (hx a rfl) b hb

theorem Post.mono {α : Type} {x : Except Err α} {P Q : α → Prop} (hx : Post x P)
    (h : ∀ a, P a → Q a) : Post x Q :=
  fun a ha => h a (hx a ha)

theorem Post.and {α : Type} {x : Except Err α} {P Q : α → Prop} (hp : Post x P)
    (hq : Post x Q) : Post x (fun a => P a ∧ Q a) :=
  fun a ha => ⟨hp a ha, hq a ha⟩

theorem Post.of_eq {α : Type} {x : Except Err α} {a : α} {Q : α → Prop} (h : x = Except.ok a)
    (hq : Q a) : Post x Q := by
  rw [h]; exact Post.ok hq

theorem Post.get {s : Space} {i : Nat} : Post (s.get i) (fun m => s.cells i = some m) := by
  intro m h
  unfold Space.get at h
  split at h
  · cases h; assumption
  · cases h

theorem Post.getP {s : Space} {p : Ptr} :
    Post (s.getP p) (fun m => ∃ i, p = some i ∧ s.cells i = some m) := by
  intro m h
  unfold Space.getP at h
  split at h
  · exact ⟨_, rfl, Post.get m h⟩
  · cases h

theorem Post.modify {s : Space} {i : Nat} {f : Mapping → Mapping} :
    Post (s.modify i f) (fun t => ∃ m, s.cells i = some m ∧
      t = { s with cells := fun j => if j = i then some (f m) else s.cells j }) := by
  intro t h
  unfold Space.modify at h
  split at h
  · cases h; exact ⟨_, by assumption, rfl⟩
  · cases h

theorem Post.assert {c : Bool} : Post (assert c) (fun _ => c = true) := by
  intro u h
  unfold Thor.assert at h
  split at h
  · assumption
  · cases h

theorem Post.assertSome {p : Ptr} : Post (assertSome p) (fun i => p = some i) := by
  intro i h
  unfold Thor.assertSome at h
  split at h
  · cases h; rfl
  · cases h

theorem Post.deref {p : Ptr} : Post (deref p) (fun i => p = some i) := by
  intro i h
  unfold Thor.deref at h
  split at h
  · cases h; rfl
  · cases h


theorem Post.ite {α : Type} {c : Prop} [Decidable c] {x y : Except Err α} {Q : α → Prop}
    (h1 : c → Post x Q) (h2 : ¬ c → Post y Q) : Post (if c then x else y) Q := by
  split
  · exact h1 (by assumption)
  · exact h2 (by assumption)


/-! ### The tree operations leave the range and backing fields alone -/

theorem KeyFrame.refl (s : Space) : KeyFrame s s := ⟨rfl, rfl, fun _ => rfl⟩

theorem KeyFrame.trans {s t u : Space} (h1 : KeyFrame s t) (h2 : KeyFrame t u) : KeyFrame s u :=
  ⟨h2.1.trans h1.1, h2.2.1.trans h1.2.1, fun j => (h2.2.2 j).trans (h1.2.2 j)⟩

theorem Post.trivial {α : Type} {x : Except Err α} : Post x (fun _ => True) :=
  fun _ _ => True.intro

theorem KeyFrame.setRoot (s : Space) (r : Ptr) : KeyFrame s { s with p_root := r } :=
  ⟨rfl, rfl, fun _ => rfl⟩

theorem modify_keyFrame {s0 s : Space} {i : Nat} {f : Mapping → Mapping}
    (hf : ∀ m, (f m).keys = m.keys) (h0 : KeyFrame s0 s) :
    Post (s.modify i f) (fun t => KeyFrame s0 t) := by
  refine Post.modify.mono ?_
  rintro t ⟨m, hm, rfl⟩
  refine h0.trans ⟨rfl, rfl, fun j => ?_⟩
  by_cases hj : j = i
  · simp [hj, hm, hf]
  · simp [hj]

theorem modifyIf_keyFrame {s0 s : Space} {p : Ptr} {f : Mapping → Mapping}
    (hf : ∀ m, (f m).keys = m.keys) (h0 : KeyFrame s0 s) :
    Post (s.modifyIf p f) (fun t => KeyFrame s0 t) := by
  unfold Space.modifyIf
  split
  · exact modify_keyFrame hf h0
  · exact Post.ok h0

theorem updateLargestHoleAt_keyFrame (s0 s : Space) (p : Ptr) (h0 : KeyFrame s0 s) :
    Post (updateLargestHoleAt s p) (fun r => KeyFrame s0 r.1) := by
  unfold updateLargestHoleAt
  repeat (first
    | exact Post.ok (by assumption)
    | exact Post.error
    | exact Post.ok ((by assumption : KeyFrame _ _).trans (KeyFrame.setRoot _ _))
    | exact modify_keyFrame (fun _ => rfl) (by assumption)
    | refine Post.bind Post.get (fun _ _ => ?_)
    | refine Post.bind Post.assertSome (fun _ _ => ?_)
    | refine Post.bind Post.deref (fun _ _ => ?_)
    | refine Post.bind Post.assert (fun _ _ => ?_)
    | refine Post.bind (modify_keyFrame (fun _ => rfl) (by assumption)) (fun _ _ => ?_)
    | refine Post.bind (modifyIf_keyFrame (fun _ => rfl) (by assumption)) (fun _ _ => ?_)
    | refine @Post.bind Space _ _ _ (fun t => KeyFrame s0 t) _ ?_ (fun _ _ => ?_)
    | (refine @Post.bind (Space × Nat) _ _ _ (fun r => KeyFrame s0 (Prod.fst r)) _ ?_ ?_
       on_goal 2 => rintro ⟨_, _⟩ _
       on_goal 2 => dsimp only at *)
    | refine Post.bind Post.trivial (fun _ _ => ?_)
    | refine Post.ite (fun _ => ?_) (fun _ => ?_)
    | split
    | dsimp only)

theorem updateLargestHoleUpwards_keyFrame (fuel : Nat) :
    ∀ (s0 s : Space) (p : Ptr), KeyFrame s0 s →
      Post (updateLargestHoleUpwards fuel s p) (fun t => KeyFrame s0 t) := by
  induction fuel with
  | zero => intros; exact Post.error
  | succ k ih =>
    intro s0 s p h0
    rw [updateLargestHoleUpwards]
    repeat (first
      | exact Post.ok (by assumption)
      | exact Post.error
      | exact Post.ok ((by assumption : KeyFrame _ _).trans (KeyFrame.setRoot _ _))
      | exact ih _ _ _ (by assumption)
      | exact modify_keyFrame (fun _ => rfl) (by assumption)
      | refine Post.bind Post.get (fun _ _ => ?_)
      | refine Post.bind Post.assertSome (fun _ _ => ?_)
      | refine Post.bind Post.deref (fun _ _ => ?_)
      | refine Post.bind Post.assert (fun _ _ => ?_)
      | refine Post.bind (modify_keyFrame (fun _ => rfl) (by assumption)) (fun _ _ => ?_)
      | refine Post.bind (modifyIf_keyFrame (fun _ => rfl) (by assumption)) (fun _ _ => ?_)
      | (refine Post.bind (updateLargestHoleAt_keyFrame _ _ _ (by assumption)) ?_
         rintro ⟨_, _⟩ _
         dsimp only at *)
      | refine @Post.bind Space _ _ _ (fun t => KeyFrame s0 t) _ ?_ (fun _ _ => ?_)
      | (refine @Post.bind (Space × Nat) _ _ _ (fun r => KeyFrame s0 (Prod.fst r)) _ ?_ ?_
         on_goal 2 => rintro ⟨_, _⟩ _
         on_goal 2 => dsimp only at *)
      | refine Post.bind Post.trivial (fun _ _ => ?_)
      | refine Post.ite (fun _ => ?_) (fun _ => ?_)
      | split
      | dsimp only)

theorem replaceChild_keyFrame (s0 s : Space) (parent : Ptr) (node : Nat) (child : Ptr)
    (h0 : KeyFrame s0 s) :
    Post (replaceChild s parent node child) (fun t => KeyFrame s0 t) := by
  unfold replaceChild
  repeat (first
    | exact Post.ok (by assumption)
    | exact Post.error
    | exact Post.ok ((by assumption : KeyFrame _ _).trans (KeyFrame.setRoot _ _))
    | exact modify_keyFrame (fun _ => rfl) (by assumption)
    | exact updateLargestHoleUpwards_keyFrame _ _ _ _ (by assumption)
    | refine Post.bind Post.get (fun _ _ => ?_)
    | refine Post.bind Post.assertSome (fun _ _ => ?_)
    | refine Post.bind Post.deref (fun _ _ => ?_)
    | refine Post.bind Post.assert (fun _ _ => ?_)
    | refine Post.bind (modify_keyFrame (fun _ => rfl) (by assumption)) (fun _ _ => ?_)
    | refine Post.bind (modifyIf_keyFrame (fun _ => rfl) (by assumption)) (fun _ _ => ?_)
    | (refine Post.bind (updateLargestHoleAt_keyFrame _ _ _ (by assumption)) ?_
       rintro ⟨_, _⟩ _
       dsimp only at *)
    | refine Post.bind (updateLargestHoleUpwards_keyFrame _ _ _ _ (by assumption)) (fun _ _ => ?_)
    | refine @Post.bind Space _ _ _ (fun t => KeyFrame s0 t) _ ?_ (fun _ _ => ?_)
    | (refine @Post.bind (Space × Nat) _ _ _ (fun r => KeyFrame s0 (Prod.fst r)) _ ?_ ?_
       on_goal 2 => rintro ⟨_, _⟩ _
       on_goal 2 => dsimp only at *)
    | refine Post.bind Post.trivial (fun _ _ => ?_)
    | refine Post.ite (fun _ => ?_) (fun _ => ?_)
    | split
    | dsimp only)

theorem rotateLeft_keyFrame (s0 s : Space) (n : Nat) (h0 : KeyFrame s0 s) :
    Post (rotateLeft s n) (fun t => KeyFrame s0 t) := by
  unfold rotateLeft
  repeat (first
    | exact Post.ok (by assumption)
    | exact Post.error
    | exact Post.ok ((by assumption : KeyFrame _ _).trans (KeyFrame.setRoot _ _))
    | exact modify_keyFrame (fun _ => rfl) (by assumption)
    | exact updateLargestHoleUpwards_keyFrame _ _ _ _ (by assumption)
    | exact replaceChild_keyFrame _ _ _ _ _ (by assumption)
    | refine Post.bind Post.get (fun _ _ => ?_)
    | refine Post.bind Post.assertSome (fun _ _ => ?_)
    | refine Post.bind Post.deref (fun _ _ => ?_)
    | refine Post.bind Post.assert (fun _ _ => ?_)
    | refine Post.bind (modify_keyFrame (fun _ => rfl) (by assumption)) (fun _ _ => ?_)
    | refine Post.bind (modifyIf_keyFrame (fun _ => rfl) (by assumption)) (fun _ _ => ?_)
    | (refine Post.bind (updateLargestHoleAt_keyFrame _ _ _ (by assumption)) ?_
       rintro ⟨_, _⟩ _
       dsimp only at *)
    | refine Post.bind (updateLargestHoleUpwards_keyFrame _ _ _ _ (by assumption)) (fun _ _ => ?_)
    | refine Post.bind (replaceChild_keyFrame _ _ _ _ _ (by assumption)) (fun _ _ => ?_)
    | refine @Post.bind Space _ _ _ (fun t => KeyFrame s0 t) _ ?_ (fun _ _ => ?_)
    | (refine @Post.bind (Space × Nat) _ _ _ (fun r => KeyFrame s0 (Prod.fst r)) _ ?_ ?_
       on_goal 2 => rintro ⟨_, _⟩ _
       on_goal 2 => dsimp only at *)
    | refine Post.bind Post.trivial (fun _ _ => ?_)
    | refine Post.ite (fun _ => ?_) (fun _ => ?_)
    | split
    | dsimp only)

theorem rotateRight_keyFrame (s0 s : Space) (n : Nat) (h0 : KeyFrame s0 s) :
    Post (rotateRight s n) (fun t => KeyFrame s0 t) := by
  unfold rotateRight
  repeat (first
    | exact Post.ok (by assumption)
    | exact Post.error
    | exact Post.ok ((by assumption : KeyFrame _ _).trans (KeyFrame.setRoot _ _))
    | exact modify_keyFrame (fun _ => rfl) (by assumption)
    | exact updateLargestHoleUpwards_keyFrame _ _ _ _ (by assumption)
    | exact replaceChild_keyFrame _ _ _ _ _ (by assumption)
    | exact rotateLeft_keyFrame _ _ _ (by assumption)
    | refine Post.bind Post.get (fun _ _ => ?_)
    | refine Post.bind Post.assertSome (fun _ _ => ?_)
    | refine Post.bind Post.deref (fun _ _ => ?_)
    | refine Post.bind Post.assert (fun _ _ => ?_)
    | refine Post.bind (modify_keyFrame (fun _ => rfl) (by assumption)) (fun _ _ => ?_)
    | refine Post.bind (modifyIf_keyFrame (fun _ => rfl) (by assumption)) (fun _ _ => ?_)
    | (refine Post.bind (updateLargestHoleAt_keyFrame _ _ _ (by assumption)) ?_
       rintro ⟨_, _⟩ _
       dsimp only at *)
    | refine Post.bind (updateLargestHoleUpwards_keyFrame _ _ _ _ (by assumption)) (fun _ _ => ?_)
    | refine Post.bind (replaceChild_keyFrame _ _ _ _ _ (by assumption)) (fun _ _ => ?_)
    | refine Post.bind (rotateLeft_keyFrame _ _ _ (by assumption)) (fun _ _ => ?_)
    | refine @Post.bind Space _ _ _ (fun t => KeyFrame s0 t) _ ?_ (fun _ _ => ?_)
    | (refine @Post.bind (Space × Nat) _ _ _ (fun r => KeyFrame s0 (Prod.fst r)) _ ?_ ?_
       on_goal 2 => rintro ⟨_, _⟩ _
       on_goal 2 => dsimp only at *)
    | refine Post.bind Post.trivial (fun _ _ => ?_)
    | refine Post.ite (fun _ => ?_) (fun _ => ?_)
    | split
    | dsimp only)

set_option maxRecDepth 100000 in
set_option maxHeartbeats 4000000 in
theorem fixAfterInsert_keyFrame (fuel : Nat) :
    ∀ (s0 s : Space) (n : Nat), KeyFrame s0 s →
      Post (fixAfterInsert fuel s n) (fun t => KeyFrame s0 t) := by
  induction fuel with
  | zero => intros; exact Post.error
  | succ k ih =>
    intro s0 s n h0
    rw [fixAfterInsert]
    repeat (first
      | exact Post.ok (by assumption)
      | exact Post.error
      | exact Post.ok ((by assumption : KeyFrame _ _).trans (KeyFrame.setRoot _ _))
      | exact ih _ _ _ (by assumption)
      | exact modify_keyFrame (fun _ => rfl) (by assumption)
      | exact updateLargestHoleUpwards_keyFrame _ _ _ _ (by assumption)
      | exact replaceChild_keyFrame _ _ _ _ _ (by assumption)
      | exact rotateLeft_keyFrame _ _ _ (by assumption)
      | exact rotateRight_keyFrame _ _ _ (by assumption)
      | refine Post.bind Post.get (fun _ _ => ?_)
      | refine Post.bind Post.assertSome (fun _ _ => ?_)
      | refine Post.bind Post.deref (fun _ _ => ?_)
      | refine Post.bind Post.assert (fun _ _ => ?_)
      | refine Post.bind (modify_keyFrame (fun _ => rfl) (by assumption)) (fun _ _ => ?_)
      | refine Post.bind (modifyIf_keyFrame (fun _ => rfl) (by assumption)) (fun _ _ => ?_)
      | (refine Post.bind (updateLargestHoleAt_keyFrame _ _ _ (by assumption)) ?_
         rintro ⟨_, _⟩ _
         dsimp only at *)
      | refine Post.bind (updateLargestHoleUpwards_keyFrame _ _ _ _ (by assumption)) (fun _ _ => ?_)
      | refine Post.bind (replaceChild_keyFrame _ _ _ _ _ (by assumption)) (fun _ _ => ?_)
      | refine Post.bind (rotateLeft_keyFrame _ _ _ (by assumption)) (fun _ _ => ?_)
      | refine Post.bind (rotateRight_keyFrame _ _ _ (by assumption)) (fun _ _ => ?_)
      | refine @Post.bind Space _ _ _ (fun t => KeyFrame s0 t) _ ?_ (fun _ _ => ?_)
      | (refine @Post.bind (Space × Nat) _ _ _ (fun r => KeyFrame s0 (Prod.fst r)) _ ?_ ?_
         on_goal 2 => rintro ⟨_, _⟩ _
         on_goal 2 => dsimp only at *)
      | refine Post.bind Post.trivial (fun _ _ => ?_)
      | refine Post.ite (fun _ => ?_) (fun _ => ?_)
      | split
      | dsimp only)

theorem insertLoop_keyFrame (full fuel : Nat) :
    ∀ (s0 s : Space) (mapping current : Nat), KeyFrame s0 s →
      Post (insertLoop full fuel s mapping current) (fun t => KeyFrame s0 t) := by
  induction fuel with
  | zero => intros; exact Post.error
  | succ k ih =>
    intro s0 s mapping current h0
    rw [insertLoop]
    repeat (first
      | exact Post.ok (by assumption)
      | exact Post.error
      | exact Post.ok ((by assumption : KeyFrame _ _).trans (KeyFrame.setRoot _ _))
      | exact ih _ _ _ _ (by assumption)
      | exact modify_keyFrame (fun _ => rfl) (by assumption)
      | exact updateLargestHoleUpwards_keyFrame _ _ _ _ (by assumption)
      | exact replaceChild_keyFrame _ _ _ _ _ (by assumption)
      | exact rotateLeft_keyFrame _ _ _ (by assumption)
      | exact rotateRight_keyFrame _ _ _ (by assumption)
      | exact fixAfterInsert_keyFrame _ _ _ _ (by assumption)
      | refine Post.bind Post.get (fun _ _ => ?_)
      | refine Post.bind Post.assertSome (fun _ _ => ?_)
      | refine Post.bind Post.deref (fun _ _ => ?_)
      | refine Post.bind Post.assert (fun _ _ => ?_)
      | refine Post.bind (modify_keyFrame (fun _ => rfl) (by assumption)) (fun _ _ => ?_)
      | refine Post.bind (modifyIf_keyFrame (fun _ => rfl) (by assumption)) (fun _ _ => ?_)
      | (refine Post.bind (updateLargestHoleAt_keyFrame _ _ _ (by assumption)) ?_
         rintro ⟨_, _⟩ _
         dsimp only at *)
      | refine Post.bind (updateLargestHoleUpwards_keyFrame _ _ _ _ (by assumption)) (fun _ _ => ?_)
      | refine Post.bind (replaceChild_keyFrame _ _ _ _ _ (by assumption)) (fun _ _ => ?_)
      | refine Post.bind (rotateLeft_keyFrame _ _ _ (by assumption)) (fun _ _ => ?_)
      | refine Post.bind (rotateRight_keyFrame _ _ _ (by assumption)) (fun _ _ => ?_)
      | refine Post.bind (fixAfterInsert_keyFrame _ _ _ _ (by assumption)) (fun _ _ => ?_)
      | refine @Post.bind Space _ _ _ (fun t => KeyFrame s0 t) _ ?_ (fun _ _ => ?_)
      | (refine @Post.bind (Space × Nat) _ _ _ (fun r => KeyFrame s0 (Prod.fst r)) _ ?_ ?_
         on_goal 2 => rintro ⟨_, _⟩ _
         on_goal 2 => dsimp only at *)
      | refine Post.bind Post.trivial (fun _ _ => ?_)
      | refine Post.ite (fun _ => ?_) (fun _ => ?_)
      | split
      | dsimp only)

theorem addressTreeInsert_keyFrame (fuel : Nat) (s0 s : Space) (mapping : Nat)
    (h0 : KeyFrame s0 s) :
    Post (addressTreeInsert fuel s mapping) (fun t => KeyFrame s0 t) := by
  unfold addressTreeInsert
  repeat (first
    | exact Post.ok (by assumption)
    | exact Post.error
    | exact Post.ok ((by assumption : KeyFrame _ _).trans (KeyFrame.setRoot _ _))
    | exact modify_keyFrame (fun _ => rfl) (by assumption)
    | exact updateLargestHoleUpwards_keyFrame _ _ _ _ (by assumption)
    | exact replaceChild_keyFrame _ _ _ _ _ (by assumption)
    | exact rotateLeft_keyFrame _ _ _ (by assumption)
    | exact rotateRight_keyFrame _ _ _ (by assumption)
    | exact fixAfterInsert_keyFrame _ _ _ _ (by assumption)
    | exact insertLoop_keyFrame _ _ _ _ _ _ (by assumption)
    | exact fixAfterInsert_keyFrame _ _ _ _ (by assumption)
    | refine Post.bind Post.get (fun _ _ => ?_)
    | refine Post.bind Post.assertSome (fun _ _ => ?_)
    | refine Post.bind Post.deref (fun _ _ => ?_)
    | refine Post.bind Post.assert (fun _ _ => ?_)
    | refine Post.bind (modify_keyFrame (fun _ => rfl) (by assumption)) (fun _ _ => ?_)
    | refine Post.bind (modifyIf_keyFrame (fun _ => rfl) (by assumption)) (fun _ _ => ?_)
    | (refine Post.bind (updateLargestHoleAt_keyFrame _ _ _ (by assumption)) ?_
       rintro ⟨_, _⟩ _
       dsimp only at *)
    | refine Post.bind (updateLargestHoleUpwards_keyFrame _ _ _ _ (by assumption)) (fun _ _ => ?_)
    | refine Post.bind (replaceChild_keyFrame _ _ _ _ _ (by assumption)) (fun _ _ => ?_)
    | refine Post.bind (rotateLeft_keyFrame _ _ _ (by assumption)) (fun _ _ => ?_)
    | refine Post.bind (rotateRight_keyFrame _ _ _ (by assumption)) (fun _ _ => ?_)
    | refine Post.bind (fixAfterInsert_keyFrame _ _ _ _ (by assumption)) (fun _ _ => ?_)
    | refine Post.bind (insertLoop_keyFrame _ _ _ _ _ _ (by assumption)) (fun _ _ => ?_)
    | refine Post.bind (fixAfterInsert_keyFrame _ _ _ _ (by assumption)) (fun _ _ => ?_)
    | refine @Post.bind Space _ _ _ (fun t => KeyFrame s0 t) _ ?_ (fun _ _ => ?_)
    | (refine @Post.bind (Space × Nat) _ _ _ (fun r => KeyFrame s0 (Prod.fst r)) _ ?_ ?_
       on_goal 2 => rintro ⟨_, _⟩ _
       on_goal 2 => dsimp only at *)
    | refine Post.bind Post.trivial (fun _ _ => ?_)
    | refine Post.ite (fun _ => ?_) (fun _ => ?_)
    | split
    | dsimp only)

set_option maxRecDepth 100000 in
set_option maxHeartbeats 4000000 in
theorem fixAfterRemove_keyFrame (fuel : Nat) :
    ∀ (s0 s : Space) (n : Nat), KeyFrame s0 s →
      Post (fixAfterRemove fuel s n) (fun t => KeyFrame s0 t) := by
  induction fuel with
  | zero => intros; exact Post.error
  | succ k ih =>
    intro s0 s n h0
    rw [fixAfterRemove]
    repeat (first
      | exact Post.ok (by assumption)
      | exact Post.error
      | exact Post.ok ((by assumption : KeyFrame _ _).trans (KeyFrame.setRoot _ _))
      | exact ih _ _ _ (by assumption)
      | exact modify_keyFrame (fun _ => rfl) (by assumption)
      | exact updateLargestHoleUpwards_keyFrame _ _ _ _ (by assumption)
      | exact replaceChild_keyFrame _ _ _ _ _ (by assumption)
      | exact rotateLeft_keyFrame _ _ _ (by assumption)
      | exact rotateRight_keyFrame _ _ _ (by assumption)
      | exact fixAfterInsert_keyFrame _ _ _ _ (by assumption)
      | exact insertLoop_keyFrame _ _ _ _ _ _ (by assumption)
      | refine Post.bind Post.get (fun _ _ => ?_)
      | refine Post.bind Post.assertSome (fun _ _ => ?_)
      | refine Post.bind Post.deref (fun _ _ => ?_)
      | refine Post.bind Post.assert (fun _ _ => ?_)
      | refine Post.bind (modify_keyFrame (fun _ => rfl) (by assumption)) (fun _ _ => ?_)
      | refine Post.bind (modifyIf_keyFrame (fun _ => rfl) (by assumption)) (fun _ _ => ?_)
      | (refine Post.bind (updateLargestHoleAt_keyFrame _ _ _ (by assumption)) ?_
         rintro ⟨_, _⟩ _
         dsimp only at *)
      | refine Post.bind (updateLargestHoleUpwards_keyFrame _ _ _ _ (by assumption)) (fun _ _ => ?_)
      | refine Post.bind (replaceChild_keyFrame _ _ _ _ _ (by assumption)) (fun _ _ => ?_)
      | refine Post.bind (rotateLeft_keyFrame _ _ _ (by assumption)) (fun _ _ => ?_)
      | refine Post.bind (rotateRight_keyFrame _ _ _ (by assumption)) (fun _ _ => ?_)
      | refine Post.bind (fixAfterInsert_keyFrame _ _ _ _ (by assumption)) (fun _ _ => ?_)
      | refine Post.bind (insertLoop_keyFrame _ _ _ _ _ _ (by assumption)) (fun _ _ => ?_)
      | refine @Post.bind Space _ _ _ (fun t => KeyFrame s0 t) _ ?_ (fun _ _ => ?_)
      | (refine @Post.bind (Space × Nat) _ _ _ (fun r => KeyFrame s0 (Prod.fst r)) _ ?_ ?_
         on_goal 2 => rintro ⟨_, _⟩ _
         on_goal 2 => dsimp only at *)
      | refine Post.bind Post.trivial (fun _ _ => ?_)
      | refine Post.ite (fun _ => ?_) (fun _ => ?_)
      | split
      | dsimp only)

theorem replaceNode_keyFrame (fuel : Nat) (s0 s : Space) (node replacement : Nat)
    (h0 : KeyFrame s0 s) :
    Post (replaceNode fuel s node replacement) (fun t => KeyFrame s0 t) := by
  unfold replaceNode
  repeat (first
    | exact Post.ok (by assumption)
    | exact Post.error
    | exact Post.ok ((by assumption : KeyFrame _ _).trans (KeyFrame.setRoot _ _))
    | exact modify_keyFrame (fun _ => rfl) (by assumption)
    | exact updateLargestHoleUpwards_keyFrame _ _ _ _ (by assumption)
    | exact replaceChild_keyFrame _ _ _ _ _ (by assumption)
    | exact rotateLeft_keyFrame _ _ _ (by assumption)
    | exact rotateRight_keyFrame _ _ _ (by assumption)
    | exact fixAfterInsert_keyFrame _ _ _ _ (by assumption)
    | exact insertLoop_keyFrame _ _ _ _ _ _ (by assumption)
    | exact fixAfterRemove_keyFrame _ _ _ _ (by assumption)
    | refine Post.bind Post.get (fun _ _ => ?_)
    | refine Post.bind Post.assertSome (fun _ _ => ?_)
    | refine Post.bind Post.deref (fun _ _ => ?_)
    | refine Post.bind Post.assert (fun _ _ => ?_)
    | refine Post.bind (modify_keyFrame (fun _ => rfl) (by assumption)) (fun _ _ => ?_)
    | refine Post.bind (modifyIf_keyFrame (fun _ => rfl) (by assumption)) (fun _ _ => ?_)
    | (refine Post.bind (updateLargestHoleAt_keyFrame _ _ _ (by assumption)) ?_
       rintro ⟨_, _⟩ _
       dsimp only at *)
    | refine Post.bind (updateLargestHoleUpwards_keyFrame _ _ _ _ (by assumption)) (fun _ _ => ?_)
    | refine Post.bind (replaceChild_keyFrame _ _ _ _ _ (by assumption)) (fun _ _ => ?_)
    | refine Post.bind (rotateLeft_keyFrame _ _ _ (by assumption)) (fun _ _ => ?_)
    | refine Post.bind (rotateRight_keyFrame _ _ _ (by assumption)) (fun _ _ => ?_)
    | refine Post.bind (fixAfterInsert_keyFrame _ _ _ _ (by assumption)) (fun _ _ => ?_)
    | refine Post.bind (insertLoop_keyFrame _ _ _ _ _ _ (by assumption)) (fun _ _ => ?_)
    | refine Post.bind (fixAfterRemove_keyFrame _ _ _ _ (by assumption)) (fun _ _ => ?_)
    | refine @Post.bind Space _ _ _ (fun t => KeyFrame s0 t) _ ?_ (fun _ _ => ?_)
    | (refine @Post.bind (Space × Nat) _ _ _ (fun r => KeyFrame s0 (Prod.fst r)) _ ?_ ?_
       on_goal 2 => rintro ⟨_, _⟩ _
       on_goal 2 => dsimp only at *)
    | refine Post.bind Post.trivial (fun _ _ => ?_)
    | refine Post.ite (fun _ => ?_) (fun _ => ?_)
    | split
    | dsimp only)

theorem removeHalfLeaf_keyFrame (fuel : Nat) (s0 s : Space) (mapping : Nat) (child : Ptr)
    (h0 : KeyFrame s0 s) :
    Post (removeHalfLeaf fuel s mapping child) (fun t => KeyFrame s0 t) := by
  unfold removeHalfLeaf
  repeat (first
    | exact Post.ok (by assumption)
    | exact Post.error
    | exact Post.ok ((by assumption : KeyFrame _ _).trans (KeyFrame.setRoot _ _))
    | exact modify_keyFrame (fun _ => rfl) (by assumption)
    | exact updateLargestHoleUpwards_keyFrame _ _ _ _ (by assumption)
    | exact replaceChild_keyFrame _ _ _ _ _ (by assumption)
    | exact rotateLeft_keyFrame _ _ _ (by assumption)
    | exact rotateRight_keyFrame _ _ _ (by assumption)
    | exact fixAfterInsert_keyFrame _ _ _ _ (by assumption)
    | exact insertLoop_keyFrame _ _ _ _ _ _ (by assumption)
    | exact fixAfterRemove_keyFrame _ _ _ _ (by assumption)
    | exact replaceNode_keyFrame _ _ _ _ _ (by assumption)
    | refine Post.bind Post.get (fun _ _ => ?_)
    | refine Post.bind Post.assertSome (fun _ _ => ?_)
    | refine Post.bind Post.deref (fun _ _ => ?_)
    | refine Post.bind Post.assert (fun _ _ => ?_)
    | refine Post.bind (modify_keyFrame (fun _ => rfl) (by assumption)) (fun _ _ => ?_)
    | refine Post.bind (modifyIf_keyFrame (fun _ => rfl) (by assumption)) (fun _ _ => ?_)
    | (refine Post.bind (updateLargestHoleAt_keyFrame _ _ _ (by assumption)) ?_
       rintro ⟨_, _⟩ _
       dsimp only at *)
    | refine Post.bind (updateLargestHoleUpwards_keyFrame _ _ _ _ (by assumption)) (fun _ _ => ?_)
    | refine Post.bind (replaceChild_keyFrame _ _ _ _ _ (by assumption)) (fun _ _ => ?_)
    | refine Post.bind (rotateLeft_keyFrame _ _ _ (by assumption)) (fun _ _ => ?_)
    | refine Post.bind (rotateRight_keyFrame _ _ _ (by assumption)) (fun _ _ => ?_)
    | refine Post.bind (fixAfterInsert_keyFrame _ _ _ _ (by assumption)) (fun _ _ => ?_)
    | refine Post.bind (insertLoop_keyFrame _ _ _ _ _ _ (by assumption)) (fun _ _ => ?_)
    | refine Post.bind (fixAfterRemove_keyFrame _ _ _ _ (by assumption)) (fun _ _ => ?_)
    | refine Post.bind (replaceNode_keyFrame _ _ _ _ _ (by assumption)) (fun _ _ => ?_)
    | refine @Post.bind Space _ _ _ (fun t => KeyFrame s0 t) _ ?_ (fun _ _ => ?_)
    | (refine @Post.bind (Space × Nat) _ _ _ (fun r => KeyFrame s0 (Prod.fst r)) _ ?_ ?_
       on_goal 2 => rintro ⟨_, _⟩ _
       on_goal 2 => dsimp only at *)
    | refine Post.bind Post.trivial (fun _ _ => ?_)
    | refine Post.ite (fun _ => ?_) (fun _ => ?_)
    | split
    | dsimp only)

theorem addressTreeRemove_keyFrame (fuel : Nat) (s0 s : Space) (mapping : Nat)
    (h0 : KeyFrame s0 s) :
    Post (addressTreeRemove fuel s mapping) (fun t => KeyFrame s0 t) := by
  unfold addressTreeRemove
  repeat (first
    | exact Post.ok (by assumption)
    | exact Post.error
    | exact Post.ok ((by assumption : KeyFrame _ _).trans (KeyFrame.setRoot _ _))
    | exact modify_keyFrame (fun _ => rfl) (by assumption)
    | exact updateLargestHoleUpwards_keyFrame _ _ _ _ (by assumption)
    | exact replaceChild_keyFrame _ _ _ _ _ (by assumption)
    | exact rotateLeft_keyFrame _ _ _ (by assumption)
    | exact rotateRight_keyFrame _ _ _ (by assumption)
    | exact fixAfterInsert_keyFrame _ _ _ _ (by assumption)
    | exact insertLoop_keyFrame _ _ _ _ _ _ (by assumption)
    | exact fixAfterRemove_keyFrame _ _ _ _ (by assumption)
    | exact replaceNode_keyFrame _ _ _ _ _ (by assumption)
    | exact removeHalfLeaf_keyFrame _ _ _ _ _ (by assumption)
    | refine Post.bind Post.get (fun _ _ => ?_)
    | refine Post.bind Post.assertSome (fun _ _ => ?_)
    | refine Post.bind Post.deref (fun _ _ => ?_)
    | refine Post.bind Post.assert (fun _ _ => ?_)
    | refine Post.bind (modify_keyFrame (fun _ => rfl) (by assumption)) (fun _ _ => ?_)
    | refine Post.bind (modifyIf_keyFrame (fun _ => rfl) (by assumption)) (fun _ _ => ?_)
    | (refine Post.bind (updateLargestHoleAt_keyFrame _ _ _ (by assumption)) ?_
       rintro ⟨_, _⟩ _
       dsimp only at *)
    | refine Post.bind (updateLargestHoleUpwards_keyFrame _ _ _ _ (by assumption)) (fun _ _ => ?_)
    | refine Post.bind (replaceChild_keyFrame _ _ _ _ _ (by assumption)) (fun _ _ => ?_)
    | refine Post.bind (rotateLeft_keyFrame _ _ _ (by assumption)) (fun _ _ => ?_)
    | refine Post.bind (rotateRight_keyFrame _ _ _ (by assumption)) (fun _ _ => ?_)
    | refine Post.bind (fixAfterInsert_keyFrame _ _ _ _ (by assumption)) (fun _ _ => ?_)
    | refine Post.bind (insertLoop_keyFrame _ _ _ _ _ _ (by assumption)) (fun _ _ => ?_)
    | refine Post.bind (fixAfterRemove_keyFrame _ _ _ _ (by assumption)) (fun _ _ => ?_)
    | refine Post.bind (replaceNode_keyFrame _ _ _ _ _ (by assumption)) (fun _ _ => ?_)
    | refine Post.bind (removeHalfLeaf_keyFrame _ _ _ _ _ (by assumption)) (fun _ _ => ?_)
    | refine @Post.bind Space _ _ _ (fun t => KeyFrame s0 t) _ ?_ (fun _ _ => ?_)
    | (refine @Post.bind (Space × Nat) _ _ _ (fun r => KeyFrame s0 (Prod.fst r)) _ ?_ ?_
       on_goal 2 => rintro ⟨_, _⟩ _
       on_goal 2 => dsimp only at *)
    | refine Post.bind Post.trivial (fun _ _ => ?_)
    | refine Post.ite (fun _ => ?_) (fun _ => ?_)
    | split
    | dsimp only)

/-! ### What `splitHole` returns -/

theorem construct_cells_self (s : Space) (m : Mapping) :
    (s.construct m).1.cells (s.construct m).2 = some m := by
  simp [Space.construct]

theorem construct_cells_other (s : Space) (m : Mapping) (j : Nat) (h : j ≠ s.next) :
    (s.construct m).1.cells j = s.cells j := by
  simp [Space.construct, h]

/-- If `splitHole` completes, the mapping it returns has kind none, the given
length, and starts `split_offset` above the base of the hole. -/
theorem splitHole_result (fuel : Nat) (s : Space) (mapping off len : Nat) :
    Post (splitHole fuel s mapping off len) (fun r =>
      ∃ m, s.cells mapping = some m ∧ m.type = MappingType.kTypeHole ∧
        add64 off len ≤ m.length ∧ 0 < len ∧
        (r.1.cells r.2).map Mapping.keys =
          some (Mapping.mk0 MappingType.kTypeNone (add64 m.baseAddress off) len).keys) := by
  unfold splitHole
  refine Post.bind Post.assert (fun _ hlen => ?_)
  refine Post.bind Post.get (fun m hm => ?_)
  refine Post.bind Post.assert (fun _ htype => ?_)
  refine Post.bind Post.assert (fun _ hfit => ?_)
  dsimp only
  have fin : ∀ r : Space × Nat, (r.1.cells r.2).map Mapping.keys =
        some (Mapping.mk0 MappingType.kTypeNone (add64 m.baseAddress off) len).keys →
      ∃ m, s.cells mapping = some m ∧ m.type = MappingType.kTypeHole ∧
        add64 off len ≤ m.length ∧ 0 < len ∧
        (r.1.cells r.2).map Mapping.keys =
          some (Mapping.mk0 MappingType.kTypeNone (add64 m.baseAddress off) len).keys :=
    fun r hr => ⟨m, hm, of_decide_eq_true htype, of_decide_eq_true hfit,
      of_decide_eq_true hlen, hr⟩
  refine Post.ite (fun _ => ?_) (fun _ => ?_) <;>
  · refine Post.bind Post.trivial (fun s1 _ => ?_)
    refine Post.bind Post.trivial (fun s2 _ => ?_)
    refine Post.bind (addressTreeInsert_keyFrame fuel _ _ _ (KeyFrame.refl _)) (fun s3 h3 => ?_)
    have hsplit : (s3.cells s2.next).map Mapping.keys =
        some (Mapping.mk0 MappingType.kTypeNone (add64 m.baseAddress off) len).keys := by
      rw [h3.2.2]; simp [Space.construct]
    have hnext : s3.next = s2.next + 1 := by rw [h3.1]; rfl
    refine Post.ite (fun _ => ?_) (fun _ => ?_)
    · refine Post.bind (addressTreeInsert_keyFrame fuel _ _ _ (KeyFrame.refl _))
        (fun s5 h5 => Post.ok (fin _ ?_))
      show (s5.cells s2.next).map Mapping.keys = _
      rw [h5.2.2, construct_cells_other _ _ _ (by omega)]
      exact hsplit
    · refine Post.bind Post.assert (fun _ _ => ?_)
      rw [bind_okE]
      exact Post.ok (fin _ hsplit)

/-! ### The descent of `allocateDfs` -/

theorem Shape_node {c : Nat → Option Mapping} {l r : Tree} {i : Nat} {par : Ptr} :
    Shape c (Tree.node l i r) par ↔
      ∃ m, c i = some m ∧ m.parentPtr = par ∧ m.leftPtr = l.root ∧ m.rightPtr = r.root ∧
        Shape c l (some i) ∧ Shape c r (some i) := by
  rw [Shape]
  cases h : c i with
  | none => simp
  | some m => simp

theorem root_eq_some {t : Tree} {i : Nat} (h : t.root = some i) :
    ∃ l r, t = Tree.node l i r := by
  cases t with
  | nil => cases h
  | node l j r => cases h; exact ⟨l, r, rfl⟩

theorem largestHoleAt_some {c : Nat → Option Mapping} {i : Nat} {m : Mapping}
    (h : c i = some m) : largestHoleAt c (some i) = m.largestHole := by
  simp [largestHoleAt, fieldOf, h]

theorem ownHole_eq {c : Nat → Option Mapping} {i : Nat} {m : Mapping} (h : c i = some m) :
    ownHole c i = if m.type = MappingType.kTypeHole then m.length else 0 := by
  simp [ownHole, typeOf, lengthOf, fieldOf, h]

theorem Fitting_iff {c : Nat → Option Mapping} {i len : Nat} {m : Mapping} (h : c i = some m) :
    Fitting c len i ↔ m.type = MappingType.kTypeHole ∧ len ≤ m.length := by
  simp [Fitting, typeOf, lengthOf, fieldOf, h]

theorem Fitting_iff_ownHole {c : Nat → Option Mapping} {i len : Nat} (hlen : 0 < len) :
    Fitting c len i ↔ len ≤ ownHole c i := by
  unfold Fitting ownHole
  by_cases h : typeOf c i = MappingType.kTypeHole
  · simp [h]
  · simp [h]; omega

theorem topFits_mem {c : Nat → Option Mapping} {len : Nat} :
    ∀ {t : Tree} {h : Nat}, h ∈ topFits c len t → h ∈ t.toList ∧ Fitting c len h := by
  intro t
  induction t with
  | nil => intro h hh; simp [topFits] at hh
  | node l i r ihl ihr =>
    intro h hh
    unfold topFits at hh
    split at hh
    · simp at hh; subst hh; exact ⟨by simp [Tree.toList], by assumption⟩
    · rcases List.mem_append.mp hh with h1 | h1
      · exact ⟨by simp [Tree.toList, (ihl h1).1], (ihl h1).2⟩
      · exact ⟨by simp [Tree.toList, (ihr h1).1], (ihr h1).2⟩

theorem topFits_ne_nil {c : Nat → Option Mapping} {len : Nat} :
    ∀ {t : Tree} {g : Nat}, g ∈ t.toList → Fitting c len g → topFits c len t ≠ [] := by
  intro t
  induction t with
  | nil => intro g hg; simp [Tree.toList] at hg
  | node l i r ihl ihr =>
    intro g hg hf
    unfold topFits
    split
    · simp
    · rename_i hi
      simp only [Tree.toList, List.mem_append, List.mem_cons] at hg
      rcases hg with hg | rfl | hg
      · have := ihl hg hf
        simp [this]
      · exact absurd hf hi
      · have := ihr hg hf
        simp [this]

theorem largestHoleAt_ge_of_fitting {c : Nat → Option Mapping} {len : Nat} (hlen : 0 < len) :
    ∀ {t : Tree} {g : Nat}, Augmented c t → g ∈ t.toList → Fitting c len g →
      len ≤ largestHoleAt c t.root := by
  intro t
  induction t with
  | nil => intro g _ hg; simp [Tree.toList] at hg
  | node l i r ihl ihr =>
    intro g ha hg hf
    obtain ⟨h1, hal, har⟩ := ha
    simp only [Tree.root]
    rw [h1]
    simp only [Tree.toList, List.mem_append, List.mem_cons] at hg
    rcases hg with hg | rfl | hg
    · have := ihl hal hg hf
      omega
    · have := (Fitting_iff_ownHole hlen).mp hf
      omega
    · have := ihr har hg hf
      omega

theorem topFits_eq_nil {c : Nat → Option Mapping} {len : Nat} (hlen : 0 < len) {t : Tree}
    (ha : Augmented c t) (h : largestHoleAt c t.root < len) : topFits c len t = [] := by
  by_contra hne
  obtain ⟨g, hg⟩ := List.exists_mem_of_ne_nil _ hne
  have := largestHoleAt_ge_of_fitting hlen ha (topFits_mem hg).1 (topFits_mem hg).2
  omega

theorem topFits_ne_nil_of_le {c : Nat → Option Mapping} {len : Nat} (hlen : 0 < len) :
    ∀ {t : Tree}, Augmented c t → len ≤ largestHoleAt c t.root → topFits c len t ≠ [] := by
  intro t
  induction t with
  | nil => intro _ h; simp [Tree.root, largestHoleAt] at h; omega
  | node l i r ihl ihr =>
    intro ha h
    obtain ⟨h1, hal, har⟩ := ha
    simp only [Tree.root] at h
    rw [h1] at h
    unfold topFits
    split
    · simp
    · rename_i hi
      have hown : ¬ len ≤ ownHole c i := fun hh => hi ((Fitting_iff_ownHole hlen).mpr hh)
      by_cases hl : len ≤ largestHoleAt c l.root
      · have := ihl hal hl
        simp [this]
      · have hr : len ≤ largestHoleAt c r.root := by omega
        have := ihr har hr
        simp [this]

theorem get_eq_of_cells {s : Space} {i : Nat} {m : Mapping} (h : s.cells i = some m) :
    s.get i = Except.ok m := by
  simp [Space.get, h]

/-- With `prefer_bottom`, `allocateDfs` splits, at offset 0, the first of the
fitting holes without fitting ancestor. -/
theorem allocateDfs_bottom (full len flags : Nat) (hflag : flags &&& kMapPreferBottom ≠ 0)
    (hlen : 0 < len) :
    ∀ (fuel : Nat) (s : Space) (t : Tree) (i : Nat) (par : Ptr),
      Shape s.cells t par → t.root = some i → Augmented s.cells t →
      Post (allocateDfs full fuel s i len flags) (fun r =>
        ∃ h, (topFits s.cells len t).head? = some h ∧
          splitHole full s h 0 len = Except.ok r) := by
  intro fuel
  induction fuel with
  | zero => intros; exact Post.error
  | succ k ih =>
    intro s t i par hsh hroot haug
    obtain ⟨l, r, rfl⟩ := root_eq_some hroot
    obtain ⟨m, hm, -, hl, hr, hsl, hsr⟩ := Shape_node.mp hsh
    obtain ⟨-, hal, har⟩ := haug
    rw [allocateDfs, get_eq_of_cells hm, bind_okE, if_pos hflag]
    split
    · rename_i hfit
      intro res hres
      have hf : Fitting s.cells len i := (Fitting_iff hm).mpr hfit
      exact ⟨i, by simp [topFits, hf], hres⟩
    · rename_i hfit
      have hf : ¬ Fitting s.cells len i := fun h => hfit ((Fitting_iff hm).mp h)
      have htop : topFits s.cells len (Tree.node l i r) =
          topFits s.cells len l ++ topFits s.cells len r := by
        simp [topFits, hf]
      rw [htop]
      -- the right-hand branch, used twice
      have right : topFits s.cells len l = [] →
          Post (do
              let r ← assertSome m.rightPtr
              let rm ← s.get r
              assert (decide (rm.largestHole ≥ len))
              allocateDfs full k s r len flags) (fun res =>
            ∃ h, (topFits s.cells len l ++ topFits s.cells len r).head? = some h ∧
              splitHole full s h 0 len = Except.ok res) := by
        intro hnil
        rw [hnil, List.nil_append]
        refine Post.bind Post.assertSome (fun ri hri => ?_)
        refine Post.bind Post.get (fun rm _ => ?_)
        refine Post.bind Post.assert (fun _ _ => ?_)
        exact ih s r ri (some i) hsr (by rw [← hr, hri]) har
      cases l with
      | nil =>
        rw [hl]
        simp only [Tree.root, bind_okE, Bool.false_eq_true, if_false]
        exact right (by simp [topFits])
      | node ll li lr =>
        obtain ⟨lm, hlm, -⟩ := Shape_node.mp hsl
        rw [hl]
        simp only [Tree.root, get_eq_of_cells hlm, bind_okE]
        split
        · rename_i hgo
          have hge : len ≤ largestHoleAt s.cells (Tree.node ll li lr).root := by
            rw [Tree.root, largestHoleAt_some hlm]; exact of_decide_eq_true hgo
          have hne := topFits_ne_nil_of_le hlen hal hge
          simp only [deref, bind_okE]
          refine (ih s (Tree.node ll li lr) li (some i) hsl rfl hal).mono ?_
          rintro res ⟨h, hh, hs⟩
          refine ⟨h, ?_, hs⟩
          rw [List.head?_append_of_ne_nil _ hne]
          exact hh
        · rename_i hgo
          have hlt : largestHoleAt s.cells (Tree.node ll li lr).root < len := by
            rw [Tree.root, largestHoleAt_some hlm]
            have := of_decide_eq_false (Bool.eq_false_iff.mpr hgo)
            omega
          exact right (topFits_eq_nil hlen hal hlt)


/-- With `prefer_top`, `allocateDfs` splits, at its top end, the last of the
fitting holes without fitting ancestor. -/
theorem allocateDfs_top (full len flags : Nat) (hflag : flags &&& kMapPreferBottom = 0)
    (hlen : 0 < len) :
    ∀ (fuel : Nat) (s : Space) (t : Tree) (i : Nat) (par : Ptr),
      Shape s.cells t par → t.root = some i → Augmented s.cells t →
      Post (allocateDfs full fuel s i len flags) (fun r =>
        ∃ h m, (topFits s.cells len t).getLast? = some h ∧ s.cells h = some m ∧
          splitHole full s h (sub64 m.length len) len = Except.ok r) := by
  intro fuel
  induction fuel with
  | zero => intros; exact Post.error
  | succ k ih =>
    intro s t i par hsh hroot haug
    obtain ⟨l, r, rfl⟩ := root_eq_some hroot
    obtain ⟨m, hm, -, hl, hr, hsl, hsr⟩ := Shape_node.mp hsh
    obtain ⟨-, hal, har⟩ := haug
    have hflag' : ¬ (flags &&& kMapPreferBottom ≠ 0) := fun h => h hflag
    rw [allocateDfs, get_eq_of_cells hm, bind_okE, if_neg hflag']
    refine Post.bind Post.assert (fun _ _ => ?_)
    split
    · rename_i hfit
      intro res hres
      have hf : Fitting s.cells len i := (Fitting_iff hm).mpr hfit
      exact ⟨i, m, by simp [topFits, hf], hm, hres⟩
    · rename_i hfit
      have hf : ¬ Fitting s.cells len i := fun h => hfit ((Fitting_iff hm).mp h)
      have htop : topFits s.cells len (Tree.node l i r) =
          topFits s.cells len l ++ topFits s.cells len r := by
        simp [topFits, hf]
      rw [htop]
      have left : topFits s.cells len r = [] →
          Post (do
              let l ← assertSome m.leftPtr
              let lm ← s.get l
              assert (decide (lm.largestHole ≥ len))
              allocateDfs full k s l len flags) (fun res =>
            ∃ h m, (topFits s.cells len l ++ topFits s.cells len r).getLast? = some h ∧
              s.cells h = some m ∧
              splitHole full s h (sub64 m.length len) len = Except.ok res) := by
        intro hnil
        rw [hnil, List.append_nil]
        refine Post.bind Post.assertSome (fun li hli => ?_)
        refine Post.bind Post.get (fun lm _ => ?_)
        refine Post.bind Post.assert (fun _ _ => ?_)
        exact ih s l li (some i) hsl (by rw [← hl, hli]) hal
      cases r with
      | nil =>
        rw [hr]
        simp only [Tree.root, bind_okE, Bool.false_eq_true, if_false]
        exact left (by simp [topFits])
      | node rl ri rr =>
        obtain ⟨rm, hrm, -⟩ := Shape_node.mp hsr
        rw [hr]
        simp only [Tree.root, get_eq_of_cells hrm, bind_okE]
        split
        · rename_i hgo
          have hge : len ≤ largestHoleAt s.cells (Tree.node rl ri rr).root := by
            rw [Tree.root, largestHoleAt_some hrm]; exact of_decide_eq_true hgo
          have hne := topFits_ne_nil_of_le hlen har hge
          simp only [deref, bind_okE]
          refine (ih s (Tree.node rl ri rr) ri (some i) hsr rfl har).mono ?_
          rintro res ⟨h, hm', hh, hc, hs⟩
          refine ⟨h, hm', ?_, hc, hs⟩
          rw [List.getLast?_append_of_ne_nil _ hne]
          exact hh
        · rename_i hgo
          have hlt : largestHoleAt s.cells (Tree.node rl ri rr).root < len := by
            rw [Tree.root, largestHoleAt_some hrm]
            have := of_decide_eq_false (Bool.eq_false_iff.mpr hgo)
            omega
          exact left (topFits_eq_nil hlen har hlt)

/-! ### Which hole the descent picks -/

theorem Ordered_node {c : Nat → Option Mapping} {l r : Tree} {i : Nat}
    (h : Ordered c (Tree.node l i r).toList) :
    Ordered c l.toList ∧ Ordered c r.toList ∧ (∀ a ∈ l.toList, endOf c a ≤ baseOf c i) ∧
      (∀ b ∈ r.toList, endOf c i ≤ baseOf c b) ∧
      (∀ a ∈ l.toList, ∀ b ∈ r.toList, endOf c a ≤ baseOf c b) := by
  unfold Ordered at *
  simp only [Tree.toList] at h
  rw [List.pairwise_append] at h
  obtain ⟨h1, h2, h3⟩ := h
  rw [List.pairwise_cons] at h2
  refine ⟨h1, h2.2, fun a ha => h3 a ha i (List.mem_cons_self _ _), h2.1,
    fun a ha b hb => h3 a ha b (List.mem_cons_of_mem _ hb)⟩

theorem base_le_end (c : Nat → Option Mapping) (i : Nat) : baseOf c i ≤ endOf c i := by
  unfold endOf; omega

/-- Every fitting hole below the one the bottom descent picks has a fitting
hole among its proper ancestors. -/
theorem topFits_head_lowest {c : Nat → Option Mapping} {len : Nat} :
    ∀ {t : Tree} {h : Nat}, Ordered c t.toList → (topFits c len t).head? = some h →
      ∀ g ∈ t.toList, Fitting c len g → baseOf c g < baseOf c h →
        HasAncestor (Fitting c len) t g := by
  intro t
  induction t with
  | nil => intro h _ _ g hg; simp [Tree.toList] at hg
  | node l i r ihl ihr =>
    intro h hord hhead g hg hfit hlt
    obtain ⟨hol, hor, hli, hir, hlr⟩ := Ordered_node hord
    simp only [Tree.toList, List.mem_append, List.mem_cons] at hg
    unfold topFits at hhead
    unfold HasAncestor
    split at hhead
    · rename_i hi
      simp at hhead
      subst hhead
      rcases hg with hg | rfl | hg
      · exact Or.inl ⟨hg, Or.inl hi⟩
      · omega
      · have := hir g hg
        have := base_le_end c i
        omega
    · rename_i hi
      by_cases hne : topFits c len l = []
      · rw [hne, List.nil_append] at hhead
        rcases hg with hg | rfl | hg
        · exact absurd hne (topFits_ne_nil hg hfit)
        · exact absurd hfit hi
        · exact Or.inr ⟨hg, Or.inr (ihr hor hhead g hg hfit hlt)⟩
      · rw [List.head?_append_of_ne_nil _ hne] at hhead
        have hh : h ∈ l.toList := (topFits_mem (List.mem_of_mem_head? hhead)).1
        rcases hg with hg | rfl | hg
        · exact Or.inl ⟨hg, Or.inr (ihl hol hhead g hg hfit hlt)⟩
        · exact absurd hfit hi
        · have := hlr h hh g hg
          have := base_le_end c h
          omega

/-- Every fitting hole above the one the top descent picks has a fitting hole
among its proper ancestors. -/
theorem topFits_last_highest {c : Nat → Option Mapping} {len : Nat} :
    ∀ {t : Tree} {h : Nat}, Ordered c t.toList → (topFits c len t).getLast? = some h →
      ∀ g ∈ t.toList, Fitting c len g → endOf c h < endOf c g →
        HasAncestor (Fitting c len) t g := by
  intro t
  induction t with
  | nil => intro h _ _ g hg; simp [Tree.toList] at hg
  | node l i r ihl ihr =>
    intro h hord hlast g hg hfit hlt
    obtain ⟨hol, hor, hli, hir, hlr⟩ := Ordered_node hord
    simp only [Tree.toList, List.mem_append, List.mem_cons] at hg
    unfold topFits at hlast
    unfold HasAncestor
    split at hlast
    · rename_i hi
      simp at hlast
      subst hlast
      rcases hg with hg | rfl | hg
      · have := hli g hg
        have := base_le_end c i
        omega
      · omega
      · exact Or.inr ⟨hg, Or.inl hi⟩
    · rename_i hi
      by_cases hne : topFits c len r = []
      · rw [hne, List.append_nil] at hlast
        rcases hg with hg | rfl | hg
        · exact Or.inl ⟨hg, Or.inr (ihl hol hlast g hg hfit hlt)⟩
        · exact absurd hfit hi
        · exact absurd hne (topFits_ne_nil hg hfit)
      · rw [List.getLast?_append_of_ne_nil _ hne] at hlast
        have hh : h ∈ r.toList := (topFits_mem (List.mem_of_mem_getLast? hlast)).1
        rcases hg with hg | rfl | hg
        · have := hlr g hg h hh
          have := base_le_end c h
          omega
        · exact absurd hfit hi
        · exact Or.inr ⟨hg, Or.inr (ihr hor hlast g hg hfit hlt)⟩


/-! ### Which mapping `allocate` returns -/

theorem add64_eq {a b : Nat} (h : a + b < wordMod) : add64 a b = a + b := by
  rw [add64, Nat.mod_eq_of_lt h]

theorem sub64_eq {a b : Nat} (hb : b ≤ a) (ha : a < wordMod) : sub64 a b = a - b := by
  have hw : wordMod = 18446744073709551616 := by decide
  rw [hw] at ha
  rw [sub64, hw]
  omega

theorem keys_fields {c : Nat → Option Mapping} {i : Nat} {k : Keys}
    (h : (c i).map Mapping.keys = some k) :
    baseOf c i = k.baseAddress ∧ lengthOf c i = k.length ∧ typeOf c i = k.type := by
  cases hc : c i with
  | none => rw [hc] at h; cases h
  | some m =>
    rw [hc] at h
    simp only [Option.map, Option.some.injEq] at h
    subst h
    simp [baseOf, lengthOf, typeOf, fieldOf, hc, Mapping.keys]

theorem Returns_of_Post {α : Type} {x : Except Err α} {Q : α → Prop} (h : Post x Q)
    (hx : failure x = none) : Returns x Q := by
  cases x with
  | ok a => exact h a rfl
  | error e => cases hx

/-- C8 (amended): for every valid tree and every page-multiple length > 0 with
`root.largestHole >= length`, `allocate(length, prefer_bottom)`, when it
returns, returns a mapping of kind none and of the requested length whose base
is the base of a hole `h` of length >= the requested length, and every such
hole at a lower address than `h` has such a hole among its proper ancestors in
the tree (the descent tests a node before it looks into the left subtree). -/
theorem allocate_bottom_picks (fuel len flags : Nat) (s : Space) (t : Tree)
    (hv : ValidTree s t) (hpage : len % kPageSize = 0) (hlen : 0 < len)
    (hroot : len ≤ largestHoleAt s.cells s.p_root)
    (hflag : flags &&& kMapPreferBottom ≠ 0) :
    Post (allocate fuel s len flags) (fun r =>
      ∃ m h, r.2 = some m ∧ h ∈ t.toList ∧ Fitting s.cells len h ∧
        baseOf r.1.cells m = baseOf s.cells h ∧
        typeOf r.1.cells m = MappingType.kTypeNone ∧ lengthOf r.1.cells m = len ∧
        ∀ g ∈ t.toList, Fitting s.cells len g → baseOf s.cells g < baseOf s.cells h →
          HasAncestor (Fitting s.cells len) t g) := by
  obtain ⟨hr, hsh, -, hord, hfits, -, haug, -, -⟩ := hv
  unfold allocate
  refine Post.bind Post.assert (fun _ _ => ?_)
  refine Post.bind Post.getP ?_
  rintro rm ⟨i, hi, hrm⟩
  have htroot : t.root = some i := by rw [← hr, hi]
  refine Post.ite (fun hlt => ?_) (fun _ => ?_)
  · rw [hi, largestHoleAt_some hrm] at hroot
    omega
  · rw [hi]
    simp only [deref, bind_okE]
    refine Post.bind (allocateDfs_bottom fuel len flags hflag hlen fuel s t i none hsh htroot
      haug) ?_
    rintro ⟨s', m⟩ ⟨h, hh, hsplit⟩
    obtain ⟨mh, hmh, -, -, -, hkeys⟩ := splitHole_result fuel s h 0 len _ hsplit
    obtain ⟨hmem, hfit⟩ := topFits_mem (List.mem_of_mem_head? hh)
    obtain ⟨kb, kl, kt⟩ := keys_fields hkeys
    have hb : baseOf s.cells h = mh.baseAddress := by simp [baseOf, fieldOf, hmh]
    have hlt : mh.baseAddress + 0 < wordMod := by
      have := hfits h hmem
      have := base_le_end s.cells h
      omega
    refine Post.ok ⟨m, h, rfl, hmem, hfit, ?_, kt, kl, topFits_head_lowest hord hh⟩
    rw [kb, hb]
    simp only [Mapping.mk0, Mapping.keys]
    rw [add64_eq hlt]
    rfl

/-- C9 (amended): for every valid tree and every page-multiple length > 0 with
`root.largestHole >= length`, `allocate(length, prefer_top)`, when it returns,
returns a mapping of kind none and of the requested length whose end is the
end of a hole `h` of length >= the requested length, and every such hole that
ends above `h` has such a hole among its proper ancestors in the tree (the
descent tests a node before it looks into the right subtree). -/
theorem allocate_top_picks (fuel len flags : Nat) (s : Space) (t : Tree)
    (hv : ValidTree s t) (hpage : len % kPageSize = 0) (hlen : 0 < len)
    (hroot : len ≤ largestHoleAt s.cells s.p_root)
    (hflag : flags &&& kMapPreferBottom = 0) (htop : flags &&& kMapPreferTop ≠ 0) :
    Post (allocate fuel s len flags) (fun r =>
      ∃ m h, r.2 = some m ∧ h ∈ t.toList ∧ Fitting s.cells len h ∧
        endOf r.1.cells m = endOf s.cells h ∧
        typeOf r.1.cells m = MappingType.kTypeNone ∧ lengthOf r.1.cells m = len ∧
        ∀ g ∈ t.toList, Fitting s.cells len g → endOf s.cells h < endOf s.cells g →
          HasAncestor (Fitting s.cells len) t g) := by
  obtain ⟨hr, hsh, -, hord, hfits, -, haug, -, -⟩ := hv
  unfold allocate
  refine Post.bind Post.assert (fun _ _ => ?_)
  refine Post.bind Post.getP ?_
  rintro rm ⟨i, hi, hrm⟩
  have htroot : t.root = some i := by rw [← hr, hi]
  refine Post.ite (fun hlt => ?_) (fun _ => ?_)
  · rw [hi, largestHoleAt_some hrm] at hroot
    omega
  · rw [hi]
    simp only [deref, bind_okE]
    refine Post.bind (allocateDfs_top fuel len flags hflag hlen fuel s t i none hsh htroot
      haug) ?_
    rintro ⟨s', m⟩ ⟨h, mh, hh, hmh, hsplit⟩
    obtain ⟨mh', hmh', -, -, -, hkeys⟩ := splitHole_result fuel s h _ len _ hsplit
    have hmm : mh' = mh := by rw [hmh] at hmh'; exact (Option.some.inj hmh').symm
    subst hmm
    obtain ⟨hmem, hfit⟩ := topFits_mem (List.mem_of_mem_getLast? hh)
    obtain ⟨kb, kl, kt⟩ := keys_fields hkeys
    have hend : endOf s.cells h = mh'.baseAddress + mh'.length := by
      simp [endOf, baseOf, lengthOf, fieldOf, hmh]
    have hlt : mh'.baseAddress + mh'.length < wordMod := by
      have := hfits h hmem
      omega
    have hle : len ≤ mh'.length := ((Fitting_iff hmh).mp hfit).2
    refine Post.ok ⟨m, h, rfl, hmem, hfit, ?_, kt, kl, topFits_last_highest hord hh⟩
    rw [endOf, kb, kl, hend]
    simp only [Mapping.mk0, Mapping.keys]
    rw [sub64_eq hle (by omega), add64_eq (by omega)]
    omega

set_option maxRecDepth 100000 in
/-- C8, witness: after nine single-page maps and the unmap of pages 0 and 3,
`allocate` of one page with `prefer_bottom` returns, and what it returns is as
`allocate_bottom_picks` says. -/
theorem allocate_bottom_picks_witness :
    Returns (allocate 16 (scenarioSpace (pagesUnmapped 9 [3, 0])) kPageSize bottomReadWrite)
      (fun r => ∃ m h, r.2 = some m ∧ h ∈ nineMapsTree.toList ∧
        Fitting (scenarioSpace (pagesUnmapped 9 [3, 0])).cells kPageSize h ∧
        baseOf r.1.cells m = baseOf (scenarioSpace (pagesUnmapped 9 [3, 0])).cells h ∧
        typeOf r.1.cells m = MappingType.kTypeNone ∧ lengthOf r.1.cells m = kPageSize ∧
        ∀ g ∈ nineMapsTree.toList,
          Fitting (scenarioSpace (pagesUnmapped 9 [3, 0])).cells kPageSize g →
          baseOf (scenarioSpace (pagesUnmapped 9 [3, 0])).cells g <
            baseOf (scenarioSpace (pagesUnmapped 9 [3, 0])).cells h →
          HasAncestor (Fitting (scenarioSpace (pagesUnmapped 9 [3, 0])).cells kPageSize)
            nineMapsTree g) :=
  Returns_of_Post
    (allocate_bottom_picks 16 kPageSize bottomReadWrite
      (scenarioSpace (pagesUnmapped 9 [3, 0])) nineMapsTree
      (by decide!) (by decide) (by decide) (by decide!) (by decide))
    (by decide!)

set_option maxRecDepth 100000 in
/-- C9, witness: after three single-page maps and the unmap of page 1,
`allocate` of one page with `prefer_top` returns, and what it returns is as
`allocate_top_picks` says. -/
theorem allocate_top_picks_witness :
    Returns (allocate 16 (scenarioSpace (pagesUnmapped 3 [1])) kPageSize topReadWrite)
      (fun r => ∃ m h, r.2 = some m ∧ h ∈ threeMapsTree.toList ∧
        Fitting (scenarioSpace (pagesUnmapped 3 [1])).cells kPageSize h ∧
        endOf r.1.cells m = endOf (scenarioSpace (pagesUnmapped 3 [1])).cells h ∧
        typeOf r.1.cells m = MappingType.kTypeNone ∧ lengthOf r.1.cells m = kPageSize ∧
        ∀ g ∈ threeMapsTree.toList,
          Fitting (scenarioSpace (pagesUnmapped 3 [1])).cells kPageSize g →
          endOf (scenarioSpace (pagesUnmapped 3 [1])).cells h <
            endOf (scenarioSpace (pagesUnmapped 3 [1])).cells g →
          HasAncestor (Fitting (scenarioSpace (pagesUnmapped 3 [1])).cells kPageSize)
            threeMapsTree g) :=
  Returns_of_Post
    (allocate_top_picks 16 kPageSize topReadWrite
      (scenarioSpace (pagesUnmapped 3 [1])) threeMapsTree
      (by decide!) (by decide) (by decide) (by decide!) (by decide) (by decide))
    (by decide!)


/-! ### Subtrees in their context -/

@[simp] theorem root_node (l r : Tree) (i : Nat) : (Tree.node l i r).root = some i := rfl
@[simp] theorem root_nil : Tree.nil.root = none := rfl

theorem plug_append (fs gs : List Frame) (t : Tree) : plug (fs ++ gs) t = plug gs (plug fs t) := by
  induction fs generalizing t with
  | nil => rfl
  | cons f fs ih => simp [plug, ih]

theorem toList_plug (fs : List Frame) (t : Tree) :
    (plug fs t).toList = ctxBefore fs ++ (t.toList ++ ctxAfter fs) := by
  induction fs generalizing t with
  | nil => simp [plug, ctxBefore, ctxAfter]
  | cons f fs ih =>
    cases f with
    | left p sib => simp [plug, Frame.fill, ih, ctxBefore, ctxAfter, Tree.toList]
    | right sib p => simp [plug, Frame.fill, ih, ctxBefore, ctxAfter, Tree.toList]

theorem mem_decomp {t : Tree} {i : Nat} (h : i ∈ t.toList) :
    ∃ fs l r, t = plug fs (Tree.node l i r) := by
  induction t with
  | nil => simp [Tree.toList] at h
  | node l j r ihl ihr =>
    simp only [Tree.toList, List.mem_append, List.mem_cons] at h
    rcases h with h | h | h
    · obtain ⟨fs, a, b, e⟩ := ihl h
      exact ⟨fs ++ [Frame.left j r], a, b, by rw [plug_append, ← e]; rfl⟩
    · subst h
      exact ⟨[], l, r, rfl⟩
    · obtain ⟨fs, a, b, e⟩ := ihr h
      exact ⟨fs ++ [Frame.right l j], a, b, by rw [plug_append, ← e]; rfl⟩

theorem root_plug_ne_nil (f : Frame) (fs : List Frame) (t t' : Tree) :
    (plug (f :: fs) t).root = (plug (f :: fs) t').root := by
  induction fs generalizing f t t' with
  | nil => cases f <;> rfl
  | cons g gs ih =>
    show (plug (g :: gs) (f.fill t)).root = (plug (g :: gs) (f.fill t')).root
    exact ih g _ _

theorem shape_plug (c : Nat → Option Mapping) (fs : List Frame) (t : Tree) (root : Ptr) :
    (root = (plug fs t).root ∧ Shape c (plug fs t) none) ↔
      (ShapeCtx c fs t.root root ∧ Shape c t (ctxParent fs)) := by
  induction fs generalizing t with
  | nil => simp only [plug, ShapeCtx, ctxParent]; constructor <;> (rintro ⟨h1, h2⟩; exact ⟨h1.symm, h2⟩)
  | cons f fs ih =>
    cases f with
    | left p sib =>
      show (root = (plug fs (Tree.node t p sib)).root ∧ Shape c (plug fs (Tree.node t p sib)) none) ↔ _
      rw [ih]
      simp only [ShapeCtx, Shape_node, root_node, ctxParent, Frame.id]
      constructor
      · rintro ⟨h1, m, hm, hp, hl, hr, hsl, hsr⟩
        exact ⟨⟨⟨m, hm, hp, hl, hr⟩, hsr, h1⟩, hsl⟩
      · rintro ⟨⟨⟨m, hm, hp, hl, hr⟩, hsr, h1⟩, hsl⟩
        exact ⟨h1, m, hm, hp, hl, hr, hsl, hsr⟩
    | right sib p =>
      show (root = (plug fs (Tree.node sib p t)).root ∧ Shape c (plug fs (Tree.node sib p t)) none) ↔ _
      rw [ih]
      simp only [ShapeCtx, Shape_node, root_node, ctxParent, Frame.id]
      constructor
      · rintro ⟨h1, m, hm, hp, hl, hr, hsl, hsr⟩
        exact ⟨⟨⟨m, hm, hp, hl, hr⟩, hsl, h1⟩, hsr⟩
      · rintro ⟨⟨⟨m, hm, hp, hl, hr⟩, hsl, h1⟩, hsr⟩
        exact ⟨h1, m, hm, hp, hl, hr, hsl, hsr⟩

theorem treeAt_plug (s : Space) (fs : List Frame) (t : Tree) :
    TreeAt s (plug fs t) ↔
      (ShapeCtx s.cells fs t.root s.p_root ∧ Shape s.cells t (ctxParent fs) ∧
        (ctxBefore fs ++ (t.toList ++ ctxAfter fs)).Nodup) := by
  unfold TreeAt
  rw [← and_assoc, shape_plug, toList_plug, and_assoc]

/-- The nodes of a path together with the nodes of the subtrees beside it. -/
theorem mem_ctx_iff (fs : List Frame) (j : Nat) :
    (j ∈ ctxBefore fs ∨ j ∈ ctxAfter fs) ↔ ∃ f ∈ fs, j = f.id ∨ j ∈ f.sib.toList := by
  induction fs with
  | nil => simp [ctxBefore, ctxAfter]
  | cons f fs ih =>
    rw [List.exists_mem_cons_iff, ← ih]
    cases f with
    | left p sib =>
      simp only [ctxBefore, ctxAfter, List.mem_append, List.mem_cons, Frame.id, Frame.sib]
      tauto
    | right sib p =>
      simp only [ctxBefore, ctxAfter, List.mem_append, List.mem_cons, Frame.id, Frame.sib,
        List.mem_singleton, List.not_mem_nil, or_false]
      tauto

/-- Shapes only depend on the link fields of the nodes of the tree. -/
theorem Shape.mono_shape {c c' : Nat → Option Mapping} {t : Tree} {par : Ptr}
    (h : ∀ i ∈ t.toList, ∀ m, c i = some m → ∃ m', c' i = some m' ∧ m'.leftPtr = m.leftPtr ∧
      m'.rightPtr = m.rightPtr ∧ m'.parentPtr = m.parentPtr)
    (hs : Shape c t par) : Shape c' t par := by
  induction t generalizing par with
  | nil => trivial
  | node l i r ihl ihr =>
    rw [Shape_node] at hs ⊢
    obtain ⟨m, hm, hp, hl, hr, hsl, hsr⟩ := hs
    obtain ⟨m', hm', e1, e2, e3⟩ := h i (by simp [Tree.toList]) m hm
    refine ⟨m', hm', by rw [e3, hp], by rw [e1, hl], by rw [e2, hr], ?_, ?_⟩
    · exact ihl (fun j hj => h j (by simp [Tree.toList, hj])) hsl
    · exact ihr (fun j hj => h j (by simp [Tree.toList, hj])) hsr

theorem Shape.congr {c c' : Nat → Option Mapping} {t : Tree} {par : Ptr}
    (h : ∀ i ∈ t.toList, c' i = c i) (hs : Shape c t par) : Shape c' t par :=
  Shape.mono_shape (fun i hi m hm => ⟨m, by rw [h i hi, hm], rfl, rfl, rfl⟩) hs

/-- The parent pointer of the root of a subtree may be redirected. -/
theorem Shape.reparent {c c' : Nat → Option Mapping} {t : Tree} {par par' : Ptr}
    (hroot : ∀ i, t.root = some i → ∀ m, c i = some m → ∃ m', c' i = some m' ∧
      m'.leftPtr = m.leftPtr ∧ m'.rightPtr = m.rightPtr ∧ m'.parentPtr = par')
    (h : ∀ i ∈ t.toList, t.root ≠ some i → c' i = c i)
    (hn : t.toList.Nodup) (hs : Shape c t par) : Shape c' t par' := by
  cases t with
  | nil => trivial
  | node l i r =>
    rw [Shape_node] at hs ⊢
    obtain ⟨m, hm, hp, hl, hr, hsl, hsr⟩ := hs
    obtain ⟨m', hm', e1, e2, e3⟩ := hroot i rfl m hm
    have hd : i ∉ l.toList ∧ i ∉ r.toList := by
      simp only [Tree.toList] at hn
      have := List.nodup_append.mp hn
      refine ⟨fun hi => this.2.2 hi (List.mem_cons_self _ _) , ?_⟩
      exact (List.nodup_cons.mp this.2.1).1
    refine ⟨m', hm', e3, by rw [e1, hl], by rw [e2, hr], ?_, ?_⟩
    · refine Shape.congr (fun j hj => h j (by simp [Tree.toList, hj]) ?_) hsl
      simp only [Tree.root, ne_eq, Option.some.injEq]
      rintro rfl; exact hd.1 hj
    · refine Shape.congr (fun j hj => h j (by simp [Tree.toList, hj]) ?_) hsr
      simp only [Tree.root, ne_eq, Option.some.injEq]
      rintro rfl; exact hd.2 hj

/-- Paths only depend on the link fields of their nodes and of the subtrees beside them. -/
theorem ShapeCtx.mono_ctx {c c' : Nat → Option Mapping} {fs : List Frame} {hole root : Ptr}
    (h : ∀ f ∈ fs, ∀ i, (i = f.id ∨ i ∈ f.sib.toList) → ∀ m, c i = some m → ∃ m', c' i = some m' ∧
      m'.leftPtr = m.leftPtr ∧ m'.rightPtr = m.rightPtr ∧ m'.parentPtr = m.parentPtr)
    (hs : ShapeCtx c fs hole root) : ShapeCtx c' fs hole root := by
  induction fs generalizing hole with
  | nil => exact hs
  | cons f fs ih =>
    cases f with
    | left p sib =>
      obtain ⟨⟨m, hm, hp, hl, hr⟩, hsib, hrest⟩ := hs
      obtain ⟨m', hm', e1, e2, e3⟩ := h _ (List.mem_cons_self _ _) p (Or.inl rfl) m hm
      refine ⟨⟨m', hm', by rw [e3, hp], by rw [e1, hl], by rw [e2, hr]⟩, ?_, ?_⟩
      · exact Shape.mono_shape (fun j hj => h _ (List.mem_cons_self _ _) j (Or.inr hj)) hsib
      · exact ih (fun g hg => h g (List.mem_cons_of_mem _ hg)) hrest
    | right sib p =>
      obtain ⟨⟨m, hm, hp, hl, hr⟩, hsib, hrest⟩ := hs
      obtain ⟨m', hm', e1, e2, e3⟩ := h _ (List.mem_cons_self _ _) p (Or.inl rfl) m hm
      refine ⟨⟨m', hm', by rw [e3, hp], by rw [e1, hl], by rw [e2, hr]⟩, ?_, ?_⟩
      · exact Shape.mono_shape (fun j hj => h _ (List.mem_cons_self _ _) j (Or.inr hj)) hsib
      · exact ih (fun g hg => h g (List.mem_cons_of_mem _ hg)) hrest

/-! ### The augment in context -/

theorem fieldOf_upd_self {α : Type} (c : Nat → Option Mapping) (i : Nat) (m : Mapping)
    (f : Mapping → α) (d : α) : fieldOf (upd c i m) f d i = f m := by
  simp [fieldOf, upd]

theorem fieldOf_upd_ne {α : Type} (c : Nat → Option Mapping) {i j : Nat} (m : Mapping)
    (f : Mapping → α) (d : α) (h : j ≠ i) : fieldOf (upd c i m) f d j = fieldOf c f d j := by
  simp [fieldOf, upd, h]

theorem fieldOf_some {α : Type} {c : Nat → Option Mapping} {i : Nat} {m : Mapping}
    (h : c i = some m) (f : Mapping → α) (d : α) : fieldOf c f d i = f m := by
  simp [fieldOf, h]

theorem mem_root {t : Tree} {i : Nat} (h : t.root = some i) : i ∈ t.toList := by
  cases t with
  | nil => cases h
  | node l j r => cases h; simp [Tree.toList]

theorem Augmented.congr_aug {c c' : Nat → Option Mapping} {t : Tree}
    (h : ∀ i ∈ t.toList, largestHoleAt c' (some i) = largestHoleAt c (some i) ∧
      ownHole c' i = ownHole c i)
    (ha : Augmented c t) : Augmented c' t := by
  induction t with
  | nil => trivial
  | node l i r ihl ihr =>
    obtain ⟨h1, h2, h3⟩ := ha
    have hroot : ∀ t' : Tree, (∀ j ∈ t'.toList, j ∈ (Tree.node l i r).toList) →
        largestHoleAt c' t'.root = largestHoleAt c t'.root := by
      intro t' ht'
      cases ht : t'.root with
      | none => rfl
      | some j => exact (h j (ht' j (mem_root ht))).1
    refine ⟨?_, ?_, ?_⟩
    · rw [(h i (by simp [Tree.toList])).1, (h i (by simp [Tree.toList])).2,
        hroot l (fun j hj => by simp [Tree.toList, hj]),
        hroot r (fun j hj => by simp [Tree.toList, hj])]
      exact h1
    · exact ihl (fun j hj => h j (by simp [Tree.toList, hj])) h2
    · exact ihr (fun j hj => h j (by simp [Tree.toList, hj])) h3

theorem AugCtx.congr_augCtx {c c' : Nat → Option Mapping} {fs : List Frame} {v : Nat}
    (h : ∀ f ∈ fs, ∀ i, (i = f.id ∨ i ∈ f.sib.toList) →
      largestHoleAt c' (some i) = largestHoleAt c (some i) ∧ ownHole c' i = ownHole c i)
    (ha : AugCtx c fs v) : AugCtx c' fs v := by
  induction fs generalizing v with
  | nil => trivial
  | cons f fs ih =>
    obtain ⟨h1, h2, h3⟩ := ha
    have hf := h f (List.mem_cons_self _ _)
    have hsib : largestHoleAt c' f.sib.root = largestHoleAt c f.sib.root := by
      cases ht : f.sib.root with
      | none => rfl
      | some j => exact (hf j (Or.inr (mem_root ht))).1
    refine ⟨?_, ?_, ?_⟩
    · rw [(hf f.id (Or.inl rfl)).1, (hf f.id (Or.inl rfl)).2, hsib]; exact h1
    · exact Augmented.congr_aug (fun j hj => hf j (Or.inr hj)) h2
    · rw [(hf f.id (Or.inl rfl)).1]
      exact ih (fun g hg => h g (List.mem_cons_of_mem _ hg)) h3

theorem aug_plug (c : Nat → Option Mapping) (fs : List Frame) (t : Tree) :
    Augmented c (plug fs t) ↔ (AugCtx c fs (largestHoleAt c t.root) ∧ Augmented c t) := by
  induction fs generalizing t with
  | nil => simp [plug, AugCtx]
  | cons f fs ih =>
    cases f with
    | left p sib =>
      show Augmented c (plug fs (Tree.node t p sib)) ↔ _
      rw [ih]
      simp only [AugCtx, Augmented, root_node, Frame.id, Frame.sib]
      tauto
    | right sib p =>
      show Augmented c (plug fs (Tree.node sib p t)) ↔ _
      rw [ih]
      simp only [AugCtx, Augmented, root_node, Frame.id, Frame.sib]
      rw [max_comm (largestHoleAt c sib.root)]
      tauto

theorem largestHoleAt_upd_ne (c : Nat → Option Mapping) {i j : Nat} (m : Mapping) (h : j ≠ i) :
    largestHoleAt (upd c i m) (some j) = largestHoleAt c (some j) :=
  fieldOf_upd_ne c m _ _ h

theorem largestHoleAt_upd_self (c : Nat → Option Mapping) (i : Nat) (m : Mapping) :
    largestHoleAt (upd c i m) (some i) = m.largestHole :=
  fieldOf_upd_self c i m _ _

theorem ownHole_upd_ne (c : Nat → Option Mapping) {i j : Nat} (m : Mapping) (h : j ≠ i) :
    ownHole (upd c i m) j = ownHole c j := by
  simp [ownHole, typeOf, lengthOf, fieldOf_upd_ne c m _ _ h]

theorem ownHole_some {c : Nat → Option Mapping} {i : Nat} {m : Mapping} (h : c i = some m) :
    ownHole c i = if m.type = MappingType.kTypeHole then m.length else 0 := by
  simp [ownHole, typeOf, lengthOf, fieldOf_some h]

theorem ownHole_upd_self (c : Nat → Option Mapping) (i : Nat) (m : Mapping) :
    ownHole (upd c i m) i = if m.type = MappingType.kTypeHole then m.length else 0 := by
  simp [ownHole, typeOf, lengthOf, fieldOf_upd_self]

theorem largestHoleAt_root_upd (c : Nat → Option Mapping) {i : Nat} (m : Mapping) {t : Tree}
    (h : i ∉ t.toList) : largestHoleAt (upd c i m) t.root = largestHoleAt c t.root := by
  cases ht : t.root with
  | none => rfl
  | some j =>
    apply largestHoleAt_upd_ne
    rintro rfl
    exact h (mem_root ht)

theorem Augmented.upd_aug {c : Nat → Option Mapping} {t : Tree} {i : Nat} (m : Mapping)
    (h : i ∉ t.toList) (ha : Augmented c t) : Augmented (upd c i m) t :=
  Augmented.congr_aug (fun j hj => by
    have hne : j ≠ i := by rintro rfl; exact h hj
    exact ⟨largestHoleAt_upd_ne c m hne, ownHole_upd_ne c m hne⟩) ha

theorem AugCtx.upd_augCtx {c : Nat → Option Mapping} {fs : List Frame} {v : Nat} {i : Nat} (m : Mapping)
    (h : ∀ f ∈ fs, i ≠ f.id ∧ i ∉ f.sib.toList) (ha : AugCtx c fs v) :
    AugCtx (upd c i m) fs v :=
  AugCtx.congr_augCtx (fun f hf j hj => by
    have hne : j ≠ i := by
      rintro rfl
      rcases hj with hj | hj
      · exact (h f hf).1 hj
      · exact (h f hf).2 hj
    exact ⟨largestHoleAt_upd_ne c m hne, ownHole_upd_ne c m hne⟩) ha

/-! ### Nodes that occur once -/

theorem nodup_node {l r : Tree} {x : Nat} (h : (Tree.node l x r).toList.Nodup) :
    x ∉ l.toList ∧ x ∉ r.toList ∧ l.toList.Nodup ∧ r.toList.Nodup ∧
      ∀ j ∈ l.toList, j ∉ r.toList := by
  simp only [Tree.toList] at h
  have h1 := List.nodup_append.mp h
  have h2 := List.nodup_cons.mp h1.2.1
  exact ⟨fun hx => h1.2.2 hx (List.mem_cons_self _ _), h2.1, h1.1, h2.2,
    fun j hj hj' => h1.2.2 hj (List.mem_cons_of_mem _ hj')⟩

theorem nodup_plug {fs : List Frame} {t : Tree} (h : (plug fs t).toList.Nodup) :
    t.toList.Nodup ∧ ∀ f ∈ fs, ∀ j, (j = f.id ∨ j ∈ f.sib.toList) → j ∉ t.toList := by
  rw [toList_plug] at h
  have h1 := List.nodup_append.mp h
  have h2 := List.nodup_append.mp h1.2.1
  refine ⟨h2.1, fun f hf j hj hjt => ?_⟩
  have := (mem_ctx_iff fs j).mpr ⟨f, hf, hj⟩
  rcases this with hb | ha
  · exact h1.2.2 hb (List.mem_append_left _ hjt)
  · exact h2.2.2 hjt ha

theorem nodup_plug_swap {fs : List Frame} {t t' : Tree} (h : (plug fs t).toList.Nodup)
    (hp : t'.toList.Perm t.toList) : (plug fs t').toList.Nodup := by
  rw [toList_plug] at h ⊢
  exact (List.Perm.nodup_iff
    (List.Perm.append_left _ (List.Perm.append_right _ hp))).mpr h

/-! ### Frames -/

theorem Same.refl_same {α : Type} (f : Mapping → α) (s : Space) : Same f s s := ⟨rfl, rfl, fun _ => rfl⟩

theorem Same.trans_same {α : Type} {f : Mapping → α} {s t u : Space} (h1 : Same f s t)
    (h2 : Same f t u) : Same f s u :=
  ⟨h2.1.trans h1.1, h2.2.1.trans h1.2.1, fun j => (h2.2.2 j).trans (h1.2.2 j)⟩

theorem Same.cell {α : Type} {f : Mapping → α} {s t : Space} (h : Same f s t) {j : Nat}
    {m : Mapping} (hm : s.cells j = some m) : ∃ m', t.cells j = some m' ∧ f m' = f m := by
  have := h.2.2 j
  rw [hm] at this
  cases ht : t.cells j with
  | none => rw [ht] at this; cases this
  | some m' => rw [ht] at this; exact ⟨m', rfl, by simpa using this⟩

theorem Same.cell_back {α : Type} {f : Mapping → α} {s t : Space} (h : Same f s t) {j : Nat}
    {m' : Mapping} (hm : t.cells j = some m') : ∃ m, s.cells j = some m ∧ f m' = f m := by
  have := h.2.2 j
  rw [hm] at this
  cases ht : s.cells j with
  | none => rw [ht] at this; cases this
  | some m => rw [ht] at this; exact ⟨m, rfl, by simpa using this⟩

theorem Same.proj {α β : Type} {f : Mapping → α} {s t : Space} (h : Same f s t) (g : α → β) :
    Same (fun m => g (f m)) s t :=
  ⟨h.1, h.2.1, fun j => by
    have := congrArg (Option.map g) (h.2.2 j)
    simpa [Option.map_map, Function.comp_def] using this⟩

theorem Same.upd {α : Type} {f : Mapping → α} {s : Space} {i : Nat} {m m' : Mapping}
    (hm : s.cells i = some m) (hf : f m' = f m) :
    Same f s { s with cells := upd s.cells i m' } := by
  refine ⟨rfl, rfl, fun j => ?_⟩
  by_cases hj : j = i
  · subst hj; simp [Thor.upd, hm, hf]
  · simp [Thor.upd, hj]

theorem TreeAt.of_same {α : Type} {f : Mapping → α} {s s' : Space} {t : Tree}
    (h : Same f s s')
    (hf : ∀ m m', f m' = f m →
      m'.leftPtr = m.leftPtr ∧ m'.rightPtr = m.rightPtr ∧ m'.parentPtr = m.parentPtr)
    (hr : s'.p_root = s.p_root) (ht : TreeAt s t) : TreeAt s' t := by
  refine ⟨hr.trans ht.1, ?_, ht.2.2⟩
  refine Shape.mono_shape (fun i _ m hm => ?_) ht.2.1
  obtain ⟨m', hm', e⟩ := h.cell hm
  exact ⟨m', hm', hf m m' e⟩

theorem noHole_links (m m' : Mapping) (h : m'.noHole = m.noHole) :
    m'.leftPtr = m.leftPtr ∧ m'.rightPtr = m.rightPtr ∧ m'.parentPtr = m.parentPtr :=
  ⟨by have := congrArg Mapping.leftPtr h; exact this,
    by have := congrArg Mapping.rightPtr h; exact this,
    by have := congrArg Mapping.parentPtr h; exact this⟩

theorem Shape.root_alive {c : Nat → Option Mapping} {t : Tree} {par : Ptr} {j : Nat}
    (hs : Shape c t par) (h : t.root = some j) : ∃ m, c j = some m ∧ m.parentPtr = par := by
  cases t with
  | nil => cases h
  | node l i r =>
    cases h
    rw [Shape_node] at hs
    obtain ⟨m, hm, hp, _⟩ := hs
    exact ⟨m, hm, hp⟩

/-! ### Recomputing the augment -/

theorem computeHole_eq {s : Space} {m : Mapping}
    (hl : ∀ j, m.leftPtr = some j → ∃ x, s.cells j = some x)
    (hr : ∀ j, m.rightPtr = some j → ∃ x, s.cells j = some x) :
    computeHole s m = Except.ok (wantedHole s.cells m) := by
  unfold computeHole wantedHole
  cases hL : m.leftPtr with
  | none =>
    cases hR : m.rightPtr with
    | none => simp [largestHoleAt]
    | some b =>
      obtain ⟨y, hy⟩ := hr b hR
      simp only [largestHoleAt, fieldOf_some hy, Space.get, hy, bind_okE, Except.ok.injEq]
      split_ifs <;> omega
  | some a =>
    obtain ⟨x, hx⟩ := hl a hL
    cases hR : m.rightPtr with
    | none =>
      simp only [largestHoleAt, fieldOf_some hx, Space.get, hx, bind_okE, Except.ok.injEq]
      split_ifs <;> omega
    | some b =>
      obtain ⟨y, hy⟩ := hr b hR
      simp only [largestHoleAt, fieldOf_some hx, fieldOf_some hy, Space.get, hx, hy, bind_okE,
        Except.ok.injEq]
      split_ifs <;> omega

theorem upd_self {c : Nat → Option Mapping} {i : Nat} {m : Mapping} (h : c i = some m) :
    upd c i m = c := by
  funext j
  by_cases hj : j = i
  · subst hj; simp [upd, h]
  · simp [upd, hj]

theorem modify_eq {s : Space} {i : Nat} {m : Mapping} (h : s.cells i = some m)
    (f : Mapping → Mapping) :
    s.modify i f = Except.ok { s with cells := upd s.cells i (f m) } := by
  simp only [Space.modify, h]; rfl

theorem get_eq {s : Space} {i : Nat} {m : Mapping} (h : s.cells i = some m) :
    s.get i = Except.ok m := by
  simp [Space.get, h]

theorem updateLargestHoleAt_eq {s : Space} {i : Nat} {m : Mapping} (h : s.cells i = some m)
    (hl : ∀ j, m.leftPtr = some j → ∃ x, s.cells j = some x)
    (hr : ∀ j, m.rightPtr = some j → ∃ x, s.cells j = some x) :
    updateLargestHoleAt s (some i) = Except.ok
      ({ s with cells := upd s.cells i { m with largestHole := wantedHole s.cells m } },
        decide (m.largestHole ≠ wantedHole s.cells m)) := by
  unfold updateLargestHoleAt
  simp only [deref, bind_okE, get_eq h, computeHole_eq hl hr]
  by_cases hc : m.largestHole = wantedHole s.cells m
  · simp only [hc, ne_eq, not_true_eq_false, ↓reduceIte, decide_False]
    congr 2
    have : ({ m with largestHole := wantedHole s.cells m } : Mapping) = m := by
      rw [← hc]
    rw [this, upd_self h]
  · simp only [ne_eq, hc, not_false_eq_true, ↓reduceIte, modify_eq h, bind_okE, decide_True]

/-- One step of the augment update at the root of a subtree whose children carry
a correct augment. -/
theorem updateLargestHoleAt_node {s : Space} {l r : Tree} {x : Nat} {par : Ptr}
    (hs : Shape s.cells (Tree.node l x r) par) (hn : (Tree.node l x r).toList.Nodup)
    (hal : Augmented s.cells l) (har : Augmented s.cells r) :
    ∃ m, s.cells x = some m ∧ m.parentPtr = par ∧
      updateLargestHoleAt s (some x) = Except.ok
        ({ s with cells := upd s.cells x { m with largestHole := wantedHole s.cells m } },
          decide (m.largestHole ≠ wantedHole s.cells m)) ∧
      Augmented (upd s.cells x { m with largestHole := wantedHole s.cells m })
        (Tree.node l x r) := by
  have hs' := hs
  rw [Shape_node] at hs'
  obtain ⟨m, hm, hp, hl, hr, hsl, hsr⟩ := hs'
  obtain ⟨hxl, hxr, -, -, -⟩ := nodup_node hn
  refine ⟨m, hm, hp, updateLargestHoleAt_eq hm ?_ ?_, ?_, ?_, ?_⟩
  · intro j hj
    obtain ⟨y, hy, -⟩ := hsl.root_alive (hl ▸ hj)
    exact ⟨y, hy⟩
  · intro j hj
    obtain ⟨y, hy, -⟩ := hsr.root_alive (hr ▸ hj)
    exact ⟨y, hy⟩
  · rw [largestHoleAt_upd_self, ownHole_upd_self, largestHoleAt_root_upd _ _ hxl,
      largestHoleAt_root_upd _ _ hxr, ← hl, ← hr]
    rfl
  · exact hal.upd_aug _ hxl
  · exact har.upd_aug _ hxr

theorem updateLargestHoleUpwards_spec (fs : List Frame) :
    ∀ (fuel : Nat) (s : Space) (l r : Tree) (x : Nat), fs.length < fuel →
      TreeAt s (plug fs (Tree.node l x r)) →
      Augmented s.cells l → Augmented s.cells r →
      AugCtx s.cells fs (largestHoleAt s.cells (some x)) →
      ∃ s', updateLargestHoleUpwards fuel s (some x) = Except.ok s' ∧
        TreeAt s' (plug fs (Tree.node l x r)) ∧
        Augmented s'.cells (plug fs (Tree.node l x r)) ∧
        Same Mapping.noHole s s' ∧ s'.p_root = s.p_root := by
  induction fs with
  | nil =>
    intro fuel s l r x hfuel hT hal har _
    obtain ⟨k, rfl⟩ := Nat.exists_eq_succ_of_ne_zero (by omega : fuel ≠ 0)
    obtain ⟨hroot, hsh, hnd⟩ := hT
    obtain ⟨m, hm, hp, hupd, haug⟩ := updateLargestHoleAt_node hsh hnd hal har
    have hsame : Same Mapping.noHole s
        { s with cells := upd s.cells x { m with largestHole := wantedHole s.cells m } } :=
      Same.upd hm rfl
    refine ⟨_, ?_, TreeAt.of_same hsame noHole_links rfl ⟨hroot, hsh, hnd⟩, haug, hsame, rfl⟩
    rw [updateLargestHoleUpwards, hupd]
    simp only [bind_okE]
    split
    · rfl
    · simp only [Space.getP, Space.get, Thor.upd, ↓reduceIte, bind_okE]
      have : m.parentPtr = none := hp
      simp only [this]
  | cons f fs ih =>
    intro fuel s l r x hfuel hT hal har hctx
    obtain ⟨k, rfl⟩ := Nat.exists_eq_succ_of_ne_zero (by omega : fuel ≠ 0)
    have hT' := hT
    rw [treeAt_plug] at hT'
    obtain ⟨hsc, hsh, hnd⟩ := hT'
    have hnd0 := nodup_plug hT.2.2
    obtain ⟨m, hm, hp, hupd, haug⟩ := updateLargestHoleAt_node hsh hnd0.1 hal har
    have hsame : Same Mapping.noHole s
        { s with cells := upd s.cells x { m with largestHole := wantedHole s.cells m } } :=
      Same.upd hm rfl
    have hT1 := TreeAt.of_same hsame noHole_links rfl hT
    have hxf : ∀ g ∈ f :: fs, x ≠ g.id ∧ x ∉ g.sib.toList := fun g hg =>
      ⟨fun e => hnd0.2 g hg x (Or.inl e) (by simp [Tree.toList]),
        fun e => hnd0.2 g hg x (Or.inr e) (by simp [Tree.toList])⟩
    have hctx1 := hctx.upd_augCtx { m with largestHole := wantedHole s.cells m } hxf
    rw [updateLargestHoleUpwards, hupd]
    simp only [bind_okE]
    by_cases hc : m.largestHole = wantedHole s.cells m
    · refine ⟨_, ?_, hT1, ?_, hsame, rfl⟩
      · simp [hc]
      · rw [aug_plug]
        refine ⟨?_, haug⟩
        simp only [root_node, largestHoleAt_upd_self]
        have : largestHoleAt s.cells (some x) = m.largestHole := fieldOf_some hm _ _
        rw [this, hc] at hctx1
        exact hctx1
    · have hpar : m.parentPtr = some f.id := hp
      simp only [ne_eq, hc, not_false_eq_true, decide_True, Bool.not_true, Bool.false_eq_true,
        ↓reduceIte, Space.getP, Space.get, Thor.upd, bind_okE]
      obtain ⟨-, hsibAug, hrest⟩ := hctx1
      split
      next q hq =>
        have hq' : q = f.id := by
          have : m.parentPtr = some q := hq
          rw [hpar] at this
          exact (Option.some.inj this).symm
        subst hq'
        cases f with
        | left p sib =>
          obtain ⟨s', h1, h2, h3, h4, h5⟩ := ih k
            { s with cells := Thor.upd s.cells x { m with largestHole := wantedHole s.cells m } }
            (Tree.node l x r) sib p (by simpa using hfuel) hT1 haug hsibAug hrest
          exact ⟨s', h1, h2, h3, hsame.trans_same h4, h5⟩
        | right sib p =>
          obtain ⟨s', h1, h2, h3, h4, h5⟩ := ih k
            { s with cells := Thor.upd s.cells x { m with largestHole := wantedHole s.cells m } }
            sib (Tree.node l x r) p (by simpa using hfuel) hT1 hsibAug haug hrest
          exact ⟨s', h1, h2, h3, hsame.trans_same h4, h5⟩
      next hq =>
        have : m.parentPtr = none := hq
        rw [hpar] at this
        cases this

/-! ### Pointer surgery in context -/

theorem ShapeCtx.congr_ctx {c c' : Nat → Option Mapping} {fs : List Frame} {hole root : Ptr}
    (h : ∀ j, (j ∈ ctxBefore fs ∨ j ∈ ctxAfter fs) → c' j = c j)
    (hs : ShapeCtx c fs hole root) : ShapeCtx c' fs hole root :=
  ShapeCtx.mono_ctx (fun f hf i hi m hm =>
    ⟨m, by rw [h i ((mem_ctx_iff fs i).mpr ⟨f, hf, hi⟩), hm], rfl, rfl, rfl⟩) hs

theorem Same.largestHoleAt {α : Type} {f : Mapping → α} {s t : Space} (h : Same f s t)
    (hf : ∀ m m', f m' = f m → m'.largestHole = m.largestHole) (p : Ptr) :
    Thor.largestHoleAt t.cells p = Thor.largestHoleAt s.cells p := by
  cases p with
  | none => rfl
  | some j =>
    cases hj : s.cells j with
    | none =>
      have := h.2.2 j
      rw [hj] at this
      cases hj' : t.cells j with
      | none => simp [Thor.largestHoleAt, fieldOf, hj, hj']
      | some m' => rw [hj'] at this; cases this
    | some m =>
      obtain ⟨m', hm', e⟩ := h.cell hj
      simp [Thor.largestHoleAt, fieldOf, hj, hm', hf m m' e]

theorem Same.ownHole {α : Type} {f : Mapping → α} {s t : Space} (h : Same f s t)
    (hf : ∀ m m', f m' = f m → m'.type = m.type ∧ m'.length = m.length) (j : Nat) :
    Thor.ownHole t.cells j = Thor.ownHole s.cells j := by
  cases hj : s.cells j with
  | none =>
    have := h.2.2 j
    rw [hj] at this
    cases hj' : t.cells j with
    | none => simp [Thor.ownHole, typeOf, lengthOf, fieldOf, hj, hj']
    | some m' => rw [hj'] at this; cases this
  | some m =>
    obtain ⟨m', hm', e⟩ := h.cell hj
    simp [Thor.ownHole, typeOf, lengthOf, fieldOf, hj, hm', (hf m m' e).1, (hf m m' e).2]

theorem noLinks_hole (m m' : Mapping) (h : m'.noLinks = m.noLinks) :
    m'.largestHole = m.largestHole := by
  have := congrArg Mapping.largestHole h; exact this

theorem noLinks_own (m m' : Mapping) (h : m'.noLinks = m.noLinks) :
    m'.type = m.type ∧ m'.length = m.length :=
  ⟨by have := congrArg Mapping.type h; exact this,
    by have := congrArg Mapping.length h; exact this⟩

theorem Augmented.of_same_aug {s t : Space} {tr : Tree} (h : Same Mapping.noLinks s t)
    (ha : Augmented s.cells tr) : Augmented t.cells tr :=
  Augmented.congr_aug (fun j _ => ⟨h.largestHoleAt noLinks_hole _, h.ownHole noLinks_own j⟩) ha

theorem AugCtx.of_same_augCtx {s t : Space} {fs : List Frame} {v : Nat} (h : Same Mapping.noLinks s t)
    (ha : AugCtx s.cells fs v) : AugCtx t.cells fs v :=
  AugCtx.congr_augCtx (fun _ _ j _ => ⟨h.largestHoleAt noLinks_hole _, h.ownHole noLinks_own j⟩) ha

/-- Redirecting the parent pointer of the root of a subtree. -/
theorem modifyIf_reparent {s : Space} {b : Tree} {par : Ptr} (q : Ptr)
    (hs : Shape s.cells b par) (hn : b.toList.Nodup) :
    ∃ s1, s.modifyIf b.root (fun m => { m with parentPtr := q }) = Except.ok s1 ∧
      Shape s1.cells b q ∧ (∀ j, b.root ≠ some j → s1.cells j = s.cells j) ∧
      s1.p_root = s.p_root ∧ Same Mapping.noLinks s s1 := by
  cases b with
  | nil => exact ⟨s, rfl, trivial, fun _ _ => rfl, rfl, Same.refl_same _ _⟩
  | node l i r =>
    have hs' := hs
    rw [Shape_node] at hs'
    obtain ⟨m, hm, -, -, -, -, -⟩ := hs'
    refine ⟨_, modify_eq hm _, ?_, ?_, rfl, Same.upd hm rfl⟩
    · refine Shape.reparent (fun j hj x hx => ?_) (fun j _ hj => ?_) hn hs
      · cases hj
        rw [hm] at hx; cases hx
        exact ⟨{ m with parentPtr := q }, by simp [upd], rfl, rfl, rfl⟩
      · have : j ≠ i := fun e => hj (by rw [e]; rfl)
        simp [upd, this]
    · intro j hj
      have : j ≠ i := fun e => hj (by rw [e]; rfl)
      simp [upd, this]

theorem nodup_ctx_cons {f : Frame} {fs : List Frame}
    (h : (ctxBefore (f :: fs) ++ ctxAfter (f :: fs)).Nodup) :
    (ctxBefore fs ++ ctxAfter fs).Nodup ∧ f.id ∉ f.sib.toList ∧ f.sib.toList.Nodup ∧
      ∀ j, (j ∈ ctxBefore fs ∨ j ∈ ctxAfter fs) → j ≠ f.id ∧ j ∉ f.sib.toList := by
  cases f with
  | left p sib =>
    have hp : (ctxBefore fs ++ ((p :: sib.toList) ++ ctxAfter fs)).Perm
        ((p :: sib.toList) ++ (ctxBefore fs ++ ctxAfter fs)) := by
      rw [← List.append_assoc, ← List.append_assoc]
      exact List.Perm.append_right _ List.perm_append_comm
    have h' : ((p :: sib.toList) ++ (ctxBefore fs ++ ctxAfter fs)).Nodup := hp.nodup_iff.mp h
    have h1 := List.nodup_append.mp h'
    have h2 := List.nodup_cons.mp h1.1
    refine ⟨h1.2.1, h2.1, h2.2, fun j hj => ?_⟩
    have hj' : j ∈ ctxBefore fs ++ ctxAfter fs := List.mem_append.mpr hj
    exact ⟨fun e => h1.2.2 (e ▸ List.mem_cons_self _ _) hj',
      fun e => h1.2.2 (List.mem_cons_of_mem _ e) hj'⟩
  | right sib p =>
    have hp : ((ctxBefore fs ++ (sib.toList ++ [p])) ++ ctxAfter fs).Perm
        ((p :: sib.toList) ++ (ctxBefore fs ++ ctxAfter fs)) := by
      refine (List.Perm.append_right _ List.perm_append_comm).trans ?_
      rw [List.append_assoc]
      exact List.Perm.append_right _ (List.perm_append_singleton _ _)
    have h' : ((p :: sib.toList) ++ (ctxBefore fs ++ ctxAfter fs)).Nodup := hp.nodup_iff.mp h
    have h1 := List.nodup_append.mp h'
    have h2 := List.nodup_cons.mp h1.1
    refine ⟨h1.2.1, h2.1, h2.2, fun j hj => ?_⟩
    have hj' : j ∈ ctxBefore fs ++ ctxAfter fs := List.mem_append.mpr hj
    exact ⟨fun e => h1.2.2 (e ▸ List.mem_cons_self _ _) hj',
      fun e => h1.2.2 (List.mem_cons_of_mem _ e) hj'⟩

theorem upd_ne (c : Nat → Option Mapping) {i j : Nat} (m : Mapping) (h : j ≠ i) :
    upd c i m j = c j := by
  simp [upd, h]

theorem upd_eq (c : Nat → Option Mapping) (i : Nat) (m : Mapping) : upd c i m i = some m := by
  simp [upd]

/-- Hanging another subtree below the parent of a subtree. -/
theorem replaceChild_ctx {s : Space} {fs : List Frame} {u : Nat} (h' : Ptr)
    (hs : ShapeCtx s.cells fs (some u) s.p_root)
    (hu : ∀ f ∈ fs, u ∉ f.sib.toList)
    (hnd : (ctxBefore fs ++ ctxAfter fs).Nodup) :
    ∃ s4, replaceChild s (ctxParent fs) u h' = Except.ok s4 ∧
      ShapeCtx s4.cells fs h' s4.p_root ∧
      (∀ j, ctxParent fs ≠ some j → s4.cells j = s.cells j) ∧
      Same Mapping.noLinks s s4 := by
  cases fs with
  | nil => exact ⟨{ s with p_root := h' }, rfl, rfl, fun _ _ => rfl, Same.refl_same _ _⟩
  | cons f fs =>
    obtain ⟨hn1, hn2, -, hn4⟩ := nodup_ctx_cons hnd
    cases f with
    | left p sib =>
      obtain ⟨⟨m, hm, hp, hl, hr⟩, hsib, hrest⟩ := hs
      refine ⟨{ s with cells := upd s.cells p { m with leftPtr := h' } }, ?_, ?_, ?_,
        Same.upd hm rfl⟩
      · simp only [replaceChild, ctxParent, Frame.id, get_eq hm, bind_okE, hl, ↓reduceIte,
          modify_eq hm]
      · refine ⟨⟨_, upd_eq _ _ _, hp, rfl, hr⟩, ?_, ?_⟩
        · exact Shape.congr (fun j hj => upd_ne _ _ (ne_of_mem_of_not_mem hj hn2)) hsib
        · exact ShapeCtx.congr_ctx (fun j hj => upd_ne _ _ (hn4 j hj).1) hrest
      · intro j hj
        exact upd_ne _ _ (fun e => hj (by rw [e]; rfl))
    | right sib p =>
      obtain ⟨⟨m, hm, hp, hl, hr⟩, hsib, hrest⟩ := hs
      have hne : m.leftPtr ≠ some u := by
        rw [hl]
        intro e
        exact hu _ (List.mem_cons_self _ _) (mem_root e)
      refine ⟨{ s with cells := upd s.cells p { m with rightPtr := h' } }, ?_, ?_, ?_,
        Same.upd hm rfl⟩
      · simp only [replaceChild, ctxParent, Frame.id, get_eq hm, bind_okE, hne, ↓reduceIte, hr,
          Thor.assert, decide_True, modify_eq hm]
      · refine ⟨⟨_, upd_eq _ _ _, hp, hl, rfl⟩, ?_, ?_⟩
        · exact Shape.congr (fun j hj => upd_ne _ _ (ne_of_mem_of_not_mem hj hn2)) hsib
        · exact ShapeCtx.congr_ctx (fun j hj => upd_ne _ _ (hn4 j hj).1) hrest
      · intro j hj
        exact upd_ne _ _ (fun e => hj (by rw [e]; rfl))

theorem ctxParent_mem {fs : List Frame} {j : Nat} (h : ctxParent fs = some j) :
    j ∈ ctxBefore fs ∨ j ∈ ctxAfter fs := by
  cases fs with
  | nil => cases h
  | cons f fs =>
    cases h
    exact (mem_ctx_iff _ _).mpr ⟨f, List.mem_cons_self _ _, Or.inl rfl⟩

theorem nodup_ctx_of_plug {fs : List Frame} {t : Tree} (h : (plug fs t).toList.Nodup) :
    (ctxBefore fs ++ ctxAfter fs).Nodup ∧
      ∀ j, (j ∈ ctxBefore fs ∨ j ∈ ctxAfter fs) → j ∉ t.toList := by
  refine ⟨?_, fun j hj hjt => ?_⟩
  · rw [toList_plug] at h
    refine List.Nodup.sublist ?_ h
    exact List.Sublist.append_left (List.sublist_append_right _ _) _
  · obtain ⟨f, hf, hj'⟩ := (mem_ctx_iff fs j).mp hj
    exact (nodup_plug h).2 f hf j hj' hjt

theorem noRot_of_noLinks {s t : Space} (h : Same Mapping.noLinks s t) : Same Mapping.noRot s t :=
  h.proj Mapping.noHole

theorem noRot_of_noHole {s t : Space} (h : Same Mapping.noHole s t) : Same Mapping.noRot s t :=
  h.proj Mapping.noLinks

set_option maxHeartbeats 1000000 in
/-- The function `rotateLeft` turns `u(a, n(b, c))` into `n(u(a, b), c)`. -/
theorem rotateLeft_holes {s : Space} {fs : List Frame} {a b c : Tree} {u n : Nat}
    (hT : TreeAt s (plug fs (Tree.node a u (Tree.node b n c))))
    (hA : Augmented s.cells (plug fs (Tree.node a u (Tree.node b n c)))) :
    ∃ s', rotateLeft s n = Except.ok s' ∧
      TreeAt s' (plug fs (Tree.node (Tree.node a u b) n c)) ∧
      Augmented s'.cells (plug fs (Tree.node (Tree.node a u b) n c)) ∧
      Same Mapping.noRot s s' ∧
      ∀ j, j ≠ u → j ≠ n → largestHoleAt s'.cells (some j) = largestHoleAt s.cells (some j) := by
  obtain ⟨hsc, hsh, hnd⟩ := (treeAt_plug _ _ _).mp hT
  have hsh' := hsh
  rw [Shape_node] at hsh'
  obtain ⟨um, hum, hup, hul, hur, hsa, hsn⟩ := hsh'
  have hsn' := hsn
  rw [Shape_node] at hsn'
  obtain ⟨nm, hnm, hnp, hnl, hnr, hsb, hscc⟩ := hsn'
  -- the nodes are distinct
  obtain ⟨hcn, hct⟩ := nodup_ctx_of_plug hT.2.2
  obtain ⟨hua, hun', hand, hnnd, hdis⟩ := nodup_node (nodup_plug hT.2.2).1
  obtain ⟨hnb, hnc, hbnd, hcnd, hbc⟩ := nodup_node hnnd
  have hun : u ≠ n := fun e => hun' (by simp [Tree.toList, e])
  have hub : u ∉ b.toList := fun h => hun' (by simp [Tree.toList, h])
  have huc : u ∉ c.toList := fun h => hun' (by simp [Tree.toList, h])
  have hna : n ∉ a.toList := fun h => hdis n h (by simp [Tree.toList])
  have hab : ∀ j ∈ a.toList, j ∉ b.toList := fun j h h' => hdis j h (by simp [Tree.toList, h'])
  have hac : ∀ j ∈ a.toList, j ∉ c.toList := fun j h h' => hdis j h (by simp [Tree.toList, h'])
  have hcu : ∀ j, (j ∈ ctxBefore fs ∨ j ∈ ctxAfter fs) → j ≠ u :=
    fun j hj e => hct j hj (by simp [Tree.toList, e])
  have hcn' : ∀ j, (j ∈ ctxBefore fs ∨ j ∈ ctxAfter fs) → j ≠ n :=
    fun j hj e => hct j hj (by simp [Tree.toList, e])
  have hca : ∀ j, (j ∈ ctxBefore fs ∨ j ∈ ctxAfter fs) → j ∉ a.toList :=
    fun j hj e => hct j hj (by simp [Tree.toList, e])
  have hcb : ∀ j, (j ∈ ctxBefore fs ∨ j ∈ ctxAfter fs) → j ∉ b.toList :=
    fun j hj e => hct j hj (by simp [Tree.toList, e])
  have hcc : ∀ j, (j ∈ ctxBefore fs ∨ j ∈ ctxAfter fs) → j ∉ c.toList :=
    fun j hj e => hct j hj (by simp [Tree.toList, e])
  -- the pointer surgery
  obtain ⟨s1, e1, hsb1, hc1, hr1, hsame1⟩ := modifyIf_reparent (some u) hsb hbnd
  have h1u : s1.cells u = some um := by rw [hc1 u (fun e => hub (mem_root e)), hum]
  have h1n : s1.cells n = some nm := by rw [hc1 n (fun e => hnb (mem_root e)), hnm]
  have h2n : (upd s1.cells u { um with rightPtr := b.root, parentPtr := some n }) n = some nm := by
    rw [upd_ne _ _ hun.symm, h1n]
  have hsc3 : ShapeCtx
      (upd (upd s1.cells u { um with rightPtr := b.root, parentPtr := some n }) n
        { nm with leftPtr := some u, parentPtr := ctxParent fs }) fs (some u) s1.p_root := by
    rw [hr1]
    refine ShapeCtx.congr_ctx (fun j hj => ?_) hsc
    rw [upd_ne _ _ (hcn' j hj), upd_ne _ _ (hcu j hj), hc1 j (fun e => hcb j hj (mem_root e))]
  obtain ⟨s4, e4, hsc4, hc4, hsame4⟩ := @replaceChild_ctx
    ⟨upd (upd s1.cells u { um with rightPtr := b.root, parentPtr := some n }) n
        { nm with leftPtr := some u, parentPtr := ctxParent fs }, s1.next, s1.p_root,
      s1.p_pageSpace⟩ fs u
    (some n) hsc3
    (fun f hf hu => hcu u ((mem_ctx_iff _ _).mpr ⟨f, hf, Or.inr hu⟩) rfl) hcn
  have h4 : ∀ j, ¬ (j ∈ ctxBefore fs ∨ j ∈ ctxAfter fs) → s4.cells j =
      upd (upd s1.cells u { um with rightPtr := b.root, parentPtr := some n }) n
        { nm with leftPtr := some u, parentPtr := ctxParent fs } j :=
    fun j hj => hc4 j (fun e => hj (ctxParent_mem e))
  have h4n : s4.cells n = some { nm with leftPtr := some u, parentPtr := ctxParent fs } := by
    rw [h4 n (fun h => hcn' n h rfl), upd_eq]
  have h4u : s4.cells u = some { um with rightPtr := b.root, parentPtr := some n } := by
    rw [h4 u (fun h => hcu u h rfl), upd_ne _ _ hun, upd_eq]
  have h4a : ∀ j ∈ a.toList, s4.cells j = s.cells j := fun j hj => by
    rw [h4 j (fun h => hca j h hj), upd_ne _ _ (ne_of_mem_of_not_mem hj hna),
      upd_ne _ _ (ne_of_mem_of_not_mem hj hua), hc1 j (fun e => hab j hj (mem_root e))]
  have h4b : ∀ j ∈ b.toList, s4.cells j = s1.cells j := fun j hj => by
    rw [h4 j (fun h => hcb j h hj), upd_ne _ _ (ne_of_mem_of_not_mem hj hnb),
      upd_ne _ _ (ne_of_mem_of_not_mem hj hub)]
  have h4c : ∀ j ∈ c.toList, s4.cells j = s.cells j := fun j hj => by
    rw [h4 j (fun h => hcc j h hj), upd_ne _ _ (ne_of_mem_of_not_mem hj hnc),
      upd_ne _ _ (ne_of_mem_of_not_mem hj huc), hc1 j (fun e => hbc j (mem_root e) hj)]
  have hsh4 : Shape s4.cells (Tree.node (Tree.node a u b) n c) (ctxParent fs) := by
    rw [Shape_node]
    refine ⟨_, h4n, rfl, rfl, hnr, ?_, Shape.congr h4c hscc⟩
    rw [Shape_node]
    exact ⟨_, h4u, rfl, hul, rfl, Shape.congr h4a hsa, Shape.congr h4b hsb1⟩
  have hlist : (Tree.node (Tree.node a u b) n c).toList =
      (Tree.node a u (Tree.node b n c)).toList := by
    simp [Tree.toList]
  have hT4 : TreeAt s4 (plug fs (Tree.node (Tree.node a u b) n c)) := by
    rw [treeAt_plug]
    exact ⟨hsc4, hsh4, by rw [hlist]; exact hnd⟩
  -- the augment
  have hs12 := @Same.upd _ Mapping.noLinks s1 u um
    { um with rightPtr := b.root, parentPtr := some n } h1u rfl
  have hs23 := @Same.upd _ Mapping.noLinks
    ⟨upd s1.cells u { um with rightPtr := b.root, parentPtr := some n }, s1.next, s1.p_root,
      s1.p_pageSpace⟩ n nm { nm with leftPtr := some u, parentPtr := ctxParent fs } h2n rfl
  have hs14 : Same Mapping.noLinks s s4 := hsame1.trans_same (hs12.trans_same (hs23.trans_same hsame4))
  obtain ⟨hactx, hau, haa, han, hab', hac'⟩ := (aug_plug _ _ _).mp hA
  have hnd4 := (nodup_plug hT4.2.2).1
  obtain ⟨-, -, hund, -, -⟩ := nodup_node hnd4
  have hshu : Shape s4.cells (Tree.node a u b) (some n) := by
    rw [Shape_node] at hsh4
    obtain ⟨x, hx, -, -, -, h, -⟩ := hsh4
    exact h
  obtain ⟨um4, hum4, -, e5, haug5⟩ := updateLargestHoleAt_node hshu hund
    (Augmented.of_same_aug hs14 haa) (Augmented.of_same_aug hs14 hab')
  have hum4e : um4 = { um with rightPtr := b.root, parentPtr := some n } :=
    Option.some.inj (hum4.symm.trans h4u)
  have hs45 := @Same.upd _ Mapping.noHole s4 u um4
    { um4 with largestHole := wantedHole s4.cells um4 } hum4 rfl
  have hT5 := TreeAt.of_same hs45 noHole_links rfl hT4
  obtain ⟨-, hsh5, -⟩ := (treeAt_plug _ _ _).mp hT5
  obtain ⟨nm5, hnm5, -, e6, haug6⟩ := updateLargestHoleAt_node hsh5 hnd4 haug5
    ((Augmented.of_same_aug hs14 hac').upd_aug _ huc)
  have hnm5e : nm5 = { nm with leftPtr := some u, parentPtr := ctxParent fs } := by
    have h := hnm5
    simp only [upd_ne _ _ hun.symm, h4n] at h
    exact (Option.some.inj h).symm
  have hs56 := @Same.upd _ Mapping.noHole
    ⟨upd s4.cells u { um4 with largestHole := wantedHole s4.cells um4 }, s4.next, s4.p_root,
      s4.p_pageSpace⟩ n nm5
    { nm5 with largestHole :=
        wantedHole (upd s4.cells u { um4 with largestHole := wantedHole s4.cells um4 }) nm5 }
    hnm5 rfl
  refine ⟨_, ?_, TreeAt.of_same hs56 noHole_links rfl hT5, ?_,
    (noRot_of_noLinks hs14).trans_same ((noRot_of_noHole hs45).trans_same (noRot_of_noHole hs56)),
    ?_⟩
  · rw [rotateLeft]
    simp only [get_eq hnm, hnp, assertSome, get_eq hum, hur, Thor.assert, hnl, hup, e1,
      modify_eq h1u, bind_okE, decide_True, ↓reduceIte, root_node]
    rw [@modify_eq ⟨upd s1.cells u { um with rightPtr := b.root, parentPtr := some n }, s1.next,
      s1.p_root, s1.p_pageSpace⟩ n nm h2n]
    simp only [bind_okE]
    rw [e4]
    simp only [bind_okE]
    rw [e5]
    simp only [bind_okE]
    rw [e6]
    rfl
  · rw [aug_plug]
    refine ⟨?_, haug6⟩
    have hv : ∀ c5 : Nat → Option Mapping,
        c5 = upd s4.cells u { um4 with largestHole := wantedHole s4.cells um4 } →
        largestHoleAt (upd c5 n { nm5 with largestHole := wantedHole c5 nm5 })
          (Tree.node (Tree.node a u b) n c).root = largestHoleAt s.cells (some u) := by
      intro c5 hc5
      rw [root_node, largestHoleAt_upd_self]
      show wantedHole c5 nm5 = _
      rw [hnm5e]
      simp only [wantedHole]
      rw [hc5, largestHoleAt_upd_self]
      show max _ (max (wantedHole s4.cells um4) _) = _
      rw [hum4e]
      simp only [wantedHole]
      rw [hnr, largestHoleAt_root_upd _ _ huc, hul, hs14.largestHoleAt noLinks_hole,
        hs14.largestHoleAt noLinks_hole, hs14.largestHoleAt noLinks_hole]
      rw [root_node, ownHole_some hum] at hau
      rw [ownHole_some hnm] at han
      rw [hau, han]
      omega
    show AugCtx _ fs (largestHoleAt _ (Tree.node (Tree.node a u b) n c).root)
    rw [hv _ rfl]
    refine ((AugCtx.of_same_augCtx hs14 hactx).upd_augCtx _ ?_).upd_augCtx _ ?_
    · exact fun f hf => ⟨fun e => hcu u ((mem_ctx_iff _ _).mpr ⟨f, hf, Or.inl e⟩) rfl,
        fun e => hcu u ((mem_ctx_iff _ _).mpr ⟨f, hf, Or.inr e⟩) rfl⟩
    · exact fun f hf => ⟨fun e => hcn' n ((mem_ctx_iff _ _).mpr ⟨f, hf, Or.inl e⟩) rfl,
        fun e => hcn' n ((mem_ctx_iff _ _).mpr ⟨f, hf, Or.inr e⟩) rfl⟩
  · intro j hju hjn
    have h := hs14.largestHoleAt noLinks_hole (some j)
    simp only [largestHoleAt, fieldOf, upd_ne _ _ hjn, upd_ne _ _ hju] at h ⊢
    exact h

theorem rotateLeft_spec {s : Space} {fs : List Frame} {a b c : Tree} {u n : Nat}
    (hT : TreeAt s (plug fs (Tree.node a u (Tree.node b n c))))
    (hA : Augmented s.cells (plug fs (Tree.node a u (Tree.node b n c)))) :
    ∃ s', rotateLeft s n = Except.ok s' ∧
      TreeAt s' (plug fs (Tree.node (Tree.node a u b) n c)) ∧
      Augmented s'.cells (plug fs (Tree.node (Tree.node a u b) n c)) ∧
      Same Mapping.noRot s s' := by
  obtain ⟨s', h1, h2, h3, h4, -⟩ := rotateLeft_holes hT hA
  exact ⟨s', h1, h2, h3, h4⟩

set_option maxHeartbeats 1000000 in
/-- The function `rotateRight` turns `u(n(a, b), c)` into `n(a, u(b, c))`. -/
theorem rotateRight_holes {s : Space} {fs : List Frame} {a b c : Tree} {u n : Nat}
    (hT : TreeAt s (plug fs (Tree.node (Tree.node a n b) u c)))
    (hA : Augmented s.cells (plug fs (Tree.node (Tree.node a n b) u c))) :
    ∃ s', rotateRight s n = Except.ok s' ∧
      TreeAt s' (plug fs (Tree.node a n (Tree.node b u c))) ∧
      Augmented s'.cells (plug fs (Tree.node a n (Tree.node b u c))) ∧
      Same Mapping.noRot s s' ∧
      ∀ j, j ≠ u → j ≠ n → largestHoleAt s'.cells (some j) = largestHoleAt s.cells (some j) := by
  obtain ⟨hsc, hsh, hnd⟩ := (treeAt_plug _ _ _).mp hT
  have hsh' := hsh
  rw [Shape_node] at hsh'
  obtain ⟨um, hum, hup, hul, hur, hsn, hscc⟩ := hsh'
  have hsn' := hsn
  rw [Shape_node] at hsn'
  obtain ⟨nm, hnm, hnp, hnl, hnr, hsa, hsb⟩ := hsn'
  -- the nodes are distinct
  obtain ⟨hcn, hct⟩ := nodup_ctx_of_plug hT.2.2
  obtain ⟨hun', huc, hnnd, hcnd, hdis⟩ := nodup_node (nodup_plug hT.2.2).1
  obtain ⟨hna, hnb, hand, hbnd, hab⟩ := nodup_node hnnd
  have hun : u ≠ n := fun e => hun' (by simp [Tree.toList, e])
  have hua : u ∉ a.toList := fun h => hun' (by simp [Tree.toList, h])
  have hub : u ∉ b.toList := fun h => hun' (by simp [Tree.toList, h])
  have hnc : n ∉ c.toList := fun h => hdis n (by simp [Tree.toList]) h
  have hac : ∀ j ∈ a.toList, j ∉ c.toList := fun j h h' => hdis j (by simp [Tree.toList, h]) h'
  have hbc : ∀ j ∈ b.toList, j ∉ c.toList := fun j h h' => hdis j (by simp [Tree.toList, h]) h'
  have hcu : ∀ j, (j ∈ ctxBefore fs ∨ j ∈ ctxAfter fs) → j ≠ u :=
    fun j hj e => hct j hj (by simp [Tree.toList, e])
  have hcn' : ∀ j, (j ∈ ctxBefore fs ∨ j ∈ ctxAfter fs) → j ≠ n :=
    fun j hj e => hct j hj (by simp [Tree.toList, e])
  have hca : ∀ j, (j ∈ ctxBefore fs ∨ j ∈ ctxAfter fs) → j ∉ a.toList :=
    fun j hj e => hct j hj (by simp [Tree.toList, e])
  have hcb : ∀ j, (j ∈ ctxBefore fs ∨ j ∈ ctxAfter fs) → j ∉ b.toList :=
    fun j hj e => hct j hj (by simp [Tree.toList, e])
  have hcc : ∀ j, (j ∈ ctxBefore fs ∨ j ∈ ctxAfter fs) → j ∉ c.toList :=
    fun j hj e => hct j hj (by simp [Tree.toList, e])
  -- the pointer surgery
  obtain ⟨s1, e1, hsb1, hc1, hr1, hsame1⟩ := modifyIf_reparent (some u) hsb hbnd
  have h1u : s1.cells u = some um := by rw [hc1 u (fun e => hub (mem_root e)), hum]
  have h1n : s1.cells n = some nm := by rw [hc1 n (fun e => hnb (mem_root e)), hnm]
  have h2n : (upd s1.cells u { um with leftPtr := b.root, parentPtr := some n }) n = some nm := by
    rw [upd_ne _ _ hun.symm, h1n]
  have hsc3 : ShapeCtx
      (upd (upd s1.cells u { um with leftPtr := b.root, parentPtr := some n }) n
        { nm with rightPtr := some u, parentPtr := ctxParent fs }) fs (some u) s1.p_root := by
    rw [hr1]
    refine ShapeCtx.congr_ctx (fun j hj => ?_) hsc
    rw [upd_ne _ _ (hcn' j hj), upd_ne _ _ (hcu j hj), hc1 j (fun e => hcb j hj (mem_root e))]
  obtain ⟨s4, e4, hsc4, hc4, hsame4⟩ := @replaceChild_ctx
    ⟨upd (upd s1.cells u { um with leftPtr := b.root, parentPtr := some n }) n
        { nm with rightPtr := some u, parentPtr := ctxParent fs }, s1.next, s1.p_root,
      s1.p_pageSpace⟩ fs u
    (some n) hsc3
    (fun f hf hu => hcu u ((mem_ctx_iff _ _).mpr ⟨f, hf, Or.inr hu⟩) rfl) hcn
  have h4 : ∀ j, ¬ (j ∈ ctxBefore fs ∨ j ∈ ctxAfter fs) → s4.cells j =
      upd (upd s1.cells u { um with leftPtr := b.root, parentPtr := some n }) n
        { nm with rightPtr := some u, parentPtr := ctxParent fs } j :=
    fun j hj => hc4 j (fun e => hj (ctxParent_mem e))
  have h4n : s4.cells n = some { nm with rightPtr := some u, parentPtr := ctxParent fs } := by
    rw [h4 n (fun h => hcn' n h rfl), upd_eq]
  have h4u : s4.cells u = some { um with leftPtr := b.root, parentPtr := some n } := by
    rw [h4 u (fun h => hcu u h rfl), upd_ne _ _ hun, upd_eq]
  have h4a : ∀ j ∈ a.toList, s4.cells j = s.cells j := fun j hj => by
    rw [h4 j (fun h => hca j h hj), upd_ne _ _ (ne_of_mem_of_not_mem hj hna),
      upd_ne _ _ (ne_of_mem_of_not_mem hj hua), hc1 j (fun e => hab j hj (mem_root e))]
  have h4b : ∀ j ∈ b.toList, s4.cells j = s1.cells j := fun j hj => by
    rw [h4 j (fun h => hcb j h hj), upd_ne _ _ (ne_of_mem_of_not_mem hj hnb),
      upd_ne _ _ (ne_of_mem_of_not_mem hj hub)]
  have h4c : ∀ j ∈ c.toList, s4.cells j = s.cells j := fun j hj => by
    rw [h4 j (fun h => hcc j h hj), upd_ne _ _ (ne_of_mem_of_not_mem hj hnc),
      upd_ne _ _ (ne_of_mem_of_not_mem hj huc), hc1 j (fun e => hbc j (mem_root e) hj)]
  have hsh4 : Shape s4.cells (Tree.node a n (Tree.node b u c)) (ctxParent fs) := by
    rw [Shape_node]
    refine ⟨_, h4n, rfl, hnl, rfl, Shape.congr h4a hsa, ?_⟩
    rw [Shape_node]
    exact ⟨_, h4u, rfl, rfl, hur, Shape.congr h4b hsb1, Shape.congr h4c hscc⟩
  have hlist : (Tree.node a n (Tree.node b u c)).toList =
      (Tree.node (Tree.node a n b) u c).toList := by
    simp [Tree.toList]
  have hT4 : TreeAt s4 (plug fs (Tree.node a n (Tree.node b u c))) := by
    rw [treeAt_plug]
    exact ⟨hsc4, hsh4, by rw [hlist]; exact hnd⟩
  -- the augment
  have hs12 := @Same.upd _ Mapping.noLinks s1 u um
    { um with leftPtr := b.root, parentPtr := some n } h1u rfl
  have hs23 := @Same.upd _ Mapping.noLinks
    ⟨upd s1.cells u { um with leftPtr := b.root, parentPtr := some n }, s1.next, s1.p_root,
      s1.p_pageSpace⟩ n nm { nm with rightPtr := some u, parentPtr := ctxParent fs } h2n rfl
  have hs14 : Same Mapping.noLinks s s4 := hsame1.trans_same (hs12.trans_same (hs23.trans_same hsame4))
  obtain ⟨hactx, hau, ⟨han, haa, hab'⟩, hac'⟩ := (aug_plug _ _ _).mp hA
  have hnd4 := (nodup_plug hT4.2.2).1
  obtain ⟨-, -, -, hund, -⟩ := nodup_node hnd4
  have hshu : Shape s4.cells (Tree.node b u c) (some n) := by
    rw [Shape_node] at hsh4
    obtain ⟨x, hx, -, -, -, -, h⟩ := hsh4
    exact h
  obtain ⟨um4, hum4, -, e5, haug5⟩ := updateLargestHoleAt_node hshu hund
    (Augmented.of_same_aug hs14 hab') (Augmented.of_same_aug hs14 hac')
  have hum4e : um4 = { um with leftPtr := b.root, parentPtr := some n } :=
    Option.some.inj (hum4.symm.trans h4u)
  have hs45 := @Same.upd _ Mapping.noHole s4 u um4
    { um4 with largestHole := wantedHole s4.cells um4 } hum4 rfl
  have hT5 := TreeAt.of_same hs45 noHole_links rfl hT4
  obtain ⟨-, hsh5, -⟩ := (treeAt_plug _ _ _).mp hT5
  obtain ⟨nm5, hnm5, -, e6, haug6⟩ := updateLargestHoleAt_node hsh5 hnd4
    ((Augmented.of_same_aug hs14 haa).upd_aug _ hua) haug5
  have hnm5e : nm5 = { nm with rightPtr := some u, parentPtr := ctxParent fs } := by
    have h := hnm5
    simp only [upd_ne _ _ hun.symm, h4n] at h
    exact (Option.some.inj h).symm
  have hs56 := @Same.upd _ Mapping.noHole
    ⟨upd s4.cells u { um4 with largestHole := wantedHole s4.cells um4 }, s4.next, s4.p_root,
      s4.p_pageSpace⟩ n nm5
    { nm5 with largestHole :=
        wantedHole (upd s4.cells u { um4 with largestHole := wantedHole s4.cells um4 }) nm5 }
    hnm5 rfl
  refine ⟨_, ?_, TreeAt.of_same hs56 noHole_links rfl hT5, ?_,
    (noRot_of_noLinks hs14).trans_same ((noRot_of_noHole hs45).trans_same (noRot_of_noHole hs56)),
    ?_⟩
  · rw [rotateRight]
    simp only [get_eq hnm, hnp, assertSome, get_eq hum, hul, Thor.assert, hnr, hup, e1,
      modify_eq h1u, bind_okE, decide_True, ↓reduceIte, root_node]
    rw [@modify_eq ⟨upd s1.cells u { um with leftPtr := b.root, parentPtr := some n }, s1.next,
      s1.p_root, s1.p_pageSpace⟩ n nm h2n]
    simp only [bind_okE]
    rw [e4]
    simp only [bind_okE]
    rw [e5]
    simp only [bind_okE]
    rw [e6]
    rfl
  · rw [aug_plug]
    refine ⟨?_, haug6⟩
    have hv : ∀ c5 : Nat → Option Mapping,
        c5 = upd s4.cells u { um4 with largestHole := wantedHole s4.cells um4 } →
        largestHoleAt (upd c5 n { nm5 with largestHole := wantedHole c5 nm5 })
          (Tree.node a n (Tree.node b u c)).root = largestHoleAt s.cells (some u) := by
      intro c5 hc5
      rw [root_node, largestHoleAt_upd_self]
      show wantedHole c5 nm5 = _
      rw [hnm5e]
      simp only [wantedHole]
      rw [hc5, largestHoleAt_upd_self]
      show max _ (max _ (wantedHole s4.cells um4)) = _
      rw [hum4e]
      simp only [wantedHole]
      rw [hnl, largestHoleAt_root_upd _ _ hua, hur, hs14.largestHoleAt noLinks_hole,
        hs14.largestHoleAt noLinks_hole, hs14.largestHoleAt noLinks_hole]
      rw [root_node, ownHole_some hum] at hau
      rw [ownHole_some hnm] at han
      rw [hau, han]
      omega
    show AugCtx _ fs (largestHoleAt _ (Tree.node a n (Tree.node b u c)).root)
    rw [hv _ rfl]
    refine ((AugCtx.of_same_augCtx hs14 hactx).upd_augCtx _ ?_).upd_augCtx _ ?_
    · exact fun f hf => ⟨fun e => hcu u ((mem_ctx_iff _ _).mpr ⟨f, hf, Or.inl e⟩) rfl,
        fun e => hcu u ((mem_ctx_iff _ _).mpr ⟨f, hf, Or.inr e⟩) rfl⟩
    · exact fun f hf => ⟨fun e => hcn' n ((mem_ctx_iff _ _).mpr ⟨f, hf, Or.inl e⟩) rfl,
        fun e => hcn' n ((mem_ctx_iff _ _).mpr ⟨f, hf, Or.inr e⟩) rfl⟩
  · intro j hju hjn
    have h := hs14.largestHoleAt noLinks_hole (some j)
    simp only [largestHoleAt, fieldOf, upd_ne _ _ hjn, upd_ne _ _ hju] at h ⊢
    exact h

theorem rotateRight_spec {s : Space} {fs : List Frame} {a b c : Tree} {u n : Nat}
    (hT : TreeAt s (plug fs (Tree.node (Tree.node a n b) u c)))
    (hA : Augmented s.cells (plug fs (Tree.node (Tree.node a n b) u c))) :
    ∃ s', rotateRight s n = Except.ok s' ∧
      TreeAt s' (plug fs (Tree.node a n (Tree.node b u c))) ∧
      Augmented s'.cells (plug fs (Tree.node a n (Tree.node b u c))) ∧
      Same Mapping.noRot s s' := by
  obtain ⟨s', h1, h2, h3, h4, -⟩ := rotateRight_holes hT hA
  exact ⟨s', h1, h2, h3, h4⟩

/-! ### Invariants of the tree as a set of nodes -/

theorem treeData_links (m m' : Mapping) (h : m'.treeData = m.treeData) :
    m'.leftPtr = m.leftPtr ∧ m'.rightPtr = m.rightPtr ∧ m'.parentPtr = m.parentPtr := by
  simp only [Mapping.treeData, Prod.mk.injEq] at h
  exact ⟨h.1, h.2.1, h.2.2.1⟩

theorem treeData_hole (m m' : Mapping) (h : m'.treeData = m.treeData) :
    m'.largestHole = m.largestHole := by
  simp only [Mapping.treeData, Prod.mk.injEq] at h
  exact h.2.2.2.1

theorem treeData_own (m m' : Mapping) (h : m'.treeData = m.treeData) :
    m'.type = m.type ∧ m'.length = m.length := by
  simp only [Mapping.treeData, Prod.mk.injEq] at h
  exact ⟨h.2.2.2.2.1, h.2.2.2.2.2⟩

theorem TreeInv.of_same_inv {s s' : Space} {l : List Nat} (h : Same Mapping.treeData s s')
    (hr : s'.p_root = s.p_root) (hi : TreeInv l s) : TreeInv l s' := by
  obtain ⟨t, ht, hl, ha⟩ := hi
  refine ⟨t, TreeAt.of_same h treeData_links hr ht, hl, ?_⟩
  exact Augmented.congr_aug
    (fun j _ => ⟨h.largestHoleAt treeData_hole _, h.ownHole treeData_own j⟩) ha

theorem modify_treeInv {s : Space} {l : List Nat} {i : Nat} {f : Mapping → Mapping}
    (hf : ∀ m, (f m).treeData = m.treeData) (hi : TreeInv l s) :
    Post (s.modify i f) (TreeInv l) := by
  refine Post.modify.mono ?_
  rintro t ⟨m, hm, rfl⟩
  exact TreeInv.of_same_inv (@Same.upd _ Mapping.treeData s i m (f m) hm (hf m)) rfl hi

theorem closure_left {s : Space} {l : List Nat} {i j : Nat} {m : Mapping} (hi : TreeInv l s)
    (hm : i ∈ l) (hc : s.cells i = some m) (hp : m.leftPtr = some j) : j ∈ l := by
  obtain ⟨t, ht, hl, -⟩ := hi
  subst hl
  obtain ⟨fs, a, b, rfl⟩ := mem_decomp hm
  obtain ⟨-, hsh, -⟩ := (treeAt_plug _ _ _).mp ht
  rw [Shape_node] at hsh
  obtain ⟨m', hm', -, hl, -, -, -⟩ := hsh
  rw [hc] at hm'
  cases hm'
  rw [toList_plug]
  have : j ∈ a.toList := mem_root (hl ▸ hp)
  simp [Tree.toList, this]

theorem closure_right {s : Space} {l : List Nat} {i j : Nat} {m : Mapping} (hi : TreeInv l s)
    (hm : i ∈ l) (hc : s.cells i = some m) (hp : m.rightPtr = some j) : j ∈ l := by
  obtain ⟨t, ht, hl, -⟩ := hi
  subst hl
  obtain ⟨fs, a, b, rfl⟩ := mem_decomp hm
  obtain ⟨-, hsh, -⟩ := (treeAt_plug _ _ _).mp ht
  rw [Shape_node] at hsh
  obtain ⟨m', hm', -, -, hr, -, -⟩ := hsh
  rw [hc] at hm'
  cases hm'
  rw [toList_plug]
  have : j ∈ b.toList := mem_root (hr ▸ hp)
  simp [Tree.toList, this]

theorem closure_parent {s : Space} {l : List Nat} {i j : Nat} {m : Mapping} (hi : TreeInv l s)
    (hm : i ∈ l) (hc : s.cells i = some m) (hp : m.parentPtr = some j) : j ∈ l := by
  obtain ⟨t, ht, hl, -⟩ := hi
  subst hl
  obtain ⟨fs, a, b, rfl⟩ := mem_decomp hm
  obtain ⟨-, hsh, -⟩ := (treeAt_plug _ _ _).mp ht
  rw [Shape_node] at hsh
  obtain ⟨m', hm', hpar, -, -, -, -⟩ := hsh
  rw [hc] at hm'
  cases hm'
  rw [toList_plug]
  have := ctxParent_mem (hpar ▸ hp)
  simp only [List.mem_append]
  tauto

/-- A rotation keeps the nodes of the tree, their order and the augment. -/
theorem rotateLeft_inv {s : Space} {l : List Nat} {n : Nat} (hi : TreeInv l s) (hn : n ∈ l) :
    Post (rotateLeft s n) (TreeInv l) := by
  obtain ⟨t, ht, hl, ha⟩ := hi
  subst hl
  obtain ⟨fs, b, c, rfl⟩ := mem_decomp hn
  obtain ⟨hsc, hsh, hnd⟩ := (treeAt_plug _ _ _).mp ht
  rw [Shape_node] at hsh
  obtain ⟨nm, hnm, hpar, -, -, -, -⟩ := hsh
  cases fs with
  | nil =>
    have : rotateLeft s n = Except.error Err.assertion := by
      have hp : nm.parentPtr = none := hpar
      simp [rotateLeft, get_eq hnm, hp, assertSome]
    rw [this]
    exact Post.error
  | cons f fs =>
    cases f with
    | left u sib =>
      obtain ⟨⟨um, hum, -, -, hur⟩, -, -⟩ := hsc
      have hne : um.rightPtr ≠ some n := by
        rw [hur]
        intro e
        exact (nodup_plug ht.2.2).2 _ (List.mem_cons_self _ _) n (Or.inr (mem_root e))
          (by simp [Tree.toList])
      have : rotateLeft s n = Except.error Err.assertion := by
        have hp : nm.parentPtr = some u := hpar
        simp [rotateLeft, get_eq hnm, hp, assertSome, get_eq hum, hne, Thor.assert]
      rw [this]
      exact Post.error
    | right a u =>
      obtain ⟨s', e, hT', hA', -⟩ := @rotateLeft_spec s fs a b c u n ht ha
      rw [e]
      refine Post.ok ⟨_, hT', ?_, hA'⟩
      show (plug fs _).toList = (plug fs _).toList
      rw [toList_plug, toList_plug]
      simp [Tree.toList]

theorem rotateRight_inv {s : Space} {l : List Nat} {n : Nat} (hi : TreeInv l s) (hn : n ∈ l) :
    Post (rotateRight s n) (TreeInv l) := by
  obtain ⟨t, ht, hl, ha⟩ := hi
  subst hl
  obtain ⟨fs, a, b, rfl⟩ := mem_decomp hn
  obtain ⟨hsc, hsh, hnd⟩ := (treeAt_plug _ _ _).mp ht
  rw [Shape_node] at hsh
  obtain ⟨nm, hnm, hpar, -, -, -, -⟩ := hsh
  cases fs with
  | nil =>
    have : rotateRight s n = Except.error Err.assertion := by
      have hp : nm.parentPtr = none := hpar
      simp [rotateRight, get_eq hnm, hp, assertSome]
    rw [this]
    exact Post.error
  | cons f fs =>
    cases f with
    | right sib u =>
      obtain ⟨⟨um, hum, -, hul, -⟩, -, -⟩ := hsc
      have hne : um.leftPtr ≠ some n := by
        rw [hul]
        intro e
        exact (nodup_plug ht.2.2).2 _ (List.mem_cons_self _ _) n (Or.inr (mem_root e))
          (by simp [Tree.toList])
      have : rotateRight s n = Except.error Err.assertion := by
        have hp : nm.parentPtr = some u := hpar
        simp [rotateRight, get_eq hnm, hp, assertSome, get_eq hum, hne, Thor.assert]
      rw [this]
      exact Post.error
    | left u c =>
      obtain ⟨s', e, hT', hA', -⟩ := @rotateRight_spec s fs a b c u n ht ha
      rw [e]
      refine Post.ok ⟨_, hT', ?_, hA'⟩
      show (plug fs _).toList = (plug fs _).toList
      rw [toList_plug, toList_plug]
      simp [Tree.toList]

/-! ### Rebalancing keeps the nodes, their order and the augment -/

theorem mem_of_parent {s : Space} {l : List Nat} {i j : Nat} {m : Mapping}
    (hp : m.parentPtr = some j) (hc : s.cells i = some m) (hi : TreeInv l s) (hm : i ∈ l) :
    j ∈ l := closure_parent hi hm hc hp

theorem mem_of_left {s : Space} {l : List Nat} {i j : Nat} {m : Mapping}
    (hp : m.leftPtr = some j) (hc : s.cells i = some m) (hi : TreeInv l s) (hm : i ∈ l) :
    j ∈ l := closure_left hi hm hc hp

theorem mem_of_right {s : Space} {l : List Nat} {i j : Nat} {m : Mapping}
    (hp : m.rightPtr = some j) (hc : s.cells i = some m) (hi : TreeInv l s) (hm : i ∈ l) :
    j ∈ l := closure_right hi hm hc hp

theorem mem_of_ite {s : Space} {l : List Nat} {i j : Nat} {m : Mapping} {c : Bool}
    (hp : (if c = true then m.rightPtr else m.leftPtr) = some j) (hc : s.cells i = some m)
    (hi : TreeInv l s) (hm : i ∈ l) : j ∈ l := by
  cases c
  · exact closure_left hi hm hc hp
  · exact closure_right hi hm hc hp

set_option maxRecDepth 100000 in
set_option maxHeartbeats 4000000 in
theorem fixAfterInsert_inv (l : List Nat) (fuel : Nat) :
    ∀ (s : Space) (n : Nat), TreeInv l s → n ∈ l →
      Post (fixAfterInsert fuel s n) (TreeInv l) := by
  induction fuel with
  | zero => intros; exact Post.error
  | succ k ih =>
    intro s n h0 hn
    rw [fixAfterInsert]
    repeat (first
      | exact Post.ok (by assumption)
      | exact Post.ok ⟨by assumption, by assumption⟩
      | exact Post.error
      | exact ih _ _ (by assumption) (by assumption)
      | exact modify_treeInv (fun _ => rfl) (by assumption)
      | exact rotateLeft_inv (by assumption) (by assumption)
      | exact rotateRight_inv (by assumption) (by assumption)
      | refine Post.bind Post.get (fun _ _ => ?_)
      | (refine Post.bind Post.assertSome (fun _ h => ?_)
         first | have := mem_of_parent h (by assumption) (by assumption) (by assumption) | have := mem_of_left h (by assumption) (by assumption) (by assumption) | have := mem_of_right h (by assumption) (by assumption) (by assumption) | have := mem_of_ite h (by assumption) (by assumption) (by assumption) | skip)
      | (refine Post.bind Post.deref (fun _ h => ?_)
         first | have := mem_of_parent h (by assumption) (by assumption) (by assumption) | have := mem_of_left h (by assumption) (by assumption) (by assumption) | have := mem_of_right h (by assumption) (by assumption) (by assumption) | have := mem_of_ite h (by assumption) (by assumption) (by assumption) | skip)
      | refine Post.bind Post.assert (fun _ _ => ?_)
      | refine Post.bind (modify_treeInv (fun _ => rfl) (by assumption)) (fun _ _ => ?_)
      | refine Post.bind (rotateLeft_inv (by assumption) (by assumption)) (fun _ _ => ?_)
      | refine Post.bind (rotateRight_inv (by assumption) (by assumption)) (fun _ _ => ?_)
      | refine @Post.bind Space _ _ _ (fun t => TreeInv l t) _ ?_ (fun _ _ => ?_)
      | (refine @Post.bind (Space × Nat) _ _ _ (fun r => TreeInv l (Prod.fst r) ∧ Prod.snd r ∈ l) _ ?_ ?_
         on_goal 2 => rintro ⟨_, _⟩ ⟨_, _⟩
         on_goal 2 => dsimp only at *)
      | refine Post.bind Post.trivial (fun _ _ => ?_)
      | refine Post.ite (fun _ => ?_) (fun _ => ?_)
      | (split <;> try have := mem_of_parent (by assumption) (by assumption) (by assumption) (by assumption))
      | dsimp only)

set_option maxRecDepth 100000 in
set_option maxHeartbeats 4000000 in
theorem fixAfterRemove_inv (l : List Nat) (fuel : Nat) :
    ∀ (s : Space) (n : Nat), TreeInv l s → n ∈ l →
      Post (fixAfterRemove fuel s n) (TreeInv l) := by
  induction fuel with
  | zero => intros; exact Post.error
  | succ k ih =>
    intro s n h0 hn
    rw [fixAfterRemove]
    repeat (first
      | exact Post.ok (by assumption)
      | exact Post.ok ⟨by assumption, by assumption⟩
      | exact Post.error
      | exact ih _ _ (by assumption) (by assumption)
      | exact modify_treeInv (fun _ => rfl) (by assumption)
      | exact rotateLeft_inv (by assumption) (by assumption)
      | exact rotateRight_inv (by assumption) (by assumption)
      | refine Post.bind Post.get (fun _ _ => ?_)
      | (refine Post.bind Post.assertSome (fun _ h => ?_)
         first | have := mem_of_parent h (by assumption) (by assumption) (by assumption) | have := mem_of_left h (by assumption) (by assumption) (by assumption) | have := mem_of_right h (by assumption) (by assumption) (by assumption) | have := mem_of_ite h (by assumption) (by assumption) (by assumption) | skip)
      | (refine Post.bind Post.deref (fun _ h => ?_)
         first | have := mem_of_parent h (by assumption) (by assumption) (by assumption) | have := mem_of_left h (by assumption) (by assumption) (by assumption) | have := mem_of_right h (by assumption) (by assumption) (by assumption) | have := mem_of_ite h (by assumption) (by assumption) (by assumption) | skip)
      | refine Post.bind Post.assert (fun _ _ => ?_)
      | refine Post.bind (modify_treeInv (fun _ => rfl) (by assumption)) (fun _ _ => ?_)
      | refine Post.bind (rotateLeft_inv (by assumption) (by assumption)) (fun _ _ => ?_)
      | refine Post.bind (rotateRight_inv (by assumption) (by assumption)) (fun _ _ => ?_)
      | refine @Post.bind Space _ _ _ (fun t => TreeInv l t) _ ?_ (fun _ _ => ?_)
      | (refine @Post.bind (Space × Nat) _ _ _ (fun r => TreeInv l (Prod.fst r) ∧ Prod.snd r ∈ l) _ ?_ ?_
         on_goal 2 => rintro ⟨_, _⟩ ⟨_, _⟩
         on_goal 2 => dsimp only at *)
      | refine Post.bind Post.trivial (fun _ _ => ?_)
      | refine Post.ite (fun _ => ?_) (fun _ => ?_)
      | (split <;> try have := mem_of_parent (by assumption) (by assumption) (by assumption) (by assumption))
      | dsimp only)

/-! ### Rebalancing only touches the tree links, the colour and the augment -/

theorem Same.setRoot_same {α : Type} (f : Mapping → α) (s : Space) (r : Ptr) :
    Same f s { s with p_root := r } :=
  ⟨rfl, rfl, fun _ => rfl⟩

theorem modify_same {α : Type} (g : Mapping → α) {s0 s : Space} {i : Nat} {f : Mapping → Mapping}
    (hf : ∀ m, g (f m) = g m) (h0 : Same g s0 s) :
    Post (s.modify i f) (fun t => Same g s0 t) := by
  refine Post.modify.mono ?_
  rintro t ⟨m, hm, rfl⟩
  exact h0.trans_same (@Same.upd _ g s i m (f m) hm (hf m))

theorem modifyIf_same {α : Type} (g : Mapping → α) {s0 s : Space} {p : Ptr}
    {f : Mapping → Mapping} (hf : ∀ m, g (f m) = g m) (h0 : Same g s0 s) :
    Post (s.modifyIf p f) (fun t => Same g s0 t) := by
  unfold Space.modifyIf
  split
  · exact modify_same g hf h0
  · exact Post.ok h0

theorem updateLargestHoleAt_noFix (s0 s : Space) (p : Ptr) (h0 : Same Mapping.noFix s0 s) :
    Post (updateLargestHoleAt s p) (fun r => Same Mapping.noFix s0 r.1) := by
  unfold updateLargestHoleAt
  repeat (first
    | exact Post.ok (by assumption)
    | exact Post.error
    | exact Post.ok ((by assumption : Same Mapping.noFix _ _).trans_same (Same.setRoot_same _ _ _))
    | exact modify_same Mapping.noFix (fun _ => rfl) (by assumption)
    | refine Post.bind Post.get (fun _ _ => ?_)
    | refine Post.bind Post.assertSome (fun _ _ => ?_)
    | refine Post.bind Post.deref (fun _ _ => ?_)
    | refine Post.bind Post.assert (fun _ _ => ?_)
    | refine Post.bind (modify_same Mapping.noFix (fun _ => rfl) (by assumption)) (fun _ _ => ?_)
    | refine Post.bind (modifyIf_same Mapping.noFix (fun _ => rfl) (by assumption)) (fun _ _ => ?_)
    | refine @Post.bind Space _ _ _ (fun t => Same Mapping.noFix s0 t) _ ?_ (fun _ _ => ?_)
    | (refine @Post.bind (Space × Nat) _ _ _ (fun r => Same Mapping.noFix s0 (Prod.fst r)) _ ?_ ?_
       on_goal 2 => rintro ⟨_, _⟩ _
       on_goal 2 => dsimp only at *)
    | refine Post.bind Post.trivial (fun _ _ => ?_)
    | refine Post.ite (fun _ => ?_) (fun _ => ?_)
    | split
    | dsimp only)

theorem replaceChild_noFix (s0 s : Space) (parent : Ptr) (node : Nat) (child : Ptr)
    (h0 : Same Mapping.noFix s0 s) :
    Post (replaceChild s parent node child) (fun t => Same Mapping.noFix s0 t) := by
  unfold replaceChild
  repeat (first
    | exact Post.ok (by assumption)
    | exact Post.error
    | exact Post.ok ((by assumption : Same Mapping.noFix _ _).trans_same (Same.setRoot_same _ _ _))
    | exact modify_same Mapping.noFix (fun _ => rfl) (by assumption)
    | refine Post.bind Post.get (fun _ _ => ?_)
    | refine Post.bind Post.assertSome (fun _ _ => ?_)
    | refine Post.bind Post.deref (fun _ _ => ?_)
    | refine Post.bind Post.assert (fun _ _ => ?_)
    | refine Post.bind (modify_same Mapping.noFix (fun _ => rfl) (by assumption)) (fun _ _ => ?_)
    | refine Post.bind (modifyIf_same Mapping.noFix (fun _ => rfl) (by assumption)) (fun _ _ => ?_)
    | (refine Post.bind (updateLargestHoleAt_noFix _ _ _ (by assumption)) ?_
       rintro ⟨_, _⟩ _
       dsimp only at *)
    | refine @Post.bind Space _ _ _ (fun t => Same Mapping.noFix s0 t) _ ?_ (fun _ _ => ?_)
    | (refine @Post.bind (Space × Nat) _ _ _ (fun r => Same Mapping.noFix s0 (Prod.fst r)) _ ?_ ?_
       on_goal 2 => rintro ⟨_, _⟩ _
       on_goal 2 => dsimp only at *)
    | refine Post.bind Post.trivial (fun _ _ => ?_)
    | refine Post.ite (fun _ => ?_) (fun _ => ?_)
    | split
    | dsimp only)

theorem rotateLeft_noFix (s0 s : Space) (n : Nat) (h0 : Same Mapping.noFix s0 s) :
    Post (rotateLeft s n) (fun t => Same Mapping.noFix s0 t) := by
  unfold rotateLeft
  repeat (first
    | exact Post.ok (by assumption)
    | exact Post.error
    | exact Post.ok ((by assumption : Same Mapping.noFix _ _).trans_same (Same.setRoot_same _ _ _))
    | exact modify_same Mapping.noFix (fun _ => rfl) (by assumption)
    | exact replaceChild_noFix _ _ _ _ _ (by assumption)
    | refine Post.bind Post.get (fun _ _ => ?_)
    | refine Post.bind Post.assertSome (fun _ _ => ?_)
    | refine Post.bind Post.deref (fun _ _ => ?_)
    | refine Post.bind Post.assert (fun _ _ => ?_)
    | refine Post.bind (modify_same Mapping.noFix (fun _ => rfl) (by assumption)) (fun _ _ => ?_)
    | refine Post.bind (modifyIf_same Mapping.noFix (fun _ => rfl) (by assumption)) (fun _ _ => ?_)
    | (refine Post.bind (updateLargestHoleAt_noFix _ _ _ (by assumption)) ?_
       rintro ⟨_, _⟩ _
       dsimp only at *)
    | refine Post.bind (replaceChild_noFix _ _ _ _ _ (by assumption)) (fun _ _ => ?_)
    | refine @Post.bind Space _ _ _ (fun t => Same Mapping.noFix s0 t) _ ?_ (fun _ _ => ?_)
    | (refine @Post.bind (Space × Nat) _ _ _ (fun r => Same Mapping.noFix s0 (Prod.fst r)) _ ?_ ?_
       on_goal 2 => rintro ⟨_, _⟩ _
       on_goal 2 => dsimp only at *)
    | refine Post.bind Post.trivial (fun _ _ => ?_)
    | refine Post.ite (fun _ => ?_) (fun _ => ?_)
    | split
    | dsimp only)

theorem rotateRight_noFix (s0 s : Space) (n : Nat) (h0 : Same Mapping.noFix s0 s) :
    Post (rotateRight s n) (fun t => Same Mapping.noFix s0 t) := by
  unfold rotateRight
  repeat (first
    | exact Post.ok (by assumption)
    | exact Post.error
    | exact Post.ok ((by assumption : Same Mapping.noFix _ _).trans_same (Same.setRoot_same _ _ _))
    | exact modify_same Mapping.noFix (fun _ => rfl) (by assumption)
    | exact replaceChild_noFix _ _ _ _ _ (by assumption)
    | exact rotateLeft_noFix _ _ _ (by assumption)
    | refine Post.bind Post.get (fun _ _ => ?_)
    | refine Post.bind Post.assertSome (fun _ _ => ?_)
    | refine Post.bind Post.deref (fun _ _ => ?_)
    | refine Post.bind Post.assert (fun _ _ => ?_)
    | refine Post.bind (modify_same Mapping.noFix (fun _ => rfl) (by assumption)) (fun _ _ => ?_)
    | refine Post.bind (modifyIf_same Mapping.noFix (fun _ => rfl) (by assumption)) (fun _ _ => ?_)
    | (refine Post.bind (updateLargestHoleAt_noFix _ _ _ (by assumption)) ?_
       rintro ⟨_, _⟩ _
       dsimp only at *)
    | refine Post.bind (replaceChild_noFix _ _ _ _ _ (by assumption)) (fun _ _ => ?_)
    | refine Post.bind (rotateLeft_noFix _ _ _ (by assumption)) (fun _ _ => ?_)
    | refine @Post.bind Space _ _ _ (fun t => Same Mapping.noFix s0 t) _ ?_ (fun _ _ => ?_)
    | (refine @Post.bind (Space × Nat) _ _ _ (fun r => Same Mapping.noFix s0 (Prod.fst r)) _ ?_ ?_
       on_goal 2 => rintro ⟨_, _⟩ _
       on_goal 2 => dsimp only at *)
    | refine Post.bind Post.trivial (fun _ _ => ?_)
    | refine Post.ite (fun _ => ?_) (fun _ => ?_)
    | split
    | dsimp only)

set_option maxRecDepth 100000 in
set_option maxHeartbeats 4000000 in
theorem fixAfterInsert_noFix (fuel : Nat) :
    ∀ (s0 s : Space) (n : Nat), Same Mapping.noFix s0 s →
      Post (fixAfterInsert fuel s n) (fun t => Same Mapping.noFix s0 t) := by
  induction fuel with
  | zero => intros; exact Post.error
  | succ k ih =>
    intro s0 s n h0
    rw [fixAfterInsert]
    repeat (first
      | exact Post.ok (by assumption)
      | exact Post.error
      | exact Post.ok ((by assumption : Same Mapping.noFix _ _).trans_same (Same.setRoot_same _ _ _))
      | exact ih _ _ _ (by assumption)
      | exact modify_same Mapping.noFix (fun _ => rfl) (by assumption)
      | exact replaceChild_noFix _ _ _ _ _ (by assumption)
      | exact rotateLeft_noFix _ _ _ (by assumption)
      | exact rotateRight_noFix _ _ _ (by assumption)
      | refine Post.bind Post.get (fun _ _ => ?_)
      | refine Post.bind Post.assertSome (fun _ _ => ?_)
      | refine Post.bind Post.deref (fun _ _ => ?_)
      | refine Post.bind Post.assert (fun _ _ => ?_)
      | refine Post.bind (modify_same Mapping.noFix (fun _ => rfl) (by assumption)) (fun _ _ => ?_)
      | refine Post.bind (modifyIf_same Mapping.noFix (fun _ => rfl) (by assumption)) (fun _ _ => ?_)
      | (refine Post.bind (updateLargestHoleAt_noFix _ _ _ (by assumption)) ?_
         rintro ⟨_, _⟩ _
         dsimp only at *)
      | refine Post.bind (replaceChild_noFix _ _ _ _ _ (by assumption)) (fun _ _ => ?_)
      | refine Post.bind (rotateLeft_noFix _ _ _ (by assumption)) (fun _ _ => ?_)
      | refine Post.bind (rotateRight_noFix _ _ _ (by assumption)) (fun _ _ => ?_)
      | refine @Post.bind Space _ _ _ (fun t => Same Mapping.noFix s0 t) _ ?_ (fun _ _ => ?_)
      | (refine @Post.bind (Space × Nat) _ _ _ (fun r => Same Mapping.noFix s0 (Prod.fst r)) _ ?_ ?_
         on_goal 2 => rintro ⟨_, _⟩ _
         on_goal 2 => dsimp only at *)
      | refine Post.bind Post.trivial (fun _ _ => ?_)
      | refine Post.ite (fun _ => ?_) (fun _ => ?_)
      | split
      | dsimp only)

set_option maxRecDepth 100000 in
set_option maxHeartbeats 4000000 in
theorem fixAfterRemove_noFix (fuel : Nat) :
    ∀ (s0 s : Space) (n : Nat), Same Mapping.noFix s0 s →
      Post (fixAfterRemove fuel s n) (fun t => Same Mapping.noFix s0 t) := by
  induction fuel with
  | zero => intros; exact Post.error
  | succ k ih =>
    intro s0 s n h0
    rw [fixAfterRemove]
    repeat (first
      | exact Post.ok (by assumption)
      | exact Post.error
      | exact Post.ok ((by assumption : Same Mapping.noFix _ _).trans_same (Same.setRoot_same _ _ _))
      | exact ih _ _ _ (by assumption)
      | exact modify_same Mapping.noFix (fun _ => rfl) (by assumption)
      | exact replaceChild_noFix _ _ _ _ _ (by assumption)
      | exact rotateLeft_noFix _ _ _ (by assumption)
      | exact rotateRight_noFix _ _ _ (by assumption)
      | refine Post.bind Post.get (fun _ _ => ?_)
      | refine Post.bind Post.assertSome (fun _ _ => ?_)
      | refine Post.bind Post.deref (fun _ _ => ?_)
      | refine Post.bind Post.assert (fun _ _ => ?_)
      | refine Post.bind (modify_same Mapping.noFix (fun _ => rfl) (by assumption)) (fun _ _ => ?_)
      | refine Post.bind (modifyIf_same Mapping.noFix (fun _ => rfl) (by assumption)) (fun _ _ => ?_)
      | (refine Post.bind (updateLargestHoleAt_noFix _ _ _ (by assumption)) ?_
         rintro ⟨_, _⟩ _
         dsimp only at *)
      | refine Post.bind (replaceChild_noFix _ _ _ _ _ (by assumption)) (fun _ _ => ?_)
      | refine Post.bind (rotateLeft_noFix _ _ _ (by assumption)) (fun _ _ => ?_)
      | refine Post.bind (rotateRight_noFix _ _ _ (by assumption)) (fun _ _ => ?_)
      | refine @Post.bind Space _ _ _ (fun t => Same Mapping.noFix s0 t) _ ?_ (fun _ _ => ?_)
      | (refine @Post.bind (Space × Nat) _ _ _ (fun r => Same Mapping.noFix s0 (Prod.fst r)) _ ?_ ?_
         on_goal 2 => rintro ⟨_, _⟩ _
         on_goal 2 => dsimp only at *)
      | refine Post.bind Post.trivial (fun _ _ => ?_)
      | refine Post.ite (fun _ => ?_) (fun _ => ?_)
      | split
      | dsimp only)

/-! ### The order list -/

theorem Linked_cons (c : Nat → Option Mapping) (prev next : Ptr) (i : Nat) (rest : List Nat) :
    Linked c prev (i :: rest) next ↔
      (fieldOf c Mapping.lowerPtr none i = prev ∧
        fieldOf c Mapping.higherPtr none i = headOr rest next ∧ Linked c (some i) rest next) := by
  cases rest <;> simp [Linked, headOr]

theorem lastOr_append (a b : List Nat) (d : Ptr) : lastOr (a ++ b) d = lastOr b (lastOr a d) := by
  induction a generalizing d with
  | nil => rfl
  | cons i rest ih => simp [lastOr, ih]

theorem headOr_append (a b : List Nat) (d : Ptr) : headOr (a ++ b) d = headOr a (headOr b d) := by
  cases a <;> rfl

theorem Linked_append (c : Nat → Option Mapping) (prev next : Ptr) (a b : List Nat) :
    Linked c prev (a ++ b) next ↔
      (Linked c prev a (headOr b next) ∧ Linked c (lastOr a prev) b next) := by
  induction a generalizing prev with
  | nil => simp [Linked, lastOr]
  | cons i rest ih =>
    rw [List.cons_append, Linked_cons, Linked_cons, ih, headOr_append]
    simp only [lastOr]
    tauto

theorem Linked.congr_linked {c c' : Nat → Option Mapping} {prev next : Ptr} {l : List Nat}
    (h : ∀ i ∈ l, fieldOf c' Mapping.lowerPtr none i = fieldOf c Mapping.lowerPtr none i ∧
      fieldOf c' Mapping.higherPtr none i = fieldOf c Mapping.higherPtr none i)
    (hl : Linked c prev l next) : Linked c' prev l next := by
  induction l generalizing prev with
  | nil => trivial
  | cons i rest ih =>
    rw [Linked_cons] at hl ⊢
    obtain ⟨h1, h2, h3⟩ := hl
    have hi := h i (List.mem_cons_self _ _)
    exact ⟨hi.1.trans h1, hi.2.trans h2, ih (fun j hj => h j (List.mem_cons_of_mem _ hj)) h3⟩

theorem Linked.congr_cells {c c' : Nat → Option Mapping} {prev next : Ptr} {l : List Nat}
    (h : ∀ i ∈ l, c' i = c i) (hl : Linked c prev l next) : Linked c' prev l next :=
  Linked.congr_linked (fun i hi => by simp [fieldOf, h i hi]) hl

theorem Same.fieldOf {α β : Type} {f : Mapping → α} {s t : Space} (h : Same f s t)
    (g : Mapping → β) (d : β) (hg : ∀ m m', f m' = f m → g m' = g m) (j : Nat) :
    Thor.fieldOf t.cells g d j = Thor.fieldOf s.cells g d j := by
  cases hj : s.cells j with
  | none =>
    have := h.2.2 j
    rw [hj] at this
    cases hj' : t.cells j with
    | none => simp [Thor.fieldOf, hj, hj']
    | some m' => rw [hj'] at this; cases this
  | some m =>
    obtain ⟨m', hm', e⟩ := h.cell hj
    simp [Thor.fieldOf, hj, hm', hg m m' e]

theorem noFix_lower (m m' : Mapping) (h : m'.noFix = m.noFix) : m'.lowerPtr = m.lowerPtr := by
  have := congrArg Mapping.lowerPtr h; exact this

theorem noFix_higher (m m' : Mapping) (h : m'.noFix = m.noFix) : m'.higherPtr = m.higherPtr := by
  have := congrArg Mapping.higherPtr h; exact this

theorem noFix_keys (m m' : Mapping) (h : m'.noFix = m.noFix) : m'.keys = m.keys := by
  have := congrArg Mapping.keys h; exact this

theorem noHole_lower (m m' : Mapping) (h : m'.noHole = m.noHole) : m'.lowerPtr = m.lowerPtr := by
  have := congrArg Mapping.lowerPtr h; exact this

theorem noHole_higher (m m' : Mapping) (h : m'.noHole = m.noHole) :
    m'.higherPtr = m.higherPtr := by
  have := congrArg Mapping.higherPtr h; exact this

theorem noHole_keys (m m' : Mapping) (h : m'.noHole = m.noHole) : m'.keys = m.keys := by
  have := congrArg Mapping.keys h; exact this

theorem noLinks_lower (m m' : Mapping) (h : m'.noLinks = m.noLinks) :
    m'.lowerPtr = m.lowerPtr := by
  have := congrArg Mapping.lowerPtr h; exact this

theorem noLinks_higher (m m' : Mapping) (h : m'.noLinks = m.noLinks) :
    m'.higherPtr = m.higherPtr := by
  have := congrArg Mapping.higherPtr h; exact this

theorem noLinks_keys (m m' : Mapping) (h : m'.noLinks = m.noLinks) : m'.keys = m.keys := by
  have := congrArg Mapping.keys h; exact this

theorem Linked.of_same_linked {α : Type} {f : Mapping → α} {s t : Space} {prev next : Ptr}
    {l : List Nat} (h : Same f s t)
    (h1 : ∀ m m', f m' = f m → m'.lowerPtr = m.lowerPtr)
    (h2 : ∀ m m', f m' = f m → m'.higherPtr = m.higherPtr)
    (hl : Linked s.cells prev l next) : Linked t.cells prev l next :=
  Linked.congr_linked (fun j _ => ⟨h.fieldOf _ _ h1 j, h.fieldOf _ _ h2 j⟩) hl

theorem Same.keyFrame {α : Type} {f : Mapping → α} {s t : Space} (h : Same f s t)
    (hk : ∀ m m', f m' = f m → m'.keys = m.keys) : KeyFrame s t := by
  refine ⟨h.1, h.2.1, fun j => ?_⟩
  cases hj : s.cells j with
  | none =>
    have := h.2.2 j
    rw [hj] at this
    cases hj' : t.cells j with
    | none => rfl
    | some m' => rw [hj'] at this; cases this
  | some m =>
    obtain ⟨m', hm', e⟩ := h.cell hj
    simp [hm', hk m m' e]

/-- The last node of a part of the order list gets another successor. -/
theorem Linked.set_next {c c' : Nat → Option Mapping} {prev next next' : Ptr} {l : List Nat}
    (hn : l.Nodup)
    (h : ∀ i ∈ l, lastOr l prev ≠ some i → c' i = c i)
    (hlast : ∀ i, i ∈ l → lastOr l prev = some i →
      fieldOf c' Mapping.lowerPtr none i = fieldOf c Mapping.lowerPtr none i ∧
        fieldOf c' Mapping.higherPtr none i = next')
    (hl : Linked c prev l next) : Linked c' prev l next' := by
  induction l generalizing prev with
  | nil => trivial
  | cons i rest ih =>
    rw [Linked_cons] at hl ⊢
    obtain ⟨h1, h2, h3⟩ := hl
    have hnd := List.nodup_cons.mp hn
    cases rest with
    | nil =>
      have := hlast i (List.mem_cons_self _ _) rfl
      exact ⟨this.1.trans h1, this.2, trivial⟩
    | cons j rest' =>
      have hne : lastOr (i :: j :: rest') prev ≠ some i := by
        intro e
        have : ∀ (l : List Nat) (d : Nat), lastOr l (some d) = some i → i = d ∨ i ∈ l := by
          intro l
          induction l with
          | nil => intro d h; left; exact (Option.some.inj h).symm
          | cons x xs ihx =>
            intro d h
            rcases ihx x h with h' | h'
            · right; rw [h']; exact List.mem_cons_self _ _
            · right; exact List.mem_cons_of_mem _ h'
        have h' : lastOr rest' (some j) = some i := e
        rcases this rest' j h' with h'' | h''
        · exact hnd.1 (by rw [h'']; exact List.mem_cons_self _ _)
        · exact hnd.1 (List.mem_cons_of_mem _ h'')
      have hci := h i (List.mem_cons_self _ _) hne
      refine ⟨by simp only [fieldOf, hci]; exact h1, by simp only [fieldOf, hci]; exact h2, ?_⟩
      refine ih hnd.2 (fun k hk hk' => h k (List.mem_cons_of_mem _ hk) hk')
        (fun k hk hk' => hlast k (List.mem_cons_of_mem _ hk) hk') h3

/-- The first node of a part of the order list gets another predecessor. -/
theorem Linked.set_prev {c c' : Nat → Option Mapping} {prev prev' next : Ptr} {l : List Nat}
    (hn : l.Nodup)
    (h : ∀ i ∈ l, headOr l next ≠ some i → c' i = c i)
    (hfirst : ∀ i, headOr l next = some i → i ∈ l →
      fieldOf c' Mapping.lowerPtr none i = prev' ∧
        fieldOf c' Mapping.higherPtr none i = fieldOf c Mapping.higherPtr none i)
    (hl : Linked c prev l next) : Linked c' prev' l next := by
  cases l with
  | nil => trivial
  | cons i rest =>
    rw [Linked_cons] at hl ⊢
    obtain ⟨h1, h2, h3⟩ := hl
    have hnd := List.nodup_cons.mp hn
    have := hfirst i rfl (List.mem_cons_self _ _)
    refine ⟨this.1, this.2.trans h2, ?_⟩
    refine Linked.congr_cells (fun k hk => h k (List.mem_cons_of_mem _ hk) ?_) h3
    simp only [headOr, ne_eq, Option.some.injEq]
    rintro rfl
    exact hnd.1 hk

/-! ### More fuel does not change a result -/

theorem updateLargestHoleUpwards_mono (k : Nat) :
    ∀ (s : Space) (p : Ptr) (r : Space), updateLargestHoleUpwards k s p = Except.ok r →
      ∀ k', k ≤ k' → updateLargestHoleUpwards k' s p = Except.ok r := by
  induction k with
  | zero => intro s p r h; cases h
  | succ k ih =>
    intro s p r h k' hk'
    obtain ⟨k'', rfl⟩ := Nat.exists_eq_succ_of_ne_zero (by omega : k' ≠ 0)
    rw [updateLargestHoleUpwards] at h ⊢
    cases hu : updateLargestHoleAt s p with
    | error e => (try rw [hu] at h); cases h
    | ok pr =>
      obtain ⟨s1, ch⟩ := pr
      try rw [hu] at h
      try rw [hu]
      simp only [bind_okE] at h ⊢
      cases ch with
      | false => exact h
      | true =>
        simp only [Bool.not_true, Bool.false_eq_true, ↓reduceIte] at h ⊢
        cases hg : s1.getP p with
        | error e => (try rw [hg] at h); cases h
        | ok m =>
          try rw [hg] at h
          try rw [hg]
          simp only [bind_okE] at h ⊢
          cases hp : m.parentPtr with
          | none => (try rw [hp] at h); exact h
          | some q =>
            try rw [hp] at h
            exact ih _ _ _ h _ (by omega)

theorem updateLargestHoleUpwards_post {fs : List Frame} {fuel : Nat} {s : Space} {l r : Tree}
    {x : Nat} (hT : TreeAt s (plug fs (Tree.node l x r)))
    (hal : Augmented s.cells l) (har : Augmented s.cells r)
    (hctx : AugCtx s.cells fs (largestHoleAt s.cells (some x))) :
    Post (updateLargestHoleUpwards fuel s (some x)) (fun s' =>
      TreeAt s' (plug fs (Tree.node l x r)) ∧
        Augmented s'.cells (plug fs (Tree.node l x r)) ∧
        Same Mapping.noHole s s' ∧ s'.p_root = s.p_root) := by
  intro res hres
  obtain ⟨s', e, h⟩ := updateLargestHoleUpwards_spec fs (max fuel (fs.length + 1)) s l r x
    (by omega) hT hal har hctx
  have := updateLargestHoleUpwards_mono fuel s (some x) res hres (max fuel (fs.length + 1))
    (le_max_left _ _)
  rw [e] at this
  cases this
  exact h

/-! ### Overwriting fields -/

theorem updF_self {c : Nat → Option Mapping} {i : Nat} {m : Mapping} (f : Mapping → Mapping)
    (h : c i = some m) : updF c i f i = some (f m) := by
  simp [updF, h]

theorem updF_ne (c : Nat → Option Mapping) {i j : Nat} (f : Mapping → Mapping) (h : j ≠ i) :
    updF c i f j = c j := by
  simp [updF, h]

@[simp] theorem isSome_updF (c : Nat → Option Mapping) (i j : Nat) (f : Mapping → Mapping) :
    (updF c i f j).isSome = (c j).isSome := by
  by_cases h : j = i
  · subst h; simp [updF]
  · simp [updF, h]

@[simp] theorem isSome_updIf (c : Nat → Option Mapping) (p : Ptr) (j : Nat)
    (f : Mapping → Mapping) : (updIf c p f j).isSome = (c j).isSome := by
  cases p with
  | none => rfl
  | some i => exact isSome_updF c i j f

theorem updIf_ne (c : Nat → Option Mapping) {p : Ptr} {j : Nat} (f : Mapping → Mapping)
    (h : p ≠ some j) : updIf c p f j = c j := by
  cases p with
  | none => rfl
  | some i => exact updF_ne c f (fun e => h (by rw [e]))

theorem updIf_self {c : Nat → Option Mapping} {i : Nat} {m : Mapping} (f : Mapping → Mapping)
    (h : c i = some m) : updIf c (some i) f i = some (f m) :=
  updF_self f h

theorem modify_okF {s : Space} {i : Nat} (h : (s.cells i).isSome = true) (f : Mapping → Mapping) :
    s.modify i f = Except.ok { s with cells := updF s.cells i f } := by
  cases hc : s.cells i with
  | none => rw [hc] at h; cases h
  | some m =>
    simp only [Space.modify, hc]
    congr 2
    funext j
    by_cases hj : j = i
    · subst hj; simp [updF, hc]
    · simp [updF, hj]

theorem modifyIf_okF {s : Space} {p : Ptr} (h : ∀ i, p = some i → (s.cells i).isSome = true)
    (f : Mapping → Mapping) :
    s.modifyIf p f = Except.ok { s with cells := updIf s.cells p f } := by
  cases p with
  | none => rfl
  | some i => exact modify_okF (h i rfl) f

theorem Same.updF {α : Type} (g : Mapping → α) (s : Space) (i : Nat) (f : Mapping → Mapping)
    (hf : ∀ m, g (f m) = g m) : Same g s { s with cells := Thor.updF s.cells i f } := by
  refine ⟨rfl, rfl, fun j => ?_⟩
  by_cases hj : j = i
  · subst hj
    cases hc : s.cells j with
    | none => simp [Thor.updF, hc]
    | some m => simp [Thor.updF, hc, hf]
  · simp [Thor.updF, hj]

theorem Same.updIf {α : Type} (g : Mapping → α) (s : Space) (p : Ptr) (f : Mapping → Mapping)
    (hf : ∀ m, g (f m) = g m) : Same g s { s with cells := Thor.updIf s.cells p f } := by
  cases p with
  | none => exact Same.refl_same _ _
  | some i => exact Same.updF g s i f hf

theorem noOrder_links (m m' : Mapping) (h : m'.noOrder = m.noOrder) :
    m'.leftPtr = m.leftPtr ∧ m'.rightPtr = m.rightPtr ∧ m'.parentPtr = m.parentPtr :=
  ⟨by have := congrArg Mapping.leftPtr h; exact this,
    by have := congrArg Mapping.rightPtr h; exact this,
    by have := congrArg Mapping.parentPtr h; exact this⟩

theorem noOrder_hole (m m' : Mapping) (h : m'.noOrder = m.noOrder) :
    m'.largestHole = m.largestHole := by
  have := congrArg Mapping.largestHole h; exact this

theorem noOrder_own (m m' : Mapping) (h : m'.noOrder = m.noOrder) :
    m'.type = m.type ∧ m'.length = m.length :=
  ⟨by have := congrArg Mapping.type h; exact this,
    by have := congrArg Mapping.length h; exact this⟩

theorem noOrder_treeData (m m' : Mapping) (h : m'.noOrder = m.noOrder) :
    m'.treeData = m.treeData := by
  have := congrArg Mapping.treeData h; exact this

theorem noOrder_keys (m m' : Mapping) (h : m'.noOrder = m.noOrder) : m'.keys = m.keys := by
  have := congrArg Mapping.keys h; exact this

theorem lastOr_mem {l : List Nat} {d : Ptr} {i : Nat} (h : lastOr l d = some i) :
    i ∈ l ∨ d = some i := by
  induction l generalizing d with
  | nil => right; exact h
  | cons x xs ih =>
    rcases @ih (some x) h with h' | h'
    · left; exact List.mem_cons_of_mem _ h'
    · left; cases h'; exact List.mem_cons_self _ _

theorem headOr_mem {l : List Nat} {d : Ptr} {i : Nat} (h : headOr l d = some i) :
    i ∈ l ∨ d = some i := by
  cases l with
  | nil => right; exact h
  | cons x xs => left; cases h; exact List.mem_cons_self _ _

/-- Every node of a tree that the heap holds is alive. -/
theorem TreeAt.alive {s : Space} {t : Tree} (ht : TreeAt s t) {i : Nat} (hi : i ∈ t.toList) :
    (s.cells i).isSome = true := by
  obtain ⟨fs, a, b, rfl⟩ := mem_decomp hi
  obtain ⟨-, hsh, -⟩ := (treeAt_plug _ _ _).mp ht
  rw [Shape_node] at hsh
  obtain ⟨m, hm, -⟩ := hsh
  simp [hm]

/-! ### Attaching a fresh node -/

theorem insertLoop_left_eq (full fuel : Nat) {s : Space} {n cur : Nat} {m cm : Mapping}
    (hm : s.cells n = some m) (hcm : s.cells cur = some cm)
    (hlt : m.baseAddress < cm.baseAddress)
    (hle : add64 m.baseAddress m.length ≤ cm.baseAddress) (hl : cm.leftPtr = none)
    (hpred : ∀ p, cm.lowerPtr = some p → (s.cells p).isSome = true) :
    insertLoop full (fuel + 1) s n cur = (do
      let s ← updateLargestHoleUpwards full
        ⟨linkLeft s.cells n cur cm.lowerPtr, s.next, s.p_root, s.p_pageSpace⟩ (some cur)
      let s ← fixAfterInsert full s n
      assertInvariant full s
      Except.ok s) := by
  rw [insertLoop]
  simp only [get_eq hm, get_eq hcm, hlt, ↓reduceIte, Thor.assert, hle, decide_True, bind_okE, hl]
  rw [modify_okF (by simp [hcm])]
  simp only [bind_okE]
  rw [modify_okF (by simp [hm])]
  simp only [bind_okE]
  rw [modifyIf_okF (fun p hp => by simpa using hpred p hp)]
  simp only [bind_okE]
  rw [modify_okF (by simp [hm])]
  simp only [bind_okE]
  rw [modify_okF (by simp [hcm])]
  simp only [bind_okE]
  rfl

theorem insertLoop_right_eq (full fuel : Nat) {s : Space} {n cur : Nat} {m cm : Mapping}
    (hm : s.cells n = some m) (hcm : s.cells cur = some cm)
    (hlt : ¬ m.baseAddress < cm.baseAddress)
    (hle : add64 cm.baseAddress cm.length ≤ m.baseAddress) (hr : cm.rightPtr = none)
    (hsucc : ∀ p, cm.higherPtr = some p → (s.cells p).isSome = true) :
    insertLoop full (fuel + 1) s n cur = (do
      let s ← updateLargestHoleUpwards full
        ⟨linkRight s.cells n cur cm.higherPtr, s.next, s.p_root, s.p_pageSpace⟩ (some cur)
      let s ← fixAfterInsert full s n
      assertInvariant full s
      Except.ok s) := by
  rw [insertLoop]
  simp only [get_eq hm, get_eq hcm, hlt, ↓reduceIte, Thor.assert, hle, decide_True, bind_okE, hr,
    ge_iff_le]
  rw [modify_okF (by simp [hcm])]
  simp only [bind_okE]
  rw [modify_okF (by simp [hm])]
  simp only [bind_okE]
  rw [modify_okF (by simp [hcm])]
  simp only [bind_okE]
  rw [modify_okF (by simp [hm])]
  simp only [bind_okE]
  rw [modifyIf_okF (fun p hp => by simpa using hsucc p hp)]
  simp only [bind_okE]
  rfl

theorem fieldOf_congr {α β : Type} {g : Mapping → α} {c c' : Nat → Option Mapping} {i : Nat}
    (h : (c' i).map g = (c i).map g) (f : Mapping → β) (d : β)
    (hf : ∀ m m', g m' = g m → f m' = f m) : fieldOf c' f d i = fieldOf c f d i := by
  cases hc : c i with
  | none =>
    rw [hc] at h
    cases hc' : c' i with
    | none => simp [fieldOf, hc, hc']
    | some m' => rw [hc'] at h; cases h
  | some m =>
    rw [hc] at h
    cases hc' : c' i with
    | none => rw [hc'] at h; cases h
    | some m' =>
      rw [hc'] at h
      simp only [Option.map_some', Option.some.injEq] at h
      simp [fieldOf, hc, hc', hf m m' h]

theorem Shape.sameOn {α : Type} {g : Mapping → α} {c c' : Nat → Option Mapping} {t : Tree}
    {par : Ptr} (hg : ∀ m m', g m' = g m →
      m'.leftPtr = m.leftPtr ∧ m'.rightPtr = m.rightPtr ∧ m'.parentPtr = m.parentPtr)
    (h : ∀ i ∈ t.toList, (c' i).map g = (c i).map g) (hs : Shape c t par) : Shape c' t par :=
  Shape.mono_shape (fun i hi x hx => by
    have := h i hi
    rw [hx] at this
    cases hc' : c' i with
    | none => rw [hc'] at this; cases this
    | some x' =>
      rw [hc'] at this
      simp only [Option.map_some', Option.some.injEq] at this
      exact ⟨x', rfl, hg x x' this⟩) hs

theorem ShapeCtx.sameOn_ctx {α : Type} {g : Mapping → α} {c c' : Nat → Option Mapping}
    {fs : List Frame} {hole root : Ptr} (hg : ∀ m m', g m' = g m →
      m'.leftPtr = m.leftPtr ∧ m'.rightPtr = m.rightPtr ∧ m'.parentPtr = m.parentPtr)
    (h : ∀ i, (i ∈ ctxBefore fs ∨ i ∈ ctxAfter fs) → (c' i).map g = (c i).map g)
    (hs : ShapeCtx c fs hole root) : ShapeCtx c' fs hole root :=
  ShapeCtx.mono_ctx (fun f hf i hi x hx => by
    have := h i ((mem_ctx_iff fs i).mpr ⟨f, hf, hi⟩)
    rw [hx] at this
    cases hc' : c' i with
    | none => rw [hc'] at this; cases this
    | some x' =>
      rw [hc'] at this
      simp only [Option.map_some', Option.some.injEq] at this
      exact ⟨x', rfl, hg x x' this⟩) hs

theorem Augmented.sameOn_aug {α : Type} {g : Mapping → α} {c c' : Nat → Option Mapping} {t : Tree}
    (hg1 : ∀ m m', g m' = g m → m'.largestHole = m.largestHole)
    (hg2 : ∀ m m', g m' = g m → m'.type = m.type ∧ m'.length = m.length)
    (h : ∀ i ∈ t.toList, (c' i).map g = (c i).map g) (ha : Augmented c t) : Augmented c' t :=
  Augmented.congr_aug (fun i hi => by
    refine ⟨fieldOf_congr (h i hi) _ _ hg1, ?_⟩
    simp only [ownHole, typeOf, lengthOf]
    rw [fieldOf_congr (h i hi) Mapping.type _ (fun m m' e => (hg2 m m' e).1),
      fieldOf_congr (h i hi) Mapping.length _ (fun m m' e => (hg2 m m' e).2)]) ha

theorem AugCtx.sameOn_augCtx {α : Type} {g : Mapping → α} {c c' : Nat → Option Mapping}
    {fs : List Frame} {v : Nat}
    (hg1 : ∀ m m', g m' = g m → m'.largestHole = m.largestHole)
    (hg2 : ∀ m m', g m' = g m → m'.type = m.type ∧ m'.length = m.length)
    (h : ∀ i, (i ∈ ctxBefore fs ∨ i ∈ ctxAfter fs) → (c' i).map g = (c i).map g)
    (ha : AugCtx c fs v) : AugCtx c' fs v :=
  AugCtx.congr_augCtx (fun f hf i hi => by
    have hi' := h i ((mem_ctx_iff fs i).mpr ⟨f, hf, hi⟩)
    refine ⟨fieldOf_congr hi' _ _ hg1, ?_⟩
    simp only [ownHole, typeOf, lengthOf]
    rw [fieldOf_congr hi' Mapping.type _ (fun m m' e => (hg2 m m' e).1),
      fieldOf_congr hi' Mapping.length _ (fun m m' e => (hg2 m m' e).2)]) ha

theorem Linked.sameOn_linked {α : Type} {g : Mapping → α} {c c' : Nat → Option Mapping}
    {prev next : Ptr} {l : List Nat}
    (hg1 : ∀ m m', g m' = g m → m'.lowerPtr = m.lowerPtr)
    (hg2 : ∀ m m', g m' = g m → m'.higherPtr = m.higherPtr)
    (h : ∀ i ∈ l, (c' i).map g = (c i).map g) (hl : Linked c prev l next) :
    Linked c' prev l next :=
  Linked.congr_linked (fun i hi =>
    ⟨fieldOf_congr (h i hi) _ _ hg1, fieldOf_congr (h i hi) _ _ hg2⟩) hl

theorem map_updF_same {α : Type} (g : Mapping → α) (c : Nat → Option Mapping) (i j : Nat)
    (f : Mapping → Mapping) (hf : ∀ m, g (f m) = g m) :
    (updF c i f j).map g = (c j).map g := by
  by_cases hj : j = i
  · subst hj
    cases hc : c j with
    | none => simp [updF, hc]
    | some m => simp [updF, hc, hf]
  · simp [updF, hj]

theorem map_updIf_same {α : Type} (g : Mapping → α) (c : Nat → Option Mapping) (p : Ptr)
    (j : Nat) (f : Mapping → Mapping) (hf : ∀ m, g (f m) = g m) :
    (updIf c p f j).map g = (c j).map g := by
  cases p with
  | none => rfl
  | some i => exact map_updF_same g c i j f hf

theorem linkLeft_noOrder (c : Nat → Option Mapping) (n cur : Nat) (pred : Ptr) (j : Nat) :
    (linkLeft c n cur pred j).map Mapping.noOrder =
      (updF (updF c cur (fun c => { c with leftPtr := some n })) n
        (fun c => { c with parentPtr := some cur }) j).map Mapping.noOrder := by
  unfold linkLeft
  rw [map_updF_same _ _ _ _ _ (by intro _; rfl), map_updF_same _ _ _ _ _ (by intro _; rfl),
    map_updIf_same _ _ _ _ _ (by intro _; rfl)]

theorem linkRight_noOrder (c : Nat → Option Mapping) (n cur : Nat) (succ : Ptr) (j : Nat) :
    (linkRight c n cur succ j).map Mapping.noOrder =
      (updF (updF c cur (fun c => { c with rightPtr := some n })) n
        (fun c => { c with parentPtr := some cur }) j).map Mapping.noOrder := by
  unfold linkRight
  rw [map_updIf_same _ _ _ _ _ (by intro _; rfl), map_updF_same _ _ _ _ _ (by intro _; rfl),
    map_updF_same _ _ _ _ _ (by intro _; rfl)]

theorem Linked.mem_alive_lower {c : Nat → Option Mapping} {prev next : Ptr} {l : List Nat}
    (h : Linked c prev l next) {i : Nat} (hi : i ∈ l) :
    fieldOf c Mapping.lowerPtr none i = lastOr (l.takeWhile (fun j => j ≠ i)) prev := by
  induction l generalizing prev with
  | nil => cases hi
  | cons x xs ih =>
    rw [Linked_cons] at h
    by_cases hx : x = i
    · subst hx
      simp [List.takeWhile, lastOr, h.1]
    · have hi' : i ∈ xs := by
        rcases List.mem_cons.mp hi with e | e
        · exact absurd e.symm hx
        · exact e
      simp only [List.takeWhile, ne_eq, hx, not_false_eq_true, decide_True, lastOr]
      exact ih h.2.2 hi'

set_option maxHeartbeats 1000000 in
/-- Linking a fresh node as the left child of `cur`. -/
theorem linkLeft_inv {s : Space} {fs : List Frame} {b : Tree} {cur n : Nat} {m : Mapping}
    (hT : TreeAt s (plug fs (Tree.node Tree.nil cur b)))
    (hA : Augmented s.cells (plug fs (Tree.node Tree.nil cur b)))
    (hL : Linked s.cells none (plug fs (Tree.node Tree.nil cur b)).toList none)
    (hn : n ∉ (plug fs (Tree.node Tree.nil cur b)).toList)
    (hm : s.cells n = some m) (h1 : m.leftPtr = none) (h2 : m.rightPtr = none)
    (hlh : m.largestHole = if m.type = MappingType.kTypeHole then m.length else 0) :
    ∃ cm, s.cells cur = some cm ∧ cm.leftPtr = none ∧
      (∀ p, cm.lowerPtr = some p → (s.cells p).isSome = true) ∧
      TreeAt ⟨linkLeft s.cells n cur cm.lowerPtr, s.next, s.p_root, s.p_pageSpace⟩
        (plug fs (Tree.node (Tree.node Tree.nil n Tree.nil) cur b)) ∧
      Augmented (linkLeft s.cells n cur cm.lowerPtr) (Tree.node Tree.nil n Tree.nil) ∧
      Augmented (linkLeft s.cells n cur cm.lowerPtr) b ∧
      AugCtx (linkLeft s.cells n cur cm.lowerPtr) fs
        (largestHoleAt (linkLeft s.cells n cur cm.lowerPtr) (some cur)) ∧
      Linked (linkLeft s.cells n cur cm.lowerPtr) none
        (plug fs (Tree.node (Tree.node Tree.nil n Tree.nil) cur b)).toList none := by
  obtain ⟨hsc, hsh, hnd⟩ := (treeAt_plug _ _ _).mp hT
  have hsh' := hsh
  rw [Shape_node] at hsh'
  obtain ⟨cm, hcm, hcp, hcl, hcr, -, hsb⟩ := hsh'
  obtain ⟨hcn, hct⟩ := nodup_ctx_of_plug hT.2.2
  obtain ⟨-, hcb, -, hbnd, -⟩ := nodup_node (nodup_plug hT.2.2).1
  rw [toList_plug] at hn hL
  simp only [Tree.toList, List.nil_append, List.mem_append, List.mem_cons, not_or] at hn
  have hnc : n ≠ cur := hn.2.1.1
  have hnb : n ∉ b.toList := hn.2.1.2
  have hctc : ∀ j, (j ∈ ctxBefore fs ∨ j ∈ ctxAfter fs) → j ≠ cur :=
    fun j hj e => hct j hj (by simp [Tree.toList, e])
  have hctn : ∀ j, (j ∈ ctxBefore fs ∨ j ∈ ctxAfter fs) → j ≠ n := by
    rintro j (hj | hj) rfl
    · exact hn.1 hj
    · exact hn.2.2 hj
  have hctb : ∀ j, (j ∈ ctxBefore fs ∨ j ∈ ctxAfter fs) → j ∉ b.toList :=
    fun j hj e => hct j hj (by simp [Tree.toList, e])
  -- the predecessor
  obtain ⟨hLA, hLB⟩ := (Linked_append _ _ _ _ _).mp hL
  simp only [Tree.toList, List.nil_append, List.cons_append] at hLA hLB
  have hLB' := hLB
  rw [Linked_cons] at hLB'
  have hpred : cm.lowerPtr = lastOr (ctxBefore fs) none := by
    rw [← hLB'.1, fieldOf_some hcm]
  have hpredmem : ∀ p, cm.lowerPtr = some p → p ∈ ctxBefore fs := by
    intro p hp
    rw [hpred] at hp
    rcases lastOr_mem hp with h | h
    · exact h
    · cases h
  have halive : ∀ p, cm.lowerPtr = some p → (s.cells p).isSome = true := fun p hp =>
    hT.alive (by rw [toList_plug]; exact List.mem_append_left _ (hpredmem p hp))
  refine ⟨cm, hcm, hcl, halive, ?_⟩
  -- the cells after the tree links are set
  have hA1 : ∀ j, j ≠ cur → j ≠ n →
      updF (updF s.cells cur (fun c => { c with leftPtr := some n })) n
        (fun c => { c with parentPtr := some cur }) j = s.cells j :=
    fun j h1 h2 => by rw [updF_ne _ _ h2, updF_ne _ _ h1]
  have hAcur : updF (updF s.cells cur (fun c => { c with leftPtr := some n })) n
      (fun c => { c with parentPtr := some cur }) cur = some { cm with leftPtr := some n } := by
    rw [updF_ne _ _ hnc.symm, updF_self _ hcm]
  have hAn : updF (updF s.cells cur (fun c => { c with leftPtr := some n })) n
      (fun c => { c with parentPtr := some cur }) n = some { m with parentPtr := some cur } := by
    rw [updF_self _ (by rw [updF_ne _ _ hnc, hm])]
  have hshA : Shape (updF (updF s.cells cur (fun c => { c with leftPtr := some n })) n
      (fun c => { c with parentPtr := some cur }))
      (Tree.node (Tree.node Tree.nil n Tree.nil) cur b) (ctxParent fs) := by
    rw [Shape_node]
    refine ⟨_, hAcur, hcp, rfl, hcr, ?_, ?_⟩
    · rw [Shape_node]
      exact ⟨_, hAn, rfl, h1, h2, trivial, trivial⟩
    · exact Shape.congr (fun j hj => hA1 j (ne_of_mem_of_not_mem hj hcb)
        (ne_of_mem_of_not_mem hj hnb)) hsb
  have hscA : ShapeCtx (updF (updF s.cells cur (fun c => { c with leftPtr := some n })) n
      (fun c => { c with parentPtr := some cur })) fs (some cur) s.p_root :=
    ShapeCtx.congr_ctx (fun j hj => hA1 j (hctc j hj) (hctn j hj)) hsc
  obtain ⟨hactx, hacur, -, hab⟩ := (aug_plug _ _ _).mp hA
  refine ⟨?_, ?_, ?_, ?_, ?_⟩
  · rw [treeAt_plug]
    refine ⟨?_, ?_, ?_⟩
    · exact ShapeCtx.sameOn_ctx noOrder_links (fun j _ => linkLeft_noOrder _ _ _ _ j) hscA
    · exact Shape.sameOn noOrder_links (fun j _ => linkLeft_noOrder _ _ _ _ j) hshA
    · simp only [Tree.toList, List.nil_append, List.cons_append] at hnd ⊢
      have hperm : (ctxBefore fs ++ (n :: cur :: (b.toList ++ ctxAfter fs))).Perm
          (n :: (ctxBefore fs ++ (cur :: (b.toList ++ ctxAfter fs)))) :=
        List.perm_middle
      rw [hperm.nodup_iff, List.nodup_cons]
      refine ⟨?_, hnd⟩
      simp only [List.mem_append, List.mem_cons, not_or]
      exact ⟨hn.1, hnc, hnb, hn.2.2⟩
  · refine Augmented.sameOn_aug noOrder_hole noOrder_own
      (fun j _ => linkLeft_noOrder _ _ _ _ j) ?_
    refine ⟨?_, trivial, trivial⟩
    simp only [root_nil, largestHoleAt, fieldOf_some hAn, ownHole_some hAn, hlh]
    simp
  · refine Augmented.sameOn_aug noOrder_hole noOrder_own
      (fun j _ => linkLeft_noOrder _ _ _ _ j) ?_
    exact Augmented.congr_aug (fun j hj => by
      rw [largestHoleAt, largestHoleAt, ownHole, ownHole, typeOf, typeOf, lengthOf, lengthOf,
        fieldOf, fieldOf, fieldOf, fieldOf, fieldOf, fieldOf,
        hA1 j (ne_of_mem_of_not_mem hj hcb) (ne_of_mem_of_not_mem hj hnb)]
      exact ⟨rfl, rfl⟩) hab
  · have e1 : largestHoleAt (linkLeft s.cells n cur cm.lowerPtr) (some cur) =
        largestHoleAt s.cells (some cur) := by
      show fieldOf _ _ _ _ = fieldOf _ _ _ _
      rw [fieldOf_congr (linkLeft_noOrder _ _ _ _ cur) _ _ noOrder_hole, fieldOf_some hAcur,
        fieldOf_some hcm]
    rw [e1]
    refine AugCtx.sameOn_augCtx noOrder_hole noOrder_own (fun j _ => linkLeft_noOrder _ _ _ _ j) ?_
    exact AugCtx.congr_augCtx (fun f hf j hj => by
      have hj' := (mem_ctx_iff fs j).mpr ⟨f, hf, hj⟩
      rw [largestHoleAt, largestHoleAt, ownHole, ownHole, typeOf, typeOf, lengthOf, lengthOf,
        fieldOf, fieldOf, fieldOf, fieldOf, fieldOf, fieldOf, hA1 j (hctc j hj') (hctn j hj')]
      exact ⟨rfl, rfl⟩) hactx
  · -- the order list
    rw [toList_plug]
    simp only [Tree.toList, List.nil_append, List.cons_append]
    rw [Linked_append]
    have hnodupA : (ctxBefore fs).Nodup := (List.nodup_append.mp hnd).1
    have hnodupB : (cur :: (b.toList ++ ctxAfter fs)).Nodup := by
      have := (List.nodup_append.mp hnd).2.1
      simpa [Tree.toList] using this
    have hdisj : ∀ j ∈ ctxBefore fs, j ∉ cur :: (b.toList ++ ctxAfter fs) := by
      intro j hj hj'
      exact (List.nodup_append.mp hnd).2.2 hj (by simpa [Tree.toList] using hj')
    refine ⟨?_, ?_⟩
    · refine Linked.set_next hnodupA (fun j hj hlast => ?_) (fun j hj hlast => ?_) hLA
      · have hjc := hctc j (Or.inl hj)
        have hjn := hctn j (Or.inl hj)
        unfold linkLeft
        rw [updF_ne _ _ hjc, updF_ne _ _ hjn, updIf_ne _ _ (by rw [hpred]; exact hlast),
          updF_ne _ _ hjn, updF_ne _ _ hjc]
      · have hjc := hctc j (Or.inl hj)
        have hjn := hctn j (Or.inl hj)
        have hP : cm.lowerPtr = some j := by rw [hpred]; exact hlast
        obtain ⟨x, hx⟩ := Option.isSome_iff_exists.mp (halive j hP)
        have : linkLeft s.cells n cur cm.lowerPtr j = some { x with higherPtr := some n } := by
          unfold linkLeft
          rw [updF_ne _ _ hjc, updF_ne _ _ hjn, hP,
            updIf_self _ (by rw [updF_ne _ _ hjn, updF_ne _ _ hjc, hx])]
        simp [fieldOf, this, hx, headOr]
    · rw [Linked_cons]
      have hncell : linkLeft s.cells n cur cm.lowerPtr n =
          some { m with parentPtr := some cur, lowerPtr := cm.lowerPtr,
                        higherPtr := some cur } := by
        unfold linkLeft
        rw [updF_ne _ _ hnc, updF_self _ (by
          rw [updIf_ne _ _ (fun e => hctn n (Or.inl (hpredmem n e)) rfl), hAn])]
      refine ⟨by rw [fieldOf_some hncell, hpred], by rw [fieldOf_some hncell]; rfl, ?_⟩
      refine Linked.set_prev hnodupB (fun j hj hne => ?_) (fun j hj _ => ?_) hLB
      · have hjc : j ≠ cur := fun e => hne (by rw [e]; rfl)
        have hjB : j ∈ b.toList ++ ctxAfter fs := by
          rcases List.mem_cons.mp hj with e | e
          · exact absurd e hjc
          · exact e
        have hjn : j ≠ n := by
          rintro rfl
          rcases List.mem_append.mp hjB with e | e
          · exact hnb e
          · exact hn.2.2 e
        have hjp : cm.lowerPtr ≠ some j := fun e => hdisj j (hpredmem j e) hj
        unfold linkLeft
        rw [updF_ne _ _ hjc, updF_ne _ _ hjn, updIf_ne _ _ hjp, updF_ne _ _ hjn, updF_ne _ _ hjc]
      · have hj' : j = cur := by cases hj; rfl
        subst hj'
        have : linkLeft s.cells n j cm.lowerPtr j =
            some { cm with leftPtr := some n, lowerPtr := some n } := by
          unfold linkLeft
          rw [updF_self _ (by
            rw [updF_ne _ _ hnc.symm, updIf_ne _ _ (fun e => hctc j (Or.inl (hpredmem j e)) rfl),
              hAcur])]
        simp [fieldOf, this, hcm]

set_option maxHeartbeats 1000000 in
/-- Linking a fresh node as the right child of `cur`. -/
theorem linkRight_inv {s : Space} {fs : List Frame} {a : Tree} {cur n : Nat} {m : Mapping}
    (hT : TreeAt s (plug fs (Tree.node a cur Tree.nil)))
    (hA : Augmented s.cells (plug fs (Tree.node a cur Tree.nil)))
    (hL : Linked s.cells none (plug fs (Tree.node a cur Tree.nil)).toList none)
    (hn : n ∉ (plug fs (Tree.node a cur Tree.nil)).toList)
    (hm : s.cells n = some m) (h1 : m.leftPtr = none) (h2 : m.rightPtr = none)
    (hlh : m.largestHole = if m.type = MappingType.kTypeHole then m.length else 0) :
    ∃ cm, s.cells cur = some cm ∧ cm.rightPtr = none ∧
      (∀ p, cm.higherPtr = some p → (s.cells p).isSome = true) ∧
      TreeAt ⟨linkRight s.cells n cur cm.higherPtr, s.next, s.p_root, s.p_pageSpace⟩
        (plug fs (Tree.node a cur (Tree.node Tree.nil n Tree.nil))) ∧
      Augmented (linkRight s.cells n cur cm.higherPtr) a ∧
      Augmented (linkRight s.cells n cur cm.higherPtr) (Tree.node Tree.nil n Tree.nil) ∧
      AugCtx (linkRight s.cells n cur cm.higherPtr) fs
        (largestHoleAt (linkRight s.cells n cur cm.higherPtr) (some cur)) ∧
      Linked (linkRight s.cells n cur cm.higherPtr) none
        (plug fs (Tree.node a cur (Tree.node Tree.nil n Tree.nil))).toList none := by
  obtain ⟨hsc, hsh, hnd⟩ := (treeAt_plug _ _ _).mp hT
  have hsh' := hsh
  rw [Shape_node] at hsh'
  obtain ⟨cm, hcm, hcp, hcl, hcr, hsa, -⟩ := hsh'
  obtain ⟨hcn, hct⟩ := nodup_ctx_of_plug hT.2.2
  obtain ⟨hca, -, hand, -, -⟩ := nodup_node (nodup_plug hT.2.2).1
  rw [toList_plug] at hn hL
  simp only [Tree.toList, List.append_nil, List.mem_append, List.mem_cons, not_or,
    List.append_assoc, List.cons_append, List.nil_append] at hn hL hnd
  have hnc : n ≠ cur := hn.2.2.1
  have hna : n ∉ a.toList := hn.2.1
  have hctc : ∀ j, (j ∈ ctxBefore fs ∨ j ∈ ctxAfter fs) → j ≠ cur :=
    fun j hj e => hct j hj (by simp [Tree.toList, e])
  have hctn : ∀ j, (j ∈ ctxBefore fs ∨ j ∈ ctxAfter fs) → j ≠ n := by
    rintro j (hj | hj) rfl
    · exact hn.1 hj
    · exact hn.2.2.2 hj
  have hcta : ∀ j, (j ∈ ctxBefore fs ∨ j ∈ ctxAfter fs) → j ∉ a.toList :=
    fun j hj e => hct j hj (by simp [Tree.toList, e])
  -- the successor
  obtain ⟨hLB, hL2⟩ := (Linked_append _ _ _ _ _).mp hL
  obtain ⟨hLa, hL3⟩ := (Linked_append _ _ _ _ _).mp hL2
  have hL3' := hL3
  rw [Linked_cons] at hL3'
  obtain ⟨hlow, hhigh, hLY⟩ := hL3'
  have hsucc : cm.higherPtr = headOr (ctxAfter fs) none := by
    rw [← hhigh, fieldOf_some hcm]
  have hsuccmem : ∀ p, cm.higherPtr = some p → p ∈ ctxAfter fs := by
    intro p hp
    rw [hsucc] at hp
    rcases headOr_mem hp with h | h
    · exact h
    · cases h
  have halive : ∀ p, cm.higherPtr = some p → (s.cells p).isSome = true := fun p hp =>
    hT.alive (by
      rw [toList_plug]
      exact List.mem_append_right _ (List.mem_append_right _ (hsuccmem p hp)))
  refine ⟨cm, hcm, hcr, halive, ?_⟩
  have hA1 : ∀ j, j ≠ cur → j ≠ n →
      updF (updF s.cells cur (fun c => { c with rightPtr := some n })) n
        (fun c => { c with parentPtr := some cur }) j = s.cells j :=
    fun j h1 h2 => by rw [updF_ne _ _ h2, updF_ne _ _ h1]
  have hAcur : updF (updF s.cells cur (fun c => { c with rightPtr := some n })) n
      (fun c => { c with parentPtr := some cur }) cur = some { cm with rightPtr := some n } := by
    rw [updF_ne _ _ hnc.symm, updF_self _ hcm]
  have hAn : updF (updF s.cells cur (fun c => { c with rightPtr := some n })) n
      (fun c => { c with parentPtr := some cur }) n = some { m with parentPtr := some cur } := by
    rw [updF_self _ (by rw [updF_ne _ _ hnc, hm])]
  have hshA : Shape (updF (updF s.cells cur (fun c => { c with rightPtr := some n })) n
      (fun c => { c with parentPtr := some cur }))
      (Tree.node a cur (Tree.node Tree.nil n Tree.nil)) (ctxParent fs) := by
    rw [Shape_node]
    refine ⟨_, hAcur, hcp, hcl, rfl, ?_, ?_⟩
    · exact Shape.congr (fun j hj => hA1 j (ne_of_mem_of_not_mem hj hca)
        (ne_of_mem_of_not_mem hj hna)) hsa
    · rw [Shape_node]
      exact ⟨_, hAn, rfl, h1, h2, trivial, trivial⟩
  have hscA : ShapeCtx (updF (updF s.cells cur (fun c => { c with rightPtr := some n })) n
      (fun c => { c with parentPtr := some cur })) fs (some cur) s.p_root :=
    ShapeCtx.congr_ctx (fun j hj => hA1 j (hctc j hj) (hctn j hj)) hsc
  obtain ⟨hactx, hacur, haa, -⟩ := (aug_plug _ _ _).mp hA
  refine ⟨?_, ?_, ?_, ?_, ?_⟩
  · rw [treeAt_plug]
    refine ⟨?_, ?_, ?_⟩
    · exact ShapeCtx.sameOn_ctx noOrder_links (fun j _ => linkRight_noOrder _ _ _ _ j) hscA
    · exact Shape.sameOn noOrder_links (fun j _ => linkRight_noOrder _ _ _ _ j) hshA
    · simp only [Tree.toList, List.nil_append, List.cons_append, List.append_assoc]
      have hperm : (ctxBefore fs ++ (a.toList ++ (cur :: n :: ctxAfter fs))).Perm
          (n :: (ctxBefore fs ++ (a.toList ++ (cur :: ctxAfter fs)))) := by
        have h1 : (ctxBefore fs ++ (a.toList ++ (cur :: n :: ctxAfter fs))) =
            (ctxBefore fs ++ (a.toList ++ [cur])) ++ (n :: ctxAfter fs) := by simp
        have h2 : (ctxBefore fs ++ (a.toList ++ (cur :: ctxAfter fs))) =
            (ctxBefore fs ++ (a.toList ++ [cur])) ++ ctxAfter fs := by simp
        rw [h1, h2]
        exact List.perm_middle
      rw [hperm.nodup_iff, List.nodup_cons]
      refine ⟨?_, hnd⟩
      simp only [List.mem_append, List.mem_cons, not_or]
      exact ⟨hn.1, hna, hnc, hn.2.2.2⟩
  · refine Augmented.sameOn_aug noOrder_hole noOrder_own
      (fun j _ => linkRight_noOrder _ _ _ _ j) ?_
    exact Augmented.congr_aug (fun j hj => by
      rw [largestHoleAt, largestHoleAt, ownHole, ownHole, typeOf, typeOf, lengthOf, lengthOf,
        fieldOf, fieldOf, fieldOf, fieldOf, fieldOf, fieldOf,
        hA1 j (ne_of_mem_of_not_mem hj hca) (ne_of_mem_of_not_mem hj hna)]
      exact ⟨rfl, rfl⟩) haa
  · refine Augmented.sameOn_aug noOrder_hole noOrder_own
      (fun j _ => linkRight_noOrder _ _ _ _ j) ?_
    refine ⟨?_, trivial, trivial⟩
    simp only [root_nil, largestHoleAt, fieldOf_some hAn, ownHole_some hAn, hlh]
    simp
  · have e1 : largestHoleAt (linkRight s.cells n cur cm.higherPtr) (some cur) =
        largestHoleAt s.cells (some cur) := by
      show fieldOf _ _ _ _ = fieldOf _ _ _ _
      rw [fieldOf_congr (linkRight_noOrder _ _ _ _ cur) _ _ noOrder_hole, fieldOf_some hAcur,
        fieldOf_some hcm]
    rw [e1]
    refine AugCtx.sameOn_augCtx noOrder_hole noOrder_own (fun j _ => linkRight_noOrder _ _ _ _ j) ?_
    exact AugCtx.congr_augCtx (fun f hf j hj => by
      have hj' := (mem_ctx_iff fs j).mpr ⟨f, hf, hj⟩
      rw [largestHoleAt, largestHoleAt, ownHole, ownHole, typeOf, typeOf, lengthOf, lengthOf,
        fieldOf, fieldOf, fieldOf, fieldOf, fieldOf, fieldOf, hA1 j (hctc j hj') (hctn j hj')]
      exact ⟨rfl, rfl⟩) hactx
  · -- the order list
    rw [toList_plug]
    simp only [Tree.toList, List.nil_append, List.cons_append, List.append_assoc]
    have hnB : (ctxBefore fs).Nodup := (List.nodup_append.mp hnd).1
    have hnd2 := (List.nodup_append.mp hnd).2.1
    have hnd3 := (List.nodup_append.mp hnd2).2.1
    have hnY : (ctxAfter fs).Nodup := (List.nodup_cons.mp hnd3).2
    have hcY : cur ∉ ctxAfter fs := (List.nodup_cons.mp hnd3).1
    have hsY : ∀ j, cm.higherPtr = some j → j ≠ cur ∧ j ≠ n :=
      fun j hj => ⟨hctc j (Or.inr (hsuccmem j hj)), hctn j (Or.inr (hsuccmem j hj))⟩
    have hsame : ∀ j, j ≠ cur → j ≠ n → cm.higherPtr ≠ some j →
        linkRight s.cells n cur cm.higherPtr j = s.cells j := by
      intro j hjc hjn hjs
      unfold linkRight
      rw [updIf_ne _ _ hjs, updF_ne _ _ hjn, updF_ne _ _ hjc, updF_ne _ _ hjn, updF_ne _ _ hjc]
    rw [Linked_append, Linked_append]
    refine ⟨?_, ?_, ?_⟩
    · have : headOr (a.toList ++ cur :: n :: ctxAfter fs) none =
          headOr (a.toList ++ cur :: ctxAfter fs) none := by
        rw [headOr_append, headOr_append]; rfl
      rw [this]
      refine Linked.congr_cells (fun j hj => hsame j (hctc j (Or.inl hj)) (hctn j (Or.inl hj))
        (fun e => ?_)) hLB
      exact (List.nodup_append.mp hnd).2.2 hj
        (List.mem_append_right _ (List.mem_cons_of_mem _ (hsuccmem j e)))
    · have : headOr (cur :: n :: ctxAfter fs) none = headOr (cur :: ctxAfter fs) none := rfl
      rw [this]
      refine Linked.congr_cells (fun j hj => hsame j (ne_of_mem_of_not_mem hj hca)
        (ne_of_mem_of_not_mem hj hna) (fun e => ?_)) hLa
      exact (List.nodup_append.mp hnd2).2.2 hj (List.mem_cons_of_mem _ (hsuccmem j e))
    · have hcurcell : linkRight s.cells n cur cm.higherPtr cur =
          some { cm with rightPtr := some n, higherPtr := some n } := by
        unfold linkRight
        rw [updIf_ne _ _ (fun e => (hsY cur e).1 rfl), updF_ne _ _ hnc.symm,
          updF_self _ hAcur]
      have hncell : linkRight s.cells n cur cm.higherPtr n =
          some { m with parentPtr := some cur, lowerPtr := some cur,
                        higherPtr := cm.higherPtr } := by
        unfold linkRight
        rw [updIf_ne _ _ (fun e => (hsY n e).2 rfl), updF_self _ (by
          rw [updF_ne _ _ hnc, hAn])]
      rw [Linked_cons, Linked_cons]
      refine ⟨by rw [fieldOf_some hcurcell, ← hlow, fieldOf_some hcm],
        by rw [fieldOf_some hcurcell]; rfl,
        by rw [fieldOf_some hncell], by rw [fieldOf_some hncell, hsucc], ?_⟩
      refine Linked.set_prev hnY (fun j hj hne => ?_) (fun j hj hjY => ?_) hLY
      · refine hsame j (hctc j (Or.inr hj)) (hctn j (Or.inr hj)) ?_
        rw [hsucc]; exact hne
      · have hP : cm.higherPtr = some j := by rw [hsucc]; exact hj
        obtain ⟨x, hx⟩ := Option.isSome_iff_exists.mp (halive j hP)
        have : linkRight s.cells n cur cm.higherPtr j = some { x with lowerPtr := some n } := by
          unfold linkRight
          rw [hP, updIf_self _ (by
            rw [updF_ne _ _ (hsY j hP).2, updF_ne _ _ (hsY j hP).1, updF_ne _ _ (hsY j hP).2,
              updF_ne _ _ (hsY j hP).1, hx])]
        simp [fieldOf, this, hx]

/-! ### Insertion keeps the invariants of the tree -/

theorem noFix_of_noHole {s t : Space} (h : Same Mapping.noHole s t) : Same Mapping.noFix s t :=
  h.proj Mapping.noFix

theorem insert_tail_post (full : Nat) {s5 : Space} {fs : List Frame} {l r : Tree} {x n : Nat}
    (hT : TreeAt s5 (plug fs (Tree.node l x r)))
    (hal : Augmented s5.cells l) (har : Augmented s5.cells r)
    (hctx : AugCtx s5.cells fs (largestHoleAt s5.cells (some x)))
    (hL : Linked s5.cells none (plug fs (Tree.node l x r)).toList none)
    (hn : n ∈ (plug fs (Tree.node l x r)).toList) :
    Post (do
      let s ← updateLargestHoleUpwards full s5 (some x)
      let s ← fixAfterInsert full s n
      assertInvariant full s
      Except.ok s) (fun s' => ListInv (plug fs (Tree.node l x r)).toList s') := by
  refine Post.bind (updateLargestHoleUpwards_post hT hal har hctx) ?_
  rintro s6 ⟨hT6, hA6, hs56, -⟩
  have hinv6 : TreeInv (plug fs (Tree.node l x r)).toList s6 := ⟨_, hT6, rfl, hA6⟩
  refine Post.bind (Post.and (fixAfterInsert_inv _ full s6 n hinv6 hn)
    (fixAfterInsert_noFix full s6 s6 n (Same.refl_same _ _))) ?_
  rintro s7 ⟨hinv7, hs67⟩
  refine Post.bind Post.trivial (fun _ _ => Post.ok ⟨hinv7, ?_⟩)
  exact (hL.of_same_linked hs56 noHole_lower noHole_higher).of_same_linked hs67 noFix_lower noFix_higher

theorem pathOk_before {c : Nat → Option Mapping} {base wend : Nat} {fs : List Frame} {a : Nat}
    (h : PathOk c base wend fs) (ha : lastOr (ctxBefore fs) none = some a) :
    baseOf c a ≤ base ∧ add64 (baseOf c a) (lengthOf c a) ≤ base := by
  induction fs with
  | nil => cases ha
  | cons f fs ih =>
    cases f with
    | left p sib => exact ih h.2 ha
    | right sib p =>
      simp only [ctxBefore, lastOr_append, lastOr] at ha
      cases ha
      exact h.1

theorem pathOk_after {c : Nat → Option Mapping} {base wend : Nat} {fs : List Frame} {b : Nat}
    (h : PathOk c base wend fs) (hb : headOr (ctxAfter fs) none = some b) :
    base < baseOf c b ∧ wend ≤ baseOf c b := by
  induction fs with
  | nil => cases hb
  | cons f fs ih =>
    cases f with
    | left p sib =>
      simp only [ctxAfter, List.cons_append, headOr] at hb
      cases hb
      exact h.1
    | right sib p => exact ih h.2 hb

set_option maxHeartbeats 1000000 in
theorem insertLoop_post (full n : Nat) (m : Mapping) (fuel : Nat) :
    ∀ (s : Space) (fs : List Frame) (t : Tree) (cur : Nat),
      TreeAt s (plug fs t) → Augmented s.cells (plug fs t) →
      Linked s.cells none (plug fs t).toList none → t.root = some cur →
      n ∉ (plug fs t).toList → s.cells n = some m → m.leftPtr = none → m.rightPtr = none →
      (m.largestHole = if m.type = MappingType.kTypeHole then m.length else 0) →
      PathOk s.cells m.baseAddress (add64 m.baseAddress m.length) fs →
      Post (insertLoop full fuel s n cur) (fun s' =>
        ∃ A B, (plug fs t).toList = A ++ B ∧ ListInv (A ++ n :: B) s' ∧
          (∀ a, lastOr A none = some a → baseOf s.cells a ≤ m.baseAddress ∧
            add64 (baseOf s.cells a) (lengthOf s.cells a) ≤ m.baseAddress) ∧
          (∀ b, headOr B none = some b → m.baseAddress < baseOf s.cells b ∧
            add64 m.baseAddress m.length ≤ baseOf s.cells b)) := by
  induction fuel with
  | zero => intros; exact Post.error
  | succ k ih =>
    intro s fs t cur hT hA hL hroot hn hm h1 h2 hlh hpath
    cases t with
    | nil => cases hroot
    | node a j b =>
      cases hroot
      obtain ⟨hsc, hsh, hnd⟩ := (treeAt_plug _ _ _).mp hT
      have hsh' := hsh
      rw [Shape_node] at hsh'
      obtain ⟨cm, hcm, hcp, hcl, hcr, hsa, hsb⟩ := hsh'
      have hbase : baseOf s.cells cur = cm.baseAddress := fieldOf_some hcm _ _
      have hlen : lengthOf s.cells cur = cm.length := fieldOf_some hcm _ _
      by_cases hlt : m.baseAddress < cm.baseAddress
      · by_cases hle : add64 m.baseAddress m.length ≤ cm.baseAddress
        · cases a with
          | nil =>
            obtain ⟨cm', hcm', hl0, halive, hT5, ha5, hb5, hc5, hL5⟩ :=
              linkLeft_inv hT hA hL hn hm h1 h2 hlh
            rw [hcm] at hcm'
            cases hcm'
            rw [insertLoop_left_eq full k hm hcm hlt hle hl0 halive]
            refine (insert_tail_post full hT5 ha5 hb5 hc5 hL5 ?_).mono ?_
            · rw [toList_plug]; simp [Tree.toList]
            · intro s' hs'
              refine ⟨ctxBefore fs, cur :: (b.toList ++ ctxAfter fs), ?_, ?_, ?_, ?_⟩
              · rw [toList_plug]; simp [Tree.toList]
              · have : (plug fs (Tree.node (Tree.node Tree.nil n Tree.nil) cur b)).toList =
                    ctxBefore fs ++ n :: cur :: (b.toList ++ ctxAfter fs) := by
                  rw [toList_plug]; simp [Tree.toList]
                rw [← this]; exact hs'
              · exact fun a ha => pathOk_before hpath ha
              · intro b' hb'
                cases hb'
                rw [hbase]; exact ⟨hlt, hle⟩
          | node a1 j a2 =>
            have hstep : insertLoop full (k + 1) s n cur = insertLoop full k s n j := by
              rw [insertLoop]
              simp only [get_eq hm, get_eq hcm, hlt, ↓reduceIte, Thor.assert, hle, decide_True,
                bind_okE, hcl, root_node]
            rw [hstep]
            exact ih s (Frame.left cur b :: fs) (Tree.node a1 j a2) j hT hA hL rfl hn hm h1 h2 hlh
              ⟨by rw [hbase]; exact ⟨hlt, hle⟩, hpath⟩
        · have : insertLoop full (k + 1) s n cur = Except.error Err.assertion := by
            rw [insertLoop]
            simp only [get_eq hm, get_eq hcm, hlt, ↓reduceIte, Thor.assert, hle, decide_False,
              bind_okE]
            rfl
          rw [this]; exact Post.error
      · by_cases hle : add64 cm.baseAddress cm.length ≤ m.baseAddress
        · cases b with
          | nil =>
            obtain ⟨cm', hcm', hr0, halive, hT5, ha5, hb5, hc5, hL5⟩ :=
              linkRight_inv hT hA hL hn hm h1 h2 hlh
            rw [hcm] at hcm'
            cases hcm'
            rw [insertLoop_right_eq full k hm hcm hlt hle hr0 halive]
            refine (insert_tail_post full hT5 ha5 hb5 hc5 hL5 ?_).mono ?_
            · rw [toList_plug]; simp [Tree.toList]
            · intro s' hs'
              refine ⟨ctxBefore fs ++ (a.toList ++ [cur]), ctxAfter fs, ?_, ?_, ?_, ?_⟩
              · rw [toList_plug]; simp [Tree.toList]
              · have : (plug fs (Tree.node a cur (Tree.node Tree.nil n Tree.nil))).toList =
                    (ctxBefore fs ++ (a.toList ++ [cur])) ++ n :: ctxAfter fs := by
                  rw [toList_plug]; simp [Tree.toList]
                rw [← this]; exact hs'
              · intro a' ha'
                simp only [lastOr_append, lastOr] at ha'
                cases ha'
                rw [hbase, hlen]; exact ⟨Nat.le_of_not_lt hlt, hle⟩
              · exact fun b hb => pathOk_after hpath hb
          | node b1 j b2 =>
            have hstep : insertLoop full (k + 1) s n cur = insertLoop full k s n j := by
              rw [insertLoop]
              simp only [get_eq hm, get_eq hcm, hlt, ↓reduceIte, Thor.assert, hle, decide_True,
                bind_okE, hcr, root_node, ge_iff_le]
            rw [hstep]
            exact ih s (Frame.right a cur :: fs) (Tree.node b1 j b2) j hT hA hL rfl hn hm h1 h2
              hlh ⟨by rw [hbase, hlen]; exact ⟨Nat.le_of_not_lt hlt, hle⟩, hpath⟩
        · have : insertLoop full (k + 1) s n cur = Except.error Err.assertion := by
            rw [insertLoop]
            simp only [get_eq hm, get_eq hcm, hlt, ↓reduceIte, Thor.assert, hle, decide_False,
              bind_okE, ge_iff_le]
            rfl
          rw [this]; exact Post.error

/-- If `addressTreeInsert` completes on a tree with a correct augment and a
correct order list, the fresh node `n` has been put between two neighbours of
the in-order sequence whose ranges the descent compared with the new range,
and the tree again has a correct augment and a correct order list. -/
theorem addressTreeInsert_post {fuel : Nat} {s : Space} {l : List Nat} {n : Nat} {m : Mapping}
    (hinv : ListInv l s) (hn : n ∉ l) (hm : s.cells n = some m)
    (h1 : m.leftPtr = none) (h2 : m.rightPtr = none) (h3 : m.parentPtr = none)
    (h4 : m.lowerPtr = none) (h5 : m.higherPtr = none)
    (hlh : m.largestHole = if m.type = MappingType.kTypeHole then m.length else 0) :
    Post (addressTreeInsert fuel s n) (fun s' =>
      (∃ A B, l = A ++ B ∧ ListInv (A ++ n :: B) s' ∧
        (∀ a, lastOr A none = some a → baseOf s.cells a ≤ m.baseAddress ∧
          add64 (baseOf s.cells a) (lengthOf s.cells a) ≤ m.baseAddress) ∧
        (∀ b, headOr B none = some b → m.baseAddress < baseOf s.cells b ∧
          add64 m.baseAddress m.length ≤ baseOf s.cells b)) ∧
      KeyFrame s s') := by
  refine Post.and ?_ (addressTreeInsert_keyFrame fuel s s n (KeyFrame.refl s))
  obtain ⟨⟨t, hT, hl, hA⟩, hL⟩ := hinv
  subst hl
  rw [addressTreeInsert]
  refine Post.bind Post.trivial (fun _ _ => ?_)
  cases t with
  | nil =>
    have hr : s.p_root = none := hT.1
    simp only [hr]
    have hT1 : TreeAt { s with p_root := some n } (Tree.node Tree.nil n Tree.nil) := by
      refine ⟨rfl, ?_, by simp [Tree.toList]⟩
      rw [Shape_node]
      exact ⟨m, hm, h3, h1, h2, trivial, trivial⟩
    have hA1 : Augmented s.cells (Tree.node Tree.nil n Tree.nil) := by
      refine ⟨?_, trivial, trivial⟩
      simp only [root_nil, largestHoleAt, fieldOf_some hm, ownHole_some hm, hlh]
      simp
    have hinv1 : TreeInv [n] { s with p_root := some n } := ⟨_, hT1, rfl, hA1⟩
    refine Post.bind (Post.and (fixAfterInsert_inv _ fuel _ n hinv1 (List.mem_singleton_self n))
      (fixAfterInsert_noFix fuel { s with p_root := some n } _ n (Same.refl_same _ _))) ?_
    rintro s7 ⟨hinv7, hs67⟩
    refine Post.bind Post.trivial (fun _ _ => Post.ok ⟨[], [], rfl, ⟨hinv7, ?_⟩, ?_, ?_⟩)
    · have hL1 : Linked s.cells none [n] none := by
        rw [Linked_cons]
        exact ⟨by rw [fieldOf_some hm, h4], by rw [fieldOf_some hm, h5]; rfl, trivial⟩
      exact @Linked.of_same_linked _ _ { s with p_root := some n } s7 none none [n] hs67
        noFix_lower noFix_higher hL1
    · intro a ha; cases ha
    · intro b hb; cases hb
  | node a j b =>
    have hr : s.p_root = some j := hT.1
    simp only [hr]
    exact insertLoop_post fuel n m fuel s [] (Tree.node a j b) j hT hA hL rfl hn hm h1 h2 hlh
      trivial

/-! ### Taking a node with at most one child out of the tree -/

theorem noRot_lower (m m' : Mapping) (h : m'.noRot = m.noRot) : m'.lowerPtr = m.lowerPtr := by
  have := congrArg Mapping.lowerPtr h; exact this

theorem noRot_higher (m m' : Mapping) (h : m'.noRot = m.noRot) : m'.higherPtr = m.higherPtr := by
  have := congrArg Mapping.higherPtr h; exact this

theorem updateLargestHoleUpwards_none (fuel : Nat) (s : Space) :
    ∃ e, updateLargestHoleUpwards fuel s none = Except.error e := by
  cases fuel with
  | zero => exact ⟨_, rfl⟩
  | succ k => exact ⟨_, by simp [updateLargestHoleUpwards, updateLargestHoleAt, deref]; rfl⟩

set_option maxHeartbeats 1000000 in
/-- The second half of `removeHalfLeaf`: the node `x` leaves the tree, and the
subtree `sub` below it takes its place. -/
theorem unlink_post (fuel : Nat) {s : Space} {fs : List Frame} {sub a b : Tree} {x : Nat}
    (hT : TreeAt s (plug fs (Tree.node a x b)))
    (hA : Augmented s.cells (plug fs (Tree.node a x b)))
    (hsub : (sub = a ∧ b = Tree.nil) ∨ (sub = b ∧ a = Tree.nil)) :
    ∃ m, s.cells x = some m ∧ m.parentPtr = ctxParent fs ∧
      m.leftPtr = a.root ∧ m.rightPtr = b.root ∧
      Post (do
        let s ← replaceChild s (ctxParent fs) x sub.root
        let s ← s.modifyIf sub.root (fun c => { c with parentPtr := ctxParent fs })
        let s ← s.modify x (fun c =>
          { c with leftPtr := none, rightPtr := none, parentPtr := none,
                   lowerPtr := none, higherPtr := none })
        match ctxParent fs with
        | some p => updateLargestHoleUpwards fuel s (some p)
        | none => Except.ok s) (fun s' =>
          TreeAt s' (plug fs sub) ∧ Augmented s'.cells (plug fs sub) ∧
          (∀ j, j ≠ x → (s'.cells j).map Mapping.noRot = (s.cells j).map Mapping.noRot) ∧
          (∃ mx, s'.cells x = some mx ∧ mx.leftPtr = none ∧ mx.rightPtr = none ∧
            mx.parentPtr = none ∧ mx.lowerPtr = none ∧ mx.higherPtr = none)) := by
  obtain ⟨hsc, hsh, hnd⟩ := (treeAt_plug _ _ _).mp hT
  have hsh' := hsh
  rw [Shape_node] at hsh'
  obtain ⟨m, hm, hmp, hml, hmr, hsa, hsb⟩ := hsh'
  refine ⟨m, hm, hmp, hml, hmr, ?_⟩
  obtain ⟨hcn, hct⟩ := nodup_ctx_of_plug hT.2.2
  obtain ⟨hxa, hxb, hand, hbnd, -⟩ := nodup_node (nodup_plug hT.2.2).1
  have hctx : ∀ j, (j ∈ ctxBefore fs ∨ j ∈ ctxAfter fs) → j ≠ x :=
    fun j hj e => hct j hj (by simp [Tree.toList, e])
  have hssub : Shape s.cells sub (some x) := by
    rcases hsub with ⟨rfl, -⟩ | ⟨rfl, -⟩
    · exact hsa
    · exact hsb
  have hxsub : x ∉ sub.toList := by
    rcases hsub with ⟨rfl, -⟩ | ⟨rfl, -⟩
    · exact hxa
    · exact hxb
  have hsubnd : sub.toList.Nodup := by
    rcases hsub with ⟨rfl, -⟩ | ⟨rfl, -⟩
    · exact hand
    · exact hbnd
  have hsublist : (Tree.node a x b).toList = a.toList ++ x :: b.toList := rfl
  have hsubmem : ∀ j, j ∈ sub.toList → j ∈ (Tree.node a x b).toList := by
    intro j hj
    rcases hsub with ⟨rfl, -⟩ | ⟨rfl, -⟩
    · simp [Tree.toList, hj]
    · simp [Tree.toList, hj]
  have hctsub : ∀ j, (j ∈ ctxBefore fs ∨ j ∈ ctxAfter fs) → j ∉ sub.toList :=
    fun j hj e => hct j hj (hsubmem j e)
  have hndsub : (ctxBefore fs ++ (sub.toList ++ ctxAfter fs)).Nodup := by
    refine List.Nodup.sublist ?_ hnd
    refine List.Sublist.append_left (List.Sublist.append_right ?_ _) _
    rcases hsub with ⟨rfl, -⟩ | ⟨rfl, -⟩
    · rw [hsublist]; exact List.sublist_append_left _ _
    · rw [hsublist]
      exact (List.sublist_cons_self _ _).trans (List.sublist_append_right _ _)
  obtain ⟨hactx, -, haa, hab⟩ := (aug_plug _ _ _).mp hA
  have hasub : Augmented s.cells sub := by
    rcases hsub with ⟨rfl, -⟩ | ⟨rfl, -⟩
    · exact haa
    · exact hab
  -- the pointer surgery
  obtain ⟨s4, e4, hsc4, hc4, hsame4⟩ := replaceChild_ctx sub.root hsc
    (fun f hf hu => hctx x ((mem_ctx_iff _ _).mpr ⟨f, hf, Or.inr hu⟩) rfl) hcn
  have h4 : ∀ j, ¬ (j ∈ ctxBefore fs ∨ j ∈ ctxAfter fs) → s4.cells j = s.cells j :=
    fun j hj => hc4 j (fun e => hj (ctxParent_mem e))
  have hssub4 : Shape s4.cells sub (some x) :=
    Shape.congr (fun j hj => h4 j (fun h => hctsub j h hj)) hssub
  obtain ⟨s5, e5, hssub5, hc5, hr5, hsame5⟩ := modifyIf_reparent (ctxParent fs) hssub4 hsubnd
  have h5x : s5.cells x = some m := by
    rw [hc5 x (fun e => hxsub (mem_root e)), h4 x (fun h => hctx x h rfl), hm]
  have hsc5 : ShapeCtx s5.cells fs sub.root s5.p_root := by
    rw [hr5]
    exact ShapeCtx.congr_ctx (fun j hj => hc5 j (fun e => hctsub j hj (mem_root e))) hsc4
  have hT6 : TreeAt ⟨upd s5.cells x m.cleared, s5.next, s5.p_root,
      s5.p_pageSpace⟩ (plug fs sub) := by
    rw [treeAt_plug]
    refine ⟨?_, ?_, hndsub⟩
    · exact ShapeCtx.congr_ctx (fun j hj => upd_ne _ _ (hctx j hj)) hsc5
    · exact Shape.congr (fun j hj => upd_ne _ _ (ne_of_mem_of_not_mem hj hxsub)) hssub5
  have hs35 : Same Mapping.noLinks s s5 := hsame4.trans_same hsame5
  have hmap6 : ∀ j, j ≠ x → ((upd s5.cells x m.cleared) j).map Mapping.noLinks =
      (s.cells j).map Mapping.noLinks := by
    intro j hj
    rw [upd_ne _ _ hj]
    exact hs35.2.2 j
  have hasub6 : Augmented (upd s5.cells x m.cleared) sub :=
    Augmented.sameOn_aug noLinks_hole noLinks_own
      (fun j hj => hmap6 j (ne_of_mem_of_not_mem hj hxsub)) hasub
  have hrot : ∀ (c' : Nat → Option Mapping),
      (∀ j, (c' j).map Mapping.noHole =
        ((upd s5.cells x m.cleared) j).map Mapping.noHole) →
      ∀ j, j ≠ x → (c' j).map Mapping.noRot = (s.cells j).map Mapping.noRot := by
    intro c' hc' j hj
    have e1 := congrArg (Option.map Mapping.noLinks) (hc' j)
    have e2 := congrArg (Option.map Mapping.noHole) (hmap6 j hj)
    simp only [Option.map_map] at e1 e2
    exact e1.trans e2
  have hx6 : ∀ (c' : Nat → Option Mapping),
      (∀ j, (c' j).map Mapping.noHole =
        ((upd s5.cells x m.cleared) j).map Mapping.noHole) →
      ∃ mx, c' x = some mx ∧ mx.leftPtr = none ∧ mx.rightPtr = none ∧
        mx.parentPtr = none ∧ mx.lowerPtr = none ∧ mx.higherPtr = none := by
    intro c' hc'
    have := hc' x
    rw [upd_eq] at this
    cases hcx : c' x with
    | none => rw [hcx] at this; cases this
    | some mx =>
      rw [hcx] at this
      simp only [Option.map_some', Option.some.injEq] at this
      exact ⟨mx, rfl, by have := congrArg Mapping.leftPtr this; exact this,
        by have := congrArg Mapping.rightPtr this; exact this,
        by have := congrArg Mapping.parentPtr this; exact this,
        by have := congrArg Mapping.lowerPtr this; exact this,
        by have := congrArg Mapping.higherPtr this; exact this⟩
  rw [e4]
  simp only [bind_okE]
  rw [e5]
  simp only [bind_okE]
  rw [modify_eq h5x]
  simp only [bind_okE]
  show Post (match ctxParent fs with
    | some p => updateLargestHoleUpwards fuel
        ⟨upd s5.cells x m.cleared, s5.next, s5.p_root, s5.p_pageSpace⟩ (some p)
    | none => Except.ok ⟨upd s5.cells x m.cleared, s5.next, s5.p_root, s5.p_pageSpace⟩) _
  cases fs with
  | nil =>
    simp only [ctxParent]
    refine Post.ok ⟨hT6, ?_, hrot _ (fun _ => rfl), hx6 _ (fun _ => rfl)⟩
    exact hasub6
  | cons f fs' =>
    simp only [ctxParent]
    obtain ⟨hf1, hf2, hf3⟩ := hactx
    have hfx : ∀ j, (j = f.id ∨ j ∈ f.sib.toList) → j ≠ x := fun j hj =>
      hctx j ((mem_ctx_iff _ _).mpr ⟨f, List.mem_cons_self _ _, hj⟩)
    have hsib6 : Augmented (upd s5.cells x m.cleared) f.sib :=
      Augmented.sameOn_aug noLinks_hole noLinks_own
        (fun j hj => hmap6 j (hfx j (Or.inr hj))) hf2
    have hctx6 : AugCtx (upd s5.cells x m.cleared) fs'
        (largestHoleAt (upd s5.cells x m.cleared) (some f.id)) := by
      have e : largestHoleAt (upd s5.cells x m.cleared) (some f.id) =
          largestHoleAt s.cells (some f.id) :=
        fieldOf_congr (hmap6 f.id (hfx f.id (Or.inl rfl))) _ _ noLinks_hole
      rw [e]
      refine AugCtx.sameOn_augCtx noLinks_hole noLinks_own (fun j hj => hmap6 j ?_) hf3
      obtain ⟨g, hg, hj'⟩ := (mem_ctx_iff fs' j).mp hj
      exact hctx j ((mem_ctx_iff _ _).mpr ⟨g, List.mem_cons_of_mem _ hg, hj'⟩)
    cases f with
    | left p sib =>
      refine (@updateLargestHoleUpwards_post fs' fuel _ sub sib p hT6 hasub6
        hsib6 hctx6).mono ?_
      rintro s7 ⟨hT7, hA7, hs67, -⟩
      exact ⟨hT7, hA7, hrot _ (fun j => hs67.2.2 j), hx6 _ (fun j => hs67.2.2 j)⟩
    | right sib p =>
      refine (@updateLargestHoleUpwards_post fs' fuel _ sib sub p hT6 hsib6
        hasub6 hctx6).mono ?_
      rintro s7 ⟨hT7, hA7, hs67, -⟩
      exact ⟨hT7, hA7, hrot _ (fun j => hs67.2.2 j), hx6 _ (fun j => hs67.2.2 j)⟩

/-! ### The function `removeHalfLeaf` -/

theorem erase_mid {P Q : List Nat} {x : Nat} (h : (P ++ x :: Q).Nodup) :
    (P ++ x :: Q).erase x = P ++ Q := by
  have hx : x ∉ P := fun hx =>
    (List.nodup_append.mp h).2.2 hx (List.mem_cons_self _ _)
  rw [List.erase_append_right _ hx, List.erase_cons_head]

theorem treeData_of_noOrder {s t : Space} (h : Same Mapping.noOrder s t) :
    Same Mapping.treeData s t :=
  h.proj Mapping.treeData

theorem treeData_of_noFix_color (m : Mapping) (c : Color) :
    ({ m with color := c } : Mapping).treeData = m.treeData := rfl

/-- Taking `x` out of the order list. -/
theorem unlink_linked {c : Nat → Option Mapping} {A B : List Nat} {x : Nat}
    (hnd : (A ++ x :: B).Nodup) (hL : Linked c none (A ++ x :: B) none)
    (halive : ∀ i ∈ A ++ x :: B, (c i).isSome = true) :
    fieldOf c Mapping.lowerPtr none x = lastOr A none ∧
    fieldOf c Mapping.higherPtr none x = headOr B none ∧
    Linked (updIf (updIf c (lastOr A none) (fun c => { c with higherPtr := headOr B none }))
      (headOr B none) (fun c => { c with lowerPtr := lastOr A none })) none (A ++ B) none := by
  obtain ⟨hLA, hLB⟩ := (Linked_append _ _ _ _ _).mp hL
  rw [Linked_cons] at hLB
  obtain ⟨hlow, hhigh, hLB⟩ := hLB
  refine ⟨hlow, hhigh, ?_⟩
  have hndA : A.Nodup := (List.nodup_append.mp hnd).1
  have hndB : B.Nodup := (List.nodup_cons.mp (List.nodup_append.mp hnd).2.1).2
  have hdisj : ∀ j ∈ A, j ∉ B := fun j hj hj' =>
    (List.nodup_append.mp hnd).2.2 hj (List.mem_cons_of_mem _ hj')
  have hpA : ∀ j, lastOr A none = some j → j ∈ A := fun j hj => by
    rcases lastOr_mem hj with h | h
    · exact h
    · cases h
  have hsB : ∀ j, headOr B none = some j → j ∈ B := fun j hj => by
    rcases headOr_mem hj with h | h
    · exact h
    · cases h
  rw [Linked_append]
  refine ⟨?_, ?_⟩
  · refine Linked.set_next hndA (fun j hj hne => ?_) (fun j hj hlast => ?_) hLA
    · rw [updIf_ne _ _ (fun e => hdisj j hj (hsB j e)), updIf_ne _ _ hne]
    · obtain ⟨y, hy⟩ := Option.isSome_iff_exists.mp
        (halive j (List.mem_append_left _ hj))
      have hcell : updIf (updIf c (lastOr A none)
          (fun c => { c with higherPtr := headOr B none })) (headOr B none)
          (fun c => { c with lowerPtr := lastOr A none }) j =
          some { y with higherPtr := headOr B none } := by
        rw [updIf_ne _ _ (fun e => hdisj j hj (hsB j e)), hlast]
        exact updIf_self _ hy
      simp [fieldOf, hcell, hy]
  · refine Linked.set_prev hndB (fun j hj hne => ?_) (fun j hhead hj => ?_) hLB
    · rw [updIf_ne _ _ hne, updIf_ne _ _ (fun e => hdisj j (hpA j e) hj)]
    · obtain ⟨y, hy⟩ := Option.isSome_iff_exists.mp
        (halive j (List.mem_append_right _ (List.mem_cons_of_mem _ hj)))
      have hcell : updIf (updIf c (lastOr A none)
          (fun c => { c with higherPtr := headOr B none })) (headOr B none)
          (fun c => { c with lowerPtr := lastOr A none }) j =
          some { y with lowerPtr := lastOr A none } := by
        rw [hhead]
        exact updIf_self _ (by rw [updIf_ne _ _ (fun e => hdisj j (hpA j e) hj), hy])
      simp [fieldOf, hcell, hy]

theorem root_eq_none {t : Tree} (h : t.root = none) : t = Tree.nil := by
  cases t with
  | nil => rfl
  | node l i r => cases h

set_option maxHeartbeats 2000000 in
theorem removeHalfLeaf_tail_post {fuel : Nat} {s2 : Space} {l A B : List Nat} {x : Nat}
    {child : Ptr} (hinv2 : TreeInv l s2) (hAB : l = A ++ x :: B)
    (hL2 : Linked s2.cells none (A ++ B) none) :
    Post (do
      let m ← s2.get x
      let s ←
        if m.color = Color.kColorBlack then do
          let cr ← isRed s2 child
          if cr then do
            let c ← deref child
            s2.modify c (fun c => { c with color := Color.kColorBlack })
          else
            fixAfterRemove fuel s2 x
        else Except.ok s2
      let m ← s.get x
      assert ((decide (m.leftPtr = none) && decide (m.rightPtr = child))
        || (decide (m.leftPtr = child) && decide (m.rightPtr = none)))
      let parent := m.parentPtr
      let s ← replaceChild s parent x child
      let s ← s.modifyIf child (fun c => { c with parentPtr := parent })
      let s ← s.modify x (fun c =>
        { c with leftPtr := none, rightPtr := none, parentPtr := none,
                 lowerPtr := none, higherPtr := none })
      match parent with
      | some p => updateLargestHoleUpwards fuel s (some p)
      | none => Except.ok s) (fun s' =>
      ListInv (l.erase x) s' ∧
      ∃ mx, s'.cells x = some mx ∧ mx.leftPtr = none ∧ mx.rightPtr = none ∧
        mx.parentPtr = none ∧ mx.lowerPtr = none ∧ mx.higherPtr = none) := by
  have hx : x ∈ l := by rw [hAB]; simp
  have hrest : ∀ s3, TreeInv l s3 → Same Mapping.noFix s2 s3 → Post (do
      let m ← s3.get x
      assert ((decide (m.leftPtr = none) && decide (m.rightPtr = child))
        || (decide (m.leftPtr = child) && decide (m.rightPtr = none)))
      let parent := m.parentPtr
      let s ← replaceChild s3 parent x child
      let s ← s.modifyIf child (fun c => { c with parentPtr := parent })
      let s ← s.modify x (fun c =>
        { c with leftPtr := none, rightPtr := none, parentPtr := none,
                 lowerPtr := none, higherPtr := none })
      match parent with
      | some p => updateLargestHoleUpwards fuel s (some p)
      | none => Except.ok s) (fun s' =>
      ListInv (l.erase x) s' ∧
      ∃ mx, s'.cells x = some mx ∧ mx.leftPtr = none ∧ mx.rightPtr = none ∧
        mx.parentPtr = none ∧ mx.lowerPtr = none ∧ mx.higherPtr = none) := by
    intro s3 hinv3 hs23
    obtain ⟨t3, hT3, hl3, hA3⟩ := hinv3
    subst hl3
    obtain ⟨fs, a, b, rfl⟩ := mem_decomp hx
    obtain ⟨-, hsh, hnd⟩ := (treeAt_plug _ _ _).mp hT3
    rw [Shape_node] at hsh
    obtain ⟨m3, hm3, hp3, hl3, hr3, -, -⟩ := hsh
    rw [get_eq hm3]
    simp only [bind_okE]
    refine Post.bind Post.assert (fun _ hc => ?_)
    simp only [Bool.or_eq_true, Bool.and_eq_true, decide_eq_true_eq] at hc
    rw [hl3, hr3] at hc
    have hsub : ∃ sub, ((sub = a ∧ b = Tree.nil) ∨ (sub = b ∧ a = Tree.nil)) ∧
        child = sub.root := by
      rcases hc with ⟨h1, h2⟩ | ⟨h1, h2⟩
      · exact ⟨b, Or.inr ⟨rfl, root_eq_none h1⟩, h2.symm⟩
      · exact ⟨a, Or.inl ⟨rfl, root_eq_none h2⟩, h1.symm⟩
    obtain ⟨sub, hsub, rfl⟩ := hsub
    obtain ⟨m3', hm3', -, -, -, hpost⟩ := unlink_post fuel hT3 hA3 hsub
    rw [hp3]
    refine hpost.mono ?_
    rintro s7 ⟨hT7, hA7, hmap, hx7⟩
    have hlist : (plug fs (Tree.node a x b)).toList.erase x = (plug fs sub).toList := by
      have h1 : (plug fs (Tree.node a x b)).toList =
          (ctxBefore fs ++ a.toList) ++ x :: (b.toList ++ ctxAfter fs) := by
        rw [toList_plug]; simp [Tree.toList]
      have hnd' := hT3.2.2
      rw [h1] at hnd' ⊢
      rw [erase_mid hnd', toList_plug]
      rcases hsub with ⟨rfl, rfl⟩ | ⟨rfl, rfl⟩ <;> simp [Tree.toList]
    have hlist2 : (plug fs (Tree.node a x b)).toList.erase x = A ++ B := by
      have hnd' := hT3.2.2
      rw [hAB] at hnd' ⊢
      exact erase_mid hnd'
    refine ⟨⟨⟨plug fs sub, hT7, hlist.symm, hA7⟩, ?_⟩, hx7⟩
    rw [hlist2]
    have hL3 := hL2.of_same_linked hs23 noFix_lower noFix_higher
    refine Linked.sameOn_linked noRot_lower noRot_higher (fun j hj => hmap j ?_) hL3
    rintro rfl
    have hnd' := hT3.2.2
    rw [hAB] at hnd'
    have h1 := List.nodup_append.mp hnd'
    rcases List.mem_append.mp hj with h | h
    · exact h1.2.2 h (List.mem_cons_self _ _)
    · exact (List.nodup_cons.mp h1.2.1).1 h
  refine Post.bind Post.get (fun m2 hm2 => ?_)
  dsimp only
  refine Post.ite (fun _ => ?_) (fun _ => hrest s2 hinv2 (Same.refl_same _ _))
  refine Post.bind Post.trivial (fun cr _ => ?_)
  refine Post.ite (fun _ => ?_) (fun _ => ?_)
  · refine Post.bind Post.deref (fun c _ => ?_)
    refine Post.bind (Post.and (modify_treeInv (fun _ => rfl) hinv2)
      (modify_same Mapping.noFix (fun _ => rfl) (Same.refl_same _ _))) ?_
    rintro s3 ⟨h1, h2⟩
    exact hrest s3 h1 h2
  · refine Post.bind (Post.and (fixAfterRemove_inv l fuel s2 x hinv2 hx)
      (fixAfterRemove_noFix fuel s2 s2 x (Same.refl_same _ _))) ?_
    rintro s3 ⟨h1, h2⟩
    exact hrest s3 h1 h2

set_option maxHeartbeats 2000000 in
/-- If `removeHalfLeaf` completes, the node has left the tree and the order
list, all its links are null, and the tree has a correct augment and a correct
order list. -/
theorem removeHalfLeaf_post {fuel : Nat} {s : Space} {l : List Nat} {x : Nat} {child : Ptr}
    (hinv : ListInv l s) (hx : x ∈ l) :
    Post (removeHalfLeaf fuel s x child) (fun s' =>
      ListInv (l.erase x) s' ∧
      ∃ mx, s'.cells x = some mx ∧ mx.leftPtr = none ∧ mx.rightPtr = none ∧
        mx.parentPtr = none ∧ mx.lowerPtr = none ∧ mx.higherPtr = none) := by
  obtain ⟨⟨t, hT, hl, hA⟩, hL⟩ := hinv
  obtain ⟨A, B, hAB⟩ := List.append_of_mem hx
  have hnd : l.Nodup := hl ▸ hT.2.2
  have halive : ∀ i ∈ l, (s.cells i).isSome = true := fun i hi => hT.alive (hl.symm ▸ hi)
  obtain ⟨m, hm⟩ := Option.isSome_iff_exists.mp (halive x hx)
  have hnd' := hnd
  have hL' := hL
  have halive' := halive
  rw [hAB] at hnd' hL' halive'
  obtain ⟨hlow, hhigh, hL2⟩ := unlink_linked hnd' hL' halive'
  rw [fieldOf_some hm] at hlow hhigh
  rw [← hlow, ← hhigh] at hL2
  have hpA : ∀ j, m.lowerPtr = some j → j ∈ A := fun j hj => by
    rw [hlow] at hj
    rcases lastOr_mem hj with h | h
    · exact h
    · cases h
  have hsB : ∀ j, m.higherPtr = some j → j ∈ B := fun j hj => by
    rw [hhigh] at hj
    rcases headOr_mem hj with h | h
    · exact h
    · cases h
  have hxA : x ∉ A := fun h => (List.nodup_append.mp hnd').2.2 h (List.mem_cons_self _ _)
  have hxB : x ∉ B := (List.nodup_cons.mp (List.nodup_append.mp hnd').2.1).1
  rw [removeHalfLeaf]
  simp only [get_eq hm, bind_okE]
  rw [modifyIf_okF (fun p hp => halive' p (List.mem_append_left _ (hpA p hp)))]
  simp only [bind_okE]
  rw [modifyIf_okF (fun p hp => by
    rw [isSome_updIf]
    exact halive' p (List.mem_append_right _ (List.mem_cons_of_mem _ (hsB p hp))))]
  simp only [bind_okE]
  have hs12 : Same Mapping.noOrder s
      ⟨updIf (updIf s.cells m.lowerPtr (fun c => { c with higherPtr := m.higherPtr }))
        m.higherPtr (fun c => { c with lowerPtr := m.lowerPtr }), s.next, s.p_root,
        s.p_pageSpace⟩ :=
    ⟨rfl, rfl, fun j => by
      show Option.map _ (updIf _ _ _ j) = _
      rw [map_updIf_same _ _ _ _ _ (by intro _; rfl),
        map_updIf_same _ _ _ _ _ (by intro _; rfl)]⟩
  have hinv2 := TreeInv.of_same_inv (treeData_of_noOrder hs12) rfl ⟨t, hT, hl, hA⟩
  exact removeHalfLeaf_tail_post hinv2 hAB hL2

/-! ### The function `replaceNode` -/

theorem Same.isSome {α : Type} {f : Mapping → α} {s t : Space} (h : Same f s t) (j : Nat) :
    (t.cells j).isSome = (s.cells j).isSome := by
  have := congrArg Option.isSome (h.2.2 j)
  simpa using this

theorem replaceTree_ne (c : Nat → Option Mapping) {repl j : Nat} (nm : Mapping)
    (h1 : j ≠ repl) (h2 : nm.leftPtr ≠ some j) (h3 : nm.rightPtr ≠ some j) :
    replaceTree c repl nm j = c j := by
  unfold replaceTree
  rw [updIf_ne _ _ h3, updF_ne _ _ h1, updIf_ne _ _ h2, updF_ne _ _ h1, updF_ne _ _ h1]

theorem replaceCells_ne (c : Nat → Option Mapping) {node repl j : Nat} (nm : Mapping)
    (h0 : j ≠ node) (h1 : j ≠ repl) (h2 : nm.lowerPtr ≠ some j) (h3 : nm.higherPtr ≠ some j) :
    replaceCells c node repl nm j = replaceTree c repl nm j := by
  unfold replaceCells
  rw [updF_ne _ _ h0, updIf_ne _ _ h3, updF_ne _ _ h1, updIf_ne _ _ h2]

theorem replaceTree_map {α : Type} (g : Mapping → α) (c : Nat → Option Mapping) (repl : Nat)
    (nm : Mapping) (j : Nat)
    (h1 : ∀ (m : Mapping) (p : Ptr), g { m with parentPtr := p } = g m)
    (h2 : ∀ (m : Mapping) (p : Ptr), g { m with leftPtr := p } = g m)
    (h3 : ∀ (m : Mapping) (p : Ptr), g { m with rightPtr := p } = g m)
    (h4 : ∀ (m : Mapping) (p : Ptr) (k : Color), g { m with parentPtr := p, color := k } = g m) :
    (replaceTree c repl nm j).map g = (c j).map g := by
  unfold replaceTree
  rw [map_updIf_same _ _ _ _ _ (by intro _; exact h1 _ _),
    map_updF_same _ _ _ _ _ (by intro _; exact h3 _ _),
    map_updIf_same _ _ _ _ _ (by intro _; exact h1 _ _),
    map_updF_same _ _ _ _ _ (by intro _; exact h2 _ _),
    map_updF_same _ _ _ _ _ (by intro _; exact h4 _ _ _)]

theorem replaceCells_map {α : Type} (g : Mapping → α) (c : Nat → Option Mapping)
    (node repl : Nat) (nm : Mapping) (j : Nat)
    (h1 : ∀ (m : Mapping) (p : Ptr), g { m with higherPtr := p } = g m)
    (h2 : ∀ (m : Mapping) (p : Ptr), g { m with lowerPtr := p } = g m)
    (h3 : ∀ (m : Mapping) (p q : Ptr), g { m with lowerPtr := p, higherPtr := q } = g m)
    (h4 : ∀ (m : Mapping), g m.cleared = g m) :
    (replaceCells c node repl nm j).map g = (replaceTree c repl nm j).map g := by
  unfold replaceCells
  rw [map_updF_same _ _ _ _ _ (by intro _; exact h4 _),
    map_updIf_same _ _ _ _ _ (by intro _; exact h2 _ _),
    map_updF_same _ _ _ _ _ (by intro _; exact h3 _ _ _),
    map_updIf_same _ _ _ _ _ (by intro _; exact h1 _ _)]

@[simp] theorem isSome_replaceTree (c : Nat → Option Mapping) (repl : Nat) (nm : Mapping)
    (j : Nat) : (replaceTree c repl nm j).isSome = (c j).isSome := by
  simp [replaceTree]

theorem replaceNode_eq (fuel : Nat) {s s1 : Space} {node repl : Nat} {nm : Mapping}
    (hnm : s.cells node = some nm)
    (e1 : replaceChild s nm.parentPtr node (some repl) = Except.ok s1)
    (hnm1 : s1.cells node = some nm)
    (hrepl : (s1.cells repl).isSome = true)
    (hl : ∀ p, nm.leftPtr = some p → (s1.cells p).isSome = true)
    (hr : ∀ p, nm.rightPtr = some p → (s1.cells p).isSome = true)
    (hlo : ∀ p, nm.lowerPtr = some p → (s1.cells p).isSome = true)
    (hhi : ∀ p, nm.higherPtr = some p → (s1.cells p).isSome = true)
    (hne : node ≠ repl) (hnl : nm.leftPtr ≠ some node) (hnr : nm.rightPtr ≠ some node) :
    replaceNode fuel s node repl = (do
      let (s, _) ← updateLargestHoleAt
        ⟨replaceCells s1.cells node repl nm, s1.next, s1.p_root, s1.p_pageSpace⟩ (some repl)
      updateLargestHoleUpwards fuel s nm.parentPtr) := by
  rw [replaceNode]
  simp only [get_eq hnm, bind_okE, e1, get_eq hnm1]
  rw [modify_okF (by simpa using hrepl)]
  simp only [bind_okE]
  rw [modify_okF (by simpa using hrepl)]
  simp only [bind_okE]
  rw [modifyIf_okF (fun p hp => by simpa using hl p hp)]
  simp only [bind_okE]
  rw [modify_okF (by simpa using hrepl)]
  simp only [bind_okE]
  rw [modifyIf_okF (fun p hp => by simpa using hr p hp)]
  simp only [bind_okE]
  have hnT : replaceTree s1.cells repl nm node = some nm := by
    rw [replaceTree_ne _ _ hne hnl hnr, hnm1]
  have hnT' := hnT
  unfold replaceTree at hnT'
  simp only [Space.get, hnT', bind_okE]
  rw [modifyIf_okF (fun p hp => by
    show (replaceTree s1.cells repl nm p).isSome = true
    simpa using hlo p hp)]
  simp only [bind_okE]
  rw [modify_okF (by
    show (updIf (replaceTree s1.cells repl nm) _ _ repl).isSome = true
    simpa using hrepl)]
  simp only [bind_okE]
  rw [modifyIf_okF (fun p hp => by
    show (updF (updIf (replaceTree s1.cells repl nm) _ _) _ _ p).isSome = true
    simpa using hhi p hp)]
  simp only [bind_okE]
  rw [modify_okF (by
    show (updIf (updF (updIf (replaceTree s1.cells repl nm) _ _) _ _) _ _ node).isSome = true
    simp [hnm1])]
  simp only [bind_okE]
  rfl

theorem replaceTree_repl {c : Nat → Option Mapping} {repl : Nat} {nm rm : Mapping}
    (h : c repl = some rm) (h2 : nm.leftPtr ≠ some repl) (h3 : nm.rightPtr ≠ some repl) :
    replaceTree c repl nm repl = some { rm with parentPtr := nm.parentPtr, color := nm.color,
                                                leftPtr := nm.leftPtr, rightPtr := nm.rightPtr } := by
  unfold replaceTree
  rw [updIf_ne _ _ h3, updF_self _ (by rw [updIf_ne _ _ h2, updF_self _ (updF_self _ h)])]

theorem replaceTree_left {c : Nat → Option Mapping} {repl i : Nat} {nm y : Mapping}
    (h : nm.leftPtr = some i) (h1 : i ≠ repl) (h3 : nm.rightPtr ≠ some i) (hy : c i = some y) :
    replaceTree c repl nm i = some { y with parentPtr := some repl } := by
  unfold replaceTree
  rw [updIf_ne _ _ h3, updF_ne _ _ h1, h,
    updIf_self _ (by rw [updF_ne _ _ h1, updF_ne _ _ h1, hy])]

theorem replaceTree_right {c : Nat → Option Mapping} {repl i : Nat} {nm y : Mapping}
    (h : nm.rightPtr = some i) (h1 : i ≠ repl) (h3 : nm.leftPtr ≠ some i) (hy : c i = some y) :
    replaceTree c repl nm i = some { y with parentPtr := some repl } := by
  unfold replaceTree
  rw [h, updIf_self _ (by rw [updF_ne _ _ h1, updIf_ne _ _ h3, updF_ne _ _ h1, updF_ne _ _ h1, hy])]

theorem replaceCells_repl {c : Nat → Option Mapping} {nd repl : Nat} {nm rT : Mapping}
    (h : replaceTree c repl nm repl = some rT) (h0 : nd ≠ repl)
    (h2 : nm.lowerPtr ≠ some repl) (h3 : nm.higherPtr ≠ some repl) :
    replaceCells c nd repl nm repl =
      some { rT with lowerPtr := nm.lowerPtr, higherPtr := nm.higherPtr } := by
  unfold replaceCells
  rw [updF_ne _ _ h0.symm, updIf_ne _ _ h3, updF_self _ (by rw [updIf_ne _ _ h2, h])]

theorem replaceCells_pred {c : Nat → Option Mapping} {nd repl i : Nat} {nm y : Mapping}
    (h : nm.lowerPtr = some i) (h0 : i ≠ nd) (h1 : i ≠ repl) (h3 : nm.higherPtr ≠ some i)
    (hy : replaceTree c repl nm i = some y) :
    replaceCells c nd repl nm i = some { y with higherPtr := some repl } := by
  unfold replaceCells
  rw [updF_ne _ _ h0, updIf_ne _ _ h3, updF_ne _ _ h1, h, updIf_self _ hy]

theorem replaceCells_succ {c : Nat → Option Mapping} {nd repl i : Nat} {nm y : Mapping}
    (h : nm.higherPtr = some i) (h0 : i ≠ nd) (h1 : i ≠ repl) (h3 : nm.lowerPtr ≠ some i)
    (hy : replaceTree c repl nm i = some y) :
    replaceCells c nd repl nm i = some { y with lowerPtr := some repl } := by
  unfold replaceCells
  rw [updF_ne _ _ h0, h, updIf_self _ (by rw [updF_ne _ _ h1, updIf_ne _ _ h3, hy])]

theorem replaceCells_node {c : Nat → Option Mapping} {nd repl : Nat} {nm y : Mapping}
    (hy : replaceTree c repl nm nd = some y) (h0 : nd ≠ repl)
    (h2 : nm.lowerPtr ≠ some nd) (h3 : nm.higherPtr ≠ some nd) :
    replaceCells c nd repl nm nd = some y.cleared := by
  unfold replaceCells
  rw [updF_self _ (by rw [updIf_ne _ _ h3, updF_ne _ _ h0, updIf_ne _ _ h2, hy])]
  rfl

theorem replaceCells_noOrder (c : Nat → Option Mapping) {nd repl j : Nat} (nm : Mapping)
    (h0 : j ≠ nd) :
    (replaceCells c nd repl nm j).map Mapping.noOrder =
      (replaceTree c repl nm j).map Mapping.noOrder := by
  unfold replaceCells
  rw [updF_ne _ _ h0, map_updIf_same _ _ _ _ _ (by intro _; rfl),
    map_updF_same _ _ _ _ _ (by intro _; rfl), map_updIf_same _ _ _ _ _ (by intro _; rfl)]

theorem replaceCells_aug (c : Nat → Option Mapping) (nd repl j : Nat) (nm : Mapping) :
    (replaceCells c nd repl nm j).map Mapping.aug = (c j).map Mapping.aug := by
  rw [replaceCells_map Mapping.aug _ _ _ _ _ (fun _ _ => rfl) (fun _ _ => rfl)
    (fun _ _ _ => rfl) (fun _ => rfl),
    replaceTree_map Mapping.aug _ _ _ _ (fun _ _ => rfl) (fun _ _ => rfl) (fun _ _ => rfl)
      (fun _ _ _ => rfl)]

theorem replaceTree_order (c : Nat → Option Mapping) (repl j : Nat) (nm : Mapping) :
    (replaceTree c repl nm j).map Mapping.order = (c j).map Mapping.order :=
  replaceTree_map Mapping.order _ _ _ _ (fun _ _ => rfl) (fun _ _ => rfl) (fun _ _ => rfl)
    (fun _ _ _ => rfl)

theorem aug_hole (m m' : Mapping) (h : m'.aug = m.aug) : m'.largestHole = m.largestHole := by
  simp only [Mapping.aug, Prod.mk.injEq] at h
  exact h.1

theorem aug_own (m m' : Mapping) (h : m'.aug = m.aug) :
    m'.type = m.type ∧ m'.length = m.length := by
  simp only [Mapping.aug, Prod.mk.injEq] at h
  exact h.2

theorem order_lower (m m' : Mapping) (h : m'.order = m.order) : m'.lowerPtr = m.lowerPtr := by
  simp only [Mapping.order, Prod.mk.injEq] at h
  exact h.1

theorem order_higher (m m' : Mapping) (h : m'.order = m.order) : m'.higherPtr = m.higherPtr := by
  simp only [Mapping.order, Prod.mk.injEq] at h
  exact h.2

set_option maxHeartbeats 4000000 in
/-- If `replaceNode` completes, `repl` has taken the place of `nd` in the tree
and in the order list, and the links of `nd` are null. -/
theorem replaceNode_post {fuel : Nat} {s : Space} {fs : List Frame} {a b : Tree} {nd repl : Nat}
    (hT : TreeAt s (plug fs (Tree.node a nd b)))
    (hA : Augmented s.cells (plug fs (Tree.node a nd b)))
    (hL : Linked s.cells none (plug fs (Tree.node a nd b)).toList none)
    (hrn : repl ∉ (plug fs (Tree.node a nd b)).toList)
    (hralive : (s.cells repl).isSome = true) :
    Post (replaceNode fuel s nd repl) (fun s' =>
      ListInv (plug fs (Tree.node a repl b)).toList s' ∧
      ∃ mx, s'.cells nd = some mx ∧ mx.leftPtr = none ∧ mx.rightPtr = none ∧
        mx.parentPtr = none ∧ mx.lowerPtr = none ∧ mx.higherPtr = none) := by
  obtain ⟨hsc, hsh, hnd⟩ := (treeAt_plug _ _ _).mp hT
  have hsh' := hsh
  rw [Shape_node] at hsh'
  obtain ⟨nm, hnm, hnp, hnl, hnr, hsa, hsb⟩ := hsh'
  obtain ⟨hcn, hct⟩ := nodup_ctx_of_plug hT.2.2
  obtain ⟨hna, hnb, hand, hbnd, hab⟩ := nodup_node (nodup_plug hT.2.2).1
  have hold : (plug fs (Tree.node a nd b)).toList =
      (ctxBefore fs ++ a.toList) ++ nd :: (b.toList ++ ctxAfter fs) := by
    rw [toList_plug]; simp [Tree.toList]
  have hnew : (plug fs (Tree.node a repl b)).toList =
      (ctxBefore fs ++ a.toList) ++ repl :: (b.toList ++ ctxAfter fs) := by
    rw [toList_plug]; simp [Tree.toList]
  have hndo : ((ctxBefore fs ++ a.toList) ++ nd :: (b.toList ++ ctxAfter fs)).Nodup :=
    hold ▸ hT.2.2
  rw [hold] at hrn hL
  have hrX : repl ∉ ctxBefore fs ++ a.toList := fun h => hrn (List.mem_append_left _ h)
  have hrY : repl ∉ b.toList ++ ctxAfter fs :=
    fun h => hrn (List.mem_append_right _ (List.mem_cons_of_mem _ h))
  have hne : nd ≠ repl := fun e => hrn (by rw [e]; simp)
  have hndX : nd ∉ ctxBefore fs ++ a.toList :=
    fun h => (List.nodup_append.mp hndo).2.2 h (List.mem_cons_self _ _)
  have hndY : nd ∉ b.toList ++ ctxAfter fs :=
    (List.nodup_cons.mp (List.nodup_append.mp hndo).2.1).1
  have hXY : ∀ j ∈ ctxBefore fs ++ a.toList, j ∉ b.toList ++ ctxAfter fs :=
    fun j hj hj' => (List.nodup_append.mp hndo).2.2 hj (List.mem_cons_of_mem _ hj')
  have hra : repl ∉ a.toList := fun h => hrX (List.mem_append_right _ h)
  have hrb : repl ∉ b.toList := fun h => hrY (List.mem_append_left _ h)
  have hrc : ∀ j, (j ∈ ctxBefore fs ∨ j ∈ ctxAfter fs) → j ≠ repl := by
    rintro j (hj | hj) rfl
    · exact hrX (List.mem_append_left _ hj)
    · exact hrY (List.mem_append_right _ hj)
  have hcnd : ∀ j, (j ∈ ctxBefore fs ∨ j ∈ ctxAfter fs) → j ≠ nd :=
    fun j hj e => hct j hj (by simp [Tree.toList, e])
  have hca : ∀ j, (j ∈ ctxBefore fs ∨ j ∈ ctxAfter fs) → j ∉ a.toList :=
    fun j hj e => hct j hj (by simp [Tree.toList, e])
  have hcb : ∀ j, (j ∈ ctxBefore fs ∨ j ∈ ctxAfter fs) → j ∉ b.toList :=
    fun j hj e => hct j hj (by simp [Tree.toList, e])
  have halive : ∀ j, j ∈ (ctxBefore fs ++ a.toList) ++ nd :: (b.toList ++ ctxAfter fs) →
      (s.cells j).isSome = true := fun j hj => hT.alive (by rw [hold]; exact hj)
  -- the neighbours in the order list
  obtain ⟨hLX, hLY⟩ := (Linked_append _ _ _ _ _).mp hL
  have hLY' := hLY
  rw [Linked_cons] at hLY'
  obtain ⟨hlow, hhigh, hLY''⟩ := hLY'
  rw [fieldOf_some hnm] at hlow hhigh
  have hpX : ∀ j, nm.lowerPtr = some j → j ∈ ctxBefore fs ++ a.toList := fun j hj => by
    rw [hlow] at hj
    rcases lastOr_mem hj with h | h
    · exact h
    · cases h
  have hsY : ∀ j, nm.higherPtr = some j → j ∈ b.toList ++ ctxAfter fs := fun j hj => by
    rw [hhigh] at hj
    rcases headOr_mem hj with h | h
    · exact h
    · cases h
  have hla : ∀ j, nm.leftPtr = some j → j ∈ a.toList := fun j hj => mem_root (hnl ▸ hj)
  have hrb' : ∀ j, nm.rightPtr = some j → j ∈ b.toList := fun j hj => mem_root (hnr ▸ hj)
  -- hanging `repl` below the parent
  obtain ⟨s1, e1, hsc1, hc1, hsame1⟩ := replaceChild_ctx (some repl) hsc
    (fun f hf hu => hcnd nd ((mem_ctx_iff _ _).mpr ⟨f, hf, Or.inr hu⟩) rfl) hcn
  rw [← hnp] at e1
  have h1 : ∀ j, ¬ (j ∈ ctxBefore fs ∨ j ∈ ctxAfter fs) → s1.cells j = s.cells j :=
    fun j hj => hc1 j (fun e => hj (ctxParent_mem e))
  have hnm1 : s1.cells nd = some nm := by rw [h1 nd (fun h => hcnd nd h rfl), hnm]
  have halive1 : ∀ j, (s.cells j).isSome = true → (s1.cells j).isSome = true :=
    fun j hj => by rw [hsame1.isSome]; exact hj
  rw [replaceNode_eq fuel hnm e1 hnm1 (halive1 _ hralive)
    (fun p hp => halive1 p (halive p (List.mem_append_left _ (List.mem_append_right _ (hla p hp)))))
    (fun p hp => halive1 p (halive p (List.mem_append_right _
      (List.mem_cons_of_mem _ (List.mem_append_left _ (hrb' p hp))))))
    (fun p hp => halive1 p (halive p (List.mem_append_left _ (hpX p hp))))
    (fun p hp => halive1 p (halive p (List.mem_append_right _
      (List.mem_cons_of_mem _ (hsY p hp)))))
    hne (fun e => hna (hla nd e)) (fun e => hnb (hrb' nd e))]
  -- the tree links
  obtain ⟨rm1, hrm1⟩ := Option.isSome_iff_exists.mp (halive1 _ hralive)
  have hTrepl := @replaceTree_repl s1.cells repl nm rm1 hrm1 (fun e => hra (hla repl e))
    (fun e => hrb (hrb' repl e))
  have hsa1 : Shape s1.cells a (some nd) :=
    Shape.congr (fun j hj => h1 j (fun h => hca j h hj)) hsa
  have hsb1 : Shape s1.cells b (some nd) :=
    Shape.congr (fun j hj => h1 j (fun h => hcb j h hj)) hsb
  have hshT : Shape (replaceTree s1.cells repl nm) (Tree.node a repl b) (ctxParent fs) := by
    rw [Shape_node]
    refine ⟨_, hTrepl, hnp, hnl, hnr, ?_, ?_⟩
    · refine Shape.reparent (fun i hi y hy => ?_) (fun i hi hne' => ?_) hand hsa1
      · have hia : i ∈ a.toList := mem_root hi
        refine ⟨_, replaceTree_left (hnl.trans hi) (ne_of_mem_of_not_mem hia hra)
          (fun e => hab i hia (hrb' i e)) hy, rfl, rfl, rfl⟩
      · exact replaceTree_ne _ _ (ne_of_mem_of_not_mem hi hra) (by rw [hnl]; exact hne')
          (fun e => hab i hi (hrb' i e))
    · refine Shape.reparent (fun i hi y hy => ?_) (fun i hi hne' => ?_) hbnd hsb1
      · have hib : i ∈ b.toList := mem_root hi
        refine ⟨_, replaceTree_right (hnr.trans hi) (ne_of_mem_of_not_mem hib hrb)
          (fun e => hab i (hla i e) hib) hy, rfl, rfl, rfl⟩
      · exact replaceTree_ne _ _ (ne_of_mem_of_not_mem hi hrb)
          (fun e => hab i (hla i e) hi) (by rw [hnr]; exact hne')
  have hscT : ShapeCtx (replaceTree s1.cells repl nm) fs (some repl) s1.p_root :=
    ShapeCtx.congr_ctx (fun j hj => replaceTree_ne _ _ (hrc j hj)
      (fun e => hca j hj (hla j e)) (fun e => hcb j hj (hrb' j e))) hsc1
  have hndnew : ((ctxBefore fs ++ a.toList) ++ repl :: (b.toList ++ ctxAfter fs)).Nodup := by
    have h0 : ((ctxBefore fs ++ a.toList) ++ (b.toList ++ ctxAfter fs)).Nodup :=
      List.Nodup.sublist (List.Sublist.append_left (List.sublist_cons_self _ _) _) hndo
    have hperm : ((ctxBefore fs ++ a.toList) ++ repl :: (b.toList ++ ctxAfter fs)).Perm
        (repl :: ((ctxBefore fs ++ a.toList) ++ (b.toList ++ ctxAfter fs))) := List.perm_middle
    rw [hperm.nodup_iff, List.nodup_cons]
    exact ⟨fun h => (List.mem_append.mp h).elim hrX hrY, h0⟩
  have hT' : TreeAt ⟨replaceCells s1.cells nd repl nm, s1.next, s1.p_root, s1.p_pageSpace⟩
      (plug fs (Tree.node a repl b)) := by
    rw [treeAt_plug]
    refine ⟨?_, ?_, ?_⟩
    · exact ShapeCtx.sameOn_ctx noOrder_links
        (fun j hj => replaceCells_noOrder _ _ (hcnd j hj)) hscT
    · refine Shape.sameOn noOrder_links (fun j hj => replaceCells_noOrder _ _ ?_) hshT
      rintro rfl
      simp only [Tree.toList, List.mem_append, List.mem_cons] at hj
      rcases hj with h | h | h
      · exact hna h
      · exact hne h
      · exact hnb h
    · have := hndnew
      rw [← hnew, toList_plug] at this
      exact this
  -- the augment
  have hmapAug : ∀ j, ((replaceCells s1.cells nd repl nm) j).map Mapping.aug =
      (s.cells j).map Mapping.aug := by
    intro j
    rw [replaceCells_aug]
    exact (hsame1.proj Mapping.aug).2.2 j
  obtain ⟨hactx, -, haa, hab'⟩ := (aug_plug _ _ _).mp hA
  have haa' : Augmented (replaceCells s1.cells nd repl nm) a :=
    Augmented.sameOn_aug aug_hole aug_own (fun j _ => hmapAug j) haa
  have hab'' : Augmented (replaceCells s1.cells nd repl nm) b :=
    Augmented.sameOn_aug aug_hole aug_own (fun j _ => hmapAug j) hab'
  obtain ⟨-, hsh', -⟩ := (treeAt_plug _ _ _).mp hT'
  obtain ⟨rm5, hrm5, -, e5, haug5⟩ := updateLargestHoleAt_node hsh' (nodup_plug hT'.2.2).1
    haa' hab''
  rw [e5]
  simp only [bind_okE]
  have hs45 := @Same.upd _ Mapping.noHole
    ⟨replaceCells s1.cells nd repl nm, s1.next, s1.p_root, s1.p_pageSpace⟩ repl rm5
    { rm5 with largestHole := wantedHole (replaceCells s1.cells nd repl nm) rm5 } hrm5 rfl
  have hT5 := TreeAt.of_same hs45 noHole_links rfl hT'
  -- the order list
  have hLT : Linked (replaceTree s1.cells repl nm) none
      ((ctxBefore fs ++ a.toList) ++ nd :: (b.toList ++ ctxAfter fs)) none := by
    refine Linked.sameOn_linked order_lower order_higher (fun j _ => ?_) hL
    rw [replaceTree_order]
    exact (hsame1.proj Mapping.order).2.2 j
  obtain ⟨hLTX, hLTY⟩ := (Linked_append _ _ _ _ _).mp hLT
  rw [Linked_cons] at hLTY
  have haliveT : ∀ j, j ∈ (ctxBefore fs ++ a.toList) ++ nd :: (b.toList ++ ctxAfter fs) →
      ∃ y, replaceTree s1.cells repl nm j = some y := fun j hj =>
    Option.isSome_iff_exists.mp (by rw [isSome_replaceTree]; exact halive1 j (halive j hj))
  have hL' : Linked (replaceCells s1.cells nd repl nm) none
      ((ctxBefore fs ++ a.toList) ++ repl :: (b.toList ++ ctxAfter fs)) none := by
    rw [Linked_append]
    refine ⟨?_, ?_⟩
    · refine Linked.set_next (List.nodup_append.mp hndo).1 (fun j hj hlast => ?_)
        (fun j hj hlast => ?_) hLTX
      · exact replaceCells_ne _ _ (ne_of_mem_of_not_mem hj hndX) (ne_of_mem_of_not_mem hj hrX)
          (by rw [hlow]; exact hlast) (fun e => hXY j hj (hsY j e))
      · obtain ⟨y, hy⟩ := haliveT j (List.mem_append_left _ hj)
        have := @replaceCells_pred _ nd _ _ _ _ (by rw [hlow]; exact hlast)
          (ne_of_mem_of_not_mem hj hndX) (ne_of_mem_of_not_mem hj hrX)
          (fun e => hXY j hj (hsY j e)) hy
        simp [fieldOf, this, hy, headOr]
    · rw [Linked_cons]
      have hcr := replaceCells_repl hTrepl hne (fun e => hrX (hpX repl e))
        (fun e => hrY (hsY repl e))
      refine ⟨by rw [fieldOf_some hcr]; exact hlow, by rw [fieldOf_some hcr]; exact hhigh, ?_⟩
      refine Linked.set_prev (List.nodup_cons.mp (List.nodup_append.mp hndo).2.1).2
        (fun j hj hne' => ?_) (fun j hhead hj => ?_) hLTY.2.2
      · exact replaceCells_ne _ _ (ne_of_mem_of_not_mem hj hndY) (ne_of_mem_of_not_mem hj hrY)
          (fun e => hXY j (hpX j e) hj) (by rw [hhigh]; exact hne')
      · obtain ⟨y, hy⟩ := haliveT j (List.mem_append_right _ (List.mem_cons_of_mem _ hj))
        have := @replaceCells_succ _ nd _ _ _ _ (by rw [hhigh]; exact hhead)
          (ne_of_mem_of_not_mem hj hndY) (ne_of_mem_of_not_mem hj hrY)
          (fun e => hXY j (hpX j e) hj) hy
        simp [fieldOf, this, hy]
  have hL5 : Linked (upd (replaceCells s1.cells nd repl nm) repl
      { rm5 with largestHole := wantedHole (replaceCells s1.cells nd repl nm) rm5 }) none
      ((ctxBefore fs ++ a.toList) ++ repl :: (b.toList ++ ctxAfter fs)) none :=
    hL'.of_same_linked hs45 noHole_lower noHole_higher
  -- the node that left the tree
  have hnd' : replaceCells s1.cells nd repl nm nd = some nm.cleared :=
    replaceCells_node (by rw [replaceTree_ne _ _ hne (fun e => hna (hla nd e))
      (fun e => hnb (hrb' nd e)), hnm1]) hne (fun e => hndX (hpX nd e))
      (fun e => hndY (hsY nd e))
  have hnd5 : (upd (replaceCells s1.cells nd repl nm) repl
      { rm5 with largestHole := wantedHole (replaceCells s1.cells nd repl nm) rm5 }) nd =
      some nm.cleared := by
    rw [upd_ne _ _ hne, hnd']
  have hfinal : ∀ s7 : Space,
      Same Mapping.noHole ⟨upd (replaceCells s1.cells nd repl nm) repl
        { rm5 with largestHole := wantedHole (replaceCells s1.cells nd repl nm) rm5 },
        s1.next, s1.p_root, s1.p_pageSpace⟩ s7 →
      TreeAt s7 (plug fs (Tree.node a repl b)) →
      Augmented s7.cells (plug fs (Tree.node a repl b)) →
      ListInv (plug fs (Tree.node a repl b)).toList s7 ∧
      ∃ mx, s7.cells nd = some mx ∧ mx.leftPtr = none ∧ mx.rightPtr = none ∧
        mx.parentPtr = none ∧ mx.lowerPtr = none ∧ mx.higherPtr = none := by
    intro s7 hs57 hT7 hA7
    refine ⟨⟨⟨_, hT7, rfl, hA7⟩, ?_⟩, ?_⟩
    · rw [hnew]
      exact hL5.of_same_linked hs57 noHole_lower noHole_higher
    · obtain ⟨mx, hmx, e⟩ := hs57.cell hnd5
      exact ⟨mx, hmx, by have := (noHole_links _ _ e).1; exact this,
        by have := (noHole_links _ _ e).2.1; exact this,
        by have := (noHole_links _ _ e).2.2; exact this,
        by have := noHole_lower _ _ e; exact this,
        by have := noHole_higher _ _ e; exact this⟩
  -- the augment of the ancestors
  cases fs with
  | nil =>
    have hp : nm.parentPtr = none := hnp
    rw [hp]
    obtain ⟨e, he⟩ := updateLargestHoleUpwards_none fuel
      ⟨upd (replaceCells s1.cells nd repl nm) repl
        { rm5 with largestHole := wantedHole (replaceCells s1.cells nd repl nm) rm5 },
        s1.next, s1.p_root, s1.p_pageSpace⟩
    rw [he]
    exact Post.error
  | cons f fs' =>
    have hp : nm.parentPtr = some f.id := hnp
    rw [hp]
    obtain ⟨hf1, hf2, hf3⟩ := hactx
    have hfr : ∀ j, (j = f.id ∨ j ∈ f.sib.toList) → j ≠ repl := fun j hj =>
      hrc j ((mem_ctx_iff _ _).mpr ⟨f, List.mem_cons_self _ _, hj⟩)
    have hmap5 : ∀ j, j ≠ repl → ((upd (replaceCells s1.cells nd repl nm) repl
        { rm5 with largestHole := wantedHole (replaceCells s1.cells nd repl nm) rm5 }) j).map
        Mapping.aug = (s.cells j).map Mapping.aug := by
      intro j hj
      rw [upd_ne _ _ hj]
      exact hmapAug j
    have hsib5 : Augmented (upd (replaceCells s1.cells nd repl nm) repl
        { rm5 with largestHole := wantedHole (replaceCells s1.cells nd repl nm) rm5 }) f.sib :=
      Augmented.sameOn_aug aug_hole aug_own (fun j hj => hmap5 j (hfr j (Or.inr hj))) hf2
    have hctx5 : AugCtx (upd (replaceCells s1.cells nd repl nm) repl
        { rm5 with largestHole := wantedHole (replaceCells s1.cells nd repl nm) rm5 }) fs'
        (largestHoleAt (upd (replaceCells s1.cells nd repl nm) repl
          { rm5 with largestHole := wantedHole (replaceCells s1.cells nd repl nm) rm5 })
          (some f.id)) := by
      have e : largestHoleAt (upd (replaceCells s1.cells nd repl nm) repl
          { rm5 with largestHole := wantedHole (replaceCells s1.cells nd repl nm) rm5 })
          (some f.id) = largestHoleAt s.cells (some f.id) :=
        fieldOf_congr (hmap5 f.id (hfr f.id (Or.inl rfl))) _ _ aug_hole
      rw [e]
      refine AugCtx.sameOn_augCtx aug_hole aug_own (fun j hj => hmap5 j ?_) hf3
      obtain ⟨g, hg, hj'⟩ := (mem_ctx_iff fs' j).mp hj
      exact hrc j ((mem_ctx_iff _ _).mpr ⟨g, List.mem_cons_of_mem _ hg, hj'⟩)
    cases f with
    | left p sib =>
      refine (@updateLargestHoleUpwards_post fs' fuel _ (Tree.node a repl b) sib p hT5 haug5
        hsib5 hctx5).mono ?_
      rintro s7 ⟨hT7, hA7, hs57, -⟩
      exact hfinal s7 hs57 hT7 hA7
    | right sib p =>
      refine (@updateLargestHoleUpwards_post fs' fuel _ sib (Tree.node a repl b) p hT5 hsib5
        haug5 hctx5).mono ?_
      rintro s7 ⟨hT7, hA7, hs57, -⟩
      exact hfinal s7 hs57 hT7 hA7

/-! ### The function `addressTreeRemove` -/

theorem split_unique {X Y A B : List Nat} {x : Nat} (h : X ++ x :: Y = A ++ x :: B)
    (hX : x ∉ X) (hA : x ∉ A) : X = A ∧ Y = B := by
  induction X generalizing A with
  | nil =>
    cases A with
    | nil => simp at h; exact ⟨rfl, h⟩
    | cons a A' =>
      simp only [List.nil_append, List.cons_append, List.cons.injEq] at h
      exact absurd (by rw [h.1]; exact List.mem_cons_self _ _) hA
  | cons y X' ih =>
    cases A with
    | nil =>
      simp only [List.nil_append, List.cons_append, List.cons.injEq] at h
      exact absurd (by rw [← h.1]; exact List.mem_cons_self _ _) hX
    | cons a A' =>
      simp only [List.cons_append, List.cons.injEq] at h
      obtain ⟨e1, e2⟩ := ih h.2 (fun hx => hX (List.mem_cons_of_mem _ hx))
        (fun hx => hA (List.mem_cons_of_mem _ hx))
      exact ⟨by rw [h.1, e1], e2⟩

theorem lastOr_eq_some {A : List Nat} {p : Nat} (h : lastOr A none = some p) :
    ∃ A', A = A' ++ [p] := by
  have key : ∀ (A : List Nat) (d : Ptr), lastOr A d = some p →
      (A = [] ∧ d = some p) ∨ ∃ A', A = A' ++ [p] := by
    intro A
    induction A with
    | nil => intro d hd; exact Or.inl ⟨rfl, hd⟩
    | cons y ys ih =>
      intro d hd
      rcases ih (some y) hd with ⟨h1, h2⟩ | ⟨A', h1⟩
      · cases h2
        exact Or.inr ⟨[], by rw [h1]; rfl⟩
      · exact Or.inr ⟨y :: A', by rw [h1]; rfl⟩
  rcases key A none h with ⟨-, h2⟩ | h'
  · cases h2
  · exact h'

set_option maxHeartbeats 2000000 in
/-- If `addressTreeRemove` completes on a tree with a correct augment and a
correct order list, the node has left the tree and the order list, its links
are null, the in-order sequence of the other nodes is unchanged, and the tree
again has a correct augment and a correct order list. -/
theorem addressTreeRemove_post {fuel : Nat} {s : Space} {l : List Nat} {x : Nat}
    (hinv : ListInv l s) (hx : x ∈ l) :
    Post (addressTreeRemove fuel s x) (fun s' =>
      (ListInv (l.erase x) s' ∧
        ∃ mx, s'.cells x = some mx ∧ mx.leftPtr = none ∧ mx.rightPtr = none ∧
          mx.parentPtr = none ∧ mx.lowerPtr = none ∧ mx.higherPtr = none) ∧
      KeyFrame s s') := by
  refine Post.and ?_ (addressTreeRemove_keyFrame fuel s s x (KeyFrame.refl s))
  rw [addressTreeRemove]
  refine Post.bind Post.trivial (fun _ _ => ?_)
  refine Post.bind Post.get (fun m hm => ?_)
  have hrest : ∀ s1 : Space,
      (ListInv (l.erase x) s1 ∧
        ∃ mx, s1.cells x = some mx ∧ mx.leftPtr = none ∧ mx.rightPtr = none ∧
          mx.parentPtr = none ∧ mx.lowerPtr = none ∧ mx.higherPtr = none) →
      Post (do
        assertInvariant fuel s1
        Except.ok s1) (fun s' =>
          ListInv (l.erase x) s' ∧
          ∃ mx, s'.cells x = some mx ∧ mx.leftPtr = none ∧ mx.rightPtr = none ∧
            mx.parentPtr = none ∧ mx.lowerPtr = none ∧ mx.higherPtr = none) :=
    fun s1 h => Post.bind Post.trivial (fun _ _ => Post.ok h)
  dsimp only
  split
  · exact Post.bind (removeHalfLeaf_post hinv hx) hrest
  · exact Post.bind (removeHalfLeaf_post hinv hx) hrest
  · refine Post.bind Post.deref (fun pred hpred => ?_)
    refine Post.bind Post.get (fun pm _ => ?_)
    -- the predecessor stands right before `x` in the in-order sequence
    obtain ⟨A, B, hAB⟩ := List.append_of_mem hx
    have hnd : l.Nodup := by
      obtain ⟨⟨t, hT, hl, -⟩, -⟩ := hinv
      rw [← hl]; exact hT.2.2
    have hL := hinv.2
    rw [hAB] at hL hnd
    obtain ⟨-, hLx⟩ := (Linked_append _ _ _ _ _).mp hL
    rw [Linked_cons, fieldOf_some hm, hpred] at hLx
    obtain ⟨A', rfl⟩ := lastOr_eq_some hLx.1.symm
    have hl' : l = A' ++ pred :: (x :: B) := by rw [hAB]; simp
    have hnd' : (A' ++ pred :: (x :: B)).Nodup := by
      have := hnd
      simp only [List.append_assoc, List.singleton_append] at this
      exact this
    have hpredmem : pred ∈ l := by rw [hl']; simp
    have he1 : l.erase pred = A' ++ x :: B := by rw [hl']; exact erase_mid hnd'
    have hxl : l.erase x = A' ++ pred :: B := by
      rw [hAB]
      rw [erase_mid hnd]
      simp
    refine Post.bind (removeHalfLeaf_post hinv hpredmem) ?_
    rintro s1 ⟨⟨⟨t1, hT1, hl1, hA1⟩, hL1⟩, ⟨mp, hmp, -⟩⟩
    rw [← hl1] at he1 hL1
    have hx1 : x ∈ t1.toList := by rw [he1]; simp
    obtain ⟨fs, a, b, rfl⟩ := mem_decomp hx1
    have hpn : pred ∉ (plug fs (Tree.node a x b)).toList := by
      rw [he1]
      have h1 := List.nodup_append.mp hnd'
      have h2 := List.nodup_cons.mp h1.2.1
      simp only [List.mem_append, List.mem_cons, not_or]
      refine ⟨fun h => h1.2.2 h (List.mem_cons_self _ _), ?_, ?_⟩
      · rintro rfl
        exact h2.1 (List.mem_cons_self _ _)
      · exact fun h => h2.1 (List.mem_cons_of_mem _ h)
    refine Post.bind ((replaceNode_post hT1 hA1 hL1 hpn (by simp [hmp])).mono ?_) hrest
    rintro s' ⟨hinv', hx'⟩
    refine ⟨?_, hx'⟩
    have hlist : (plug fs (Tree.node a pred b)).toList = l.erase x := by
      have h1 : (plug fs (Tree.node a x b)).toList =
          (ctxBefore fs ++ a.toList) ++ x :: (b.toList ++ ctxAfter fs) := by
        rw [toList_plug]; simp [Tree.toList]
      have h2 : (plug fs (Tree.node a pred b)).toList =
          (ctxBefore fs ++ a.toList) ++ pred :: (b.toList ++ ctxAfter fs) := by
        rw [toList_plug]; simp [Tree.toList]
      rw [h1] at he1
      have hnd1 := hT1.2.2
      rw [h1] at hnd1
      have hxA' : x ∉ A' := by
        intro h
        have h1 := List.nodup_append.mp hnd'
        exact h1.2.2 h (List.mem_cons_of_mem _ (List.mem_cons_self _ _))
      obtain ⟨e1, e2⟩ := split_unique he1
        (fun h => (List.nodup_append.mp hnd1).2.2 h (List.mem_cons_self _ _)) hxA'
      rw [h2, hxl, e1, e2]
    rw [← hlist]
    exact hinv'

/-! ### Mappings that tile a range -/

theorem Covers_cons (c : Nat → Option Mapping) (lo hi i : Nat) (rest : List Nat) :
    Covers c lo (i :: rest) hi ↔
      (baseOf c i = lo ∧ 0 < lengthOf c i ∧ Covers c (endOf c i) rest hi) := Iff.rfl

theorem Covers_nil (c : Nat → Option Mapping) (lo hi : Nat) : Covers c lo [] hi ↔ lo = hi :=
  Iff.rfl

theorem Covers_append (c : Nat → Option Mapping) (lo hi : Nat) (a b : List Nat) :
    Covers c lo (a ++ b) hi ↔ ∃ mid, Covers c lo a mid ∧ Covers c mid b hi := by
  induction a generalizing lo with
  | nil => simp [Covers_nil]
  | cons i rest ih =>
    rw [List.cons_append, Covers_cons, ih]
    simp only [Covers_cons]
    constructor
    · rintro ⟨h1, h2, mid, h3, h4⟩
      exact ⟨mid, ⟨h1, h2, h3⟩, h4⟩
    · rintro ⟨mid, ⟨h1, h2, h3⟩, h4⟩
      exact ⟨h1, h2, mid, h3, h4⟩

theorem Covers.le {c : Nat → Option Mapping} {lo hi : Nat} {l : List Nat}
    (h : Covers c lo l hi) : lo ≤ hi := by
  induction l generalizing lo with
  | nil => exact le_of_eq h
  | cons i rest ih =>
    obtain ⟨h1, h2, h3⟩ := h
    have := ih h3
    unfold endOf at this
    omega

theorem Covers.mem {c : Nat → Option Mapping} {lo hi : Nat} {l : List Nat}
    (h : Covers c lo l hi) {i : Nat} (hi' : i ∈ l) :
    lo ≤ baseOf c i ∧ endOf c i ≤ hi ∧ 0 < lengthOf c i := by
  induction l generalizing lo with
  | nil => cases hi'
  | cons j rest ih =>
    obtain ⟨h1, h2, h3⟩ := h
    rcases List.mem_cons.mp hi' with e | e
    · subst e
      exact ⟨le_of_eq h1.symm, h3.le, h2⟩
    · have := ih h3 e
      unfold endOf at this
      exact ⟨by omega, this.2.1, this.2.2⟩

theorem Covers.congr_covers {c c' : Nat → Option Mapping} {lo hi : Nat} {l : List Nat}
    (h : ∀ i ∈ l, baseOf c' i = baseOf c i ∧ lengthOf c' i = lengthOf c i)
    (hc : Covers c lo l hi) : Covers c' lo l hi := by
  induction l generalizing lo with
  | nil => exact hc
  | cons j rest ih =>
    obtain ⟨h1, h2, h3⟩ := hc
    have hj := h j (List.mem_cons_self _ _)
    refine ⟨hj.1.trans h1, by rw [hj.2]; exact h2, ?_⟩
    have : endOf c' j = endOf c j := by unfold endOf; rw [hj.1, hj.2]
    rw [this]
    exact ih (fun i hi => h i (List.mem_cons_of_mem _ hi)) h3

theorem keys_base (m m' : Mapping) (h : m'.keys = m.keys) : m'.baseAddress = m.baseAddress := by
  have := congrArg Keys.baseAddress h; exact this

theorem keys_length (m m' : Mapping) (h : m'.keys = m.keys) : m'.length = m.length := by
  have := congrArg Keys.length h; exact this

theorem keys_type (m m' : Mapping) (h : m'.keys = m.keys) : m'.type = m.type := by
  have := congrArg Keys.type h; exact this

theorem Covers.sameOn_covers {c c' : Nat → Option Mapping} {lo hi : Nat} {l : List Nat}
    (h : ∀ i ∈ l, (c' i).map Mapping.keys = (c i).map Mapping.keys)
    (hc : Covers c lo l hi) : Covers c' lo l hi :=
  Covers.congr_covers (fun i hi => ⟨fieldOf_congr (h i hi) _ _ keys_base,
    fieldOf_congr (h i hi) _ _ keys_length⟩) hc

theorem NoAdjacentHoles.congr_noAdj {c c' : Nat → Option Mapping} {l : List Nat}
    (h : ∀ i ∈ l, typeOf c' i = typeOf c i) (hc : NoAdjacentHoles c l) :
    NoAdjacentHoles c' l := by
  unfold NoAdjacentHoles at hc ⊢
  induction l with
  | nil => exact List.chain'_nil
  | cons i rest ih =>
    cases rest with
    | nil => exact List.chain'_singleton _
    | cons j rest' =>
      rw [List.chain'_cons] at hc ⊢
      refine ⟨?_, ih (fun k hk => h k (List.mem_cons_of_mem _ hk)) hc.2⟩
      rw [h i (List.mem_cons_self _ _), h j (List.mem_cons_of_mem _ (List.mem_cons_self _ _))]
      exact hc.1

theorem NoAdjacentHoles.sameOn_noAdj {c c' : Nat → Option Mapping} {l : List Nat}
    (h : ∀ i ∈ l, (c' i).map Mapping.keys = (c i).map Mapping.keys)
    (hc : NoAdjacentHoles c l) : NoAdjacentHoles c' l :=
  NoAdjacentHoles.congr_noAdj (fun i hi => fieldOf_congr (h i hi) _ _ keys_type) hc

/-- Where a sequence that a predicate cuts in two can be cut. -/
theorem position {A1 B1 L1 L2 : List Nat} {P : Nat → Prop} (h : A1 ++ B1 = L1 ++ L2)
    (h1 : ∀ i ∈ L1, P i) (h2 : ∀ i ∈ L2, ¬ P i)
    (ha : ∀ a, lastOr A1 none = some a → P a) (hb : ∀ b, headOr B1 none = some b → ¬ P b) :
    A1 = L1 ∧ B1 = L2 := by
  rcases List.append_eq_append_iff.mp h with ⟨a', e1, e2⟩ | ⟨c', e1, e2⟩
  · cases a' with
    | nil => simp at e1 e2; exact ⟨e1.symm, e2⟩
    | cons x xs =>
      exfalso
      refine hb x (by rw [e2]; rfl) (h1 x ?_)
      rw [e1]; simp
  · cases c' with
    | nil => simp at e1 e2; exact ⟨e1, e2.symm⟩
    | cons x xs =>
      exfalso
      have hl : ∃ y, lastOr A1 none = some y ∧ y ∈ x :: xs := by
        rw [e1, lastOr_append]
        have : ∀ (l : List Nat) (d : Nat), ∃ y, lastOr l (some d) = some y ∧ (y = d ∨ y ∈ l) := by
          intro l
          induction l with
          | nil => intro d; exact ⟨d, rfl, Or.inl rfl⟩
          | cons z zs ih =>
            intro d
            obtain ⟨y, hy, hy'⟩ := ih z
            refine ⟨y, hy, Or.inr ?_⟩
            rcases hy' with e | e
            · rw [e]; exact List.mem_cons_self _ _
            · exact List.mem_cons_of_mem _ e
        obtain ⟨y, hy, hy'⟩ := this xs x
        refine ⟨y, hy, ?_⟩
        rcases hy' with e | e
        · rw [e]; exact List.mem_cons_self _ _
        · exact List.mem_cons_of_mem _ e
      obtain ⟨y, hy, hy'⟩ := hl
      exact h2 y (by rw [e2]; exact List.mem_append_left _ hy') (ha y hy)

/-! ### Allocation, release and key changes of single nodes -/

theorem ListInv.congr_inv {s s' : Space} {l : List Nat} (h : ∀ i ∈ l, s'.cells i = s.cells i)
    (hr : s'.p_root = s.p_root) (hi : ListInv l s) : ListInv l s' := by
  obtain ⟨⟨t, hT, hl, hA⟩, hL⟩ := hi
  subst hl
  refine ⟨⟨t, ⟨hr.trans hT.1, Shape.congr h hT.2.1, hT.2.2⟩, rfl, ?_⟩, Linked.congr_cells h hL⟩
  exact Augmented.congr_aug (fun i hi => by
    simp only [largestHoleAt, ownHole, typeOf, lengthOf, fieldOf, h i hi]
    exact ⟨trivial, trivial⟩) hA

theorem Post.self {α : Type} (x : Except Err α) : Post x (fun a => x = Except.ok a) :=
  fun _ h => h

theorem Post.const {α : Type} {x : Except Err α} {P : Prop} (h : P) : Post x (fun _ => P) :=
  fun _ _ => h

theorem Post.assoc {α β γ : Type} {x : Except Err α} {f : α → Except Err β}
    {g : β → Except Err γ} {Q : γ → Prop} (h : Post ((x >>= f) >>= g) Q) :
    Post (x >>= fun a => f a >>= g) Q := by
  cases x <;> exact h

theorem destruct_post {fuel : Nat} {s : Space} {i : Nat} {m : Mapping} (hm : s.cells i = some m)
    (hl : m.leftPtr = none) (hr : m.rightPtr = none) :
    Post (destruct fuel s (some i)) (fun s' =>
      s'.cells i = none ∧ (∀ j, j ≠ i → s'.cells j = s.cells j) ∧ s'.next = s.next ∧
        s'.p_root = s.p_root ∧ s'.p_pageSpace = s.p_pageSpace) := by
  cases fuel with
  | zero => exact Post.error
  | succ k =>
    rw [destruct]
    simp only [get_eq hm, bind_okE, hl, hr]
    cases k with
    | zero => exact Post.error
    | succ k' =>
      simp only [destruct, bind_okE]
      refine Post.ok ⟨by simp, fun j hj => by simp [hj], rfl, rfl, rfl⟩

/-- A node of the tree gets other key fields, and the augment is propagated. -/
theorem retag_post {fuel : Nat} {s : Space} {l : List Nat} {x : Nat} (f : Mapping → Mapping)
    (hlinks : ∀ m, (f m).leftPtr = m.leftPtr ∧ (f m).rightPtr = m.rightPtr ∧
      (f m).parentPtr = m.parentPtr ∧ (f m).largestHole = m.largestHole ∧
      (f m).lowerPtr = m.lowerPtr ∧ (f m).higherPtr = m.higherPtr)
    (hinv : ListInv l s) (hx : x ∈ l) :
    Post (do
      let s ← s.modify x f
      updateLargestHoleUpwards fuel s (some x)) (fun s' =>
        ListInv l s' ∧ s'.next = s.next ∧ s'.p_pageSpace = s.p_pageSpace ∧
        (∀ j, j ≠ x → (s'.cells j).map Mapping.keys = (s.cells j).map Mapping.keys) ∧
        ∃ m, s.cells x = some m ∧ (s'.cells x).map Mapping.keys = some (f m).keys) := by
  obtain ⟨⟨t, hT, hl, hA⟩, hL⟩ := hinv
  subst hl
  obtain ⟨fs, a, b, rfl⟩ := mem_decomp hx
  obtain ⟨hsc, hsh, hnd⟩ := (treeAt_plug _ _ _).mp hT
  have hsh' := hsh
  rw [Shape_node] at hsh'
  obtain ⟨m, hm, hmp, hml, hmr, hsa, hsb⟩ := hsh'
  obtain ⟨hcn, hct⟩ := nodup_ctx_of_plug hT.2.2
  obtain ⟨hxa, hxb, -, -, -⟩ := nodup_node (nodup_plug hT.2.2).1
  have hctx : ∀ j, (j ∈ ctxBefore fs ∨ j ∈ ctxAfter fs) → j ≠ x :=
    fun j hj e => hct j hj (by simp [Tree.toList, e])
  obtain ⟨hl1, hl2, hl3, hl4, hl5, hl6⟩ := hlinks m
  rw [modify_eq hm]
  simp only [bind_okE]
  have hT1 : TreeAt ⟨upd s.cells x (f m), s.next, s.p_root, s.p_pageSpace⟩
      (plug fs (Tree.node a x b)) := by
    rw [treeAt_plug]
    refine ⟨ShapeCtx.congr_ctx (fun j hj => upd_ne _ _ (hctx j hj)) hsc, ?_, hnd⟩
    rw [Shape_node]
    exact ⟨_, upd_eq _ _ _, hl3.trans hmp, hl1.trans hml, hl2.trans hmr,
      Shape.congr (fun j hj => upd_ne _ _ (ne_of_mem_of_not_mem hj hxa)) hsa,
      Shape.congr (fun j hj => upd_ne _ _ (ne_of_mem_of_not_mem hj hxb)) hsb⟩
  obtain ⟨hactx, -, haa, hab⟩ := (aug_plug _ _ _).mp hA
  have hctx1 : AugCtx (upd s.cells x (f m)) fs (largestHoleAt (upd s.cells x (f m)) (some x)) := by
    rw [largestHoleAt_upd_self, hl4]
    have e : largestHoleAt s.cells (Tree.node a x b).root = m.largestHole :=
      fieldOf_some hm _ _
    rw [e] at hactx
    exact hactx.upd_augCtx _ (fun g hg =>
      ⟨fun e => hctx x ((mem_ctx_iff _ _).mpr ⟨g, hg, Or.inl e⟩) rfl,
        fun e => hctx x ((mem_ctx_iff _ _).mpr ⟨g, hg, Or.inr e⟩) rfl⟩)
  refine (updateLargestHoleUpwards_post hT1 (haa.upd_aug _ hxa) (hab.upd_aug _ hxb) hctx1).mono ?_
  rintro s' ⟨hT', hA', hs', -⟩
  refine ⟨⟨⟨_, hT', rfl, hA'⟩, ?_⟩, hs'.1, hs'.2.1, ?_, m, hm, ?_⟩
  · refine Linked.of_same_linked hs' noHole_lower noHole_higher ?_
    refine Linked.congr_linked (fun j _ => ?_) hL
    by_cases hj : j = x
    · subst hj
      simp only [fieldOf, upd_eq, hm, hl5, hl6]
      exact ⟨trivial, trivial⟩
    · simp only [fieldOf, upd_ne _ _ hj]
      exact ⟨trivial, trivial⟩
  · intro j hj
    have := (hs'.keyFrame noHole_keys).2.2 j
    rw [this]
    show Option.map _ (upd s.cells x (f m) j) = _
    rw [upd_ne _ _ hj]
  · have := (hs'.keyFrame noHole_keys).2.2 x
    rw [this]
    show Option.map _ (upd s.cells x (f m) x) = _
    rw [upd_eq]
    rfl

/-! ### The tree operations write to the nodes of the tree only -/

theorem PtrIn.of_mem {l : List Nat} {i : Nat} (h : i ∈ l) : PtrIn l (some i) :=
  fun _ e => by cases e; exact h

theorem PtrIn.null {l : List Nat} : PtrIn l none := fun _ e => by cases e

theorem PtrIn.ite_ptr {l : List Nat} {c : Prop} [Decidable c] {a b : Ptr} (ha : PtrIn l a)
    (hb : PtrIn l b) : PtrIn l (if c then a else b) := by
  split
  · exact ha
  · exact hb

theorem PtrIn.mem_of_eq {l : List Nat} {p : Ptr} {j : Nat} (e : p = some j) (h : PtrIn l p) : j ∈ l :=
  h j e

theorem Foot.links {l : List Nat} {s0 s : Space} {i : Nat} {m : Mapping} (h : Foot l s0 s)
    (hi : i ∈ l) (hc : s.cells i = some m) : m.linksIn l := h.2.1 i hi m hc

theorem Foot.setRoot_foot {l : List Nat} {s0 s : Space} {r : Ptr} (h : Foot l s0 s)
    (hr : PtrIn l r) : Foot l s0 { s with p_root := r } :=
  ⟨hr, h.2.1, h.2.2⟩

theorem modify_foot {l : List Nat} {s0 s : Space} {i : Nat} {f : Mapping → Mapping}
    (hi : i ∈ l) (hf : ∀ m, m.linksIn l → (f m).linksIn l) (h0 : Foot l s0 s) :
    Post (s.modify i f) (fun t => Foot l s0 t) := by
  refine Post.modify.mono ?_
  rintro t ⟨m, hm, rfl⟩
  refine ⟨h0.1, fun j hj mj hmj => ?_, h0.2.2.1, h0.2.2.2.1, fun j hj => ?_⟩
  · by_cases e : j = i
    · subst e
      simp only [if_true] at hmj
      cases hmj
      exact hf m (h0.2.1 j hj m hm)
    · simp only [e, if_false] at hmj
      exact h0.2.1 j hj mj hmj
  · have e : j ≠ i := fun e => hj (e ▸ hi)
    simp only [e, if_false]
    exact h0.2.2.2.2 j hj

theorem modifyIf_foot {l : List Nat} {s0 s : Space} {p : Ptr} {f : Mapping → Mapping}
    (hp : PtrIn l p) (hf : ∀ m, m.linksIn l → (f m).linksIn l) (h0 : Foot l s0 s) :
    Post (s.modifyIf p f) (fun t => Foot l s0 t) := by
  unfold Space.modifyIf
  split
  · exact modify_foot (hp _ rfl) hf h0
  · exact Post.ok h0

theorem updateLargestHoleAt_foot (l : List Nat) (s0 s : Space) (p : Ptr) (hp : PtrIn l p) (h0 : Foot l s0 s) :
    Post (updateLargestHoleAt s p) (fun r => Foot l s0 r.1) := by
  unfold updateLargestHoleAt
  repeat (first
    | exact Post.ok (by assumption)
    | exact Post.error
    | exact Post.ok (Foot.setRoot_foot (by assumption) (by first | assumption | exact PtrIn.of_mem (by assumption) | exact PtrIn.null | exact PtrIn.ite_ptr (by assumption) (by assumption)))
    | exact modify_foot (by first | assumption | exact PtrIn.mem_of_eq rfl (by assumption)) (by intro _ hm; obtain ⟨_, _, _, _, _⟩ := hm; refine ⟨?_, ?_, ?_, ?_, ?_⟩ <;> dsimp only <;> (first | assumption | exact PtrIn.of_mem (by assumption) | exact PtrIn.null | exact PtrIn.ite_ptr (by assumption) (by assumption))) (by assumption)
    | exact modifyIf_foot (by first | assumption | exact PtrIn.of_mem (by assumption) | exact PtrIn.null | exact PtrIn.ite_ptr (by assumption) (by assumption)) (by intro _ hm; obtain ⟨_, _, _, _, _⟩ := hm; refine ⟨?_, ?_, ?_, ?_, ?_⟩ <;> dsimp only <;> (first | assumption | exact PtrIn.of_mem (by assumption) | exact PtrIn.null | exact PtrIn.ite_ptr (by assumption) (by assumption))) (by assumption)
    | (refine Post.bind Post.get (fun _ h => ?_)
       first | (obtain ⟨_, _, _, _, _⟩ := Foot.links (by assumption) (by first | assumption | exact PtrIn.mem_of_eq rfl (by assumption)) h) | skip)
    | (refine Post.bind Post.getP ?_
       rintro _ ⟨_, h', h⟩
       have := PtrIn.mem_of_eq h' (by first | assumption | exact PtrIn.of_mem (by assumption) | exact PtrIn.null | exact PtrIn.ite_ptr (by assumption) (by assumption))
       first | (obtain ⟨_, _, _, _, _⟩ := Foot.links (by assumption) (by first | assumption | exact PtrIn.mem_of_eq rfl (by assumption)) h) | skip)
    | (refine Post.bind Post.assertSome (fun _ h => ?_)
       first | have := PtrIn.mem_of_eq h (by first | assumption | exact PtrIn.of_mem (by assumption) | exact PtrIn.null | exact PtrIn.ite_ptr (by assumption) (by assumption)) | skip)
    | (refine Post.bind Post.deref (fun _ h => ?_)
       first | have := PtrIn.mem_of_eq h (by first | assumption | exact PtrIn.of_mem (by assumption) | exact PtrIn.null | exact PtrIn.ite_ptr (by assumption) (by assumption)) | skip)
    | refine Post.bind Post.assert (fun _ _ => ?_)
    | refine Post.bind (modify_foot (by first | assumption | exact PtrIn.mem_of_eq rfl (by assumption)) (by intro _ hm; obtain ⟨_, _, _, _, _⟩ := hm; refine ⟨?_, ?_, ?_, ?_, ?_⟩ <;> dsimp only <;> (first | assumption | exact PtrIn.of_mem (by assumption) | exact PtrIn.null | exact PtrIn.ite_ptr (by assumption) (by assumption))) (by assumption)) (fun _ _ => ?_)
    | refine Post.bind (modifyIf_foot (by first | assumption | exact PtrIn.of_mem (by assumption) | exact PtrIn.null | exact PtrIn.ite_ptr (by assumption) (by assumption)) (by intro _ hm; obtain ⟨_, _, _, _, _⟩ := hm; refine ⟨?_, ?_, ?_, ?_, ?_⟩ <;> dsimp only <;> (first | assumption | exact PtrIn.of_mem (by assumption) | exact PtrIn.null | exact PtrIn.ite_ptr (by assumption) (by assumption))) (by assumption)) (fun _ _ => ?_)
    | refine @Post.bind Space _ _ _ (fun t => Foot l s0 t) _ ?_ (fun _ _ => ?_)
    | exact Post.ok ⟨by assumption, by first | assumption | exact PtrIn.mem_of_eq rfl (by assumption)⟩
    | (refine @Post.bind (Space × Nat) _ _ _ (fun r => Foot l s0 (Prod.fst r) ∧ Prod.snd r ∈ l) _ ?_ ?_
       on_goal 2 => rintro ⟨_, _⟩ ⟨_, _⟩
       on_goal 2 => dsimp only at *)
    | refine Post.bind Post.trivial (fun _ _ => ?_)
    | refine Post.ite (fun _ => ?_) (fun _ => ?_)
    | (split <;> try have := PtrIn.mem_of_eq (by assumption) (by first | assumption | exact PtrIn.of_mem (by assumption) | exact PtrIn.null | exact PtrIn.ite_ptr (by assumption) (by assumption)))
    | dsimp only)

theorem updateLargestHoleUpwards_foot (l : List Nat) (s0 : Space) (fuel : Nat) :
    ∀ (s : Space) (p : Ptr), PtrIn l p → Foot l s0 s →
      Post (updateLargestHoleUpwards fuel s p) (fun t => Foot l s0 t) := by
  induction fuel with
  | zero => intros; exact Post.error
  | succ k ih =>
    intro s p hp h0
    rw [updateLargestHoleUpwards]
    repeat (first
      | exact Post.ok (by assumption)
      | exact Post.error
      | exact Post.ok (Foot.setRoot_foot (by assumption) (by first | assumption | exact PtrIn.of_mem (by assumption) | exact PtrIn.null | exact PtrIn.ite_ptr (by assumption) (by assumption)))
      | exact ih _ _ (PtrIn.of_mem (by assumption)) (by assumption)
      | exact modify_foot (by first | assumption | exact PtrIn.mem_of_eq rfl (by assumption)) (by intro _ hm; obtain ⟨_, _, _, _, _⟩ := hm; refine ⟨?_, ?_, ?_, ?_, ?_⟩ <;> dsimp only <;> (first | assumption | exact PtrIn.of_mem (by assumption) | exact PtrIn.null | exact PtrIn.ite_ptr (by assumption) (by assumption))) (by assumption)
      | exact modifyIf_foot (by first | assumption | exact PtrIn.of_mem (by assumption) | exact PtrIn.null | exact PtrIn.ite_ptr (by assumption) (by assumption)) (by intro _ hm; obtain ⟨_, _, _, _, _⟩ := hm; refine ⟨?_, ?_, ?_, ?_, ?_⟩ <;> dsimp only <;> (first | assumption | exact PtrIn.of_mem (by assumption) | exact PtrIn.null | exact PtrIn.ite_ptr (by assumption) (by assumption))) (by assumption)
      | (refine Post.bind Post.get (fun _ h => ?_)
         first | (obtain ⟨_, _, _, _, _⟩ := Foot.links (by assumption) (by first | assumption | exact PtrIn.mem_of_eq rfl (by assumption)) h) | skip)
      | (refine Post.bind Post.getP ?_
         rintro _ ⟨_, h', h⟩
         have := PtrIn.mem_of_eq h' (by first | assumption | exact PtrIn.of_mem (by assumption) | exact PtrIn.null | exact PtrIn.ite_ptr (by assumption) (by assumption))
         first | (obtain ⟨_, _, _, _, _⟩ := Foot.links (by assumption) (by first | assumption | exact PtrIn.mem_of_eq rfl (by assumption)) h) | skip)
      | (refine Post.bind Post.assertSome (fun _ h => ?_)
         first | have := PtrIn.mem_of_eq h (by first | assumption | exact PtrIn.of_mem (by assumption) | exact PtrIn.null | exact PtrIn.ite_ptr (by assumption) (by assumption)) | skip)
      | (refine Post.bind Post.deref (fun _ h => ?_)
         first | have := PtrIn.mem_of_eq h (by first | assumption | exact PtrIn.of_mem (by assumption) | exact PtrIn.null | exact PtrIn.ite_ptr (by assumption) (by assumption)) | skip)
      | refine Post.bind Post.assert (fun _ _ => ?_)
      | refine Post.bind (modify_foot (by first | assumption | exact PtrIn.mem_of_eq rfl (by assumption)) (by intro _ hm; obtain ⟨_, _, _, _, _⟩ := hm; refine ⟨?_, ?_, ?_, ?_, ?_⟩ <;> dsimp only <;> (first | assumption | exact PtrIn.of_mem (by assumption) | exact PtrIn.null | exact PtrIn.ite_ptr (by assumption) (by assumption))) (by assumption)) (fun _ _ => ?_)
      | refine Post.bind (modifyIf_foot (by first | assumption | exact PtrIn.of_mem (by assumption) | exact PtrIn.null | exact PtrIn.ite_ptr (by assumption) (by assumption)) (by intro _ hm; obtain ⟨_, _, _, _, _⟩ := hm; refine ⟨?_, ?_, ?_, ?_, ?_⟩ <;> dsimp only <;> (first | assumption | exact PtrIn.of_mem (by assumption) | exact PtrIn.null | exact PtrIn.ite_ptr (by assumption) (by assumption))) (by assumption)) (fun _ _ => ?_)
      | (refine Post.bind (updateLargestHoleAt_foot _ _ _ _ (by first | assumption | exact PtrIn.of_mem (by assumption) | exact PtrIn.null | exact PtrIn.ite_ptr (by assumption) (by assumption)) (by assumption)) ?_
         rintro ⟨_, _⟩ _
         dsimp only at *)
      | refine @Post.bind Space _ _ _ (fun t => Foot l s0 t) _ ?_ (fun _ _ => ?_)
      | exact Post.ok ⟨by assumption, by first | assumption | exact PtrIn.mem_of_eq rfl (by assumption)⟩
      | (refine @Post.bind (Space × Nat) _ _ _ (fun r => Foot l s0 (Prod.fst r) ∧ Prod.snd r ∈ l) _ ?_ ?_
         on_goal 2 => rintro ⟨_, _⟩ ⟨_, _⟩
         on_goal 2 => dsimp only at *)
      | refine Post.bind Post.trivial (fun _ _ => ?_)
      | refine Post.ite (fun _ => ?_) (fun _ => ?_)
      | (split <;> try have := PtrIn.mem_of_eq (by assumption) (by first | assumption | exact PtrIn.of_mem (by assumption) | exact PtrIn.null | exact PtrIn.ite_ptr (by assumption) (by assumption)))
      | dsimp only)

theorem replaceChild_foot (l : List Nat) (s0 s : Space) (parent : Ptr) (node : Nat) (child : Ptr)
    (hp : PtrIn l parent) (hc : PtrIn l child) (h0 : Foot l s0 s) :
    Post (replaceChild s parent node child) (fun t => Foot l s0 t) := by
  unfold replaceChild
  repeat (first
    | exact Post.ok (by assumption)
    | exact Post.error
    | exact Post.ok (Foot.setRoot_foot (by assumption) (by first | assumption | exact PtrIn.of_mem (by assumption) | exact PtrIn.null | exact PtrIn.ite_ptr (by assumption) (by assumption)))
    | exact modify_foot (by first | assumption | exact PtrIn.mem_of_eq rfl (by assumption)) (by intro _ hm; obtain ⟨_, _, _, _, _⟩ := hm; refine ⟨?_, ?_, ?_, ?_, ?_⟩ <;> dsimp only <;> (first | assumption | exact PtrIn.of_mem (by assumption) | exact PtrIn.null | exact PtrIn.ite_ptr (by assumption) (by assumption))) (by assumption)
    | exact modifyIf_foot (by first | assumption | exact PtrIn.of_mem (by assumption) | exact PtrIn.null | exact PtrIn.ite_ptr (by assumption) (by assumption)) (by intro _ hm; obtain ⟨_, _, _, _, _⟩ := hm; refine ⟨?_, ?_, ?_, ?_, ?_⟩ <;> dsimp only <;> (first | assumption | exact PtrIn.of_mem (by assumption) | exact PtrIn.null | exact PtrIn.ite_ptr (by assumption) (by assumption))) (by assumption)
    | exact updateLargestHoleUpwards_foot _ _ _ _ _ (by first | assumption | exact PtrIn.of_mem (by assumption) | exact PtrIn.null | exact PtrIn.ite_ptr (by assumption) (by assumption)) (by assumption)
    | (refine Post.bind Post.get (fun _ h => ?_)
       first | (obtain ⟨_, _, _, _, _⟩ := Foot.links (by assumption) (by first | assumption | exact PtrIn.mem_of_eq rfl (by assumption)) h) | skip)
    | (refine Post.bind Post.getP ?_
       rintro _ ⟨_, h', h⟩
       have := PtrIn.mem_of_eq h' (by first | assumption | exact PtrIn.of_mem (by assumption) | exact PtrIn.null | exact PtrIn.ite_ptr (by assumption) (by assumption))
       first | (obtain ⟨_, _, _, _, _⟩ := Foot.links (by assumption) (by first | assumption | exact PtrIn.mem_of_eq rfl (by assumption)) h) | skip)
    | (refine Post.bind Post.assertSome (fun _ h => ?_)
       first | have := PtrIn.mem_of_eq h (by first | assumption | exact PtrIn.of_mem (by assumption) | exact PtrIn.null | exact PtrIn.ite_ptr (by assumption) (by assumption)) | skip)
    | (refine Post.bind Post.deref (fun _ h => ?_)
       first | have := PtrIn.mem_of_eq h (by first | assumption | exact PtrIn.of_mem (by assumption) | exact PtrIn.null | exact PtrIn.ite_ptr (by assumption) (by assumption)) | skip)
    | refine Post.bind Post.assert (fun _ _ => ?_)
    | refine Post.bind (modify_foot (by first | assumption | exact PtrIn.mem_of_eq rfl (by assumption)) (by intro _ hm; obtain ⟨_, _, _, _, _⟩ := hm; refine ⟨?_, ?_, ?_, ?_, ?_⟩ <;> dsimp only <;> (first | assumption | exact PtrIn.of_mem (by assumption) | exact PtrIn.null | exact PtrIn.ite_ptr (by assumption) (by assumption))) (by assumption)) (fun _ _ => ?_)
    | refine Post.bind (modifyIf_foot (by first | assumption | exact PtrIn.of_mem (by assumption) | exact PtrIn.null | exact PtrIn.ite_ptr (by assumption) (by assumption)) (by intro _ hm; obtain ⟨_, _, _, _, _⟩ := hm; refine ⟨?_, ?_, ?_, ?_, ?_⟩ <;> dsimp only <;> (first | assumption | exact PtrIn.of_mem (by assumption) | exact PtrIn.null | exact PtrIn.ite_ptr (by assumption) (by assumption))) (by assumption)) (fun _ _ => ?_)
    | (refine Post.bind (updateLargestHoleAt_foot _ _ _ _ (by first | assumption | exact PtrIn.of_mem (by assumption) | exact PtrIn.null | exact PtrIn.ite_ptr (by assumption) (by assumption)) (by assumption)) ?_
       rintro ⟨_, _⟩ _
       dsimp only at *)
    | refine Post.bind (updateLargestHoleUpwards_foot _ _ _ _ _ (by first | assumption | exact PtrIn.of_mem (by assumption) | exact PtrIn.null | exact PtrIn.ite_ptr (by assumption) (by assumption)) (by assumption)) (fun _ _ => ?_)
    | refine @Post.bind Space _ _ _ (fun t => Foot l s0 t) _ ?_ (fun _ _ => ?_)
    | exact Post.ok ⟨by assumption, by first | assumption | exact PtrIn.mem_of_eq rfl (by assumption)⟩
    | (refine @Post.bind (Space × Nat) _ _ _ (fun r => Foot l s0 (Prod.fst r) ∧ Prod.snd r ∈ l) _ ?_ ?_
       on_goal 2 => rintro ⟨_, _⟩ ⟨_, _⟩
       on_goal 2 => dsimp only at *)
    | refine Post.bind Post.trivial (fun _ _ => ?_)
    | refine Post.ite (fun _ => ?_) (fun _ => ?_)
    | (split <;> try have := PtrIn.mem_of_eq (by assumption) (by first | assumption | exact PtrIn.of_mem (by assumption) | exact PtrIn.null | exact PtrIn.ite_ptr (by assumption) (by assumption)))
    | dsimp only)

theorem rotateLeft_foot (l : List Nat) (s0 s : Space) (n : Nat) (hn : n ∈ l) (h0 : Foot l s0 s) :
    Post (rotateLeft s n) (fun t => Foot l s0 t) := by
  unfold rotateLeft
  repeat (first
    | exact Post.ok (by assumption)
    | exact Post.error
    | exact Post.ok (Foot.setRoot_foot (by assumption) (by first | assumption | exact PtrIn.of_mem (by assumption) | exact PtrIn.null | exact PtrIn.ite_ptr (by assumption) (by assumption)))
    | exact modify_foot (by first | assumption | exact PtrIn.mem_of_eq rfl (by assumption)) (by intro _ hm; obtain ⟨_, _, _, _, _⟩ := hm; refine ⟨?_, ?_, ?_, ?_, ?_⟩ <;> dsimp only <;> (first | assumption | exact PtrIn.of_mem (by assumption) | exact PtrIn.null | exact PtrIn.ite_ptr (by assumption) (by assumption))) (by assumption)
    | exact modifyIf_foot (by first | assumption | exact PtrIn.of_mem (by assumption) | exact PtrIn.null | exact PtrIn.ite_ptr (by assumption) (by assumption)) (by intro _ hm; obtain ⟨_, _, _, _, _⟩ := hm; refine ⟨?_, ?_, ?_, ?_, ?_⟩ <;> dsimp only <;> (first | assumption | exact PtrIn.of_mem (by assumption) | exact PtrIn.null | exact PtrIn.ite_ptr (by assumption) (by assumption))) (by assumption)
    | exact updateLargestHoleUpwards_foot _ _ _ _ _ (by first | assumption | exact PtrIn.of_mem (by assumption) | exact PtrIn.null | exact PtrIn.ite_ptr (by assumption) (by assumption)) (by assumption)
    | exact replaceChild_foot _ _ _ _ _ _ (by first | assumption | exact PtrIn.of_mem (by assumption) | exact PtrIn.null | exact PtrIn.ite_ptr (by assumption) (by assumption)) (by first | assumption | exact PtrIn.of_mem (by assumption) | exact PtrIn.null | exact PtrIn.ite_ptr (by assumption) (by assumption)) (by assumption)
    | (refine Post.bind Post.get (fun _ h => ?_)
       first | (obtain ⟨_, _, _, _, _⟩ := Foot.links (by assumption) (by first | assumption | exact PtrIn.mem_of_eq rfl (by assumption)) h) | skip)
    | (refine Post.bind Post.getP ?_
       rintro _ ⟨_, h', h⟩
       have := PtrIn.mem_of_eq h' (by first | assumption | exact PtrIn.of_mem (by assumption) | exact PtrIn.null | exact PtrIn.ite_ptr (by assumption) (by assumption))
       first | (obtain ⟨_, _, _, _, _⟩ := Foot.links (by assumption) (by first | assumption | exact PtrIn.mem_of_eq rfl (by assumption)) h) | skip)
    | (refine Post.bind Post.assertSome (fun _ h => ?_)
       first | have := PtrIn.mem_of_eq h (by first | assumption | exact PtrIn.of_mem (by assumption) | exact PtrIn.null | exact PtrIn.ite_ptr (by assumption) (by assumption)) | skip)
    | (refine Post.bind Post.deref (fun _ h => ?_)
       first | have := PtrIn.mem_of_eq h (by first | assumption | exact PtrIn.of_mem (by assumption) | exact PtrIn.null | exact PtrIn.ite_ptr (by assumption) (by assumption)) | skip)
    | refine Post.bind Post.assert (fun _ _ => ?_)
    | refine Post.bind (modify_foot (by first | assumption | exact PtrIn.mem_of_eq rfl (by assumption)) (by intro _ hm; obtain ⟨_, _, _, _, _⟩ := hm; refine ⟨?_, ?_, ?_, ?_, ?_⟩ <;> dsimp only <;> (first | assumption | exact PtrIn.of_mem (by assumption) | exact PtrIn.null | exact PtrIn.ite_ptr (by assumption) (by assumption))) (by assumption)) (fun _ _ => ?_)
    | refine Post.bind (modifyIf_foot (by first | assumption | exact PtrIn.of_mem (by assumption) | exact PtrIn.null | exact PtrIn.ite_ptr (by assumption) (by assumption)) (by intro _ hm; obtain ⟨_, _, _, _, _⟩ := hm; refine ⟨?_, ?_, ?_, ?_, ?_⟩ <;> dsimp only <;> (first | assumption | exact PtrIn.of_mem (by assumption) | exact PtrIn.null | exact PtrIn.ite_ptr (by assumption) (by assumption))) (by assumption)) (fun _ _ => ?_)
    | (refine Post.bind (updateLargestHoleAt_foot _ _ _ _ (by first | assumption | exact PtrIn.of_mem (by assumption) | exact PtrIn.null | exact PtrIn.ite_ptr (by assumption) (by assumption)) (by assumption)) ?_
       rintro ⟨_, _⟩ _
       dsimp only at *)
    | refine Post.bind (updateLargestHoleUpwards_foot _ _ _ _ _ (by first | assumption | exact PtrIn.of_mem (by assumption) | exact PtrIn.null | exact PtrIn.ite_ptr (by assumption) (by assumption)) (by assumption)) (fun _ _ => ?_)
    | refine Post.bind (replaceChild_foot _ _ _ _ _ _ (by first | assumption | exact PtrIn.of_mem (by assumption) | exact PtrIn.null | exact PtrIn.ite_ptr (by assumption) (by assumption)) (by first | assumption | exact PtrIn.of_mem (by assumption) | exact PtrIn.null | exact PtrIn.ite_ptr (by assumption) (by assumption)) (by assumption)) (fun _ _ => ?_)
    | refine @Post.bind Space _ _ _ (fun t => Foot l s0 t) _ ?_ (fun _ _ => ?_)
    | exact Post.ok ⟨by assumption, by first | assumption | exact PtrIn.mem_of_eq rfl (by assumption)⟩
    | (refine @Post.bind (Space × Nat) _ _ _ (fun r => Foot l s0 (Prod.fst r) ∧ Prod.snd r ∈ l) _ ?_ ?_
       on_goal 2 => rintro ⟨_, _⟩ ⟨_, _⟩
       on_goal 2 => dsimp only at *)
    | refine Post.bind Post.trivial (fun _ _ => ?_)
    | refine Post.ite (fun _ => ?_) (fun _ => ?_)
    | (split <;> try have := PtrIn.mem_of_eq (by assumption) (by first | assumption | exact PtrIn.of_mem (by assumption) | exact PtrIn.null | exact PtrIn.ite_ptr (by assumption) (by assumption)))
    | dsimp only)

theorem rotateRight_foot (l : List Nat) (s0 s : Space) (n : Nat) (hn : n ∈ l) (h0 : Foot l s0 s) :
    Post (rotateRight s n) (fun t => Foot l s0 t) := by
  unfold rotateRight
  repeat (first
    | exact Post.ok (by assumption)
    | exact Post.error
    | exact Post.ok (Foot.setRoot_foot (by assumption) (by first | assumption | exact PtrIn.of_mem (by assumption) | exact PtrIn.null | exact PtrIn.ite_ptr (by assumption) (by assumption)))
    | exact modify_foot (by first | assumption | exact PtrIn.mem_of_eq rfl (by assumption)) (by intro _ hm; obtain ⟨_, _, _, _, _⟩ := hm; refine ⟨?_, ?_, ?_, ?_, ?_⟩ <;> dsimp only <;> (first | assumption | exact PtrIn.of_mem (by assumption) | exact PtrIn.null | exact PtrIn.ite_ptr (by assumption) (by assumption))) (by assumption)
    | exact modifyIf_foot (by first | assumption | exact PtrIn.of_mem (by assumption) | exact PtrIn.null | exact PtrIn.ite_ptr (by assumption) (by assumption)) (by intro _ hm; obtain ⟨_, _, _, _, _⟩ := hm; refine ⟨?_, ?_, ?_, ?_, ?_⟩ <;> dsimp only <;> (first | assumption | exact PtrIn.of_mem (by assumption) | exact PtrIn.null | exact PtrIn.ite_ptr (by assumption) (by assumption))) (by assumption)
    | exact updateLargestHoleUpwards_foot _ _ _ _ _ (by first | assumption | exact PtrIn.of_mem (by assumption) | exact PtrIn.null | exact PtrIn.ite_ptr (by assumption) (by assumption)) (by assumption)
    | exact replaceChild_foot _ _ _ _ _ _ (by first | assumption | exact PtrIn.of_mem (by assumption) | exact PtrIn.null | exact PtrIn.ite_ptr (by assumption) (by assumption)) (by first | assumption | exact PtrIn.of_mem (by assumption) | exact PtrIn.null | exact PtrIn.ite_ptr (by assumption) (by assumption)) (by assumption)
    | exact rotateLeft_foot _ _ _ _ (by assumption) (by assumption)
    | (refine Post.bind Post.get (fun _ h => ?_)
       first | (obtain ⟨_, _, _, _, _⟩ := Foot.links (by assumption) (by first | assumption | exact PtrIn.mem_of_eq rfl (by assumption)) h) | skip)
    | (refine Post.bind Post.getP ?_
       rintro _ ⟨_, h', h⟩
       have := PtrIn.mem_of_eq h' (by first | assumption | exact PtrIn.of_mem (by assumption) | exact PtrIn.null | exact PtrIn.ite_ptr (by assumption) (by assumption))
       first | (obtain ⟨_, _, _, _, _⟩ := Foot.links (by assumption) (by first | assumption | exact PtrIn.mem_of_eq rfl (by assumption)) h) | skip)
    | (refine Post.bind Post.assertSome (fun _ h => ?_)
       first | have := PtrIn.mem_of_eq h (by first | assumption | exact PtrIn.of_mem (by assumption) | exact PtrIn.null | exact PtrIn.ite_ptr (by assumption) (by assumption)) | skip)
    | (refine Post.bind Post.deref (fun _ h => ?_)
       first | have := PtrIn.mem_of_eq h (by first | assumption | exact PtrIn.of_mem (by assumption) | exact PtrIn.null | exact PtrIn.ite_ptr (by assumption) (by assumption)) | skip)
    | refine Post.bind Post.assert (fun _ _ => ?_)
    | refine Post.bind (modify_foot (by first | assumption | exact PtrIn.mem_of_eq rfl (by assumption)) (by intro _ hm; obtain ⟨_, _, _, _, _⟩ := hm; refine ⟨?_, ?_, ?_, ?_, ?_⟩ <;> dsimp only <;> (first | assumption | exact PtrIn.of_mem (by assumption) | exact PtrIn.null | exact PtrIn.ite_ptr (by assumption) (by assumption))) (by assumption)) (fun _ _ => ?_)
    | refine Post.bind (modifyIf_foot (by first | assumption | exact PtrIn.of_mem (by assumption) | exact PtrIn.null | exact PtrIn.ite_ptr (by assumption) (by assumption)) (by intro _ hm; obtain ⟨_, _, _, _, _⟩ := hm; refine ⟨?_, ?_, ?_, ?_, ?_⟩ <;> dsimp only <;> (first | assumption | exact PtrIn.of_mem (by assumption) | exact PtrIn.null | exact PtrIn.ite_ptr (by assumption) (by assumption))) (by assumption)) (fun _ _ => ?_)
    | (refine Post.bind (updateLargestHoleAt_foot _ _ _ _ (by first | assumption | exact PtrIn.of_mem (by assumption) | exact PtrIn.null | exact PtrIn.ite_ptr (by assumption) (by assumption)) (by assumption)) ?_
       rintro ⟨_, _⟩ _
       dsimp only at *)
    | refine Post.bind (updateLargestHoleUpwards_foot _ _ _ _ _ (by first | assumption | exact PtrIn.of_mem (by assumption) | exact PtrIn.null | exact PtrIn.ite_ptr (by assumption) (by assumption)) (by assumption)) (fun _ _ => ?_)
    | refine Post.bind (replaceChild_foot _ _ _ _ _ _ (by first | assumption | exact PtrIn.of_mem (by assumption) | exact PtrIn.null | exact PtrIn.ite_ptr (by assumption) (by assumption)) (by first | assumption | exact PtrIn.of_mem (by assumption) | exact PtrIn.null | exact PtrIn.ite_ptr (by assumption) (by assumption)) (by assumption)) (fun _ _ => ?_)
    | refine Post.bind (rotateLeft_foot _ _ _ _ (by assumption) (by assumption)) (fun _ _ => ?_)
    | refine @Post.bind Space _ _ _ (fun t => Foot l s0 t) _ ?_ (fun _ _ => ?_)
    | exact Post.ok ⟨by assumption, by first | assumption | exact PtrIn.mem_of_eq rfl (by assumption)⟩
    | (refine @Post.bind (Space × Nat) _ _ _ (fun r => Foot l s0 (Prod.fst r) ∧ Prod.snd r ∈ l) _ ?_ ?_
       on_goal 2 => rintro ⟨_, _⟩ ⟨_, _⟩
       on_goal 2 => dsimp only at *)
    | refine Post.bind Post.trivial (fun _ _ => ?_)
    | refine Post.ite (fun _ => ?_) (fun _ => ?_)
    | (split <;> try have := PtrIn.mem_of_eq (by assumption) (by first | assumption | exact PtrIn.of_mem (by assumption) | exact PtrIn.null | exact PtrIn.ite_ptr (by assumption) (by assumption)))
    | dsimp only)

set_option maxRecDepth 100000 in
set_option maxHeartbeats 4000000 in
theorem fixAfterInsert_foot (l : List Nat) (s0 : Space) (fuel : Nat) :
    ∀ (s : Space) (n : Nat), n ∈ l → Foot l s0 s →
      Post (fixAfterInsert fuel s n) (fun t => Foot l s0 t) := by
  induction fuel with
  | zero => intros; exact Post.error
  | succ k ih =>
    intro s n hn h0
    rw [fixAfterInsert]
    repeat (first
      | exact Post.ok (by assumption)
      | exact Post.error
      | exact Post.ok (Foot.setRoot_foot (by assumption) (by first | assumption | exact PtrIn.of_mem (by assumption) | exact PtrIn.null | exact PtrIn.ite_ptr (by assumption) (by assumption)))
      | exact ih _ _ (by assumption) (by assumption)
      | exact modify_foot (by first | assumption | exact PtrIn.mem_of_eq rfl (by assumption)) (by intro _ hm; obtain ⟨_, _, _, _, _⟩ := hm; refine ⟨?_, ?_, ?_, ?_, ?_⟩ <;> dsimp only <;> (first | assumption | exact PtrIn.of_mem (by assumption) | exact PtrIn.null | exact PtrIn.ite_ptr (by assumption) (by assumption))) (by assumption)
      | exact modifyIf_foot (by first | assumption | exact PtrIn.of_mem (by assumption) | exact PtrIn.null | exact PtrIn.ite_ptr (by assumption) (by assumption)) (by intro _ hm; obtain ⟨_, _, _, _, _⟩ := hm; refine ⟨?_, ?_, ?_, ?_, ?_⟩ <;> dsimp only <;> (first | assumption | exact PtrIn.of_mem (by assumption) | exact PtrIn.null | exact PtrIn.ite_ptr (by assumption) (by assumption))) (by assumption)
      | exact updateLargestHoleUpwards_foot _ _ _ _ _ (by first | assumption | exact PtrIn.of_mem (by assumption) | exact PtrIn.null | exact PtrIn.ite_ptr (by assumption) (by assumption)) (by assumption)
      | exact replaceChild_foot _ _ _ _ _ _ (by first | assumption | exact PtrIn.of_mem (by assumption) | exact PtrIn.null | exact PtrIn.ite_ptr (by assumption) (by assumption)) (by first | assumption | exact PtrIn.of_mem (by assumption) | exact PtrIn.null | exact PtrIn.ite_ptr (by assumption) (by assumption)) (by assumption)
      | exact rotateLeft_foot _ _ _ _ (by assumption) (by assumption)
      | exact rotateRight_foot _ _ _ _ (by assumption) (by assumption)
      | (refine Post.bind Post.get (fun _ h => ?_)
         first | (obtain ⟨_, _, _, _, _⟩ := Foot.links (by assumption) (by first | assumption | exact PtrIn.mem_of_eq rfl (by assumption)) h) | skip)
      | (refine Post.bind Post.getP ?_
         rintro _ ⟨_, h', h⟩
         have := PtrIn.mem_of_eq h' (by first | assumption | exact PtrIn.of_mem (by assumption) | exact PtrIn.null | exact PtrIn.ite_ptr (by assumption) (by assumption))
         first | (obtain ⟨_, _, _, _, _⟩ := Foot.links (by assumption) (by first | assumption | exact PtrIn.mem_of_eq rfl (by assumption)) h) | skip)
      | (refine Post.bind Post.assertSome (fun _ h => ?_)
         first | have := PtrIn.mem_of_eq h (by first | assumption | exact PtrIn.of_mem (by assumption) | exact PtrIn.null | exact PtrIn.ite_ptr (by assumption) (by assumption)) | skip)
      | (refine Post.bind Post.deref (fun _ h => ?_)
         first | have := PtrIn.mem_of_eq h (by first | assumption | exact PtrIn.of_mem (by assumption) | exact PtrIn.null | exact PtrIn.ite_ptr (by assumption) (by assumption)) | skip)
      | refine Post.bind Post.assert (fun _ _ => ?_)
      | refine Post.bind (modify_foot (by first | assumption | exact PtrIn.mem_of_eq rfl (by assumption)) (by intro _ hm; obtain ⟨_, _, _, _, _⟩ := hm; refine ⟨?_, ?_, ?_, ?_, ?_⟩ <;> dsimp only <;> (first | assumption | exact PtrIn.of_mem (by assumption) | exact PtrIn.null | exact PtrIn.ite_ptr (by assumption) (by assumption))) (by assumption)) (fun _ _ => ?_)
      | refine Post.bind (modifyIf_foot (by first | assumption | exact PtrIn.of_mem (by assumption) | exact PtrIn.null | exact PtrIn.ite_ptr (by assumption) (by assumption)) (by intro _ hm; obtain ⟨_, _, _, _, _⟩ := hm; refine ⟨?_, ?_, ?_, ?_, ?_⟩ <;> dsimp only <;> (first | assumption | exact PtrIn.of_mem (by assumption) | exact PtrIn.null | exact PtrIn.ite_ptr (by assumption) (by assumption))) (by assumption)) (fun _ _ => ?_)
      | (refine Post.bind (updateLargestHoleAt_foot _ _ _ _ (by first | assumption | exact PtrIn.of_mem (by assumption) | exact PtrIn.null | exact PtrIn.ite_ptr (by assumption) (by assumption)) (by assumption)) ?_
         rintro ⟨_, _⟩ _
         dsimp only at *)
      | refine Post.bind (updateLargestHoleUpwards_foot _ _ _ _ _ (by first | assumption | exact PtrIn.of_mem (by assumption) | exact PtrIn.null | exact PtrIn.ite_ptr (by assumption) (by assumption)) (by assumption)) (fun _ _ => ?_)
      | refine Post.bind (replaceChild_foot _ _ _ _ _ _ (by first | assumption | exact PtrIn.of_mem (by assumption) | exact PtrIn.null | exact PtrIn.ite_ptr (by assumption) (by assumption)) (by first | assumption | exact PtrIn.of_mem (by assumption) | exact PtrIn.null | exact PtrIn.ite_ptr (by assumption) (by assumption)) (by assumption)) (fun _ _ => ?_)
      | refine Post.bind (rotateLeft_foot _ _ _ _ (by assumption) (by assumption)) (fun _ _ => ?_)
      | refine Post.bind (rotateRight_foot _ _ _ _ (by assumption) (by assumption)) (fun _ _ => ?_)
      | refine @Post.bind Space _ _ _ (fun t => Foot l s0 t) _ ?_ (fun _ _ => ?_)
      | exact Post.ok ⟨by assumption, by first | assumption | exact PtrIn.mem_of_eq rfl (by assumption)⟩
      | (refine @Post.bind (Space × Nat) _ _ _ (fun r => Foot l s0 (Prod.fst r) ∧ Prod.snd r ∈ l) _ ?_ ?_
         on_goal 2 => rintro ⟨_, _⟩ ⟨_, _⟩
         on_goal 2 => dsimp only at *)
      | refine Post.bind Post.trivial (fun _ _ => ?_)
      | refine Post.ite (fun _ => ?_) (fun _ => ?_)
      | (split <;> try have := PtrIn.mem_of_eq (by assumption) (by first | assumption | exact PtrIn.of_mem (by assumption) | exact PtrIn.null | exact PtrIn.ite_ptr (by assumption) (by assumption)))
      | dsimp only)

set_option maxRecDepth 100000 in
set_option maxHeartbeats 4000000 in
theorem insertLoop_foot (l : List Nat) (s0 : Space) (full fuel : Nat) :
    ∀ (s : Space) (mapping current : Nat), mapping ∈ l → current ∈ l → Foot l s0 s →
      Post (insertLoop full fuel s mapping current) (fun t => Foot l s0 t) := by
  induction fuel with
  | zero => intros; exact Post.error
  | succ k ih =>
    intro s mapping current hm hc h0
    rw [insertLoop]
    repeat (first
      | exact Post.ok (by assumption)
      | exact Post.error
      | exact Post.ok (Foot.setRoot_foot (by assumption) (by first | assumption | exact PtrIn.of_mem (by assumption) | exact PtrIn.null | exact PtrIn.ite_ptr (by assumption) (by assumption)))
      | exact ih _ _ _ (by assumption) (by assumption) (by assumption)
      | exact modify_foot (by first | assumption | exact PtrIn.mem_of_eq rfl (by assumption)) (by intro _ hm; obtain ⟨_, _, _, _, _⟩ := hm; refine ⟨?_, ?_, ?_, ?_, ?_⟩ <;> dsimp only <;> (first | assumption | exact PtrIn.of_mem (by assumption) | exact PtrIn.null | exact PtrIn.ite_ptr (by assumption) (by assumption))) (by assumption)
      | exact modifyIf_foot (by first | assumption | exact PtrIn.of_mem (by assumption) | exact PtrIn.null | exact PtrIn.ite_ptr (by assumption) (by assumption)) (by intro _ hm; obtain ⟨_, _, _, _, _⟩ := hm; refine ⟨?_, ?_, ?_, ?_, ?_⟩ <;> dsimp only <;> (first | assumption | exact PtrIn.of_mem (by assumption) | exact PtrIn.null | exact PtrIn.ite_ptr (by assumption) (by assumption))) (by assumption)
      | exact updateLargestHoleUpwards_foot _ _ _ _ _ (by first | assumption | exact PtrIn.of_mem (by assumption) | exact PtrIn.null | exact PtrIn.ite_ptr (by assumption) (by assumption)) (by assumption)
      | exact replaceChild_foot _ _ _ _ _ _ (by first | assumption | exact PtrIn.of_mem (by assumption) | exact PtrIn.null | exact PtrIn.ite_ptr (by assumption) (by assumption)) (by first | assumption | exact PtrIn.of_mem (by assumption) | exact PtrIn.null | exact PtrIn.ite_ptr (by assumption) (by assumption)) (by assumption)
      | exact rotateLeft_foot _ _ _ _ (by assumption) (by assumption)
      | exact rotateRight_foot _ _ _ _ (by assumption) (by assumption)
      | exact fixAfterInsert_foot _ _ _ _ _ (by assumption) (by assumption)
      | (refine Post.bind Post.get (fun _ h => ?_)
         first | (obtain ⟨_, _, _, _, _⟩ := Foot.links (by assumption) (by first | assumption | exact PtrIn.mem_of_eq rfl (by assumption)) h) | skip)
      | (refine Post.bind Post.getP ?_
         rintro _ ⟨_, h', h⟩
         have := PtrIn.mem_of_eq h' (by first | assumption | exact PtrIn.of_mem (by assumption) | exact PtrIn.null | exact PtrIn.ite_ptr (by assumption) (by assumption))
         first | (obtain ⟨_, _, _, _, _⟩ := Foot.links (by assumption) (by first | assumption | exact PtrIn.mem_of_eq rfl (by assumption)) h) | skip)
      | (refine Post.bind Post.assertSome (fun _ h => ?_)
         first | have := PtrIn.mem_of_eq h (by first | assumption | exact PtrIn.of_mem (by assumption) | exact PtrIn.null | exact PtrIn.ite_ptr (by assumption) (by assumption)) | skip)
      | (refine Post.bind Post.deref (fun _ h => ?_)
         first | have := PtrIn.mem_of_eq h (by first | assumption | exact PtrIn.of_mem (by assumption) | exact PtrIn.null | exact PtrIn.ite_ptr (by assumption) (by assumption)) | skip)
      | refine Post.bind Post.assert (fun _ _ => ?_)
      | refine Post.bind (modify_foot (by first | assumption | exact PtrIn.mem_of_eq rfl (by assumption)) (by intro _ hm; obtain ⟨_, _, _, _, _⟩ := hm; refine ⟨?_, ?_, ?_, ?_, ?_⟩ <;> dsimp only <;> (first | assumption | exact PtrIn.of_mem (by assumption) | exact PtrIn.null | exact PtrIn.ite_ptr (by assumption) (by assumption))) (by assumption)) (fun _ _ => ?_)
      | refine Post.bind (modifyIf_foot (by first | assumption | exact PtrIn.of_mem (by assumption) | exact PtrIn.null | exact PtrIn.ite_ptr (by assumption) (by assumption)) (by intro _ hm; obtain ⟨_, _, _, _, _⟩ := hm; refine ⟨?_, ?_, ?_, ?_, ?_⟩ <;> dsimp only <;> (first | assumption | exact PtrIn.of_mem (by assumption) | exact PtrIn.null | exact PtrIn.ite_ptr (by assumption) (by assumption))) (by assumption)) (fun _ _ => ?_)
      | (refine Post.bind (updateLargestHoleAt_foot _ _ _ _ (by first | assumption | exact PtrIn.of_mem (by assumption) | exact PtrIn.null | exact PtrIn.ite_ptr (by assumption) (by assumption)) (by assumption)) ?_
         rintro ⟨_, _⟩ _
         dsimp only at *)
      | refine Post.bind (updateLargestHoleUpwards_foot _ _ _ _ _ (by first | assumption | exact PtrIn.of_mem (by assumption) | exact PtrIn.null | exact PtrIn.ite_ptr (by assumption) (by assumption)) (by assumption)) (fun _ _ => ?_)
      | refine Post.bind (replaceChild_foot _ _ _ _ _ _ (by first | assumption | exact PtrIn.of_mem (by assumption) | exact PtrIn.null | exact PtrIn.ite_ptr (by assumption) (by assumption)) (by first | assumption | exact PtrIn.of_mem (by assumption) | exact PtrIn.null | exact PtrIn.ite_ptr (by assumption) (by assumption)) (by assumption)) (fun _ _ => ?_)
      | refine Post.bind (rotateLeft_foot _ _ _ _ (by assumption) (by assumption)) (fun _ _ => ?_)
      | refine Post.bind (rotateRight_foot _ _ _ _ (by assumption) (by assumption)) (fun _ _ => ?_)
      | refine Post.bind (fixAfterInsert_foot _ _ _ _ _ (by assumption) (by assumption)) (fun _ _ => ?_)
      | refine @Post.bind Space _ _ _ (fun t => Foot l s0 t) _ ?_ (fun _ _ => ?_)
      | exact Post.ok ⟨by assumption, by first | assumption | exact PtrIn.mem_of_eq rfl (by assumption)⟩
      | (refine @Post.bind (Space × Nat) _ _ _ (fun r => Foot l s0 (Prod.fst r) ∧ Prod.snd r ∈ l) _ ?_ ?_
         on_goal 2 => rintro ⟨_, _⟩ ⟨_, _⟩
         on_goal 2 => dsimp only at *)
      | refine Post.bind Post.trivial (fun _ _ => ?_)
      | refine Post.ite (fun _ => ?_) (fun _ => ?_)
      | (split <;> try have := PtrIn.mem_of_eq (by assumption) (by first | assumption | exact PtrIn.of_mem (by assumption) | exact PtrIn.null | exact PtrIn.ite_ptr (by assumption) (by assumption)))
      | dsimp only)

theorem addressTreeInsert_foot (l : List Nat) (s0 : Space) (fuel : Nat) (s : Space)
    (mapping : Nat) (hm : mapping ∈ l) (h0 : Foot l s0 s) :
    Post (addressTreeInsert fuel s mapping) (fun t => Foot l s0 t) := by
  unfold addressTreeInsert
  refine Post.bind Post.trivial (fun _ _ => ?_)
  split
  · have := Foot.setRoot_foot h0 (PtrIn.of_mem hm)
    repeat (first
      | exact Post.ok (by assumption)
      | exact Post.error
      | exact Post.ok (Foot.setRoot_foot (by assumption) (by first | assumption | exact PtrIn.of_mem (by assumption) | exact PtrIn.null | exact PtrIn.ite_ptr (by assumption) (by assumption)))
      | exact modify_foot (by first | assumption | exact PtrIn.mem_of_eq rfl (by assumption)) (by intro _ hm; obtain ⟨_, _, _, _, _⟩ := hm; refine ⟨?_, ?_, ?_, ?_, ?_⟩ <;> dsimp only <;> (first | assumption | exact PtrIn.of_mem (by assumption) | exact PtrIn.null | exact PtrIn.ite_ptr (by assumption) (by assumption))) (by assumption)
      | exact modifyIf_foot (by first | assumption | exact PtrIn.of_mem (by assumption) | exact PtrIn.null | exact PtrIn.ite_ptr (by assumption) (by assumption)) (by intro _ hm; obtain ⟨_, _, _, _, _⟩ := hm; refine ⟨?_, ?_, ?_, ?_, ?_⟩ <;> dsimp only <;> (first | assumption | exact PtrIn.of_mem (by assumption) | exact PtrIn.null | exact PtrIn.ite_ptr (by assumption) (by assumption))) (by assumption)
      | exact updateLargestHoleUpwards_foot _ _ _ _ _ (by first | assumption | exact PtrIn.of_mem (by assumption) | exact PtrIn.null | exact PtrIn.ite_ptr (by assumption) (by assumption)) (by assumption)
      | exact replaceChild_foot _ _ _ _ _ _ (by first | assumption | exact PtrIn.of_mem (by assumption) | exact PtrIn.null | exact PtrIn.ite_ptr (by assumption) (by assumption)) (by first | assumption | exact PtrIn.of_mem (by assumption) | exact PtrIn.null | exact PtrIn.ite_ptr (by assumption) (by assumption)) (by assumption)
      | exact rotateLeft_foot _ _ _ _ (by assumption) (by assumption)
      | exact rotateRight_foot _ _ _ _ (by assumption) (by assumption)
      | exact fixAfterInsert_foot _ _ _ _ _ (by assumption) (by assumption)
      | exact insertLoop_foot _ _ _ _ _ _ _ (by assumption) (by assumption) (by assumption)
      | (refine Post.bind Post.get (fun _ h => ?_)
         first | (obtain ⟨_, _, _, _, _⟩ := Foot.links (by assumption) (by first | assumption | exact PtrIn.mem_of_eq rfl (by assumption)) h) | skip)
      | (refine Post.bind Post.getP ?_
         rintro _ ⟨_, h', h⟩
         have := PtrIn.mem_of_eq h' (by first | assumption | exact PtrIn.of_mem (by assumption) | exact PtrIn.null | exact PtrIn.ite_ptr (by assumption) (by assumption))
         first | (obtain ⟨_, _, _, _, _⟩ := Foot.links (by assumption) (by first | assumption | exact PtrIn.mem_of_eq rfl (by assumption)) h) | skip)
      | (refine Post.bind Post.assertSome (fun _ h => ?_)
         first | have := PtrIn.mem_of_eq h (by first | assumption | exact PtrIn.of_mem (by assumption) | exact PtrIn.null | exact PtrIn.ite_ptr (by assumption) (by assumption)) | skip)
      | (refine Post.bind Post.deref (fun _ h => ?_)
         first | have := PtrIn.mem_of_eq h (by first | assumption | exact PtrIn.of_mem (by assumption) | exact PtrIn.null | exact PtrIn.ite_ptr (by assumption) (by assumption)) | skip)
      | refine Post.bind Post.assert (fun _ _ => ?_)
      | refine Post.bind (modify_foot (by first | assumption | exact PtrIn.mem_of_eq rfl (by assumption)) (by intro _ hm; obtain ⟨_, _, _, _, _⟩ := hm; refine ⟨?_, ?_, ?_, ?_, ?_⟩ <;> dsimp only <;> (first | assumption | exact PtrIn.of_mem (by assumption) | exact PtrIn.null | exact PtrIn.ite_ptr (by assumption) (by assumption))) (by assumption)) (fun _ _ => ?_)
      | refine Post.bind (modifyIf_foot (by first | assumption | exact PtrIn.of_mem (by assumption) | exact PtrIn.null | exact PtrIn.ite_ptr (by assumption) (by assumption)) (by intro _ hm; obtain ⟨_, _, _, _, _⟩ := hm; refine ⟨?_, ?_, ?_, ?_, ?_⟩ <;> dsimp only <;> (first | assumption | exact PtrIn.of_mem (by assumption) | exact PtrIn.null | exact PtrIn.ite_ptr (by assumption) (by assumption))) (by assumption)) (fun _ _ => ?_)
      | (refine Post.bind (updateLargestHoleAt_foot _ _ _ _ (by first | assumption | exact PtrIn.of_mem (by assumption) | exact PtrIn.null | exact PtrIn.ite_ptr (by assumption) (by assumption)) (by assumption)) ?_
         rintro ⟨_, _⟩ _
         dsimp only at *)
      | refine Post.bind (updateLargestHoleUpwards_foot _ _ _ _ _ (by first | assumption | exact PtrIn.of_mem (by assumption) | exact PtrIn.null | exact PtrIn.ite_ptr (by assumption) (by assumption)) (by assumption)) (fun _ _ => ?_)
      | refine Post.bind (replaceChild_foot _ _ _ _ _ _ (by first | assumption | exact PtrIn.of_mem (by assumption) | exact PtrIn.null | exact PtrIn.ite_ptr (by assumption) (by assumption)) (by first | assumption | exact PtrIn.of_mem (by assumption) | exact PtrIn.null | exact PtrIn.ite_ptr (by assumption) (by assumption)) (by assumption)) (fun _ _ => ?_)
      | refine Post.bind (rotateLeft_foot _ _ _ _ (by assumption) (by assumption)) (fun _ _ => ?_)
      | refine Post.bind (rotateRight_foot _ _ _ _ (by assumption) (by assumption)) (fun _ _ => ?_)
      | refine Post.bind (fixAfterInsert_foot _ _ _ _ _ (by assumption) (by assumption)) (fun _ _ => ?_)
      | refine Post.bind (insertLoop_foot _ _ _ _ _ _ _ (by assumption) (by assumption) (by assumption)) (fun _ _ => ?_)
      | refine @Post.bind Space _ _ _ (fun t => Foot l s0 t) _ ?_ (fun _ _ => ?_)
      | exact Post.ok ⟨by assumption, by first | assumption | exact PtrIn.mem_of_eq rfl (by assumption)⟩
      | (refine @Post.bind (Space × Nat) _ _ _ (fun r => Foot l s0 (Prod.fst r) ∧ Prod.snd r ∈ l) _ ?_ ?_
         on_goal 2 => rintro ⟨_, _⟩ ⟨_, _⟩
         on_goal 2 => dsimp only at *)
      | refine Post.bind Post.trivial (fun _ _ => ?_)
      | refine Post.ite (fun _ => ?_) (fun _ => ?_)
      | (split <;> try have := PtrIn.mem_of_eq (by assumption) (by first | assumption | exact PtrIn.of_mem (by assumption) | exact PtrIn.null | exact PtrIn.ite_ptr (by assumption) (by assumption)))
      | dsimp only)
  · have := PtrIn.mem_of_eq (by assumption) h0.1
    repeat (first
      | exact Post.ok (by assumption)
      | exact Post.error
      | exact Post.ok (Foot.setRoot_foot (by assumption) (by first | assumption | exact PtrIn.of_mem (by assumption) | exact PtrIn.null | exact PtrIn.ite_ptr (by assumption) (by assumption)))
      | exact modify_foot (by first | assumption | exact PtrIn.mem_of_eq rfl (by assumption)) (by intro _ hm; obtain ⟨_, _, _, _, _⟩ := hm; refine ⟨?_, ?_, ?_, ?_, ?_⟩ <;> dsimp only <;> (first | assumption | exact PtrIn.of_mem (by assumption) | exact PtrIn.null | exact PtrIn.ite_ptr (by assumption) (by assumption))) (by assumption)
      | exact modifyIf_foot (by first | assumption | exact PtrIn.of_mem (by assumption) | exact PtrIn.null | exact PtrIn.ite_ptr (by assumption) (by assumption)) (by intro _ hm; obtain ⟨_, _, _, _, _⟩ := hm; refine ⟨?_, ?_, ?_, ?_, ?_⟩ <;> dsimp only <;> (first | assumption | exact PtrIn.of_mem (by assumption) | exact PtrIn.null | exact PtrIn.ite_ptr (by assumption) (by assumption))) (by assumption)
      | exact updateLargestHoleUpwards_foot _ _ _ _ _ (by first | assumption | exact PtrIn.of_mem (by assumption) | exact PtrIn.null | exact PtrIn.ite_ptr (by assumption) (by assumption)) (by assumption)
      | exact replaceChild_foot _ _ _ _ _ _ (by first | assumption | exact PtrIn.of_mem (by assumption) | exact PtrIn.null | exact PtrIn.ite_ptr (by assumption) (by assumption)) (by first | assumption | exact PtrIn.of_mem (by assumption) | exact PtrIn.null | exact PtrIn.ite_ptr (by assumption) (by assumption)) (by assumption)
      | exact rotateLeft_foot _ _ _ _ (by assumption) (by assumption)
      | exact rotateRight_foot _ _ _ _ (by assumption) (by assumption)
      | exact fixAfterInsert_foot _ _ _ _ _ (by assumption) (by assumption)
      | exact insertLoop_foot _ _ _ _ _ _ _ (by assumption) (by assumption) (by assumption)
      | (refine Post.bind Post.get (fun _ h => ?_)
         first | (obtain ⟨_, _, _, _, _⟩ := Foot.links (by assumption) (by first | assumption | exact PtrIn.mem_of_eq rfl (by assumption)) h) | skip)
      | (refine Post.bind Post.getP ?_
         rintro _ ⟨_, h', h⟩
         have := PtrIn.mem_of_eq h' (by first | assumption | exact PtrIn.of_mem (by assumption) | exact PtrIn.null | exact PtrIn.ite_ptr (by assumption) (by assumption))
         first | (obtain ⟨_, _, _, _, _⟩ := Foot.links (by assumption) (by first | assumption | exact PtrIn.mem_of_eq rfl (by assumption)) h) | skip)
      | (refine Post.bind Post.assertSome (fun _ h => ?_)
         first | have := PtrIn.mem_of_eq h (by first | assumption | exact PtrIn.of_mem (by assumption) | exact PtrIn.null | exact PtrIn.ite_ptr (by assumption) (by assumption)) | skip)
      | (refine Post.bind Post.deref (fun _ h => ?_)
         first | have := PtrIn.mem_of_eq h (by first | assumption | exact PtrIn.of_mem (by assumption) | exact PtrIn.null | exact PtrIn.ite_ptr (by assumption) (by assumption)) | skip)
      | refine Post.bind Post.assert (fun _ _ => ?_)
      | refine Post.bind (modify_foot (by first | assumption | exact PtrIn.mem_of_eq rfl (by assumption)) (by intro _ hm; obtain ⟨_, _, _, _, _⟩ := hm; refine ⟨?_, ?_, ?_, ?_, ?_⟩ <;> dsimp only <;> (first | assumption | exact PtrIn.of_mem (by assumption) | exact PtrIn.null | exact PtrIn.ite_ptr (by assumption) (by assumption))) (by assumption)) (fun _ _ => ?_)
      | refine Post.bind (modifyIf_foot (by first | assumption | exact PtrIn.of_mem (by assumption) | exact PtrIn.null | exact PtrIn.ite_ptr (by assumption) (by assumption)) (by intro _ hm; obtain ⟨_, _, _, _, _⟩ := hm; refine ⟨?_, ?_, ?_, ?_, ?_⟩ <;> dsimp only <;> (first | assumption | exact PtrIn.of_mem (by assumption) | exact PtrIn.null | exact PtrIn.ite_ptr (by assumption) (by assumption))) (by assumption)) (fun _ _ => ?_)
      | (refine Post.bind (updateLargestHoleAt_foot _ _ _ _ (by first | assumption | exact PtrIn.of_mem (by assumption) | exact PtrIn.null | exact PtrIn.ite_ptr (by assumption) (by assumption)) (by assumption)) ?_
         rintro ⟨_, _⟩ _
         dsimp only at *)
      | refine Post.bind (updateLargestHoleUpwards_foot _ _ _ _ _ (by first | assumption | exact PtrIn.of_mem (by assumption) | exact PtrIn.null | exact PtrIn.ite_ptr (by assumption) (by assumption)) (by assumption)) (fun _ _ => ?_)
      | refine Post.bind (replaceChild_foot _ _ _ _ _ _ (by first | assumption | exact PtrIn.of_mem (by assumption) | exact PtrIn.null | exact PtrIn.ite_ptr (by assumption) (by assumption)) (by first | assumption | exact PtrIn.of_mem (by assumption) | exact PtrIn.null | exact PtrIn.ite_ptr (by assumption) (by assumption)) (by assumption)) (fun _ _ => ?_)
      | refine Post.bind (rotateLeft_foot _ _ _ _ (by assumption) (by assumption)) (fun _ _ => ?_)
      | refine Post.bind (rotateRight_foot _ _ _ _ (by assumption) (by assumption)) (fun _ _ => ?_)
      | refine Post.bind (fixAfterInsert_foot _ _ _ _ _ (by assumption) (by assumption)) (fun _ _ => ?_)
      | refine Post.bind (insertLoop_foot _ _ _ _ _ _ _ (by assumption) (by assumption) (by assumption)) (fun _ _ => ?_)
      | refine @Post.bind Space _ _ _ (fun t => Foot l s0 t) _ ?_ (fun _ _ => ?_)
      | exact Post.ok ⟨by assumption, by first | assumption | exact PtrIn.mem_of_eq rfl (by assumption)⟩
      | (refine @Post.bind (Space × Nat) _ _ _ (fun r => Foot l s0 (Prod.fst r) ∧ Prod.snd r ∈ l) _ ?_ ?_
         on_goal 2 => rintro ⟨_, _⟩ ⟨_, _⟩
         on_goal 2 => dsimp only at *)
      | refine Post.bind Post.trivial (fun _ _ => ?_)
      | refine Post.ite (fun _ => ?_) (fun _ => ?_)
      | (split <;> try have := PtrIn.mem_of_eq (by assumption) (by first | assumption | exact PtrIn.of_mem (by assumption) | exact PtrIn.null | exact PtrIn.ite_ptr (by assumption) (by assumption)))
      | dsimp only)

set_option maxRecDepth 100000 in
set_option maxHeartbeats 4000000 in
theorem fixAfterRemove_foot (l : List Nat) (s0 : Space) (fuel : Nat) :
    ∀ (s : Space) (n : Nat), n ∈ l → Foot l s0 s →
      Post (fixAfterRemove fuel s n) (fun t => Foot l s0 t) := by
  induction fuel with
  | zero => intros; exact Post.error
  | succ k ih =>
    intro s n hn h0
    rw [fixAfterRemove]
    repeat (first
      | exact Post.ok (by assumption)
      | exact Post.error
      | exact Post.ok (Foot.setRoot_foot (by assumption) (by first | assumption | exact PtrIn.of_mem (by assumption) | exact PtrIn.null | exact PtrIn.ite_ptr (by assumption) (by assumption)))
      | exact ih _ _ (by assumption) (by assumption)
      | exact modify_foot (by first | assumption | exact PtrIn.mem_of_eq rfl (by assumption)) (by intro _ hm; obtain ⟨_, _, _, _, _⟩ := hm; refine ⟨?_, ?_, ?_, ?_, ?_⟩ <;> dsimp only <;> (first | assumption | exact PtrIn.of_mem (by assumption) | exact PtrIn.null | exact PtrIn.ite_ptr (by assumption) (by assumption))) (by assumption)
      | exact modifyIf_foot (by first | assumption | exact PtrIn.of_mem (by assumption) | exact PtrIn.null | exact PtrIn.ite_ptr (by assumption) (by assumption)) (by intro _ hm; obtain ⟨_, _, _, _, _⟩ := hm; refine ⟨?_, ?_, ?_, ?_, ?_⟩ <;> dsimp only <;> (first | assumption | exact PtrIn.of_mem (by assumption) | exact PtrIn.null | exact PtrIn.ite_ptr (by assumption) (by assumption))) (by assumption)
      | exact updateLargestHoleUpwards_foot _ _ _ _ _ (by first | assumption | exact PtrIn.of_mem (by assumption) | exact PtrIn.null | exact PtrIn.ite_ptr (by assumption) (by assumption)) (by assumption)
      | exact replaceChild_foot _ _ _ _ _ _ (by first | assumption | exact PtrIn.of_mem (by assumption) | exact PtrIn.null | exact PtrIn.ite_ptr (by assumption) (by assumption)) (by first | assumption | exact PtrIn.of_mem (by assumption) | exact PtrIn.null | exact PtrIn.ite_ptr (by assumption) (by assumption)) (by assumption)
      | exact rotateLeft_foot _ _ _ _ (by assumption) (by assumption)
      | exact rotateRight_foot _ _ _ _ (by assumption) (by assumption)
      | exact fixAfterInsert_foot _ _ _ _ _ (by assumption) (by assumption)
      | (refine Post.bind Post.get (fun _ h => ?_)
         first | (obtain ⟨_, _, _, _, _⟩ := Foot.links (by assumption) (by first | assumption | exact PtrIn.mem_of_eq rfl (by assumption)) h) | skip)
      | (refine Post.bind Post.getP ?_
         rintro _ ⟨_, h', h⟩
         have := PtrIn.mem_of_eq h' (by first | assumption | exact PtrIn.of_mem (by assumption) | exact PtrIn.null | exact PtrIn.ite_ptr (by assumption) (by assumption))
         first | (obtain ⟨_, _, _, _, _⟩ := Foot.links (by assumption) (by first | assumption | exact PtrIn.mem_of_eq rfl (by assumption)) h) | skip)
      | (refine Post.bind Post.assertSome (fun _ h => ?_)
         first | have := PtrIn.mem_of_eq h (by first | assumption | exact PtrIn.of_mem (by assumption) | exact PtrIn.null | exact PtrIn.ite_ptr (by assumption) (by assumption)) | skip)
      | (refine Post.bind Post.deref (fun _ h => ?_)
         first | have := PtrIn.mem_of_eq h (by first | assumption | exact PtrIn.of_mem (by assumption) | exact PtrIn.null | exact PtrIn.ite_ptr (by assumption) (by assumption)) | skip)
      | refine Post.bind Post.assert (fun _ _ => ?_)
      | refine Post.bind (modify_foot (by first | assumption | exact PtrIn.mem_of_eq rfl (by assumption)) (by intro _ hm; obtain ⟨_, _, _, _, _⟩ := hm; refine ⟨?_, ?_, ?_, ?_, ?_⟩ <;> dsimp only <;> (first | assumption | exact PtrIn.of_mem (by assumption) | exact PtrIn.null | exact PtrIn.ite_ptr (by assumption) (by assumption))) (by assumption)) (fun _ _ => ?_)
      | refine Post.bind (modifyIf_foot (by first | assumption | exact PtrIn.of_mem (by assumption) | exact PtrIn.null | exact PtrIn.ite_ptr (by assumption) (by assumption)) (by intro _ hm; obtain ⟨_, _, _, _, _⟩ := hm; refine ⟨?_, ?_, ?_, ?_, ?_⟩ <;> dsimp only <;> (first | assumption | exact PtrIn.of_mem (by assumption) | exact PtrIn.null | exact PtrIn.ite_ptr (by assumption) (by assumption))) (by assumption)) (fun _ _ => ?_)
      | (refine Post.bind (updateLargestHoleAt_foot _ _ _ _ (by first | assumption | exact PtrIn.of_mem (by assumption) | exact PtrIn.null | exact PtrIn.ite_ptr (by assumption) (by assumption)) (by assumption)) ?_
         rintro ⟨_, _⟩ _
         dsimp only at *)
      | refine Post.bind (updateLargestHoleUpwards_foot _ _ _ _ _ (by first | assumption | exact PtrIn.of_mem (by assumption) | exact PtrIn.null | exact PtrIn.ite_ptr (by assumption) (by assumption)) (by assumption)) (fun _ _ => ?_)
      | refine Post.bind (replaceChild_foot _ _ _ _ _ _ (by first | assumption | exact PtrIn.of_mem (by assumption) | exact PtrIn.null | exact PtrIn.ite_ptr (by assumption) (by assumption)) (by first | assumption | exact PtrIn.of_mem (by assumption) | exact PtrIn.null | exact PtrIn.ite_ptr (by assumption) (by assumption)) (by assumption)) (fun _ _ => ?_)
      | refine Post.bind (rotateLeft_foot _ _ _ _ (by assumption) (by assumption)) (fun _ _ => ?_)
      | refine Post.bind (rotateRight_foot _ _ _ _ (by assumption) (by assumption)) (fun _ _ => ?_)
      | refine Post.bind (fixAfterInsert_foot _ _ _ _ _ (by assumption) (by assumption)) (fun _ _ => ?_)
      | refine @Post.bind Space _ _ _ (fun t => Foot l s0 t) _ ?_ (fun _ _ => ?_)
      | exact Post.ok ⟨by assumption, by first | assumption | exact PtrIn.mem_of_eq rfl (by assumption)⟩
      | (refine @Post.bind (Space × Nat) _ _ _ (fun r => Foot l s0 (Prod.fst r) ∧ Prod.snd r ∈ l) _ ?_ ?_
         on_goal 2 => rintro ⟨_, _⟩ ⟨_, _⟩
         on_goal 2 => dsimp only at *)
      | refine Post.bind Post.trivial (fun _ _ => ?_)
      | refine Post.ite (fun _ => ?_) (fun _ => ?_)
      | (split <;> try have := PtrIn.mem_of_eq (by assumption) (by first | assumption | exact PtrIn.of_mem (by assumption) | exact PtrIn.null | exact PtrIn.ite_ptr (by assumption) (by assumption)))
      | dsimp only)

set_option maxHeartbeats 4000000 in
theorem replaceNode_foot (l : List Nat) (s0 : Space) (fuel : Nat) (s : Space)
    (node replacement : Nat) (hn : node ∈ l) (hr : replacement ∈ l) (h0 : Foot l s0 s) :
    Post (replaceNode fuel s node replacement) (fun t => Foot l s0 t) := by
  unfold replaceNode
  repeat (first
    | exact Post.ok (by assumption)
    | exact Post.error
    | exact Post.ok (Foot.setRoot_foot (by assumption) (by first | assumption | exact PtrIn.of_mem (by assumption) | exact PtrIn.null | exact PtrIn.ite_ptr (by assumption) (by assumption)))
    | exact modify_foot (by first | assumption | exact PtrIn.mem_of_eq rfl (by assumption)) (by intro _ hm; obtain ⟨_, _, _, _, _⟩ := hm; refine ⟨?_, ?_, ?_, ?_, ?_⟩ <;> dsimp only <;> (first | assumption | exact PtrIn.of_mem (by assumption) | exact PtrIn.null | exact PtrIn.ite_ptr (by assumption) (by assumption))) (by assumption)
    | exact modifyIf_foot (by first | assumption | exact PtrIn.of_mem (by assumption) | exact PtrIn.null | exact PtrIn.ite_ptr (by assumption) (by assumption)) (by intro _ hm; obtain ⟨_, _, _, _, _⟩ := hm; refine ⟨?_, ?_, ?_, ?_, ?_⟩ <;> dsimp only <;> (first | assumption | exact PtrIn.of_mem (by assumption) | exact PtrIn.null | exact PtrIn.ite_ptr (by assumption) (by assumption))) (by assumption)
    | exact updateLargestHoleUpwards_foot _ _ _ _ _ (by first | assumption | exact PtrIn.of_mem (by assumption) | exact PtrIn.null | exact PtrIn.ite_ptr (by assumption) (by assumption)) (by assumption)
    | exact replaceChild_foot _ _ _ _ _ _ (by first | assumption | exact PtrIn.of_mem (by assumption) | exact PtrIn.null | exact PtrIn.ite_ptr (by assumption) (by assumption)) (by first | assumption | exact PtrIn.of_mem (by assumption) | exact PtrIn.null | exact PtrIn.ite_ptr (by assumption) (by assumption)) (by assumption)
    | exact rotateLeft_foot _ _ _ _ (by assumption) (by assumption)
    | exact rotateRight_foot _ _ _ _ (by assumption) (by assumption)
    | exact fixAfterInsert_foot _ _ _ _ _ (by assumption) (by assumption)
    | exact fixAfterRemove_foot _ _ _ _ _ (by assumption) (by assumption)
    | (refine Post.bind Post.get (fun _ h => ?_)
       first | (obtain ⟨_, _, _, _, _⟩ := Foot.links (by assumption) (by first | assumption | exact PtrIn.mem_of_eq rfl (by assumption)) h) | skip)
    | (refine Post.bind Post.getP ?_
       rintro _ ⟨_, h', h⟩
       have := PtrIn.mem_of_eq h' (by first | assumption | exact PtrIn.of_mem (by assumption) | exact PtrIn.null | exact PtrIn.ite_ptr (by assumption) (by assumption))
       first | (obtain ⟨_, _, _, _, _⟩ := Foot.links (by assumption) (by first | assumption | exact PtrIn.mem_of_eq rfl (by assumption)) h) | skip)
    | (refine Post.bind Post.assertSome (fun _ h => ?_)
       first | have := PtrIn.mem_of_eq h (by first | assumption | exact PtrIn.of_mem (by assumption) | exact PtrIn.null | exact PtrIn.ite_ptr (by assumption) (by assumption)) | skip)
    | (refine Post.bind Post.deref (fun _ h => ?_)
       first | have := PtrIn.mem_of_eq h (by first | assumption | exact PtrIn.of_mem (by assumption) | exact PtrIn.null | exact PtrIn.ite_ptr (by assumption) (by assumption)) | skip)
    | refine Post.bind Post.assert (fun _ _ => ?_)
    | refine Post.bind (modify_foot (by first | assumption | exact PtrIn.mem_of_eq rfl (by assumption)) (by intro _ hm; obtain ⟨_, _, _, _, _⟩ := hm; refine ⟨?_, ?_, ?_, ?_, ?_⟩ <;> dsimp only <;> (first | assumption | exact PtrIn.of_mem (by assumption) | exact PtrIn.null | exact PtrIn.ite_ptr (by assumption) (by assumption))) (by assumption)) (fun _ _ => ?_)
    | refine Post.bind (modifyIf_foot (by first | assumption | exact PtrIn.of_mem (by assumption) | exact PtrIn.null | exact PtrIn.ite_ptr (by assumption) (by assumption)) (by intro _ hm; obtain ⟨_, _, _, _, _⟩ := hm; refine ⟨?_, ?_, ?_, ?_, ?_⟩ <;> dsimp only <;> (first | assumption | exact PtrIn.of_mem (by assumption) | exact PtrIn.null | exact PtrIn.ite_ptr (by assumption) (by assumption))) (by assumption)) (fun _ _ => ?_)
    | (refine Post.bind (updateLargestHoleAt_foot _ _ _ _ (by first | assumption | exact PtrIn.of_mem (by assumption) | exact PtrIn.null | exact PtrIn.ite_ptr (by assumption) (by assumption)) (by assumption)) ?_
       rintro ⟨_, _⟩ _
       dsimp only at *)
    | refine Post.bind (updateLargestHoleUpwards_foot _ _ _ _ _ (by first | assumption | exact PtrIn.of_mem (by assumption) | exact PtrIn.null | exact PtrIn.ite_ptr (by assumption) (by assumption)) (by assumption)) (fun _ _ => ?_)
    | refine Post.bind (replaceChild_foot _ _ _ _ _ _ (by first | assumption | exact PtrIn.of_mem (by assumption) | exact PtrIn.null | exact PtrIn.ite_ptr (by assumption) (by assumption)) (by first | assumption | exact PtrIn.of_mem (by assumption) | exact PtrIn.null | exact PtrIn.ite_ptr (by assumption) (by assumption)) (by assumption)) (fun _ _ => ?_)
    | refine Post.bind (rotateLeft_foot _ _ _ _ (by assumption) (by assumption)) (fun _ _ => ?_)
    | refine Post.bind (rotateRight_foot _ _ _ _ (by assumption) (by assumption)) (fun _ _ => ?_)
    | refine Post.bind (fixAfterInsert_foot _ _ _ _ _ (by assumption) (by assumption)) (fun _ _ => ?_)
    | refine Post.bind (fixAfterRemove_foot _ _ _ _ _ (by assumption) (by assumption)) (fun _ _ => ?_)
    | refine @Post.bind Space _ _ _ (fun t => Foot l s0 t) _ ?_ (fun _ _ => ?_)
    | exact Post.ok ⟨by assumption, by first | assumption | exact PtrIn.mem_of_eq rfl (by assumption)⟩
    | (refine @Post.bind (Space × Nat) _ _ _ (fun r => Foot l s0 (Prod.fst r) ∧ Prod.snd r ∈ l) _ ?_ ?_
       on_goal 2 => rintro ⟨_, _⟩ ⟨_, _⟩
       on_goal 2 => dsimp only at *)
    | refine Post.bind Post.trivial (fun _ _ => ?_)
    | refine Post.ite (fun _ => ?_) (fun _ => ?_)
    | (split <;> try have := PtrIn.mem_of_eq (by assumption) (by first | assumption | exact PtrIn.of_mem (by assumption) | exact PtrIn.null | exact PtrIn.ite_ptr (by assumption) (by assumption)))
    | dsimp only)

set_option maxHeartbeats 4000000 in
theorem removeHalfLeaf_foot (l : List Nat) (s0 : Space) (fuel : Nat) (s : Space)
    (mapping : Nat) (child : Ptr) (hm : mapping ∈ l) (hc : PtrIn l child) (h0 : Foot l s0 s) :
    Post (removeHalfLeaf fuel s mapping child) (fun t => Foot l s0 t) := by
  unfold removeHalfLeaf
  repeat (first
    | exact Post.ok (by assumption)
    | exact Post.error
    | exact Post.ok (Foot.setRoot_foot (by assumption) (by first | assumption | exact PtrIn.of_mem (by assumption) | exact PtrIn.null | exact PtrIn.ite_ptr (by assumption) (by assumption)))
    | exact modify_foot (by first | assumption | exact PtrIn.mem_of_eq rfl (by assumption)) (by intro _ hm; obtain ⟨_, _, _, _, _⟩ := hm; refine ⟨?_, ?_, ?_, ?_, ?_⟩ <;> dsimp only <;> (first | assumption | exact PtrIn.of_mem (by assumption) | exact PtrIn.null | exact PtrIn.ite_ptr (by assumption) (by assumption))) (by assumption)
    | exact modifyIf_foot (by first | assumption | exact PtrIn.of_mem (by assumption) | exact PtrIn.null | exact PtrIn.ite_ptr (by assumption) (by assumption)) (by intro _ hm; obtain ⟨_, _, _, _, _⟩ := hm; refine ⟨?_, ?_, ?_, ?_, ?_⟩ <;> dsimp only <;> (first | assumption | exact PtrIn.of_mem (by assumption) | exact PtrIn.null | exact PtrIn.ite_ptr (by assumption) (by assumption))) (by assumption)
    | exact updateLargestHoleUpwards_foot _ _ _ _ _ (by first | assumption | exact PtrIn.of_mem (by assumption) | exact PtrIn.null | exact PtrIn.ite_ptr (by assumption) (by assumption)) (by assumption)
    | exact replaceChild_foot _ _ _ _ _ _ (by first | assumption | exact PtrIn.of_mem (by assumption) | exact PtrIn.null | exact PtrIn.ite_ptr (by assumption) (by assumption)) (by first | assumption | exact PtrIn.of_mem (by assumption) | exact PtrIn.null | exact PtrIn.ite_ptr (by assumption) (by assumption)) (by assumption)
    | exact rotateLeft_foot _ _ _ _ (by assumption) (by assumption)
    | exact rotateRight_foot _ _ _ _ (by assumption) (by assumption)
    | exact fixAfterInsert_foot _ _ _ _ _ (by assumption) (by assumption)
    | exact fixAfterRemove_foot _ _ _ _ _ (by assumption) (by assumption)
    | exact replaceNode_foot _ _ _ _ _ _ (by assumption) (by assumption) (by assumption)
    | (refine Post.bind Post.get (fun _ h => ?_)
       first | (obtain ⟨_, _, _, _, _⟩ := Foot.links (by assumption) (by first | assumption | exact PtrIn.mem_of_eq rfl (by assumption)) h) | skip)
    | (refine Post.bind Post.getP ?_
       rintro _ ⟨_, h', h⟩
       have := PtrIn.mem_of_eq h' (by first | assumption | exact PtrIn.of_mem (by assumption) | exact PtrIn.null | exact PtrIn.ite_ptr (by assumption) (by assumption))
       first | (obtain ⟨_, _, _, _, _⟩ := Foot.links (by assumption) (by first | assumption | exact PtrIn.mem_of_eq rfl (by assumption)) h) | skip)
    | (refine Post.bind Post.assertSome (fun _ h => ?_)
       first | have := PtrIn.mem_of_eq h (by first | assumption | exact PtrIn.of_mem (by assumption) | exact PtrIn.null | exact PtrIn.ite_ptr (by assumption) (by assumption)) | skip)
    | (refine Post.bind Post.deref (fun _ h => ?_)
       first | have := PtrIn.mem_of_eq h (by first | assumption | exact PtrIn.of_mem (by assumption) | exact PtrIn.null | exact PtrIn.ite_ptr (by assumption) (by assumption)) | skip)
    | refine Post.bind Post.assert (fun _ _ => ?_)
    | refine Post.bind (modify_foot (by first | assumption | exact PtrIn.mem_of_eq rfl (by assumption)) (by intro _ hm; obtain ⟨_, _, _, _, _⟩ := hm; refine ⟨?_, ?_, ?_, ?_, ?_⟩ <;> dsimp only <;> (first | assumption | exact PtrIn.of_mem (by assumption) | exact PtrIn.null | exact PtrIn.ite_ptr (by assumption) (by assumption))) (by assumption)) (fun _ _ => ?_)
    | refine Post.bind (modifyIf_foot (by first | assumption | exact PtrIn.of_mem (by assumption) | exact PtrIn.null | exact PtrIn.ite_ptr (by assumption) (by assumption)) (by intro _ hm; obtain ⟨_, _, _, _, _⟩ := hm; refine ⟨?_, ?_, ?_, ?_, ?_⟩ <;> dsimp only <;> (first | assumption | exact PtrIn.of_mem (by assumption) | exact PtrIn.null | exact PtrIn.ite_ptr (by assumption) (by assumption))) (by assumption)) (fun _ _ => ?_)
    | (refine Post.bind (updateLargestHoleAt_foot _ _ _ _ (by first | assumption | exact PtrIn.of_mem (by assumption) | exact PtrIn.null | exact PtrIn.ite_ptr (by assumption) (by assumption)) (by assumption)) ?_
       rintro ⟨_, _⟩ _
       dsimp only at *)
    | refine Post.bind (updateLargestHoleUpwards_foot _ _ _ _ _ (by first | assumption | exact PtrIn.of_mem (by assumption) | exact PtrIn.null | exact PtrIn.ite_ptr (by assumption) (by assumption)) (by assumption)) (fun _ _ => ?_)
    | refine Post.bind (replaceChild_foot _ _ _ _ _ _ (by first | assumption | exact PtrIn.of_mem (by assumption) | exact PtrIn.null | exact PtrIn.ite_ptr (by assumption) (by assumption)) (by first | assumption | exact PtrIn.of_mem (by assumption) | exact PtrIn.null | exact PtrIn.ite_ptr (by assumption) (by assumption)) (by assumption)) (fun _ _ => ?_)
    | refine Post.bind (rotateLeft_foot _ _ _ _ (by assumption) (by assumption)) (fun _ _ => ?_)
    | refine Post.bind (rotateRight_foot _ _ _ _ (by assumption) (by assumption)) (fun _ _ => ?_)
    | refine Post.bind (fixAfterInsert_foot _ _ _ _ _ (by assumption) (by assumption)) (fun _ _ => ?_)
    | refine Post.bind (fixAfterRemove_foot _ _ _ _ _ (by assumption) (by assumption)) (fun _ _ => ?_)
    | refine Post.bind (replaceNode_foot _ _ _ _ _ _ (by assumption) (by assumption) (by assumption)) (fun _ _ => ?_)
    | refine @Post.bind Space _ _ _ (fun t => Foot l s0 t) _ ?_ (fun _ _ => ?_)
    | exact Post.ok ⟨by assumption, by first | assumption | exact PtrIn.mem_of_eq rfl (by assumption)⟩
    | (refine @Post.bind (Space × Nat) _ _ _ (fun r => Foot l s0 (Prod.fst r) ∧ Prod.snd r ∈ l) _ ?_ ?_
       on_goal 2 => rintro ⟨_, _⟩ ⟨_, _⟩
       on_goal 2 => dsimp only at *)
    | refine Post.bind Post.trivial (fun _ _ => ?_)
    | refine Post.ite (fun _ => ?_) (fun _ => ?_)
    | (split <;> try have := PtrIn.mem_of_eq (by assumption) (by first | assumption | exact PtrIn.of_mem (by assumption) | exact PtrIn.null | exact PtrIn.ite_ptr (by assumption) (by assumption)))
    | dsimp only)

set_option maxHeartbeats 4000000 in
theorem addressTreeRemove_foot (l : List Nat) (s0 : Space) (fuel : Nat) (s : Space)
    (mapping : Nat) (hm : mapping ∈ l) (h0 : Foot l s0 s) :
    Post (addressTreeRemove fuel s mapping) (fun t => Foot l s0 t) := by
  unfold addressTreeRemove
  repeat (first
    | exact Post.ok (by assumption)
    | exact Post.error
    | exact Post.ok (Foot.setRoot_foot (by assumption) (by first | assumption | exact PtrIn.of_mem (by assumption) | exact PtrIn.null | exact PtrIn.ite_ptr (by assumption) (by assumption)))
    | exact modify_foot (by first | assumption | exact PtrIn.mem_of_eq rfl (by assumption)) (by intro _ hm; obtain ⟨_, _, _, _, _⟩ := hm; refine ⟨?_, ?_, ?_, ?_, ?_⟩ <;> dsimp only <;> (first | assumption | exact PtrIn.of_mem (by assumption) | exact PtrIn.null | exact PtrIn.ite_ptr (by assumption) (by assumption))) (by assumption)
    | exact modifyIf_foot (by first | assumption | exact PtrIn.of_mem (by assumption) | exact PtrIn.null | exact PtrIn.ite_ptr (by assumption) (by assumption)) (by intro _ hm; obtain ⟨_, _, _, _, _⟩ := hm; refine ⟨?_, ?_, ?_, ?_, ?_⟩ <;> dsimp only <;> (first | assumption | exact PtrIn.of_mem (by assumption) | exact PtrIn.null | exact PtrIn.ite_ptr (by assumption) (by assumption))) (by assumption)
    | exact updateLargestHoleUpwards_foot _ _ _ _ _ (by first | assumption | exact PtrIn.of_mem (by assumption) | exact PtrIn.null | exact PtrIn.ite_ptr (by assumption) (by assumption)) (by assumption)
    | exact replaceChild_foot _ _ _ _ _ _ (by first | assumption | exact PtrIn.of_mem (by assumption) | exact PtrIn.null | exact PtrIn.ite_ptr (by assumption) (by assumption)) (by first | assumption | exact PtrIn.of_mem (by assumption) | exact PtrIn.null | exact PtrIn.ite_ptr (by assumption) (by assumption)) (by assumption)
    | exact rotateLeft_foot _ _ _ _ (by assumption) (by assumption)
    | exact rotateRight_foot _ _ _ _ (by assumption) (by assumption)
    | exact fixAfterInsert_foot _ _ _ _ _ (by assumption) (by assumption)
    | exact fixAfterRemove_foot _ _ _ _ _ (by assumption) (by assumption)
    | exact replaceNode_foot _ _ _ _ _ _ (by assumption) (by assumption) (by assumption)
    | exact removeHalfLeaf_foot _ _ _ _ _ _ (by assumption) (by first | assumption | exact PtrIn.of_mem (by assumption) | exact PtrIn.null | exact PtrIn.ite_ptr (by assumption) (by assumption)) (by assumption)
    | (refine Post.bind Post.get (fun _ h => ?_)
       first | (obtain ⟨_, _, _, _, _⟩ := Foot.links (by assumption) (by first | assumption | exact PtrIn.mem_of_eq rfl (by assumption)) h) | skip)
    | (refine Post.bind Post.getP ?_
       rintro _ ⟨_, h', h⟩
       have := PtrIn.mem_of_eq h' (by first | assumption | exact PtrIn.of_mem (by assumption) | exact PtrIn.null | exact PtrIn.ite_ptr (by assumption) (by assumption))
       first | (obtain ⟨_, _, _, _, _⟩ := Foot.links (by assumption) (by first | assumption | exact PtrIn.mem_of_eq rfl (by assumption)) h) | skip)
    | (refine Post.bind Post.assertSome (fun _ h => ?_)
       first | have := PtrIn.mem_of_eq h (by first | assumption | exact PtrIn.of_mem (by assumption) | exact PtrIn.null | exact PtrIn.ite_ptr (by assumption) (by assumption)) | skip)
    | (refine Post.bind Post.deref (fun _ h => ?_)
       first | have := PtrIn.mem_of_eq h (by first | assumption | exact PtrIn.of_mem (by assumption) | exact PtrIn.null | exact PtrIn.ite_ptr (by assumption) (by assumption)) | skip)
    | refine Post.bind Post.assert (fun _ _ => ?_)
    | refine Post.bind (modify_foot (by first | assumption | exact PtrIn.mem_of_eq rfl (by assumption)) (by intro _ hm; obtain ⟨_, _, _, _, _⟩ := hm; refine ⟨?_, ?_, ?_, ?_, ?_⟩ <;> dsimp only <;> (first | assumption | exact PtrIn.of_mem (by assumption) | exact PtrIn.null | exact PtrIn.ite_ptr (by assumption) (by assumption))) (by assumption)) (fun _ _ => ?_)
    | refine Post.bind (modifyIf_foot (by first | assumption | exact PtrIn.of_mem (by assumption) | exact PtrIn.null | exact PtrIn.ite_ptr (by assumption) (by assumption)) (by intro _ hm; obtain ⟨_, _, _, _, _⟩ := hm; refine ⟨?_, ?_, ?_, ?_, ?_⟩ <;> dsimp only <;> (first | assumption | exact PtrIn.of_mem (by assumption) | exact PtrIn.null | exact PtrIn.ite_ptr (by assumption) (by assumption))) (by assumption)) (fun _ _ => ?_)
    | (refine Post.bind (updateLargestHoleAt_foot _ _ _ _ (by first | assumption | exact PtrIn.of_mem (by assumption) | exact PtrIn.null | exact PtrIn.ite_ptr (by assumption) (by assumption)) (by assumption)) ?_
       rintro ⟨_, _⟩ _
       dsimp only at *)
    | refine Post.bind (updateLargestHoleUpwards_foot _ _ _ _ _ (by first | assumption | exact PtrIn.of_mem (by assumption) | exact PtrIn.null | exact PtrIn.ite_ptr (by assumption) (by assumption)) (by assumption)) (fun _ _ => ?_)
    | refine Post.bind (replaceChild_foot _ _ _ _ _ _ (by first | assumption | exact PtrIn.of_mem (by assumption) | exact PtrIn.null | exact PtrIn.ite_ptr (by assumption) (by assumption)) (by first | assumption | exact PtrIn.of_mem (by assumption) | exact PtrIn.null | exact PtrIn.ite_ptr (by assumption) (by assumption)) (by assumption)) (fun _ _ => ?_)
    | refine Post.bind (rotateLeft_foot _ _ _ _ (by assumption) (by assumption)) (fun _ _ => ?_)
    | refine Post.bind (rotateRight_foot _ _ _ _ (by assumption) (by assumption)) (fun _ _ => ?_)
    | refine Post.bind (fixAfterInsert_foot _ _ _ _ _ (by assumption) (by assumption)) (fun _ _ => ?_)
    | refine Post.bind (fixAfterRemove_foot _ _ _ _ _ (by assumption) (by assumption)) (fun _ _ => ?_)
    | refine Post.bind (replaceNode_foot _ _ _ _ _ _ (by assumption) (by assumption) (by assumption)) (fun _ _ => ?_)
    | refine Post.bind (removeHalfLeaf_foot _ _ _ _ _ _ (by assumption) (by first | assumption | exact PtrIn.of_mem (by assumption) | exact PtrIn.null | exact PtrIn.ite_ptr (by assumption) (by assumption)) (by assumption)) (fun _ _ => ?_)
    | refine @Post.bind Space _ _ _ (fun t => Foot l s0 t) _ ?_ (fun _ _ => ?_)
    | exact Post.ok ⟨by assumption, by first | assumption | exact PtrIn.mem_of_eq rfl (by assumption)⟩
    | (refine @Post.bind (Space × Nat) _ _ _ (fun r => Foot l s0 (Prod.fst r) ∧ Prod.snd r ∈ l) _ ?_ ?_
       on_goal 2 => rintro ⟨_, _⟩ ⟨_, _⟩
       on_goal 2 => dsimp only at *)
    | refine Post.bind Post.trivial (fun _ _ => ?_)
    | refine Post.ite (fun _ => ?_) (fun _ => ?_)
    | (split <;> try have := PtrIn.mem_of_eq (by assumption) (by first | assumption | exact PtrIn.of_mem (by assumption) | exact PtrIn.null | exact PtrIn.ite_ptr (by assumption) (by assumption)))
    | dsimp only)

/-! ### Insertion and removal as steps on the sequence of mappings -/

theorem Linked.ptrIn {c : Nat → Option Mapping} {L : List Nat} {l : List Nat} {prev next : Ptr}
    (h : Linked c prev l next) (hsub : ∀ i ∈ l, i ∈ L) (hp : PtrIn L prev) (hn : PtrIn L next) :
    ∀ i ∈ l, ∀ m, c i = some m → PtrIn L m.lowerPtr ∧ PtrIn L m.higherPtr := by
  induction l generalizing prev with
  | nil => intro i hi; cases hi
  | cons x xs ih =>
    rw [Linked_cons] at h
    obtain ⟨h1, h2, h3⟩ := h
    have hx : x ∈ L := hsub x (List.mem_cons_self _ _)
    intro i hi m hm
    rcases List.mem_cons.mp hi with e | e
    · subst e
      rw [fieldOf_some hm] at h1 h2
      refine ⟨h1 ▸ hp, ?_⟩
      rw [h2]
      cases xs with
      | nil => exact hn
      | cons y ys => exact PtrIn.of_mem (hsub y (by simp))
    · exact ih h3 (fun j hj => hsub j (List.mem_cons_of_mem _ hj)) (PtrIn.of_mem hx) i e m hm

theorem ListInv.foot_of {s : Space} {l L : List Nat} (hinv : ListInv l s)
    (hsub : ∀ i ∈ l, i ∈ L)
    (hrest : ∀ i ∈ L, i ∉ l → ∀ m, s.cells i = some m → m.linksIn L) : Foot L s s := by
  refine ⟨?_, fun i hi m hm => ?_, rfl, rfl, fun _ _ => rfl⟩
  · obtain ⟨⟨t, hT, hl, -⟩, -⟩ := hinv
    intro j hj
    rw [hT.1] at hj
    exact hsub j (hl ▸ mem_root hj)
  · by_cases hil : i ∈ l
    · have hlk := Linked.ptrIn hinv.2 hsub PtrIn.null PtrIn.null i hil m hm
      exact ⟨fun j hj => hsub j (closure_left hinv.1 hil hm hj),
        fun j hj => hsub j (closure_right hinv.1 hil hm hj),
        fun j hj => hsub j (closure_parent hinv.1 hil hm hj), hlk.1, hlk.2⟩
    · exact hrest i hi hil m hm

theorem ListInv.foot {s : Space} {l : List Nat} (hinv : ListInv l s) : Foot l s s :=
  hinv.foot_of (fun _ h => h) (fun i hi hil => absurd hi hil)

theorem ListInv.nodup {s : Space} {l : List Nat} (hinv : ListInv l s) : l.Nodup := by
  obtain ⟨⟨t, hT, hl, -⟩, -⟩ := hinv
  exact hl ▸ hT.2.2

theorem ListInv.alive_mem {s : Space} {l : List Nat} (hinv : ListInv l s) {i : Nat} (hi : i ∈ l) :
    ∃ m, s.cells i = some m := by
  obtain ⟨⟨t, hT, hl, -⟩, -⟩ := hinv
  subst hl
  exact Option.isSome_iff_exists.mp (hT.alive hi)

/-- Removing a node writes to the nodes of the tree only. -/
theorem addressTreeRemove_out {fuel : Nat} {s : Space} {l : List Nat} {x : Nat}
    (hinv : ListInv l s) (hx : x ∈ l) :
    Post (addressTreeRemove fuel s x) (fun s' => ∀ j, j ∉ l → s'.cells j = s.cells j) :=
  (addressTreeRemove_foot l s fuel s x hx hinv.foot).mono (fun _ h => h.2.2.2.2)

/-- Inserting a node writes to the node and to the nodes of the tree only. -/
theorem addressTreeInsert_out {fuel : Nat} {s : Space} {l : List Nat} {n : Nat} {m : Mapping}
    (hinv : ListInv l s) (hm : s.cells n = some m)
    (h1 : m.leftPtr = none) (h2 : m.rightPtr = none) (h3 : m.parentPtr = none)
    (h4 : m.lowerPtr = none) (h5 : m.higherPtr = none) :
    Post (addressTreeInsert fuel s n)
      (fun s' => ∀ j, j ∉ l → j ≠ n → s'.cells j = s.cells j) := by
  have hf : Foot (n :: l) s s := by
    refine hinv.foot_of (fun _ h => List.mem_cons_of_mem _ h) (fun i hi hil m' hm' => ?_)
    rcases List.mem_cons.mp hi with e | e
    · subst e
      rw [hm] at hm'
      cases hm'
      refine ⟨?_, ?_, ?_, ?_, ?_⟩
      · rw [h1]; exact PtrIn.null
      · rw [h2]; exact PtrIn.null
      · rw [h3]; exact PtrIn.null
      · rw [h4]; exact PtrIn.null
      · rw [h5]; exact PtrIn.null
    · exact absurd e hil
  refine (addressTreeInsert_foot (n :: l) s fuel s n (List.mem_cons_self _ _) hf).mono ?_
  intro s' h j hj hjn
  exact h.2.2.2.2 j (by simp [hj, hjn])

theorem seg_of_keys {c c' : Nat → Option Mapping} {j : Nat}
    (h : (c' j).map Mapping.keys = (c j).map Mapping.keys) : seg c' j = seg c j := by
  unfold seg baseOf lengthOf typeOf
  rw [fieldOf_congr h _ _ keys_base, fieldOf_congr h _ _ keys_length,
    fieldOf_congr h _ _ keys_type]

theorem seg_of_cell {c c' : Nat → Option Mapping} {j : Nat} (h : c' j = c j) :
    seg c' j = seg c j := by
  simp only [seg, baseOf, lengthOf, typeOf, fieldOf, h]

theorem seg_some {c : Nat → Option Mapping} {j : Nat} {m : Mapping} (h : c j = some m) :
    seg c j = (m.baseAddress, m.length, m.type) := by
  simp only [seg, baseOf, lengthOf, typeOf, fieldOf, h]

theorem seg_base {c c' : Nat → Option Mapping} {i j : Nat} (h : seg c' i = seg c j) :
    baseOf c' i = baseOf c j := congrArg Prod.fst h

theorem seg_length {c c' : Nat → Option Mapping} {i j : Nat} (h : seg c' i = seg c j) :
    lengthOf c' i = lengthOf c j := congrArg (fun x => x.2.1) h

theorem seg_type {c c' : Nat → Option Mapping} {i j : Nat} (h : seg c' i = seg c j) :
    typeOf c' i = typeOf c j := congrArg (fun x => x.2.2) h

theorem seg_end {c c' : Nat → Option Mapping} {i j : Nat} (h : seg c' i = seg c j) :
    endOf c' i = endOf c j := by
  unfold endOf
  rw [seg_base h, seg_length h]

theorem Covers.segs {c c' : Nat → Option Mapping} {lo hi : Nat} {l : List Nat}
    (h : ∀ i ∈ l, seg c' i = seg c i) (hc : Covers c lo l hi) : Covers c' lo l hi :=
  Covers.congr_covers (fun i hi => ⟨seg_base (h i hi), seg_length (h i hi)⟩) hc

theorem NoAdjacentHoles.segs_noAdj {c c' : Nat → Option Mapping} {l : List Nat}
    (h : ∀ i ∈ l, seg c' i = seg c i) (hc : NoAdjacentHoles c l) : NoAdjacentHoles c' l :=
  NoAdjacentHoles.congr_noAdj (fun i hi => seg_type (h i hi)) hc

/-- A fresh mapping is constructed and inserted into the tree. -/
theorem place_any {fuel : Nat} {s : Space} {l : List Nat} {ty : MappingType} {base len : Nat}
    (hinv : ListInv l s) (hfresh : ∀ i ∈ l, i < s.next) :
    Post (addressTreeInsert fuel (s.construct (Mapping.mk0 ty base len)).1 s.next) (fun s' =>
      s'.next = s.next + 1 ∧ s'.p_pageSpace = s.p_pageSpace ∧
      (∀ j, j ≠ s.next → seg s'.cells j = seg s.cells j) ∧
      seg s'.cells s.next = (base, len, ty) ∧
      (∀ j, j ∉ l → j ≠ s.next → s'.cells j = s.cells j) ∧
      ∃ A B, l = A ++ B ∧ ListInv (A ++ s.next :: B) s' ∧
        (∀ a, lastOr A none = some a → baseOf s.cells a ≤ base ∧
          add64 (baseOf s.cells a) (lengthOf s.cells a) ≤ base) ∧
        (∀ b, headOr B none = some b → base < baseOf s.cells b ∧
          add64 base len ≤ baseOf s.cells b)) := by
  have hn : s.next ∉ l := fun h => Nat.lt_irrefl _ (hfresh _ h)
  have hc1 : ∀ j, j ≠ s.next → (s.construct (Mapping.mk0 ty base len)).1.cells j = s.cells j :=
    fun j hj => by simp [Space.construct, hj]
  have hcn : (s.construct (Mapping.mk0 ty base len)).1.cells s.next =
      some (Mapping.mk0 ty base len) := by simp [Space.construct]
  have hinv1 : ListInv l (s.construct (Mapping.mk0 ty base len)).1 :=
    ListInv.congr_inv (fun i hi => hc1 i (ne_of_mem_of_not_mem hi hn)) rfl hinv
  have hb1 : ∀ j ∈ l, baseOf (s.construct (Mapping.mk0 ty base len)).1.cells j = baseOf s.cells j ∧
      lengthOf (s.construct (Mapping.mk0 ty base len)).1.cells j = lengthOf s.cells j :=
    fun j hj => by
      have := seg_of_cell (hc1 j (ne_of_mem_of_not_mem hj hn))
      exact ⟨seg_base this, seg_length this⟩
  refine ((addressTreeInsert_post hinv1 hn hcn rfl rfl rfl rfl rfl rfl).and
    (addressTreeInsert_out hinv1 hcn rfl rfl rfl rfl rfl)).mono ?_
  rintro s' ⟨⟨⟨A, B, hl, hinv', ha, hb⟩, hk⟩, hout⟩
  refine ⟨hk.1, hk.2.1, fun j hj => ?_, ?_, fun j hj hjn => ?_, A, B, hl, hinv', ?_, ?_⟩
  · rw [seg_of_keys (hk.2.2 j), seg_of_cell (hc1 j hj)]
  · rw [seg_of_keys (hk.2.2 _), seg_some hcn]
    rfl
  · rw [hout j hj hjn, hc1 j hjn]
  · intro a hla
    have hal : a ∈ l := by
      rcases lastOr_mem hla with h | h
      · rw [hl]; exact List.mem_append_left _ h
      · cases h
    have := ha a hla
    rw [(hb1 a hal).1, (hb1 a hal).2] at this
    exact this
  · intro b hlb
    have hbl : b ∈ l := by
      rcases headOr_mem hlb with h | h
      · rw [hl]; exact List.mem_append_right _ h
      · cases h
    have := hb b hlb
    rw [(hb1 b hbl).1] at this
    exact this

/-- A node is taken out of the tree. -/
theorem remove_step {fuel : Nat} {s : Space} {l : List Nat} {x : Nat}
    (hinv : ListInv l s) (hx : x ∈ l) :
    Post (addressTreeRemove fuel s x) (fun s' =>
      ListInv (l.erase x) s' ∧ s'.next = s.next ∧ s'.p_pageSpace = s.p_pageSpace ∧
      (∀ j, seg s'.cells j = seg s.cells j) ∧
      (∀ j, j ∉ l → s'.cells j = s.cells j) ∧
      ∃ mx, s'.cells x = some mx ∧ mx.leftPtr = none ∧ mx.rightPtr = none) := by
  refine ((addressTreeRemove_post hinv hx).and (addressTreeRemove_out hinv hx)).mono ?_
  rintro s' ⟨⟨⟨hinv', mx, hmx, h1, h2, -⟩, hk⟩, hout⟩
  exact ⟨hinv', hk.1, hk.2.1, fun j => seg_of_keys (hk.2.2 j), hout, mx, hmx, h1, h2⟩

/-- A node outside the tree is destroyed. -/
theorem destruct_step {fuel : Nat} {s : Space} {l : List Nat} {x : Nat} {m : Mapping}
    (hinv : ListInv l s) (hx : x ∉ l) (hm : s.cells x = some m)
    (h1 : m.leftPtr = none) (h2 : m.rightPtr = none) :
    Post (destruct fuel s (some x)) (fun s' =>
      ListInv l s' ∧ s'.next = s.next ∧ s'.p_pageSpace = s.p_pageSpace ∧
      (∀ j, j ≠ x → s'.cells j = s.cells j)) := by
  refine (destruct_post hm h1 h2).mono ?_
  rintro s' ⟨-, hc, hn, hr, hp⟩
  exact ⟨ListInv.congr_inv (fun i hi => hc i (ne_of_mem_of_not_mem hi hx)) hr hinv, hn, hp, hc⟩

/-- The mapping of a tiled range that contains the address `x`. -/
theorem Covers.locate {c : Nat → Option Mapping} {lo hi x : Nat} {l : List Nat}
    (h : Covers c lo l hi) (h1 : lo ≤ x) (h2 : x < hi) :
    ∃ L1 a L2, l = L1 ++ a :: L2 ∧ (∀ i ∈ L1, baseOf c i ≤ x) ∧ baseOf c a ≤ x ∧
      x < endOf c a ∧ (∀ i ∈ L2, x < baseOf c i) := by
  induction l generalizing lo with
  | nil =>
    have : lo = hi := h
    omega
  | cons i rest ih =>
    obtain ⟨hb, hl, hr⟩ := h
    by_cases hx : x < endOf c i
    · refine ⟨[], i, rest, rfl, fun _ hj => (by cases hj), (by omega), hx, fun j hj => ?_⟩
      have := (hr.mem hj).1
      omega
    · obtain ⟨L1, a, L2, e, p1, p2, p3, p4⟩ := ih hr (by omega)
      refine ⟨i :: L1, a, L2, by rw [e]; rfl, fun j hj => ?_, p2, p3, p4⟩
      rcases List.mem_cons.mp hj with e' | e'
      · subst e'; omega
      · exact p1 j e'

/-! ### Splitting a hole -/

theorem add64_wrap {a b : Nat} (ha : a < wordMod) (hb : b < wordMod) (h : wordMod ≤ a + b) :
    add64 a b = a + b - wordMod := by
  unfold add64
  have e : a + b = (a + b - wordMod) + wordMod := by omega
  rw [e, Nat.add_mod_right, Nat.mod_eq_of_lt (by omega)]
  omega

theorem NoAdjacentHoles.cons_other {c : Nat → Option Mapping} {n : Nat} {Y : List Nat}
    (hn : typeOf c n ≠ MappingType.kTypeHole) (hY : NoAdjacentHoles c Y) :
    NoAdjacentHoles c (n :: Y) := by
  unfold NoAdjacentHoles at hY ⊢
  rw [List.chain'_cons']
  exact ⟨fun y _ h => hn h.1, hY⟩

theorem NoAdjacentHoles.append_other {c : Nat → Option Mapping} {n : Nat} {X Y : List Nat}
    (hX : NoAdjacentHoles c X) (hn : typeOf c n ≠ MappingType.kTypeHole)
    (hY : NoAdjacentHoles c Y) : NoAdjacentHoles c (X ++ n :: Y) := by
  have hnY := NoAdjacentHoles.cons_other hn hY
  unfold NoAdjacentHoles at hX hnY ⊢
  rw [List.chain'_append]
  refine ⟨hX, hnY, fun x _ y hy h => ?_⟩
  simp only [List.head?_cons, Option.mem_def, Option.some.injEq] at hy
  subst hy
  exact hn h.2

theorem NoAdjacentHoles.cons_hole {c : Nat → Option Mapping} {f : Nat} {Y : List Nat}
    (hY : NoAdjacentHoles c Y) (hh : ∀ y, headOr Y none = some y → typeOf c y ≠ MappingType.kTypeHole) :
    NoAdjacentHoles c (f :: Y) := by
  unfold NoAdjacentHoles at hY ⊢
  rw [List.chain'_cons']
  refine ⟨fun y hy h => ?_, hY⟩
  cases Y with
  | nil => cases hy
  | cons y' ys =>
    simp only [List.head?_cons, Option.mem_def, Option.some.injEq] at hy
    subst hy
    exact hh y' rfl h.2

/-- What the neighbours of a hole are in a sequence without adjacent holes. -/
theorem NoAdjacentHoles.around {c : Nat → Option Mapping} {A B : List Nat} {h : Nat}
    (hno : NoAdjacentHoles c (A ++ h :: B)) (hh : typeOf c h = MappingType.kTypeHole) :
    NoAdjacentHoles c A ∧ NoAdjacentHoles c (A ++ [h]) ∧ NoAdjacentHoles c B ∧
      (∀ y, headOr B none = some y → typeOf c y ≠ MappingType.kTypeHole) ∧
      (∀ x, lastOr A none = some x → typeOf c x ≠ MappingType.kTypeHole) := by
  unfold NoAdjacentHoles at hno ⊢
  have h1 := hno
  rw [List.chain'_append] at h1
  obtain ⟨hA, hhB, hlast⟩ := h1
  rw [List.chain'_cons'] at hhB
  have h2 : List.Chain' (fun i j => ¬ (typeOf c i = MappingType.kTypeHole ∧
      typeOf c j = MappingType.kTypeHole)) ((A ++ [h]) ++ B) := by simpa using hno
  rw [List.chain'_append] at h2
  refine ⟨hA, h2.1, hhB.2, fun y hy ht => ?_, fun x hx ht => ?_⟩
  · cases B with
    | nil => cases hy
    | cons b bs =>
      cases hy
      exact hhB.1 y (by simp) ⟨hh, ht⟩
  · obtain ⟨A', rfl⟩ := lastOr_eq_some hx
    exact hlast x (by simp) h (by simp) ⟨ht, hh⟩

/-- The parts of a tiling below and above one of its mappings. -/
theorem Covers.around_covers {c : Nat → Option Mapping} {lo hi hb hl : Nat} {t : MappingType}
    {A B : List Nat} {h : Nat} (hcov : Covers c lo (A ++ h :: B) hi)
    (hseg : seg c h = (hb, hl, t)) :
    Covers c lo A hb ∧ Covers c (hb + hl) B hi ∧ 0 < hl := by
  have hbase : baseOf c h = hb := congrArg Prod.fst hseg
  have hlength : lengthOf c h = hl := congrArg (fun x => x.2.1) hseg
  obtain ⟨mid, cA, cHB⟩ := (Covers_append _ _ _ _ _).mp hcov
  rw [Covers_cons] at cHB
  obtain ⟨hmid, hpos, cB⟩ := cHB
  have hend : endOf c h = hb + hl := by rw [endOf, hbase, hlength]
  rw [hend] at cB
  rw [hbase] at hmid
  subst hmid
  rw [hlength] at hpos
  exact ⟨cA, cB, hpos⟩

/-- The mappings below a hole `h`, with the hole itself if its lower part
stays a hole of length `off`. -/
theorem carve_lower {c c' : Nat → Option Mapping} {lo hi hb hl off : Nat}
    {A B : List Nat} {h : Nat} (LA : List Nat)
    (hcov : Covers c lo (A ++ h :: B) hi) (hno : NoAdjacentHoles c (A ++ h :: B))
    (hseg : seg c h = (hb, hl, MappingType.kTypeHole))
    (segA : ∀ i ∈ A, seg c' i = seg c i)
    (hLA : LA = A ∧ off = 0 ∨
      LA = A ++ [h] ∧ off ≠ 0 ∧ seg c' h = (hb, off, MappingType.kTypeHole)) :
    Covers c' lo LA (hb + off) ∧ NoAdjacentHoles c' LA := by
  have htype : typeOf c h = MappingType.kTypeHole := congrArg (fun x => x.2.2) hseg
  obtain ⟨cA, -, -⟩ := hcov.around_covers hseg
  have cA' : Covers c' lo A hb := Covers.segs segA cA
  obtain ⟨nA, nAh, -, -, -⟩ := hno.around htype
  rcases hLA with ⟨rfl, rfl⟩ | ⟨rfl, h0, hs⟩
  · exact ⟨cA', NoAdjacentHoles.segs_noAdj segA nA⟩
  · have b1 : baseOf c' h = hb := congrArg Prod.fst hs
    have l1 : lengthOf c' h = off := congrArg (fun x => x.2.1) hs
    have t1 : typeOf c' h = MappingType.kTypeHole := congrArg (fun x => x.2.2) hs
    refine ⟨?_, ?_⟩
    · rw [Covers_append]
      refine ⟨_, cA', ?_⟩
      rw [Covers_cons, Covers_nil, endOf, b1, l1]
      exact ⟨rfl, by omega, rfl⟩
    · refine NoAdjacentHoles.congr_noAdj (fun i hi => ?_) nAh
      rcases List.mem_append.mp hi with e | e
      · exact seg_type (segA i e)
      · simp only [List.mem_singleton] at e
        subst e
        rw [t1, htype]

/-- The mappings after a hole `h` was split: the part of the hole below the
new mapping (if any), the new mapping, the part above it (if any). -/
theorem carve_layout {c c' : Nat → Option Mapping} {lo hi hb hl off len : Nat}
    {A B : List Nat} {h split : Nat} (LA F : List Nat)
    (hcov : Covers c lo (A ++ h :: B) hi) (hno : NoAdjacentHoles c (A ++ h :: B))
    (hseg : seg c h = (hb, hl, MappingType.kTypeHole))
    (segA : ∀ i ∈ A, seg c' i = seg c i) (segB : ∀ i ∈ B, seg c' i = seg c i)
    (hLA : LA = A ∧ off = 0 ∨
      LA = A ++ [h] ∧ off ≠ 0 ∧ seg c' h = (hb, off, MappingType.kTypeHole))
    (hsplit : seg c' split = (hb + off, len, MappingType.kTypeNone)) (hlen : 0 < len)
    (hF : F = [] ∧ hl = off + len ∨
      ∃ f, F = [f] ∧ off + len < hl ∧
        seg c' f = (hb + off + len, hl - (off + len), MappingType.kTypeHole)) :
    Covers c' lo (LA ++ split :: (F ++ B)) hi ∧
      NoAdjacentHoles c' (LA ++ split :: (F ++ B)) := by
  have htype : typeOf c h = MappingType.kTypeHole := congrArg (fun x => x.2.2) hseg
  obtain ⟨-, cB, -⟩ := hcov.around_covers hseg
  have cB' : Covers c' (hb + hl) B hi := Covers.segs segB cB
  obtain ⟨-, -, nB, hB0, -⟩ := hno.around htype
  have nB' : NoAdjacentHoles c' B := NoAdjacentHoles.segs_noAdj segB nB
  have sb : baseOf c' split = hb + off := congrArg Prod.fst hsplit
  have sl : lengthOf c' split = len := congrArg (fun x => x.2.1) hsplit
  have st : typeOf c' split = MappingType.kTypeNone := congrArg (fun x => x.2.2) hsplit
  have se : endOf c' split = hb + off + len := by rw [endOf, sb, sl]
  have cLA := carve_lower LA hcov hno hseg segA hLA
  have cFB : Covers c' (hb + off + len) (F ++ B) hi ∧ NoAdjacentHoles c' (F ++ B) := by
    rcases hF with ⟨rfl, e⟩ | ⟨f, rfl, hlt, hs⟩
    · subst e
      rw [List.nil_append, Nat.add_assoc]
      exact ⟨cB', nB'⟩
    · have b1 : baseOf c' f = hb + off + len := congrArg Prod.fst hs
      have l1 : lengthOf c' f = hl - (off + len) := congrArg (fun x => x.2.1) hs
      refine ⟨?_, ?_⟩
      · rw [List.singleton_append, Covers_cons, endOf, b1, l1]
        refine ⟨rfl, by omega, ?_⟩
        have e : hb + off + len + (hl - (off + len)) = hb + hl := by omega
        rw [e]
        exact cB'
      · refine NoAdjacentHoles.cons_hole nB' (fun y hy => ?_)
        have hyB : y ∈ B := by
          rcases headOr_mem hy with h' | h'
          · exact h'
          · cases h'
        rw [seg_type (segB y hyB)]
        exact hB0 y hy
  refine ⟨?_, NoAdjacentHoles.append_other cLA.2 (by rw [st]; decide) cFB.2⟩
  rw [Covers_append]
  refine ⟨_, cLA.1, ?_⟩
  rw [Covers_cons, sb, sl, se]
  exact ⟨rfl, hlen, cFB.1⟩

theorem seg_of_keys_some {c : Nat → Option Mapping} {j : Nat} {k : Keys}
    (h : (c j).map Mapping.keys = some k) : seg c j = (k.baseAddress, k.length, k.type) := by
  cases hc : c j with
  | none => rw [hc] at h; cases h
  | some m =>
    rw [hc] at h
    have e : m.keys = k := Option.some.inj h
    rw [seg_some hc, ← e]
    rfl

theorem splitHole_zero (fuel : Nat) (s : Space) (h off : Nat) :
    Post (splitHole fuel s h off 0) (fun _ => False) := by
  unfold splitHole
  exact Post.bind Post.assert (fun _ h0 => absurd (of_decide_eq_true h0) (Nat.lt_irrefl 0))

set_option maxHeartbeats 1000000 in
/-- The function `splitHole` keeps the tree invariants, and the mappings keep
tiling the managed range without adjacent holes. -/
theorem splitHole_post {fuel : Nat} {s : Space} {l : List Nat} {h off len : Nat}
    (hinv : ListInv l s) (hfresh : ∀ i ∈ l, i < s.next) (hh : h ∈ l) :
    Post (splitHole fuel s h off len)
      (Carved s l (off < wordMod ∧ len < wordMod ∧ off < lengthOf s.cells h)) := by
  obtain ⟨A, B, rfl⟩ := List.append_of_mem hh
  have hnd := hinv.nodup
  have hhA : h ∉ A := fun hx => (List.nodup_append.mp hnd).2.2 hx (List.mem_cons_self _ _)
  have hhB : h ∉ B := (List.nodup_cons.mp (List.nodup_append.mp hnd).2.1).1
  unfold splitHole
  refine Post.bind Post.assert (fun _ hlen => ?_)
  refine Post.bind Post.get (fun m hm => ?_)
  refine Post.bind Post.assert (fun _ htype => ?_)
  refine Post.bind Post.assert (fun _ hfit => ?_)
  have hlen' : 0 < len := of_decide_eq_true hlen
  have htype' : m.type = MappingType.kTypeHole := of_decide_eq_true htype
  have hfit' : add64 off len ≤ m.length := of_decide_eq_true hfit
  have hrest : ∀ (s1 : Space) (LA : List Nat), ListInv (LA ++ B) s1 → s1.next = s.next →
      s1.p_pageSpace = s.p_pageSpace → (∀ j, j ≠ h → seg s1.cells j = seg s.cells j) →
      (LA = A ∧ off = 0 ∨
        LA = A ++ [h] ∧ off ≠ 0 ∧ seg s1.cells h = (m.baseAddress, off, MappingType.kTypeHole)) →
      Post (do
        let s ← addressTreeInsert fuel
          (s1.construct (Mapping.mk0 MappingType.kTypeNone (add64 m.baseAddress off) len)).1
          s1.next
        let s ←
          if m.length > add64 off len then do
            let (s, following) := s.construct
              (Mapping.mk0 MappingType.kTypeHole
                (add64 m.baseAddress (add64 off len))
                (sub64 m.length (add64 off len)))
            addressTreeInsert fuel s following
          else do
            assert (decide (m.length = add64 off len))
            Except.ok s
        Except.ok (s, s1.next))
        (Carved s (A ++ h :: B) (off < wordMod ∧ len < wordMod ∧ off < lengthOf s.cells h)) := by
    intro s1 LA hinv1 hn1 hp1 hseg1 hLA
    have hbm : seg s.cells h = (m.baseAddress, m.length, MappingType.kTypeHole) := by
      rw [seg_some hm, htype']
    have hLAsub : ∀ i ∈ LA, i ∈ A ++ h :: B := by
      rcases hLA with ⟨rfl, -⟩ | ⟨rfl, -, -⟩
      · intro i hi
        exact List.mem_append_left _ hi
      · intro i hi
        rcases List.mem_append.mp hi with e | e
        · exact List.mem_append_left _ e
        · simp only [List.mem_singleton] at e
          subst e
          simp
    have hsub1 : ∀ i ∈ LA ++ B, i ∈ A ++ h :: B := by
      intro i hi
      rcases List.mem_append.mp hi with e | e
      · exact hLAsub i e
      · simp [e]
    have fresh1 : ∀ i ∈ LA ++ B, i < s1.next := fun i hi => by
      rw [hn1]
      exact hfresh i (hsub1 i hi)
    have hAne : ∀ i ∈ A, i ≠ h := fun i hi e => hhA (e ▸ hi)
    have hBne : ∀ i ∈ B, i ≠ h := fun i hi e => hhB (e ▸ hi)
    have holdA : ∀ i ∈ A, i < s.next := fun i hi => hfresh i (List.mem_append_left _ hi)
    have holdB : ∀ i ∈ B, i < s.next :=
      fun i hi => hfresh i (List.mem_append_right _ (List.mem_cons_of_mem _ hi))
    have holdh : h < s.next := hfresh h hh
    refine Post.bind (place_any hinv1 fresh1) ?_
    rintro s3 ⟨hn3, hp3, hseg3, hsp3, -, A1, B1, hl1, hinv3, P1a, P1b⟩
    have fresh3 : ∀ i ∈ A1 ++ s1.next :: B1, i < s3.next := by
      intro i hi
      rw [hn3]
      rcases List.mem_append.mp hi with e | e
      · have := fresh1 i (hl1 ▸ List.mem_append_left _ e)
        omega
      · rcases List.mem_cons.mp e with e | e
        · omega
        · have := fresh1 i (hl1 ▸ List.mem_append_right _ e)
          omega
    -- the objects that were there before keep their ranges
    have t3 : ∀ i, i < s.next → seg s3.cells i = seg s1.cells i :=
      fun i hi => hseg3 i (by omega)
    have t3A : ∀ i ∈ A, seg s3.cells i = seg s.cells i :=
      fun i hi => (t3 i (holdA i hi)).trans (hseg1 i (hAne i hi))
    have t3B : ∀ i ∈ B, seg s3.cells i = seg s.cells i :=
      fun i hi => (t3 i (holdB i hi)).trans (hseg1 i (hBne i hi))
    have hLA3 : LA = A ∧ off = 0 ∨
        LA = A ++ [h] ∧ off ≠ 0 ∧
          seg s3.cells h = (m.baseAddress, off, MappingType.kTypeHole) := by
      rcases hLA with h1 | ⟨h1, h2, h3⟩
      · exact Or.inl h1
      · exact Or.inr ⟨h1, h2, (t3 h holdh).trans h3⟩
    -- where the new mapping stands, when the mappings tile a range
    have key : (off < wordMod ∧ len < wordMod ∧ off < lengthOf s.cells h) → ∀ lo hi,
        hi < wordMod → Covers s.cells lo (A ++ h :: B) hi →
        NoAdjacentHoles s.cells (A ++ h :: B) →
        A1 = LA ∧ B1 = B ∧ off < m.length ∧ m.baseAddress + m.length ≤ hi ∧
          lo ≤ m.baseAddress ∧ add64 m.baseAddress off = m.baseAddress + off ∧
          Covers s3.cells lo LA (m.baseAddress + off) ∧
          (∀ i ∈ B, m.baseAddress + m.length ≤ baseOf s3.cells i) := by
      rintro ⟨hoff, hlenw, hoffl⟩ lo hi hhi hcov hno
      have hoffl' : off < m.length := by
        have e : lengthOf s.cells h = m.length := fieldOf_some hm _ _
        rw [e] at hoffl
        exact hoffl
      obtain ⟨cA, cB, -⟩ := hcov.around_covers hbm
      have hle1 := cA.le
      have hle2 := cB.le
      have hadd : add64 m.baseAddress off = m.baseAddress + off := add64_eq (by omega)
      have cLA3 := (carve_lower LA hcov hno hbm t3A hLA3).1
      have cLA1 : Covers s1.cells lo LA (m.baseAddress + off) :=
        Covers.segs (fun i hi => (t3 i (hfresh i (hLAsub i hi))).symm) cLA3
      have hB3 : ∀ i ∈ B, m.baseAddress + m.length ≤ baseOf s3.cells i := fun i hi => by
        rw [seg_base (t3B i hi)]
        exact (cB.mem hi).1
      have hB1 : ∀ i ∈ B, m.baseAddress + m.length ≤ baseOf s1.cells i := fun i hi => by
        rw [← seg_base (t3 i (holdB i hi))]
        exact hB3 i hi
      have hpos := @position A1 B1 LA B (fun i => baseOf s1.cells i ≤ m.baseAddress + off)
        hl1.symm
        (fun i hi => by
          have := (cLA1.mem hi).2.1
          have := base_le_end s1.cells i
          omega)
        (fun i hi => by
          have := hB1 i hi
          omega)
        (fun a ha => by
          have := (P1a a ha).1
          rw [hadd] at this
          exact this)
        (fun b hb => by
          have := (P1b b hb).1
          rw [hadd] at this
          omega)
      exact ⟨hpos.1, hpos.2, hoffl', hle2, hle1, hadd, cLA3, hB3⟩
    have hsplit3 : typeOf s3.cells s1.next = MappingType.kTypeNone :=
      congrArg (fun x => x.2.2) hsp3
    dsimp only [Space.construct]
    refine Post.ite (fun hc => ?_) (fun hc => ?_)
    · -- a hole is left above the new mapping
      refine Post.bind (place_any hinv3 fresh3) ?_
      rintro s5 ⟨hn5, hp5, hseg5, hsp5, -, A2, B2, hl3, hinv5, P2a, P2b⟩
      refine Post.ok ?_
      have t5 : ∀ i, i < s3.next → seg s5.cells i = seg s3.cells i :=
        fun i hi => hseg5 i (by omega)
      have hsplit_lt : s1.next < s3.next := by omega
      refine ⟨A2 ++ s3.next :: B2, hinv5, ?_, ?_, ?_, hp5.trans (hp3.trans hp1), ?_⟩
      · intro i hi
        rw [hn5]
        rcases List.mem_append.mp hi with e | e
        · have := fresh3 i (hl3 ▸ List.mem_append_left _ e)
          omega
        · rcases List.mem_cons.mp e with e | e
          · omega
          · have := fresh3 i (hl3 ▸ List.mem_append_right _ e)
            omega
      · have : s1.next ∈ A2 ++ B2 := by
          rw [← hl3]
          simp
        rcases List.mem_append.mp this with e | e
        · exact List.mem_append_left _ e
        · exact List.mem_append_right _ (List.mem_cons_of_mem _ e)
      · show typeOf s5.cells s1.next = _
        rw [seg_type (t5 _ hsplit_lt)]
        exact hsplit3
      · intro lo hi hhi hcov hno hpre
        obtain ⟨e1, e2, hoffl, hle2, hle1, hadd, cLA3, hB3⟩ := key hpre lo hi hhi hcov hno
        subst e1 e2
        obtain ⟨hoff, hlenw, -⟩ := hpre
        have hsb : baseOf s3.cells s1.next = m.baseAddress + off := by
          have := congrArg Prod.fst hsp3
          rw [hadd] at this
          exact this
        by_cases hw : wordMod ≤ off + len
        · -- the request wraps around the address space: the second insertion fails
          exfalso
          have hwrap := add64_wrap hoff hlenw hw
          have hfb : add64 m.baseAddress (add64 off len) =
              m.baseAddress + (off + len - wordMod) := by
            rw [hwrap]
            exact add64_eq (by omega)
          obtain ⟨L1, a, L2, eL, p1, p2, p3, p4⟩ := @Covers.locate _ _ _
            (m.baseAddress + (off + len - wordMod)) _ cLA3 (by omega) (by omega)
          have hcut := @position A2 B2 (L1 ++ [a]) (L2 ++ s1.next :: B1)
            (fun i => baseOf s3.cells i ≤ m.baseAddress + (off + len - wordMod))
            (by rw [← hl3, eL]; simp)
            (fun i hi => by
              rcases List.mem_append.mp hi with e | e
              · exact p1 i e
              · simp only [List.mem_singleton] at e
                subst e
                exact p2)
            (fun i hi => by
              rcases List.mem_append.mp hi with e | e
              · have := p4 i e
                omega
              · rcases List.mem_cons.mp e with e | e
                · subst e
                  omega
                · have := hB3 i e
                  omega)
            (fun x hx => by
              have := (P2a x hx).1
              rw [hfb] at this
              exact this)
            (fun y hy => by
              have := (P2b y hy).1
              rw [hfb] at this
              omega)
          have hla : lastOr A2 none = some a := by
            rw [hcut.1, lastOr_append]
            rfl
          have := (P2a a hla).2
          rw [hfb] at this
          have haLA : a ∈ A1 := by rw [eL]; simp
          have hend := (cLA3.mem haLA).2.1
          have he : add64 (baseOf s3.cells a) (lengthOf s3.cells a) = endOf s3.cells a :=
            add64_eq (by unfold endOf at hend; omega)
          rw [he] at this
          omega
        · have hsum : add64 off len = off + len := add64_eq (by omega)
          rw [hsum] at hc hfit'
          have hfb : add64 m.baseAddress (add64 off len) = m.baseAddress + off + len := by
            rw [hsum, add64_eq (by omega)]
            omega
          have hfl : sub64 m.length (add64 off len) = m.length - (off + len) := by
            rw [hsum]
            exact sub64_eq (by omega) (by omega)
          have hcut := @position A2 B2 (A1 ++ [s1.next]) B1
            (fun i => baseOf s3.cells i ≤ m.baseAddress + off + len)
            (by rw [← hl3]; simp)
            (fun i hi => by
              rcases List.mem_append.mp hi with e | e
              · have := (cLA3.mem e).2.1
                have := base_le_end s3.cells i
                omega
              · simp only [List.mem_singleton] at e
                subst e
                omega)
            (fun i hi => by
              have := hB3 i hi
              omega)
            (fun x hx => by
              have := (P2a x hx).1
              rw [hfb] at this
              exact this)
            (fun y hy => by
              have := (P2b y hy).1
              rw [hfb] at this
              omega)
          rw [hcut.1, hcut.2]
          have hlay := @carve_layout s.cells s5.cells lo hi m.baseAddress m.length off len A B1 h
            s1.next A1 [s3.next] hcov hno hbm
            (fun i hi => (t5 i (by have := holdA i hi; omega)).trans (t3A i hi))
            (fun i hi => (t5 i (by have := holdB i hi; omega)).trans (t3B i hi))
            (by
              rcases hLA3 with h1 | ⟨h1, h2, h3⟩
              · exact Or.inl h1
              · exact Or.inr ⟨h1, h2, (t5 h (by omega)).trans h3⟩)
            (by
              rw [t5 _ hsplit_lt, hsp3, hadd])
            hlen'
            (Or.inr ⟨s3.next, rfl, hc, by rw [hsp5, hfb, hfl]⟩)
          simpa using hlay
    · -- the new mapping reaches the end of the hole
      refine Post.bind Post.assert (fun _ hass => ?_)
      have hass' : m.length = add64 off len := of_decide_eq_true hass
      rw [bind_okE]
      refine Post.ok ⟨A1 ++ s1.next :: B1, hinv3, fresh3, by simp, hsplit3, hp3.trans hp1, ?_⟩
      intro lo hi hhi hcov hno hpre
      obtain ⟨e1, e2, hoffl, hle2, hle1, hadd, cLA3, hB3⟩ := key hpre lo hi hhi hcov hno
      subst e1 e2
      obtain ⟨hoff, hlenw, -⟩ := hpre
      have hnw : ¬ wordMod ≤ off + len := by
        intro hw
        have hwrap := add64_wrap hoff hlenw hw
        omega
      have hsum : add64 off len = off + len := add64_eq (by omega)
      have hlay := @carve_layout s.cells s3.cells lo hi m.baseAddress m.length off len A B1 h
        s1.next A1 [] hcov hno hbm t3A t3B hLA3 (by rw [hsp3, hadd]) hlen'
        (Or.inl ⟨rfl, by omega⟩)
      simpa using hlay
  dsimp only
  refine Post.ite (fun h0 => ?_) (fun h0 => ?_)
  · refine Post.bind (remove_step hinv hh) ?_
    rintro s1 ⟨hinv1, hn1, hp1, hseg1, -, mx, hmx, hx1, hx2⟩
    rw [erase_mid hnd] at hinv1
    have hhAB : h ∉ A ++ B := by simp [hhA, hhB]
    refine Post.bind (destruct_step hinv1 hhAB hmx hx1 hx2) ?_
    rintro s2 ⟨hinv2, hn2, hp2, hc2⟩
    exact hrest s2 A hinv2 (hn2.trans hn1) (hp2.trans hp1)
      (fun j hj => (seg_of_cell (hc2 j hj)).trans (hseg1 j)) (Or.inl ⟨rfl, h0⟩)
  · refine Post.assoc (Post.bind (retag_post (fun c => { c with length := off })
      (fun _ => ⟨rfl, rfl, rfl, rfl, rfl, rfl⟩) hinv hh) ?_)
    rintro s2 ⟨hinv2, hn2, hp2, hk2, m', hm', hkh⟩
    rw [hm] at hm'
    cases hm'
    refine hrest s2 (A ++ [h]) (by simpa using hinv2) hn2 hp2
      (fun j hj => seg_of_keys (hk2 j hj)) (Or.inr ⟨rfl, h0, ?_⟩)
    rw [seg_of_keys_some hkh]
    exact congrArg (fun t => (m.baseAddress, off, t)) htype'

/-! ### Finding and carving a hole -/

theorem sub64_lt (a b : Nat) : sub64 a b < wordMod := by
  unfold sub64
  exact Nat.mod_lt _ (by decide)

theorem Carved.imp {s : Space} {l : List Nat} {pre pre' : Prop} {r : Space × Nat}
    (h : ∀ lo hi, hi < wordMod → Covers s.cells lo l hi → NoAdjacentHoles s.cells l →
      pre' → pre) (hc : Carved s l pre r) : Carved s l pre' r := by
  obtain ⟨l', h1, h2, h3, h4, h5, h6⟩ := hc
  exact ⟨l', h1, h2, h3, h4, h5, fun lo hi hhi hcov hno hp =>
    h6 lo hi hhi hcov hno (h lo hi hhi hcov hno hp)⟩

/-- The descent of `getMapping` ends at a node of the tree that contains the
address. -/
theorem getMappingLoop_mem {s : Space} {l : List Nat} (hinv : TreeInv l s) (a : Nat)
    (fuel : Nat) : ∀ p, PtrIn l p → Post (getMappingLoop fuel s p a) (fun r =>
      ∀ i, r = some i → i ∈ l ∧ ∃ m, s.cells i = some m ∧ m.baseAddress ≤ a ∧
        a < add64 m.baseAddress m.length) := by
  induction fuel with
  | zero => intros; exact Post.error
  | succ k ih =>
    intro p hp
    cases p with
    | none =>
      rw [getMappingLoop]
      exact Post.ok (fun i hi => by cases hi)
    | some c =>
      have hc : c ∈ l := hp c rfl
      rw [getMappingLoop]
      refine Post.bind Post.get (fun cm hcm => ?_)
      refine Post.ite (fun _ => ?_) (fun h1 => ?_)
      · exact ih _ (fun j hj => closure_left hinv hc hcm hj)
      · refine Post.ite (fun _ => ?_) (fun h2 => ?_)
        · exact ih _ (fun j hj => closure_right hinv hc hcm hj)
        · refine Post.bind Post.assert (fun _ _ => Post.ok (fun i hi => ?_))
          cases hi
          exact ⟨hc, cm, hcm, by omega, by omega⟩

/-- The descent of `allocateDfs` ends with `splitHole` on a hole of the tree
that is large enough, at offset 0 or at the top end of the hole. -/
theorem allocateDfs_mem {s : Space} {l : List Nat} (hinv : TreeInv l s) (full len flags : Nat)
    (fuel : Nat) : ∀ i, i ∈ l → Post (allocateDfs full fuel s i len flags) (fun r =>
      ∃ h m, h ∈ l ∧ s.cells h = some m ∧ m.type = MappingType.kTypeHole ∧ len ≤ m.length ∧
        (splitHole full s h 0 len = Except.ok r ∨
          splitHole full s h (sub64 m.length len) len = Except.ok r)) := by
  induction fuel with
  | zero => intros; exact Post.error
  | succ k ih =>
    intro i hi
    rw [allocateDfs]
    refine Post.bind Post.get (fun m hm => ?_)
    refine Post.ite (fun _ => ?_) (fun _ => ?_)
    · refine Post.ite
        (fun hc => (Post.self _).mono (fun r h => ⟨i, m, hi, hm, hc.1, hc.2, Or.inl h⟩))
        (fun _ => ?_)
      repeat (first
        | exact Post.error
        | exact ih _ (by assumption)
        | refine Post.bind Post.get (fun _ _ => ?_)
        | (refine Post.bind Post.assertSome (fun _ h => ?_)
           first | have := mem_of_left h hm hinv hi | have := mem_of_right h hm hinv hi)
        | (refine Post.bind Post.deref (fun _ h => ?_)
           first | have := mem_of_left h hm hinv hi | have := mem_of_right h hm hinv hi)
        | refine Post.bind Post.assert (fun _ _ => ?_)
        | refine Post.bind Post.trivial (fun _ _ => ?_)
        | refine Post.ite (fun _ => ?_) (fun _ => ?_)
        | split
        | dsimp only)
    · refine Post.bind Post.assert (fun _ _ => ?_)
      refine Post.ite
        (fun hc => (Post.self _).mono (fun r h => ⟨i, m, hi, hm, hc.1, hc.2, Or.inr h⟩))
        (fun _ => ?_)
      repeat (first
        | exact Post.error
        | exact ih _ (by assumption)
        | refine Post.bind Post.get (fun _ _ => ?_)
        | (refine Post.bind Post.assertSome (fun _ h => ?_)
           first | have := mem_of_left h hm hinv hi | have := mem_of_right h hm hinv hi)
        | (refine Post.bind Post.deref (fun _ h => ?_)
           first | have := mem_of_left h hm hinv hi | have := mem_of_right h hm hinv hi)
        | refine Post.bind Post.assert (fun _ _ => ?_)
        | refine Post.bind Post.trivial (fun _ _ => ?_)
        | refine Post.ite (fun _ => ?_) (fun _ => ?_)
        | split
        | dsimp only)

/-- The function `allocate` keeps the invariants of the address space. -/
theorem allocate_carved {fuel : Nat} {s : Space} {l : List Nat} {len flags : Nat}
    (hinv : ListInv l s) (hfresh : ∀ i ∈ l, i < s.next) :
    Post (allocate fuel s len flags) (fun r =>
      ∀ i, r.2 = some i → Carved s l (len < wordMod) (r.1, i)) := by
  unfold allocate
  refine Post.bind Post.assert (fun _ _ => ?_)
  refine Post.bind Post.trivial (fun rm _ => ?_)
  refine Post.ite (fun _ => Post.ok (fun i hi => by cases hi)) (fun _ => ?_)
  refine Post.bind Post.deref (fun root hroot => ?_)
  have hrl : root ∈ l := hinv.foot.1 root hroot
  refine Post.bind (allocateDfs_mem hinv.1 fuel len flags fuel root hrl) ?_
  rintro ⟨s1, j⟩ ⟨h, m, hh, hm, ht, hle, hsp⟩
  refine Post.ok (fun i hi => ?_)
  cases hi
  have hlm : lengthOf s.cells h = m.length := fieldOf_some hm _ _
  rcases hsp with hsp | hsp
  · refine Carved.imp (fun lo hi hhi hcov hno hlen => ?_) (splitHole_post hinv hfresh hh _ hsp)
    exact ⟨by decide, hlen, (hcov.mem hh).2.2⟩
  · refine Carved.imp (fun lo hi hhi hcov hno hlen => ?_) (splitHole_post hinv hfresh hh _ hsp)
    have hpos : 0 < len := by
      rcases Nat.eq_zero_or_pos len with e | e
      · subst e
        exact (splitHole_zero _ _ _ _ _ hsp).elim
      · exact e
    have hend := (hcov.mem hh).2.1
    unfold endOf at hend
    rw [hlm] at hend
    rw [hlm, sub64_eq hle (by omega)]
    exact ⟨by omega, hlen, by omega⟩

/-- The function `allocateAt` keeps the invariants of the address space. -/
theorem allocateAt_carved {fuel : Nat} {s : Space} {l : List Nat} {address len : Nat}
    (hinv : ListInv l s) (hfresh : ∀ i ∈ l, i < s.next) :
    Post (allocateAt fuel s address len)
      (Carved s l (address < wordMod ∧ len < wordMod)) := by
  unfold allocateAt
  refine Post.bind Post.assert (fun _ _ => ?_)
  refine Post.bind Post.assert (fun _ _ => ?_)
  refine Post.bind (getMappingLoop_mem hinv.1 address fuel _ hinv.foot.1) (fun hole hhole => ?_)
  refine Post.bind Post.assertSome (fun h hh0 => ?_)
  obtain ⟨hh, m, hm, hb1, hb2⟩ := hhole h hh0
  refine Post.bind Post.get (fun hm' hhm' => ?_)
  rw [hm] at hhm'
  cases hhm'
  refine Post.bind Post.assert (fun _ _ => ?_)
  refine (splitHole_post hinv hfresh hh).mono (fun r hr => ?_)
  refine Carved.imp (fun lo hi hhi hcov hno hpre => ?_) hr
  have hlm : lengthOf s.cells h = m.length := fieldOf_some hm _ _
  have hbm : baseOf s.cells h = m.baseAddress := fieldOf_some hm _ _
  have hend := (hcov.mem hh).2.1
  unfold endOf at hend
  rw [hlm, hbm] at hend
  rw [add64_eq (by omega)] at hb2
  rw [hlm, sub64_eq hb1 hpre.1]
  exact ⟨by omega, hpre.2, by omega⟩

/-! ### `map` keeps the invariants of the address space -/

theorem NoAdjacentHoles.fewer {c c' : Nat → Option Mapping} {l : List Nat}
    (h : ∀ i ∈ l, typeOf c' i = MappingType.kTypeHole → typeOf c i = MappingType.kTypeHole)
    (hc : NoAdjacentHoles c l) : NoAdjacentHoles c' l := by
  unfold NoAdjacentHoles at hc ⊢
  induction l with
  | nil => exact List.chain'_nil
  | cons i rest ih =>
    rw [List.chain'_cons'] at hc ⊢
    refine ⟨fun y hy hh => ?_, ih (fun j hj => h j (List.mem_cons_of_mem _ hj)) hc.2⟩
    have hyr : y ∈ rest := List.mem_of_mem_head? hy
    exact hc.1 y hy ⟨h i (List.mem_cons_self _ _) hh.1, h y (List.mem_cons_of_mem _ hyr) hh.2⟩

/-- Changing fields of one node that the tree does not depend on. -/
theorem ListInv.relabel {s s' : Space} {l : List Nat} {i : Nat} {m m' : Mapping}
    (hr : s'.p_root = s.p_root) (hc : ∀ j, j ≠ i → s'.cells j = s.cells j)
    (hm : s.cells i = some m) (hm' : s'.cells i = some m')
    (h1 : m'.leftPtr = m.leftPtr) (h2 : m'.rightPtr = m.rightPtr)
    (h3 : m'.parentPtr = m.parentPtr) (h4 : m'.lowerPtr = m.lowerPtr)
    (h5 : m'.higherPtr = m.higherPtr) (h6 : m'.largestHole = m.largestHole)
    (h7 : (if m'.type = MappingType.kTypeHole then m'.length else 0) =
      (if m.type = MappingType.kTypeHole then m.length else 0))
    (hinv : ListInv l s) : ListInv l s' := by
  obtain ⟨⟨t, hT, hl, hA⟩, hL⟩ := hinv
  subst hl
  refine ⟨⟨t, ⟨hr.trans hT.1, ?_, hT.2.2⟩, rfl, ?_⟩, ?_⟩
  · refine Shape.mono_shape (fun j _ x hx => ?_) hT.2.1
    by_cases e : j = i
    · subst e
      rw [hm] at hx
      cases hx
      exact ⟨m', hm', h1, h2, h3⟩
    · exact ⟨x, (hc j e).trans hx, rfl, rfl, rfl⟩
  · refine Augmented.congr_aug (fun j _ => ?_) hA
    by_cases e : j = i
    · subst e
      simp only [largestHoleAt, ownHole, typeOf, lengthOf, fieldOf, hm, hm', h6]
      exact ⟨trivial, h7⟩
    · simp only [largestHoleAt, ownHole, typeOf, lengthOf, fieldOf, hc j e]
      exact ⟨trivial, trivial⟩
  · refine Linked.congr_linked (fun j _ => ?_) hL
    by_cases e : j = i
    · subst e
      simp only [fieldOf, hm, hm', h4, h5]
      exact ⟨trivial, trivial⟩
    · simp only [fieldOf, hc j e]
      exact ⟨trivial, trivial⟩

theorem Relabelled.start {s : Space} {l : List Nat} {i : Nat} (hinv : ListInv l s)
    (ht : typeOf s.cells i ≠ MappingType.kTypeHole) : Relabelled l i s s :=
  ⟨hinv, rfl, rfl, fun _ _ => rfl, rfl, rfl, ht⟩

/-- A step of `map` on the mapping it created. -/
theorem modify_relabel {s0 s : Space} {l : List Nat} {i : Nat} {f : Mapping → Mapping}
    (hi : i ∈ l)
    (hf : ∀ m, (f m).leftPtr = m.leftPtr ∧ (f m).rightPtr = m.rightPtr ∧
      (f m).parentPtr = m.parentPtr ∧ (f m).lowerPtr = m.lowerPtr ∧
      (f m).higherPtr = m.higherPtr ∧ (f m).largestHole = m.largestHole ∧
      (f m).baseAddress = m.baseAddress ∧ (f m).length = m.length ∧
      (m.type ≠ MappingType.kTypeHole → (f m).type ≠ MappingType.kTypeHole))
    (h : Relabelled l i s0 s) : Post (s.modify i f) (fun s' => Relabelled l i s0 s') := by
  obtain ⟨hinv, hn, hp, hseg, hb, hl, ht⟩ := h
  obtain ⟨m, hm⟩ := hinv.alive_mem hi
  rw [modify_eq hm]
  obtain ⟨f1, f2, f3, f4, f5, f6, f7, f8, f9⟩ := hf m
  have htm : m.type ≠ MappingType.kTypeHole := by
    have e : typeOf s.cells i = m.type := fieldOf_some hm _ _
    rw [e] at ht
    exact ht
  have hc : ∀ j, j ≠ i → upd s.cells i (f m) j = s.cells j := fun j hj => upd_ne _ _ hj
  have hm' : upd s.cells i (f m) i = some (f m) := upd_eq _ _ _
  refine Post.ok ⟨?_, hn, hp, fun j hj => ?_, ?_, ?_, ?_⟩
  · refine @ListInv.relabel s ⟨upd s.cells i (f m), s.next, s.p_root, s.p_pageSpace⟩ l i m (f m)
      rfl hc hm hm' f1 f2 f3 f4 f5 f6 ?_ hinv
    rw [if_neg htm, if_neg (f9 htm)]
  · exact (seg_of_cell (hc j hj)).trans (hseg j hj)
  · rw [← hb]
    show fieldOf (upd s.cells i (f m)) _ _ i = fieldOf s.cells _ _ i
    rw [fieldOf_upd_self, fieldOf_some hm, f7]
  · rw [← hl]
    show fieldOf (upd s.cells i (f m)) _ _ i = fieldOf s.cells _ _ i
    rw [fieldOf_upd_self, fieldOf_some hm, f8]
  · show fieldOf (upd s.cells i (f m)) _ _ i ≠ _
    rw [fieldOf_upd_self]
    exact f9 htm

theorem Relabelled.kept {s0 s s' : Space} {l0 l' : List Nat} {i : Nat} {pre : Prop}
    (hfresh : ∀ j ∈ l', j < s.next) (hps : s.p_pageSpace = s0.p_pageSpace)
    (hcond : ∀ lo hi, hi < wordMod → Covers s0.cells lo l0 hi → NoAdjacentHoles s0.cells l0 →
      pre → Covers s.cells lo l' hi ∧ NoAdjacentHoles s.cells l')
    (h : Relabelled l' i s s') : Kept s0 l0 pre s' := by
  obtain ⟨hinv', hn, hp, hseg, hb, hl, ht⟩ := h
  refine ⟨l', hinv', fun j hj => by rw [hn]; exact hfresh j hj, hp.trans hps,
    fun lo hi hhi hcov hno hpre => ?_⟩
  obtain ⟨c1, c2⟩ := hcond lo hi hhi hcov hno hpre
  refine ⟨Covers.congr_covers (fun j hj => ?_) c1, NoAdjacentHoles.fewer (fun j hj hh => ?_) c2⟩
  · by_cases e : j = i
    · subst e
      exact ⟨hb, hl⟩
    · exact ⟨seg_base (hseg j e), seg_length (hseg j e)⟩
  · by_cases e : j = i
    · subst e
      exact absurd hh ht
    · rw [← seg_type (hseg j e)]
      exact hh

set_option maxHeartbeats 1000000 in
/-- The function `map` keeps the tree invariants, and the mappings keep tiling
the managed range without adjacent holes. -/
theorem map_kept {fuel : Nat} {s : Space} {l : List Nat} {e : Env} {memory : Ptr}
    {address length flags : Nat} (hinv : ListInv l s) (hfresh : ∀ i ∈ l, i < s.next) :
    Post (map fuel s e memory address length flags)
      (fun r => Kept s l (address < wordMod ∧ length < wordMod) r.1) := by
  unfold map
  refine Post.bind Post.assert (fun _ _ => ?_)
  dsimp only
  refine Post.ite (fun _ => ?_) (fun _ => ?_)
  on_goal 1 =>
    refine Post.bind Post.assert (fun _ _ => ?_)
    refine Post.bind (allocateAt_carved hinv hfresh) ?_
    rintro ⟨s1, i0⟩ hc0
    rw [bind_okE]
    dsimp only
    refine Post.bind Post.assertSome (fun i hi => ?_)
    have hii : i0 = i := Option.some.inj hi
    have hc : Carved s l (address < wordMod ∧ length < wordMod) (s1, i) := hii ▸ hc0
  on_goal 2 =>
    refine Post.bind (allocate_carved hinv hfresh) ?_
    rintro ⟨s1, p⟩ hp
    dsimp only
    refine Post.bind Post.assertSome (fun i hi => ?_)
    dsimp only at hi hp
    have hc : Carved s l (address < wordMod ∧ length < wordMod) (s1, i) :=
      Carved.imp (fun _ _ _ _ _ h => h.2) (hp i hi)
  all_goals
    obtain ⟨l', hinv1, hfresh1, hil, hty, hps, hcond⟩ := hc
    dsimp only at hinv1 hfresh1 hil hty hps hcond
    have hR0 : Relabelled l' i s1 s1 := Relabelled.start hinv1 (by rw [hty]; decide)
    have hfin : ∀ (s4 : Space) (pf : Nat), Relabelled l' i s1 s4 →
        Post (do
          let m ← s4.get i
          let ops ← installLoop e memory s4.p_pageSpace m.baseAddress pf false
            (length / kPageSize) 0 e.pageOps
          Except.ok (s4, { e with pageOps := ops }, m.baseAddress))
          (fun r => Kept s l (address < wordMod ∧ length < wordMod) r.1) := by
      intro s4 pf hR
      refine Post.bind Post.get (fun m hm => ?_)
      refine Post.bind Post.trivial (fun _ _ => ?_)
      exact Post.ok (Relabelled.kept hfresh1 hps hcond hR)
    have hshare : ∀ (s3 : Space) (pf : Nat), Relabelled l' i s1 s3 →
        Post (do
          let s ←
            if flags &&& kMapShareOnFork ≠ 0 then
              s3.modify i (fun c => { c with flags := c.flags ||| kFlagShareOnFork })
            else Except.ok s3
          let m ← s.get i
          let ops ← installLoop e memory s.p_pageSpace m.baseAddress pf false
            (length / kPageSize) 0 e.pageOps
          Except.ok (s, { e with pageOps := ops }, m.baseAddress))
          (fun r => Kept s l (address < wordMod ∧ length < wordMod) r.1) := by
      intro s3 pf hR
      split
      · exact Post.bind (modify_relabel hil
          (fun m => ⟨rfl, rfl, rfl, rfl, rfl, rfl, rfl, rfl, fun h => h⟩) hR)
          (fun s4 hR4 => hfin s4 pf hR4)
      · rw [bind_okE]
        exact hfin s3 pf hR
    refine Post.bind (modify_relabel hil
      (fun m => ⟨rfl, rfl, rfl, rfl, rfl, rfl, rfl, rfl, fun _ h => MappingType.noConfusion h⟩) hR0)
      (fun s2 hR1 => ?_)
    dsimp only
    refine Post.ite (fun hrw => ?_) (fun hrw => Post.ite (fun hrx => ?_) (fun hrx => ?_))
    · refine Post.bind (modify_relabel hil
        (fun m => ⟨rfl, rfl, rfl, rfl, rfl, rfl, rfl, rfl, fun h => h⟩) hR1) (fun s3 hR2 => ?_)
      rw [bind_okE]
      exact hshare s3 _ hR2
    · refine Post.bind (modify_relabel hil
        (fun m => ⟨rfl, rfl, rfl, rfl, rfl, rfl, rfl, rfl, fun h => h⟩) hR1) (fun s3 hR2 => ?_)
      rw [bind_okE]
      exact hshare s3 _ hR2
    · refine Post.bind Post.assert (fun _ hro => ?_)
      rw [bind_okE]
      exact hshare s2 _ hR1

/-! ### `unmap` keeps the invariants of the address space -/

theorem NoAdjacentHoles.parts {c : Nat → Option Mapping} {X G Y : List Nat}
    (h : NoAdjacentHoles c (X ++ G ++ Y)) : NoAdjacentHoles c X ∧ NoAdjacentHoles c Y := by
  unfold NoAdjacentHoles at h ⊢
  rw [List.chain'_append] at h
  have h1 := h.1
  rw [List.chain'_append] at h1
  exact ⟨h1.1, h.2.1⟩

theorem NoAdjacentHoles.append_hole {c : Nat → Option Mapping} {n : Nat} {X Y : List Nat}
    (hX : NoAdjacentHoles c X) (hnY : NoAdjacentHoles c (n :: Y))
    (hl : ∀ a, lastOr X none = some a → typeOf c a ≠ MappingType.kTypeHole) :
    NoAdjacentHoles c (X ++ n :: Y) := by
  unfold NoAdjacentHoles at hX hnY ⊢
  rw [List.chain'_append]
  refine ⟨hX, hnY, fun x hx y _ h => ?_⟩
  have hx' : lastOr X none = some x := by
    obtain ⟨X', rfl⟩ : ∃ X', X = X' ++ [x] := by
      have := List.mem_getLast?_eq_getLast hx
      obtain ⟨hne, e⟩ := this
      exact ⟨X.dropLast, by rw [e, List.dropLast_append_getLast hne]⟩
    rw [lastOr_append]
    rfl
  exact hl x hx' h.1

theorem Covers.lt_of_ne_nil {c : Nat → Option Mapping} {lo hi : Nat} {l : List Nat}
    (h : Covers c lo l hi) (hl : l ≠ []) : lo < hi := by
  cases l with
  | nil => exact absurd rfl hl
  | cons i rest =>
    obtain ⟨h1, h2, h3⟩ := h
    have := h3.le
    unfold endOf at this
    omega

/-- The mappings after the group `G` of neighbours was merged into the one
hole `g`. -/
theorem merge_layout {c c' : Nat → Option Mapping} {lo hi : Nat} {X G Y : List Nat} {g : Nat}
    (hcov : Covers c lo (X ++ G ++ Y) hi) (hno : NoAdjacentHoles c (X ++ G ++ Y))
    (segX : ∀ i ∈ X, seg c' i = seg c i) (segY : ∀ i ∈ Y, seg c' i = seg c i)
    (hg : ∀ m1 m2, Covers c m1 G m2 → m2 ≤ hi →
      seg c' g = (m1, m2 - m1, MappingType.kTypeHole))
    (hG : G ≠ [])
    (hX : ∀ a, lastOr X none = some a → typeOf c a ≠ MappingType.kTypeHole)
    (hY : ∀ b, headOr Y none = some b → typeOf c b ≠ MappingType.kTypeHole) :
    Covers c' lo (X ++ g :: Y) hi ∧ NoAdjacentHoles c' (X ++ g :: Y) := by
  obtain ⟨m2, cXG, cY⟩ := (Covers_append _ _ _ _ _).mp hcov
  obtain ⟨m1, cX, cG⟩ := (Covers_append _ _ _ _ _).mp cXG
  have hlt := cG.lt_of_ne_nil hG
  have hs := hg m1 m2 cG cY.le
  have b1 : baseOf c' g = m1 := congrArg Prod.fst hs
  have l1 : lengthOf c' g = m2 - m1 := congrArg (fun x => x.2.1) hs
  obtain ⟨nX, nY⟩ := hno.parts
  refine ⟨?_, ?_⟩
  · rw [Covers_append]
    refine ⟨m1, Covers.segs segX cX, ?_⟩
    rw [Covers_cons, endOf, b1, l1]
    refine ⟨rfl, by omega, ?_⟩
    have e : m1 + (m2 - m1) = m2 := by omega
    rw [e]
    exact Covers.segs segY cY
  · refine NoAdjacentHoles.append_hole (NoAdjacentHoles.segs_noAdj segX nX)
      (NoAdjacentHoles.cons_hole (NoAdjacentHoles.segs_noAdj segY nY) (fun y hy => ?_))
      (fun a ha => ?_)
    · have hyY : y ∈ Y := by
        rcases headOr_mem hy with h' | h'
        · exact h'
        · cases h'
      rw [seg_type (segY y hyY)]
      exact hY y hy
    · have haX : a ∈ X := by
        rcases lastOr_mem ha with h' | h'
        · exact h'
        · cases h'
      rw [seg_type (segX a haX)]
      exact hX a ha

set_option maxHeartbeats 4000000 in
theorem unmap_kept {fuel : Nat} {s : Space} {l : List Nat} {e : Env} {address length : Nat}
    (hinv : ListInv l s) (hfresh : ∀ i ∈ l, i < s.next) :
    Post (unmap fuel s e address length) (fun r => Kept s l True r.1) := by
  unfold unmap
  refine Post.bind (getMappingLoop_mem hinv.1 address fuel _ hinv.foot.1) (fun found hfound => ?_)
  refine Post.bind Post.assertSome (fun x hx => ?_)
  obtain ⟨hxl, m, hm, -, -⟩ := hfound x hx
  refine Post.bind Post.get (fun m' hm' => ?_)
  rw [hm] at hm'
  cases hm'
  refine Post.bind Post.assert (fun _ ht => ?_)
  refine Post.bind Post.assert (fun _ _ => ?_)
  refine Post.bind Post.assert (fun _ _ => ?_)
  have ht' : m.type = MappingType.kTypeMemory := of_decide_eq_true ht
  have htx : typeOf s.cells x ≠ MappingType.kTypeHole := by
    have e : typeOf s.cells x = m.type := fieldOf_some hm _ _
    rw [e, ht']
    decide
  dsimp only
  refine Post.bind (modify_relabel hxl
    (fun m => ⟨rfl, rfl, rfl, rfl, rfl, rfl, rfl, rfl, fun h => h⟩)
    (Relabelled.start hinv htx)) (fun s1 hR1 => ?_)
  obtain ⟨hinv1, hn1, hp1, hseg1, hb1, hl1, -⟩ := hR1
  obtain ⟨A, B, rfl⟩ := List.append_of_mem hxl
  have hnd := hinv.nodup
  have hxA : x ∉ A := fun hx' => (List.nodup_append.mp hnd).2.2 hx' (List.mem_cons_self _ _)
  have hxB : x ∉ B := (List.nodup_cons.mp (List.nodup_append.mp hnd).2.1).1
  have hLx := ((Linked_append _ _ _ _ _).mp hinv.2).2
  rw [Linked_cons, fieldOf_some hm, fieldOf_some hm] at hLx
  obtain ⟨hlow, hhigh, -⟩ := hLx
  have hlx : lengthOf s.cells x = m.length := fieldOf_some hm _ _
  have hbx : baseOf s.cells x = m.baseAddress := fieldOf_some hm _ _
  have hbody : ∀ (e' : Env) (y y1 : Bool),
      (y = true → ∀ lo, m.lowerPtr = some lo → typeOf s.cells lo = MappingType.kTypeHole) →
      (y = false → ∀ lo, m.lowerPtr = some lo → typeOf s.cells lo ≠ MappingType.kTypeHole) →
      (y1 = true → ∀ hi, m.higherPtr = some hi → typeOf s.cells hi = MappingType.kTypeHole) →
      (y1 = false → ∀ hi, m.higherPtr = some hi → typeOf s.cells hi ≠ MappingType.kTypeHole) →
      Post (
        if m.lowerPtr.isSome && m.higherPtr.isSome && y && y1 then do
          let lower ← deref m.lowerPtr
          let higher ← deref m.higherPtr
          let mapping_length := m.length
          let hm ← s1.get higher
          let higher_length := hm.length
          let t ← addressTreeRemove fuel s1 x
          let t ← addressTreeRemove fuel t higher
          let t ← destruct fuel t (some x)
          let t ← destruct fuel t (some higher)
          let t ← t.modify lower
            (fun c => { c with length := add64 c.length (add64 mapping_length higher_length) })
          let t ← updateLargestHoleUpwards fuel t (some lower)
          Except.ok (t, e')
        else if m.lowerPtr.isSome && y then do
          let lower ← deref m.lowerPtr
          let mapping_length := m.length
          let t ← addressTreeRemove fuel s1 x
          let t ← destruct fuel t (some x)
          let t ← t.modify lower (fun c => { c with length := add64 c.length mapping_length })
          let t ← updateLargestHoleUpwards fuel t (some lower)
          Except.ok (t, e')
        else if m.higherPtr.isSome && y1 then do
          let higher ← deref m.higherPtr
          let mapping_length := m.length
          let t ← addressTreeRemove fuel s1 x
          let t ← destruct fuel t (some x)
          let t ← t.modify higher (fun c =>
            { c with baseAddress := sub64 c.baseAddress mapping_length,
                     length := add64 c.length mapping_length })
          let t ← updateLargestHoleUpwards fuel t (some higher)
          Except.ok (t, e')
        else do
          let t ← s1.modify x (fun c => { c with type := MappingType.kTypeHole })
          let t ← updateLargestHoleUpwards fuel t (some x)
          Except.ok (t, e'))
        (fun r => Kept s (A ++ x :: B) True r.1) := by
    intro e' y y1 hy hy' hy1 hy1'
    have hfreshl : ∀ (t : Space) (l' : List Nat), t.next = s.next →
        (∀ i ∈ l', i ∈ A ++ x :: B) → ∀ i ∈ l', i < t.next :=
      fun t l' hn hsub i hi => by
        rw [hn]
        exact hfresh i (hsub i hi)
    refine Post.ite (fun hc => ?_) (fun hc => Post.ite (fun hc2 => ?_)
      (fun hc2 => Post.ite (fun hc3 => ?_) (fun hc3 => ?_)))
    · -- both neighbours are holes
      simp only [Bool.and_eq_true] at hc
      obtain ⟨⟨⟨-, -⟩, hyt⟩, hy1t⟩ := hc
      refine Post.bind Post.deref (fun lower hlower => ?_)
      refine Post.bind Post.deref (fun higher hhigher => ?_)
      obtain ⟨A', rfl⟩ := lastOr_eq_some (hlow.symm.trans hlower)
      have hB : ∃ B', B = higher :: B' := by
        have := hhigh.symm.trans hhigher
        cases B with
        | nil => cases this
        | cons b B' => cases this; exact ⟨B', rfl⟩
      obtain ⟨B', rfl⟩ := hB
      have hlo_hole := hy hyt lower hlower
      have hhi_hole := hy1 hy1t higher hhigher
      dsimp only
      refine Post.bind Post.get (fun hmh hhmh => ?_)
      have hlx' : lower ≠ x := fun e' => hxA (by rw [← e']; simp)
      have hhx' : higher ≠ x := fun e' => hxB (by rw [← e']; simp)
      have hnd2 : ((A' ++ [lower]) ++ higher :: B').Nodup := by
        have := hnd.sublist (List.Sublist.append (List.Sublist.refl (A' ++ [lower]))
          (List.sublist_cons_self x (higher :: B')))
        exact this
      have hlh : lower ≠ higher := fun e' =>
        (List.nodup_append.mp hnd2).2.2 (show lower ∈ A' ++ [lower] by simp)
          (show lower ∈ higher :: B' by rw [e']; simp)
      refine Post.bind (remove_step hinv1 hxl) ?_
      rintro s2 ⟨hinv2, hn2, hp2, hseg2, -, mx, hmx, hx1, hx2⟩
      rw [erase_mid hnd] at hinv2
      refine Post.bind (remove_step hinv2 (by simp)) ?_
      rintro s3 ⟨hinv3, hn3, hp3, hseg3, hout3, mh3, hmh3, hh1, hh2⟩
      rw [erase_mid hnd2] at hinv3
      have hx3 : s3.cells x = some mx := by
        rw [hout3 x (fun h => (List.mem_append.mp h).elim hxA hxB)]
        exact hmx
      have hx3n : x ∉ (A' ++ [lower]) ++ B' := fun h =>
        (List.mem_append.mp h).elim hxA (fun h => hxB (List.mem_cons_of_mem _ h))
      refine Post.bind (destruct_step hinv3 hx3n hx3 hx1 hx2) ?_
      rintro s4 ⟨hinv4, hn4, hp4, hc4⟩
      have hh4 : s4.cells higher = some mh3 := by
        rw [hc4 higher hhx']
        exact hmh3
      have hh4n : higher ∉ (A' ++ [lower]) ++ B' := by
        have h1 := (List.nodup_append.mp hnd2).2.2
        have h2 := (List.nodup_cons.mp (List.nodup_append.mp hnd2).2.1).1
        intro hmem
        rcases List.mem_append.mp hmem with e1 | e1
        · exact h1 e1 (List.mem_cons_self _ _)
        · exact h2 e1
      refine Post.bind (destruct_step hinv4 hh4n hh4 hh1 hh2) ?_
      rintro s5 ⟨hinv5, hn5, hp5, hc5⟩
      refine Post.assoc (Post.bind (retag_post
        (fun c => { c with length := add64 c.length (add64 m.length hmh.length) })
        (fun _ => ⟨rfl, rfl, rfl, rfl, rfl, rfl⟩) hinv5 (by simp)) ?_)
      rintro s6 ⟨hinv6, hn6, hp6, hk6, mm, hmm, hkl⟩
      have T5 : ∀ j, j ≠ x → j ≠ higher → seg s5.cells j = seg s.cells j := fun j h1 h2 =>
        (seg_of_cell (hc5 j h2)).trans ((seg_of_cell (hc4 j h1)).trans
          ((hseg3 j).trans ((hseg2 j).trans (hseg1 j h1))))
      refine Post.ok ⟨(A' ++ [lower]) ++ B', hinv6, hfreshl s6 _
        (by rw [hn6, hn5, hn4, hn3, hn2, hn1])
        (fun i hi => by
          simp only [List.mem_append, List.mem_cons, List.mem_singleton] at hi ⊢
          tauto),
        hp6.trans (hp5.trans (hp4.trans (hp3.trans (hp2.trans hp1)))),
        fun lo hi hhi hcov hno _ => ?_⟩
      have hno' : NoAdjacentHoles s.cells (A' ++ lower :: (x :: higher :: B')) := by
        simpa using hno
      have hno'' : NoAdjacentHoles s.cells ((A' ++ [lower, x]) ++ higher :: B') := by
        simpa using hno
      have hlay := @merge_layout s.cells s6.cells lo hi A' [lower, x, higher] B' lower
        (by simpa using hcov) (by simpa using hno)
        (fun i hi => by
          have h1 : i ≠ lower := fun e' =>
            (List.nodup_append.mp (List.nodup_append.mp hnd2).1).2.2 (show i ∈ A' from hi)
              (show i ∈ [lower] by rw [e']; simp)
          have h2 : i ≠ x := fun e' => hxA (by rw [← e']; simp [hi])
          have h3 : i ≠ higher := fun e' =>
            (List.nodup_append.mp hnd2).2.2 (show i ∈ A' ++ [lower] from List.mem_append_left _ hi)
              (show i ∈ higher :: B' by rw [e']; simp)
          exact (seg_of_keys (hk6 i h1)).trans (T5 i h2 h3))
        (fun i hi => by
          have h1 : i ≠ lower := fun e' =>
            (List.nodup_append.mp hnd2).2.2 (show lower ∈ A' ++ [lower] by simp)
              (show lower ∈ higher :: B' from e' ▸ List.mem_cons_of_mem _ hi)
          have h2 : i ≠ x := fun e' => hxB (by rw [← e']; simp [hi])
          have h3 : i ≠ higher := fun e' =>
            (List.nodup_cons.mp (List.nodup_append.mp hnd2).2.1).1 (e' ▸ hi)
          exact (seg_of_keys (hk6 i h1)).trans (T5 i h2 h3))
        (fun m1 m2 hcg hle => by
          rw [Covers_cons, Covers_cons, Covers_cons, Covers_nil] at hcg
          obtain ⟨e1, -, e2, -, e3, -, e4⟩ := hcg
          have hs5 : seg s5.cells lower = seg s.cells lower := T5 lower hlx' hlh
          rw [seg_some hmm] at hs5
          have q1 : mm.baseAddress = baseOf s.cells lower := congrArg Prod.fst hs5
          have q2 : mm.length = lengthOf s.cells lower := congrArg (fun z => z.2.1) hs5
          have q3 : mm.type = typeOf s.cells lower := congrArg (fun z => z.2.2) hs5
          have q4 : hmh.length = lengthOf s.cells higher := by
            rw [← seg_length (hseg1 higher hhx')]
            exact (fieldOf_some hhmh _ _).symm
          unfold endOf at e2 e3 e4
          rw [hlx] at e3
          have a1 : add64 m.length hmh.length = m.length + hmh.length := add64_eq (by omega)
          have a2 : add64 mm.length (m.length + hmh.length) =
              mm.length + (m.length + hmh.length) := add64_eq (by omega)
          rw [seg_of_keys_some hkl]
          show (mm.baseAddress, add64 mm.length (add64 m.length hmh.length), mm.type) = _
          rw [a1, a2, q3, hlo_hole, q1, e1]
          have : mm.length + (m.length + hmh.length) = m2 - m1 := by omega
          rw [this])
        (by simp)
        (NoAdjacentHoles.around hno' hlo_hole).2.2.2.2
        (NoAdjacentHoles.around hno'' hhi_hole).2.2.2.1
      simpa using hlay
    · -- only the lower neighbour is a hole
      have hyt : y = true := by
        simp only [Bool.and_eq_true] at hc2
        exact hc2.2
      refine Post.bind Post.deref (fun lower hlower => ?_)
      obtain ⟨A', rfl⟩ := lastOr_eq_some (hlow.symm.trans hlower)
      have hlo_hole := hy hyt lower hlower
      have hYn : ∀ b, headOr B none = some b → typeOf s.cells b ≠ MappingType.kTypeHole := by
        intro b hb
        have hhp := hhigh.trans hb
        cases hy1v : y1 with
        | false => exact hy1' hy1v b hhp
        | true => exact absurd (by simp [hlower, hhp, hyt, hy1v]) hc
      dsimp only
      have hlx' : lower ≠ x := fun e' => hxA (by rw [← e']; simp)
      have hnd2 : ((A' ++ [lower]) ++ B).Nodup :=
        hnd.sublist (List.Sublist.append (List.Sublist.refl (A' ++ [lower]))
          (List.sublist_cons_self x B))
      refine Post.bind (remove_step hinv1 hxl) ?_
      rintro s2 ⟨hinv2, hn2, hp2, hseg2, -, mx, hmx, hx1, hx2⟩
      rw [erase_mid hnd] at hinv2
      have hx2n : x ∉ (A' ++ [lower]) ++ B := fun h => (List.mem_append.mp h).elim hxA hxB
      refine Post.bind (destruct_step hinv2 hx2n hmx hx1 hx2) ?_
      rintro s3 ⟨hinv3, hn3, hp3, hc3⟩
      refine Post.assoc (Post.bind (retag_post
        (fun c => { c with length := add64 c.length m.length })
        (fun _ => ⟨rfl, rfl, rfl, rfl, rfl, rfl⟩) hinv3 (by simp)) ?_)
      rintro s5 ⟨hinv5, hn5, hp5, hk5, mm, hmm, hkl⟩
      have T3 : ∀ j, j ≠ x → seg s3.cells j = seg s.cells j := fun j h1 =>
        (seg_of_cell (hc3 j h1)).trans ((hseg2 j).trans (hseg1 j h1))
      refine Post.ok ⟨(A' ++ [lower]) ++ B, hinv5, hfreshl s5 _
        (by rw [hn5, hn3, hn2, hn1])
        (fun i hi => by
          simp only [List.mem_append, List.mem_cons, List.mem_singleton] at hi ⊢
          tauto),
        hp5.trans (hp3.trans (hp2.trans hp1)),
        fun lo hi hhi hcov hno _ => ?_⟩
      have hno' : NoAdjacentHoles s.cells (A' ++ lower :: (x :: B)) := by
        simpa using hno
      have hlay := @merge_layout s.cells s5.cells lo hi A' [lower, x] B lower
        (by simpa using hcov) (by simpa using hno)
        (fun i hi => by
          have h1 : i ≠ lower := fun e' =>
            (List.nodup_append.mp (List.nodup_append.mp hnd2).1).2.2 (show i ∈ A' from hi)
              (show i ∈ [lower] by rw [e']; simp)
          have h2 : i ≠ x := fun e' => hxA (by rw [← e']; simp [hi])
          exact (seg_of_keys (hk5 i h1)).trans (T3 i h2))
        (fun i hi => by
          have h1 : i ≠ lower := fun e' =>
            (List.nodup_append.mp hnd2).2.2 (show lower ∈ A' ++ [lower] by simp)
              (show lower ∈ B from e' ▸ hi)
          have h2 : i ≠ x := fun e' => hxB (e' ▸ hi)
          exact (seg_of_keys (hk5 i h1)).trans (T3 i h2))
        (fun m1 m2 hcg hle => by
          rw [Covers_cons, Covers_cons, Covers_nil] at hcg
          obtain ⟨e1, -, e2, -, e3⟩ := hcg
          have hs3 : seg s3.cells lower = seg s.cells lower := T3 lower hlx'
          rw [seg_some hmm] at hs3
          have q1 : mm.baseAddress = baseOf s.cells lower := congrArg Prod.fst hs3
          have q2 : mm.length = lengthOf s.cells lower := congrArg (fun z => z.2.1) hs3
          have q3 : mm.type = typeOf s.cells lower := congrArg (fun z => z.2.2) hs3
          unfold endOf at e2 e3
          rw [hlx] at e3
          have a2 : add64 mm.length m.length = mm.length + m.length := add64_eq (by omega)
          rw [seg_of_keys_some hkl]
          show (mm.baseAddress, add64 mm.length m.length, mm.type) = _
          rw [a2, q3, hlo_hole, q1, e1]
          have : mm.length + m.length = m2 - m1 := by omega
          rw [this])
        (by simp)
        (NoAdjacentHoles.around hno' hlo_hole).2.2.2.2
        hYn
      simpa using hlay
    · -- only the higher neighbour is a hole
      have hy1t : y1 = true := by
        simp only [Bool.and_eq_true] at hc3
        exact hc3.2
      refine Post.bind Post.deref (fun higher hhigher => ?_)
      have hB : ∃ B', B = higher :: B' := by
        have := hhigh.symm.trans hhigher
        cases B with
        | nil => cases this
        | cons b B' => cases this; exact ⟨B', rfl⟩
      obtain ⟨B', rfl⟩ := hB
      have hhi_hole := hy1 hy1t higher hhigher
      have hXn : ∀ a, lastOr A none = some a → typeOf s.cells a ≠ MappingType.kTypeHole := by
        intro a ha
        have hlp := hlow.trans ha
        cases hyv : y with
        | false => exact hy' hyv a hlp
        | true => exact absurd (by simp [hlp, hyv]) hc2
      dsimp only
      have hhx' : higher ≠ x := fun e' => hxB (by rw [← e']; simp)
      have hnd2 : (A ++ higher :: B').Nodup :=
        hnd.sublist (List.Sublist.append (List.Sublist.refl A)
          (List.sublist_cons_self x (higher :: B')))
      refine Post.bind (remove_step hinv1 hxl) ?_
      rintro s2 ⟨hinv2, hn2, hp2, hseg2, -, mx, hmx, hx1, hx2⟩
      rw [erase_mid hnd] at hinv2
      have hx2n : x ∉ A ++ higher :: B' := fun h => (List.mem_append.mp h).elim hxA hxB
      refine Post.bind (destruct_step hinv2 hx2n hmx hx1 hx2) ?_
      rintro s3 ⟨hinv3, hn3, hp3, hc3'⟩
      refine Post.assoc (Post.bind (retag_post
        (fun c => { c with baseAddress := sub64 c.baseAddress m.length,
                           length := add64 c.length m.length })
        (fun _ => ⟨rfl, rfl, rfl, rfl, rfl, rfl⟩) hinv3 (by simp)) ?_)
      rintro s5 ⟨hinv5, hn5, hp5, hk5, mm, hmm, hkl⟩
      have T3 : ∀ j, j ≠ x → seg s3.cells j = seg s.cells j := fun j h1 =>
        (seg_of_cell (hc3' j h1)).trans ((hseg2 j).trans (hseg1 j h1))
      refine Post.ok ⟨A ++ higher :: B', hinv5, hfreshl s5 _
        (by rw [hn5, hn3, hn2, hn1])
        (fun i hi => by
          simp only [List.mem_append, List.mem_cons, List.mem_singleton] at hi ⊢
          tauto),
        hp5.trans (hp3.trans (hp2.trans hp1)),
        fun lo hi hhi hcov hno _ => ?_⟩
      have hno'' : NoAdjacentHoles s.cells ((A ++ [x]) ++ higher :: B') := by
        simpa using hno
      have hlay := @merge_layout s.cells s5.cells lo hi A [x, higher] B' higher
        (by simpa using hcov) (by simpa using hno)
        (fun i hi => by
          have h1 : i ≠ higher := fun e' =>
            (List.nodup_append.mp hnd2).2.2 (show i ∈ A from hi)
              (show i ∈ higher :: B' by rw [e']; simp)
          have h2 : i ≠ x := fun e' => hxA (e' ▸ hi)
          exact (seg_of_keys (hk5 i h1)).trans (T3 i h2))
        (fun i hi => by
          have h1 : i ≠ higher := fun e' =>
            (List.nodup_cons.mp (List.nodup_append.mp hnd2).2.1).1 (e' ▸ hi)
          have h2 : i ≠ x := fun e' => hxB (by rw [← e']; simp [hi])
          exact (seg_of_keys (hk5 i h1)).trans (T3 i h2))
        (fun m1 m2 hcg hle => by
          rw [Covers_cons, Covers_cons, Covers_nil] at hcg
          obtain ⟨e1, -, e2, -, e3⟩ := hcg
          have hs3 : seg s3.cells higher = seg s.cells higher := T3 higher hhx'
          rw [seg_some hmm] at hs3
          have q1 : mm.baseAddress = baseOf s.cells higher := congrArg Prod.fst hs3
          have q2 : mm.length = lengthOf s.cells higher := congrArg (fun z => z.2.1) hs3
          have q3 : mm.type = typeOf s.cells higher := congrArg (fun z => z.2.2) hs3
          unfold endOf at e2 e3
          rw [hlx] at e2
          rw [hbx] at e1
          have a1 : sub64 mm.baseAddress m.length = mm.baseAddress - m.length :=
            sub64_eq (by omega) (by omega)
          have a2 : add64 mm.length m.length = mm.length + m.length := add64_eq (by omega)
          rw [seg_of_keys_some hkl]
          show (sub64 mm.baseAddress m.length, add64 mm.length m.length, mm.type) = _
          rw [a1, a2, q3, hhi_hole]
          have b1 : mm.baseAddress - m.length = m1 := by omega
          have b2 : mm.length + m.length = m2 - m1 := by omega
          rw [b1, b2])
        (by simp)
        hXn
        (NoAdjacentHoles.around hno'' hhi_hole).2.2.2.1
      simpa using hlay
    · -- no neighbour is a hole
      have hXn : ∀ a, lastOr A none = some a → typeOf s.cells a ≠ MappingType.kTypeHole := by
        intro a ha
        have hlp := hlow.trans ha
        cases hyv : y with
        | false => exact hy' hyv a hlp
        | true => exact absurd (by simp [hlp, hyv]) hc2
      have hYn : ∀ b, headOr B none = some b → typeOf s.cells b ≠ MappingType.kTypeHole := by
        intro b hb
        have hhp := hhigh.trans hb
        cases hy1v : y1 with
        | false => exact hy1' hy1v b hhp
        | true => exact absurd (by simp [hhp, hy1v]) hc3
      refine Post.assoc (Post.bind (retag_post
        (fun c => { c with type := MappingType.kTypeHole })
        (fun _ => ⟨rfl, rfl, rfl, rfl, rfl, rfl⟩) hinv1 hxl) ?_)
      rintro s5 ⟨hinv5, hn5, hp5, hk5, mm, hmm, hkl⟩
      refine Post.ok ⟨A ++ x :: B, hinv5, hfreshl s5 _ (by rw [hn5, hn1]) (fun i hi => hi),
        hp5.trans hp1, fun lo hi hhi hcov hno _ => ?_⟩
      exact @merge_layout s.cells s5.cells lo hi A [x] B x
        (by simpa using hcov) (by simpa using hno)
        (fun i hi => by
          have h2 : i ≠ x := fun e' => hxA (e' ▸ hi)
          exact (seg_of_keys (hk5 i h2)).trans (hseg1 i h2))
        (fun i hi => by
          have h2 : i ≠ x := fun e' => hxB (e' ▸ hi)
          exact (seg_of_keys (hk5 i h2)).trans (hseg1 i h2))
        (fun m1 m2 hcg hle => by
          rw [Covers_cons, Covers_nil] at hcg
          obtain ⟨e1, -, e3⟩ := hcg
          have q1 : mm.baseAddress = baseOf s.cells x := by
            rw [← hb1]
            exact (fieldOf_some hmm _ _).symm
          have q2 : mm.length = lengthOf s.cells x := by
            rw [← hl1]
            exact (fieldOf_some hmm _ _).symm
          unfold endOf at e3
          rw [seg_of_keys_some hkl]
          show (mm.baseAddress, mm.length, MappingType.kTypeHole) = _
          have b1 : mm.baseAddress = m1 := by omega
          have b2 : mm.length = m2 - m1 := by omega
          rw [b1, b2])
        (by simp) hXn hYn
  split
  · rename_i lo hlo
    refine Post.bind Post.get (fun lm hlm => ?_)
    rw [bind_okE]
    have hloA : lo ≠ x := by
      intro e'
      subst e'
      obtain ⟨A', rfl⟩ := lastOr_eq_some (hlow.symm.trans hlo)
      exact hxA (by simp)
    have htl : typeOf s.cells lo = lm.type := by
      rw [← seg_type (hseg1 lo hloA)]
      exact fieldOf_some hlm _ _
    have g1 : decide (lm.type = MappingType.kTypeHole) = true → ∀ lo', m.lowerPtr = some lo' →
        typeOf s.cells lo' = MappingType.kTypeHole := fun h lo' e' => by
      rw [hlo] at e'
      cases e'
      rw [htl]
      exact of_decide_eq_true h
    have g2 : decide (lm.type = MappingType.kTypeHole) = false → ∀ lo', m.lowerPtr = some lo' →
        typeOf s.cells lo' ≠ MappingType.kTypeHole := fun h lo' e' => by
      rw [hlo] at e'
      cases e'
      rw [htl]
      exact of_decide_eq_false h
    split
    · rename_i hi hhi
      refine Post.bind Post.get (fun hm' hhm' => ?_)
      rw [bind_okE]
      have hhiB : hi ≠ x := by
        intro e'
        subst e'
        have : headOr B none = some hi := hhigh.symm.trans hhi
        rcases headOr_mem this with h' | h'
        · exact hxB h'
        · cases h'
      have hth : typeOf s.cells hi = hm'.type := by
        rw [← seg_type (hseg1 hi hhiB)]
        exact fieldOf_some hhm' _ _
      refine hbody _ _ _ g1 g2 (fun h hi' e' => ?_) (fun h hi' e' => ?_)
      · rw [hhi] at e'
        cases e'
        rw [hth]
        exact of_decide_eq_true h
      · rw [hhi] at e'
        cases e'
        rw [hth]
        exact of_decide_eq_false h
    · rename_i hhi
      rw [bind_okE]
      refine hbody _ _ _ g1 g2 (fun h => by cases h) (fun _ hi' e' => ?_)
      rw [hhi] at e'
      cases e'
  · rename_i hlo
    rw [bind_okE]
    split
    · rename_i hi hhi
      refine Post.bind Post.get (fun hm' hhm' => ?_)
      rw [bind_okE]
      have hhiB : hi ≠ x := by
        intro e'
        subst e'
        have : headOr B none = some hi := hhigh.symm.trans hhi
        rcases headOr_mem this with h' | h'
        · exact hxB h'
        · cases h'
      have hth : typeOf s.cells hi = hm'.type := by
        rw [← seg_type (hseg1 hi hhiB)]
        exact fieldOf_some hhm' _ _
      refine hbody _ _ _ (fun h => by cases h) (fun _ lo' e' => by rw [hlo] at e'; cases e')
        (fun h hi' e' => ?_) (fun h hi' e' => ?_)
      · rw [hhi] at e'
        cases e'
        rw [hth]
        exact of_decide_eq_true h
      · rw [hhi] at e'
        cases e'
        rw [hth]
        exact of_decide_eq_false h
    · rename_i hhi
      rw [bind_okE]
      refine hbody _ _ _ (fun h => by cases h) (fun _ lo' e' => by rw [hlo] at e'; cases e')
        (fun h => by cases h) (fun _ hi' e' => by rw [hhi] at e'; cases e')

/-! ## The invariants of every reachable address space -/

theorem ListInv.empty {s : Space} (h : s.p_root = none) : ListInv [] s :=
  ⟨⟨Tree.nil, ⟨h, trivial, List.nodup_nil⟩, rfl, trivial⟩, trivial⟩

theorem setupDefaultMappings_post {fuel : Nat} {s : Space} (h : s.p_root = none) :
    Post (setupDefaultMappings fuel s) (RangeInv windowBase windowEnd) := by
  unfold setupDefaultMappings
  refine Post.mono (place_any (ListInv.empty h) (fun i hi => by cases hi)) ?_
  rintro s' ⟨hn, -, -, hseg, -, A, B, hAB, hinv, -, -⟩
  have hA : A = [] := (List.append_eq_nil.mp hAB.symm).1
  have hB : B = [] := (List.append_eq_nil.mp hAB.symm).2
  subst hA hB
  refine ⟨[s.next], hinv, ?_, List.chain'_singleton _, ?_⟩
  · rw [Covers_cons, Covers_nil]
    have h1 := congrArg Prod.fst hseg
    have h2 := congrArg (fun z => z.2.1) hseg
    simp only [seg] at h1 h2
    unfold endOf
    rw [h1, h2]
    decide
  · intro i hi
    rw [List.mem_singleton.mp hi, hn]
    exact Nat.lt_succ_self _

theorem Kept.toRangeInv {s s' : Space} {l : List Nat} {pre : Prop} {lo hi : Nat}
    (hk : Kept s l pre s') (hhi : hi < wordMod) (hpre : pre)
    (hcov : Covers s.cells lo l hi) (hno : NoAdjacentHoles s.cells l) : RangeInv lo hi s' := by
  obtain ⟨l', hinv, hfresh, -, hc⟩ := hk
  obtain ⟨h1, h2⟩ := hc lo hi hhi hcov hno hpre
  exact ⟨l', hinv, h1, h2, hfresh⟩

theorem Reachable.rangeInv {s : Space} (h : Reachable s) : RangeInv windowBase windowEnd s := by
  induction h with
  | setup h0 hs => exact setupDefaultMappings_post h0 _ hs
  | map _ ha hl hm ih =>
    obtain ⟨l, hinv, hcov, hno, hfresh⟩ := ih
    exact (map_kept hinv hfresh _ hm).toRangeInv (by decide) ⟨ha, hl⟩ hcov hno
  | unmap _ hu ih =>
    obtain ⟨l, hinv, hcov, hno, hfresh⟩ := ih
    exact (unmap_kept hinv hfresh _ hu).toRangeInv (by decide) trivial hcov hno

theorem eq_ok_of_returns {α : Type} (x : Except Err α) (d : α) (h : Returns x (fun _ => True)) :
    x = Except.ok (match x with
      | Except.ok a => a
      | Except.error _ => d) := by
  cases x with
  | ok a => rfl
  | error e => exact h.elim

theorem Covers.ordered {c : Nat → Option Mapping} {lo hi : Nat} {l : List Nat}
    (h : Covers c lo l hi) : Ordered c l := by
  unfold Ordered
  induction l generalizing lo with
  | nil => exact List.Pairwise.nil
  | cons i rest ih =>
    obtain ⟨-, -, h3⟩ := h
    exact List.Pairwise.cons (fun j hj => (h3.mem hj).1) (ih h3)

theorem reachable_fresh : Reachable theFreshSpace :=
  @Reachable.setup 16 emptySpace theFreshSpace rfl
    (eq_ok_of_returns (setupDefaultMappings 16 emptySpace) emptySpace (by decide!))

theorem reachable_mapped : Reachable theMappedSpace.1 :=
  @Reachable.map 16 theFreshSpace oneMemoryEnv (some 0) 0 0x1000 bottomReadWrite theMappedSpace
    reachable_fresh (by decide) (by decide)
    (eq_ok_of_returns (map 16 theFreshSpace oneMemoryEnv (some 0) 0 0x1000 bottomReadWrite)
      (emptySpace, oneMemoryEnv, 0) (by decide!))

/-! ### The two trees of `fork` -/

theorem modify_clone {root : Ptr} {S D : List Nat} {d : Space} {i n nx ps : Nat}
    {f : Mapping → Mapping}
    (hf : ∀ m, (f m).leftPtr = m.leftPtr ∧ (f m).rightPtr = m.rightPtr ∧
      (f m).parentPtr = m.parentPtr ∧ (f m).lowerPtr = m.lowerPtr ∧
      (f m).higherPtr = m.higherPtr ∧ (f m).largestHole = m.largestHole ∧
      (f m).type = m.type ∧ (f m).length = m.length)
    (hi : i ∉ D)
    (h : CloneInv root S D d ∧ d.p_pageSpace = ps ∧ d.next = nx ∧
      ∃ m', d.cells n = some m' ∧ m'.unlinked) :
    Post (d.modify i f) (fun d' => CloneInv root S D d' ∧ d'.p_pageSpace = ps ∧ d'.next = nx ∧
      ∃ m', d'.cells n = some m' ∧ m'.unlinked) := by
  intro d' hd'
  obtain ⟨m, hm, rfl⟩ := Post.modify _ hd'
  obtain ⟨⟨hS, hD, hfS, hfD, hdis⟩, hps, hn, m', hm', hu⟩ := h
  obtain ⟨f1, f2, f3, f4, f5, f6, f7, f8⟩ := hf m
  refine ⟨⟨?_, ?_, hfS, hfD, hdis⟩, hps, hn, ?_⟩
  · by_cases hiS : i ∈ S
    · refine @ListInv.relabel (sourceView d root) _ S i m (f m) rfl
        (fun j hj => by simp [sourceView, hj]) hm (by simp [sourceView]) f1 f2 f3 f4 f5 f6
        (by rw [f7, f8]) hS
    · exact @ListInv.congr_inv (sourceView d root) _ S
        (fun j hj => by simp [sourceView, ne_of_mem_of_not_mem hj hiS]) rfl hS
  · exact @ListInv.congr_inv d _ D (fun j hj => by simp [ne_of_mem_of_not_mem hj hi]) rfl hD
  · by_cases hin : n = i
    · subst hin
      rw [hm] at hm'
      cases hm'
      obtain ⟨u1, u2, u3, u4, u5, u6⟩ := hu
      exact ⟨f m, by simp, f1.trans u1, f2.trans u2, f3.trans u3, f4.trans u4, f5.trans u5,
        by rw [f6, f7, f8]; exact u6⟩
    · exact ⟨m', by simp [hin, hm'], hu⟩

theorem cloneRecursive_inv (full sps : Nat) {root : Ptr} {S : List Nat} (fuel : Nat) :
    ∀ (d : Space) (e : Env) (mapping : Nat) (D : List Nat), mapping ∈ S → CloneInv root S D d →
      Post (cloneRecursive full sps fuel d e mapping)
        (fun r => (∃ D', CloneInv root S D' r.1) ∧ r.1.p_pageSpace = d.p_pageSpace) := by
  induction fuel with
  | zero => intros; exact Post.error
  | succ k ih =>
    intro d e mapping D hmS hI
    obtain ⟨hS, hD, hfS, hfD, hdis⟩ := hI
    have hnS : d.next ∉ S := fun h => Nat.lt_irrefl _ (hfS _ h)
    have hnD : d.next ∉ D := fun h => Nat.lt_irrefl _ (hfD _ h)
    have hmD : mapping ∉ D := hdis _ hmS
    rw [cloneRecursive]
    refine Post.bind Post.get (fun m hm => ?_)
    have hrest : ∀ (d2 : Space) (e2 : Env),
        (CloneInv root S D d2 ∧ d2.p_pageSpace = d.p_pageSpace ∧ d2.next = d.next + 1 ∧
          ∃ m', d2.cells d.next = some m' ∧ m'.unlinked) →
        Post (do
          let d3 ← addressTreeInsert full d2 d.next
          let m3 ← d3.get mapping
          let (d4, e4) ← match m3.leftPtr with
            | some l => cloneRecursive full sps k d3 e2 l
            | none => Except.ok (d3, e2)
          let m4 ← d4.get mapping
          match m4.rightPtr with
          | some r => cloneRecursive full sps k d4 e4 r
          | none => Except.ok (d4, e4))
          (fun r => (∃ D', CloneInv root S D' r.1) ∧ r.1.p_pageSpace = d.p_pageSpace) := by
      rintro d2 e2 ⟨⟨hS2, hD2, hfS2, hfD2, -⟩, hps2, hn2, m', hm', u1, u2, u3, u4, u5, u6⟩
      refine Post.bind (Post.and (addressTreeInsert_post hD2 hnD hm' u1 u2 u3 u4 u5 u6)
        (addressTreeInsert_out hD2 hm' u1 u2 u3 u4 u5)) ?_
      rintro d3 ⟨⟨⟨A, B, hAB, hD3, -, -⟩, hkf⟩, hout⟩
      have hS3 : ListInv S (sourceView d3 root) :=
        @ListInv.congr_inv (sourceView d2 root) _ S
          (fun j hj => hout j (fun h => hdis j hj h) (ne_of_mem_of_not_mem hj hnS)) rfl hS2
      have hI3 : CloneInv root S (A ++ d.next :: B) d3 := by
        refine ⟨hS3, hD3, fun i hi => by rw [hkf.1]; exact hfS2 i hi, fun i hi => ?_,
          fun i hi hiD => ?_⟩
        · rw [hkf.1]
          rcases List.mem_append.mp hi with h | h
          · exact hfD2 i (hAB ▸ List.mem_append_left _ h)
          · rcases List.mem_cons.mp h with h | h
            · omega
            · exact hfD2 i (hAB ▸ List.mem_append_right _ h)
        · rcases List.mem_append.mp hiD with h | h
          · exact hdis i hi (hAB ▸ List.mem_append_left _ h)
          · rcases List.mem_cons.mp h with h | h
            · exact hnS (h ▸ hi)
            · exact hdis i hi (hAB ▸ List.mem_append_right _ h)
      have hps3 : d3.p_pageSpace = d.p_pageSpace := hkf.2.1.trans hps2
      have hright : ∀ (d4 : Space) (e4 : Env), (∃ D4, CloneInv root S D4 d4) →
          d4.p_pageSpace = d.p_pageSpace →
          Post (do
            let m4 ← d4.get mapping
            match m4.rightPtr with
            | some r => cloneRecursive full sps k d4 e4 r
            | none => Except.ok (d4, e4))
            (fun r => (∃ D', CloneInv root S D' r.1) ∧ r.1.p_pageSpace = d.p_pageSpace) := by
        rintro d4 e4 ⟨D4, hI4⟩ hps4
        refine Post.bind Post.get (fun m4 hm4 => ?_)
        cases hr : m4.rightPtr with
        | none => exact Post.ok ⟨⟨_, hI4⟩, hps4⟩
        | some r =>
          have hrS : r ∈ S := (hI4.1.foot.2.1 mapping hmS m4 hm4).2.1 r hr
          exact (ih d4 e4 r _ hrS hI4).mono (fun r hr => ⟨hr.1, hr.2.trans hps4⟩)
      refine Post.bind Post.get (fun m3 hm3 => ?_)
      dsimp only
      cases hl : m3.leftPtr with
      | none =>
        dsimp only
        rw [bind_okE]
        exact hright d3 e2 ⟨_, hI3⟩ hps3
      | some l =>
        have hlS : l ∈ S := (hS3.foot.2.1 mapping hmS m3 hm3).1 l hl
        dsimp only
        refine Post.bind (ih d3 e2 l _ hlS hI3) ?_
        rintro ⟨d4, e4⟩ ⟨hI4, hps4⟩
        exact hright d4 e4 hI4 (hps4.trans hps3)
    have hI1 : CloneInv root S D (d.construct (Mapping.mk0 m.type m.baseAddress m.length)).1 ∧
        (d.construct (Mapping.mk0 m.type m.baseAddress m.length)).1.p_pageSpace = d.p_pageSpace ∧
        (d.construct (Mapping.mk0 m.type m.baseAddress m.length)).1.next = d.next + 1 ∧
        ∃ m', (d.construct (Mapping.mk0 m.type m.baseAddress m.length)).1.cells d.next = some m' ∧
          m'.unlinked := by
      refine ⟨⟨?_, ?_, fun i hi => Nat.lt_succ_of_lt (hfS i hi),
        fun i hi => Nat.lt_succ_of_lt (hfD i hi), hdis⟩, rfl, rfl,
        Mapping.mk0 m.type m.baseAddress m.length, by simp [Space.construct],
        rfl, rfl, rfl, rfl, rfl, rfl⟩
      · exact @ListInv.congr_inv (sourceView d root) _ S
          (fun j hj => by simp [sourceView, Space.construct, ne_of_mem_of_not_mem hj hnS]) rfl hS
      · exact @ListInv.congr_inv d _ D
          (fun j hj => by simp [Space.construct, ne_of_mem_of_not_mem hj hnD]) rfl hD
    dsimp only [Space.construct] at hI1 ⊢
    refine Post.ite (fun _ => ?_) (fun _ => Post.ite (fun _ => ?_)
      (fun _ => Post.ite (fun _ => ?_) (fun _ => Post.error)))
    · rw [bind_okE]
      exact hrest _ _ hI1
    · refine Post.bind Post.trivial (fun mem _ => ?_)
      refine Post.bind Post.trivial (fun _ _ => ?_)
      refine Post.bind Post.trivial (fun dm _ => ?_)
      refine Post.bind Post.trivial (fun ops _ => ?_)
      refine Post.bind (modify_clone (fun _ => ⟨rfl, rfl, rfl, rfl, rfl, rfl, rfl, rfl⟩) hnD hI1)
        (fun d2 h2 => ?_)
      rw [bind_okE]
      exact hrest _ _ h2
    · refine Post.bind Post.trivial (fun mem _ => ?_)
      refine Post.bind Post.trivial (fun _ _ => ?_)
      refine Post.bind Post.trivial (fun c1 _ => ?_)
      refine Post.bind (modify_clone (fun _ => ⟨rfl, rfl, rfl, rfl, rfl, rfl, rfl, rfl⟩) hmD hI1)
        (fun d2 h2 => ?_)
      refine Post.bind Post.trivial (fun ops _ => ?_)
      refine Post.bind Post.trivial (fun c2 _ => ?_)
      refine Post.bind (modify_clone (fun _ => ⟨rfl, rfl, rfl, rfl, rfl, rfl, rfl, rfl⟩) hnD h2)
        (fun d3 h3 => ?_)
      refine Post.bind Post.trivial (fun ops2 _ => ?_)
      refine Post.bind (modify_clone (fun _ => ⟨rfl, rfl, rfl, rfl, rfl, rfl, rfl, rfl⟩) hnD h3)
        (fun d4 h4 => ?_)
      rw [bind_okE]
      exact hrest _ _ h4

/-- If `fork` completes, the source space keeps its sequence of mappings and
its tree invariants, and the forked space has the tree invariants. -/
theorem fork_post {fuel : Nat} {s : Space} {e : Env} {l : List Nat}
    (hinv : ListInv l s) (hfresh : ∀ i ∈ l, i < s.next) :
    Post (fork fuel s e) (fun r =>
      (ListInv l r.1 ∧ ∀ i ∈ l, i < r.1.next) ∧
        ∃ D, ListInv D r.2.1 ∧ ∀ i ∈ D, i < r.2.1.next) := by
  unfold fork
  dsimp only
  refine Post.bind Post.deref (fun root hroot => ?_)
  have hmem : root ∈ l := hinv.foot.1 root hroot
  have hI : CloneInv s.p_root l []
      { cells := s.cells, next := s.next, p_root := none, p_pageSpace := e.nextPageSpace } :=
    ⟨@ListInv.congr_inv s _ l (fun _ _ => rfl) rfl hinv, ListInv.empty rfl, hfresh,
      fun i hi => (by cases hi), fun i _ hi => (by cases hi)⟩
  refine Post.bind (cloneRecursive_inv fuel s.p_pageSpace fuel _ _ root [] hmem hI) ?_
  rintro ⟨d, e'⟩ ⟨⟨D, hS, hD, hfS, hfD, -⟩, -⟩
  exact Post.ok ⟨⟨@ListInv.congr_inv (sourceView d s.p_root) _ l (fun _ _ => rfl) rfl hS, hfS⟩,
    D, hD, hfD⟩

theorem Kept.toListInv {s s' : Space} {l : List Nat} {pre : Prop} (hk : Kept s l pre s') :
    ∃ l', ListInv l' s' ∧ ∀ i ∈ l', i < s'.next := by
  obtain ⟨l', hinv, hfresh, -, -⟩ := hk
  exact ⟨l', hinv, hfresh⟩

theorem ForkReachable.listInv {s : Space} (h : ForkReachable s) :
    ∃ l, ListInv l s ∧ ∀ i ∈ l, i < s.next := by
  induction h with
  | setup h0 hs =>
    obtain ⟨l, hinv, -, -, hfresh⟩ := setupDefaultMappings_post h0 _ hs
    exact ⟨l, hinv, hfresh⟩
  | map _ hm ih =>
    obtain ⟨l, hinv, hfresh⟩ := ih
    exact (map_kept hinv hfresh _ hm).toListInv
  | unmap _ hu ih =>
    obtain ⟨l, hinv, hfresh⟩ := ih
    exact (unmap_kept hinv hfresh _ hu).toListInv
  | forkSource _ hf ih =>
    obtain ⟨l, hinv, hfresh⟩ := ih
    exact ⟨l, (fork_post hinv hfresh _ hf).1⟩
  | forkChild _ hf ih =>
    obtain ⟨l, hinv, hfresh⟩ := ih
    exact (fork_post hinv hfresh _ hf).2

theorem ListInv.orderListOk {s : Space} {l : List Nat} (h : ListInv l s) : OrderListOk s := by
  obtain ⟨⟨t, hT, hl, -⟩, hL⟩ := h
  exact ⟨t, hT, hl ▸ hL⟩

theorem ListInv.augmentOk {s : Space} {l : List Nat} (h : ListInv l s) : AugmentOk s := by
  obtain ⟨⟨t, hT, -, hA⟩, -⟩ := h
  exact ⟨t, hT, hA⟩

theorem forkReachable_fresh : ForkReachable theFreshSpace :=
  @ForkReachable.setup 16 emptySpace theFreshSpace rfl
    (eq_ok_of_returns (setupDefaultMappings 16 emptySpace) emptySpace (by decide!))

theorem forkReachable_mapped : ForkReachable theMappedSpace.1 :=
  @ForkReachable.map 16 theFreshSpace oneMemoryEnv (some 0) 0 0x1000 bottomReadWrite
    theMappedSpace forkReachable_fresh
    (eq_ok_of_returns (map 16 theFreshSpace oneMemoryEnv (some 0) 0 0x1000 bottomReadWrite)
      (emptySpace, oneMemoryEnv, 0) (by decide!))

theorem forkReachable_child : ForkReachable theForkedSpaces.2.1 :=
  @ForkReachable.forkChild 16 theMappedSpace.1 theMappedSpace.2.1 theForkedSpaces
    forkReachable_mapped
    (eq_ok_of_returns (fork 16 theMappedSpace.1 theMappedSpace.2.1)
      (emptySpace, emptySpace, oneMemoryEnv) (by decide!))

theorem forkReachable_source : ForkReachable theForkedSpaces.1 :=
  @ForkReachable.forkSource 16 theMappedSpace.1 theMappedSpace.2.1 theForkedSpaces
    forkReachable_mapped
    (eq_ok_of_returns (fork 16 theMappedSpace.1 theMappedSpace.2.1)
      (emptySpace, emptySpace, oneMemoryEnv) (by decide!))

/-! ### The invariant check accepts every valid tree -/

theorem headOr_toList (l r : Tree) (i : Nat) (d : Ptr) :
    headOr (Tree.node l i r).toList d = some (l.minId i) := by
  induction l generalizing i r d with
  | nil => rfl
  | node a j b iha _ =>
    have := iha b j (headOr (i :: r.toList) d)
    rw [Tree.toList, headOr_append, this]
    rfl

theorem lastOr_toList (l r : Tree) (i : Nat) (d : Ptr) :
    lastOr (Tree.node l i r).toList d = some (r.maxId i) := by
  induction r generalizing i l d with
  | nil => simp [Tree.toList, lastOr_append, lastOr, Tree.maxId]
  | node a j b _ ihb =>
    have := ihb a j (lastOr (l.toList ++ [i]) d)
    simp only [Tree.toList, lastOr_append, lastOr, Tree.maxId] at this ⊢
    exact this

theorem Shape.mem_alive {c : Nat → Option Mapping} {t : Tree} {par : Ptr} (h : Shape c t par)
    {i : Nat} (hi : i ∈ t.toList) : ∃ m, c i = some m := by
  induction t generalizing par with
  | nil => cases hi
  | node l j r ihl ihr =>
    rw [Shape_node] at h
    obtain ⟨m, hm, -, -, -, hl, hr⟩ := h
    simp only [Tree.toList, List.mem_append, List.mem_cons] at hi
    rcases hi with hi | rfl | hi
    · exact ihl hl hi
    · exact ⟨m, hm⟩
    · exact ihr hr hi

theorem Linked.last_higher {c : Nat → Option Mapping} {prev next : Ptr} {l : List Nat} {p : Nat}
    (h : Linked c prev l next) (hp : lastOr l none = some p) :
    fieldOf c Mapping.higherPtr none p = next := by
  induction l generalizing prev with
  | nil => cases hp
  | cons x xs ih =>
    rw [Linked_cons] at h
    cases xs with
    | nil =>
      simp only [lastOr] at hp
      cases hp
      exact h.2.1
    | cons y ys => exact ih h.2.2 (by simpa [lastOr] using hp)

theorem Linked.head_lower {c : Nat → Option Mapping} {prev next : Ptr} {l : List Nat} {p : Nat}
    (h : Linked c prev l next) (hp : headOr l none = some p) :
    fieldOf c Mapping.lowerPtr none p = prev := by
  cases l with
  | nil => cases hp
  | cons x xs =>
    rw [Linked_cons] at h
    cases hp
    exact h.1

theorem minId_mem (l r : Tree) (i : Nat) : l.minId i ∈ (Tree.node l i r).toList := by
  have := headOr_toList l r i none
  rcases headOr_mem this with h | h
  · exact h
  · cases h

theorem maxId_mem (l r : Tree) (i : Nat) : r.maxId i ∈ (Tree.node l i r).toList := by
  have := lastOr_toList l r i none
  rcases lastOr_mem this with h | h
  · exact h
  · cases h

theorem Fits_node {c : Nat → Option Mapping} {l r : Tree} {i : Nat}
    (h : Fits c (Tree.node l i r).toList) :
    Fits c l.toList ∧ Fits c r.toList ∧ endOf c i < wordMod := by
  unfold Fits at *
  simp only [Tree.toList, List.mem_append, List.mem_cons] at h
  exact ⟨fun j hj => h j (Or.inl hj), fun j hj => h j (Or.inr (Or.inr hj)),
    h i (Or.inr (Or.inl rfl))⟩

theorem Linked_node {c : Nat → Option Mapping} {l r : Tree} {i : Nat} {prev next : Ptr}
    (h : Linked c prev (Tree.node l i r).toList next) :
    Linked c prev l.toList (some i) ∧ fieldOf c Mapping.lowerPtr none i = lastOr l.toList prev ∧
      fieldOf c Mapping.higherPtr none i = headOr r.toList next ∧
      Linked c (some i) r.toList next := by
  simp only [Tree.toList] at h
  rw [Linked_append, Linked_cons] at h
  exact ⟨h.1, h.2.1, h.2.2.1, h.2.2.2⟩

theorem RedBlack_node {c : Nat → Option Mapping} {l r : Tree} {i k : Nat} {m : Mapping}
    (hm : c i = some m) (h : RedBlack c (Tree.node l i r) k) :
    ∃ kc, RedBlack c l kc ∧ RedBlack c r kc ∧
      (if m.color = Color.kColorBlack then kc + 1 else kc) = k ∧
      (m.color = Color.kColorRed → blackPtr c l.root ∧ blackPtr c r.root) ∧
      (m.color = Color.kColorRed ∨ m.color = Color.kColorBlack) := by
  have hc : colorOf c i = m.color := fieldOf_some hm _ _
  unfold RedBlack at h
  rw [hc] at h
  rcases h with ⟨h1, h2, h3, h4, h5⟩ | ⟨h1, h2, h3, h4⟩
  · exact ⟨k, h4, h5, by simp [h1], fun _ => ⟨h2, h3⟩, Or.inl h1⟩
  · refine ⟨k - 1, h3, h4, ?_, fun h => ?_, Or.inr h1⟩
    · simp only [h1, ↓reduceIte]
      omega
    · rw [h1] at h
      cases h

set_option maxHeartbeats 1000000 in
/-- On a subtree that satisfies the tree invariants, `checkInvariant` returns
true and reports the number of black nodes on every path, the first and the
last node. -/
theorem checkInvariantAt_complete (s : Space) :
    ∀ (t : Tree) (fuel : Nat) (par prev next : Ptr) (k : Nat), t.height ≤ fuel →
      Shape s.cells t par → Linked s.cells prev t.toList next → Ordered s.cells t.toList →
      Fits s.cells t.toList → Augmented s.cells t → RedBlack s.cells t k →
      ∀ l i r, t = Tree.node l i r →
        checkInvariantAt fuel s i = Except.ok (some (k, l.minId i, r.maxId i)) := by
  intro t
  induction t with
  | nil => intro _ _ _ _ _ _ _ _ _ _ _ _ l i r e; cases e
  | node l i r ihl ihr =>
    intro fuel par prev next k hf hS hL hO hF hA hR l' i' r' e
    cases e
    obtain ⟨f, rfl⟩ : ∃ f, fuel = f + 1 := ⟨fuel - 1, by simp only [Tree.height] at hf; omega⟩
    have hfl : l.height ≤ f := by simp only [Tree.height] at hf; omega
    have hfr : r.height ≤ f := by simp only [Tree.height] at hf; omega
    rw [Shape_node] at hS
    obtain ⟨m, hm, hmp, hml, hmr, hSl, hSr⟩ := hS
    obtain ⟨ha, hAl, hAr⟩ := hA
    obtain ⟨hLl, hlow, hhigh, hLr⟩ := Linked_node hL
    obtain ⟨hOl, hOr, hOli, hOri, -⟩ := Ordered_node hO
    obtain ⟨hFl, hFr, hFi⟩ := Fits_node hF
    obtain ⟨kc, hRl, hRr, hk, hred, hcol⟩ := RedBlack_node hm hR
    rw [fieldOf_some hm] at hlow hhigh
    have hhole : m.largestHole = wantedHole s.cells m := by
      rw [largestHoleAt, fieldOf_some hm, ownHole_some hm] at ha
      rw [ha, wantedHole, hml, hmr]
    have hcomp : computeHole s m = Except.ok (wantedHole s.cells m) :=
      computeHole_eq
        (fun j hj => by
          obtain ⟨y, hy, -⟩ := hSl.root_alive (hml ▸ hj)
          exact ⟨y, hy⟩)
        (fun j hj => by
          obtain ⟨y, hy, -⟩ := hSr.root_alive (hmr ▸ hj)
          exact ⟨y, hy⟩)
    have hbi : m.baseAddress = baseOf s.cells i := (fieldOf_some hm _ _).symm
    have hli : m.length = lengthOf s.cells i := (fieldOf_some hm _ _).symm
    have hleft : ∀ l1 j l2, l = Tree.node l1 j l2 →
        m.leftPtr = some j ∧
        checkInvariantAt f s j = Except.ok (some (kc, l1.minId j, l2.maxId j)) ∧
        (∃ lm, s.cells j = some lm ∧ (m.color = Color.kColorRed → lm.color = Color.kColorBlack)) ∧
        ∃ pm, s.cells (l2.maxId j) = some pm ∧
          ¬ (m.baseAddress < add64 pm.baseAddress pm.length) ∧
          pm.higherPtr = some i ∧ m.lowerPtr = some (l2.maxId j) := by
      intro l1 j l2 e
      subst e
      have hmem := maxId_mem l1 l2 j
      obtain ⟨pm, hpm⟩ := hSl.mem_alive hmem
      obtain ⟨lm, hlm⟩ := hSl.mem_alive (show j ∈ (Tree.node l1 j l2).toList by simp [Tree.toList])
      refine ⟨hml, ihl f _ _ _ kc hfl hSl hLl hOl hFl hAl hRl l1 j l2 rfl, ⟨lm, hlm, fun h => ?_⟩,
        pm, hpm, ?_, ?_, ?_⟩
      · have := (hred h).1
        simp only [root_node, blackPtr, colorOf, fieldOf_some hlm] at this
        exact this
      · have h1 := hOli _ hmem
        have h2 := hFl _ hmem
        simp only [endOf, baseOf, lengthOf, fieldOf_some hpm, fieldOf_some hm] at h1 h2
        rw [add64_eq h2]
        omega
      · have := hLl.last_higher (lastOr_toList l1 l2 j none)
        rw [fieldOf_some hpm] at this
        exact this
      · rw [hlow, lastOr_toList]
    have hright : ∀ r1 j r2, r = Tree.node r1 j r2 →
        m.rightPtr = some j ∧
        checkInvariantAt f s j = Except.ok (some (kc, r1.minId j, r2.maxId j)) ∧
        (∃ rm, s.cells j = some rm ∧ (m.color = Color.kColorRed → rm.color = Color.kColorBlack)) ∧
        ∃ sm, s.cells (r1.minId j) = some sm ∧
          ¬ (add64 m.baseAddress m.length > sm.baseAddress) ∧
          m.higherPtr = some (r1.minId j) ∧ sm.lowerPtr = some i := by
      intro r1 j r2 e
      subst e
      have hmem := minId_mem r1 r2 j
      obtain ⟨sm, hsm⟩ := hSr.mem_alive hmem
      obtain ⟨rm, hrm⟩ := hSr.mem_alive (show j ∈ (Tree.node r1 j r2).toList by simp [Tree.toList])
      refine ⟨hmr, ihr f _ _ _ kc hfr hSr hLr hOr hFr hAr hRr r1 j r2 rfl, ⟨rm, hrm, fun h => ?_⟩,
        sm, hsm, ?_, ?_, ?_⟩
      · have := (hred h).2
        simp only [root_node, blackPtr, colorOf, fieldOf_some hrm] at this
        exact this
      · have h1 := hOri _ hmem
        simp only [endOf, baseOf, lengthOf, fieldOf_some hsm, fieldOf_some hm] at h1 hFi
        rw [add64_eq hFi]
        omega
      · rw [hhigh, headOr_toList]
      · have := hLr.head_lower (headOr_toList r1 r2 j none)
        rw [fieldOf_some hsm] at this
        exact this
    rw [checkInvariantAt]
    simp only [get_eq hm, bind_okE, hcomp, hhole, ne_eq, not_true_eq_false, ↓reduceIte]
    cases l with
    | nil =>
      have hl0 : m.leftPtr = none := hml
      have e0 : kc = 0 := hRl
      cases r with
      | nil =>
        have hr0 : m.rightPtr = none := hmr
        rcases hcol with hc | hc <;>
          simp [hl0, hr0, isBlack, hc, Tree.minId, Tree.maxId, ← hk, e0]
      | node r1 j r2 =>
        obtain ⟨hr0, hchk, ⟨rm, hrm, hrc⟩, sm, hsm, q1, q2, q3⟩ := hright r1 j r2 rfl
        rcases hcol with hc | hc
        · simp [hl0, hr0, isBlack, hc, Tree.minId, Tree.maxId, ← hk, e0, get_eq hrm, hrc hc,
            hchk, get_eq hsm, q1, q2, q3]
        · simp [hl0, hr0, isBlack, hc, Tree.minId, Tree.maxId, ← hk, e0, get_eq hrm,
            hchk, get_eq hsm, q1, q2, q3]
    | node l1 jl l2 =>
      obtain ⟨hl0, hchkl, ⟨lm, hlm, hlc⟩, pm, hpm, p1, p2, p3⟩ := hleft l1 jl l2 rfl
      cases r with
      | nil =>
        have hr0 : m.rightPtr = none := hmr
        have e0 : kc = 0 := hRr
        rcases hcol with hc | hc
        · simp [hl0, hr0, isBlack, hc, Tree.minId, Tree.maxId, ← hk, get_eq hlm, hlc hc,
            hchkl, get_eq hpm, p1, p2, p3, e0]
        · simp [hl0, hr0, isBlack, hc, Tree.minId, Tree.maxId, ← hk, get_eq hlm,
            hchkl, get_eq hpm, p1, p2, p3, e0]
      | node r1 j r2 =>
        obtain ⟨hr0, hchk, ⟨rm, hrm, hrc⟩, sm, hsm, q1, q2, q3⟩ := hright r1 j r2 rfl
        rcases hcol with hc | hc
        · simp [hl0, hr0, isBlack, hc, Tree.minId, Tree.maxId, ← hk, get_eq hlm, hlc hc,
            hchkl, get_eq hpm, p1, p2, p3, get_eq hrm, hrc hc, hchk, get_eq hsm, q1, q2, q3]
        · simp [hl0, hr0, isBlack, hc, Tree.minId, Tree.maxId, ← hk, get_eq hlm,
            hchkl, get_eq hpm, p1, p2, p3, get_eq hrm, hchk, get_eq hsm, q1, q2, q3]

/-! ### Total correctness -/

theorem Returns.pure_ok {α : Type} {a : α} {Q : α → Prop} (h : Q a) : Returns (Except.ok a) Q := h

theorem Returns.seq {α β : Type} {x : Except Err α} {f : α → Except Err β} {P : α → Prop}
    {Q : β → Prop} (hx : Returns x P) (hf : ∀ a, P a → Returns (f a) Q) :
    Returns (x >>= f) Q := by
  cases x with
  | error e => exact hx.elim
  | ok a => exact hf a hx

theorem Returns.weaken {α : Type} {x : Except Err α} {P Q : α → Prop} (hx : Returns x P)
    (h : ∀ a, P a → Q a) : Returns x Q := by
  cases x with
  | error e => exact hx.elim
  | ok a => exact h a hx

theorem Returns.of_ok {α : Type} {x : Except Err α} {a : α} {Q : α → Prop}
    (h : x = Except.ok a) (hq : Q a) : Returns x Q := by
  rw [h]
  exact hq

theorem Returns.result {α : Type} {x : Except Err α} {Q : α → Prop} (h : Returns x Q) :
    ∃ a, x = Except.ok a ∧ Q a := by
  cases x with
  | error e => exact h.elim
  | ok a => exact ⟨a, rfl, h⟩

theorem Returns.with_post {α : Type} {x : Except Err α} {P Q : α → Prop} (h : Returns x P)
    (hq : Post x Q) : Returns x (fun a => P a ∧ Q a) := by
  cases x with
  | error e => exact h.elim
  | ok a => exact ⟨h, hq a rfl⟩

/-! ### The red-black rules in a context -/

theorem colorOf_upd_self (c : Nat → Option Mapping) (i : Nat) (m : Mapping) :
    colorOf (upd c i m) i = m.color := by
  simp [colorOf, fieldOf, upd]

theorem colorOf_upd_ne (c : Nat → Option Mapping) {i j : Nat} (m : Mapping) (h : j ≠ i) :
    colorOf (upd c i m) j = colorOf c j := by
  simp [colorOf, fieldOf, upd, h]

theorem blackPtr.recolor_ptr {c c' : Nat → Option Mapping} {t : Tree}
    (h : ∀ j ∈ t.toList, colorOf c' j = colorOf c j) (hb : blackPtr c t.root) :
    blackPtr c' t.root := by
  cases t with
  | nil => trivial
  | node l i r =>
    simp only [root_node, blackPtr] at hb ⊢
    rw [h i (by simp [Tree.toList])]
    exact hb

theorem RedBlack.recolor {c c' : Nat → Option Mapping} {t : Tree} {k : Nat}
    (h : ∀ j ∈ t.toList, colorOf c' j = colorOf c j) (hr : RedBlack c t k) :
    RedBlack c' t k := by
  induction t generalizing k with
  | nil => exact hr
  | node l i r ihl ihr =>
    have hl : ∀ j ∈ l.toList, colorOf c' j = colorOf c j :=
      fun j hj => h j (by simp [Tree.toList, hj])
    have hrr : ∀ j ∈ r.toList, colorOf c' j = colorOf c j :=
      fun j hj => h j (by simp [Tree.toList, hj])
    unfold RedBlack at hr ⊢
    rw [h i (by simp [Tree.toList])]
    rcases hr with ⟨h1, h2, h3, h4, h5⟩ | ⟨h1, h2, h3, h4⟩
    · exact Or.inl ⟨h1, blackPtr.recolor_ptr hl h2, blackPtr.recolor_ptr hrr h3, ihl hl h4, ihr hrr h5⟩
    · exact Or.inr ⟨h1, h2, ihl hl h3, ihr hrr h4⟩

theorem RBCtx.recolor_ctx {c c' : Nat → Option Mapping} {fs : List Frame} {k : Nat} {red : Bool}
    (h : ∀ j, (j ∈ ctxBefore fs ∨ j ∈ ctxAfter fs) → colorOf c' j = colorOf c j)
    (hr : RBCtx c fs k red) : RBCtx c' fs k red := by
  induction fs generalizing k red with
  | nil => exact hr
  | cons f fs ih =>
    have hid : colorOf c' f.id = colorOf c f.id :=
      h _ ((mem_ctx_iff _ _).mpr ⟨f, List.mem_cons_self _ _, Or.inl rfl⟩)
    have hsib : ∀ j ∈ f.sib.toList, colorOf c' j = colorOf c j :=
      fun j hj => h _ ((mem_ctx_iff _ _).mpr ⟨f, List.mem_cons_self _ _, Or.inr hj⟩)
    have hrest : ∀ j, (j ∈ ctxBefore fs ∨ j ∈ ctxAfter fs) → colorOf c' j = colorOf c j :=
      fun j hj => h j (by
        obtain ⟨g, hg, hj'⟩ := (mem_ctx_iff _ _).mp hj
        exact (mem_ctx_iff _ _).mpr ⟨g, List.mem_cons_of_mem _ hg, hj'⟩)
    unfold RBCtx at hr ⊢
    rw [hid]
    obtain ⟨h0, h1⟩ := hr
    refine ⟨h0.recolor hsib, ?_⟩
    rcases h1 with ⟨h1, h2, h3, h4⟩ | ⟨h1, h2⟩
    · exact Or.inl ⟨h1, h2, blackPtr.recolor_ptr hsib h3, ih hrest h4⟩
    · exact Or.inr ⟨h1, ih hrest h2⟩

theorem RBCtx.viol {c : Nat → Option Mapping} {fs : List Frame} {k : Nat}
    (h : RBCtx c fs k false) : RBViol c fs k := by
  cases fs with
  | nil => trivial
  | cons f fs =>
    unfold RBCtx at h
    unfold RBViol
    obtain ⟨h0, h1⟩ := h
    refine ⟨h0, ?_⟩
    rcases h1 with ⟨h1, -, h3, h4⟩ | h1
    · exact Or.inl ⟨h1, h3, h4⟩
    · exact Or.inr h1

/-- A subtree with a black root that satisfies the red-black rules fits into a
context that satisfies them. -/
theorem rb_compose {c : Nat → Option Mapping} {fs : List Frame} {t : Tree} {k : Nat} {red : Bool}
    (ht : RedBlack c t k) (hb : red = false → blackPtr c t.root) (hctx : RBCtx c fs k red) :
    blackPtr c (plug fs t).root ∧ ∃ K, RedBlack c (plug fs t) K := by
  induction fs generalizing t k red with
  | nil =>
    have : red = false := hctx
    exact ⟨hb this, k, ht⟩
  | cons f fs ih =>
    unfold RBCtx at hctx
    obtain ⟨h0, h1⟩ := hctx
    rcases h1 with ⟨h1, h2, h3, h4⟩ | ⟨h1, h2⟩
    · refine @ih (f.fill t) k true ?_ (fun h => by cases h) h4
      cases f with
      | left p sib => exact Or.inl ⟨h1, hb h2, h3, ht, h0⟩
      | right sib p => exact Or.inl ⟨h1, h3, hb h2, h0, ht⟩
    · refine @ih (f.fill t) (k + 1) false ?_ (fun _ => ?_) h2
      · cases f with
        | left p sib => exact Or.inr ⟨h1, Nat.succ_pos _, ht, h0⟩
        | right sib p => exact Or.inr ⟨h1, Nat.succ_pos _, h0, ht⟩
      · cases f <;> exact h1

/-- The red-black rules of a tree give the rules of every subtree and of its
context. -/
theorem rb_decompose {c : Nat → Option Mapping} {fs : List Frame} {t : Tree} {K : Nat}
    (hb : blackPtr c (plug fs t).root) (h : RedBlack c (plug fs t) K) :
    ∃ k, RedBlack c t k ∧ (blackPtr c t.root → RBCtx c fs k false) ∧
      (¬ blackPtr c t.root → RBCtx c fs k true) := by
  induction fs generalizing t with
  | nil =>
    exact ⟨K, h, fun _ => rfl, fun hn => absurd hb hn⟩
  | cons f fs ih =>
    obtain ⟨k, hk, hbl, hred⟩ := @ih (f.fill t) hb h
    cases f with
    | left p sib =>
      simp only [Frame.fill] at hk hbl hred
      unfold RedBlack at hk
      rcases hk with ⟨h1, h2, h3, h4, h5⟩ | ⟨h1, h2, h4, h5⟩
      · have hnb : ¬ blackPtr c (Tree.node t p sib).root := by
          simp only [root_node, blackPtr, h1]
          decide
        refine ⟨k, h4, fun _ => ?_, fun hn => absurd h2 hn⟩
        unfold RBCtx
        exact ⟨h5, Or.inl ⟨h1, rfl, h3, hred hnb⟩⟩
      · have hbb : blackPtr c (Tree.node t p sib).root := h1
        have hkk : k - 1 + 1 = k := by omega
        refine ⟨k - 1, h4, fun _ => ?_, fun hn => ?_⟩
        · unfold RBCtx
          exact ⟨h5, Or.inr ⟨h1, hkk ▸ hbl hbb⟩⟩
        · unfold RBCtx
          exact ⟨h5, Or.inr ⟨h1, hkk ▸ hbl hbb⟩⟩
    | right sib p =>
      simp only [Frame.fill] at hk hbl hred
      unfold RedBlack at hk
      rcases hk with ⟨h1, h2, h3, h4, h5⟩ | ⟨h1, h2, h4, h5⟩
      · have hnb : ¬ blackPtr c (Tree.node sib p t).root := by
          simp only [root_node, blackPtr, h1]
          decide
        refine ⟨k, h5, fun _ => ?_, fun hn => absurd h3 hn⟩
        unfold RBCtx
        exact ⟨h4, Or.inl ⟨h1, rfl, h2, hred hnb⟩⟩
      · have hbb : blackPtr c (Tree.node sib p t).root := h1
        have hkk : k - 1 + 1 = k := by omega
        refine ⟨k - 1, h5, fun _ => ?_, fun hn => ?_⟩
        · unfold RBCtx
          exact ⟨h4, Or.inr ⟨h1, hkk ▸ hbl hbb⟩⟩
        · unfold RBCtx
          exact ⟨h4, Or.inr ⟨h1, hkk ▸ hbl hbb⟩⟩

theorem noRot_color (m m' : Mapping) (h : m'.noRot = m.noRot) : m'.color = m.color := by
  have := congrArg Mapping.color h; exact this

theorem recolor_returns {s : Space} {t : Tree} {i : Nat} (col : Color) (hT : TreeAt s t)
    (hA : Augmented s.cells t) (hi : i ∈ t.toList) :
    Returns (s.modify i (fun m => { m with color := col })) (fun s' =>
      TreeAt s' t ∧ Augmented s'.cells t ∧ Same Mapping.noFix s s' ∧
        colorOf s'.cells i = col ∧ ∀ j, j ≠ i → colorOf s'.cells j = colorOf s.cells j) := by
  obtain ⟨m, hm⟩ := Option.isSome_iff_exists.mp (hT.alive hi)
  rw [modify_eq hm]
  have hsame : Same Mapping.treeData s { s with cells := upd s.cells i { m with color := col } } :=
    Same.upd hm rfl
  refine ⟨TreeAt.of_same hsame treeData_links rfl hT, ?_, Same.upd hm rfl, colorOf_upd_self _ _ _,
    fun j hj => colorOf_upd_ne _ _ hj⟩
  exact Augmented.congr_aug
    (fun j _ => ⟨hsame.largestHoleAt treeData_hole _, hsame.ownHole treeData_own j⟩) hA

theorem rotateLeft_returns {s : Space} {fs : List Frame} {a b c : Tree} {u n : Nat}
    (hT : TreeAt s (plug fs (Tree.node a u (Tree.node b n c))))
    (hA : Augmented s.cells (plug fs (Tree.node a u (Tree.node b n c)))) :
    Returns (rotateLeft s n) (fun s' =>
      TreeAt s' (plug fs (Tree.node (Tree.node a u b) n c)) ∧
        Augmented s'.cells (plug fs (Tree.node (Tree.node a u b) n c)) ∧
        Same Mapping.noFix s s' ∧ ∀ j, colorOf s'.cells j = colorOf s.cells j) := by
  obtain ⟨s', e, hT', hA', hs⟩ := rotateLeft_spec hT hA
  rw [e]
  exact ⟨hT', hA', hs.proj Mapping.noFix, fun j => hs.fieldOf _ _ noRot_color j⟩

theorem rotateRight_returns {s : Space} {fs : List Frame} {a b c : Tree} {u n : Nat}
    (hT : TreeAt s (plug fs (Tree.node (Tree.node a n b) u c)))
    (hA : Augmented s.cells (plug fs (Tree.node (Tree.node a n b) u c))) :
    Returns (rotateRight s n) (fun s' =>
      TreeAt s' (plug fs (Tree.node a n (Tree.node b u c))) ∧
        Augmented s'.cells (plug fs (Tree.node a n (Tree.node b u c))) ∧
        Same Mapping.noFix s s' ∧ ∀ j, colorOf s'.cells j = colorOf s.cells j) := by
  obtain ⟨s', e, hT', hA', hs⟩ := rotateRight_spec hT hA
  rw [e]
  exact ⟨hT', hA', hs.proj Mapping.noFix, fun j => hs.fieldOf _ _ noRot_color j⟩

theorem isRed_eq {s : Space} {t : Tree} {par : Ptr} {k : Nat} (hs : Shape s.cells t par)
    (hr : RedBlack s.cells t k) :
    isRed s t.root = Except.ok (decide (¬ blackPtr s.cells t.root)) := by
  cases t with
  | nil => simp [isRed, blackPtr]
  | node l i r =>
    rw [Shape_node] at hs
    obtain ⟨m, hm, -⟩ := hs
    have hc : colorOf s.cells i = m.color := fieldOf_some hm _ _
    unfold RedBlack at hr
    rw [hc] at hr
    simp only [isRed, root_node, get_eq hm, bind_okE, blackPtr, hc]
    rcases hr with ⟨h1, -⟩ | ⟨h1, -⟩ <;> simp [h1]

/-- A black node with two red children whose four subtrees have black roots. -/
theorem rb_three {c : Nat → Option Mapping} {t1 t2 t3 t4 : Tree} {x y z k : Nat}
    (hx : colorOf c x = Color.kColorRed) (hy : colorOf c y = Color.kColorBlack)
    (hz : colorOf c z = Color.kColorRed)
    (h1 : RedBlack c t1 k) (h2 : RedBlack c t2 k) (h3 : RedBlack c t3 k) (h4 : RedBlack c t4 k)
    (b1 : blackPtr c t1.root) (b2 : blackPtr c t2.root) (b3 : blackPtr c t3.root)
    (b4 : blackPtr c t4.root) :
    RedBlack c (Tree.node (Tree.node t1 x t2) y (Tree.node t3 z t4)) (k + 1) :=
  Or.inr ⟨hy, Nat.succ_pos _, Or.inl ⟨hx, b1, b2, h1, h2⟩, Or.inl ⟨hz, b3, b4, h3, h4⟩⟩

theorem rbTree_of_parts {s : Space} {fs : List Frame} {t : Tree} {k : Nat}
    (hT : TreeAt s (plug fs t)) (hA : Augmented s.cells (plug fs t))
    (ht : RedBlack s.cells t k) (hb : blackPtr s.cells t.root)
    (hctx : RBCtx s.cells fs k false) : RBTree s (plug fs t).toList := by
  obtain ⟨h1, h2⟩ := rb_compose ht (fun _ => hb) hctx
  exact ⟨_, hT, rfl, hA, h1, h2⟩

theorem ctx_mem_plug {fs : List Frame} {t : Tree} {j : Nat}
    (h : j ∈ ctxBefore fs ∨ j ∈ ctxAfter fs) : j ∈ (plug fs t).toList := by
  rw [toList_plug]
  simp only [List.mem_append]
  tauto

theorem sub_mem_plug {fs : List Frame} {t : Tree} {j : Nat} (h : j ∈ t.toList) :
    j ∈ (plug fs t).toList := by
  rw [toList_plug]
  simp only [List.mem_append]
  tauto

theorem ctx_tail_mem {f : Frame} {fs : List Frame} {j : Nat}
    (h : j ∈ ctxBefore fs ∨ j ∈ ctxAfter fs) :
    j ∈ ctxBefore (f :: fs) ∨ j ∈ ctxAfter (f :: fs) := by
  obtain ⟨g, hg, hj⟩ := (mem_ctx_iff _ _).mp h
  exact (mem_ctx_iff _ _).mpr ⟨g, List.mem_cons_of_mem _ hg, hj⟩

theorem ctx_id_mem (f : Frame) (fs : List Frame) :
    f.id ∈ ctxBefore (f :: fs) ∨ f.id ∈ ctxAfter (f :: fs) :=
  (mem_ctx_iff _ _).mpr ⟨f, List.mem_cons_self _ _, Or.inl rfl⟩

theorem ctx_sib_mem {f : Frame} {fs : List Frame} {j : Nat} (h : j ∈ f.sib.toList) :
    j ∈ ctxBefore (f :: fs) ∨ j ∈ ctxAfter (f :: fs) :=
  (mem_ctx_iff _ _).mpr ⟨f, List.mem_cons_self _ _, Or.inr h⟩

theorem rb_fill_black {c : Nat → Option Mapping} {f : Frame} {t : Tree} {k : Nat}
    (hf : colorOf c f.id = Color.kColorBlack) (ht : RedBlack c t k)
    (hs : RedBlack c f.sib k) :
    RedBlack c (f.fill t) (k + 1) ∧ blackPtr c (f.fill t).root := by
  cases f with
  | left p sib => exact ⟨Or.inr ⟨hf, Nat.succ_pos _, ht, hs⟩, hf⟩
  | right sib p => exact ⟨Or.inr ⟨hf, Nat.succ_pos _, hs, ht⟩, hf⟩

theorem rb_blacken {c c' : Nat → Option Mapping} {t : Tree} {k u : Nat}
    (hroot : t.root = some u) (hnd : t.toList.Nodup) (hr : RedBlack c t k)
    (hnb : ¬ blackPtr c t.root) (hu : colorOf c' u = Color.kColorBlack)
    (hco : ∀ j ∈ t.toList, j ≠ u → colorOf c' j = colorOf c j) :
    RedBlack c' t (k + 1) ∧ blackPtr c' t.root := by
  cases t with
  | nil => cases hroot
  | node ua u' ub =>
    cases hroot
    obtain ⟨hua, hub, -, -, -⟩ := nodup_node hnd
    have ea : ∀ j ∈ ua.toList, colorOf c' j = colorOf c j :=
      fun j hj => hco j (by simp [Tree.toList, hj]) (ne_of_mem_of_not_mem hj hua)
    have eb : ∀ j ∈ ub.toList, colorOf c' j = colorOf c j :=
      fun j hj => hco j (by simp [Tree.toList, hj]) (ne_of_mem_of_not_mem hj hub)
    rcases hr with ⟨-, -, -, h4, h5⟩ | ⟨h1, -⟩
    · exact ⟨Or.inr ⟨hu, Nat.succ_pos _, h4.recolor ea, h5.recolor eb⟩, hu⟩
    · exact absurd h1 hnb

theorem recolor_after {s1 s2 : Space} {t : Tree} {i : Nat} (col : Color) (hT : TreeAt s2 t)
    (hA : Augmented s2.cells t) (hi : i ∈ t.toList) (hs : Same Mapping.noFix s1 s2)
    (hco : ∀ j, colorOf s2.cells j = colorOf s1.cells j) :
    Returns (s2.modify i (fun m => { m with color := col })) (fun s3 =>
      TreeAt s3 t ∧ Augmented s3.cells t ∧ Same Mapping.noFix s1 s3 ∧
        colorOf s3.cells i = col ∧ ∀ j, j ≠ i → colorOf s3.cells j = colorOf s1.cells j) := by
  refine (recolor_returns col hT hA hi).weaken ?_
  rintro s3 ⟨hT3, hA3, hs3, hc3, hco3⟩
  exact ⟨hT3, hA3, hs.trans_same hs3, hc3, fun j hj => (hco3 j hj).trans (hco j)⟩

/-- After the rotations of `fixAfterInsert`: a black node with two red
children, put where the grandparent was. -/
theorem rb_finish {s1 s4 : Space} {fs : List Frame} {t1 t2 t3 t4 : Tree} {x y z k : Nat}
    {l : List Nat}
    (hT : TreeAt s4 (plug fs (Tree.node (Tree.node t1 x t2) y (Tree.node t3 z t4))))
    (hA : Augmented s4.cells (plug fs (Tree.node (Tree.node t1 x t2) y (Tree.node t3 z t4))))
    (hl : (plug fs (Tree.node (Tree.node t1 x t2) y (Tree.node t3 z t4))).toList = l)
    (hco : ∀ j, j ≠ x → j ≠ y → j ≠ z → colorOf s4.cells j = colorOf s1.cells j)
    (hx : colorOf s4.cells x = Color.kColorRed) (hy : colorOf s4.cells y = Color.kColorBlack)
    (hz : colorOf s4.cells z = Color.kColorRed)
    (h1 : RedBlack s1.cells t1 k) (h2 : RedBlack s1.cells t2 k) (h3 : RedBlack s1.cells t3 k)
    (h4 : RedBlack s1.cells t4 k)
    (b1 : blackPtr s1.cells t1.root) (b2 : blackPtr s1.cells t2.root)
    (b3 : blackPtr s1.cells t3.root) (b4 : blackPtr s1.cells t4.root)
    (hctx : RBCtx s1.cells fs (k + 1) false) : RBTree s4 l := by
  obtain ⟨hnd, hout⟩ := nodup_plug hT.2.2
  obtain ⟨-, hct⟩ := nodup_ctx_of_plug hT.2.2
  obtain ⟨hyL, hyR, hL, hR, hLR⟩ := nodup_node hnd
  obtain ⟨hx1, hx2, -, -, h12⟩ := nodup_node hL
  obtain ⟨hz3, hz4, -, -, h34⟩ := nodup_node hR
  have hxL : x ∈ (Tree.node t1 x t2).toList := by simp [Tree.toList]
  have hzR : z ∈ (Tree.node t3 z t4).toList := by simp [Tree.toList]
  have e1 : ∀ j ∈ t1.toList, colorOf s4.cells j = colorOf s1.cells j := fun j hj =>
    have hjL : j ∈ (Tree.node t1 x t2).toList := by simp [Tree.toList, hj]
    hco j (ne_of_mem_of_not_mem hj hx1) (ne_of_mem_of_not_mem hjL hyL)
      (fun e => hLR j hjL (e ▸ hzR))
  have e2 : ∀ j ∈ t2.toList, colorOf s4.cells j = colorOf s1.cells j := fun j hj =>
    have hjL : j ∈ (Tree.node t1 x t2).toList := by simp [Tree.toList, hj]
    hco j (ne_of_mem_of_not_mem hj hx2) (ne_of_mem_of_not_mem hjL hyL)
      (fun e => hLR j hjL (e ▸ hzR))
  have e3 : ∀ j ∈ t3.toList, colorOf s4.cells j = colorOf s1.cells j := fun j hj =>
    have hjR : j ∈ (Tree.node t3 z t4).toList := by simp [Tree.toList, hj]
    hco j (fun e => hLR x hxL (e ▸ hjR)) (ne_of_mem_of_not_mem hjR hyR)
      (ne_of_mem_of_not_mem hj hz3)
  have e4 : ∀ j ∈ t4.toList, colorOf s4.cells j = colorOf s1.cells j := fun j hj =>
    have hjR : j ∈ (Tree.node t3 z t4).toList := by simp [Tree.toList, hj]
    hco j (fun e => hLR x hxL (e ▸ hjR)) (ne_of_mem_of_not_mem hjR hyR)
      (ne_of_mem_of_not_mem hj hz4)
  have ec : ∀ j, (j ∈ ctxBefore fs ∨ j ∈ ctxAfter fs) →
      colorOf s4.cells j = colorOf s1.cells j := fun j hj =>
    have hjn := hct j hj
    hco j (fun e => hjn (by rw [e]; simp [Tree.toList]))
      (fun e => hjn (by rw [e]; simp [Tree.toList]))
      (fun e => hjn (by rw [e]; simp [Tree.toList]))
  rw [← hl]
  exact rbTree_of_parts hT hA
    (rb_three hx hy hz (h1.recolor e1) (h2.recolor e2) (h3.recolor e3) (h4.recolor e4)
      (blackPtr.recolor_ptr e1 b1) (blackPtr.recolor_ptr e2 b2) (blackPtr.recolor_ptr e3 b3)
      (blackPtr.recolor_ptr e4 b4)) hy (hctx.recolor_ctx ec)

set_option maxHeartbeats 4000000 in
/-- Rebalancing after an insertion completes and restores the red-black
rules: total correctness of `fixAfterInsert`. -/
theorem fixAfterInsert_rb : ∀ (fuel : Nat) (s : Space) (fs : List Frame) (a b : Tree) (n k : Nat),
    fs.length < fuel →
    TreeAt s (plug fs (Tree.node a n b)) → Augmented s.cells (plug fs (Tree.node a n b)) →
    RedBlack s.cells a k → RedBlack s.cells b k →
    blackPtr s.cells a.root → blackPtr s.cells b.root → RBViol s.cells fs k →
    Returns (fixAfterInsert fuel s n) (fun s' =>
      RBTree s' (plug fs (Tree.node a n b)).toList ∧ Same Mapping.noFix s s') := by
  intro fuel
  induction fuel with
  | zero => intro s fs a b n k hf; omega
  | succ fuel ih =>
    intro s fs a b n k hf hT hA hRa hRb hBa hBb hV
    obtain ⟨hsc, hsh, hnd⟩ := (treeAt_plug _ _ _).mp hT
    have hsh' := hsh
    rw [Shape_node] at hsh'
    obtain ⟨nm, hnm, hnp, hnl, hnr, hsa, hsb⟩ := hsh'
    have hn_mem : n ∈ (plug fs (Tree.node a n b)).toList := by
      rw [toList_plug]
      simp [Tree.toList]
    obtain ⟨hna, hnb, -, -, -⟩ := nodup_node (nodup_plug hT.2.2).1
    obtain ⟨hcnd, hct⟩ := nodup_ctx_of_plug hT.2.2
    rw [fixAfterInsert, get_eq hnm]
    simp only [bind_okE]
    cases fs with
    | nil =>
      have hp : nm.parentPtr = none := hnp
      simp only [hp]
      refine (recolor_returns Color.kColorBlack hT hA hn_mem).weaken ?_
      rintro s' ⟨hT', hA', hs', hcn', hco'⟩
      refine ⟨⟨Tree.node a n b, hT', rfl, hA', hcn', k + 1, Or.inr ⟨hcn', Nat.succ_pos _, ?_, ?_⟩⟩,
        hs'⟩
      · exact hRa.recolor (fun j hj => hco' j (ne_of_mem_of_not_mem hj hna))
      · exact hRb.recolor (fun j hj => hco' j (ne_of_mem_of_not_mem hj hnb))
    | cons f fs' =>
      have hp : nm.parentPtr = some f.id := hnp
      simp only [hp]
      refine Returns.seq (recolor_returns Color.kColorRed hT hA hn_mem) ?_
      rintro s1 ⟨hT1, hA1, hs1, hcn1, hco1⟩
      -- the subtree of the new node, now red
      have hRa1 : RedBlack s1.cells a k :=
        hRa.recolor (fun j hj => hco1 j (ne_of_mem_of_not_mem hj hna))
      have hRb1 : RedBlack s1.cells b k :=
        hRb.recolor (fun j hj => hco1 j (ne_of_mem_of_not_mem hj hnb))
      have hBa1 : blackPtr s1.cells a.root :=
        blackPtr.recolor_ptr (fun j hj => hco1 j (ne_of_mem_of_not_mem hj hna)) hBa
      have hBb1 : blackPtr s1.cells b.root :=
        blackPtr.recolor_ptr (fun j hj => hco1 j (ne_of_mem_of_not_mem hj hnb)) hBb
      have hRn1 : RedBlack s1.cells (Tree.node a n b) k := Or.inl ⟨hcn1, hBa1, hBb1, hRa1, hRb1⟩
      have hctx1 : ∀ j, (j ∈ ctxBefore (f :: fs') ∨ j ∈ ctxAfter (f :: fs')) →
          colorOf s1.cells j = colorOf s.cells j :=
        fun j hj => hco1 j (fun e => hct j hj (by rw [e]; simp [Tree.toList]))
      -- the parent
      have hT1' : TreeAt s1 (plug fs' (f.fill (Tree.node a n b))) := hT1
      obtain ⟨hsc1, hsh1, hnd1⟩ := (treeAt_plug _ _ _).mp hT1'
      obtain ⟨pm, hpm, hpc⟩ : ∃ pm, s1.cells f.id = some pm ∧ pm.color = colorOf s.cells f.id := by
        obtain ⟨pm, hpm⟩ := hsh1.mem_alive (show f.id ∈ (f.fill (Tree.node a n b)).toList by
          cases f <;> simp [Frame.fill, Frame.id, Tree.toList])
        refine ⟨pm, hpm, ?_⟩
        rw [← hctx1 f.id ((mem_ctx_iff _ _).mpr ⟨f, List.mem_cons_self _ _, Or.inl rfl⟩)]
        exact (fieldOf_some hpm _ _).symm
      rw [get_eq hpm]
      simp only [bind_okE]
      unfold RBViol at hV
      obtain ⟨hRsib, hV⟩ := hV
      have hRsib1 : RedBlack s1.cells f.sib k :=
        hRsib.recolor (fun j hj =>
          hctx1 j ((mem_ctx_iff _ _).mpr ⟨f, List.mem_cons_self _ _, Or.inr hj⟩))
      have hrest1 : ∀ j, (j ∈ ctxBefore fs' ∨ j ∈ ctxAfter fs') →
          colorOf s1.cells j = colorOf s.cells j :=
        fun j hj => hctx1 j (by
          obtain ⟨g, hg, hj'⟩ := (mem_ctx_iff _ _).mp hj
          exact (mem_ctx_iff _ _).mpr ⟨g, List.mem_cons_of_mem _ hg, hj'⟩)
      by_cases hblack : pm.color = Color.kColorBlack
      · simp only [hblack, ↓reduceIte]
        have hctxb : RBCtx s.cells fs' (k + 1) false := by
          rcases hV with ⟨h1, -⟩ | ⟨-, h2⟩
          · rw [← hpc, hblack] at h1
            cases h1
          · exact h2
        refine ⟨?_, hs1⟩
        refine @rbTree_of_parts s1 fs' (f.fill (Tree.node a n b)) (k + 1) hT1' hA1 ?_ ?_
          (hctxb.recolor_ctx hrest1)
        · cases f with
          | left p sib => exact Or.inr ⟨(fieldOf_some hpm _ _).trans hblack, Nat.succ_pos _, hRn1, hRsib1⟩
          | right sib p => exact Or.inr ⟨(fieldOf_some hpm _ _).trans hblack, Nat.succ_pos _, hRsib1, hRn1⟩
        · cases f <;> exact (fieldOf_some hpm _ _).trans hblack
      · simp only [hblack, ↓reduceIte]
        have hpred : colorOf s.cells f.id = Color.kColorRed ∧ blackPtr s.cells f.sib.root ∧
            RBCtx s.cells fs' k true := by
          rcases hV with h1 | ⟨h1, -⟩
          · exact h1
          · exact absurd (hpc.trans h1) hblack
        obtain ⟨hpr, hBsib, hctx'⟩ := hpred
        have hBsib1 : blackPtr s1.cells f.sib.root :=
          blackPtr.recolor_ptr (fun j hj =>
            hctx1 j ((mem_ctx_iff _ _).mpr ⟨f, List.mem_cons_self _ _, Or.inr hj⟩)) hBsib
        have hpr1 : colorOf s1.cells f.id = Color.kColorRed :=
          (hctx1 f.id ((mem_ctx_iff _ _).mpr ⟨f, List.mem_cons_self _ _, Or.inl rfl⟩)).trans hpr
        cases fs' with
        | nil => cases hctx'
        | cons g fs'' =>
          unfold RBCtx at hctx'
          obtain ⟨hRunc, hctx'⟩ := hctx'
          have hgctx : colorOf s.cells g.id = Color.kColorBlack ∧
              RBCtx s.cells fs'' (k + 1) false := by
            rcases hctx' with ⟨-, h, -⟩ | h
            · cases h
            · exact h
          obtain ⟨hgb, hctx''⟩ := hgctx
          have hgmem : (g.id ∈ ctxBefore (g :: fs'') ∨ g.id ∈ ctxAfter (g :: fs'')) :=
            (mem_ctx_iff _ _).mpr ⟨g, List.mem_cons_self _ _, Or.inl rfl⟩
          have hgb1 : colorOf s1.cells g.id = Color.kColorBlack := (hrest1 _ hgmem).trans hgb
          have hRunc1 : RedBlack s1.cells g.sib k :=
            hRunc.recolor (fun j hj =>
              hrest1 j ((mem_ctx_iff _ _).mpr ⟨g, List.mem_cons_self _ _, Or.inr hj⟩))
          have hctx1'' : RBCtx s1.cells fs'' (k + 1) false :=
            hctx''.recolor_ctx (fun j hj => hrest1 j (by
              obtain ⟨g', hg', hj'⟩ := (mem_ctx_iff _ _).mp hj
              exact (mem_ctx_iff _ _).mpr ⟨g', List.mem_cons_of_mem _ hg', hj'⟩))
          have hpp : pm.parentPtr = some g.id := by
            obtain ⟨y, hy, hyp⟩ := hsh1.root_alive (show (f.fill (Tree.node a n b)).root = some f.id by
              cases f <;> rfl)
            rw [hpm] at hy
            cases hy
            exact hyp
          simp only [hpp, Thor.assertSome, bind_okE]
          have hT1'' : TreeAt s1 (plug fs'' (g.fill (f.fill (Tree.node a n b)))) := hT1
          obtain ⟨hsc2, hsh2, hnd2⟩ := (treeAt_plug _ _ _).mp hT1''
          obtain ⟨gm, hgm⟩ := hsh2.mem_alive (show g.id ∈ (g.fill (f.fill (Tree.node a n b))).toList by
            cases g <;> simp [Frame.fill, Frame.id, Tree.toList])
          have hgc : gm.color = Color.kColorBlack := by
            rw [← hgb1]
            exact (fieldOf_some hgm _ _).symm
          rw [get_eq hgm]
          simp only [bind_okE, hgc, decide_True, Thor.assert, ↓reduceIte]
          -- the nodes involved are distinct
          obtain ⟨hcnd', hpsib, hsibnd, hcf⟩ := nodup_ctx_cons hcnd
          obtain ⟨-, hgsib, hgsibnd, hcg⟩ := nodup_ctx_cons hcnd'
          have hnf : n ≠ f.id := fun e => hct _ (ctx_id_mem f _) (by rw [← e]; simp [Tree.toList])
          have hngid : n ≠ g.id :=
            fun e => hct _ (ctx_tail_mem (ctx_id_mem g _)) (by rw [← e]; simp [Tree.toList])
          have hgf : g.id ≠ f.id := (hcf _ (ctx_id_mem g _)).1
          have hpT : f.id ∈ (plug (f :: g :: fs'') (Tree.node a n b)).toList :=
            ctx_mem_plug (ctx_id_mem f _)
          have hgT : g.id ∈ (plug (f :: g :: fs'') (Tree.node a n b)).toList :=
            ctx_mem_plug (ctx_tail_mem (ctx_id_mem g _))
          have hlen : fs''.length < fuel := by
            simp only [List.length_cons] at hf
            omega
          have hrec : ∀ u, g.sib.root = some u → ¬ blackPtr s1.cells g.sib.root →
              Returns (do
                let t ← s1.modify g.id (fun m => { m with color := Color.kColorRed })
                let t ← t.modify f.id (fun m => { m with color := Color.kColorBlack })
                let uncle ← deref (some u)
                let t ← t.modify uncle (fun m => { m with color := Color.kColorBlack })
                fixAfterInsert fuel t g.id)
                (fun s' => RBTree s' (plug (f :: g :: fs'') (Tree.node a n b)).toList ∧
                  Same Mapping.noFix s s') := by
            intro u hu hub
            have hus : u ∈ g.sib.toList := mem_root hu
            have hug : u ≠ g.id := ne_of_mem_of_not_mem hus hgsib
            have hup : u ≠ f.id := (hcf _ (ctx_sib_mem hus)).1
            have huT : u ∈ (plug (f :: g :: fs'') (Tree.node a n b)).toList :=
              ctx_mem_plug (ctx_tail_mem (ctx_sib_mem hus))
            refine Returns.seq (recolor_returns Color.kColorRed hT1 hA1 hgT) ?_
            rintro s2 ⟨hT2, hA2, hs2, hc2, hco2⟩
            refine Returns.seq (recolor_returns Color.kColorBlack hT2 hA2 hpT) ?_
            rintro s3 ⟨hT3, hA3, hs3, hc3, hco3⟩
            simp only [deref, bind_okE]
            refine Returns.seq (recolor_returns Color.kColorBlack hT3 hA3 huT) ?_
            rintro s4 ⟨hT4, hA4, hs4, hc4, hco4⟩
            have hco : ∀ j, j ≠ g.id → j ≠ f.id → j ≠ u →
                colorOf s4.cells j = colorOf s1.cells j :=
              fun j h1 h2 h3 => (hco4 j h3).trans ((hco3 j h2).trans (hco2 j h1))
            have hg4 : colorOf s4.cells g.id = Color.kColorRed :=
              (hco4 _ hug.symm).trans ((hco3 _ hgf).trans hc2)
            have hp4 : colorOf s4.cells f.id = Color.kColorBlack := (hco4 _ hup.symm).trans hc3
            have hU4 : ∀ j ∈ (Tree.node a n b).toList, colorOf s4.cells j = colorOf s1.cells j :=
              fun j hj => hco j
                (fun e => hct _ (ctx_tail_mem (ctx_id_mem g _)) (e ▸ hj))
                (fun e => hct _ (ctx_id_mem f _) (e ▸ hj))
                (fun e => hct _ (ctx_tail_mem (ctx_sib_mem hus)) (e ▸ hj))
            have hS4 : ∀ j ∈ f.sib.toList, colorOf s4.cells j = colorOf s1.cells j :=
              fun j hj => hco j
                (fun e => (hcf _ (ctx_id_mem g _)).2 (e ▸ hj))
                (ne_of_mem_of_not_mem hj hpsib)
                (fun e => (hcf _ (ctx_sib_mem hus)).2 (e ▸ hj))
            have hC4 : ∀ j, (j ∈ ctxBefore fs'' ∨ j ∈ ctxAfter fs'') →
                colorOf s4.cells j = colorOf s1.cells j :=
              fun j hj => hco j (hcg j hj).1 (hcf j (ctx_tail_mem hj)).1
                (fun e => (hcg j hj).2 (e ▸ hus))
            obtain ⟨hRP, hBP⟩ := @rb_fill_black s4.cells f (Tree.node a n b) k hp4
              (hRn1.recolor hU4) (hRsib1.recolor hS4)
            have hV4 : RBViol s4.cells fs'' (k + 1) := (hctx1''.recolor_ctx hC4).viol
            obtain ⟨hRU, hBU⟩ := rb_blacken hu hgsibnd hRunc1 hub hc4
              (fun j hj hne => hco j (ne_of_mem_of_not_mem hj hgsib) (hcf _ (ctx_sib_mem hj)).1 hne)
            have hsn : Same Mapping.noFix s s4 :=
              hs1.trans_same (hs2.trans_same (hs3.trans_same hs4))
            cases g with
            | left gid uncle =>
              refine (ih s4 fs'' (f.fill (Tree.node a n b)) uncle gid (k + 1) hlen hT4 hA4
                hRP hRU hBP hBU hV4).weaken ?_
              rintro s' ⟨h1, h2⟩
              exact ⟨h1, hsn.trans_same h2⟩
            | right uncle gid =>
              refine (ih s4 fs'' uncle (f.fill (Tree.node a n b)) gid (k + 1) hlen hT4 hA4
                hRU hRP hBU hBP hV4).weaken ?_
              rintro s' ⟨h1, h2⟩
              exact ⟨h1, hsn.trans_same h2⟩
          have hnsib : n ∉ f.sib.toList :=
            fun h => hct _ (ctx_sib_mem h) (by simp [Tree.toList])
          have hpunc : g.sib.root ≠ some f.id :=
            fun h => (hcf _ (ctx_sib_mem (mem_root h))).1 rfl
          cases g with
          | left gid uncle =>
            have hsh2' : Shape s1.cells (Tree.node (f.fill (Tree.node a n b)) gid uncle)
                (ctxParent fs'') := hsh2
            rw [Shape_node] at hsh2'
            obtain ⟨gm', hgm', -, hgl, hgr, hshP, hshU⟩ := hsh2'
            cases hgm.symm.trans hgm'
            have hgl' : gm.leftPtr = some f.id := by
              rw [hgl]
              cases f <;> rfl
            simp only [hgl', decide_True, Thor.andAlso, ↓reduceIte, hgr, isRed_eq hshU hRunc1,
              bind_okE]
            by_cases hub : blackPtr s1.cells uncle.root
            · have hpunc' : ¬ (uncle.root = some f.id) := hpunc
              simp only [hub, not_true_eq_false, decide_False, Bool.false_eq_true, ↓reduceIte,
                hpunc', bind_okE]
              cases f with
              | left p sib =>
                have hshP' : Shape s1.cells (Tree.node (Tree.node a n b) p sib) (some gid) := hshP
                rw [Shape_node] at hshP'
                obtain ⟨pm', hpm', -, -, hpr', -, -⟩ := hshP'
                cases hpm.symm.trans hpm'
                have hne : ¬ (some n = pm.rightPtr) := by
                  rw [hpr']
                  exact fun e => hnsib (mem_root e.symm)
                rw [if_neg hne]
                have hT1L : TreeAt s1
                    (plug fs'' (Tree.node (Tree.node (Tree.node a n b) p sib) gid uncle)) := hT1
                refine Returns.seq (rotateRight_returns hT1L hA1) ?_
                rintro s2 ⟨hT2, hA2, hs2, hco2⟩
                refine Returns.seq (recolor_after Color.kColorBlack hT2 hA2
                  (sub_mem_plug (by simp [Tree.toList, Frame.id])) hs2 hco2) ?_
                rintro s3 ⟨hT3, hA3, hs3, hc3, hco3⟩
                refine (recolor_returns Color.kColorRed hT3 hA3
                  (sub_mem_plug (by simp [Tree.toList, Frame.id]))).weaken ?_
                rintro s4 ⟨hT4, hA4, hs4, hc4, hco4⟩
                refine ⟨rb_finish hT4 hA4 ?_ (fun j _ h2 h3 => (hco4 j h3).trans (hco3 j h2))
                  ((hco4 n hngid).trans ((hco3 n hnf).trans hcn1)) ((hco4 p hgf.symm).trans hc3) hc4
                  hRa1 hRb1 hRsib1 hRunc1 hBa1 hBb1 hBsib1 hub hctx1'',
                  hs1.trans_same (hs3.trans_same hs4)⟩
                show (plug fs'' _).toList = (plug fs'' _).toList
                rw [toList_plug, toList_plug]
                simp [Tree.toList, Frame.id]
              | right sib p =>
                have hshP' : Shape s1.cells (Tree.node sib p (Tree.node a n b)) (some gid) := hshP
                rw [Shape_node] at hshP'
                obtain ⟨pm', hpm', -, -, hpr', -, -⟩ := hshP'
                cases hpm.symm.trans hpm'
                have he : some n = pm.rightPtr := hpr'.symm
                rw [if_pos he]
                have hT1L : TreeAt s1
                    (plug (Frame.left gid uncle :: fs'') (Tree.node sib p (Tree.node a n b))) := hT1
                refine Returns.seq (rotateLeft_returns hT1L hA1) ?_
                rintro s2 ⟨hT2, hA2, hs2, hco2⟩
                have hT2' : TreeAt s2
                    (plug fs'' (Tree.node (Tree.node (Tree.node sib p a) n b) gid uncle)) := hT2
                refine Returns.seq (rotateRight_returns hT2' hA2) ?_
                rintro s3 ⟨hT3, hA3, hs3, hco3⟩
                refine Returns.seq (recolor_after Color.kColorBlack hT3 hA3
                  (sub_mem_plug (by simp [Tree.toList, Frame.id])) (hs2.trans_same hs3)
                  (fun j => (hco3 j).trans (hco2 j))) ?_
                rintro s4 ⟨hT4, hA4, hs4, hc4, hco4⟩
                refine (recolor_returns Color.kColorRed hT4 hA4
                  (sub_mem_plug (by simp [Tree.toList, Frame.id]))).weaken ?_
                rintro s5 ⟨hT5, hA5, hs5, hc5, hco5⟩
                refine ⟨rb_finish hT5 hA5 ?_ (fun j h1 h2 h3 => (hco5 j h3).trans (hco4 j h2))
                  ((hco5 p hgf.symm).trans ((hco4 p hnf.symm).trans hpr1))
                  ((hco5 n hngid).trans hc4) hc5
                  hRsib1 hRa1 hRb1 hRunc1 hBsib1 hBa1 hBb1 hub hctx1'',
                  hs1.trans_same (hs4.trans_same hs5)⟩
                show (plug fs'' _).toList = (plug fs'' _).toList
                rw [toList_plug, toList_plug]
                simp [Tree.toList, Frame.id]
            · simp only [hub, not_false_eq_true, decide_True, ↓reduceIte]
              cases huu : uncle.root with
              | none =>
                rw [huu] at hub
                exact absurd trivial hub
              | some u => exact hrec u huu (by rw [huu] at hub; rw [show (Frame.left gid uncle).sib.root = some u from huu]; exact hub)
          | right uncle gid =>
            have hsh2' : Shape s1.cells (Tree.node uncle gid (f.fill (Tree.node a n b)))
                (ctxParent fs'') := hsh2
            rw [Shape_node] at hsh2'
            obtain ⟨gm', hgm', -, hgl, hgr, hshU, hshP⟩ := hsh2'
            cases hgm.symm.trans hgm'
            have hgr' : gm.rightPtr = some f.id := by
              rw [hgr]
              cases f <;> rfl
            have hpunc' : ¬ (uncle.root = some f.id) := hpunc
            simp only [hgl, hpunc', decide_False, Thor.andAlso, Bool.false_eq_true, ↓reduceIte,
              bind_okE, hgr', decide_True, isRed_eq hshU hRunc1]
            by_cases hub : blackPtr s1.cells uncle.root
            · have hne0 : ¬ (some f.id = uncle.root) := fun e => hpunc' e.symm
              simp only [hub, not_true_eq_false, decide_False, Bool.false_eq_true, ↓reduceIte,
                hne0, bind_okE, Thor.assert, decide_True]
              cases f with
              | left p sib =>
                have hshP' : Shape s1.cells (Tree.node (Tree.node a n b) p sib) (some gid) := hshP
                rw [Shape_node] at hshP'
                obtain ⟨pm', hpm', -, hpl', -, -, -⟩ := hshP'
                cases hpm.symm.trans hpm'
                have he : some n = pm.leftPtr := hpl'.symm
                rw [if_pos he]
                have hT1R : TreeAt s1
                    (plug (Frame.right uncle gid :: fs'') (Tree.node (Tree.node a n b) p sib)) := hT1
                refine Returns.seq (rotateRight_returns hT1R hA1) ?_
                rintro s2 ⟨hT2, hA2, hs2, hco2⟩
                have hT2' : TreeAt s2
                    (plug fs'' (Tree.node uncle gid (Tree.node a n (Tree.node b p sib)))) := hT2
                refine Returns.seq (rotateLeft_returns hT2' hA2) ?_
                rintro s3 ⟨hT3, hA3, hs3, hco3⟩
                refine Returns.seq (recolor_after Color.kColorBlack hT3 hA3
                  (sub_mem_plug (by simp [Tree.toList, Frame.id])) (hs2.trans_same hs3)
                  (fun j => (hco3 j).trans (hco2 j))) ?_
                rintro s4 ⟨hT4, hA4, hs4, hc4, hco4⟩
                refine (recolor_returns Color.kColorRed hT4 hA4
                  (sub_mem_plug (by simp [Tree.toList, Frame.id]))).weaken ?_
                rintro s5 ⟨hT5, hA5, hs5, hc5, hco5⟩
                refine ⟨rb_finish hT5 hA5 ?_ (fun j h1 h2 _ => (hco5 j h1).trans (hco4 j h2))
                  hc5 ((hco5 n hngid).trans hc4)
                  ((hco5 p hgf.symm).trans ((hco4 p hnf.symm).trans hpr1))
                  hRunc1 hRa1 hRb1 hRsib1 hub hBa1 hBb1 hBsib1 hctx1'',
                  hs1.trans_same (hs4.trans_same hs5)⟩
                show (plug fs'' _).toList = (plug fs'' _).toList
                rw [toList_plug, toList_plug]
                simp [Tree.toList, Frame.id]
              | right sib p =>
                have hshP' : Shape s1.cells (Tree.node sib p (Tree.node a n b)) (some gid) := hshP
                rw [Shape_node] at hshP'
                obtain ⟨pm', hpm', -, hpl', -, -, -⟩ := hshP'
                cases hpm.symm.trans hpm'
                have hne : ¬ (some n = pm.leftPtr) := by
                  rw [hpl']
                  exact fun e => hnsib (mem_root e.symm)
                rw [if_neg hne]
                have hT1R : TreeAt s1
                    (plug fs'' (Tree.node uncle gid (Tree.node sib p (Tree.node a n b)))) := hT1
                refine Returns.seq (rotateLeft_returns hT1R hA1) ?_
                rintro s2 ⟨hT2, hA2, hs2, hco2⟩
                refine Returns.seq (recolor_after Color.kColorBlack hT2 hA2
                  (sub_mem_plug (by simp [Tree.toList, Frame.id])) hs2 hco2) ?_
                rintro s3 ⟨hT3, hA3, hs3, hc3, hco3⟩
                refine (recolor_returns Color.kColorRed hT3 hA3
                  (sub_mem_plug (by simp [Tree.toList, Frame.id]))).weaken ?_
                rintro s4 ⟨hT4, hA4, hs4, hc4, hco4⟩
                refine ⟨rb_finish hT4 hA4 ?_ (fun j h1 h2 _ => (hco4 j h1).trans (hco3 j h2))
                  hc4 ((hco4 p hgf.symm).trans hc3)
                  ((hco4 n hngid).trans ((hco3 n hnf).trans hcn1))
                  hRunc1 hRsib1 hRa1 hRb1 hub hBsib1 hBa1 hBb1 hctx1'',
                  hs1.trans_same (hs3.trans_same hs4)⟩
                show (plug fs'' _).toList = (plug fs'' _).toList
                rw [toList_plug, toList_plug]
                simp [Tree.toList, Frame.id]
            · simp only [hub, not_false_eq_true, decide_True, ↓reduceIte]
              cases huu : uncle.root with
              | none =>
                rw [huu] at hub
                exact absurd trivial hub
              | some u => exact hrec u huu (by rw [huu] at hub; rw [show (Frame.right uncle gid).sib.root = some u from huu]; exact hub)

/-! ### Insertion completes and keeps all tree invariants -/

theorem height_le_length (t : Tree) : t.height ≤ t.toList.length := by
  induction t with
  | nil => exact Nat.le_refl _
  | node l i r ihl ihr =>
    simp only [Tree.height, Tree.toList, List.length_append, List.length_cons]
    omega

theorem length_ctx (fs : List Frame) : fs.length ≤ (ctxBefore fs).length + (ctxAfter fs).length := by
  induction fs with
  | nil => exact Nat.le_refl _
  | cons f fs ih =>
    cases f with
    | left p sib =>
      simp only [ctxBefore, ctxAfter, List.length_cons, List.length_append]
      omega
    | right sib p =>
      simp only [ctxBefore, ctxAfter, List.length_cons, List.length_append, List.length_nil]
      omega

theorem length_plug (fs : List Frame) (t : Tree) :
    fs.length + t.toList.length ≤ (plug fs t).toList.length := by
  rw [toList_plug]
  have := length_ctx fs
  simp only [List.length_append]
  omega

theorem RedBlack.blackHeight_eq {c : Nat → Option Mapping} {t : Tree} {k : Nat}
    (h : RedBlack c t k) : blackHeight c t = k := by
  induction t generalizing k with
  | nil => exact h.symm
  | node l i r ihl _ =>
    unfold RedBlack at h
    unfold blackHeight
    rcases h with ⟨h1, -, -, h4, -⟩ | ⟨h1, h2, h3, -⟩
    · rw [ihl h4, h1]
      simp
    · rw [ihl h3, h1]
      simp only [↓reduceIte]
      omega

theorem assertInvariant_ok {s : Space} {t : Tree} {fuel K : Nat} (hT : TreeAt s t)
    (hL : Linked s.cells none t.toList none) (hO : Ordered s.cells t.toList)
    (hF : Fits s.cells t.toList) (hA : Augmented s.cells t) (hR : RedBlack s.cells t K)
    (hf : t.toList.length ≤ fuel) : assertInvariant fuel s = Except.ok () := by
  unfold assertInvariant checkInvariant
  cases t with
  | nil =>
    have : s.p_root = none := hT.1
    simp only [this, bind_okE]
    rfl
  | node l i r =>
    have : s.p_root = some i := hT.1
    simp only [this]
    rw [checkInvariantAt_complete s (Tree.node l i r) fuel none none none K
      ((height_le_length _).trans hf) hT.2.1 hL hO hF hA hR l i r rfl]
    rfl

theorem ValidTree.of_parts {s : Space} {t : Tree} {K : Nat} (hT : TreeAt s t)
    (hL : Linked s.cells none t.toList none) (hO : Ordered s.cells t.toList)
    (hF : Fits s.cells t.toList) (hA : Augmented s.cells t) (hB : blackPtr s.cells t.root)
    (hR : RedBlack s.cells t K) : ValidTree s t :=
  ⟨hT.1, hT.2.1, hT.2.2, hO, hF, hL, hA, hB, hR.blackHeight_eq.symm ▸ hR⟩

theorem pairwise_last {R : Nat → Nat → Prop} {A : List Nat} {z : Nat} (h : A.Pairwise R)
    (hz : lastOr A none = some z) : ∀ a ∈ A, a = z ∨ R a z := by
  induction A with
  | nil => intro a ha; cases ha
  | cons x xs ih =>
    rw [List.pairwise_cons] at h
    cases xs with
    | nil =>
      simp only [lastOr] at hz
      cases hz
      intro a ha
      left
      simpa using ha
    | cons y ys =>
      have hz' : lastOr (y :: ys) none = some z := by simpa [lastOr] using hz
      intro a ha
      rcases List.mem_cons.mp ha with e | e
      · subst e
        right
        have hzm : z ∈ y :: ys := by
          rcases lastOr_mem hz' with h' | h'
          · exact h'
          · cases h'
        exact h.1 z hzm
      · exact ih h.2 hz' a e

theorem lastOr_cons_some (x : Nat) (xs : List Nat) (d : Ptr) :
    ∃ z, lastOr (x :: xs) d = some z := by
  induction xs generalizing x d with
  | nil => exact ⟨x, rfl⟩
  | cons y ys ih => exact ih y (some x)

/-- A new range between two neighbours keeps the search-tree order. -/
theorem Ordered.insert {c : Nat → Option Mapping} {A B : List Nat} {n : Nat}
    (h : Ordered c (A ++ B))
    (hA : ∀ a, lastOr A none = some a → endOf c a ≤ baseOf c n)
    (hB : ∀ b, headOr B none = some b → endOf c n ≤ baseOf c b) :
    Ordered c (A ++ n :: B) := by
  unfold Ordered at h ⊢
  rw [List.pairwise_append] at h ⊢
  obtain ⟨h1, h2, h3⟩ := h
  have hAn : ∀ a ∈ A, endOf c a ≤ baseOf c n := by
    intro a ha
    cases hl : lastOr A none with
    | none =>
      cases A with
      | nil => cases ha
      | cons x xs =>
        obtain ⟨z, hz⟩ := lastOr_cons_some x xs none
        rw [hz] at hl
        cases hl
    | some z =>
      rcases pairwise_last h1 hl a ha with e | e
      · subst e
        exact hA _ hl
      · exact e.trans ((base_le_end c z).trans (hA z hl))
  have hnB : ∀ b ∈ B, endOf c n ≤ baseOf c b := by
    intro b hb
    cases B with
    | nil => cases hb
    | cons y ys =>
      have hy := hB y rfl
      rcases List.mem_cons.mp hb with e | e
      · subst e
        exact hy
      · rw [List.pairwise_cons] at h2
        exact hy.trans ((base_le_end c y).trans (h2.1 b e))
  refine ⟨h1, List.pairwise_cons.mpr ⟨hnB, h2⟩, fun a ha b hb => ?_⟩
  rcases List.mem_cons.mp hb with e | e
  · subst e
    exact hAn a ha
  · exact h3 a ha b e

theorem Ordered.congr_ranges {c c' : Nat → Option Mapping} {l : List Nat}
    (h : ∀ j, baseOf c' j = baseOf c j ∧ lengthOf c' j = lengthOf c j) (ho : Ordered c l) :
    Ordered c' l := by
  unfold Ordered at *
  refine ho.imp (fun {i j} hij => ?_)
  unfold endOf at *
  rw [(h i).1, (h i).2, (h j).1]
  exact hij

theorem Fits.congr_fits {c c' : Nat → Option Mapping} {l : List Nat}
    (h : ∀ j, baseOf c' j = baseOf c j ∧ lengthOf c' j = lengthOf c j) (hf : Fits c l) :
    Fits c' l := by
  intro i hi
  have := hf i hi
  unfold endOf at *
  rw [(h i).1, (h i).2]
  exact this

theorem noHole_color (m m' : Mapping) (h : m'.noHole = m.noHole) : m'.color = m.color := by
  have := congrArg Mapping.color h; exact this

theorem Same.ranges {α : Type} {f : Mapping → α} {s t : Space} (h : Same f s t)
    (hk : ∀ m m', f m' = f m → m'.keys = m.keys) (j : Nat) :
    baseOf t.cells j = baseOf s.cells j ∧ lengthOf t.cells j = lengthOf s.cells j :=
  ⟨h.fieldOf _ _ (fun m m' e => keys_base m m' (hk m m' e)) j,
    h.fieldOf _ _ (fun m m' e => keys_length m m' (hk m m' e)) j⟩

theorem paint_fields {c c' : Nat → Option Mapping} {j : Nat}
    (h : (c' j).map Mapping.paint = (c j).map Mapping.paint) :
    colorOf c' j = colorOf c j ∧ baseOf c' j = baseOf c j ∧ lengthOf c' j = lengthOf c j := by
  cases hc : c j with
  | none =>
    rw [hc] at h
    cases hc' : c' j with
    | none => simp [colorOf, baseOf, lengthOf, fieldOf, hc, hc']
    | some m' => rw [hc'] at h; cases h
  | some m =>
    rw [hc] at h
    cases hc' : c' j with
    | none => rw [hc'] at h; cases h
    | some m' =>
      rw [hc'] at h
      simp only [Option.map_some', Option.some.injEq, Mapping.paint, Prod.mk.injEq] at h
      simp [colorOf, baseOf, lengthOf, fieldOf, hc, hc', h.1, h.2.1, h.2.2]

theorem linkLeft_paint (c : Nat → Option Mapping) (n cur : Nat) (pred : Ptr) (j : Nat) :
    (linkLeft c n cur pred j).map Mapping.paint = (c j).map Mapping.paint := by
  unfold linkLeft
  rw [map_updF_same _ _ _ _ _ (by intro _; rfl), map_updF_same _ _ _ _ _ (by intro _; rfl),
    map_updIf_same _ _ _ _ _ (by intro _; rfl), map_updF_same _ _ _ _ _ (by intro _; rfl),
    map_updF_same _ _ _ _ _ (by intro _; rfl)]

theorem linkRight_paint (c : Nat → Option Mapping) (n cur : Nat) (succ : Ptr) (j : Nat) :
    (linkRight c n cur succ j).map Mapping.paint = (c j).map Mapping.paint := by
  unfold linkRight
  rw [map_updIf_same _ _ _ _ _ (by intro _; rfl), map_updF_same _ _ _ _ _ (by intro _; rfl),
    map_updF_same _ _ _ _ _ (by intro _; rfl), map_updF_same _ _ _ _ _ (by intro _; rfl),
    map_updF_same _ _ _ _ _ (by intro _; rfl)]

/-- The end of an insertion: the augment is propagated, the tree is
rebalanced, and the closing invariant check passes. -/
theorem insert_tail_returns (full : Nat) {s5 : Space} {f : Frame} {fs : List Frame} {n : Nat}
    (hT : TreeAt s5 (plug (f :: fs) (Tree.node Tree.nil n Tree.nil)))
    (han : Augmented s5.cells (Tree.node Tree.nil n Tree.nil))
    (hasib : Augmented s5.cells f.sib)
    (hctx : AugCtx s5.cells fs (largestHoleAt s5.cells (some f.id)))
    (hL : Linked s5.cells none (plug (f :: fs) (Tree.node Tree.nil n Tree.nil)).toList none)
    (hO : Ordered s5.cells (plug (f :: fs) (Tree.node Tree.nil n Tree.nil)).toList)
    (hF : Fits s5.cells (plug (f :: fs) (Tree.node Tree.nil n Tree.nil)).toList)
    (hrb : RBCtx s5.cells (f :: fs) 0 false)
    (hfuel : (plug (f :: fs) (Tree.node Tree.nil n Tree.nil)).toList.length ≤ full) :
    Returns (do
      let s ← updateLargestHoleUpwards full s5 (some f.id)
      let s ← fixAfterInsert full s n
      assertInvariant full s
      Except.ok s) (fun s' => ∃ t', ValidTree s' t' ∧
        t'.toList = (plug (f :: fs) (Tree.node Tree.nil n Tree.nil)).toList) := by
  have hlen := length_plug (f :: fs) (Tree.node Tree.nil n Tree.nil)
  simp only [List.length_cons, Tree.toList, List.nil_append, List.length_nil] at hlen
  have hupd : ∃ s6, updateLargestHoleUpwards full s5 (some f.id) = Except.ok s6 ∧
      TreeAt s6 (plug (f :: fs) (Tree.node Tree.nil n Tree.nil)) ∧
      Augmented s6.cells (plug (f :: fs) (Tree.node Tree.nil n Tree.nil)) ∧
      Same Mapping.noHole s5 s6 := by
    cases f with
    | left p sib =>
      obtain ⟨s6, e, h1, h2, h3, -⟩ := updateLargestHoleUpwards_spec fs full s5
        (Tree.node Tree.nil n Tree.nil) sib p (by omega) hT han hasib hctx
      exact ⟨s6, e, h1, h2, h3⟩
    | right sib p =>
      obtain ⟨s6, e, h1, h2, h3, -⟩ := updateLargestHoleUpwards_spec fs full s5
        sib (Tree.node Tree.nil n Tree.nil) p (by omega) hT hasib han hctx
      exact ⟨s6, e, h1, h2, h3⟩
  obtain ⟨s6, e6, hT6, hA6, hs56⟩ := hupd
  rw [e6]
  simp only [bind_okE]
  have hcol6 : ∀ j, colorOf s6.cells j = colorOf s5.cells j :=
    fun j => hs56.fieldOf _ _ noHole_color j
  refine Returns.seq (fixAfterInsert_rb full s6 (f :: fs) Tree.nil Tree.nil n 0
    (by simp only [List.length_cons]; omega) hT6 hA6 rfl rfl trivial trivial
    (hrb.recolor_ctx (fun j _ => hcol6 j)).viol) ?_
  rintro s7 ⟨⟨t', hT7, hl7, hA7, hB7, K, hR7⟩, hs67⟩
  have hr56 := hs56.ranges noHole_keys
  have hr67 := hs67.ranges noFix_keys
  have hr : ∀ j, baseOf s7.cells j = baseOf s5.cells j ∧
      lengthOf s7.cells j = lengthOf s5.cells j :=
    fun j => ⟨(hr67 j).1.trans (hr56 j).1, (hr67 j).2.trans (hr56 j).2⟩
  have hL7 : Linked s7.cells none t'.toList none := by
    rw [hl7]
    exact (hL.of_same_linked hs56 noHole_lower noHole_higher).of_same_linked hs67
      noFix_lower noFix_higher
  have hO7 : Ordered s7.cells t'.toList := hl7 ▸ hO.congr_ranges hr
  have hF7 : Fits s7.cells t'.toList := hl7 ▸ hF.congr_fits hr
  rw [assertInvariant_ok hT7 hL7 hO7 hF7 hA7 hR7 (hl7 ▸ hfuel)]
  exact ⟨t', ValidTree.of_parts hT7 hL7 hO7 hF7 hA7 hB7 hR7, hl7⟩

theorem Fits.insert_fits {c : Nat → Option Mapping} {A B : List Nat} {n : Nat}
    (h : Fits c (A ++ B)) (hn : endOf c n < wordMod) : Fits c (A ++ n :: B) := by
  intro i hi
  rcases List.mem_append.mp hi with e | e
  · exact h i (List.mem_append_left _ e)
  · rcases List.mem_cons.mp e with e | e
    · subst e
      exact hn
    · exact h i (List.mem_append_right _ e)

set_option maxHeartbeats 2000000 in
/-- The descent of an insertion completes: its assertions hold for a new range
that lies apart from the ranges of the tree, and the tree it leaves satisfies
all tree invariants. -/
theorem insertLoop_total (full n : Nat) (m : Mapping) (fuel : Nat) :
    ∀ (s : Space) (fs : List Frame) (t : Tree) (cur : Nat),
      TreeAt s (plug fs t) → Augmented s.cells (plug fs t) →
      Linked s.cells none (plug fs t).toList none →
      Ordered s.cells (plug fs t).toList → Fits s.cells (plug fs t).toList →
      blackPtr s.cells (plug fs t).root → (∃ K, RedBlack s.cells (plug fs t) K) →
      t.root = some cur → t.height ≤ fuel → (plug fs t).toList.length + 1 ≤ full →
      n ∉ (plug fs t).toList → s.cells n = some m → m.unlinked →
      0 < m.length → m.baseAddress + m.length < wordMod →
      (∀ i ∈ (plug fs t).toList,
        m.baseAddress + m.length ≤ baseOf s.cells i ∨ endOf s.cells i ≤ m.baseAddress) →
      PathOk s.cells m.baseAddress (add64 m.baseAddress m.length) fs →
      Returns (insertLoop full fuel s n cur) (fun s' =>
        ∃ t', ValidTree s' t' ∧
          ∃ A B, (plug fs t).toList = A ++ B ∧ t'.toList = A ++ n :: B) := by
  induction fuel with
  | zero =>
    intro s fs t cur _ _ _ _ _ _ _ hroot hh
    cases t with
    | nil => cases hroot
    | node a j b => simp [Tree.height] at hh
  | succ k ih =>
    intro s fs t cur hT hA hL hO hF hB hR hroot hh hfull hn hm hu hlen hfit hdis hpath
    obtain ⟨h1, h2, h3, h4, h5, hlh⟩ := hu
    cases t with
    | nil => cases hroot
    | node a j b =>
      cases hroot
      obtain ⟨hsc, hsh, hnd⟩ := (treeAt_plug _ _ _).mp hT
      have hsh' := hsh
      rw [Shape_node] at hsh'
      obtain ⟨cm, hcm, hcp, hcl, hcr, hsa, hsb⟩ := hsh'
      have hbase : baseOf s.cells cur = cm.baseAddress := fieldOf_some hcm _ _
      have hlenc : lengthOf s.cells cur = cm.length := fieldOf_some hcm _ _
      have hbn : baseOf s.cells n = m.baseAddress := fieldOf_some hm _ _
      have hln : lengthOf s.cells n = m.length := fieldOf_some hm _ _
      have hcur : cur ∈ (plug fs (Tree.node a cur b)).toList :=
        sub_mem_plug (by simp [Tree.toList])
      have hFc := hF cur hcur
      have hdc := hdis cur hcur
      unfold endOf at hFc hdc
      rw [hbase, hlenc] at hFc hdc
      have hadd : add64 m.baseAddress m.length = m.baseAddress + m.length := add64_eq hfit
      have haddc : add64 cm.baseAddress cm.length = cm.baseAddress + cm.length := add64_eq hFc
      have hha : a.height ≤ k := by simp only [Tree.height] at hh; omega
      have hhb : b.height ≤ k := by simp only [Tree.height] at hh; omega
      have hFn : endOf s.cells n < wordMod := by
        unfold endOf
        rw [hbn, hln]
        exact hfit
      obtain ⟨K, hRK⟩ := hR
      by_cases hlt : m.baseAddress < cm.baseAddress
      · have hle : add64 m.baseAddress m.length ≤ cm.baseAddress := by
          rw [hadd]
          omega
        cases a with
        | nil =>
          obtain ⟨cm', hcm', hl0, halive, hT5, ha5, hb5, hc5, hL5⟩ :=
            linkLeft_inv hT hA hL hn hm h1 h2 hlh
          rw [hcm] at hcm'
          cases hcm'
          rw [insertLoop_left_eq full k hm hcm hlt hle hl0 halive]
          have hp5 : ∀ j, colorOf (linkLeft s.cells n cur cm.lowerPtr) j = colorOf s.cells j ∧
              baseOf (linkLeft s.cells n cur cm.lowerPtr) j = baseOf s.cells j ∧
              lengthOf (linkLeft s.cells n cur cm.lowerPtr) j = lengthOf s.cells j :=
            fun j => paint_fields (linkLeft_paint _ _ _ _ j)
          have hold : (plug fs (Tree.node Tree.nil cur b)).toList =
              ctxBefore fs ++ cur :: (b.toList ++ ctxAfter fs) := by
            rw [toList_plug]; simp [Tree.toList]
          have hnew : (plug (Frame.left cur b :: fs) (Tree.node Tree.nil n Tree.nil)).toList =
              ctxBefore fs ++ n :: cur :: (b.toList ++ ctxAfter fs) := by
            show (plug fs _).toList = _
            rw [toList_plug]; simp [Tree.toList]
          have hOn : Ordered s.cells (ctxBefore fs ++ n :: cur :: (b.toList ++ ctxAfter fs)) := by
            refine Ordered.insert (hold ▸ hO) (fun x hx => ?_) (fun y hy => ?_)
            · have hxm : x ∈ (plug fs (Tree.node Tree.nil cur b)).toList := by
                rw [hold]
                rcases lastOr_mem hx with e | e
                · exact List.mem_append_left _ e
                · cases e
              have hFx := hF x hxm
              have := (pathOk_before hpath hx).2
              rw [add64_eq hFx] at this
              unfold endOf
              rw [hbn]
              exact this
            · cases hy
              unfold endOf
              rw [hbn, hln, hbase]
              omega
          have hFnew : Fits s.cells (ctxBefore fs ++ n :: cur :: (b.toList ++ ctxAfter fs)) :=
            Fits.insert_fits (hold ▸ hF) hFn
          obtain ⟨k0, hk0, hkb, -⟩ := @rb_decompose s.cells (Frame.left cur b :: fs) Tree.nil K
            hB hRK
          have hk00 : k0 = 0 := hk0
          subst hk00
          refine (@insert_tail_returns full
            ⟨linkLeft s.cells n cur cm.lowerPtr, s.next, s.p_root, s.p_pageSpace⟩
            (Frame.left cur b) fs n hT5 ha5 hb5 hc5 hL5
            (hnew ▸ hOn.congr_ranges (fun j => (hp5 j).2))
            (hnew ▸ hFnew.congr_fits (fun j => (hp5 j).2))
            ((hkb trivial).recolor_ctx (fun j _ => (hp5 j).1))
            (by rw [hnew]; rw [hold] at hfull; simp only [List.length_append, List.length_cons] at hfull ⊢; omega)).weaken ?_
          rintro s' ⟨t', hv, hl⟩
          exact ⟨t', hv, ctxBefore fs, cur :: (b.toList ++ ctxAfter fs), hold, hl.trans hnew⟩
        | node a1 j a2 =>
          have hstep : insertLoop full (k + 1) s n cur = insertLoop full k s n j := by
            rw [insertLoop]
            simp only [get_eq hm, get_eq hcm, hlt, ↓reduceIte, Thor.assert, hle, decide_True,
              bind_okE, hcl, root_node]
          rw [hstep]
          exact ih s (Frame.left cur b :: fs) (Tree.node a1 j a2) j hT hA hL hO hF hB ⟨K, hRK⟩ rfl
            hha hfull hn hm ⟨h1, h2, h3, h4, h5, hlh⟩ hlen hfit hdis
            ⟨by rw [hbase]; exact ⟨hlt, hle⟩, hpath⟩
      · have hle : add64 cm.baseAddress cm.length ≤ m.baseAddress := by
          rw [haddc]
          omega
        cases b with
        | nil =>
          obtain ⟨cm', hcm', hr0, halive, hT5, ha5, hb5, hc5, hL5⟩ :=
            linkRight_inv hT hA hL hn hm h1 h2 hlh
          rw [hcm] at hcm'
          cases hcm'
          rw [insertLoop_right_eq full k hm hcm hlt hle hr0 halive]
          have hp5 : ∀ j, colorOf (linkRight s.cells n cur cm.higherPtr) j = colorOf s.cells j ∧
              baseOf (linkRight s.cells n cur cm.higherPtr) j = baseOf s.cells j ∧
              lengthOf (linkRight s.cells n cur cm.higherPtr) j = lengthOf s.cells j :=
            fun j => paint_fields (linkRight_paint _ _ _ _ j)
          have hold : (plug fs (Tree.node a cur Tree.nil)).toList =
              (ctxBefore fs ++ (a.toList ++ [cur])) ++ ctxAfter fs := by
            rw [toList_plug]; simp [Tree.toList]
          have hnew : (plug (Frame.right a cur :: fs) (Tree.node Tree.nil n Tree.nil)).toList =
              (ctxBefore fs ++ (a.toList ++ [cur])) ++ n :: ctxAfter fs := by
            show (plug fs _).toList = _
            rw [toList_plug]; simp [Tree.toList]
          have hOn : Ordered s.cells
              ((ctxBefore fs ++ (a.toList ++ [cur])) ++ n :: ctxAfter fs) := by
            refine Ordered.insert (hold ▸ hO) (fun x hx => ?_) (fun y hy => ?_)
            · simp only [lastOr_append, lastOr] at hx
              cases hx
              unfold endOf
              rw [hbn, hbase, hlenc]
              omega
            · have := (pathOk_after hpath hy).2
              rw [hadd] at this
              unfold endOf
              rw [hbn, hln]
              exact this
          have hFnew : Fits s.cells ((ctxBefore fs ++ (a.toList ++ [cur])) ++ n :: ctxAfter fs) :=
            Fits.insert_fits (hold ▸ hF) hFn
          obtain ⟨k0, hk0, hkb, -⟩ := @rb_decompose s.cells (Frame.right a cur :: fs) Tree.nil K
            hB hRK
          have hk00 : k0 = 0 := hk0
          subst hk00
          refine (@insert_tail_returns full
            ⟨linkRight s.cells n cur cm.higherPtr, s.next, s.p_root, s.p_pageSpace⟩
            (Frame.right a cur) fs n hT5 hb5 ha5 hc5 hL5
            (hnew ▸ hOn.congr_ranges (fun j => (hp5 j).2))
            (hnew ▸ hFnew.congr_fits (fun j => (hp5 j).2))
            ((hkb trivial).recolor_ctx (fun j _ => (hp5 j).1))
            (by rw [hnew]; rw [hold] at hfull; simp only [List.length_append, List.length_cons] at hfull ⊢; omega)).weaken ?_
          rintro s' ⟨t', hv, hl⟩
          exact ⟨t', hv, ctxBefore fs ++ (a.toList ++ [cur]), ctxAfter fs, hold, hl.trans hnew⟩
        | node b1 j b2 =>
          have hstep : insertLoop full (k + 1) s n cur = insertLoop full k s n j := by
            rw [insertLoop]
            simp only [get_eq hm, get_eq hcm, hlt, ↓reduceIte, Thor.assert, hle, decide_True,
              bind_okE, hcr, root_node, ge_iff_le]
          rw [hstep]
          exact ih s (Frame.right a cur :: fs) (Tree.node b1 j b2) j hT hA hL hO hF hB ⟨K, hRK⟩ rfl
            hhb hfull hn hm ⟨h1, h2, h3, h4, h5, hlh⟩ hlen hfit hdis
            ⟨by rw [hbase, hlenc]; exact ⟨Nat.le_of_not_lt hlt, hle⟩, hpath⟩

/-- Total correctness of `addressTreeInsert`: on a tree that satisfies the
tree invariants, the insertion of a mapping that is as its constructor left
it, whose range is not empty, does not wrap around and lies apart from the
ranges of the tree, completes, and the tree it leaves satisfies the tree
invariants and has the old in-order sequence with the new node put in. -/
theorem addressTreeInsert_total {fuel : Nat} {s : Space} {t : Tree} {n : Nat} {m : Mapping}
    (hv : ValidTree s t) (hfuel : t.toList.length + 1 ≤ fuel)
    (hn : n ∉ t.toList) (hm : s.cells n = some m) (hu : m.unlinked)
    (hlen : 0 < m.length) (hfit : m.baseAddress + m.length < wordMod)
    (hdis : ∀ i ∈ t.toList,
      m.baseAddress + m.length ≤ baseOf s.cells i ∨ endOf s.cells i ≤ m.baseAddress) :
    Returns (addressTreeInsert fuel s n) (fun s' =>
      ∃ t', ValidTree s' t' ∧ ∃ A B, t.toList = A ++ B ∧ t'.toList = A ++ n :: B) := by
  obtain ⟨hroot, hsh, hnd, hO, hF, hL, hA, hB, hR⟩ := hv
  have hT : TreeAt s t := ⟨hroot, hsh, hnd⟩
  rw [addressTreeInsert, assertInvariant_ok hT hL hO hF hA hR (by omega)]
  simp only [bind_okE]
  cases t with
  | nil =>
    have hr : s.p_root = none := hroot
    simp only [hr]
    obtain ⟨h1, h2, h3, h4, h5, hlh⟩ := hu
    have hT1 : TreeAt { s with p_root := some n } (plug [] (Tree.node Tree.nil n Tree.nil)) := by
      refine ⟨rfl, ?_, by simp [plug, Tree.toList]⟩
      show Shape s.cells (Tree.node Tree.nil n Tree.nil) none
      rw [Shape_node]
      exact ⟨m, hm, h3, h1, h2, trivial, trivial⟩
    have hA1 : Augmented s.cells (plug [] (Tree.node Tree.nil n Tree.nil)) := by
      refine ⟨?_, trivial, trivial⟩
      simp only [root_nil, largestHoleAt, fieldOf_some hm, ownHole_some hm, hlh]
      simp
    refine Returns.seq (fixAfterInsert_rb fuel { s with p_root := some n } [] Tree.nil Tree.nil
      n 0 (by simp only [List.length_nil]; omega) hT1 hA1 rfl rfl trivial trivial trivial) ?_
    rintro s7 ⟨⟨t', hT7, hl7, hA7, hB7, K, hR7⟩, hs67⟩
    have hl7' : t'.toList = [n] := hl7
    have hr := hs67.ranges noFix_keys
    have hL1 : Linked s.cells none [n] none := by
      rw [Linked_cons]
      exact ⟨by rw [fieldOf_some hm, h4], by rw [fieldOf_some hm, h5]; rfl, trivial⟩
    have hL7 : Linked s7.cells none t'.toList none := by
      rw [hl7']
      exact @Linked.of_same_linked _ _ { s with p_root := some n } s7 none none [n] hs67
        noFix_lower noFix_higher hL1
    have hO7 : Ordered s7.cells t'.toList := by
      rw [hl7']
      exact List.pairwise_singleton _ _
    have hF7 : Fits s7.cells t'.toList := by
      rw [hl7']
      intro i hi
      rw [List.mem_singleton.mp hi]
      unfold endOf
      rw [(hr n).1, (hr n).2]
      show baseOf s.cells n + lengthOf s.cells n < wordMod
      rw [baseOf, lengthOf, fieldOf_some hm, fieldOf_some hm]
      exact hfit
    rw [assertInvariant_ok hT7 hL7 hO7 hF7 hA7 hR7 (by rw [hl7']; simp only [List.length_singleton]; omega)]
    exact ⟨t', ValidTree.of_parts hT7 hL7 hO7 hF7 hA7 hB7 hR7, [], [], rfl, hl7'⟩
  | node a j b =>
    have hr : s.p_root = some j := hroot
    simp only [hr]
    exact insertLoop_total fuel n m fuel s [] (Tree.node a j b) j hT hA hL hO hF hB ⟨_, hR⟩ rfl
      ((height_le_length _).trans (by omega)) hfuel hn hm hu hlen hfit hdis trivial

/-! ### Scenarios and boundary cases -/


set_option maxRecDepth 100000 in
/-- C1 (code bug): after `setupDefaultMappings` and two single-page maps the
address tree is valid and its root, object 3, has two children;
`addressTreeRemove` of that root does not complete: `replaceNode` calls
`updateLargestHoleUpwards(parent)` with `parent == nullptr`, a null
dereference. -/
theorem addressTreeRemove_root_two_children_fails :
    Returns (pagesMapped 2) (fun x =>
      ValidTree x.1 twoMapsTree ∧ x.1.p_root = some 3 ∧
      failure (addressTreeRemove 16 x.1 3) = some Err.nullDeref) := by
  decide!

set_option maxRecDepth 100000 in
/-- C7 (code bug): after seven single-page maps and the unmap of page 3 the
address tree is valid, its root (object 7) is a hole of one page with two
children, and `root.largestHole` is at least one page; `allocate` of one page
with `prefer_bottom` picks the root, and `splitHole` removes it through
`addressTreeRemove`, which does not complete (null dereference in
`replaceNode`). -/
theorem allocate_root_hole_two_children_fails :
    Returns (pagesUnmapped 7 [3]) (fun x =>
      ValidTree x.1 sevenMapsTree ∧ kPageSize ≤ largestHoleAt x.1.cells x.1.p_root ∧
      failure (allocate 16 x.1 kPageSize bottomReadWrite) = some Err.nullDeref) := by
  decide!

set_option maxRecDepth 100000 in
/-- C8 (counterexample): after nine single-page maps and the unmap of pages 0
and 3 the address tree is valid and object 1, the hole at page 0, is a hole of
one page; `allocate` of one page with `prefer_bottom` returns a mapping whose
base is page 3, not page 0. -/
theorem allocate_bottom_not_first_fit :
    Returns (pagesUnmapped 9 [3, 0]) (fun x =>
      ValidTree x.1 nineMapsTree ∧ kPageSize ≤ largestHoleAt x.1.cells x.1.p_root ∧
      1 ∈ nineMapsTree.toList ∧ typeOf x.1.cells 1 = MappingType.kTypeHole ∧
      kPageSize ≤ lengthOf x.1.cells 1 ∧ baseOf x.1.cells 1 = pageAddr 0 ∧
      Returns (allocate 16 x.1 kPageSize bottomReadWrite) (fun r =>
        r.2.map (baseOf r.1.cells) = some (pageAddr 3))) := by
  decide!

set_option maxRecDepth 100000 in
/-- C9 (counterexample): after three single-page maps and the unmap of page 1
the address tree is valid and object 6, the hole that ends at
`0x800000000000`, fits one page; `allocate` of one page with `prefer_top`
returns a mapping that ends at page 2. -/
theorem allocate_top_not_last_fit :
    Returns (pagesUnmapped 3 [1]) (fun x =>
      ValidTree x.1 threeMapsTree ∧ kPageSize ≤ largestHoleAt x.1.cells x.1.p_root ∧
      6 ∈ threeMapsTree.toList ∧ typeOf x.1.cells 6 = MappingType.kTypeHole ∧
      kPageSize ≤ lengthOf x.1.cells 6 ∧ endOf x.1.cells 6 = 0x800000000000 ∧
      Returns (allocate 16 x.1 kPageSize topReadWrite) (fun r =>
        r.2.map (endOf r.1.cells) = some (pageAddr 2))) := by
  decide!

/-- One unfolding of `checkInvariantAt`. -/
theorem checkInvariantAt_succ (f : Nat) (s : Space) (i : Nat) : checkInvariantAt (f + 1) s i = 
   (do
    let m ← s.get i
    let hole ← computeHole s m
    if m.largestHole ≠ hole then Except.ok none else
    let lb ← isBlack s m.leftPtr
    let bad ← if m.color = Color.kColorRed then
        (if !lb then Except.ok true else do
          let rb ← isBlack s m.rightPtr
          Except.ok (!rb))
      else Except.ok false
    if bad then Except.ok none else
    let left ← match m.leftPtr with
      | some l => do
        let r ← checkInvariantAt f s l
        match r with
        | none => Except.ok none
        | some (left_black_depth, minimal, predecessor) => do
          let pm ← s.get predecessor
          if m.baseAddress < add64 pm.baseAddress pm.length then Except.ok none
          else if pm.higherPtr ≠ some i then Except.ok none
          else if m.lowerPtr ≠ some predecessor then Except.ok none
          else Except.ok (some (left_black_depth, minimal))
      | none => Except.ok (some (0, i))
    match left with
    | none => Except.ok none
    | some (left_black_depth, minimal) => do
      let right ← match m.rightPtr with
        | some r => do
          let res ← checkInvariantAt f s r
          match res with
          | none => Except.ok none
          | some (right_black_depth, successor, maximal) => do
            let sm ← s.get successor
            if add64 m.baseAddress m.length > sm.baseAddress then Except.ok none
            else if m.higherPtr ≠ some successor then Except.ok none
            else if sm.lowerPtr ≠ some i then Except.ok none
            else Except.ok (some (right_black_depth, maximal))
        | none => Except.ok (some (0, i))
      match right with
      | none => Except.ok none
      | some (right_black_depth, maximal) =>
        if left_black_depth ≠ right_black_depth then Except.ok none
        else
          Except.ok (some
            (if m.color = Color.kColorBlack then left_black_depth + 1 else left_black_depth,
              minimal, maximal))) := rfl

/-- checkInvariant on a leaf. -/
theorem checkInvariantAt_leaf (f : Nat) (s : Space) (n : Nat) (m : Mapping)
    (hn : s.cells n = some m) (hl : m.leftPtr = none) (hr : m.rightPtr = none)
    (hh : m.largestHole = if m.type = MappingType.kTypeHole then m.length else 0) :
    checkInvariantAt (f + 1) s n = Except.ok (some (if m.color = Color.kColorBlack then 1 else 0, n, n)) := by
  rw [checkInvariantAt_succ]
  simp [Space.get, hn, computeHole, hl, hr, hh, isBlack]

/-- Inserting into an empty tree makes the node the black root. -/
theorem insert_into_empty (f : Nat) (s : Space) (n : Nat) (m : Mapping)
    (hroot : s.p_root = none) (hn : s.cells n = some m)
    (hp : m.parentPtr = none) (hl : m.leftPtr = none) (hr : m.rightPtr = none)
    (hh : m.largestHole = if m.type = MappingType.kTypeHole then m.length else 0) :
    addressTreeInsert (f + 1) s n = Except.ok
      { s with p_root := some n,
               cells := fun j => if j = n then some { m with color := Color.kColorBlack }
                 else s.cells j } := by
  have h1 : fixAfterInsert (f + 1) ({ s with p_root := some n } : Space) n =
      Except.ok ({ s with p_root := some n,
                          cells := fun j => if j = n then some { m with color := Color.kColorBlack }
                            else s.cells j } : Space) := by
    rw [fixAfterInsert]
    simp [Space.get, hn, hp, Space.modify]
  simp only [addressTreeInsert, assertInvariant, checkInvariant, hroot, assert, bind_okE, h1, ite_true]
  rw [checkInvariantAt_leaf f _ n { m with color := Color.kColorBlack }]
  · simp
  · simp
  · exact hl
  · exact hr
  · exact hh

/-- Removing the only node of a tree leaves the empty tree. -/
theorem remove_only_node (f : Nat) (s : Space) (r : Nat) (m : Mapping)
    (hroot : s.p_root = some r) (hn : s.cells r = some m)
    (hp : m.parentPtr = none) (hl : m.leftPtr = none) (hr : m.rightPtr = none)
    (hlo : m.lowerPtr = none) (hhi : m.higherPtr = none) (hc : m.color = Color.kColorBlack)
    (hh : m.largestHole = if m.type = MappingType.kTypeHole then m.length else 0) :
    addressTreeRemove (f + 1) s r = Except.ok
      ({ s with p_root := none,
                cells := fun j => if j = r then some m else s.cells j } : Space) := by
  have hm : ({ m with leftPtr := none, rightPtr := none, parentPtr := none, lowerPtr := none, higherPtr := none } : Mapping) = m := by
    cases m; simp_all
  have h0 : checkInvariantAt (f + 1) s r = Except.ok (some (1, r, r)) := by
    rw [checkInvariantAt_leaf f s r m hn hl hr hh]; simp [hc]
  have h1 : fixAfterRemove (f + 1) s r = Except.ok s := by
    rw [fixAfterRemove]
    simp [Space.get, hn, hc, assert, hp]
  have h2 : removeHalfLeaf (f + 1) s r none = Except.ok
      ({ s with p_root := none,
                cells := fun j => if j = r then some m else s.cells j } : Space) := by
    simp [removeHalfLeaf, Space.get, hn, hlo, hhi, Space.modifyIf, hc, isRed, h1, hl, hr, assert, hp, replaceChild, Space.modify]
    funext j
    by_cases hj : j = r
    · simp only [hj, if_true]; rw [← hc]; exact congrArg some hm
    · simp [hj]
  simp [addressTreeRemove, assertInvariant, checkInvariant, hroot, h0, assert, Space.get, hn, hl, hr, h2]

/-- Inserting a hole right above a tree that consists of one black non-hole
root makes it the red right child of the root. -/
theorem insert_right_of_single (f : Nat) (s : Space) (r n : Nat) (mr mn : Mapping)
    (hroot : s.p_root = some r) (hne : n ≠ r)
    (hr : s.cells r = some mr) (hn : s.cells n = some mn)
    (r1 : mr.parentPtr = none) (r2 : mr.leftPtr = none) (r3 : mr.rightPtr = none)
    (r4 : mr.lowerPtr = none) (r5 : mr.higherPtr = none) (r6 : mr.color = Color.kColorBlack)
    (r7 : mr.largestHole = 0) (r8 : mr.type ≠ MappingType.kTypeHole)
    (n1 : mn.parentPtr = none) (n2 : mn.leftPtr = none) (n3 : mn.rightPtr = none)
    (n4 : mn.type = MappingType.kTypeHole) (n5 : mn.largestHole = mn.length)
    (h1 : mr.baseAddress + mr.length < wordMod) (h2 : mr.baseAddress + mr.length = mn.baseAddress)
    (h3 : mn.baseAddress + mn.length < wordMod) (h4 : 0 < mn.length) :
    addressTreeInsert (f + 2) s n = Except.ok
      ({ s with cells := fun j =>
          if j = n then some { mn with parentPtr := some r, lowerPtr := some r, higherPtr := none,
                                       color := Color.kColorRed }
          else if j = r then some { mr with rightPtr := some n, higherPtr := some n,
                                            largestHole := mn.length }
          else s.cells j } : Space) := by
  have e1 : add64 mr.baseAddress mr.length = mn.baseAddress := by
    rw [add64, Nat.mod_eq_of_lt h1, h2]
  have e2 : add64 mn.baseAddress mn.length = mn.baseAddress + mn.length := by
    rw [add64, Nat.mod_eq_of_lt h3]
  have hne' : r ≠ n := fun h => hne h.symm
  have e3 : ¬ mn.baseAddress < mr.baseAddress := by omega
  have e5 : ¬ 0 = mn.length := by omega
  have c0 : checkInvariantAt (f + 2) s r = Except.ok (some (1, r, r)) := by
    rw [checkInvariantAt_leaf (f + 1) s r mr hr r2 r3 (by simp [r7, r8])]; simp [r6]
  simp only [addressTreeInsert, assertInvariant, checkInvariant, hroot, c0, bind_okE, assert,
    Option.isSome, ite_true]
  rw [insertLoop]
  simp only [Space.get, hr, hn, bind_okE, e1, e3, if_false, ge_iff_le, le_refl, decide_True, assert,
    if_true, Space.modify, hne, hne', Space.modifyIf, r3, r5]
  rw [updateLargestHoleUpwards]
  simp [updateLargestHoleAt, deref, computeHole, Space.get, Space.modify, hne, hne', h4, Space.getP, e5, r1, r2, r7, r8, n5, n4]
  rw [fixAfterInsert]
  simp [Space.get, Space.modify, hne, hne', r6]
  simp only [assertInvariant, checkInvariant, hroot, bind_okE]
  rw [checkInvariantAt_succ]
  simp [Space.get, hne, hne', computeHole, r8, r2, h4, n4, n5, isBlack, r6]
  rw [checkInvariantAt_leaf f _ n
    { mn with parentPtr := some r, lowerPtr := some r, higherPtr := none, color := Color.kColorRed }
    (by simp [n4, n5]) n2 n3 (by show mn.largestHole = _; rw [n4, n5]; simp)]
  simp only [Space.get, hne, hne', if_true, if_false, bind_okE, e1, gt_iff_lt, lt_irrefl, ne_eq,
    not_true_eq_false, not_false_eq_true, assert, Option.isSome, r6]
  simp
  funext j
  by_cases hjn : j = n
  · simp only [hjn, if_true]
  · by_cases hjr : j = r
    · simp only [hjr, if_true, if_false, hne']
    · simp [hjn, hjr]

/-- The page loop of `map` completes when the memory object has a slot for
every page. -/
theorem installLoop_ok (e : Env) (memory : Nat) (mem : Memory) (space base pf : Nat)
    (remap : Bool) (hm : e.memories memory = some mem) :
    ∀ (count i : Nat) (ops : List PageOp), i + count ≤ mem.p_physicalPages.length →
      ∃ ops', installLoop e (some memory) space base pf remap count i ops = Except.ok ops' := by
  intro count
  induction count with
  | zero => intro i ops _; exact ⟨ops, rfl⟩
  | succ k ih =>
    intro i ops h
    have hi : i < mem.p_physicalPages.length := by omega
    have hget : mem.p_physicalPages.get? i = some (mem.p_physicalPages.get ⟨i, hi⟩) :=
      List.get?_eq_get hi
    rw [installLoop]
    simp only [Env.getMemory, hm, Memory.getPage, hget, bind_okE]
    split
    · exact ih (i + 1) ops (by omega)
    · exact ih (i + 1) _ (by omega)

/-- C10: on a fresh address space, `map(len = L, prefer_bottom, read_write)` with
`L` a multiple of the page size and `0 < L < 0x7ffffff00000` returns
`actual_address = 0x100000` and leaves `root.largestHole = 0x7ffffff00000 - L`
(the memory object passed has a slot for each page, the fuel covers the two
levels of the tree). -/
theorem map_fresh_bottom (L fuel : Nat) (e : Env) (memory : Nat) (mem : Memory) (address : Nat)
    (hL : L % kPageSize = 0) (hpos : 0 < L) (hlt : L < 0x7ffffff00000) (hfuel : 3 ≤ fuel)
    (hm : e.memories memory = some mem) (hpages : L / kPageSize ≤ mem.p_physicalPages.length) :
    Returns (setupDefaultMappings fuel emptySpace >>= fun s =>
        map fuel s e (some memory) address L bottomReadWrite)
      (fun r => r.2.2 = 0x100000 ∧
        largestHoleAt r.1.cells r.1.p_root = 0x7ffffff00000 - L) := by
  obtain ⟨f, rfl⟩ : ∃ f, fuel = f + 3 := ⟨fuel - 3, by omega⟩
  -- setupDefaultMappings
  have s0 : setupDefaultMappings (f + 3) emptySpace = Except.ok
      ({ cells := fun j => if j = 0 then
            some { Mapping.mk0 MappingType.kTypeHole 0x100000 0x7ffffff00000 with
                   color := Color.kColorBlack } else none,
         next := 1, p_root := some 0, p_pageSpace := 0 } : Space) := by
    rw [setupDefaultMappings]
    simp only [Space.construct, emptySpace]
    rw [insert_into_empty (f + 2) _ 0 (Mapping.mk0 MappingType.kTypeHole 0x100000 0x7ffffff00000)
      rfl (by simp) rfl rfl rfl (by simp [Mapping.mk0])]
    simp
    funext j
    by_cases hj : j = 0 <;> simp [hj]
  rw [s0, bind_okE]
  have hfix : bottomReadWrite &&& kMapFixed = 0 := by decide
  have hbot : bottomReadWrite &&& kMapPreferBottom ≠ 0 := by decide
  have hmask : bottomReadWrite &&& (kMapReadOnly ||| kMapReadExecute ||| kMapReadWrite)
      = kMapReadWrite := by decide
  have hshare : bottomReadWrite &&& kMapShareOnFork = 0 := by decide
  have a0 : add64 0 L = L := by
    rw [add64, Nat.zero_add, Nat.mod_eq_of_lt]; simp only [wordMod]; omega
  have a1 : add64 0x100000 0 = 0x100000 := by decide
  have a2 : add64 0x100000 L = 0x100000 + L := by
    rw [add64, Nat.mod_eq_of_lt]; simp only [wordMod]; omega
  have a3 : sub64 0x7ffffff00000 L = 0x7ffffff00000 - L := by
    simp only [sub64, wordMod]
    norm_num
    omega
  simp only [map, hL, assert, decide_True, ite_true, bind_okE, hfix, ne_eq, not_true_eq_false,
    ite_false, allocate, Space.getP, Space.get, Mapping.mk0, Nat.not_lt.mpr (Nat.le_of_lt hlt), deref]
  rw [allocateDfs]
  simp only [Space.get, ite_true, bind_okE, hbot, ne_eq, not_false_eq_true, true_and, ge_iff_le,
    Nat.le_of_lt hlt]
  simp only [splitHole, hpos, gt_iff_lt, decide_True, assert, ite_true, bind_okE, Space.get, a0,
    Nat.le_of_lt hlt]
  rw [remove_only_node (f + 2) _ 0
    { baseAddress := 1048576, length := 140737487306752, type := MappingType.kTypeHole,
      lowerPtr := none, higherPtr := none, leftPtr := none, rightPtr := none, parentPtr := none,
      color := Color.kColorBlack, largestHole := 140737487306752, memoryRegion := none,
      memoryOffset := 0, flags := 0, writePermission := false, executePermission := false }
    rfl (by simp) rfl rfl rfl rfl rfl rfl (by simp)]
  simp only [bind_okE]
  rw [destruct]
  simp only [Space.get, ite_true, bind_okE]
  simp only [destruct, bind_okE, Space.construct, a1]
  rw [insert_into_empty (f + 2) _ 1
    (Mapping.mk0 MappingType.kTypeNone 1048576 L) rfl (by simp) rfl rfl rfl (by simp [Mapping.mk0])]
  simp only [bind_okE, hlt, gt_iff_lt, ite_true, a2, a3]
  rw [insert_right_of_single (f + 1) _ 1 (1 + 1)
    { Mapping.mk0 MappingType.kTypeNone 1048576 L with color := Color.kColorBlack }
    (Mapping.mk0 MappingType.kTypeHole (1048576 + L) (140737487306752 - L))
    rfl (by decide) (by simp) (by simp) rfl rfl rfl rfl rfl rfl rfl (by simp [Mapping.mk0])
    rfl rfl rfl rfl rfl
    (by simp only [Mapping.mk0, wordMod]; omega) rfl
    (by simp only [Mapping.mk0, wordMod]; omega) (by simp only [Mapping.mk0]; omega)]
  obtain ⟨ops, hops⟩ := installLoop_ok e memory mem 0 1048576 kAccessWrite false hm
    (L / kPageSize) 0 e.pageOps (by omega)
  simp [Space.modify, hmask, hshare, Space.get, Mapping.mk0, hops, Returns, largestHoleAt, fieldOf,
    assertSome]


/-- C10, witness: one page mapped into a fresh address space lands at
`0x100000` and leaves `root.largestHole = 0x7fffffeff000`. -/
theorem map_fresh_bottom_witness :
    Returns (setupDefaultMappings 3 emptySpace >>= fun s =>
        map 3 s oneMemoryEnv (some 0) 0 0x1000 bottomReadWrite)
      (fun r => r.2.2 = 0x100000 ∧
        largestHoleAt r.1.cells r.1.p_root = 0x7fffffeff000) :=
  map_fresh_bottom 0x1000 3 oneMemoryEnv 0 (blankMemory 16) 0 (by decide) (by decide)
    (by decide) (by decide) rfl (by decide)

/-! ### Further scenarios, lookups and flag checks -/

set_option maxRecDepth 100000 in
/-- C11 (counterexample): on a fresh address space,
`map(len = 0x1000, prefer_top, read_write)` returns `0x7ffffffff000`, the last
page of the managed range, and not `0x7fffffffe000`. -/
theorem map_fresh_top_not_e000 :
    Returns (freshSpace >>= fun s => map 16 s oneMemoryEnv (some 0) 0 0x1000 topReadWrite)
      (fun r => r.2.2 = 0x7ffffffff000 ∧ r.2.2 ≠ 0x7fffffffe000) := by
  decide!

set_option maxRecDepth 100000 in
/-- C12 (code bug): after seven single-page maps and the unmap of page 3 the
address tree is valid and object 7 is a hole of one page at page 3;
`splitHole(hole, 0, 0x1000)` fits the hole exactly and does not return: the
hole is the root and has two children, so `addressTreeRemove` ends in the
null dereference of `replaceNode`. -/
theorem splitHole_root_hole_fails :
    Returns (pagesUnmapped 7 [3]) (fun x =>
      ValidTree x.1 sevenMapsTree ∧ 7 ∈ sevenMapsTree.toList ∧
      typeOf x.1.cells 7 = MappingType.kTypeHole ∧ baseOf x.1.cells 7 = pageAddr 3 ∧
      0 + kPageSize ≤ lengthOf x.1.cells 7 ∧
      failure (splitHole 16 x.1 7 0 kPageSize) = some Err.nullDeref) := by
  decide!

set_option maxRecDepth 100000 in
/-- C15 (code bug): in the address space reached by `setupDefaultMappings` and
one single-page map, a second `map` of one page succeeds and returns
`0x101000`; the following `unmap(0x101000, 0x1000)` does not succeed: the
mapping is the root with two children and `addressTreeRemove` ends in the null
dereference of `replaceNode`. -/
theorem map_unmap_round_trip_fails :
    Returns (pagesMapped 1) (fun x =>
      Returns (map 16 x.1 x.2 (some 0) 0 kPageSize bottomReadWrite) (fun r =>
        r.2.2 = pageAddr 1 ∧
        failure (unmap 16 r.1 r.2.1 r.2.2 kPageSize) = some Err.nullDeref)) := by
  decide!

set_option maxRecDepth 100000 in
/-- C16 (code bug): after two single-page maps the address tree is valid and
object 3 is a memory mapping of one page at page 1, between a memory mapping
and a hole; `unmap` of it does not complete (it is the root and has two
children).  Scenario C itself completes: afterwards the mapping found at
`0x100000` is a hole and the one found at `0x102000` is a memory mapping. -/
theorem unmap_root_two_children_fails :
    Returns (pagesMapped 2) (fun x =>
      ValidTree x.1 twoMapsTree ∧ 3 ∈ twoMapsTree.toList ∧
      typeOf x.1.cells 3 = MappingType.kTypeMemory ∧ baseOf x.1.cells 3 = pageAddr 1 ∧
      lengthOf x.1.cells 3 = kPageSize ∧
      failure (unmap 16 x.1 x.2 (pageAddr 1) kPageSize) = some Err.nullDeref) ∧
    Returns scenarioCMaps (fun r => r.2.2 = 0x102000) ∧
    Returns scenarioC (fun x =>
      Returns (lookupKind x.1 0x100000) (fun k => k = some MappingType.kTypeHole) ∧
      Returns (lookupKind x.1 0x102000) (fun k => k = some MappingType.kTypeMemory)) := by
  decide!

set_option maxRecDepth 100000 in
/-- C18 (code bug): after seven single-page maps and the unmap of page 3 the
address tree is valid and object 7 is a hole that is exactly page 3;
`map` with the fixed flag at `0x103000` for one page, a page-aligned,
non-empty range inside that hole, does not return: the hole is the root and
has two children, so removing it ends in the null dereference of
`replaceNode`. -/
theorem map_fixed_root_hole_fails :
    Returns (pagesUnmapped 7 [3]) (fun x =>
      ValidTree x.1 sevenMapsTree ∧ 7 ∈ sevenMapsTree.toList ∧
      typeOf x.1.cells 7 = MappingType.kTypeHole ∧ baseOf x.1.cells 7 = pageAddr 3 ∧
      lengthOf x.1.cells 7 = kPageSize ∧ pageAddr 3 % kPageSize = 0 ∧
      failure (map 16 x.1 x.2 (some 0) (pageAddr 3) kPageSize fixedReadWrite) =
        some Err.nullDeref) := by
  decide!

set_option maxRecDepth 100000 in
/-- C20 (counterexample): on a fresh address space, `map` of one page with both
`prefer_bottom` and `prefer_top` in the flags (and without `fixed`) is not
rejected: it returns `0x100000`, as with `prefer_bottom` alone. -/
theorem map_both_placement_flags_accepted :
    bothReadWrite &&& kMapFixed = 0 ∧ bothReadWrite &&& kMapPreferBottom ≠ 0 ∧
    bothReadWrite &&& kMapPreferTop ≠ 0 ∧
    Returns (freshSpace >>= fun s => map 16 s oneMemoryEnv (some 0) 0 0x1000 bothReadWrite)
      (fun r => r.2.2 = 0x100000) := by
  decide!

theorem rejected_of_post {α : Type} {x : Except Err α} (h : Post x (fun _ => False)) :
    Rejected x := by
  cases x with
  | error e => exact ⟨e, rfl⟩
  | ok a => exact (h a rfl).elim

theorem allocateDfs_zero (full flags : Nat) (fuel : Nat) :
    ∀ (s : Space) (i : Nat), Post (allocateDfs full fuel s i 0 flags) (fun _ => False) := by
  induction fuel with
  | zero => intros; exact Post.error
  | succ k ih =>
    intro s i
    rw [allocateDfs]
    repeat (first
      | exact Post.error
      | exact ih _ _
      | exact splitHole_zero _ _ _ _
      | refine Post.bind Post.get (fun _ _ => ?_)
      | refine Post.bind Post.assertSome (fun _ _ => ?_)
      | refine Post.bind Post.deref (fun _ _ => ?_)
      | refine Post.bind Post.assert (fun _ _ => ?_)
      | refine Post.bind Post.trivial (fun _ _ => ?_)
      | refine Post.ite (fun _ => ?_) (fun _ => ?_)
      | split
      | dsimp only)

theorem allocate_zero (fuel : Nat) (s : Space) (flags : Nat) :
    Post (allocate fuel s 0 flags) (fun _ => False) := by
  unfold allocate
  refine Post.bind Post.assert (fun _ _ => ?_)
  refine Post.bind Post.trivial (fun rm _ => ?_)
  refine Post.ite (fun h => absurd h (Nat.not_lt_zero _)) (fun _ => ?_)
  refine Post.bind Post.deref (fun _ _ => ?_)
  exact Post.bind (allocateDfs_zero _ _ _ _ _) (fun _ h => h.elim)

theorem allocateAt_zero (fuel : Nat) (s : Space) (address : Nat) :
    Post (allocateAt fuel s address 0) (fun _ => False) := by
  unfold allocateAt
  refine Post.bind Post.assert (fun _ _ => ?_)
  refine Post.bind Post.assert (fun _ _ => ?_)
  refine Post.bind Post.trivial (fun _ _ => ?_)
  refine Post.bind Post.assertSome (fun _ _ => ?_)
  refine Post.bind Post.get (fun _ _ => ?_)
  refine Post.bind Post.assert (fun _ _ => ?_)
  exact splitHole_zero _ _ _ _

/-- For every address space, every fuel and every flags, `allocate(0, flags)`
does not return (neither a mapping nor null), and `map` with length 0 does not
return either, with or without the fixed flag. -/
theorem zero_length_never_returns (fuel : Nat) (s : Space) (e : Env) (memory : Ptr)
    (address flags : Nat) :
    Rejected (allocate fuel s 0 flags) ∧
      Rejected (map fuel s e memory address 0 flags) := by
  refine ⟨rejected_of_post (allocate_zero fuel s flags), rejected_of_post ?_⟩
  unfold map
  refine Post.bind Post.assert (fun _ _ => ?_)
  dsimp only
  refine Post.ite (fun _ => ?_) (fun _ => ?_)
  · refine Post.bind Post.assert (fun _ _ => ?_)
    exact Post.bind (allocateAt_zero _ _ _) (fun _ h => h.elim)
  · exact Post.bind (allocate_zero _ _ _) (fun _ h => h.elim)

theorem rejected_or_of_post {α : Type} {x : Except Err α} {P : Prop}
    (h : Post x (fun _ => P)) : Rejected x ∨ P := by
  cases x with
  | error e => exact Or.inl ⟨e, rfl⟩
  | ok a => exact Or.inr (h a rfl)

/-- The function `unmap(address, length)` does not complete unless
`getMapping(address)` finds a mapping of kind memory whose base is `address`
and whose length is `length`. -/
theorem unmap_completes_only_on_exact_match (fuel : Nat) (s : Space) (e : Env)
    (address length : Nat) :
    Rejected (unmap fuel s e address length) ∨
      ∃ i m, getMapping fuel s address = Except.ok (some i) ∧ s.cells i = some m ∧
        m.type = MappingType.kTypeMemory ∧ m.baseAddress = address ∧ m.length = length := by
  refine rejected_or_of_post ?_
  unfold unmap
  refine Post.bind (Post.self _) (fun found hfound => ?_)
  refine Post.bind Post.assertSome (fun i hi => ?_)
  refine Post.bind Post.get (fun m hm => ?_)
  refine Post.bind Post.assert (fun _ h1 => ?_)
  refine Post.bind Post.assert (fun _ h2 => ?_)
  refine Post.bind Post.assert (fun _ h3 => ?_)
  exact Post.const ⟨i, m, hi ▸ hfound, hm, of_decide_eq_true h1, of_decide_eq_true h2,
    of_decide_eq_true h3⟩

theorem allocateDfs_needs_policy (full fuel : Nat) (s : Space) (i len flags : Nat) :
    Post (allocateDfs full fuel s i len flags)
      (fun _ => flags &&& kMapPreferBottom ≠ 0 ∨ flags &&& kMapPreferTop ≠ 0) := by
  cases fuel with
  | zero => exact Post.error
  | succ k =>
    rw [allocateDfs]
    refine Post.bind Post.get (fun _ _ => ?_)
    refine Post.ite (fun h => Post.const (Or.inl h)) (fun _ => ?_)
    exact Post.bind Post.assert (fun _ h => Post.const (Or.inr (of_decide_eq_true h)))

theorem allocateDfs_bottom_flags (full len flags : Nat) (h : flags &&& kMapPreferBottom ≠ 0)
    (fuel : Nat) : ∀ (s : Space) (i : Nat),
      allocateDfs full fuel s i len flags = allocateDfs full fuel s i len kMapPreferBottom := by
  have hb : kMapPreferBottom &&& kMapPreferBottom ≠ 0 := by decide
  induction fuel with
  | zero => intros; rfl
  | succ k ih =>
    intro s i
    rw [allocateDfs, allocateDfs]
    simp only [h, hb, ne_eq, not_false_eq_true, if_true, ih]

/-- C20 (amended): without the fixed flag, `map` is rejected unless at least
one of `prefer_bottom` and `prefer_top` is present in the flags; and flags
that contain `prefer_bottom` are placed by `allocate` exactly as
`prefer_bottom` alone, whether or not `prefer_top` is present as well. -/
theorem map_placement_flags (fuel : Nat) (s : Space) (e : Env) (memory : Ptr)
    (address length flags : Nat) (hfixed : flags &&& kMapFixed = 0) :
    (Rejected (map fuel s e memory address length flags) ∨
      (flags &&& kMapPreferBottom ≠ 0 ∨ flags &&& kMapPreferTop ≠ 0)) ∧
    (flags &&& kMapPreferBottom ≠ 0 →
      allocate fuel s length flags = allocate fuel s length kMapPreferBottom) := by
  constructor
  · refine rejected_or_of_post ?_
    unfold map
    refine Post.bind Post.assert (fun _ _ => ?_)
    dsimp only
    rw [if_neg (by simp [hfixed])]
    refine @Post.bind _ _ _ _
      (fun r => r.2 ≠ none → (flags &&& kMapPreferBottom ≠ 0 ∨ flags &&& kMapPreferTop ≠ 0))
      _ ?_ ?_
    · unfold allocate
      refine Post.bind Post.assert (fun _ _ => ?_)
      refine Post.bind Post.trivial (fun _ _ => ?_)
      refine Post.ite (fun _ => Post.ok (fun h => absurd rfl h)) (fun _ => ?_)
      refine Post.bind Post.deref (fun _ _ => ?_)
      refine Post.bind (allocateDfs_needs_policy _ _ _ _ _ _) (fun _ h => Post.ok (fun _ => h))
    · rintro ⟨s1, p⟩ hp
      refine Post.bind Post.assertSome (fun i hi => ?_)
      exact Post.const (hp (by simp only at hi; simp [hi]))
  · intro hb
    unfold allocate
    simp only [allocateDfs_bottom_flags _ _ _ hb]

/-- C20 (amended), witness: on the fresh address space, `map` of one page with
`read_write` alone is covered: it is rejected, the flags naming neither
placement. -/
theorem map_placement_flags_witness :
    kMapReadWrite &&& kMapFixed = 0 ∧
    ((Rejected (map 16 theFreshSpace oneMemoryEnv (some 0) 0 0x1000 kMapReadWrite) ∨
      (kMapReadWrite &&& kMapPreferBottom ≠ 0 ∨ kMapReadWrite &&& kMapPreferTop ≠ 0)) ∧
    (kMapReadWrite &&& kMapPreferBottom ≠ 0 →
      allocate 16 theFreshSpace 0x1000 kMapReadWrite =
        allocate 16 theFreshSpace 0x1000 kMapPreferBottom)) :=
  ⟨by decide, map_placement_flags 16 theFreshSpace oneMemoryEnv (some 0) 0 0x1000 kMapReadWrite
    (by decide)⟩

theorem allocateDfs_split (full len flags : Nat) (fuel : Nat) :
    ∀ (s : Space) (i : Nat), Post (allocateDfs full fuel s i len flags)
      (fun r => ∃ h off, splitHole full s h off len = Except.ok r) := by
  induction fuel with
  | zero => intros; exact Post.error
  | succ k ih =>
    intro s i
    rw [allocateDfs]
    repeat (first
      | exact Post.error
      | exact ih _ _
      | exact (Post.self _).mono (fun _ h => ⟨_, _, h⟩)
      | refine Post.bind Post.get (fun _ _ => ?_)
      | refine Post.bind Post.assertSome (fun _ _ => ?_)
      | refine Post.bind Post.deref (fun _ _ => ?_)
      | refine Post.bind Post.assert (fun _ _ => ?_)
      | refine Post.bind Post.trivial (fun _ _ => ?_)
      | refine Post.ite (fun _ => ?_) (fun _ => ?_)
      | split
      | dsimp only)

theorem splitHole_fresh_keys (fuel : Nat) (s : Space) (h off len : Nat) :
    Post (splitHole fuel s h off len) (fun r =>
      ∃ c, r.1.cells r.2 = some c ∧ c.type = MappingType.kTypeNone ∧ c.length = len ∧
        c.writePermission = false ∧ c.executePermission = false) := by
  refine (splitHole_result fuel s h off len).mono ?_
  rintro r ⟨m, -, -, -, -, hk⟩
  cases hc : r.1.cells r.2 with
  | none => rw [hc] at hk; cases hk
  | some c =>
    rw [hc] at hk
    have hk' : c.keys = (Mapping.mk0 MappingType.kTypeNone (add64 m.baseAddress off) len).keys :=
      Option.some.inj hk
    exact ⟨c, rfl, congrArg Keys.type hk', congrArg Keys.length hk',
      congrArg Keys.writePermission hk', congrArg Keys.executePermission hk'⟩

theorem modify_cell {s : Space} {i : Nat} {m : Mapping} {f : Mapping → Mapping}
    (h : s.cells i = some m) : Post (s.modify i f) (fun t => t.cells i = some (f m)) := by
  refine Post.modify.mono ?_
  rintro t ⟨m', hm', rfl⟩
  rw [h] at hm'
  cases hm'
  simp

/-- What `map` leaves in the mapping it creates. -/
theorem map_created (fuel : Nat) (s : Space) (e : Env) (memory : Ptr)
    (address length flags : Nat) :
    Post (map fuel s e memory address length flags) (fun r =>
      ∃ i m, r.1.cells i = some m ∧ m.baseAddress = r.2.2 ∧
        m.type = MappingType.kTypeMemory ∧ m.length = length ∧
        ((flags &&& permissionMask = kMapReadWrite ∧ m.writePermission = true ∧
            m.executePermission = false) ∨
          (flags &&& permissionMask = kMapReadExecute ∧ m.writePermission = false ∧
            m.executePermission = true) ∨
          (flags &&& permissionMask = kMapReadOnly ∧ m.writePermission = false ∧
            m.executePermission = false))) := by
  unfold map
  refine Post.bind Post.assert (fun _ _ => ?_)
  dsimp only
  have halloc : Post (allocate fuel s length flags) (fun r => ∀ i, r.2 = some i →
      ∃ c, r.1.cells i = some c ∧ c.type = MappingType.kTypeNone ∧ c.length = length ∧
        c.writePermission = false ∧ c.executePermission = false) := by
    unfold allocate
    refine Post.bind Post.assert (fun _ _ => ?_)
    refine Post.bind Post.trivial (fun _ _ => ?_)
    refine Post.ite (fun _ => Post.ok (fun i hi => by cases hi)) (fun _ => ?_)
    refine Post.bind Post.deref (fun _ _ => ?_)
    refine Post.bind (allocateDfs_split _ _ _ _ _ _) ?_
    rintro ⟨s1, j⟩ ⟨h, off, hs⟩
    refine Post.ok (fun i hi => ?_)
    cases hi
    exact splitHole_fresh_keys _ _ _ _ _ _ hs
  have hallocAt : Post (allocateAt fuel s address length) (fun r =>
      ∃ c, r.1.cells r.2 = some c ∧ c.type = MappingType.kTypeNone ∧ c.length = length ∧
        c.writePermission = false ∧ c.executePermission = false) := by
    unfold allocateAt
    refine Post.bind Post.assert (fun _ _ => ?_)
    refine Post.bind Post.assert (fun _ _ => ?_)
    refine Post.bind Post.trivial (fun _ _ => ?_)
    refine Post.bind Post.assertSome (fun _ _ => ?_)
    refine Post.bind Post.get (fun _ _ => ?_)
    refine Post.bind Post.assert (fun _ _ => ?_)
    exact splitHole_fresh_keys _ _ _ _ _
  refine Post.ite (fun _ => ?_) (fun _ => ?_)
  on_goal 1 =>
    refine Post.bind Post.assert (fun _ _ => ?_)
    refine Post.bind hallocAt ?_
    rintro ⟨s1, i0⟩ ⟨c0, hc0, ht0, hl0, hw0, hx0⟩
    rw [bind_okE]
    dsimp only
    refine Post.bind Post.assertSome (fun i hi => ?_)
    have hii : i0 = i := Option.some.inj hi
    dsimp only at hc0
    rw [hii] at hc0
  on_goal 2 =>
    refine Post.bind halloc ?_
    rintro ⟨s1, p⟩ hp
    dsimp only
    refine Post.bind Post.assertSome (fun i hi => ?_)
    dsimp only at hi hp
    obtain ⟨c0, hc0, ht0, hl0, hw0, hx0⟩ := hp i hi
  all_goals
    refine Post.bind (modify_cell hc0) (fun s2 hc1 => ?_)
    dsimp only
    have hfin : ∀ (s4 : Space) (c : Mapping) (pf : Nat), s4.cells i = some c →
        c.type = MappingType.kTypeMemory → c.length = length →
        ((flags &&& permissionMask = kMapReadWrite ∧ c.writePermission = true ∧
            c.executePermission = false) ∨
          (flags &&& permissionMask = kMapReadExecute ∧ c.writePermission = false ∧
            c.executePermission = true) ∨
          (flags &&& permissionMask = kMapReadOnly ∧ c.writePermission = false ∧
            c.executePermission = false)) →
        Post (do
          let m ← s4.get i
          let ops ← installLoop e memory s4.p_pageSpace m.baseAddress pf false
            (length / kPageSize) 0 e.pageOps
          Except.ok (s4, { e with pageOps := ops }, m.baseAddress)) (fun r =>
          ∃ i m, r.1.cells i = some m ∧ m.baseAddress = r.2.2 ∧
            m.type = MappingType.kTypeMemory ∧ m.length = length ∧
            ((flags &&& permissionMask = kMapReadWrite ∧ m.writePermission = true ∧
                m.executePermission = false) ∨
              (flags &&& permissionMask = kMapReadExecute ∧ m.writePermission = false ∧
                m.executePermission = true) ∨
              (flags &&& permissionMask = kMapReadOnly ∧ m.writePermission = false ∧
                m.executePermission = false))) := by
      intro s4 c pf hc h1 h2 h3
      refine Post.bind Post.get (fun m hm => ?_)
      rw [hc] at hm
      cases hm
      refine Post.bind Post.trivial (fun _ _ => ?_)
      exact Post.ok ⟨i, c, hc, rfl, h1, h2, h3⟩
    have hshare : ∀ (s3 : Space) (c : Mapping) (pf : Nat), s3.cells i = some c →
        c.type = MappingType.kTypeMemory → c.length = length →
        ((flags &&& permissionMask = kMapReadWrite ∧ c.writePermission = true ∧
            c.executePermission = false) ∨
          (flags &&& permissionMask = kMapReadExecute ∧ c.writePermission = false ∧
            c.executePermission = true) ∨
          (flags &&& permissionMask = kMapReadOnly ∧ c.writePermission = false ∧
            c.executePermission = false)) →
        Post (do
          let s ←
            if flags &&& kMapShareOnFork ≠ 0 then
              s3.modify i (fun c => { c with flags := c.flags ||| kFlagShareOnFork })
            else Except.ok s3
          let m ← s.get i
          let ops ← installLoop e memory s.p_pageSpace m.baseAddress pf false
            (length / kPageSize) 0 e.pageOps
          Except.ok (s, { e with pageOps := ops }, m.baseAddress)) (fun r =>
          ∃ i m, r.1.cells i = some m ∧ m.baseAddress = r.2.2 ∧
            m.type = MappingType.kTypeMemory ∧ m.length = length ∧
            ((flags &&& permissionMask = kMapReadWrite ∧ m.writePermission = true ∧
                m.executePermission = false) ∨
              (flags &&& permissionMask = kMapReadExecute ∧ m.writePermission = false ∧
                m.executePermission = true) ∨
              (flags &&& permissionMask = kMapReadOnly ∧ m.writePermission = false ∧
                m.executePermission = false))) := by
      intro s3 c pf hc h1 h2 h3
      split
      · exact Post.bind (modify_cell hc) (fun s4 hc4 => hfin s4 _ pf hc4 h1 h2 h3)
      · rw [bind_okE]
        exact hfin s3 c pf hc h1 h2 h3
    refine Post.ite (fun hrw => ?_) (fun hrw => Post.ite (fun hrx => ?_) (fun hrx => ?_))
    · refine Post.bind (modify_cell hc1) (fun s3 hc2 => ?_)
      rw [bind_okE]
      exact hshare s3 _ _ hc2 rfl hl0 (Or.inl ⟨hrw, rfl, hx0⟩)
    · refine Post.bind (modify_cell hc1) (fun s3 hc2 => ?_)
      rw [bind_okE]
      exact hshare s3 _ _ hc2 rfl hl0 (Or.inr (Or.inl ⟨hrx, hw0, rfl⟩))
    · refine Post.bind Post.assert (fun _ hro => ?_)
      rw [bind_okE]
      exact hshare s2 _ _ hc1 rfl hl0 (Or.inr (Or.inr ⟨of_decide_eq_true hro, hw0, hx0⟩))

theorem and_of_mask {flags mask f v : Nat} (h : flags &&& mask = v) (hm : mask &&& f = f) :
    flags &&& f = v &&& f := by
  rw [← h, Nat.land_assoc, hm]

theorem flags_of_mask {flags v : Nat} (h : flags &&& permissionMask = v) :
    (hasFlag flags kMapReadOnly ↔ v &&& kMapReadOnly ≠ 0) ∧
    (hasFlag flags kMapReadWrite ↔ v &&& kMapReadWrite ≠ 0) ∧
    (hasFlag flags kMapReadExecute ↔ v &&& kMapReadExecute ≠ 0) := by
  unfold hasFlag
  rw [and_of_mask h (by decide : permissionMask &&& kMapReadOnly = kMapReadOnly),
    and_of_mask h (by decide : permissionMask &&& kMapReadWrite = kMapReadWrite),
    and_of_mask h (by decide : permissionMask &&& kMapReadExecute = kMapReadExecute)]
  exact ⟨Iff.rfl, Iff.rfl, Iff.rfl⟩

/-- C19: `map` is rejected unless exactly one of `read_only`, `read_write` and
`read_execute` is present in the flags; and the mapping that a successful `map`
creates (the memory mapping of the requested length at the returned address)
has `writePermission` set exactly if `read_write` was given and
`executePermission` set exactly if `read_execute` was given. -/
theorem map_permission_flags (fuel : Nat) (s : Space) (e : Env) (memory : Ptr)
    (address length flags : Nat) :
    Rejected (map fuel s e memory address length flags) ∨
      (((hasFlag flags kMapReadOnly ∧ ¬ hasFlag flags kMapReadWrite ∧
            ¬ hasFlag flags kMapReadExecute) ∨
          (¬ hasFlag flags kMapReadOnly ∧ hasFlag flags kMapReadWrite ∧
            ¬ hasFlag flags kMapReadExecute) ∨
          (¬ hasFlag flags kMapReadOnly ∧ ¬ hasFlag flags kMapReadWrite ∧
            hasFlag flags kMapReadExecute)) ∧
        ∃ r, map fuel s e memory address length flags = Except.ok r ∧
          ∃ i m, r.1.cells i = some m ∧ m.baseAddress = r.2.2 ∧
            m.type = MappingType.kTypeMemory ∧ m.length = length ∧
            (m.writePermission = true ↔ hasFlag flags kMapReadWrite) ∧
            (m.executePermission = true ↔ hasFlag flags kMapReadExecute)) := by
  cases hx : map fuel s e memory address length flags with
  | error err => exact Or.inl ⟨err, rfl⟩
  | ok r =>
    right
    obtain ⟨i, m, hm, hb, ht, hl, hD⟩ := map_created fuel s e memory address length flags r hx
    rcases hD with ⟨hv, hw, hx'⟩ | ⟨hv, hw, hx'⟩ | ⟨hv, hw, hx'⟩
    · obtain ⟨f1, f2, f3⟩ := flags_of_mask hv
      have g1 : ¬ hasFlag flags kMapReadOnly := fun h => (f1.mp h) (by decide)
      have g2 : hasFlag flags kMapReadWrite := f2.mpr (by decide)
      have g3 : ¬ hasFlag flags kMapReadExecute := fun h => (f3.mp h) (by decide)
      exact ⟨Or.inr (Or.inl ⟨g1, g2, g3⟩), r, rfl, i, m, hm, hb, ht, hl,
        ⟨fun _ => g2, fun _ => hw⟩, ⟨fun h => (by rw [hx'] at h; cases h), fun h => absurd h g3⟩⟩
    · obtain ⟨f1, f2, f3⟩ := flags_of_mask hv
      have g1 : ¬ hasFlag flags kMapReadOnly := fun h => (f1.mp h) (by decide)
      have g2 : ¬ hasFlag flags kMapReadWrite := fun h => (f2.mp h) (by decide)
      have g3 : hasFlag flags kMapReadExecute := f3.mpr (by decide)
      exact ⟨Or.inr (Or.inr ⟨g1, g2, g3⟩), r, rfl, i, m, hm, hb, ht, hl,
        ⟨fun h => (by rw [hw] at h; cases h), fun h => absurd h g2⟩, ⟨fun _ => g3, fun _ => hx'⟩⟩
    · obtain ⟨f1, f2, f3⟩ := flags_of_mask hv
      have g1 : hasFlag flags kMapReadOnly := f1.mpr (by decide)
      have g2 : ¬ hasFlag flags kMapReadWrite := fun h => (f2.mp h) (by decide)
      have g3 : ¬ hasFlag flags kMapReadExecute := fun h => (f3.mp h) (by decide)
      exact ⟨Or.inl ⟨g1, g2, g3⟩, r, rfl, i, m, hm, hb, ht, hl,
        ⟨fun h => (by rw [hw] at h; cases h), fun h => absurd h g2⟩,
        ⟨fun h => (by rw [hx'] at h; cases h), fun h => absurd h g3⟩⟩

theorem Covers.unique {c : Nat → Option Mapping} {lo hi a : Nat} {l : List Nat}
    (h : Covers c lo l hi) {i j : Nat} (hi' : i ∈ l) (hj : j ∈ l)
    (h1 : baseOf c i ≤ a) (h2 : a < endOf c i) (h3 : baseOf c j ≤ a) (h4 : a < endOf c j) :
    i = j := by
  induction l generalizing lo with
  | nil => cases hi'
  | cons x rest ih =>
    obtain ⟨hb, hl, hr⟩ := h
    rcases List.mem_cons.mp hi' with e | e <;> rcases List.mem_cons.mp hj with e' | e'
    · rw [e, e']
    · have := (hr.mem e').1
      subst e
      omega
    · have := (hr.mem e).1
      subst e'
      omega
    · exact ih hr e e'

/-- The descent of `getMapping` through a subtree whose mappings tile the
range from `lo` to `hi`. -/
theorem getMappingLoop_spec (s : Space) (a : Nat) :
    ∀ (t : Tree) (par : Ptr) (lo hi fuel : Nat), Shape s.cells t par →
      Covers s.cells lo t.toList hi → hi < wordMod → t.toList.length < fuel →
      (lo ≤ a → a < hi → ∃ i, getMappingLoop fuel s t.root a = Except.ok (some i) ∧
        i ∈ t.toList ∧ baseOf s.cells i ≤ a ∧ a < endOf s.cells i) ∧
      ((a < lo ∨ hi ≤ a) → getMappingLoop fuel s t.root a = Except.ok none) := by
  intro t
  induction t with
  | nil =>
    intro par lo hi fuel _ hc _ hf
    obtain ⟨f, rfl⟩ : ∃ f, fuel = f + 1 := ⟨fuel - 1, by simp [Tree.toList] at hf; omega⟩
    have : lo = hi := hc
    refine ⟨fun h1 h2 => by omega, fun _ => ?_⟩
    simp [Tree.root, getMappingLoop]
  | node l i r ihl ihr =>
    intro par lo hi fuel hsh hc hhi hf
    obtain ⟨f, rfl⟩ : ∃ f, fuel = f + 1 := ⟨fuel - 1, by simp [Tree.toList] at hf; omega⟩
    rw [Shape_node] at hsh
    obtain ⟨m, hm, -, hml, hmr, hsl, hsr⟩ := hsh
    have hlist : (Tree.node l i r).toList = l.toList ++ i :: r.toList := by simp [Tree.toList]
    rw [hlist, Covers_append] at hc
    obtain ⟨mid, hcl, hci⟩ := hc
    rw [Covers_cons] at hci
    obtain ⟨hbi, hli, hcr⟩ := hci
    rw [hlist, List.length_append, List.length_cons] at hf
    have hb : baseOf s.cells i = m.baseAddress := fieldOf_some hm _ _
    have hlen : lengthOf s.cells i = m.length := fieldOf_some hm _ _
    have hend : endOf s.cells i = m.baseAddress + m.length := by rw [endOf, hb, hlen]
    have hle1 := hcl.le
    have hle2 := hcr.le
    have hadd : add64 m.baseAddress m.length = m.baseAddress + m.length :=
      add64_eq (by omega)
    have hstep : getMappingLoop (f + 1) s (Tree.node l i r).root a =
        if a < m.baseAddress then getMappingLoop f s l.root a
        else if a ≥ m.baseAddress + m.length then getMappingLoop f s r.root a
        else Except.ok (some i) := by
      rw [root_node, getMappingLoop]
      simp only [get_eq hm, bind_okE, hadd, hml, hmr]
      split
      · rfl
      · split
        · rfl
        · rename_i h1 h2
          have h1' : a ≥ m.baseAddress := by omega
          have h2' : a < m.baseAddress + m.length := by omega
          simp [Thor.assert, h1', h2']
    rw [hstep, hlist]
    obtain ⟨il1, il2⟩ := ihl (some i) lo mid f hsl hcl (by omega) (by omega)
    obtain ⟨ir1, ir2⟩ := ihr (some i) (endOf s.cells i) hi f hsr hcr hhi (by omega)
    by_cases c1 : a < m.baseAddress
    · rw [if_pos c1]
      refine ⟨fun h1 h2 => ?_, fun h => ?_⟩
      · obtain ⟨j, e, hj, p1, p2⟩ := il1 h1 (by omega)
        exact ⟨j, e, List.mem_append_left _ hj, p1, p2⟩
      · exact il2 (by omega)
    · rw [if_neg c1]
      by_cases c2 : a ≥ m.baseAddress + m.length
      · rw [if_pos c2]
        refine ⟨fun h1 h2 => ?_, fun h => ?_⟩
        · obtain ⟨j, e, hj, p1, p2⟩ := ir1 (by omega) h2
          exact ⟨j, e, List.mem_append_right _ (List.mem_cons_of_mem _ hj), p1, p2⟩
        · exact ir2 (by omega)
      · rw [if_neg c2]
        refine ⟨fun _ _ => ⟨i, rfl, by simp, by omega, by omega⟩, fun h => ?_⟩
        omega

/-- C14: for every address tree whose in-order sequence of mappings tiles the
managed range from `0x100000` to `0x800000000000` (which includes the search
tree order), and enough fuel for its depth, `getMapping(a)` returns the
mapping that contains `a` when `a` lies in the managed range, that mapping is
the only one containing `a`, and `getMapping(a)` returns null for every address
below `0x100000` or at or above `0x800000000000`. -/
theorem getMapping_spec (s : Space) (t : Tree) (fuel a : Nat) (hT : TreeAt s t)
    (hc : Covers s.cells windowBase t.toList windowEnd) (hfuel : t.toList.length < fuel) :
    (windowBase ≤ a → a < windowEnd →
      ∃ i, getMapping fuel s a = Except.ok (some i) ∧ i ∈ t.toList ∧
        baseOf s.cells i ≤ a ∧ a < endOf s.cells i ∧
        ∀ j ∈ t.toList, baseOf s.cells j ≤ a → a < endOf s.cells j → j = i) ∧
    ((a < windowBase ∨ windowEnd ≤ a) → getMapping fuel s a = Except.ok none) := by
  obtain ⟨h1, h2⟩ := getMappingLoop_spec s a t none windowBase windowEnd fuel hT.2.1 hc
    (by decide) hfuel
  unfold getMapping
  rw [hT.1]
  refine ⟨fun g1 g2 => ?_, h2⟩
  obtain ⟨i, e, hi, p1, p2⟩ := h1 g1 g2
  exact ⟨i, e, hi, p1, p2, fun j hj q1 q2 => Covers.unique hc hj hi q1 q2 p1 p2⟩

set_option maxRecDepth 100000 in
/-- C14, witness: in the fresh address space, whose tree is the single hole
(object 0), `getMapping(0x100000)` returns that hole, and `getMapping` of an
address outside the managed range returns null. -/
theorem getMapping_spec_witness :
    TreeAt theFreshSpace (Tree.node Tree.nil 0 Tree.nil) ∧
    Covers theFreshSpace.cells windowBase (Tree.node Tree.nil 0 Tree.nil).toList windowEnd ∧
    (Tree.node Tree.nil 0 Tree.nil).toList.length < 16 ∧
    ((windowBase ≤ 0x100000 → 0x100000 < windowEnd →
      ∃ i, getMapping 16 theFreshSpace 0x100000 = Except.ok (some i) ∧
        i ∈ (Tree.node Tree.nil 0 Tree.nil).toList ∧
        baseOf theFreshSpace.cells i ≤ 0x100000 ∧ 0x100000 < endOf theFreshSpace.cells i ∧
        ∀ j ∈ (Tree.node Tree.nil 0 Tree.nil).toList, baseOf theFreshSpace.cells j ≤ 0x100000 →
          0x100000 < endOf theFreshSpace.cells j → j = i) ∧
    ((0x100000 < windowBase ∨ windowEnd ≤ 0x100000) →
      getMapping 16 theFreshSpace 0x100000 = Except.ok none)) :=
  ⟨by decide!, by decide!, by decide,
    getMapping_spec theFreshSpace (Tree.node Tree.nil 0 Tree.nil) 16 0x100000
      (by decide!) (by decide!) (by decide)⟩

/-- Inserting a mapping that is not a hole right above a tree that consists of
one black hole makes it the red right child of the root. -/
theorem insert_right_of_single_hole (f : Nat) (s : Space) (r n : Nat) (mr mn : Mapping)
    (hroot : s.p_root = some r) (hne : n ≠ r)
    (hr : s.cells r = some mr) (hn : s.cells n = some mn)
    (r1 : mr.parentPtr = none) (r2 : mr.leftPtr = none) (r3 : mr.rightPtr = none)
    (r4 : mr.lowerPtr = none) (r5 : mr.higherPtr = none) (r6 : mr.color = Color.kColorBlack)
    (r7 : mr.largestHole = mr.length) (r8 : mr.type = MappingType.kTypeHole)
    (n1 : mn.parentPtr = none) (n2 : mn.leftPtr = none) (n3 : mn.rightPtr = none)
    (n4 : mn.type ≠ MappingType.kTypeHole) (n5 : mn.largestHole = 0)
    (h1 : mr.baseAddress + mr.length < wordMod) (h2 : mr.baseAddress + mr.length = mn.baseAddress)
    (h3 : mn.baseAddress + mn.length < wordMod) (h4 : 0 < mr.length) :
    addressTreeInsert (f + 2) s n = Except.ok
      ({ s with cells := fun j =>
          if j = n then some { mn with parentPtr := some r, lowerPtr := some r, higherPtr := none,
                                       color := Color.kColorRed }
          else if j = r then some { mr with rightPtr := some n, higherPtr := some n }
          else s.cells j } : Space) := by
  have e1 : add64 mr.baseAddress mr.length = mn.baseAddress := by
    rw [add64, Nat.mod_eq_of_lt h1, h2]
  have e2 : add64 mn.baseAddress mn.length = mn.baseAddress + mn.length := by
    rw [add64, Nat.mod_eq_of_lt h3]
  have hne' : r ≠ n := fun h => hne h.symm
  have e3 : ¬ mn.baseAddress < mr.baseAddress := by omega
  have c0 : checkInvariantAt (f + 2) s r = Except.ok (some (1, r, r)) := by
    rw [checkInvariantAt_leaf (f + 1) s r mr hr r2 r3 (by simp [r7, r8])]; simp [r6]
  simp only [addressTreeInsert, assertInvariant, checkInvariant, hroot, c0, bind_okE, assert,
    Option.isSome, ite_true]
  rw [insertLoop]
  simp only [Space.get, hr, hn, bind_okE, e1, e3, if_false, ge_iff_le, le_refl, decide_True, assert,
    if_true, Space.modify, hne, hne', Space.modifyIf, r3, r5]
  rw [updateLargestHoleUpwards]
  simp [updateLargestHoleAt, deref, computeHole, Space.get, Space.modify, hne, hne', h4,
    Space.getP, r1, r2, r7, r8, n5, n4]
  rw [fixAfterInsert]
  simp [Space.get, Space.modify, hne, hne', r6]
  simp only [assertInvariant, checkInvariant, hroot, bind_okE]
  rw [checkInvariantAt_succ]
  simp [Space.get, hne, hne', computeHole, r8, r2, r7, h4, n4, n5, isBlack, r6]
  rw [checkInvariantAt_leaf f _ n
    { mn with parentPtr := some r, lowerPtr := some r, higherPtr := none, color := Color.kColorRed }
    (by simp [n4, n5]) n2 n3 (by show mn.largestHole = _; rw [n5]; simp [n4])]
  simp only [Space.get, hne, hne', if_true, if_false, bind_okE, e1, gt_iff_lt, lt_irrefl, ne_eq,
    not_true_eq_false, not_false_eq_true, assert, Option.isSome, r6]
  simp
  funext j
  by_cases hjn : j = n
  · simp only [hjn, if_true]
  · by_cases hjr : j = r
    · simp only [hjr, if_true, if_false, hne']
    · simp [hjn, hjr]

/-- C11 (amended): on a fresh address space, `map(len = L, prefer_top,
read_write)` with `L` a multiple of the page size and `0 < L < 0x7ffffff00000`
returns `actual_address = 0x800000000000 - L`, the top end of the managed
range (the memory object passed has a slot for each page, the fuel covers the
two levels of the tree); for `L = 0x1000` that is `0x7ffffffff000`. -/
theorem map_fresh_top (L fuel : Nat) (e : Env) (memory : Nat) (mem : Memory) (address : Nat)
    (hL : L % kPageSize = 0) (hpos : 0 < L) (hlt : L < 0x7ffffff00000) (hfuel : 3 ≤ fuel)
    (hm : e.memories memory = some mem) (hpages : L / kPageSize ≤ mem.p_physicalPages.length) :
    Returns (setupDefaultMappings fuel emptySpace >>= fun s =>
        map fuel s e (some memory) address L topReadWrite)
      (fun r => r.2.2 = 0x800000000000 - L) := by
  obtain ⟨f, rfl⟩ : ∃ f, fuel = f + 3 := ⟨fuel - 3, by omega⟩
  have s0 : setupDefaultMappings (f + 3) emptySpace = Except.ok
      ({ cells := fun j => if j = 0 then
            some { Mapping.mk0 MappingType.kTypeHole 0x100000 0x7ffffff00000 with
                   color := Color.kColorBlack } else none,
         next := 1, p_root := some 0, p_pageSpace := 0 } : Space) := by
    rw [setupDefaultMappings]
    simp only [Space.construct, emptySpace]
    rw [insert_into_empty (f + 2) _ 0 (Mapping.mk0 MappingType.kTypeHole 0x100000 0x7ffffff00000)
      rfl (by simp) rfl rfl rfl (by simp [Mapping.mk0])]
    simp
    funext j
    by_cases hj : j = 0 <;> simp [hj]
  rw [s0, bind_okE]
  have hfix : topReadWrite &&& kMapFixed = 0 := by decide
  have hbot : topReadWrite &&& kMapPreferBottom = 0 := by decide
  have htop : topReadWrite &&& kMapPreferTop ≠ 0 := by decide
  have hmask : topReadWrite &&& (kMapReadOnly ||| kMapReadExecute ||| kMapReadWrite)
      = kMapReadWrite := by decide
  have hshare : topReadWrite &&& kMapShareOnFork = 0 := by decide
  have a0 : sub64 0x7ffffff00000 L = 0x7ffffff00000 - L := by
    simp only [sub64, wordMod]
    norm_num
    omega
  have a1 : add64 (0x7ffffff00000 - L) L = 0x7ffffff00000 := by
    rw [add64, Nat.mod_eq_of_lt (by simp only [wordMod]; omega)]
    omega
  have a2 : add64 0x100000 (0x7ffffff00000 - L) = 0x800000000000 - L := by
    rw [add64, Nat.mod_eq_of_lt (by simp only [wordMod]; omega)]
    omega
  have a3 : ¬ (0x7ffffff00000 - L = 0) := by omega
  have a4 : ¬ (0x7ffffff00000 = 0x7ffffff00000 - L) := by omega
  simp only [map, hL, assert, decide_True, ite_true, bind_okE, hfix, ne_eq, not_true_eq_false,
    ite_false, allocate, Space.getP, Space.get, Mapping.mk0, Nat.not_lt.mpr (Nat.le_of_lt hlt), deref]
  rw [allocateDfs]
  simp only [Space.get, ite_true, bind_okE, hbot, htop, ne_eq, not_true_eq_false,
    not_false_eq_true, ite_false, true_and, ge_iff_le, Nat.le_of_lt hlt, assert, decide_True]
  simp only [splitHole, hpos, gt_iff_lt, decide_True, assert, ite_true, bind_okE, Space.get, a0,
    a1, a3, le_refl, ite_false, Space.modify]
  rw [updateLargestHoleUpwards]
  simp only [updateLargestHoleAt, deref, computeHole, Space.get, Space.modify, Space.getP,
    bind_okE, ite_true, a4, ne_eq, not_false_eq_true, Bool.not_true, Space.construct, a2]
  simp only [Bool.false_eq_true, if_false, bind_okE, lt_irrefl]
  rw [insert_right_of_single_hole (f + 1) _ 0 1
    { baseAddress := 1048576, length := 140737487306752 - L, type := MappingType.kTypeHole,
      lowerPtr := none, higherPtr := none, leftPtr := none, rightPtr := none, parentPtr := none,
      color := Color.kColorBlack, largestHole := 140737487306752 - L, memoryRegion := none,
      memoryOffset := 0, flags := 0, writePermission := false, executePermission := false }
    (Mapping.mk0 MappingType.kTypeNone (140737488355328 - L) L)
    rfl (by decide) (by simp) (by simp) rfl rfl rfl rfl rfl rfl rfl rfl
    rfl rfl rfl (by simp [Mapping.mk0]) (by simp [Mapping.mk0])
    (by simp only [wordMod]; omega) (by simp only [Mapping.mk0]; omega)
    (by simp only [Mapping.mk0, wordMod]; omega) (by simp only []; omega)]
  obtain ⟨ops, hops⟩ := installLoop_ok e memory mem 0 (140737488355328 - L) kAccessWrite false hm
    (L / kPageSize) 0 e.pageOps (by omega)
  simp [Space.modify, hmask, hshare, Space.get, Mapping.mk0, hops, Returns, assertSome, assert]

/-- C11 (amended), witness: one page mapped with `prefer_top` into a fresh
address space lands at `0x7ffffffff000`. -/
theorem map_fresh_top_witness :
    Returns (setupDefaultMappings 3 emptySpace >>= fun s =>
        map 3 s oneMemoryEnv (some 0) 0 0x1000 topReadWrite)
      (fun r => r.2.2 = 0x800000000000 - 0x1000) :=
  map_fresh_top 0x1000 3 oneMemoryEnv 0 (blankMemory 16) 0 (by decide) (by decide)
    (by decide) (by decide) rfl (by decide)

/-! ## The invariants of the address space -/

/-- Claim C5 (coverage invariant): in every address space that is reached from
`setupDefaultMappings` by `map` and `unmap` calls that complete, the in-order
sequence `l` of the address tree, which the order list threads, tiles the
managed window: the first mapping starts at 0x100000, every mapping is
non-empty and starts where the one before it ends, the last one ends at
0x800000000000, and so every mapping ends at or before the base of every
later one. -/
theorem coverage_invariant {s : Space} (h : Reachable s) :
    ∃ l, ListInv l s ∧ Covers s.cells 0x100000 l 0x800000000000 ∧ Ordered s.cells l := by
  obtain ⟨l, hinv, hcov, -, -⟩ := h.rangeInv
  exact ⟨l, hinv, hcov, hcov.ordered⟩

/-- The coverage invariant holds in the address space right after
`setupDefaultMappings`. -/
theorem coverage_invariant_witness :
    Reachable theFreshSpace ∧
    ∃ l, ListInv l theFreshSpace ∧ Covers theFreshSpace.cells 0x100000 l 0x800000000000 ∧
      Ordered theFreshSpace.cells l :=
  ⟨reachable_fresh, coverage_invariant reachable_fresh⟩

/-- Claim C6 (no adjacent holes): in every address space that is reached from
`setupDefaultMappings` by `map` and `unmap` calls that complete, no two
mappings that are neighbours in the in-order sequence `l` of the address tree
are both holes. -/
theorem no_adjacent_holes_invariant {s : Space} (h : Reachable s) :
    ∃ l, ListInv l s ∧ NoAdjacentHoles s.cells l := by
  obtain ⟨l, hinv, -, hno, -⟩ := h.rangeInv
  exact ⟨l, hinv, hno⟩

/-- No two neighbours are holes in the address space after one `map` of a page. -/
theorem no_adjacent_holes_invariant_witness :
    Reachable theMappedSpace.1 ∧
    ∃ l, ListInv l theMappedSpace.1 ∧ NoAdjacentHoles theMappedSpace.1.cells l :=
  ⟨reachable_mapped, no_adjacent_holes_invariant reachable_mapped⟩

/-- Claim C4 (order-list invariant): if `addressTreeInsert` of a mapping that
is as its constructor left it, or `addressTreeRemove` of a mapping of the
tree, completes on a tree with a correct augment and a correct order list,
then following `higherPtr` from the first node again enumerates the in-order
sequence of the tree, `lowerPtr` is the inverse link, the first node has
`lowerPtr` null and the last node has `higherPtr` null; hence this holds in
every address space reached from `setupDefaultMappings` by `map`, `unmap` and
`fork` calls that complete, in the source and in the forked space. -/
theorem order_list_invariant :
    (∀ (fuel : Nat) (s : Space) (l : List Nat) (n : Nat) (m : Mapping),
      ListInv l s → n ∉ l → s.cells n = some m → m.unlinked →
        Post (addressTreeInsert fuel s n) OrderListOk) ∧
    (∀ (fuel : Nat) (s : Space) (l : List Nat) (x : Nat), ListInv l s → x ∈ l →
      Post (addressTreeRemove fuel s x) OrderListOk) ∧
    (∀ s, ForkReachable s → OrderListOk s) := by
  refine ⟨fun fuel s l n m hinv hn hm hu => ?_, fun fuel s l x hinv hx => ?_, fun s h => ?_⟩
  · obtain ⟨u1, u2, u3, u4, u5, u6⟩ := hu
    refine (addressTreeInsert_post hinv hn hm u1 u2 u3 u4 u5 u6).mono ?_
    rintro s' ⟨⟨A, B, -, hinv', -, -⟩, -⟩
    exact hinv'.orderListOk
  · exact (remove_step hinv hx).mono (fun s' h => h.1.orderListOk)
  · obtain ⟨l, hinv, -⟩ := h.listInv
    exact hinv.orderListOk

/-- The order list is correct in the space that `fork` creates from the
address space with one mapped page. -/
theorem order_list_invariant_witness :
    ForkReachable theForkedSpaces.2.1 ∧ OrderListOk theForkedSpaces.2.1 :=
  ⟨forkReachable_child, order_list_invariant.2.2 _ forkReachable_child⟩

/-- Claim C3 (augment invariant): in every address space reached from
`setupDefaultMappings` by `map`, `unmap` and `fork` calls that complete, in
the source and in the forked space, every node of the tree has
`largestHole = max(own_hole, left.largestHole, right.largestHole)`, where a
missing child counts as 0; and the same holds after every `addressTreeInsert`
of a mapping that is as its constructor left it, every `addressTreeRemove` of
a mapping of the tree and every `splitHole` of a mapping of the tree that
completes on a tree with a correct augment and a correct order list. -/
theorem augment_invariant :
    (∀ s, ForkReachable s → AugmentOk s) ∧
    (∀ (fuel : Nat) (s : Space) (l : List Nat) (n : Nat) (m : Mapping),
      ListInv l s → n ∉ l → s.cells n = some m → m.unlinked →
        Post (addressTreeInsert fuel s n) AugmentOk) ∧
    (∀ (fuel : Nat) (s : Space) (l : List Nat) (x : Nat), ListInv l s → x ∈ l →
      Post (addressTreeRemove fuel s x) AugmentOk) ∧
    (∀ (fuel : Nat) (s : Space) (l : List Nat) (h off len : Nat), ListInv l s →
      (∀ i ∈ l, i < s.next) → h ∈ l →
        Post (splitHole fuel s h off len) (fun r => AugmentOk r.1)) := by
  refine ⟨fun s h => ?_, fun fuel s l n m hinv hn hm hu => ?_, fun fuel s l x hinv hx => ?_,
    fun fuel s l h off len hinv hfresh hh => ?_⟩
  · obtain ⟨l, hinv, -⟩ := h.listInv
    exact hinv.augmentOk
  · obtain ⟨u1, u2, u3, u4, u5, u6⟩ := hu
    refine (addressTreeInsert_post hinv hn hm u1 u2 u3 u4 u5 u6).mono ?_
    rintro s' ⟨⟨A, B, -, hinv', -, -⟩, -⟩
    exact hinv'.augmentOk
  · exact (remove_step hinv hx).mono (fun s' h => h.1.augmentOk)
  · refine (splitHole_post hinv hfresh hh).mono ?_
    rintro r ⟨l', hinv', -⟩
    exact hinv'.augmentOk

/-- The augment is correct in the source space after `fork` of the address
space with one mapped page. -/
theorem augment_invariant_witness :
    ForkReachable theForkedSpaces.1 ∧ AugmentOk theForkedSpaces.1 :=
  ⟨forkReachable_source, augment_invariant.1 _ forkReachable_source⟩

/-- Claim C2 does not hold as stated.  First, a fresh node with null links and
the empty range `[0x100000, 0x100000)`, which is disjoint from every range,
is rejected by the descent of `addressTreeInsert` on the valid tree that
consists of the hole starting at 0x100000: the base is not below the base of
the hole, and `assert(mapping->baseAddress >= current->baseAddress +
current->length)` fails.  Second, a fresh node with null links and a range
below the hole, whose `largestHole` is not the value its constructor sets, is
rejected by the closing `assert(checkInvariant())`. -/
theorem insert_fresh_node_rejected :
    (ValidTree emptyRangeSpace (Tree.node Tree.nil 0 Tree.nil) ∧
      linksOf emptyRangeSpace.cells 1 = some (none, none, none, none, none) ∧
      1 ∉ (Tree.node Tree.nil 0 Tree.nil).toList ∧
      (∀ i ∈ (Tree.node Tree.nil 0 Tree.nil).toList, Apart emptyRangeSpace.cells 0x100000 0 i) ∧
      seg emptyRangeSpace.cells 1 = (0x100000, 0, MappingType.kTypeNone) ∧
      failure (addressTreeInsert 16 emptyRangeSpace 1) = some Err.assertion) ∧
    (ValidTree staleAugmentSpace (Tree.node Tree.nil 0 Tree.nil) ∧
      linksOf staleAugmentSpace.cells 1 = some (none, none, none, none, none) ∧
      1 ∉ (Tree.node Tree.nil 0 Tree.nil).toList ∧
      (∀ i ∈ (Tree.node Tree.nil 0 Tree.nil).toList,
        Apart staleAugmentSpace.cells 0x1000 0x1000 i) ∧
      seg staleAugmentSpace.cells 1 = (0x1000, 0x1000, MappingType.kTypeHole) ∧
      failure (addressTreeInsert 16 staleAugmentSpace 1) = some Err.assertion) :=
  ⟨⟨by decide!, by decide!, by decide, by decide!, by decide!, by decide!⟩,
    ⟨by decide!, by decide!, by decide, by decide!, by decide!, by decide!⟩⟩

/-- Claim C2, amended: on a tree that satisfies the tree invariants (search
tree order without wrap-around, red-black rules with a black root, correct
augment, correct order list), `addressTreeInsert` of a node that is not in the
tree and is as its constructor left it (null links, `largestHole` its own
length if it is a hole and 0 otherwise), whose range is not empty, does not
wrap around and lies apart from every range of the tree, completes when the
fuel exceeds the number of nodes; the tree it leaves satisfies the tree
invariants, so search-tree order and the red-black rules, and its in-order
sequence is the old one with the new node put in at its sorted position. -/
theorem insert_keeps_tree_invariants (fuel : Nat) (s : Space) (t : Tree) (n : Nat) (m : Mapping)
    (hv : ValidTree s t) (hfuel : t.toList.length + 1 ≤ fuel)
    (hn : n ∉ t.toList) (hm : s.cells n = some m) (hu : m.unlinked)
    (hlen : 0 < m.length) (hfit : m.baseAddress + m.length < wordMod)
    (hdis : ∀ i ∈ t.toList, Apart s.cells m.baseAddress m.length i) :
    Returns (addressTreeInsert fuel s n) (fun s' =>
      ∃ t', ValidTree s' t' ∧ ∃ A B, t.toList = A ++ B ∧ t'.toList = A ++ n :: B) :=
  addressTreeInsert_total hv hfuel hn hm hu hlen hfit hdis

/-- The insertion of a page below the managed window into the tree of the
fresh address space completes and keeps the tree invariants. -/
theorem insert_keeps_tree_invariants_witness :
    ValidTree belowWindowSpace (Tree.node Tree.nil 0 Tree.nil) ∧
    Returns (addressTreeInsert 16 belowWindowSpace 1) (fun s' =>
      ∃ t', ValidTree s' t' ∧
        ∃ A B, (Tree.node Tree.nil 0 Tree.nil).toList = A ++ B ∧ t'.toList = A ++ 1 :: B) :=
  ⟨by decide!, insert_keeps_tree_invariants 16 belowWindowSpace (Tree.node Tree.nil 0 Tree.nil) 1
    (Mapping.mk0 MappingType.kTypeNone 0x1000 0x1000) (by decide!) (by decide) (by decide)
    (by decide!) (by decide!) (by decide) (by decide) (by decide!)⟩

/-! ### The install loop and the page-table calls of `map` -/

theorem getPage_eq {mem : Memory} {i : Nat} (h : i < mem.p_physicalPages.length) :
    mem.getPage i = Except.ok (mem.p_physicalPages.getD i noPage) := by
  unfold Memory.getPage
  rw [List.getD_eq_getElem?_getD, List.get?_eq_getElem?, List.getElem?_eq_getElem h]
  rfl

theorem getPage_bound {mem : Memory} {i page : Nat} (h : mem.getPage i = Except.ok page) :
    i < mem.p_physicalPages.length ∧ page = mem.p_physicalPages.getD i noPage := by
  unfold Memory.getPage at h
  by_cases hi : i < mem.p_physicalPages.length
  · refine ⟨hi, ?_⟩
    rw [List.get?_eq_getElem?, List.getElem?_eq_getElem hi] at h
    rw [List.getD_eq_getElem?_getD, List.getElem?_eq_getElem hi]
    cases h
    rfl
  · rw [List.get?_eq_getElem?, List.getElem?_eq_none (by omega)] at h
    cases h

/-- The install loop on a page vector that has all the slots it walks: it
completes and issues the calls `installOps`. -/
theorem installLoop_total {e : Env} {memory : Ptr} {mem : Memory} (space base pf : Nat)
    (remap : Bool) (hmem : e.getMemory memory = Except.ok mem) :
    ∀ (count i : Nat) (ops : List PageOp), i + count ≤ mem.p_physicalPages.length →
      installLoop e memory space base pf remap count i ops =
        Except.ok (ops ++ installOps mem.p_physicalPages space base pf remap count i) := by
  intro count
  induction count with
  | zero => intro i ops _; simp [installLoop, installOps]
  | succ k ih =>
    intro i ops h
    rw [installLoop, hmem, bind_okE, getPage_eq (by omega), bind_okE, installOps, slotOps]
    by_cases hp : mem.p_physicalPages.getD i noPage = noPage
    · rw [if_pos hp, if_pos hp, ih _ _ (by omega)]
      simp
    · rw [if_neg hp, if_neg hp]
      dsimp only
      rw [ih _ _ (by omega)]
      cases remap <;> simp

/-- If the install loop completes, the page vector has all the slots the loop
walks, and the loop issued the calls `installOps`. -/
theorem installLoop_post {e : Env} {memory : Ptr} {mem : Memory} (space base pf : Nat)
    (remap : Bool) (hmem : e.getMemory memory = Except.ok mem) :
    ∀ (count i : Nat) (ops ops' : List PageOp),
      installLoop e memory space base pf remap count i ops = Except.ok ops' →
      (0 < count → i + count ≤ mem.p_physicalPages.length) ∧
        ops' = ops ++ installOps mem.p_physicalPages space base pf remap count i := by
  intro count
  induction count with
  | zero =>
    intro i ops ops' h
    simp only [installLoop] at h
    cases h
    exact ⟨fun h => absurd h (by omega), by simp [installOps]⟩
  | succ k ih =>
    intro i ops ops' h
    rw [installLoop, hmem, bind_okE] at h
    cases hg : mem.getPage i with
    | error err => rw [hg] at h; cases h
    | ok page =>
      rw [hg, bind_okE] at h
      obtain ⟨hi, hpage⟩ := getPage_bound hg
      have hlen : i + (k + 1) ≤ mem.p_physicalPages.length := by
        cases k with
        | zero => omega
        | succ j =>
          by_cases hp : page = noPage
          · rw [if_pos hp] at h
            have := (ih _ _ _ h).1 (by omega)
            omega
          · rw [if_neg hp] at h
            have := (ih _ _ _ h).1 (by omega)
            omega
      refine ⟨fun _ => hlen, ?_⟩
      have := installLoop_total space base pf remap hmem (k + 1) i ops hlen
      rw [installLoop, hmem, bind_okE, hg, bind_okE, h] at this
      exact Except.ok.inj this

/-- The calls of the install loop without unmapping, slot by slot. -/
theorem installOps_range (pages : List Nat) (space base pf : Nat) :
    ∀ (count i : Nat), installOps pages space base pf false count i =
      (List.range count).filterMap (fun k =>
        if pages.getD (i + k) noPage = noPage then none
        else some (PageOp.mapSingle4k space (add64 base (mul64 (i + k) kPageSize))
          (pages.getD (i + k) noPage) true pf)) := by
  intro count
  induction count with
  | zero => intro i; simp [installOps]
  | succ k ih =>
    intro i
    rw [installOps, ih, List.range_succ_eq_map, List.filterMap_cons, slotOps]
    by_cases hp : pages.getD i noPage = noPage
    · simp only [Nat.add_zero, hp, if_true, List.nil_append, List.filterMap_map]
      refine List.filterMap_congr (fun x _ => ?_)
      simp only [Function.comp, Nat.add_assoc, Nat.add_comm 1 x, Nat.succ_eq_add_one]
    · simp only [Nat.add_zero, hp, if_false, List.nil_append, List.filterMap_map,
        List.singleton_append, Bool.false_eq_true]
      congr 1
      refine List.filterMap_congr (fun x _ => ?_)
      simp only [Function.comp, Nat.add_assoc, Nat.add_comm 1 x, Nat.succ_eq_add_one]

/-- The page-table side of `map`: the memory objects are untouched, and the
calls issued are those of the install loop at the returned address with the
permissions `mapPageFlags flags`. -/
theorem map_ops (fuel : Nat) (s : Space) (e : Env) (memory : Ptr)
    (address length flags : Nat) :
    Post (map fuel s e memory address length flags) (fun r =>
      r.2.1.memories = e.memories ∧ r.2.1.nextMemory = e.nextMemory ∧
      r.2.1.nextPageSpace = e.nextPageSpace ∧
      installLoop e memory r.1.p_pageSpace r.2.2 (mapPageFlags flags) false
        (length / kPageSize) 0 e.pageOps = Except.ok r.2.1.pageOps) := by
  unfold map
  refine Post.bind Post.assert (fun _ _ => ?_)
  dsimp only
  have hfin : ∀ (s4 : Space) (i pf : Nat), pf = mapPageFlags flags →
      Post (do
        let m ← s4.get i
        let ops ← installLoop e memory s4.p_pageSpace m.baseAddress pf false
          (length / kPageSize) 0 e.pageOps
        Except.ok (s4, { e with pageOps := ops }, m.baseAddress)) (fun r =>
        r.2.1.memories = e.memories ∧ r.2.1.nextMemory = e.nextMemory ∧
        r.2.1.nextPageSpace = e.nextPageSpace ∧
        installLoop e memory r.1.p_pageSpace r.2.2 (mapPageFlags flags) false
          (length / kPageSize) 0 e.pageOps = Except.ok r.2.1.pageOps) := by
    intro s4 i pf hpf
    refine Post.bind Post.get (fun m _ => ?_)
    refine Post.bind (Post.self _) (fun ops hops => ?_)
    subst hpf
    exact Post.ok ⟨rfl, rfl, rfl, hops⟩
  have hshare : ∀ (s3 : Space) (i pf : Nat), pf = mapPageFlags flags →
      Post (do
        let s ←
          if flags &&& kMapShareOnFork ≠ 0 then
            s3.modify i (fun c => { c with flags := c.flags ||| kFlagShareOnFork })
          else Except.ok s3
        let m ← s.get i
        let ops ← installLoop e memory s.p_pageSpace m.baseAddress pf false
          (length / kPageSize) 0 e.pageOps
        Except.ok (s, { e with pageOps := ops }, m.baseAddress)) (fun r =>
        r.2.1.memories = e.memories ∧ r.2.1.nextMemory = e.nextMemory ∧
        r.2.1.nextPageSpace = e.nextPageSpace ∧
        installLoop e memory r.1.p_pageSpace r.2.2 (mapPageFlags flags) false
          (length / kPageSize) 0 e.pageOps = Except.ok r.2.1.pageOps) := by
    intro s3 i pf hpf
    split
    · exact Post.bind Post.trivial (fun s4 _ => hfin s4 i pf hpf)
    · rw [bind_okE]
      exact hfin s3 i pf hpf
  refine Post.ite (fun _ => ?_) (fun _ => ?_)
  on_goal 1 =>
    refine Post.bind Post.assert (fun _ _ => ?_)
    refine Post.bind Post.trivial ?_
    rintro ⟨s1, i0⟩ -
    rw [bind_okE]
    dsimp only
    refine Post.bind Post.assertSome (fun i _ => ?_)
  on_goal 2 =>
    refine Post.bind Post.trivial ?_
    rintro ⟨s1, p⟩ -
    dsimp only
    refine Post.bind Post.assertSome (fun i _ => ?_)
  all_goals
    refine Post.bind Post.trivial (fun s2 _ => ?_)
    dsimp only
    refine Post.ite (fun hrw => ?_) (fun hrw => Post.ite (fun hrx => ?_) (fun hrx => ?_))
    · refine Post.bind Post.trivial (fun s3 _ => ?_)
      rw [bind_okE]
      refine hshare s3 _ _ ?_
      have hrw' : flags &&& permissionMask = kMapReadWrite := hrw
      rw [mapPageFlags, if_pos hrw']
    · refine Post.bind Post.trivial (fun s3 _ => ?_)
      rw [bind_okE]
      refine hshare s3 _ _ ?_
      have hrw' : ¬ flags &&& permissionMask = kMapReadWrite := hrw
      have hrx' : flags &&& permissionMask = kMapReadExecute := hrx
      rw [mapPageFlags, if_neg hrw', if_pos hrx']
    · refine Post.bind Post.assert (fun _ hro => ?_)
      rw [bind_okE]
      refine hshare s2 _ _ ?_
      have hrw' : ¬ flags &&& permissionMask = kMapReadWrite := hrw
      have hrx' : ¬ flags &&& permissionMask = kMapReadExecute := hrx
      rw [mapPageFlags, if_neg hrw', if_neg hrx']

/-! ### The fault handler -/

/-- In a tree whose mappings tile a range, `getMapping` finds the mapping that
contains the address. -/
theorem getMapping_found {s : Space} {t : Tree} {fuel a lo hi i : Nat} {m : Mapping}
    (hT : TreeAt s t) (hc : Covers s.cells lo t.toList hi) (hhi : hi < wordMod)
    (hfuel : t.toList.length < fuel) (hil : i ∈ t.toList) (hm : s.cells i = some m)
    (h1 : m.baseAddress ≤ a) (h2 : a < m.baseAddress + m.length) :
    getMapping fuel s a = Except.ok (some i) := by
  have hb : baseOf s.cells i = m.baseAddress := fieldOf_some hm _ _
  have he : endOf s.cells i = m.baseAddress + m.length := by
    simp only [endOf, baseOf, lengthOf, fieldOf_some hm]
  obtain ⟨g1, g2, -⟩ := hc.mem hil
  obtain ⟨f1, -⟩ := getMappingLoop_spec s a t none lo hi fuel hT.2.1 hc hhi hfuel
  obtain ⟨j, hj, hjl, p1, p2⟩ := f1 (by omega) (by omega)
  have : i = j := Covers.unique hc hil hjl (by omega) (by omega) p1 p2
  subst this
  unfold getMapping
  rw [hT.1]
  exact hj

/-- In a tree whose mappings tile a range, `getMapping` completes, and what it
finds is a mapping of the tree that contains the address. -/
theorem getMapping_total {s : Space} {t : Tree} {fuel lo hi : Nat} (a : Nat)
    (hT : TreeAt s t) (hc : Covers s.cells lo t.toList hi) (hhi : hi < wordMod)
    (hfuel : t.toList.length < fuel) :
    (∃ i m, getMapping fuel s a = Except.ok (some i) ∧ i ∈ t.toList ∧ s.cells i = some m ∧
      m.baseAddress ≤ a ∧ a < m.baseAddress + m.length) ∨
    (getMapping fuel s a = Except.ok none ∧ ∀ i ∈ t.toList, ∀ m, s.cells i = some m →
      ¬ (m.baseAddress ≤ a ∧ a < m.baseAddress + m.length)) := by
  obtain ⟨f1, f2⟩ := getMappingLoop_spec s a t none lo hi fuel hT.2.1 hc hhi hfuel
  by_cases hin : lo ≤ a ∧ a < hi
  · left
    obtain ⟨j, hj, hjl, p1, p2⟩ := f1 hin.1 hin.2
    obtain ⟨m, hm⟩ := hT.2.1.mem_alive hjl
    have hb : baseOf s.cells j = m.baseAddress := fieldOf_some hm _ _
    have he : endOf s.cells j = m.baseAddress + m.length := by
      simp only [endOf, baseOf, lengthOf, fieldOf_some hm]
    refine ⟨j, m, ?_, hjl, hm, by omega, by omega⟩
    unfold getMapping
    rw [hT.1]
    exact hj
  · right
    refine ⟨?_, fun i hi m hm hcon => ?_⟩
    · unfold getMapping
      rw [hT.1]
      exact f2 (by omega)
    · have hb : baseOf s.cells i = m.baseAddress := fieldOf_some hm _ _
      have he : endOf s.cells i = m.baseAddress + m.length := by
        simp only [endOf, baseOf, lengthOf, fieldOf_some hm]
      obtain ⟨g1, g2, -⟩ := hc.mem hi
      omega

theorem handleFault_none {fuel : Nat} {s : Space} {e : Env} {p : Phys} {a flags : Nat}
    (hg : getMapping fuel s a = Except.ok none) :
    handleFault fuel s e p a flags = Except.ok (s, e, p, false) := by
  simp only [handleFault, hg, bind_okE]

theorem handleFault_kind {fuel : Nat} {s : Space} {e : Env} {p : Phys} {a flags i : Nat}
    {m : Mapping} (hg : getMapping fuel s a = Except.ok (some i)) (hm : s.cells i = some m)
    (hty : m.type ≠ MappingType.kTypeMemory) :
    handleFault fuel s e p a flags = Except.ok (s, e, p, false) := by
  simp only [handleFault, hg, bind_okE, get_eq hm, if_pos hty]

theorem handleFault_other {fuel : Nat} {s : Space} {e : Env} {p : Phys} {a flags i : Nat}
    {m : Mapping} {mem : Memory} (hg : getMapping fuel s a = Except.ok (some i))
    (hm : s.cells i = some m) (hty : m.type = MappingType.kTypeMemory)
    (hmem : e.getMemory m.memoryRegion = Except.ok mem)
    (h1 : ¬ (mem.p_type = MemoryType.kTypeAllocated ∧ mem.flags &&& kFlagOnDemand ≠ 0))
    (h2 : mem.p_type ≠ MemoryType.kTypeCopyOnWrite) :
    handleFault fuel s e p a flags = Except.ok (s, e, p, false) := by
  simp only [handleFault, hg, bind_okE, get_eq hm, hty, ne_eq, not_true_eq_false, if_false, hmem,
    if_neg h1, if_neg h2]

theorem getMemory_some {e : Env} {q : Ptr} {mem : Memory} (h : e.getMemory q = Except.ok mem) :
    ∃ k, q = some k ∧ e.memories k = some mem := by
  unfold Env.getMemory at h
  cases q with
  | none => cases h
  | some k =>
    cases hk : e.memories k with
    | none => simp only [hk] at h; cases h
    | some x =>
      simp only [hk] at h
      cases h
      exact ⟨k, rfl, hk⟩

theorem setPage_eq {e : Env} {k : Nat} {mem : Memory} {index page : Nat}
    (hk : e.memories k = some mem) (hi : index < mem.p_physicalPages.length) :
    e.setPage (some k) index page = Except.ok
      { e with memories := fun j =>
          if j = k then some { mem with p_physicalPages := mem.p_physicalPages.set index page }
          else e.memories j } := by
  simp only [Env.setPage, Env.getMemory, hk, bind_okE, Memory.setPage, if_pos hi, deref]

/-- The on-demand branch of `handleFault` on an unbound slot. -/
theorem handleFault_onDemand {fuel : Nat} {s : Space} {e : Env} {p : Phys} {a flags i k f : Nat}
    {rest : List Nat} {m : Mapping} {mem : Memory}
    (hg : getMapping fuel s a = Except.ok (some i))
    (hm : s.cells i = some m) (hty : m.type = MappingType.kTypeMemory)
    (hr : m.memoryRegion = some k) (hk : e.memories k = some mem)
    (h1 : mem.p_type = MemoryType.kTypeAllocated) (h2 : mem.flags &&& kFlagOnDemand ≠ 0)
    (hfree : p.free = f :: rest)
    (hslot : mem.getPage (sub64 a m.baseAddress / kPageSize) = Except.ok noPage) :
    handleFault fuel s e p a flags = Except.ok
      (s,
        { e with
          memories := fun j =>
            if j = k then
              some { mem with p_physicalPages :=
                mem.p_physicalPages.set (sub64 a m.baseAddress / kPageSize) f }
            else e.memories j,
          pageOps := e.pageOps ++ [PageOp.mapSingle4k s.p_pageSpace (sub64 a (a % kPageSize)) f
            true ((if m.writePermission then kAccessWrite else 0) ||| kAccessExecute)] },
        { p with free := rest, allocated := p.allocated ++ [f] }, true) := by
  have hmem : e.getMemory (some k) = Except.ok mem := by
    simp only [Env.getMemory, hk]
  have hb := (getPage_bound hslot).1
  simp only [handleFault, hg, bind_okE, get_eq hm, hty, ne_eq, not_true_eq_false, if_false, hmem,
    h1, h2, true_and, not_false_eq_true, if_true, Phys.allocate, hfree, hslot, assert,
    decide_True, hr, setPage_eq hk hb, Env.issue]

/-- The on-demand branch of `handleFault` on a bound slot. -/
theorem handleFault_bound {fuel : Nat} {s : Space} {e : Env} {p : Phys} {a flags i page : Nat}
    {m : Mapping} {mem : Memory}
    (hg : getMapping fuel s a = Except.ok (some i))
    (hm : s.cells i = some m) (hty : m.type = MappingType.kTypeMemory)
    (hmem : e.getMemory m.memoryRegion = Except.ok mem)
    (h1 : mem.p_type = MemoryType.kTypeAllocated) (h2 : mem.flags &&& kFlagOnDemand ≠ 0)
    (hslot : mem.getPage (sub64 a m.baseAddress / kPageSize) = Except.ok page)
    (hpage : page ≠ noPage) :
    handleFault fuel s e p a flags = Except.error Err.assertion := by
  simp only [handleFault, hg, bind_okE, get_eq hm, hty, ne_eq, not_true_eq_false, if_false, hmem,
    h1, h2, true_and, not_false_eq_true, if_true, Phys.allocate]
  cases p.free with
  | nil => rfl
  | cons f rest =>
    simp only [bind_okE, hslot, assert, hpage, decide_False]
    rfl

/-- The copy-on-write branch of `handleFault` on an unbound slot whose master
slot holds a frame. -/
theorem handleFault_cow {fuel : Nat} {s : Space} {e : Env} {p : Phys} {a flags i k f o : Nat}
    {rest : List Nat} {m : Mapping} {mem mas : Memory}
    (hg : getMapping fuel s a = Except.ok (some i))
    (hm : s.cells i = some m) (hty : m.type = MappingType.kTypeMemory)
    (hr : m.memoryRegion = some k) (hk : e.memories k = some mem)
    (h1 : mem.p_type = MemoryType.kTypeCopyOnWrite)
    (hmas : e.getMemory mem.master = Except.ok mas)
    (horigin : mas.getPage (sub64 a m.baseAddress / kPageSize) = Except.ok o) (ho : o ≠ noPage)
    (hfree : p.free = f :: rest)
    (hslot : mem.getPage (sub64 a m.baseAddress / kPageSize) = Except.ok noPage) :
    handleFault fuel s e p a flags = Except.ok
      (s,
        { e with
          memories := fun j =>
            if j = k then
              some { mem with p_physicalPages :=
                mem.p_physicalPages.set (sub64 a m.baseAddress / kPageSize) f }
            else e.memories j,
          pageOps := e.pageOps ++ [PageOp.unmapSingle4k s.p_pageSpace (sub64 a (a % kPageSize)),
            PageOp.mapSingle4k s.p_pageSpace (sub64 a (a % kPageSize)) f
              true ((if m.writePermission then kAccessWrite else 0) ||| kAccessExecute)] },
        ({ p with free := rest, allocated := p.allocated ++ [f] } : Phys).memcpy f o kPageSize,
        true) := by
  have hmem : e.getMemory (some k) = Except.ok mem := by
    simp only [Env.getMemory, hk]
  have hb := (getPage_bound hslot).1
  simp only [handleFault, hg, bind_okE, get_eq hm, hty, ne_eq, not_true_eq_false, if_false, hr,
    hmem, h1, (by decide : ¬ (MemoryType.kTypeCopyOnWrite = MemoryType.kTypeAllocated)),
    false_and, if_true, Phys.allocate, hfree, hmas, horigin, assert, ho,
    not_false_eq_true, decide_True, hslot, setPage_eq hk hb, Env.issue, List.append_assoc,
    List.singleton_append]

/-- Address arithmetic of the fault handler: for an address inside a mapping
with a page-aligned base, the page of the address starts `page_index` pages
after the base. -/
theorem page_vaddr_eq {a base : Nat} (ha : a < wordMod) (hb : base ≤ a)
    (hal : base % kPageSize = 0) :
    sub64 a base = a - base ∧
    sub64 a (a % kPageSize) = a - a % kPageSize ∧
    a - a % kPageSize = base + (a - base) / kPageSize * kPageSize := by
  have hk : kPageSize = 4096 := rfl
  have hw : wordMod = 18446744073709551616 := rfl
  rw [hk] at hal ⊢
  rw [hw] at ha
  have hmod := Nat.mod_lt a (show 0 < 4096 by decide)
  have hle := Nat.mod_le a 4096
  refine ⟨?_, ?_, ?_⟩
  · unfold sub64
    rw [hw, Nat.mod_eq_of_lt (by omega : base < 18446744073709551616)]
    omega
  · unfold sub64
    rw [hw, Nat.mod_eq_of_lt (by omega : a % 4096 < 18446744073709551616)]
    omega
  · have e1 := Nat.div_add_mod a 4096
    have e2 := Nat.div_add_mod base 4096
    have e3 := Nat.div_add_mod (a - base) 4096
    have e4 : (a - base) % 4096 = a % 4096 := by
      have : a = (a - base) + 4096 * (base / 4096) := by omega
      conv_rhs => rw [this]
      rw [Nat.add_mul_mod_self_left]
    omega

/-- In a tiling, an address lies in at most one mapping. -/
theorem contains_unique {c : Nat → Option Mapping} {lo hi a i j : Nat} {l : List Nat}
    {m m' : Mapping} (hc : Covers c lo l hi) (hi' : i ∈ l) (hj : j ∈ l) (hm : c i = some m)
    (hm' : c j = some m') (h1 : m.baseAddress ≤ a) (h2 : a < m.baseAddress + m.length)
    (h3 : m'.baseAddress ≤ a) (h4 : a < m'.baseAddress + m'.length) : i = j := by
  refine @Covers.unique c lo hi a l hc i j hi' hj ?_ ?_ ?_ ?_
  · rw [show baseOf c i = m.baseAddress from fieldOf_some hm _ _]
    exact h1
  · simp only [endOf, baseOf, lengthOf, fieldOf_some hm]
    exact h2
  · rw [show baseOf c j = m'.baseAddress from fieldOf_some hm' _ _]
    exact h3
  · simp only [endOf, baseOf, lengthOf, fieldOf_some hm']
    exact h4

/-- In the two resolving branches, `handleFault` returns true if it returns. -/
theorem handleFault_true_post {fuel : Nat} {s : Space} {e : Env} {p : Phys} {a flags i : Nat}
    {m : Mapping} {mem : Memory} (hg : getMapping fuel s a = Except.ok (some i))
    (hm : s.cells i = some m) (hty : m.type = MappingType.kTypeMemory)
    (hmem : e.getMemory m.memoryRegion = Except.ok mem)
    (h : (mem.p_type = MemoryType.kTypeAllocated ∧ mem.flags &&& kFlagOnDemand ≠ 0) ∨
      mem.p_type = MemoryType.kTypeCopyOnWrite) :
    Post (handleFault fuel s e p a flags) (fun r => r.2.2.2 = true) := by
  simp only [handleFault, hg, bind_okE, get_eq hm, hty, ne_eq, not_true_eq_false, if_false, hmem]
  refine Post.ite (fun _ => ?_) (fun h1 => Post.ite (fun _ => ?_) (fun h2 => ?_))
  · refine Post.bind Post.trivial ?_
    rintro ⟨p', f⟩ -
    dsimp only
    refine Post.bind Post.trivial (fun _ _ => ?_)
    refine Post.bind Post.trivial (fun _ _ => ?_)
    refine Post.bind Post.trivial (fun _ _ => ?_)
    exact Post.ok rfl
  · refine Post.bind Post.trivial ?_
    rintro ⟨p', f⟩ -
    dsimp only
    refine Post.bind Post.trivial (fun _ _ => ?_)
    refine Post.bind Post.trivial (fun _ _ => ?_)
    refine Post.bind Post.trivial (fun _ _ => ?_)
    refine Post.bind Post.trivial (fun _ _ => ?_)
    refine Post.bind Post.trivial (fun _ _ => ?_)
    refine Post.bind Post.trivial (fun _ _ => ?_)
    exact Post.ok rfl
  · rcases h with h | h
    · exact absurd h h1
    · exact absurd h h2

theorem getD_set_self {l : List Nat} {i : Nat} (x d : Nat) (h : i < l.length) :
    (l.set i x).getD i d = x := by
  rw [List.getD_eq_getElem?_getD, List.getElem?_set_self h]
  rfl

theorem getPage_set {mem : Memory} {i : Nat} (x : Nat) (h : i < mem.p_physicalPages.length) :
    ({ mem with p_physicalPages := mem.p_physicalPages.set i x } : Memory).getPage i =
      Except.ok x := by
  rw [getPage_eq (by simp only [List.length_set]; exact h)]
  simp only [getD_set_self x noPage h]

/-- The bytes that `memcpy` between two frames leaves: the destination frame
holds the bytes of the source frame, and the source frame keeps its bytes. -/
theorem memcpy_frames (p : Phys) {f o : Nat} (hf : f % kPageSize = 0) (ho : o % kPageSize = 0) :
    (∀ n, n < kPageSize → (p.memcpy f o kPageSize).bytes (f + n) = p.bytes (o + n)) ∧
    (∀ n, n < kPageSize → (p.memcpy f o kPageSize).bytes (o + n) = p.bytes (o + n)) := by
  have hk : kPageSize = 4096 := rfl
  rw [hk] at hf ho ⊢
  refine ⟨fun n hn => ?_, fun n hn => ?_⟩
  · simp only [Phys.memcpy]
    rw [if_pos (by omega), Nat.add_sub_cancel_left]
  · simp only [Phys.memcpy]
    by_cases hin : f ≤ o + n ∧ o + n < f + 4096
    · rw [if_pos hin]
      have : f = o := by omega
      subst this
      rw [Nat.add_sub_cancel_left]
    · rw [if_neg hin]

/-! ### The walk of `cloneRecursive` -/

theorem ite_bindE {α β : Type} (c : Prop) [Decidable c] (x y : Except Err α)
    (f : α → Except Err β) :
    ((if c then x else y) >>= f) = if c then x >>= f else y >>= f := by
  split <;> rfl

/-- The body of `cloneRecursive`: the mapping itself, then its two subtrees. -/
theorem cloneRecursive_succ (full sps fuel : Nat) (d : Space) (e : Env) (mapping : Nat) :
    cloneRecursive full sps (fuel + 1) d e mapping =
      cloneNode full sps d e mapping >>= fun r => cloneChildren full sps fuel r.1 r.2 mapping := by
  rw [cloneRecursive, cloneNode]
  simp only [bind_assoc, bind_okE, cloneChildren, ite_bindE, bind_errE]

theorem env_eta (e : Env) : ({ e with pageOps := e.pageOps } : Env) = e := by
  cases e
  rfl

theorem makeCopyOnWrite_eq (e : Env) {n : Nat} (master : Ptr) (hn : 0 < n) :
    e.makeCopyOnWrite n master = Except.ok
      ({ e with memories := fun j => if j = e.nextMemory then some (cowMemory n master)
                                     else e.memories j,
                nextMemory := e.nextMemory + 1 }, e.nextMemory) := by
  simp only [Env.makeCopyOnWrite, Memory.resize, List.length_nil, assert, hn, decide_True,
    if_true, bind_okE, List.nil_append, Nat.sub_zero, cowMemory]

/-- What `cloneNode` does on a hole: it inserts the copy. -/
theorem cloneNode_hole {full sps : Nat} {d : Space} {e : Env} {i : Nat} {m : Mapping}
    (hm : d.cells i = some m) (hty : m.type = MappingType.kTypeHole) :
    cloneNode full sps d e i =
      addressTreeInsert full (cloneSpace d i m e.nextMemory) d.next >>= fun d5 =>
        Except.ok (d5, cloneEnv e m (pagesOf e m.memoryRegion) sps d.p_pageSpace) := by
  have hnb : ¬ m.breaks := fun h => by
    have h1 : m.type = MappingType.kTypeMemory := h.1
    rw [hty] at h1
    cases h1
  have hs : upd d.cells i (sourceCell m e.nextMemory) = d.cells := by
    rw [sourceCell, if_neg hnb]
    exact upd_self hm
  simp only [cloneNode, get_eq hm, bind_okE, Space.construct, hty, if_true, cloneSpace, hs,
    cloneCell, cloneEnv, if_neg hnb, cloneOps, List.append_nil, env_eta]
  rfl

theorem pagesOf_eq {e : Env} {q : Ptr} {mem : Memory} (h : e.getMemory q = Except.ok mem) :
    pagesOf e q = mem.p_physicalPages := by
  simp only [pagesOf, h]

theorem space_ext {s t : Space} (h1 : s.cells = t.cells) (h2 : s.next = t.next)
    (h3 : s.p_root = t.p_root) (h4 : s.p_pageSpace = t.p_pageSpace) : s = t := by
  cases s
  cases t
  simp only at h1 h2 h3 h4
  subst h1 h2 h3 h4
  rfl

theorem modify_mk {c : Nat → Option Mapping} {n ps i : Nat} {r : Ptr} {x : Mapping}
    (f : Mapping → Mapping) (h : c i = some x) :
    (Space.mk c n r ps).modify i f = Except.ok (Space.mk (upd c i (f x)) n r ps) := by
  simp only [Space.modify, h]
  rfl

/-- What `cloneNode` does on a memory mapping with share-on-fork: it maps the
bound pages into the destination page space and inserts the copy. -/
theorem cloneNode_shared {full sps : Nat} {d : Space} {e : Env} {i : Nat} {m : Mapping}
    {mem : Memory} (hm : d.cells i = some m) (hty : m.type = MappingType.kTypeMemory)
    (hsh : m.shared) (hmem : e.getMemory m.memoryRegion = Except.ok mem)
    (htype : mem.p_type = MemoryType.kTypeAllocated ∨ mem.p_type = MemoryType.kTypePhysical)
    (hslots : m.length / kPageSize ≤ mem.p_physicalPages.length) :
    cloneNode full sps d e i =
      addressTreeInsert full (cloneSpace d i m e.nextMemory) d.next >>= fun d5 =>
        Except.ok (d5, cloneEnv e m (pagesOf e m.memoryRegion) sps d.p_pageSpace) := by
  have hnb : ¬ m.breaks := fun h => h.2 hsh
  have hnh : ¬ m.type = MappingType.kTypeHole := by rw [hty]; decide
  have hsh' : m.flags &&& kFlagShareOnFork ≠ 0 := hsh
  have hs : upd d.cells i (sourceCell m e.nextMemory) = d.cells := by
    rw [sourceCell, if_neg hnb]
    exact upd_self hm
  have hassert : assert (decide (mem.p_type = MemoryType.kTypeAllocated)
      || decide (mem.p_type = MemoryType.kTypePhysical)) = Except.ok () := by
    rcases htype with h | h <;> simp [assert, h]
  have hget : (d.construct (Mapping.mk0 m.type m.baseAddress m.length)).1.get
      (d.construct (Mapping.mk0 m.type m.baseAddress m.length)).2 =
      Except.ok (Mapping.mk0 m.type m.baseAddress m.length) := by
    simp [Space.construct, Space.get]
  have hloop := installLoop_total d.p_pageSpace m.baseAddress
    ((if m.writePermission then kAccessWrite else 0) ||| kAccessExecute) false hmem
    (m.length / kPageSize) 0 e.pageOps (by omega)
  have hmod : (d.construct (Mapping.mk0 m.type m.baseAddress m.length)).1.modify
      (d.construct (Mapping.mk0 m.type m.baseAddress m.length)).2 (fun c =>
        { c with memoryRegion := m.memoryRegion, writePermission := m.writePermission,
                 executePermission := m.executePermission }) =
      Except.ok (cloneSpace d i m e.nextMemory) := by
    simp only [Space.construct, Space.modify, if_true, cloneSpace, hs, cloneCell, if_neg hnh,
      if_pos hsh]
    refine congrArg Except.ok (space_ext ?_ rfl rfl rfl)
    funext j
    simp only [upd]
    split <;> rfl
  have hp : (d.construct (Mapping.mk0 m.type m.baseAddress m.length)).1.p_pageSpace =
      d.p_pageSpace := rfl
  have hb : (Mapping.mk0 m.type m.baseAddress m.length).baseAddress = m.baseAddress := rfl
  have hl : (Mapping.mk0 m.type m.baseAddress m.length).length = m.length := rfl
  have hcond : m.type = MappingType.kTypeMemory ∧ m.flags &&& kFlagShareOnFork ≠ 0 :=
    ⟨hty, hsh'⟩
  simp only [cloneNode, get_eq hm, bind_okE, if_neg hnh, if_pos hcond, hmem, hassert, hget, hp,
    hb, hl, hloop, hmod, cloneEnv, if_neg hnb, cloneOps, if_pos hsh, pagesOf_eq hmem]
  rfl

/-- What `cloneNode` does on a memory mapping without share-on-fork: it creates
the two copy-on-write objects, remaps the bound pages in the source page space,
maps them into the destination page space, and inserts the copy. -/
theorem cloneNode_breaks {full sps : Nat} {d : Space} {e : Env} {i k : Nat} {m : Mapping}
    {mem : Memory} (hm : d.cells i = some m) (hi : i ≠ d.next)
    (hty : m.type = MappingType.kTypeMemory)
    (hsh : ¬ m.shared) (hr : m.memoryRegion = some k) (hk : e.memories k = some mem)
    (hkn : k < e.nextMemory)
    (htype : mem.p_type = MemoryType.kTypeAllocated) (hpos : 0 < mem.p_physicalPages.length)
    (hslots : m.length / kPageSize ≤ mem.p_physicalPages.length) :
    cloneNode full sps d e i =
      addressTreeInsert full (cloneSpace d i m e.nextMemory) d.next >>= fun d5 =>
        Except.ok (d5, cloneEnv e m (pagesOf e m.memoryRegion) sps d.p_pageSpace) := by
  have hb : m.breaks := ⟨hty, hsh⟩
  have hnh : ¬ m.type = MappingType.kTypeHole := by rw [hty]; decide
  have hsh' : ¬ (m.flags &&& kFlagShareOnFork ≠ 0) := hsh
  have hmem : e.getMemory (some k) = Except.ok mem := by simp only [Env.getMemory, hk]
  have he1 : ∀ (e1 : Env), e1.memories k = some mem → e1.getMemory (some k) = Except.ok mem :=
    fun e1 h => by simp only [Env.getMemory, h]
  have hassert : assert (decide (mem.p_type = MemoryType.kTypeAllocated)) = Except.ok () := by
    simp [assert, htype]
  have hne1 : k ≠ e.nextMemory := by omega
  have hne2 : k ≠ e.nextMemory + 1 := by omega
  have hmod1 : (d.construct (Mapping.mk0 m.type m.baseAddress m.length)).1.modify i
      (fun c => { c with memoryRegion := some e.nextMemory }) =
      Except.ok (Space.mk (upd (upd d.cells d.next (Mapping.mk0 m.type m.baseAddress m.length)) i
        { m with memoryRegion := some e.nextMemory }) (d.next + 1) d.p_root d.p_pageSpace) := by
    simp only [Space.construct, Space.modify, if_neg hi, hm]
    rfl
  have hcond : ¬ (m.type = MappingType.kTypeMemory ∧ m.flags &&& kFlagShareOnFork ≠ 0) :=
    fun h => hsh' h.2
  simp only [cloneNode, get_eq hm, bind_okE, if_neg hnh, if_neg hcond, if_pos hty,
    hr, hmem, hassert, makeCopyOnWrite_eq _ _ hpos, hmod1]
  rw [installLoop_total sps m.baseAddress kAccessExecute true
    (he1 _ (by simp only [if_neg hne1]; exact hk)) (m.length / kPageSize) 0 e.pageOps (by omega)]
  simp only [bind_okE, makeCopyOnWrite_eq _ _ hpos]
  dsimp only [Space.construct]
  rw [modify_mk _ (show upd (upd d.cells d.next (Mapping.mk0 m.type m.baseAddress m.length)) i
    { m with memoryRegion := some e.nextMemory } d.next =
      some (Mapping.mk0 m.type m.baseAddress m.length) by simp [upd, Ne.symm hi])]
  simp only [bind_okE]
  rw [installLoop_total d.p_pageSpace m.baseAddress kAccessExecute false
    (he1 _ (by simp only [if_neg hne1, if_neg hne2]; exact hk)) (m.length / kPageSize) 0 _
    (by omega)]
  simp only [bind_okE]
  rw [modify_mk _ (upd_eq _ _ _)]
  simp only [bind_okE, cloneEnv, if_pos hb, cloneOps, if_neg hnh, if_neg hsh, pagesOf_eq hmem,
    List.append_assoc, hr]
  have hsp : Space.mk (upd (upd (upd (upd d.cells d.next (Mapping.mk0 m.type m.baseAddress m.length))
      i { m with memoryRegion := some e.nextMemory }) d.next
        { Mapping.mk0 m.type m.baseAddress m.length with memoryRegion := some (e.nextMemory + 1) })
      d.next
        { Mapping.mk0 m.type m.baseAddress m.length with
          memoryRegion := some (e.nextMemory + 1), writePermission := m.writePermission,
          executePermission := m.executePermission }) (d.next + 1) d.p_root d.p_pageSpace =
      cloneSpace d i m e.nextMemory := by
    refine space_ext ?_ rfl rfl rfl
    funext j
    simp only [cloneSpace, upd, sourceCell, if_pos hb, cloneCell, if_neg hnh, if_neg hsh]
    split
    · rfl
    · split <;> rfl
  rw [← hsp]

/-- What `cloneNode` does on a mapping that `fork` can clone. -/
theorem cloneNode_eq {full sps : Nat} {d : Space} {e : Env} {i : Nat} {m : Mapping}
    (hm : d.cells i = some m) (hi : i ≠ d.next) (hf : Forkable e m) :
    cloneNode full sps d e i =
      addressTreeInsert full (cloneSpace d i m e.nextMemory) d.next >>= fun d5 =>
        Except.ok (d5, cloneEnv e m (pagesOf e m.memoryRegion) sps d.p_pageSpace) := by
  rcases hf with hty | ⟨hty, k, mem, hr, hkn, hk, hslots, h1, h2⟩
  · exact cloneNode_hole hm hty
  · have hmem : e.getMemory m.memoryRegion = Except.ok mem := by
      simp only [hr, Env.getMemory, hk]
    by_cases hsh : m.shared
    · exact cloneNode_shared hm hty hsh hmem (h1 hsh) hslots
    · exact cloneNode_breaks hm hi hty hsh hr hk hkn (h2 hsh).1 (h2 hsh).2 hslots

theorem endOf_congr {c c' : Nat → Option Mapping} {i : Nat} (h : c' i = c i) :
    baseOf c' i = baseOf c i ∧ lengthOf c' i = lengthOf c i ∧ endOf c' i = endOf c i := by
  simp only [endOf, baseOf, lengthOf, fieldOf, h, and_self]

/-- The tree invariants depend on the nodes of the tree only. -/
theorem ValidTree.congr_valid {s s' : Space} {t : Tree} (hr : s'.p_root = s.p_root)
    (h : ∀ i ∈ t.toList, s'.cells i = s.cells i) (hv : ValidTree s t) : ValidTree s' t := by
  obtain ⟨hroot, hsh, hnd, hO, hF, hL, hA, hB, hR⟩ := hv
  have hcol : ∀ j ∈ t.toList, colorOf s'.cells j = colorOf s.cells j :=
    fun j hj => by simp only [colorOf, fieldOf, h j hj]
  refine ValidTree.of_parts ⟨hr.trans hroot, Shape.congr h hsh, hnd⟩ (Linked.congr_cells h hL)
    ?_ ?_ (Augmented.congr_aug (fun i hi => ?_) hA) (blackPtr.recolor_ptr hcol hB)
    (RedBlack.recolor hcol hR)
  · unfold Ordered at hO ⊢
    refine hO.imp_of_mem (fun {a b} ha hb hab => ?_)
    rw [(endOf_congr (h a ha)).2.2, (endOf_congr (h b hb)).1]
    exact hab
  · intro i hi
    rw [(endOf_congr (h i hi)).2.2]
    exact hF i hi
  · simp only [largestHoleAt, ownHole, typeOf, lengthOf, fieldOf, h i hi, and_self]

theorem ValidTree.asListInv {s : Space} {t : Tree} (hv : ValidTree s t) : ListInv t.toList s :=
  ⟨⟨t, ⟨hv.1, hv.2.1, hv.2.2.1⟩, rfl, hv.2.2.2.2.2.2.1⟩, hv.2.2.2.2.2.1⟩

/-- Two different mappings of a tiling lie apart. -/
theorem Covers.apart {c : Nat → Option Mapping} {lo hi : Nat} {l : List Nat}
    (hc : Covers c lo l hi) {i j : Nat} (hi' : i ∈ l) (hj : j ∈ l) (hne : i ≠ j) :
    endOf c i ≤ baseOf c j ∨ endOf c j ≤ baseOf c i := by
  have h := hc.ordered
  unfold Ordered at h
  have h' : l.Pairwise (fun a b => endOf c a ≤ baseOf c b ∨ endOf c b ≤ baseOf c a) :=
    h.imp (fun hab => Or.inl hab)
  exact h'.forall (fun a b hab => hab.symm) hi' hj hne

theorem Covers.some_cell {c : Nat → Option Mapping} {lo hi : Nat} {l : List Nat}
    (hc : Covers c lo l hi) {i : Nat} (hi' : i ∈ l) : ∃ m, c i = some m := by
  have h := (hc.mem hi').2.2
  cases hci : c i with
  | none => simp [lengthOf, fieldOf, hci] at h
  | some m => exact ⟨m, rfl⟩

theorem cloneCell_fields (m : Mapping) (a : Nat) :
    (cloneCell m a).baseAddress = m.baseAddress ∧ (cloneCell m a).length = m.length ∧
    (cloneCell m a).type = m.type ∧ (cloneCell m a).unlinked := by
  unfold cloneCell
  split
  · exact ⟨rfl, rfl, rfl, rfl, rfl, rfl, rfl, rfl, rfl⟩
  · exact ⟨rfl, rfl, rfl, rfl, rfl, rfl, rfl, rfl, rfl⟩

theorem keys_seg {c : Nat → Option Mapping} {j : Nat} {k : Mapping}
    (h : (c j).map Mapping.keys = some k.keys) :
    baseOf c j = k.baseAddress ∧ lengthOf c j = k.length ∧ typeOf c j = k.type ∧
      endOf c j = k.baseAddress + k.length := by
  cases hc : c j with
  | none => rw [hc] at h; cases h
  | some x =>
    rw [hc] at h
    have hk : x.keys = k.keys := Option.some.inj h
    have h1 : x.baseAddress = k.baseAddress := congrArg Keys.baseAddress hk
    have h2 : x.length = k.length := congrArg Keys.length hk
    have h3 : x.type = k.type := congrArg Keys.type hk
    simp only [endOf, baseOf, lengthOf, typeOf, fieldOf, hc, h1, h2, h3, and_self]

/-- A copy stays a copy while its source mapping, its own range and backing
fields and the older `Memory` objects stay as they are. -/
theorem Copied.step {c0 : Nat → Option Mapping} {e0 : Env} {d d' : Space} {e e' : Env}
    {i j : Nat} (h : Copied c0 e0 d e i j) (hi : d'.cells i = d.cells i)
    (hj : (d'.cells j).map Mapping.keys = (d.cells j).map Mapping.keys)
    (hmem : ∀ k, k < e.nextMemory → e'.memories k = e.memories k)
    (hnext : e.nextMemory ≤ e'.nextMemory) : Copied c0 e0 d' e' i j := by
  obtain ⟨m0, a, h1, h2, h3, h4, h5⟩ := h
  refine ⟨m0, a, h1, h2, hi.trans h3, hj.trans h4, fun hb => ?_⟩
  obtain ⟨g1, g2, g3⟩ := h5 hb
  exact ⟨by omega, (hmem a (by omega)).trans g2, (hmem (a + 1) (by omega)).trans g3⟩

theorem cloneEnv_facts (e : Env) (m : Mapping) (pages : List Nat) (sps dps : Nat) :
    (∀ k, k < e.nextMemory → (cloneEnv e m pages sps dps).memories k = e.memories k) ∧
    e.nextMemory ≤ (cloneEnv e m pages sps dps).nextMemory ∧
    (cloneEnv e m pages sps dps).pageOps = e.pageOps ++ cloneOps m pages sps dps ∧
    (m.breaks → e.nextMemory + 2 ≤ (cloneEnv e m pages sps dps).nextMemory ∧
      (cloneEnv e m pages sps dps).memories e.nextMemory =
        some (cowMemory pages.length m.memoryRegion) ∧
      (cloneEnv e m pages sps dps).memories (e.nextMemory + 1) =
        some (cowMemory pages.length m.memoryRegion)) := by
  unfold cloneEnv
  by_cases hb : m.breaks
  · rw [if_pos hb]
    refine ⟨fun k hk => ?_, Nat.le_add_right _ _, rfl, fun _ => ⟨le_refl _, ?_, ?_⟩⟩
    · show (if k = e.nextMemory + 1 then _ else if k = e.nextMemory then _ else e.memories k) = _
      rw [if_neg (by omega), if_neg (by omega)]
    · show (if e.nextMemory = e.nextMemory + 1 then _
        else if e.nextMemory = e.nextMemory then _ else e.memories e.nextMemory) = _
      rw [if_neg (by omega), if_pos rfl]
    · show (if e.nextMemory + 1 = e.nextMemory + 1 then _ else _) = _
      rw [if_pos rfl]
  · rw [if_neg hb]
    exact ⟨fun _ _ => rfl, le_refl _, rfl, fun h => absurd h hb⟩

theorem cloneEnv_hole {e : Env} {m : Mapping} (h : m.type = MappingType.kTypeHole)
    (pages pages' : List Nat) (sps dps : Nat) :
    cloneEnv e m pages sps dps = cloneEnv e m pages' sps dps := by
  have hnb : ¬ m.breaks := fun hb => by
    have h1 : m.type = MappingType.kTypeMemory := hb.1
    rw [h] at h1
    cases h1
  simp only [cloneEnv, if_neg hnb, cloneOps, if_pos h]

/-- One step of the walk of `cloneRecursive`: the mapping `i`, not yet visited,
is cloned, and its copy is inserted into the destination tree. -/
theorem cloneNode_step {c0 : Nat → Option Mapping} {e0 : Env} {n0 sps dps lo hi full : Nat}
    {S V : List Nat} {d : Space} {e : Env} {i : Nat}
    (hfresh : ∀ i ∈ S, i < n0) (hcov : Covers c0 lo S hi) (hhi : hi < wordMod)
    (hnode : ∀ m0, c0 i = some m0 → Forkable e0 m0) (hfuel : S.length ≤ full)
    (hw : Walk c0 e0 n0 sps dps S V d e) (hi : i ∈ S) (hiv : i ∉ V) :
    Returns (cloneNode full sps d e i)
      (fun r => Walk c0 e0 n0 sps dps S (V ++ [i]) r.1 r.2) := by
  obtain ⟨m0, hm0⟩ := hcov.some_cell hi
  have hm : d.cells i = some m0 := (hw.unvisited i hi hiv).trans hm0
  have hin0 : i < n0 := hfresh i hi
  have hnx := hw.next_eq
  have hne : i ≠ d.next := by omega
  have hf0 := hnode m0 hm0
  have hf : Forkable e m0 := by
    rcases hf0 with hty | ⟨hty, k, mem, hr, hkn, hk, hrest⟩
    · exact Or.inl hty
    · exact Or.inr ⟨hty, k, mem, hr, lt_of_lt_of_le hkn hw.mem_next,
        (hw.mem_old k hkn).trans hk, hrest⟩
  have henv : cloneEnv e m0 (pagesOf e m0.memoryRegion) sps d.p_pageSpace =
      cloneEnv e m0 (pagesOf e0 m0.memoryRegion) sps d.p_pageSpace := by
    rcases hf0 with hty | ⟨hty, k, mem, hr, hkn, hk, hrest⟩
    · exact cloneEnv_hole hty _ _ _ _
    · have : pagesOf e m0.memoryRegion = pagesOf e0 m0.memoryRegion := by
        simp only [pagesOf, hr, Env.getMemory, hw.mem_old k hkn]
      rw [this]
  rw [cloneNode_eq hm hne hf, henv]
  obtain ⟨Dt, hv, hD1, hD2⟩ := hw.dest
  have hcellsD : ∀ j ∈ Dt.toList, (cloneSpace d i m0 e.nextMemory).cells j = d.cells j := by
    intro j hj
    obtain ⟨b1, b2, -⟩ := hD1 j hj
    simp only [cloneSpace, upd, if_neg (show j ≠ d.next by omega), if_neg (show j ≠ i by omega)]
  have hvP : ValidTree (cloneSpace d i m0 e.nextMemory) Dt :=
    @ValidTree.congr_valid d _ Dt rfl hcellsD hv
  have hsubD : Dt.toList ⊆ List.range' n0 V.length := by
    intro j hj
    obtain ⟨b1, b2, -⟩ := hD1 j hj
    rw [List.mem_range'_1]
    omega
  have hlenD : Dt.toList.length ≤ V.length := by
    have := (hv.2.2.1.subperm hsubD).length_le
    simpa using this
  have hndV : (V ++ [i]).Nodup := by
    rw [List.nodup_append]
    refine ⟨hw.nodup, List.nodup_singleton i, ?_⟩
    intro x hx hx'
    rw [List.mem_singleton] at hx'
    exact hiv (hx' ▸ hx)
  have hsubV : V ++ [i] ⊆ S := by
    intro x hx
    rcases List.mem_append.mp hx with h | h
    · exact hw.visited x h
    · rw [List.mem_singleton] at h
      exact h ▸ hi
  have hlenV : V.length + 1 ≤ S.length := by
    have := (hndV.subperm hsubV).length_le
    simpa using this
  have hcP : (cloneSpace d i m0 e.nextMemory).cells d.next =
      some (cloneCell m0 e.nextMemory) := by
    simp only [cloneSpace, upd, if_true]
  obtain ⟨cb, cl, ct, cu⟩ := cloneCell_fields m0 e.nextMemory
  obtain ⟨g1, g2, g3⟩ := hcov.mem hi
  have hb0 : baseOf c0 i = m0.baseAddress := fieldOf_some hm0 _ _
  have hl0 : lengthOf c0 i = m0.length := fieldOf_some hm0 _ _
  have he0 : endOf c0 i = m0.baseAddress + m0.length := by
    simp only [endOf, baseOf, lengthOf, fieldOf_some hm0]
  have hnD : d.next ∉ Dt.toList := fun h => by
    have := (hD1 _ h).2.1
    omega
  have hdis : ∀ j ∈ Dt.toList,
      (cloneCell m0 e.nextMemory).baseAddress + (cloneCell m0 e.nextMemory).length ≤
        baseOf (cloneSpace d i m0 e.nextMemory).cells j ∨
      endOf (cloneSpace d i m0 e.nextMemory).cells j ≤
        (cloneCell m0 e.nextMemory).baseAddress := by
    intro j hj
    obtain ⟨-, -, i', hi'V, m', a', h1, -, -, h4, -⟩ := hD1 j hj
    have hk : ((cloneSpace d i m0 e.nextMemory).cells j).map Mapping.keys =
        some (cloneCell m' a').keys := by rw [hcellsD j hj]; exact h4
    obtain ⟨k1, k2, -, k4⟩ := keys_seg hk
    obtain ⟨cb', cl', -, -⟩ := cloneCell_fields m' a'
    have hne' : i ≠ i' := fun h => hiv (h ▸ hi'V)
    have hb' : baseOf c0 i' = m'.baseAddress := fieldOf_some h1 _ _
    have he' : endOf c0 i' = m'.baseAddress + m'.length := by
      simp only [endOf, baseOf, lengthOf, fieldOf_some h1]
    rw [k1, k4, cb, cl, cb', cl']
    rcases hcov.apart hi (hw.visited i' hi'V) hne' with h | h
    · left; omega
    · right; omega
  have htotal := @addressTreeInsert_total full _ Dt d.next _ hvP (by omega) hnD hcP cu
    (by rw [cl]; omega) (by rw [cb, cl]; omega) hdis
  have hout := @addressTreeInsert_out full _ _ d.next _ hvP.asListInv hcP cu.1 cu.2.1 cu.2.2.1
    cu.2.2.2.1 cu.2.2.2.2.1
  have hkf := addressTreeInsert_keyFrame full _ _ d.next
    (KeyFrame.refl (cloneSpace d i m0 e.nextMemory))
  refine Returns.seq ((htotal.with_post hout).with_post hkf) ?_
  rintro d5 ⟨⟨⟨Dt', hv5, A, B, hAB, hAB'⟩, hout5⟩, hkf5⟩
  obtain ⟨hmem', hnext', hops', hbreak'⟩ :=
    cloneEnv_facts e m0 (pagesOf e0 m0.memoryRegion) sps d.p_pageSpace
  have hlow : ∀ x, x < n0 → d5.cells x = (cloneSpace d i m0 e.nextMemory).cells x := by
    intro x hx
    refine hout5 x (fun h => ?_) (by omega)
    have := (hD1 x h).1
    omega
  have hold : ∀ x, x < n0 → x ≠ i → d5.cells x = d.cells x := by
    intro x hx hxi
    rw [hlow x hx]
    simp only [cloneSpace, upd, if_neg (show x ≠ d.next by omega), if_neg hxi]
  have hself : d5.cells i = some (sourceCell m0 e.nextMemory) := by
    rw [hlow i hin0]
    simp only [cloneSpace, upd, if_neg hne, if_true]
  have hkeys : ∀ x, (d5.cells x).map Mapping.keys =
      ((cloneSpace d i m0 e.nextMemory).cells x).map Mapping.keys := hkf5.2.2
  have hd5n : d5.next = d.next + 1 := hkf5.1
  have hstep : ∀ i' ∈ V, ∀ j ∈ Dt.toList, Copied c0 e0 d e i' j →
      Copied c0 e0 d5 (cloneEnv e m0 (pagesOf e0 m0.memoryRegion) sps d.p_pageSpace) i' j := by
    intro i' hi' j hj hcp
    refine hcp.step (hold i' (hfresh i' (hw.visited i' hi')) (fun h => hiv (h ▸ hi'))) ?_
      hmem' hnext'
    rw [hkeys j, hcellsD j hj]
  have hnew : Copied c0 e0 d5 (cloneEnv e m0 (pagesOf e0 m0.memoryRegion) sps d.p_pageSpace)
      i d.next :=
    ⟨m0, e.nextMemory, hm0, hw.mem_next, hself, by rw [hkeys, hcP]; rfl, hbreak'⟩
  have hmemD' : ∀ j, j ∈ Dt'.toList ↔ j ∈ Dt.toList ∨ j = d.next := by
    intro j
    rw [hAB', hAB]
    simp only [List.mem_append, List.mem_cons]
    tauto
  suffices hfinal : Walk c0 e0 n0 sps dps S (V ++ [i]) d5
      (cloneEnv e m0 (pagesOf e0 m0.memoryRegion) sps d.p_pageSpace) from Returns.pure_ok hfinal
  refine ⟨?_, ?_, hsubV, hndV, ?_, ⟨Dt', hv5, ?_, ?_⟩, ?_, ?_, ?_⟩
  · show d5.next = n0 + (V ++ [i]).length
    rw [hd5n, List.length_append, List.length_singleton]
    omega
  · show d5.p_pageSpace = dps
    rw [hkf5.2.1]
    exact hw.space_eq
  · intro x hx hxv
    have hxV : x ∉ V := fun h => hxv (List.mem_append_left _ h)
    have hxi : x ≠ i := fun h => hxv (List.mem_append_right _ (by simp [h]))
    exact (hold x (hfresh x hx) hxi).trans (hw.unvisited x hx hxV)
  · intro j hj
    rcases (hmemD' j).mp hj with h | h
    · obtain ⟨b1, b2, i', hi', hcp⟩ := hD1 j h
      exact ⟨b1, by omega, i', List.mem_append_left _ hi', hstep i' hi' j h hcp⟩
    · subst h
      exact ⟨by omega, by omega, i, List.mem_append_right _ (List.mem_singleton_self i), hnew⟩
  · intro i' hi'
    rcases List.mem_append.mp hi' with h | h
    · obtain ⟨j, hj, hcp⟩ := hD2 i' h
      exact ⟨j, (hmemD' j).mpr (Or.inl hj), hstep i' h j hj hcp⟩
    · rw [List.mem_singleton] at h
      subst h
      exact ⟨d.next, (hmemD' _).mpr (Or.inr rfl), hnew⟩
  · intro k hk
    exact (hmem' k (lt_of_lt_of_le hk hw.mem_next)).trans (hw.mem_old k hk)
  · exact le_trans hw.mem_next hnext'
  · show (cloneEnv e m0 (pagesOf e0 m0.memoryRegion) sps d.p_pageSpace).pageOps = _
    rw [hops', hw.ops, hw.space_eq]
    simp only [List.flatMap_append, List.append_assoc, List.flatMap_singleton, nodeOps, hm0]

theorem cloneNode_walk {c0 : Nat → Option Mapping} {e0 : Env} {n0 sps dps lo hi full : Nat}
    {S V : List Nat} {d : Space} {e : Env} {i : Nat}
    (hfresh : ∀ i ∈ S, i < n0) (hcov : Covers c0 lo S hi) (hhi : hi < wordMod)
    (hready : ∀ i ∈ S, ∀ m0, c0 i = some m0 → Forkable e0 m0) (hfuel : S.length ≤ full)
    (hw : Walk c0 e0 n0 sps dps S V d e) (hi : i ∈ S) (hiv : i ∉ V) :
    Returns (cloneNode full sps d e i)
      (fun r => Walk c0 e0 n0 sps dps S (V ++ [i]) r.1 r.2) :=
  cloneNode_step hfresh hcov hhi (hready i hi) hfuel hw hi hiv

theorem Tree.mem_preorder (t : Tree) (x : Nat) : x ∈ t.preorder ↔ x ∈ t.toList := by
  induction t with
  | nil => simp [Tree.preorder, Tree.toList]
  | node l i r ihl ihr =>
    simp only [Tree.preorder, Tree.toList, List.mem_cons, List.mem_append, ihl, ihr]
    tauto

theorem sourceCell_links (m : Mapping) (a : Nat) :
    (sourceCell m a).leftPtr = m.leftPtr ∧ (sourceCell m a).rightPtr = m.rightPtr := by
  unfold sourceCell
  split <;> exact ⟨rfl, rfl⟩

/-- A visited source mapping keeps its links. -/
theorem Walk.kept_links {c0 : Nat → Option Mapping} {e0 : Env} {n0 sps dps : Nat} {S V : List Nat}
    {d : Space} {e : Env} (hw : Walk c0 e0 n0 sps dps S V d e) {i : Nat} {m0 : Mapping}
    (hi : i ∈ V) (hm0 : c0 i = some m0) :
    ∃ m, d.cells i = some m ∧ m.leftPtr = m0.leftPtr ∧ m.rightPtr = m0.rightPtr := by
  obtain ⟨Dt, -, -, h2⟩ := hw.dest
  obtain ⟨j, -, m', a, h1, -, h3, -⟩ := h2 i hi
  rw [hm0] at h1
  cases h1
  exact ⟨_, h3, (sourceCell_links m0 a).1, (sourceCell_links m0 a).2⟩

theorem cloneChildren_eq (full sps fuel : Nat) (d : Space) (e : Env) (i : Nat) :
    cloneChildren full sps fuel d e i =
      d.get i >>= fun m =>
        (match m.leftPtr with
          | some l => cloneRecursive full sps fuel d e l
          | none => Except.ok (d, e)) >>= fun r =>
        r.1.get i >>= fun m' =>
          match m'.rightPtr with
          | some x => cloneRecursive full sps fuel r.1 r.2 x
          | none => Except.ok (r.1, r.2) := by
  unfold cloneChildren
  cases hg : d.get i with
  | error err => rfl
  | ok m =>
    simp only [bind_okE]
    cases m.leftPtr <;> rfl

/-- The walk of `cloneRecursive` through a subtree of the source tree none of
whose mappings is visited yet: it completes, and it visits the mappings of the
subtree in pre-order. -/
theorem cloneRecursive_walk {c0 : Nat → Option Mapping} {e0 : Env} {n0 sps dps lo hi full : Nat}
    {S : List Nat} (hfresh : ∀ i ∈ S, i < n0) (hcov : Covers c0 lo S hi) (hhi : hi < wordMod)
    (hready : ∀ i ∈ S, ∀ m0, c0 i = some m0 → Forkable e0 m0) (hfuel : S.length ≤ full) :
    ∀ (t : Tree) (par : Ptr) (fuel : Nat) (V : List Nat) (d : Space) (e : Env),
      Shape c0 t par → t.height ≤ fuel → (∀ x ∈ t.toList, x ∈ S ∧ x ∉ V) → t.toList.Nodup →
      Walk c0 e0 n0 sps dps S V d e →
      Returns (match t.root with
        | some l => cloneRecursive full sps fuel d e l
        | none => Except.ok (d, e))
        (fun r => Walk c0 e0 n0 sps dps S (V ++ t.preorder) r.1 r.2) := by
  intro t
  induction t with
  | nil =>
    intro par fuel V d e _ _ _ _ hw
    simp only [Tree.root, Tree.preorder, List.append_nil]
    exact Returns.pure_ok hw
  | node L i R ihL ihR =>
    intro par fuel V d e hsh hh hmem hnd hw
    obtain ⟨k, rfl⟩ : ∃ k, fuel = k + 1 := ⟨fuel - 1, by simp [Tree.height] at hh; omega⟩
    have hhL : L.height ≤ k := by simp [Tree.height] at hh; omega
    have hhR : R.height ≤ k := by simp [Tree.height] at hh; omega
    rw [Shape_node] at hsh
    obtain ⟨m0, hm0, -, hl0, hr0, hshL, hshR⟩ := hsh
    have hiS := hmem i (by simp [Tree.toList])
    simp only [Tree.toList, List.nodup_append, List.nodup_cons, List.mem_cons] at hnd
    obtain ⟨hndL, ⟨hiR, hndR⟩, hdisj⟩ := hnd
    simp only [root_node]
    rw [cloneRecursive_succ]
    refine Returns.seq (cloneNode_walk hfresh hcov hhi hready hfuel hw hiS.1 hiS.2) ?_
    rintro ⟨d1, e1⟩ hw1
    dsimp only at hw1 ⊢
    obtain ⟨m1, hc1, hl1, hr1⟩ := hw1.kept_links (List.mem_append_right _ (List.mem_singleton_self i)) hm0
    rw [cloneChildren_eq, get_eq hc1, bind_okE, hl1, hl0]
    have hmemL : ∀ x ∈ L.toList, x ∈ S ∧ x ∉ V ++ [i] := by
      intro x hx
      have := hmem x (by simp [Tree.toList, hx])
      refine ⟨this.1, fun h => ?_⟩
      rcases List.mem_append.mp h with h | h
      · exact this.2 h
      · rw [List.mem_singleton] at h
        exact hdisj hx (h ▸ List.mem_cons_self _ _)
    refine Returns.seq (ihL (some i) k (V ++ [i]) d1 e1 hshL hhL hmemL hndL hw1) ?_
    rintro ⟨d2, e2⟩ hw2
    dsimp only at hw2 ⊢
    obtain ⟨m2, hc2, hl2, hr2⟩ := hw2.kept_links
      (List.mem_append_left _ (List.mem_append_right _ (List.mem_singleton_self i))) hm0
    rw [get_eq hc2, bind_okE, hr2, hr0]
    have hmemR : ∀ x ∈ R.toList, x ∈ S ∧ x ∉ V ++ [i] ++ L.preorder := by
      intro x hx
      have := hmem x (by simp [Tree.toList, hx])
      refine ⟨this.1, fun h => ?_⟩
      rcases List.mem_append.mp h with h | h
      · rcases List.mem_append.mp h with h | h
        · exact this.2 h
        · rw [List.mem_singleton] at h
          exact hiR (h ▸ hx)
      · exact hdisj ((Tree.mem_preorder L x).mp h) (List.mem_cons_of_mem _ hx)
    refine (ihR (some i) k (V ++ [i] ++ L.preorder) d2 e2 hshR hhR hmemR hndR hw2).weaken ?_
    intro r hr
    simpa only [Tree.preorder, List.append_assoc, List.singleton_append, List.cons_append,
      List.nil_append] using hr

theorem ValidTree.nil_root {s : Space} (h : s.p_root = none) : ValidTree s Tree.nil :=
  ⟨h, trivial, List.nodup_nil, List.Pairwise.nil, fun _ hi => (by cases hi), trivial, trivial,
    trivial, rfl⟩

/-- The walk of `fork`: on an address space whose mappings tile a range and can
all be cloned, `fork` completes, and `cloneRecursive` has visited all mappings
of the source tree in pre-order. -/
theorem fork_walk {fuel : Nat} {s : Space} {e : Env} {T : Tree} {lo hi : Nat}
    (hT : TreeAt s T) (hcov : Covers s.cells lo T.toList hi) (hlo : lo < hi) (hhi : hi < wordMod)
    (hfresh : ∀ i ∈ T.toList, i < s.next)
    (hready : ∀ i ∈ T.toList, ∀ m, s.cells i = some m → Forkable e m)
    (hfuel : T.toList.length ≤ fuel) :
    Returns (fork fuel s e) (fun r =>
      Walk s.cells e s.next s.p_pageSpace e.nextPageSpace T.toList T.preorder r.2.1 r.2.2 ∧
        r.1 = sourceAfter s r.2.1) := by
  obtain ⟨hroot, hsh, hnd⟩ := hT
  cases T with
  | nil =>
    have : lo = hi := hcov
    omega
  | node L i R =>
    have hw0 : Walk s.cells e s.next s.p_pageSpace e.nextPageSpace (Tree.node L i R).toList []
        (Space.mk s.cells s.next none e.nextPageSpace)
        { e with nextPageSpace := e.nextPageSpace + 1 } :=
      ⟨rfl, rfl, fun _ h => (by cases h), List.nodup_nil, fun _ _ _ => rfl,
        ⟨Tree.nil, ValidTree.nil_root rfl, fun _ h => (by cases h), fun _ h => (by cases h)⟩,
        fun _ _ => rfl, le_refl _, by simp⟩
    have hrec := cloneRecursive_walk hfresh hcov hhi hready hfuel (Tree.node L i R) none fuel []
      _ _ hsh ((height_le_length _).trans hfuel) (fun x hx => ⟨hx, fun h => (by cases h)⟩) hnd hw0
    simp only [root_node, List.nil_append] at hrec
    have hr : s.p_root = some i := hroot
    unfold fork
    simp only [hr, deref, bind_okE]
    refine Returns.seq hrec ?_
    rintro ⟨d, e'⟩ hw
    exact Returns.pure_ok ⟨hw, by simp only [sourceAfter, hr]⟩

/-! ### What the walk of `fork` leaves behind -/

theorem keys_fields_of {c : Nat → Option Mapping} {j : Nat} {k : Mapping}
    (h : (c j).map Mapping.keys = some k.keys) :
    baseOf c j = k.baseAddress ∧ lengthOf c j = k.length ∧ typeOf c j = k.type ∧
    fieldOf c Mapping.writePermission false j = k.writePermission ∧
    fieldOf c Mapping.executePermission false j = k.executePermission ∧
    fieldOf c Mapping.memoryRegion none j = k.memoryRegion := by
  cases hc : c j with
  | none => rw [hc] at h; cases h
  | some x =>
    rw [hc] at h
    have hk : x.keys = k.keys := Option.some.inj h
    have h1 : x.baseAddress = k.baseAddress := congrArg Keys.baseAddress hk
    have h2 : x.length = k.length := congrArg Keys.length hk
    have h3 : x.type = k.type := congrArg Keys.type hk
    have h4 : x.writePermission = k.writePermission := congrArg Keys.writePermission hk
    have h5 : x.executePermission = k.executePermission := congrArg Keys.executePermission hk
    have h6 : x.memoryRegion = k.memoryRegion := congrArg Keys.memoryRegion hk
    simp only [baseOf, lengthOf, typeOf, fieldOf, hc, h1, h2, h3, h4, h5, h6, and_self]

/-- The copy of a mapping has the layout of the mapping. -/
theorem Copied.layout_eq {c0 : Nat → Option Mapping} {e0 : Env} {d : Space} {e : Env} {i j : Nat}
    (h : Copied c0 e0 d e i j) : layout d.cells j = layout c0 i := by
  obtain ⟨m0, a, h1, -, -, h4, -⟩ := h
  obtain ⟨k1, k2, k3, k4, k5, -⟩ := keys_fields_of h4
  have b1 : baseOf c0 i = m0.baseAddress := fieldOf_some h1 _ _
  have b2 : lengthOf c0 i = m0.length := fieldOf_some h1 _ _
  have b3 : typeOf c0 i = m0.type := fieldOf_some h1 _ _
  have b4 : fieldOf c0 Mapping.writePermission false i = m0.writePermission := fieldOf_some h1 _ _
  have b5 : fieldOf c0 Mapping.executePermission false i = m0.executePermission :=
    fieldOf_some h1 _ _
  obtain ⟨cb, cl, ct, -⟩ := cloneCell_fields m0 a
  simp only [layout, k1, k2, k3, k4, k5, b1, b2, b3, b4, b5, cb, cl, ct]
  unfold cloneCell
  by_cases hh : m0.type = MappingType.kTypeHole
  · simp [hh, Mapping.mk0]
  · simp [hh]

/-- A source mapping keeps its range, kind and permissions, and its links. -/
theorem Copied.source_eq {c0 : Nat → Option Mapping} {e0 : Env} {d : Space} {e : Env} {i j : Nat}
    (h : Copied c0 e0 d e i j) :
    rangePerms d.cells i = rangePerms c0 i ∧
    ∃ m0 m, c0 i = some m0 ∧ d.cells i = some m ∧ m.parentPtr = m0.parentPtr ∧
      m.leftPtr = m0.leftPtr ∧ m.rightPtr = m0.rightPtr := by
  obtain ⟨m0, a, h1, -, h3, -, -⟩ := h
  have hs : (sourceCell m0 a).baseAddress = m0.baseAddress ∧
      (sourceCell m0 a).length = m0.length ∧ (sourceCell m0 a).type = m0.type ∧
      (sourceCell m0 a).writePermission = m0.writePermission ∧
      (sourceCell m0 a).executePermission = m0.executePermission ∧
      (sourceCell m0 a).parentPtr = m0.parentPtr ∧ (sourceCell m0 a).leftPtr = m0.leftPtr ∧
      (sourceCell m0 a).rightPtr = m0.rightPtr := by
    unfold sourceCell
    split <;> exact ⟨rfl, rfl, rfl, rfl, rfl, rfl, rfl, rfl⟩
  obtain ⟨s1, s2, s3, s4, s5, s6, s7, s8⟩ := hs
  refine ⟨?_, m0, _, h1, h3, s6, s7, s8⟩
  simp only [rangePerms, baseOf, lengthOf, typeOf, fieldOf, h1, h3, s1, s2, s3, s4, s5]

/-- The layouts of a tiling are sorted strictly by base address. -/
theorem Covers.layout_sorted {c : Nat → Option Mapping} {l : List Nat}
    (ho : Ordered c l) (hpos : ∀ i ∈ l, 0 < lengthOf c i) :
    (l.map (layout c)).Pairwise (fun x y => x.1 < y.1) := by
  rw [List.pairwise_map]
  unfold Ordered at ho
  refine ho.imp_of_mem (fun {a b} ha _ hab => ?_)
  have := hpos a ha
  simp only [layout]
  unfold endOf at hab
  omega

/-- Two lists sorted strictly by their first component with the same elements
are equal. -/
theorem sorted_ext {α : Type} {l1 l2 : List (Nat × α)}
    (h1 : l1.Pairwise (fun x y => x.1 < y.1)) (h2 : l2.Pairwise (fun x y => x.1 < y.1))
    (h : ∀ x, x ∈ l1 ↔ x ∈ l2) : l1 = l2 := by
  have n1 : l1.Nodup := h1.imp (fun {a b} hab he => by rw [he] at hab; exact Nat.lt_irrefl _ hab)
  have n2 : l2.Nodup := h2.imp (fun {a b} hab he => by rw [he] at hab; exact Nat.lt_irrefl _ hab)
  have hp : l1.Perm l2 := (List.perm_ext_iff_of_nodup n1 n2).mpr h
  haveI : IsAntisymm (Nat × α) (fun x y => x.1 < y.1) :=
    ⟨fun a b hab hba => absurd hab (Nat.lt_asymm hba)⟩
  exact List.eq_of_perm_of_sorted hp h1 h2

/-- After the walk, the destination tree has the layout of the source tree. -/
theorem Walk.same_layout {c0 : Nat → Option Mapping} {e0 : Env} {n0 sps dps lo hi : Nat}
    {T : Tree} {d : Space} {e : Env} (hcov : Covers c0 lo T.toList hi)
    (hw : Walk c0 e0 n0 sps dps T.toList T.preorder d e) :
    ∃ Dt, ValidTree d Dt ∧ Dt.toList.map (layout d.cells) = T.toList.map (layout c0) ∧
      (∀ j ∈ Dt.toList, n0 ≤ j ∧ ∃ i ∈ T.toList, Copied c0 e0 d e i j) ∧
      (∀ i ∈ T.toList, ∃ j ∈ Dt.toList, Copied c0 e0 d e i j) := by
  obtain ⟨Dt, hv, hD1, hD2⟩ := hw.dest
  have hD1' : ∀ j ∈ Dt.toList, n0 ≤ j ∧ ∃ i ∈ T.toList, Copied c0 e0 d e i j := by
    intro j hj
    obtain ⟨b1, -, i, hi, hcp⟩ := hD1 j hj
    exact ⟨b1, i, (Tree.mem_preorder T i).mp hi, hcp⟩
  have hD2' : ∀ i ∈ T.toList, ∃ j ∈ Dt.toList, Copied c0 e0 d e i j :=
    fun i hi => hD2 i ((Tree.mem_preorder T i).mpr hi)
  refine ⟨Dt, hv, ?_, hD1', hD2'⟩
  have hposS : ∀ i ∈ T.toList, 0 < lengthOf c0 i := fun i hi => (hcov.mem hi).2.2
  have hposD : ∀ j ∈ Dt.toList, 0 < lengthOf d.cells j := by
    intro j hj
    obtain ⟨-, i, hi, hcp⟩ := hD1' j hj
    have := congrArg (fun x => x.2.1) hcp.layout_eq
    simp only [layout] at this
    rw [this]
    exact hposS i hi
  refine sorted_ext (Covers.layout_sorted hv.2.2.2.1 hposD)
    (Covers.layout_sorted hcov.ordered hposS) (fun x => ?_)
  simp only [List.mem_map]
  constructor
  · rintro ⟨j, hj, rfl⟩
    obtain ⟨-, i, hi, hcp⟩ := hD1' j hj
    exact ⟨i, hi, hcp.layout_eq.symm⟩
  · rintro ⟨i, hi, rfl⟩
    obtain ⟨j, hj, hcp⟩ := hD2' i hi
    exact ⟨j, hj, hcp.layout_eq⟩

/-- After the walk, the source tree is the tree it was, and its mappings have
the ranges, kinds and permissions they had. -/
theorem Walk.source_kept {c0 : Nat → Option Mapping} {e0 : Env} {n0 sps dps : Nat}
    {T : Tree} {d : Space} {e : Env} {par : Ptr} (hsh : Shape c0 T par)
    (hw : Walk c0 e0 n0 sps dps T.toList T.preorder d e) :
    Shape d.cells T par ∧ T.toList.map (rangePerms d.cells) = T.toList.map (rangePerms c0) := by
  obtain ⟨Dt, -, -, hD2⟩ := hw.dest
  have hcp : ∀ i ∈ T.toList, ∃ j, Copied c0 e0 d e i j := by
    intro i hi
    obtain ⟨j, -, h⟩ := hD2 i ((Tree.mem_preorder T i).mpr hi)
    exact ⟨j, h⟩
  refine ⟨Shape.mono_shape (fun i hi x hx => ?_) hsh, List.map_congr_left (fun i hi => ?_)⟩
  · obtain ⟨j, h⟩ := hcp i hi
    obtain ⟨-, m0, m, g1, g2, g3, g4, g5⟩ := h.source_eq
    rw [hx] at g1
    cases g1
    exact ⟨m, g2, g4, g5, g3⟩
  · obtain ⟨j, h⟩ := hcp i hi
    exact h.source_eq.1

/-- After the walk, a source mapping that was broken to copy-on-write and its
copy reference the two fresh copy-on-write objects, and the older `Memory`
objects are as they were. -/
theorem Walk.broken {c0 : Nat → Option Mapping} {e0 : Env} {n0 sps dps : Nat}
    {T : Tree} {d : Space} {e : Env} (hw : Walk c0 e0 n0 sps dps T.toList T.preorder d e)
    {Dt : Tree} {i j k : Nat} {m : Mapping} {O : Memory} (hcp : Copied c0 e0 d e i j)
    (hm : c0 i = some m) (hb : m.breaks) (hr : m.memoryRegion = some k)
    (hk : e0.memories k = some O) (hkn : k < e0.nextMemory) :
    ∃ a, seg d.cells j = seg c0 i ∧ e0.nextMemory ≤ a ∧
      fieldOf d.cells Mapping.memoryRegion none i = some a ∧
      fieldOf d.cells Mapping.memoryRegion none j = some (a + 1) ∧
      e.memories a = some (cowMemory O.p_physicalPages.length (some k)) ∧
      e.memories (a + 1) = some (cowMemory O.p_physicalPages.length (some k)) ∧
      e.memories k = some O := by
  have hlay := hcp.layout_eq
  obtain ⟨m0, a, h1, h2, h3, h4, h5⟩ := hcp
  rw [hm] at h1
  cases h1
  obtain ⟨-, g2, g3⟩ := h5 hb
  have hp : pagesOf e0 m.memoryRegion = O.p_physicalPages := by
    simp only [pagesOf, hr, Env.getMemory, hk]
  rw [hp, hr] at g2 g3
  obtain ⟨-, -, -, -, -, k6⟩ := keys_fields_of h4
  have hnh : ¬ m.type = MappingType.kTypeHole := by
    rw [hb.1]
    decide
  refine ⟨a, ?_, h2, ?_, ?_, g2, g3, (hw.mem_old k hkn).trans hk⟩
  · have e1 := congrArg (fun x : Nat × Nat × MappingType × Bool × Bool => x.1) hlay
    have e2 := congrArg (fun x : Nat × Nat × MappingType × Bool × Bool => x.2.1) hlay
    have e3 := congrArg (fun x : Nat × Nat × MappingType × Bool × Bool => x.2.2.1) hlay
    simp only [layout] at e1 e2 e3
    simp only [seg, e1, e2, e3]
  · rw [fieldOf_some h3]
    simp only [sourceCell, if_pos hb]
  · rw [k6]
    simp only [cloneCell, if_neg hnh, if_neg hb.2]

/-! ### The page tables after `fork` -/

theorem touches_iff (sp v : Nat) (op : PageOp) :
    op.touches sp v = true ↔ op.space = sp ∧ op.vaddr = v := by
  cases op <;> simp [PageOp.touches, PageOp.space, PageOp.vaddr]

theorem untouched_of {sp v : Nat} {op : PageOp} (h : op.space = sp → op.vaddr ≠ v) :
    op.touches sp v = false := by
  cases ht : op.touches sp v with
  | false => rfl
  | true =>
    obtain ⟨h1, h2⟩ := (touches_iff sp v op).mp ht
    exact absurd h2 (h h1)

/-- Calls elsewhere do not change the entry. -/
theorem entryOf_append_untouched {sp v : Nat} (A B : List PageOp)
    (h : ∀ op ∈ B, op.touches sp v = false) : entryOf sp v (A ++ B) = entryOf sp v A := by
  unfold entryOf
  rw [List.foldl_append]
  generalize List.foldl _ none A = cur
  induction B generalizing cur with
  | nil => rfl
  | cons op rest ih =>
    rw [List.foldl_cons]
    have h1 := h op (List.mem_cons_self _ _)
    have h2 := ih (fun o ho => h o (List.mem_cons_of_mem _ ho))
    cases op with
    | mapSingle4k s' v' ph u fl =>
      have hn : ¬ (s' = sp ∧ v' = v) := by simpa [PageOp.touches] using h1
      simp only [if_neg hn]
      exact h2 cur
    | unmapSingle4k s' v' =>
      have hn : ¬ (s' = sp ∧ v' = v) := by simpa [PageOp.touches] using h1
      simp only [if_neg hn]
      exact h2 cur

/-- The entry after a mapping call there. -/
theorem entryOf_append_map (sp v ph fl : Nat) (u : Bool) (A : List PageOp) :
    entryOf sp v (A ++ [PageOp.mapSingle4k sp v ph u fl]) = some (ph, u, fl) := by
  unfold entryOf
  rw [List.foldl_append]
  simp

theorem entryOf_untouched {sp v : Nat} (B : List PageOp)
    (h : ∀ op ∈ B, op.touches sp v = false) : entryOf sp v B = none := by
  have := entryOf_append_untouched [] B h
  simpa [entryOf] using this

theorem slotOps_mem {pages : List Nat} {sp base fl i : Nat} {remap : Bool} {op : PageOp}
    (h : op ∈ slotOps pages sp base fl remap i) :
    op.space = sp ∧ op.vaddr = add64 base (mul64 i kPageSize) := by
  unfold slotOps at h
  split at h
  · cases h
  · cases remap
    · simp only [Bool.false_eq_true, if_false, List.nil_append, List.mem_singleton] at h
      subst h
      exact ⟨rfl, rfl⟩
    · simp only [if_true, List.singleton_append, List.mem_cons, List.mem_singleton,
        List.not_mem_nil, or_false] at h
      rcases h with h | h <;> subst h <;> exact ⟨rfl, rfl⟩

/-- Every call of the install loop is made on the page space of the loop, at
the address of one of the slots that it walks. -/
theorem installOps_mem {pages : List Nat} {sp base fl : Nat} {remap : Bool} {op : PageOp} :
    ∀ (cnt i0 : Nat), op ∈ installOps pages sp base fl remap cnt i0 →
      op.space = sp ∧ ∃ k, i0 ≤ k ∧ k < i0 + cnt ∧ op.vaddr = add64 base (mul64 k kPageSize) := by
  intro cnt
  induction cnt with
  | zero => intro i0 h; simp [installOps] at h
  | succ n ih =>
    intro i0 h
    rw [installOps, List.mem_append] at h
    rcases h with h | h
    · obtain ⟨h1, h2⟩ := slotOps_mem h
      exact ⟨h1, i0, le_refl _, by omega, h2⟩
    · obtain ⟨h1, k, k1, k2, k3⟩ := ih (i0 + 1) h
      exact ⟨h1, k, by omega, by omega, k3⟩

/-- The calls of the install loop, split at the slot `idx`. -/
theorem installOps_split (pages : List Nat) (sp base fl : Nat) (remap : Bool) (idx : Nat) :
    ∀ (cnt i0 : Nat), i0 ≤ idx → idx < i0 + cnt →
      installOps pages sp base fl remap cnt i0 =
        installOps pages sp base fl remap (idx - i0) i0 ++
          (slotOps pages sp base fl remap idx ++
            installOps pages sp base fl remap (i0 + cnt - idx - 1) (idx + 1)) := by
  intro cnt
  induction cnt with
  | zero => intro i0 h1 h2; omega
  | succ n ih =>
    intro i0 h1 h2
    by_cases he : i0 = idx
    · subst he
      rw [installOps, Nat.sub_self]
      simp only [installOps, List.nil_append]
      congr 2
      omega
    · rw [installOps, ih (i0 + 1) (by omega) (by omega)]
      have e1 : idx - i0 = (idx - (i0 + 1)) + 1 := by omega
      rw [e1, installOps]
      have e2 : i0 + 1 + n - idx - 1 = i0 + (n + 1) - idx - 1 := by omega
      rw [e2, List.append_assoc]

/-- The address of a page of a range that ends within the 64-bit addresses. -/
theorem vaddr_plain {base len k : Nat} (hk : k < len / kPageSize) (hfit : base + len < wordMod) :
    add64 base (mul64 k kPageSize) = base + k * kPageSize ∧
      base + k * kPageSize + kPageSize ≤ base + len := by
  have hp : kPageSize = 4096 := rfl
  have hw : wordMod = 18446744073709551616 := rfl
  rw [hp] at hk ⊢
  rw [hw] at hfit
  have h1 : (k + 1) * 4096 ≤ len := by
    have := Nat.div_mul_le_self len 4096
    have : (k + 1) * 4096 ≤ len / 4096 * 4096 := Nat.mul_le_mul_right _ hk
    omega
  constructor
  · unfold add64 mul64
    rw [hw, Nat.mod_eq_of_lt (by omega : k * 4096 < 18446744073709551616),
      Nat.mod_eq_of_lt (by omega)]
  · omega

/-- Every page-table call of `cloneRecursive` for a mapping is made on the page
space of the source or of the destination, at a page of the mapping. -/
theorem cloneOps_mem {m : Mapping} {pages : List Nat} {sps dps : Nat} {op : PageOp}
    (h : op ∈ cloneOps m pages sps dps) :
    (op.space = sps ∨ op.space = dps) ∧
      ∃ k, k < m.length / kPageSize ∧ op.vaddr = add64 m.baseAddress (mul64 k kPageSize) := by
  unfold cloneOps at h
  split at h
  · cases h
  · split at h
    · obtain ⟨h1, k, -, k2, k3⟩ := installOps_mem _ _ h
      exact ⟨Or.inr h1, k, by omega, k3⟩
    · rcases List.mem_append.mp h with h | h
      · obtain ⟨h1, k, -, k2, k3⟩ := installOps_mem _ _ h
        exact ⟨Or.inl h1, k, by omega, k3⟩
      · obtain ⟨h1, k, -, k2, k3⟩ := installOps_mem _ _ h
        exact ⟨Or.inr h1, k, by omega, k3⟩

/-- The calls of the install loop over the pages of a range, split at the page
`idx`: the calls before and after are made at other addresses. -/
theorem installOps_cases (pages : List Nat) (sp fl : Nat) (remap : Bool) {base len idx : Nat}
    (hidx : idx < len / kPageSize) (hfit : base + len < wordMod) :
    ∃ pre post, installOps pages sp base fl remap (len / kPageSize) 0 =
        pre ++ (slotOps pages sp base fl remap idx ++ post) ∧
      (∀ op ∈ pre, op.space = sp ∧ op.vaddr ≠ base + idx * kPageSize) ∧
      (∀ op ∈ post, op.space = sp ∧ op.vaddr ≠ base + idx * kPageSize) := by
  have hp : kPageSize = 4096 := rfl
  refine ⟨_, _, installOps_split pages sp base fl remap idx (len / kPageSize) 0 (Nat.zero_le _)
    (by omega), fun op hop => ?_, fun op hop => ?_⟩
  · obtain ⟨h1, k, k1, k2, k3⟩ := installOps_mem _ _ hop
    obtain ⟨v1, -⟩ := @vaddr_plain base len k (by omega) hfit
    rw [k3, v1, hp]
    exact ⟨h1, by omega⟩
  · obtain ⟨h1, k, k1, k2, k3⟩ := installOps_mem _ _ hop
    obtain ⟨v1, -⟩ := @vaddr_plain base len k (by omega) hfit
    rw [k3, v1, hp]
    exact ⟨h1, by omega⟩

theorem entryOf_of_split {sp v ph fl : Nat} {u : Bool} {ops P Q : List PageOp}
    (h : ops = P ++ ([PageOp.mapSingle4k sp v ph u fl] ++ Q))
    (hQ : ∀ op ∈ Q, op.touches sp v = false) : entryOf sp v ops = some (ph, u, fl) := by
  rw [h, ← List.append_assoc, entryOf_append_untouched _ _ hQ, entryOf_append_map]

/-- The page-table calls of `cloneRecursive` for one mapping leave alone the
pages of every other mapping of the tiling. -/
theorem nodeOps_untouched {c0 : Nat → Option Mapping} {e0 : Env} {sps dps lo hi : Nat}
    {l : List Nat} (hcov : Covers c0 lo l hi) (hhi : hi < wordMod) {i n idx : Nat} {m : Mapping}
    (hi : i ∈ l) (hn : n ∈ l) (hne : n ≠ i) (hm : c0 i = some m)
    (hidx : idx < m.length / kPageSize) (sp : Nat) :
    ∀ op ∈ nodeOps c0 e0 sps dps n, op.touches sp (m.baseAddress + idx * kPageSize) = false := by
  intro op hop
  obtain ⟨mn, hmn⟩ := hcov.some_cell hn
  simp only [nodeOps, hmn] at hop
  obtain ⟨-, k, k1, k2⟩ := cloneOps_mem hop
  obtain ⟨a1, a2, -⟩ := hcov.mem hi
  obtain ⟨b1, b2, -⟩ := hcov.mem hn
  have ei : endOf c0 i = m.baseAddress + m.length := by
    simp only [endOf, baseOf, lengthOf, fieldOf_some hm]
  have en : endOf c0 n = mn.baseAddress + mn.length := by
    simp only [endOf, baseOf, lengthOf, fieldOf_some hmn]
  have bi : baseOf c0 i = m.baseAddress := fieldOf_some hm _ _
  have bn : baseOf c0 n = mn.baseAddress := fieldOf_some hmn _ _
  obtain ⟨v1, v2⟩ := @vaddr_plain mn.baseAddress mn.length k k1 (by omega)
  obtain ⟨-, w2⟩ := @vaddr_plain m.baseAddress m.length idx hidx (by omega)
  have hp : kPageSize = 4096 := rfl
  refine untouched_of (fun _ => ?_)
  rw [k2, v1]
  rw [hp] at v2 w2 ⊢
  rcases hcov.apart hn hi hne with h | h
  · omega
  · omega

/-- The page-table entries that the walk of `fork` leaves for a page of a
mapping that it broke to copy-on-write: a bound page is mapped to its frame
with the execute bit only, in the source and in the destination page space; for
an unbound page the walk makes no call in either page space. -/
theorem fork_trace_entries {c0 : Nat → Option Mapping} {e0 : Env} {sps dps lo hi : Nat}
    {T : Tree} (hcov : Covers c0 lo T.toList hi) (hhi : hi < wordMod)
    (hnd : T.preorder.Nodup) (hsp : sps ≠ dps) {i idx : Nat} {m : Mapping}
    (hi : i ∈ T.toList) (hm : c0 i = some m) (hb : m.breaks)
    (hidx : idx < m.length / kPageSize) {ops : List PageOp}
    (hops : ops = e0.pageOps ++ T.preorder.flatMap (nodeOps c0 e0 sps dps)) :
    ((pagesOf e0 m.memoryRegion).getD idx noPage ≠ noPage →
      entryOf sps (m.baseAddress + idx * kPageSize) ops =
        some ((pagesOf e0 m.memoryRegion).getD idx noPage, true, kAccessExecute) ∧
      entryOf dps (m.baseAddress + idx * kPageSize) ops =
        some ((pagesOf e0 m.memoryRegion).getD idx noPage, true, kAccessExecute)) ∧
    ((pagesOf e0 m.memoryRegion).getD idx noPage = noPage →
      entryOf sps (m.baseAddress + idx * kPageSize) ops =
        entryOf sps (m.baseAddress + idx * kPageSize) e0.pageOps ∧
      entryOf dps (m.baseAddress + idx * kPageSize) ops =
        entryOf dps (m.baseAddress + idx * kPageSize) e0.pageOps) := by
  obtain ⟨X, Y, hXY⟩ := List.append_of_mem ((Tree.mem_preorder T i).mpr hi)
  rw [hXY] at hnd
  have hiX : i ∉ X := fun h => (List.nodup_append.mp hnd).2.2 h (List.mem_cons_self _ _)
  have hiY : i ∉ Y := (List.nodup_cons.mp (List.nodup_append.mp hnd).2.1).1
  have hsub : ∀ n, n ∈ X ∨ n ∈ Y → n ∈ T.toList ∧ n ≠ i := by
    intro n hn
    refine ⟨(Tree.mem_preorder T n).mp ?_, fun h => ?_⟩
    · rw [hXY]
      rcases hn with h | h
      · exact List.mem_append_left _ h
      · exact List.mem_append_right _ (List.mem_cons_of_mem _ h)
    · subst h
      rcases hn with h | h
      · exact hiX h
      · exact hiY h
  have hother : ∀ (Z : List Nat), (∀ n ∈ Z, n ∈ X ∨ n ∈ Y) → ∀ sp,
      ∀ op ∈ Z.flatMap (nodeOps c0 e0 sps dps),
        op.touches sp (m.baseAddress + idx * kPageSize) = false := by
    intro Z hZ sp op hop
    obtain ⟨n, hn, hopn⟩ := List.mem_flatMap.mp hop
    obtain ⟨hnT, hne⟩ := hsub n (hZ n hn)
    exact nodeOps_untouched hcov hhi hi hnT hne hm hidx sp op hopn
  have hX := hother X (fun n hn => Or.inl hn)
  have hY := hother Y (fun n hn => Or.inr hn)
  obtain ⟨-, g2, -⟩ := hcov.mem hi
  have ei : endOf c0 i = m.baseAddress + m.length := by
    simp only [endOf, baseOf, lengthOf, fieldOf_some hm]
  have hfit : m.baseAddress + m.length < wordMod := by omega
  have hnh : ¬ m.type = MappingType.kTypeHole := by rw [hb.1]; decide
  obtain ⟨pre, post, hs1, hpre, hpost⟩ := installOps_cases (pagesOf e0 m.memoryRegion) sps
    kAccessExecute true hidx hfit
  obtain ⟨pre', post', hs2, hpre', hpost'⟩ := installOps_cases (pagesOf e0 m.memoryRegion) dps
    kAccessExecute false hidx hfit
  obtain ⟨va, -⟩ := @vaddr_plain m.baseAddress m.length idx hidx hfit
  have hnode : nodeOps c0 e0 sps dps i =
      (pre ++ (slotOps (pagesOf e0 m.memoryRegion) sps m.baseAddress kAccessExecute true idx ++
        post)) ++
      (pre' ++ (slotOps (pagesOf e0 m.memoryRegion) dps m.baseAddress kAccessExecute false idx ++
        post')) := by
    simp only [nodeOps, hm, cloneOps, if_neg hnh, if_neg hb.2, hs1, hs2]
  have hall : ops = e0.pageOps ++ (X.flatMap (nodeOps c0 e0 sps dps) ++
      ((pre ++ (slotOps (pagesOf e0 m.memoryRegion) sps m.baseAddress kAccessExecute true idx ++
        post)) ++
      (pre' ++ (slotOps (pagesOf e0 m.memoryRegion) dps m.baseAddress kAccessExecute false idx ++
        post')) ++ Y.flatMap (nodeOps c0 e0 sps dps))) := by
    rw [hops, hXY, List.flatMap_append, List.flatMap_cons, hnode]
  have u1 : ∀ sp, ∀ op ∈ pre, op.touches sp (m.baseAddress + idx * kPageSize) = false :=
    fun sp op hop => untouched_of (fun _ => (hpre op hop).2)
  have u2 : ∀ sp, ∀ op ∈ post, op.touches sp (m.baseAddress + idx * kPageSize) = false :=
    fun sp op hop => untouched_of (fun _ => (hpost op hop).2)
  have u3 : ∀ sp, ∀ op ∈ pre', op.touches sp (m.baseAddress + idx * kPageSize) = false :=
    fun sp op hop => untouched_of (fun _ => (hpre' op hop).2)
  have u4 : ∀ sp, ∀ op ∈ post', op.touches sp (m.baseAddress + idx * kPageSize) = false :=
    fun sp op hop => untouched_of (fun _ => (hpost' op hop).2)
  have usd : ∀ op ∈ slotOps (pagesOf e0 m.memoryRegion) dps m.baseAddress kAccessExecute false
      idx, op.touches sps (m.baseAddress + idx * kPageSize) = false :=
    fun op hop => untouched_of (fun h => absurd ((slotOps_mem hop).1.symm.trans h) (Ne.symm hsp))
  have uds : ∀ op ∈ slotOps (pagesOf e0 m.memoryRegion) sps m.baseAddress kAccessExecute true
      idx, op.touches dps (m.baseAddress + idx * kPageSize) = false :=
    fun op hop => untouched_of (fun h => absurd ((slotOps_mem hop).1.symm.trans h) hsp)
  constructor
  · intro hbound
    have hslot1 : slotOps (pagesOf e0 m.memoryRegion) sps m.baseAddress kAccessExecute true idx =
        [PageOp.unmapSingle4k sps (m.baseAddress + idx * kPageSize),
          PageOp.mapSingle4k sps (m.baseAddress + idx * kPageSize)
            ((pagesOf e0 m.memoryRegion).getD idx noPage) true kAccessExecute] := by
      simp only [slotOps, if_neg hbound, va, if_true, List.singleton_append]
    have hslot2 : slotOps (pagesOf e0 m.memoryRegion) dps m.baseAddress kAccessExecute false
        idx = [PageOp.mapSingle4k dps (m.baseAddress + idx * kPageSize)
            ((pagesOf e0 m.memoryRegion).getD idx noPage) true kAccessExecute] := by
      simp only [slotOps, if_neg hbound, va, Bool.false_eq_true, if_false, List.nil_append]
    constructor
    · refine @entryOf_of_split _ _ _ _ _ ops
        (e0.pageOps ++ X.flatMap (nodeOps c0 e0 sps dps) ++ pre ++
          [PageOp.unmapSingle4k sps (m.baseAddress + idx * kPageSize)])
        (post ++ (pre' ++ (slotOps (pagesOf e0 m.memoryRegion) dps m.baseAddress kAccessExecute
          false idx ++ post')) ++ Y.flatMap (nodeOps c0 e0 sps dps)) ?_ ?_
      · rw [hall, hslot1]
        simp only [List.append_assoc, List.singleton_append, List.cons_append, List.nil_append]
      · intro op hop
        simp only [List.mem_append] at hop
        rcases hop with (h | h | h | h) | h
        · exact u2 _ op h
        · exact u3 _ op h
        · exact usd op h
        · exact u4 _ op h
        · exact hY _ op h
    · refine @entryOf_of_split _ _ _ _ _ ops
        (e0.pageOps ++ X.flatMap (nodeOps c0 e0 sps dps) ++
          (pre ++ (slotOps (pagesOf e0 m.memoryRegion) sps m.baseAddress kAccessExecute true
            idx ++ post)) ++ pre')
        (post' ++ Y.flatMap (nodeOps c0 e0 sps dps)) ?_ ?_
      · rw [hall, hslot2]
        simp only [List.append_assoc, List.singleton_append, List.cons_append, List.nil_append]
      · intro op hop
        simp only [List.mem_append] at hop
        rcases hop with h | h
        · exact u4 _ op h
        · exact hY _ op h
  · intro hunbound
    have hslot1 : slotOps (pagesOf e0 m.memoryRegion) sps m.baseAddress kAccessExecute true idx =
        [] := by
      simp only [slotOps, if_pos hunbound]
    have hslot2 : slotOps (pagesOf e0 m.memoryRegion) dps m.baseAddress kAccessExecute false
        idx = [] := by
      simp only [slotOps, if_pos hunbound]
    have hrest : ∀ sp, ∀ op ∈ X.flatMap (nodeOps c0 e0 sps dps) ++
        ((pre ++ (slotOps (pagesOf e0 m.memoryRegion) sps m.baseAddress kAccessExecute true idx ++
          post)) ++
        (pre' ++ (slotOps (pagesOf e0 m.memoryRegion) dps m.baseAddress kAccessExecute false
          idx ++ post')) ++ Y.flatMap (nodeOps c0 e0 sps dps)),
        op.touches sp (m.baseAddress + idx * kPageSize) = false := by
      intro sp op hop
      rw [hslot1, hslot2] at hop
      simp only [List.mem_append, List.nil_append, List.not_mem_nil, false_or] at hop
      rcases hop with h | ((h | h) | (h | h)) | h
      · exact hX _ op h
      · exact u1 _ op h
      · exact u2 _ op h
      · exact u3 _ op h
      · exact u4 _ op h
      · exact hY _ op h
    rw [hall]
    exact ⟨entryOf_append_untouched _ _ (hrest sps), entryOf_append_untouched _ _ (hrest dps)⟩

/-! ### Claims about the page tables, the fault handler and `fork` -/

/-- Claim C21 (page-table population of `map`): for every `map` of the memory
object `mem` that completes, `mem` has at least `length / 4096` page slots, and
the page-table calls issued are exactly, for the slots `i = 0, ..., length / 4096 - 1`
in increasing order and only for the slots that hold a frame, one
`mapSingle4k(base + i * 4096, getPage(i), user = true, perms)`, where `base` is
the returned address, the sum is the 64-bit one of the code (it is the plain
sum when the mapped range ends within the 64-bit addresses), and `perms` has the
write bit exactly if `read_write` was requested and the execute bit exactly if
`read_execute` was requested; the memory objects are unchanged. -/
theorem map_page_table_population (fuel : Nat) (s : Space) (e : Env) (memory : Ptr) (mem : Memory)
    (address length flags : Nat) (r : Space × Env × Nat)
    (h : map fuel s e memory address length flags = Except.ok r)
    (hmem : e.getMemory memory = Except.ok mem) :
    length / kPageSize ≤ mem.p_physicalPages.length ∧
    r.2.1.pageOps = e.pageOps ++ (List.range (length / kPageSize)).filterMap (fun i =>
      if mem.p_physicalPages.getD i noPage = noPage then none
      else some (PageOp.mapSingle4k r.1.p_pageSpace (add64 r.2.2 (mul64 i kPageSize))
        (mem.p_physicalPages.getD i noPage) true (mapPageFlags flags))) ∧
    (mapPageFlags flags &&& kAccessWrite ≠ 0 ↔ hasFlag flags kMapReadWrite) ∧
    (mapPageFlags flags &&& kAccessExecute ≠ 0 ↔ hasFlag flags kMapReadExecute) ∧
    r.2.1.memories = e.memories ∧
    (r.2.2 + length ≤ wordMod → ∀ i, i < length / kPageSize →
      add64 r.2.2 (mul64 i kPageSize) = r.2.2 + i * kPageSize) := by
  obtain ⟨hmems, -, -, hloop⟩ := map_ops fuel s e memory address length flags r h
  obtain ⟨hlen, hops⟩ := installLoop_post r.1.p_pageSpace r.2.2 (mapPageFlags flags) false hmem
    _ _ _ _ hloop
  refine ⟨?_, ?_, ?_, ?_, hmems, ?_⟩
  · by_cases h0 : 0 < length / kPageSize
    · have := hlen h0
      omega
    · omega
  · rw [hops, installOps_range]
    simp only [Nat.zero_add]
  · obtain ⟨i, m, -, -, -, -, hD⟩ := map_created fuel s e memory address length flags r h
    rcases hD with ⟨hv, -, -⟩ | ⟨hv, -, -⟩ | ⟨hv, -, -⟩
    all_goals
      rw [(flags_of_mask hv).2.1, mapPageFlags, hv]
      decide
  · obtain ⟨i, m, -, -, -, -, hD⟩ := map_created fuel s e memory address length flags r h
    rcases hD with ⟨hv, -, -⟩ | ⟨hv, -, -⟩ | ⟨hv, -, -⟩
    all_goals
      rw [(flags_of_mask hv).2.2, mapPageFlags, hv]
      decide
  · intro hfit i hi
    have hk : kPageSize = 4096 := rfl
    have h1 : i * 4096 < length := by
      have := Nat.div_mul_le_self length 4096
      rw [hk] at hi
      nlinarith
    have hw : wordMod = 18446744073709551616 := rfl
    rw [hw] at hfit
    unfold add64 mul64
    rw [hk, hw, Nat.mod_eq_of_lt (by omega), Nat.mod_eq_of_lt (by omega)]

set_option maxRecDepth 100000 in
/-- Claim C21, witness: `map` of three pages of a memory object whose slots 0
and 2 hold frames, with `read_write`, on the fresh address space issues the two
calls for the slots 0 and 2, with the write bit. -/
theorem map_page_table_population_witness :
    map 16 theFreshSpace threeSlotEnv (some 0) 0 0x3000 bottomReadWrite =
      Except.ok theThreeSlotMap ∧
    threeSlotEnv.getMemory (some 0) = Except.ok threeSlotMemory ∧
    (0x3000 / kPageSize ≤ threeSlotMemory.p_physicalPages.length ∧
    theThreeSlotMap.2.1.pageOps = threeSlotEnv.pageOps ++
      (List.range (0x3000 / kPageSize)).filterMap (fun i =>
        if threeSlotMemory.p_physicalPages.getD i noPage = noPage then none
        else some (PageOp.mapSingle4k theThreeSlotMap.1.p_pageSpace
          (add64 theThreeSlotMap.2.2 (mul64 i kPageSize))
          (threeSlotMemory.p_physicalPages.getD i noPage) true (mapPageFlags bottomReadWrite))) ∧
    (mapPageFlags bottomReadWrite &&& kAccessWrite ≠ 0 ↔ hasFlag bottomReadWrite kMapReadWrite) ∧
    (mapPageFlags bottomReadWrite &&& kAccessExecute ≠ 0 ↔
      hasFlag bottomReadWrite kMapReadExecute) ∧
    theThreeSlotMap.2.1.memories = threeSlotEnv.memories ∧
    (theThreeSlotMap.2.2 + 0x3000 ≤ wordMod → ∀ i, i < 0x3000 / kPageSize →
      add64 theThreeSlotMap.2.2 (mul64 i kPageSize) = theThreeSlotMap.2.2 + i * kPageSize)) :=
  ⟨eq_ok_of_returns (map 16 theFreshSpace threeSlotEnv (some 0) 0 0x3000 bottomReadWrite)
      (emptySpace, threeSlotEnv, 0) (by decide!),
    rfl,
    map_page_table_population 16 theFreshSpace threeSlotEnv (some 0) threeSlotMemory 0 0x3000
      bottomReadWrite theThreeSlotMap
      (eq_ok_of_returns (map 16 theFreshSpace threeSlotEnv (some 0) 0 0x3000 bottomReadWrite)
        (emptySpace, threeSlotEnv, 0) (by decide!)) rfl⟩

set_option maxRecDepth 100000 in
/-- Claim C22, counterexample: after the first touch of scenario D the mapping
at `0x100000` still contains the address `0x101234`, its kind is memory and
its `Memory` object is of type allocated with the on-demand flag, but
`handleFault` at `0x101234` does not return true: it stops at an assertion. -/
theorem handleFault_not_true_on_bound_slot :
    Resolvable theFirstFault.1 theFirstFault.2.1 oneMapTree.toList 0x101234 ∧
    failure (handleFault 16 theFirstFault.1 theFirstFault.2.1 theFirstFault.2.2.1 0x101234 0) =
      some Err.assertion := by
  decide!

/-- Claim C22, as amended: in an address space whose mappings tile a range and
whose memory mappings reference live `Memory` objects, whenever `handleFault`
returns, it returns true exactly when a mapping contains the address, its kind
is memory, and its `Memory` object is of type allocated with the on-demand
flag or of type copy-on-write; in every other case `handleFault` does return,
it returns false, and it leaves the tree, the `Memory` objects, the page-table
calls and the physical allocator as they were. -/
theorem handleFault_true_iff (fuel : Nat) (s : Space) (e : Env) (p : Phys) (address flags : Nat)
    (t : Tree) (lo hi : Nat) (hT : TreeAt s t) (hc : Covers s.cells lo t.toList hi)
    (hhi : hi < wordMod) (hfuel : t.toList.length < fuel)
    (hlive : ∀ i ∈ t.toList, ∀ m, s.cells i = some m → m.type = MappingType.kTypeMemory →
      ∃ mem, e.getMemory m.memoryRegion = Except.ok mem) :
    (∀ r, handleFault fuel s e p address flags = Except.ok r →
      (r.2.2.2 = true ↔ Resolvable s e t.toList address)) ∧
    (¬ Resolvable s e t.toList address →
      handleFault fuel s e p address flags = Except.ok (s, e, p, false)) := by
  rcases getMapping_total address hT hc hhi hfuel with ⟨i, m, hg, hil, hm, h1, h2⟩ | ⟨hg, hnone⟩
  · have hb : baseOf s.cells i = m.baseAddress := fieldOf_some hm _ _
    have he : endOf s.cells i = m.baseAddress + m.length := by
      simp only [endOf, baseOf, lengthOf, fieldOf_some hm]
    have hte : typeOf s.cells i = m.type := fieldOf_some hm _ _
    have hres : Resolvable s e t.toList address ↔
        (m.type = MappingType.kTypeMemory ∧ resolvingMemory s e i = true) := by
      constructor
      · rintro ⟨j, hjl, q1, q2, q3, q4⟩
        have hij : i = j :=
          @Covers.unique s.cells lo hi address t.toList hc i j hil hjl (by omega) (by omega) q1 q2
        subst hij
        exact ⟨hte ▸ q3, q4⟩
      · rintro ⟨q3, q4⟩
        exact ⟨i, hil, by omega, by omega, by rw [hte]; exact q3, q4⟩
    by_cases hty : m.type = MappingType.kTypeMemory
    · obtain ⟨mem, hmem⟩ := hlive i hil m hm hty
      have hrm : resolvingMemory s e i = true ↔
          ((mem.p_type = MemoryType.kTypeAllocated ∧ mem.flags &&& kFlagOnDemand ≠ 0) ∨
            mem.p_type = MemoryType.kTypeCopyOnWrite) := by
        simp [resolvingMemory, hm, hmem]
      by_cases hr : (mem.p_type = MemoryType.kTypeAllocated ∧ mem.flags &&& kFlagOnDemand ≠ 0) ∨
          mem.p_type = MemoryType.kTypeCopyOnWrite
      · have hR : Resolvable s e t.toList address := hres.mpr ⟨hty, hrm.mpr hr⟩
        exact ⟨fun r hr' => ⟨fun _ => hR, fun _ => handleFault_true_post hg hm hty hmem hr r hr'⟩,
          fun hn => absurd hR hn⟩
      · have hF := @handleFault_other fuel s e p address flags i m mem hg hm hty hmem
          (not_or.mp hr).1 (not_or.mp hr).2
        have hnR : ¬ Resolvable s e t.toList address := fun q => hr (hrm.mp (hres.mp q).2)
        refine ⟨fun r hr' => ?_, fun _ => hF⟩
        rw [hF] at hr'
        cases hr'
        exact ⟨fun q => (by cases q), fun q => absurd q hnR⟩
    · have hF := @handleFault_kind fuel s e p address flags i m hg hm hty
      have hnR : ¬ Resolvable s e t.toList address := fun q => hty (hres.mp q).1
      refine ⟨fun r hr' => ?_, fun _ => hF⟩
      rw [hF] at hr'
      cases hr'
      exact ⟨fun q => (by cases q), fun q => absurd q hnR⟩
  · have hF := @handleFault_none fuel s e p address flags hg
    have hnR : ¬ Resolvable s e t.toList address := by
      rintro ⟨j, hjl, q1, q2, -, -⟩
      obtain ⟨m, hm⟩ := hT.2.1.mem_alive hjl
      have hb : baseOf s.cells j = m.baseAddress := fieldOf_some hm _ _
      have he : endOf s.cells j = m.baseAddress + m.length := by
        simp only [endOf, baseOf, lengthOf, fieldOf_some hm]
      exact hnone j hjl m hm ⟨by omega, by omega⟩
    refine ⟨fun r hr' => ?_, fun _ => hF⟩
    rw [hF] at hr'
    cases hr'
    exact ⟨fun q => (by cases q), fun q => absurd q hnR⟩

set_option maxRecDepth 100000 in
/-- Claim C22, witness: in the address space of scenario D, a fault in the
hole above the mapping is not one that `handleFault` resolves, and
`handleFault` returns false and changes nothing. -/
theorem handleFault_true_iff_witness :
    TreeAt theOnDemandMap.1 oneMapTree ∧
    Covers theOnDemandMap.1.cells windowBase oneMapTree.toList windowEnd ∧
    ¬ Resolvable theOnDemandMap.1 theOnDemandMap.2.1 oneMapTree.toList 0x200000 ∧
    ((∀ r, handleFault 16 theOnDemandMap.1 theOnDemandMap.2.1 somePhys 0x200000 0 = Except.ok r →
      (r.2.2.2 = true ↔
        Resolvable theOnDemandMap.1 theOnDemandMap.2.1 oneMapTree.toList 0x200000)) ∧
    (¬ Resolvable theOnDemandMap.1 theOnDemandMap.2.1 oneMapTree.toList 0x200000 →
      handleFault 16 theOnDemandMap.1 theOnDemandMap.2.1 somePhys 0x200000 0 =
        Except.ok (theOnDemandMap.1, theOnDemandMap.2.1, somePhys, false))) :=
  ⟨by decide!, by decide!, by decide!,
    handleFault_true_iff 16 theOnDemandMap.1 theOnDemandMap.2.1 somePhys 0x200000 0 oneMapTree
      windowBase windowEnd (by decide!) (by decide!) (by decide) (by decide)
      (fun i hi m hm hty => by
        have h1 : i = 1 ∨ i = 2 := by simpa [oneMapTree, Tree.toList] using hi
        rcases h1 with rfl | rfl
        · have hm1 : theOnDemandMap.1.cells 1 = some theOnDemandMapping := by decide!
          rw [hm1] at hm
          cases hm
          exact ⟨_, eq_ok_of_returns
            (theOnDemandMap.2.1.getMemory theOnDemandMapping.memoryRegion) (blankMemory 0)
            (by decide!)⟩
        · have hm2 : typeOf theOnDemandMap.1.cells 2 = MappingType.kTypeHole := by decide!
          rw [show typeOf theOnDemandMap.1.cells 2 = m.type from fieldOf_some hm _ _, hty] at hm2
          cases hm2)⟩

set_option maxRecDepth 100000 in
/-- Claim C23, counterexample: in scenario D the first `handleFault` at
`0x101234` returns true and binds the slot, and the second `handleFault` at the
same address does not return false: it stops at an assertion. -/
theorem second_fault_does_not_return_false :
    Returns (handleFault 16 theOnDemandMap.1 theOnDemandMap.2.1 somePhys 0x101234 0)
      (fun r => r.2.2.2 = true) ∧
    failure (handleFault 16 theFirstFault.1 theFirstFault.2.1 theFirstFault.2.2.1 0x101234 0) =
      some Err.assertion := by
  decide!

/-- Claim C23, as amended (scenario D): for a memory mapping of an address
space whose mappings tile a range, with a `Memory` object of type allocated
with the on-demand flag, `handleFault` on an address whose page slot is unbound
returns true when the allocator hands out a frame; a second `handleFault` on
the same page (the slot is now bound) does not return: it stops at an
assertion. -/
theorem fault_same_page_twice (fuel : Nat) (s : Space) (e : Env) (p : Phys)
    (address address' flags flags' : Nat) (t : Tree) (lo hi i k f : Nat) (rest : List Nat)
    (m : Mapping) (mem : Memory)
    (hT : TreeAt s t) (hc : Covers s.cells lo t.toList hi) (hhi : hi < wordMod)
    (hfuel : t.toList.length < fuel) (hil : i ∈ t.toList) (hm : s.cells i = some m)
    (hty : m.type = MappingType.kTypeMemory)
    (ha1 : m.baseAddress ≤ address) (ha2 : address < m.baseAddress + m.length)
    (hb1 : m.baseAddress ≤ address') (hb2 : address' < m.baseAddress + m.length)
    (hpage : (address' - m.baseAddress) / kPageSize = (address - m.baseAddress) / kPageSize)
    (hr : m.memoryRegion = some k) (hk : e.memories k = some mem)
    (h1 : mem.p_type = MemoryType.kTypeAllocated) (h2 : mem.flags &&& kFlagOnDemand ≠ 0)
    (hslot : mem.getPage ((address - m.baseAddress) / kPageSize) = Except.ok noPage)
    (hfree : p.free = f :: rest) (hf : f ≠ noPage) :
    ∃ r, handleFault fuel s e p address flags = Except.ok r ∧ r.2.2.2 = true ∧
      handleFault fuel r.1 r.2.1 r.2.2.1 address' flags' = Except.error Err.assertion := by
  obtain ⟨-, g2, -⟩ := hc.mem hil
  have he : endOf s.cells i = m.baseAddress + m.length := by
    simp only [endOf, baseOf, lengthOf, fieldOf_some hm]
  have hg := getMapping_found hT hc hhi hfuel hil hm ha1 ha2
  have hg' := getMapping_found hT hc hhi hfuel hil hm hb1 hb2
  have hs : sub64 address m.baseAddress = address - m.baseAddress := sub64_eq ha1 (by omega)
  have hs' : sub64 address' m.baseAddress = address' - m.baseAddress := sub64_eq hb1 (by omega)
  have hbound := (getPage_bound hslot).1
  refine ⟨_, handleFault_onDemand hg hm hty hr hk h1 h2 hfree (by rw [hs]; exact hslot), rfl, ?_⟩
  refine @handleFault_bound fuel s _ _ address' flags' i f m
    { mem with p_physicalPages :=
        mem.p_physicalPages.set (sub64 address m.baseAddress / kPageSize) f }
    hg' hm hty ?_ h1 h2 ?_ hf
  · simp only [hr, Env.getMemory, if_true]
  · rw [hs', hpage, hs]
    exact getPage_set f hbound

set_option maxRecDepth 100000 in
/-- Claim C23, witness: scenario D with the first touch at `0x101234` and the
second touch at `0x101ff0`, in the same page. -/
theorem fault_same_page_twice_witness :
    theOnDemandMap.1.cells 1 = some theOnDemandMapping ∧
    theOnDemandMapping.type = MappingType.kTypeMemory ∧
    ∃ r, handleFault 16 theOnDemandMap.1 theOnDemandMap.2.1 somePhys 0x101234 0 = Except.ok r ∧
      r.2.2.2 = true ∧
      handleFault 16 r.1 r.2.1 r.2.2.1 0x101ff0 0 = Except.error Err.assertion :=
  ⟨by decide!, by decide!,
    fault_same_page_twice 16 theOnDemandMap.1 theOnDemandMap.2.1 somePhys 0x101234 0x101ff0 0 0
      oneMapTree windowBase windowEnd 1 0 0x200000 [0x201000, 0x202000] theOnDemandMapping
      { blankMemory 4 with flags := kFlagOnDemand }
      (by decide!) (by decide!) (by decide) (by decide) (by decide) (by decide!) (by decide!)
      (by decide!) (by decide!) (by decide!) (by decide!) (by decide!) (by decide!) (by decide!)
      (by decide) (by decide) (by decide!) rfl (by decide)⟩

set_option maxRecDepth 100000 in
/-- Claim C24, the code at the failing inputs: the mapping of scenario D and the
source mapping of scenario E have `writePermission` set and `executePermission`
clear, and both branches of `handleFault` hand the write bit together with the
execute bit to `mapSingle4k`. -/
theorem fault_execute_bit_not_gated :
    fieldOf theOnDemandMap.1.cells Mapping.executePermission true 1 = false ∧
    Returns (handleFault 16 theOnDemandMap.1 theOnDemandMap.2.1 somePhys 0x101234 0)
      (fun r => r.2.1.pageOps = theOnDemandMap.2.1.pageOps ++
        [PageOp.mapSingle4k 0 0x101000 0x200000 true (kAccessWrite ||| kAccessExecute)]) ∧
    fieldOf theThreeSlotFork.1.cells Mapping.executePermission true 1 = false ∧
    Returns (handleFault 16 theThreeSlotFork.1 theThreeSlotFork.2.2 somePhys 0x100010 0)
      (fun r => r.2.1.pageOps = theThreeSlotFork.2.2.pageOps ++
        [PageOp.unmapSingle4k 0 0x100000,
          PageOp.mapSingle4k 0 0x100000 0x200000 true (kAccessWrite ||| kAccessExecute)]) := by
  decide!

/-- Claim C25 (effect of an on-demand fault): for a memory mapping with a
page-aligned base in an address space whose mappings tile a range, with a
`Memory` object of type allocated with the on-demand flag whose slot
`i = (address - base) / 4096` is unbound, `handleFault(address)` takes exactly
one frame `f` from the allocator, sets slot `i` of the `Memory` object to `f`
and changes no other slot and no other `Memory` object, issues the one
page-table call `mapSingle4k` at `base + i * 4096`, which is the address
rounded down to a multiple of 4096, to `f`, leaves the tree and the physical
memory as they were, and returns true. -/
theorem on_demand_fault_effect (fuel : Nat) (s : Space) (e : Env) (p : Phys)
    (address flags : Nat) (t : Tree) (lo hi i k f : Nat) (rest : List Nat)
    (m : Mapping) (mem : Memory)
    (hT : TreeAt s t) (hc : Covers s.cells lo t.toList hi) (hhi : hi < wordMod)
    (hfuel : t.toList.length < fuel) (hil : i ∈ t.toList) (hm : s.cells i = some m)
    (hty : m.type = MappingType.kTypeMemory)
    (ha1 : m.baseAddress ≤ address) (ha2 : address < m.baseAddress + m.length)
    (hal : m.baseAddress % kPageSize = 0)
    (hr : m.memoryRegion = some k) (hk : e.memories k = some mem)
    (h1 : mem.p_type = MemoryType.kTypeAllocated) (h2 : mem.flags &&& kFlagOnDemand ≠ 0)
    (hslot : mem.getPage ((address - m.baseAddress) / kPageSize) = Except.ok noPage)
    (hfree : p.free = f :: rest) :
    ∃ r, handleFault fuel s e p address flags = Except.ok r ∧ r.2.2.2 = true ∧ r.1 = s ∧
      r.2.2.1.allocated = p.allocated ++ [f] ∧ r.2.2.1.free = rest ∧
      r.2.2.1.bytes = p.bytes ∧
      r.2.1.memories k = some (mem.withPage ((address - m.baseAddress) / kPageSize) f) ∧
      (∀ j, j ≠ k → r.2.1.memories j = e.memories j) ∧
      r.2.1.pageOps = e.pageOps ++
        [PageOp.mapSingle4k s.p_pageSpace
          (m.baseAddress + (address - m.baseAddress) / kPageSize * kPageSize) f true
          ((if m.writePermission then kAccessWrite else 0) ||| kAccessExecute)] ∧
      m.baseAddress + (address - m.baseAddress) / kPageSize * kPageSize =
        address - address % kPageSize := by
  obtain ⟨-, g2, -⟩ := hc.mem hil
  have he : endOf s.cells i = m.baseAddress + m.length := by
    simp only [endOf, baseOf, lengthOf, fieldOf_some hm]
  have hg := getMapping_found hT hc hhi hfuel hil hm ha1 ha2
  obtain ⟨hs, hv, hv'⟩ := @page_vaddr_eq address m.baseAddress (by omega) ha1 hal
  refine ⟨_, handleFault_onDemand hg hm hty hr hk h1 h2 hfree (by rw [hs]; exact hslot), rfl, rfl,
    rfl, rfl, rfl, ?_, fun j hj => ?_, ?_, hv'.symm⟩
  · simp only [if_true, hs, Memory.withPage]
  · simp only [if_neg hj]
  · simp only [hv, hv']

set_option maxRecDepth 100000 in
/-- Claim C25, witness: the first touch of scenario D, at `0x101234`, binds the
frame `0x200000` to slot 1 and maps it at `0x101000`. -/
theorem on_demand_fault_effect_witness :
    theOnDemandMap.1.cells 1 = some theOnDemandMapping ∧
    theOnDemandMapping.baseAddress = 0x100000 ∧
    ∃ r, handleFault 16 theOnDemandMap.1 theOnDemandMap.2.1 somePhys 0x101234 0 = Except.ok r ∧
      r.2.2.2 = true ∧ r.1 = theOnDemandMap.1 ∧
      r.2.2.1.allocated = somePhys.allocated ++ [0x200000] ∧
      r.2.2.1.free = [0x201000, 0x202000] ∧ r.2.2.1.bytes = somePhys.bytes ∧
      r.2.1.memories 0 = some (Memory.withPage { blankMemory 4 with flags := kFlagOnDemand }
        ((0x101234 - theOnDemandMapping.baseAddress) / kPageSize) 0x200000) ∧
      (∀ j, j ≠ 0 → r.2.1.memories j = theOnDemandMap.2.1.memories j) ∧
      r.2.1.pageOps = theOnDemandMap.2.1.pageOps ++
        [PageOp.mapSingle4k theOnDemandMap.1.p_pageSpace
          (theOnDemandMapping.baseAddress +
            (0x101234 - theOnDemandMapping.baseAddress) / kPageSize * kPageSize) 0x200000 true
          ((if theOnDemandMapping.writePermission then kAccessWrite else 0) |||
            kAccessExecute)] ∧
      theOnDemandMapping.baseAddress +
          (0x101234 - theOnDemandMapping.baseAddress) / kPageSize * kPageSize =
        0x101234 - 0x101234 % kPageSize :=
  ⟨by decide!, by decide!,
    on_demand_fault_effect 16 theOnDemandMap.1 theOnDemandMap.2.1 somePhys 0x101234 0
      oneMapTree windowBase windowEnd 1 0 0x200000 [0x201000, 0x202000] theOnDemandMapping
      { blankMemory 4 with flags := kFlagOnDemand }
      (by decide!) (by decide!) (by decide) (by decide) (by decide) (by decide!) (by decide!)
      (by decide!) (by decide!) (by decide!) (by decide!) (by decide!) (by decide!) (by decide!)
      (by decide!) rfl⟩

/-- Claim C26 (effect of a copy-on-write fault): for a memory mapping in an
address space whose mappings tile a range, with a `Memory` object `M` of type
copy-on-write whose master slot `i` holds the frame `o` and whose own slot `i`
is unbound (`i` the page index of the faulting address), `handleFault` takes
exactly one frame `f` from the allocator, makes the 4096 bytes of `f` equal to
the 4096 bytes of `o`, sets slot `i` of `M` to `f`, leaves the master (and every
other `Memory` object) and the bytes of `o` as they were, changes no other slot
of `M`, issues `unmapSingle4k` and then `mapSingle4k` at the faulting address
rounded down to a multiple of 4096, to `f`, leaves the tree as it was, and
returns true.  Frames are page-aligned. -/
theorem copy_on_write_fault_effect (fuel : Nat) (s : Space) (e : Env) (p : Phys)
    (address flags : Nat) (t : Tree) (lo hi i k f o : Nat) (rest : List Nat)
    (m : Mapping) (mem mas : Memory)
    (hT : TreeAt s t) (hc : Covers s.cells lo t.toList hi) (hhi : hi < wordMod)
    (hfuel : t.toList.length < fuel) (hil : i ∈ t.toList) (hm : s.cells i = some m)
    (hty : m.type = MappingType.kTypeMemory)
    (ha1 : m.baseAddress ≤ address) (ha2 : address < m.baseAddress + m.length)
    (hr : m.memoryRegion = some k) (hk : e.memories k = some mem)
    (h1 : mem.p_type = MemoryType.kTypeCopyOnWrite)
    (hmas : e.getMemory mem.master = Except.ok mas)
    (horigin : mas.getPage ((address - m.baseAddress) / kPageSize) = Except.ok o)
    (ho : o ≠ noPage)
    (hslot : mem.getPage ((address - m.baseAddress) / kPageSize) = Except.ok noPage)
    (hfree : p.free = f :: rest)
    (hfa : f % kPageSize = 0) (hoa : o % kPageSize = 0) :
    ∃ r, handleFault fuel s e p address flags = Except.ok r ∧ r.2.2.2 = true ∧ r.1 = s ∧
      r.2.2.1.allocated = p.allocated ++ [f] ∧ r.2.2.1.free = rest ∧
      (∀ n, n < kPageSize → r.2.2.1.bytes (f + n) = p.bytes (o + n)) ∧
      (∀ n, n < kPageSize → r.2.2.1.bytes (o + n) = p.bytes (o + n)) ∧
      r.2.1.memories k = some (mem.withPage ((address - m.baseAddress) / kPageSize) f) ∧
      (∀ j, j ≠ k → r.2.1.memories j = e.memories j) ∧
      r.2.1.getMemory mem.master = Except.ok mas ∧
      r.2.1.pageOps = e.pageOps ++
        [PageOp.unmapSingle4k s.p_pageSpace (address - address % kPageSize),
          PageOp.mapSingle4k s.p_pageSpace (address - address % kPageSize) f true
            ((if m.writePermission then kAccessWrite else 0) ||| kAccessExecute)] := by
  obtain ⟨-, g2, -⟩ := hc.mem hil
  have he : endOf s.cells i = m.baseAddress + m.length := by
    simp only [endOf, baseOf, lengthOf, fieldOf_some hm]
  have hg := getMapping_found hT hc hhi hfuel hil hm ha1 ha2
  have hs : sub64 address m.baseAddress = address - m.baseAddress := sub64_eq ha1 (by omega)
  have hv : sub64 address (address % kPageSize) = address - address % kPageSize :=
    sub64_eq (Nat.mod_le _ _) (by omega)
  obtain ⟨km, hkm, hkm'⟩ := getMemory_some hmas
  have hne : km ≠ k := by
    rintro rfl
    rw [hk] at hkm'
    cases hkm'
    rw [horigin] at hslot
    cases hslot
    exact ho rfl
  obtain ⟨hb1, hb2⟩ := memcpy_frames ({ p with free := rest, allocated := p.allocated ++ [f] }) hfa hoa
  refine ⟨_, handleFault_cow hg hm hty hr hk h1 hmas (by rw [hs]; exact horigin) ho hfree
    (by rw [hs]; exact hslot), rfl, rfl, rfl, rfl, hb1, hb2, ?_, fun j hj => ?_, ?_, ?_⟩
  · simp only [if_true, hs, Memory.withPage]
  · simp only [if_neg hj]
  · simp only [hkm, Env.getMemory, if_neg hne, hkm']
  · simp only [hv]

set_option maxRecDepth 100000 in
/-- Claim C26, witness: scenario E, a fault at `0x100010` in the source space
after the fork: the frame `0x200000` receives the bytes of the original frame
`0x300000` and replaces it in the page table of the source space. -/
theorem copy_on_write_fault_effect_witness :
    theThreeSlotFork.1.cells 1 = some theParentMapping ∧
    theThreeSlotFork.2.2.memories 1 = some theParentMemory ∧
    ∃ r, handleFault 16 theThreeSlotFork.1 theThreeSlotFork.2.2 somePhys 0x100010 0 =
        Except.ok r ∧ r.2.2.2 = true ∧ r.1 = theThreeSlotFork.1 ∧
      r.2.2.1.allocated = somePhys.allocated ++ [0x200000] ∧
      r.2.2.1.free = [0x201000, 0x202000] ∧
      (∀ n, n < kPageSize → r.2.2.1.bytes (0x200000 + n) = somePhys.bytes (0x300000 + n)) ∧
      (∀ n, n < kPageSize → r.2.2.1.bytes (0x300000 + n) = somePhys.bytes (0x300000 + n)) ∧
      r.2.1.memories 1 = some (theParentMemory.withPage
        ((0x100010 - theParentMapping.baseAddress) / kPageSize) 0x200000) ∧
      (∀ j, j ≠ 1 → r.2.1.memories j = theThreeSlotFork.2.2.memories j) ∧
      r.2.1.getMemory theParentMemory.master = Except.ok threeSlotMemory ∧
      r.2.1.pageOps = theThreeSlotFork.2.2.pageOps ++
        [PageOp.unmapSingle4k theThreeSlotFork.1.p_pageSpace (0x100010 - 0x100010 % kPageSize),
          PageOp.mapSingle4k theThreeSlotFork.1.p_pageSpace (0x100010 - 0x100010 % kPageSize)
            0x200000 true
            ((if theParentMapping.writePermission then kAccessWrite else 0) |||
              kAccessExecute)] :=
  ⟨by decide!, by decide!,
    copy_on_write_fault_effect 16 theThreeSlotFork.1 theThreeSlotFork.2.2 somePhys 0x100010 0
      oneMapTree windowBase windowEnd 1 1 0x200000 0x300000 [0x201000, 0x202000]
      theParentMapping theParentMemory threeSlotMemory
      (by decide!) (by decide!) (by decide) (by decide) (by decide) (by decide!) (by decide!)
      (by decide!) (by decide!) (by decide!) (by decide!) (by decide!) (by decide!) (by decide!)
      (by decide) (by decide!) rfl (by decide) (by decide)⟩

theorem seg_of_layout {c c' : Nat → Option Mapping} {l l' : List Nat}
    (h : l.map (layout c) = l'.map (layout c')) : l.map (seg c) = l'.map (seg c') := by
  have := congrArg (List.map (fun x : Nat × Nat × MappingType × Bool × Bool =>
    (x.1, x.2.1, x.2.2.1))) h
  simpa only [List.map_map] using this

/-- Claim C27 (`fork` clones the layout): for every source space whose tree
holds mappings that tile a range and that are holes or memory mappings that
`fork` can clone (`Forkable`), `fork` completes; the in-order sequence of
(base, length, kind) of the space it returns equals that of the source, every
destination memory mapping has the `writePermission` and `executePermission`
of its source mapping (`layout`), the source keeps its tree and its in-order
sequence of (base, length, kind, permissions), and the destination tree
satisfies the tree invariants (search-tree order, red-black rules, augment,
order list). -/
theorem fork_clones_layout (fuel : Nat) (s : Space) (e : Env) (T : Tree) (lo hi : Nat)
    (hT : TreeAt s T) (hcov : Covers s.cells lo T.toList hi) (hlo : lo < hi) (hhi : hi < wordMod)
    (hfresh : ∀ i ∈ T.toList, i < s.next)
    (hready : ∀ i ∈ T.toList, ∀ m, s.cells i = some m → Forkable e m)
    (hfuel : T.toList.length ≤ fuel) :
    Returns (fork fuel s e) (fun r =>
      (∃ Dt, ValidTree r.2.1 Dt ∧
        Dt.toList.map (seg r.2.1.cells) = T.toList.map (seg s.cells) ∧
        Dt.toList.map (layout r.2.1.cells) = T.toList.map (layout s.cells)) ∧
      TreeAt r.1 T ∧ T.toList.map (rangePerms r.1.cells) = T.toList.map (rangePerms s.cells)) := by
  refine (fork_walk hT hcov hlo hhi hfresh hready hfuel).weaken ?_
  rintro ⟨s', d, e'⟩ ⟨hw, hs'⟩
  dsimp only at hw hs' ⊢
  obtain ⟨Dt, hv, hlay, -, -⟩ := hw.same_layout hcov
  obtain ⟨hsh, hrp⟩ := hw.source_kept hT.2.1
  subst hs'
  exact ⟨⟨Dt, hv, seg_of_layout hlay, hlay⟩, ⟨hT.1, hsh, hT.2.2⟩, hrp⟩

/-- The mappings of the address space `theThreeSlotMap` can be cloned. -/
theorem threeSlot_forkable :
    ∀ i ∈ oneMapTree.toList, ∀ m, theThreeSlotMap.1.cells i = some m →
      Forkable theThreeSlotMap.2.1 m := by
  intro i hi m hm
  have h1 : i = 1 ∨ i = 2 := by simpa [oneMapTree, Tree.toList] using hi
  rcases h1 with rfl | rfl
  · right
    have hty : typeOf theThreeSlotMap.1.cells 1 = MappingType.kTypeMemory := by decide!
    have hmr : fieldOf theThreeSlotMap.1.cells Mapping.memoryRegion none 1 = some 0 := by decide!
    have hlen : lengthOf theThreeSlotMap.1.cells 1 = 0x3000 := by decide!
    have hfl : fieldOf theThreeSlotMap.1.cells Mapping.flags 1 1 = 0 := by decide!
    rw [show typeOf theThreeSlotMap.1.cells 1 = m.type from fieldOf_some hm _ _] at hty
    rw [show fieldOf theThreeSlotMap.1.cells Mapping.memoryRegion none 1 = m.memoryRegion from
      fieldOf_some hm _ _] at hmr
    rw [show lengthOf theThreeSlotMap.1.cells 1 = m.length from fieldOf_some hm _ _] at hlen
    rw [show fieldOf theThreeSlotMap.1.cells Mapping.flags 1 1 = m.flags from
      fieldOf_some hm _ _] at hfl
    refine ⟨hty, 0, threeSlotMemory, hmr, by decide!, by decide!, ?_, fun hsh => ?_,
      fun _ => ⟨rfl, by decide⟩⟩
    · rw [hlen]
      decide
    · exact absurd hsh (by unfold Mapping.shared; rw [hfl]; decide)
  · left
    have hty : typeOf theThreeSlotMap.1.cells 2 = MappingType.kTypeHole := by decide!
    rw [show typeOf theThreeSlotMap.1.cells 2 = m.type from fieldOf_some hm _ _] at hty
    exact hty

set_option maxRecDepth 100000 in
/-- Claim C27, witness: `fork` of the address space with one writable mapping
of three pages (scenario E). -/
theorem fork_clones_layout_witness :
    TreeAt theThreeSlotMap.1 oneMapTree ∧
    Covers theThreeSlotMap.1.cells windowBase oneMapTree.toList windowEnd ∧
    Returns (fork 16 theThreeSlotMap.1 theThreeSlotMap.2.1) (fun r =>
      (∃ Dt, ValidTree r.2.1 Dt ∧
        Dt.toList.map (seg r.2.1.cells) = oneMapTree.toList.map (seg theThreeSlotMap.1.cells) ∧
        Dt.toList.map (layout r.2.1.cells) =
          oneMapTree.toList.map (layout theThreeSlotMap.1.cells)) ∧
      TreeAt r.1 oneMapTree ∧
      oneMapTree.toList.map (rangePerms r.1.cells) =
        oneMapTree.toList.map (rangePerms theThreeSlotMap.1.cells)) :=
  ⟨by decide!, by decide!,
    fork_clones_layout 16 theThreeSlotMap.1 theThreeSlotMap.2.1 oneMapTree windowBase windowEnd
      (by decide!) (by decide!) (by decide) (by decide) (by decide!) threeSlot_forkable
      (by decide)⟩

/-- Claim C28 (`fork` breaks to copy-on-write): on a source space as in claim
C27, `fork` completes, and for every memory mapping without share-on-fork,
with `Memory` object `O` (number `k`, of type allocated), the source mapping
and its copy in the destination tree (the mapping of the same range) afterwards
reference two different `Memory` objects `a` and `b` that did not exist before,
both `cowMemory`: of type copy-on-write, with master `O`, and with a page vector
of `O.numPages()` slots that all hold the sentinel; `O` itself is as it was. -/
theorem fork_breaks_to_copy_on_write (fuel : Nat) (s : Space) (e : Env) (T : Tree) (lo hi : Nat)
    (hT : TreeAt s T) (hcov : Covers s.cells lo T.toList hi) (hlo : lo < hi) (hhi : hi < wordMod)
    (hfresh : ∀ i ∈ T.toList, i < s.next)
    (hready : ∀ i ∈ T.toList, ∀ m, s.cells i = some m → Forkable e m)
    (hfuel : T.toList.length ≤ fuel) :
    Returns (fork fuel s e) (fun r =>
      ∃ Dt, ValidTree r.2.1 Dt ∧
        ∀ i ∈ T.toList, ∀ m k O, s.cells i = some m → m.breaks → m.memoryRegion = some k →
          e.memories k = some O →
          O.p_type = MemoryType.kTypeAllocated ∧
          ∃ j ∈ Dt.toList, ∃ a b, seg r.2.1.cells j = seg s.cells i ∧ a ≠ b ∧
            e.nextMemory ≤ a ∧ e.nextMemory ≤ b ∧
            fieldOf r.1.cells Mapping.memoryRegion none i = some a ∧
            fieldOf r.2.1.cells Mapping.memoryRegion none j = some b ∧
            r.2.2.memories a = some (cowMemory O.p_physicalPages.length (some k)) ∧
            r.2.2.memories b = some (cowMemory O.p_physicalPages.length (some k)) ∧
            r.2.2.memories k = some O) := by
  refine (fork_walk hT hcov hlo hhi hfresh hready hfuel).weaken ?_
  rintro ⟨s', d, e'⟩ ⟨hw, hs'⟩
  dsimp only at hw hs' ⊢
  obtain ⟨Dt, hv, -, -, hD2⟩ := hw.same_layout hcov
  subst hs'
  refine ⟨Dt, hv, fun i hi m k O hm hb hr hk => ?_⟩
  rcases hready i hi m hm with hty | ⟨-, k', mem, hr', hkn, hk', -, -, h2⟩
  · have := hb.1
    rw [hty] at this
    cases this
  · rw [hr] at hr'
    cases hr'
    rw [hk] at hk'
    cases hk'
    obtain ⟨j, hj, hcp⟩ := hD2 i hi
    obtain ⟨a, g1, g2, g3, g4, g5, g6, g7⟩ := @Walk.broken _ _ _ _ _ _ _ _ hw Dt i j k m O hcp hm hb
      hr hk hkn
    exact ⟨(h2 hb.2).1, j, hj, a, a + 1, g1, by omega, g2, by omega, g3, g4, g5, g6, g7⟩

set_option maxRecDepth 100000 in
/-- Claim C28, witness: `fork` of the address space with one writable mapping
of three pages (scenario E). -/
theorem fork_breaks_to_copy_on_write_witness :
    TreeAt theThreeSlotMap.1 oneMapTree ∧
    Covers theThreeSlotMap.1.cells windowBase oneMapTree.toList windowEnd ∧
    Returns (fork 16 theThreeSlotMap.1 theThreeSlotMap.2.1) (fun r =>
      ∃ Dt, ValidTree r.2.1 Dt ∧
        ∀ i ∈ oneMapTree.toList, ∀ m k O, theThreeSlotMap.1.cells i = some m → m.breaks →
          m.memoryRegion = some k → theThreeSlotMap.2.1.memories k = some O →
          O.p_type = MemoryType.kTypeAllocated ∧
          ∃ j ∈ Dt.toList, ∃ a b,
            seg r.2.1.cells j = seg theThreeSlotMap.1.cells i ∧ a ≠ b ∧
            theThreeSlotMap.2.1.nextMemory ≤ a ∧ theThreeSlotMap.2.1.nextMemory ≤ b ∧
            fieldOf r.1.cells Mapping.memoryRegion none i = some a ∧
            fieldOf r.2.1.cells Mapping.memoryRegion none j = some b ∧
            r.2.2.memories a = some (cowMemory O.p_physicalPages.length (some k)) ∧
            r.2.2.memories b = some (cowMemory O.p_physicalPages.length (some k)) ∧
            r.2.2.memories k = some O) :=
  ⟨by decide!, by decide!,
    fork_breaks_to_copy_on_write 16 theThreeSlotMap.1 theThreeSlotMap.2.1 oneMapTree windowBase
      windowEnd (by decide!) (by decide!) (by decide) (by decide) (by decide!) threeSlot_forkable
      (by decide)⟩

/-- Claim C29 (page tables after `fork`): on a source space as in claim C27
whose page space differs from the new page space of the child, in which no
call was made yet, `fork` completes, and for every memory mapping without
share-on-fork, with `Memory` object `O`, and every page `n` of the mapping: if
slot `n` of `O` holds a frame, the entry for `base + n * 4096` in the page table
of the parent and in the page table of the child maps that frame with the
execute bit only, so without the write bit, whatever `writePermission` is; if
slot `n` is unbound, `fork` leaves the entry of the parent as it was and the
child has no entry. -/
theorem fork_page_tables (fuel : Nat) (s : Space) (e : Env) (T : Tree) (lo hi : Nat)
    (hT : TreeAt s T) (hcov : Covers s.cells lo T.toList hi) (hlo : lo < hi) (hhi : hi < wordMod)
    (hfresh : ∀ i ∈ T.toList, i < s.next)
    (hready : ∀ i ∈ T.toList, ∀ m, s.cells i = some m → Forkable e m)
    (hfuel : T.toList.length ≤ fuel) (hsp : s.p_pageSpace ≠ e.nextPageSpace)
    (hnew : ∀ op ∈ e.pageOps, op.space ≠ e.nextPageSpace) :
    Returns (fork fuel s e) (fun r =>
      r.1.p_pageSpace = s.p_pageSpace ∧ r.2.1.p_pageSpace = e.nextPageSpace ∧
      kAccessExecute &&& kAccessWrite = 0 ∧
      ∀ i ∈ T.toList, ∀ m k O, s.cells i = some m → m.breaks → m.memoryRegion = some k →
        e.memories k = some O → ∀ n, n < m.length / kPageSize →
          (O.p_physicalPages.getD n noPage ≠ noPage →
            entryOf r.1.p_pageSpace (m.baseAddress + n * kPageSize) r.2.2.pageOps =
              some (O.p_physicalPages.getD n noPage, true, kAccessExecute) ∧
            entryOf r.2.1.p_pageSpace (m.baseAddress + n * kPageSize) r.2.2.pageOps =
              some (O.p_physicalPages.getD n noPage, true, kAccessExecute)) ∧
          (O.p_physicalPages.getD n noPage = noPage →
            entryOf r.1.p_pageSpace (m.baseAddress + n * kPageSize) r.2.2.pageOps =
              entryOf s.p_pageSpace (m.baseAddress + n * kPageSize) e.pageOps ∧
            entryOf r.2.1.p_pageSpace (m.baseAddress + n * kPageSize) r.2.2.pageOps = none)) := by
  refine (fork_walk hT hcov hlo hhi hfresh hready hfuel).weaken ?_
  rintro ⟨s', d, e'⟩ ⟨hw, hs'⟩
  dsimp only at hw hs' ⊢
  subst hs'
  refine ⟨rfl, hw.space_eq, by decide, fun i hi m k O hm hb hr hk n hn => ?_⟩
  have hp : pagesOf e m.memoryRegion = O.p_physicalPages := by
    simp only [pagesOf, hr, Env.getMemory, hk]
  obtain ⟨h1, h2⟩ := fork_trace_entries hcov hhi hw.nodup hsp hi hm hb hn hw.ops
  rw [hp] at h1 h2
  rw [hw.space_eq]
  refine ⟨h1, fun hu => ⟨(h2 hu).1, ?_⟩⟩
  rw [(h2 hu).2]
  exact entryOf_untouched _ (fun op hop => untouched_of (fun h => absurd h (hnew op hop)))

set_option maxRecDepth 100000 in
/-- Claim C29, witness: `fork` of the address space with one writable mapping
of three pages of which the pages 0 and 2 are bound (scenario E). -/
theorem fork_page_tables_witness :
    TreeAt theThreeSlotMap.1 oneMapTree ∧
    Covers theThreeSlotMap.1.cells windowBase oneMapTree.toList windowEnd ∧
    Returns (fork 16 theThreeSlotMap.1 theThreeSlotMap.2.1) (fun r =>
      r.1.p_pageSpace = theThreeSlotMap.1.p_pageSpace ∧
      r.2.1.p_pageSpace = theThreeSlotMap.2.1.nextPageSpace ∧
      kAccessExecute &&& kAccessWrite = 0 ∧
      ∀ i ∈ oneMapTree.toList, ∀ m k O, theThreeSlotMap.1.cells i = some m → m.breaks →
        m.memoryRegion = some k → theThreeSlotMap.2.1.memories k = some O →
        ∀ n, n < m.length / kPageSize →
          (O.p_physicalPages.getD n noPage ≠ noPage →
            entryOf r.1.p_pageSpace (m.baseAddress + n * kPageSize) r.2.2.pageOps =
              some (O.p_physicalPages.getD n noPage, true, kAccessExecute) ∧
            entryOf r.2.1.p_pageSpace (m.baseAddress + n * kPageSize) r.2.2.pageOps =
              some (O.p_physicalPages.getD n noPage, true, kAccessExecute)) ∧
          (O.p_physicalPages.getD n noPage = noPage →
            entryOf r.1.p_pageSpace (m.baseAddress + n * kPageSize) r.2.2.pageOps =
              entryOf theThreeSlotMap.1.p_pageSpace (m.baseAddress + n * kPageSize)
                theThreeSlotMap.2.1.pageOps ∧
            entryOf r.2.1.p_pageSpace (m.baseAddress + n * kPageSize) r.2.2.pageOps = none)) :=
  ⟨by decide!, by decide!,
    fork_page_tables 16 theThreeSlotMap.1 theThreeSlotMap.2.1 oneMapTree windowBase
      windowEnd (by decide!) (by decide!) (by decide) (by decide) (by decide!) threeSlot_forkable
      (by decide) (by decide!) (by decide!)⟩

set_option maxRecDepth 100000 in
/-- Claim C30, the code at the failing input: the mapping of `theSharedMap`
(object 1) has share-on-fork and `writePermission` set and `executePermission`
clear; `fork` makes its copy (object 3) reference the same `Memory` object and
makes no call on the page space of the source, but it maps the two bound
frames into the page space of the destination with the write bit and the
execute bit. -/
theorem fork_shared_execute_bit_not_gated :
    fieldOf theSharedMap.1.cells Mapping.flags 0 1 &&& kFlagShareOnFork ≠ 0 ∧
    fieldOf theSharedMap.1.cells Mapping.writePermission false 1 = true ∧
    fieldOf theSharedMap.1.cells Mapping.executePermission true 1 = false ∧
    Returns (fork 16 theSharedMap.1 theSharedMap.2.1) (fun r =>
      fieldOf r.2.1.cells Mapping.memoryRegion none 3 =
        fieldOf theSharedMap.1.cells Mapping.memoryRegion none 1 ∧
      seg r.2.1.cells 3 = seg theSharedMap.1.cells 1 ∧
      r.2.2.pageOps = theSharedMap.2.1.pageOps ++
        [PageOp.mapSingle4k r.2.1.p_pageSpace 0x100000 0x300000 true
            (kAccessWrite ||| kAccessExecute),
          PageOp.mapSingle4k r.2.1.p_pageSpace 0x102000 0x302000 true
            (kAccessWrite ||| kAccessExecute)] ∧
      r.2.1.p_pageSpace ≠ theSharedMap.1.p_pageSpace) := by
  decide!

/-! ### `Memory::setPage` and its callers -/

theorem setPage_post {e : Env} {memory : Ptr} {index page : Nat} :
    Post (e.setPage memory index page) (fun e' =>
      ∃ k mem, memory = some k ∧ e.memories k = some mem ∧
        index < mem.p_physicalPages.length ∧
        e'.memories = fun j => if j = k then some (mem.withPage index page) else e.memories j) := by
  intro e' h
  cases memory with
  | none => simp [Env.setPage, Env.getMemory, bind_errE] at h
  | some k =>
    cases hk : e.memories k with
    | none => simp [Env.setPage, Env.getMemory, hk, bind_errE] at h
    | some mem =>
      by_cases hi : index < mem.p_physicalPages.length
      · rw [setPage_eq hk hi] at h
        cases h
        exact ⟨k, mem, rfl, hk, hi, rfl⟩
      · simp [Env.setPage, Env.getMemory, hk, Memory.setPage, hi, bind_errE, bind_okE] at h

theorem getPage_withPage_ne (mem : Memory) {index j : Nat} (page : Nat) (h : j ≠ index) :
    (mem.withPage index page).getPage j = mem.getPage j := by
  simp only [Memory.getPage, Memory.withPage, List.get?_eq_getElem?]
  rw [List.getElem?_set_ne (Ne.symm h)]

/-- Whenever `handleFault` returns, every page slot that it has changed was
unbound before the call. -/
theorem handleFault_binds_unbound (fuel : Nat) (s : Space) (e : Env) (p : Phys) (a flags : Nat) :
    Post (handleFault fuel s e p a flags) (fun r =>
      ∀ k mem mem' j, e.memories k = some mem → r.2.1.memories k = some mem' →
        mem'.getPage j ≠ mem.getPage j → mem.getPage j = Except.ok noPage) := by
  have hsame : ∀ k mem mem' j, e.memories k = some mem → e.memories k = some mem' →
      mem'.getPage j ≠ mem.getPage j → mem.getPage j = Except.ok noPage := by
    intro k mem mem' j h1 h2 hne
    rw [h1] at h2
    cases h2
    exact absurd rfl hne
  have hset : ∀ (memory : Ptr) (mem0 : Memory) (index physical : Nat) (e' : Env),
      e.getMemory memory = Except.ok mem0 → mem0.getPage index = Except.ok noPage →
      (∃ k mem, memory = some k ∧ e.memories k = some mem ∧
        index < mem.p_physicalPages.length ∧
        e'.memories = fun j => if j = k then some (mem.withPage index physical)
          else e.memories j) →
      ∀ k mem mem' j, e.memories k = some mem → e'.memories k = some mem' →
        mem'.getPage j ≠ mem.getPage j → mem.getPage j = Except.ok noPage := by
    rintro memory mem0 index physical e' hmem hslot ⟨k0, memk, hk0, hmemk, -, hmems⟩ k mem mem' j
      h1 h2 hne
    rw [hmems] at h2
    dsimp only at h2
    by_cases hkk : k = k0
    · subst hkk
      rw [if_pos rfl] at h2
      cases h2
      rw [hmemk] at h1
      cases h1
      have hm0 : mem0 = memk := by
        rw [hk0] at hmem
        simp only [Env.getMemory, hmemk] at hmem
        cases hmem
        rfl
      subst hm0
      by_cases hj : j = index
      · subst hj
        exact hslot
      · exact absurd (getPage_withPage_ne mem0 physical hj) hne
    · rw [if_neg hkk] at h2
      exact hsame k mem mem' j h1 h2 hne
  unfold handleFault
  refine Post.bind Post.trivial (fun found _ => ?_)
  cases found with
  | none => exact Post.ok hsame
  | some i =>
    dsimp only
    refine Post.bind Post.trivial (fun m _ => ?_)
    refine Post.ite (fun _ => Post.ok hsame) (fun _ => ?_)
    refine Post.bind (Post.self _) (fun mem hmem => ?_)
    refine Post.ite (fun _ => ?_) (fun _ => Post.ite (fun _ => ?_) (fun _ => Post.ok hsame))
    · refine Post.bind Post.trivial ?_
      rintro ⟨p', f⟩ -
      dsimp only
      refine Post.bind (Post.self _) (fun page hpage => ?_)
      refine Post.bind Post.assert (fun _ hass => ?_)
      refine Post.bind setPage_post (fun e' he' => ?_)
      have hp : page = noPage := of_decide_eq_true hass
      subst hp
      exact Post.ok (hset _ mem _ f e' hmem hpage he')
    · refine Post.bind Post.trivial ?_
      rintro ⟨p', f⟩ -
      dsimp only
      refine Post.bind Post.trivial (fun master _ => ?_)
      refine Post.bind Post.trivial (fun origin _ => ?_)
      refine Post.bind Post.trivial (fun _ _ => ?_)
      refine Post.bind (Post.self _) (fun page hpage => ?_)
      refine Post.bind Post.assert (fun _ hass => ?_)
      refine Post.bind setPage_post (fun e' he' => ?_)
      have hp : page = noPage := of_decide_eq_true hass
      subst hp
      exact Post.ok (hset _ mem _ f e' hmem hpage he')

/-! ### The flags of the mappings of a forked space -/

/-- The copy that `cloneRecursive` makes of a mapping has no flag set. -/
theorem Copied.flags_zero {c0 : Nat → Option Mapping} {e0 : Env} {d : Space} {e : Env} {i j : Nat}
    (h : Copied c0 e0 d e i j) :
    ∃ m, d.cells j = some m ∧ m.flags = 0 := by
  obtain ⟨m0, a, -, -, -, h4, -⟩ := h
  cases hc : d.cells j with
  | none => rw [hc] at h4; cases h4
  | some x =>
    rw [hc] at h4
    have hk : x.keys = (cloneCell m0 a).keys := Option.some.inj h4
    have h1 : x.flags = (cloneCell m0 a).flags := congrArg Keys.flags hk
    refine ⟨x, rfl, h1.trans ?_⟩
    unfold cloneCell
    split <;> rfl

/-! ### Rotations -/

/-- A rotation leaves the range and the kind of every mapping alone. -/
theorem seg_of_noRot {s s' : Space} (h : Same Mapping.noRot s s') (j : Nat) :
    seg s'.cells j = seg s.cells j := by
  have h1 := h.fieldOf Mapping.baseAddress 0
    (fun m m' e => by have := congrArg Mapping.baseAddress e; exact this) j
  have h2 := h.fieldOf Mapping.length 0
    (fun m m' e => by have := congrArg Mapping.length e; exact this) j
  have h3 := h.fieldOf Mapping.type MappingType.kTypeNone
    (fun m m' e => by have := congrArg Mapping.type e; exact this) j
  simp only [seg, baseOf, lengthOf, typeOf, h1, h2, h3]

/-! ### `fork` on a space with a mapping that `cloneRecursive` rejects -/

theorem Outcome.of_returns {α : Type} {x : Except Err α} {P : α → Prop} (h : Returns x P) :
    Outcome x P := by
  cases x with
  | ok a => exact h
  | error err => exact absurd h (fun h => h)

theorem Outcome.chain {α β : Type} {x : Except Err α} {f : α → Except Err β} {P : α → Prop}
    {Q : β → Prop} (hx : Outcome x P) (hf : ∀ a, P a → Outcome (f a) Q) :
    Outcome (x >>= f) Q := by
  cases x with
  | ok a => exact hf a hx
  | error err => exact hx

theorem Outcome.relax {α : Type} {x : Except Err α} {P Q : α → Prop} (hx : Outcome x P)
    (h : ∀ a, P a → Q a) : Outcome x Q := by
  cases x with
  | ok a => exact h a hx
  | error err => exact hx

theorem Outcome.stops {α : Type} {x : Except Err α} {P : α → Prop} (hx : Outcome x P)
    (h : ∀ a, ¬ P a) : x = Except.error Err.assertion := by
  cases x with
  | ok a => exact absurd hx (h a)
  | error err =>
    have : err = Err.assertion := hx
    rw [this]

/-- A mapping at which `cloneRecursive` stops is not one that it can clone. -/
theorem Asserting.not_forkable {e : Env} {m : Mapping} (ha : Asserting e m) : ¬ Forkable e m := by
  rintro (hty | ⟨hty, k, mem, hr, -, hk, -, h1, h2⟩)
  · rcases ha with h | ⟨h, -⟩
    · rw [hty] at h
      cases h
    · rw [hty] at h
      cases h
  · rcases ha with h | ⟨-, k', mem', hr', -, hk', hcase⟩
    · rw [hty] at h
      cases h
    · rw [hr] at hr'
      cases hr'
      rw [hk] at hk'
      cases hk'
      rcases hcase with ⟨hs, hc⟩ | ⟨hs, hc⟩
      · rcases h1 hs with h | h
        · rw [h] at hc
          cases hc
        · rw [h] at hc
          cases hc
      · obtain ⟨g1, g2⟩ := h2 hs
        rcases hc with hc | hc
        · exact hc g1
        · omega

/-- A memory mapping without share-on-fork whose `Memory` object is of type
copy-on-write is one at which `cloneRecursive` stops. -/
theorem Recursive.asserting {e : Env} {m : Mapping} (h : Recursive e m) : Asserting e m := by
  obtain ⟨hb, k, mem, hr, hkn, hk, hty⟩ := h
  refine Or.inr ⟨hb.1, k, mem, hr, hkn, hk, Or.inr ⟨hb.2, Or.inl ?_⟩⟩
  rw [hty]
  decide

/-- At a mapping of the kinds described by `Asserting`, `cloneNode` stops at an
assertion. -/
theorem cloneNode_asserting {full sps : Nat} {d : Space} {e : Env} {i : Nat} {m : Mapping}
    (hm : d.cells i = some m) (ha : Asserting e m) :
    cloneNode full sps d e i = Except.error Err.assertion := by
  rcases ha with hty | ⟨hty, k, mem, hr, -, hk, hcase⟩
  · have h1 : ¬ m.type = MappingType.kTypeHole := by rw [hty]; decide
    have h2 : ¬ m.type = MappingType.kTypeMemory := by rw [hty]; decide
    have h3 : ¬ (m.type = MappingType.kTypeMemory ∧ m.flags &&& kFlagShareOnFork ≠ 0) :=
      fun h => h2 h.1
    simp only [cloneNode, get_eq hm, bind_okE, Space.construct, if_neg h1, if_neg h2, if_neg h3,
      bind_errE]
  · have h1 : ¬ m.type = MappingType.kTypeHole := by rw [hty]; decide
    have hmem : e.getMemory m.memoryRegion = Except.ok mem := by
      simp only [hr, Env.getMemory, hk]
    rcases hcase with ⟨hs, hc⟩ | ⟨hs, hc⟩
    · have h2 : m.type = MappingType.kTypeMemory ∧ m.flags &&& kFlagShareOnFork ≠ 0 := ⟨hty, hs⟩
      have hassert : assert (decide (mem.p_type = MemoryType.kTypeAllocated)
          || decide (mem.p_type = MemoryType.kTypePhysical)) = Except.error Err.assertion := by
        simp [assert, hc]
      simp only [cloneNode, get_eq hm, bind_okE, Space.construct, if_neg h1, if_pos h2, hmem,
        hassert, bind_errE]
    · have hs' : ¬ (m.flags &&& kFlagShareOnFork ≠ 0) := hs
      have h2 : ¬ (m.type = MappingType.kTypeMemory ∧ m.flags &&& kFlagShareOnFork ≠ 0) :=
        fun h => hs' h.2
      by_cases hal : mem.p_type = MemoryType.kTypeAllocated
      · have hlen : mem.p_physicalPages.length = 0 := by
          rcases hc with hc | hc
          · exact absurd hal hc
          · exact hc
        have hassert : assert (decide (mem.p_type = MemoryType.kTypeAllocated)) =
            Except.ok () := by
          simp [assert, hal]
        have hmake : e.makeCopyOnWrite mem.p_physicalPages.length m.memoryRegion =
            Except.error Err.assertion := by
          simp [Env.makeCopyOnWrite, Memory.resize, hlen, assert, bind_errE]
        simp only [cloneNode, get_eq hm, bind_okE, Space.construct, if_neg h1, if_neg h2,
          if_pos hty, hmem, hassert, hmake, bind_errE]
      · have hassert : assert (decide (mem.p_type = MemoryType.kTypeAllocated)) =
            Except.error Err.assertion := by
          simp [assert, hal]
        simp only [cloneNode, get_eq hm, bind_okE, Space.construct, if_neg h1, if_neg h2,
          if_pos hty, hmem, hassert, bind_errE]

theorem Asserting.still_stops {c0 : Nat → Option Mapping} {e0 : Env} {n0 sps dps : Nat} {S V : List Nat}
    {d : Space} {e : Env} (hw : Walk c0 e0 n0 sps dps S V d e) {m : Mapping}
    (ha : Asserting e0 m) : Asserting e m := by
  rcases ha with h | ⟨hty, k, mem, hr, hkn, hk, hcase⟩
  · exact Or.inl h
  · exact Or.inr ⟨hty, k, mem, hr, lt_of_lt_of_le hkn hw.mem_next, (hw.mem_old k hkn).trans hk,
      hcase⟩

/-- The walk of `cloneRecursive` through a subtree whose mappings are ones
that it can clone or ones at which it stops: it visits the subtree in
pre-order and completes when all of them can be cloned, and it stops at an
assertion otherwise. -/
theorem cloneRecursive_outcome {c0 : Nat → Option Mapping} {e0 : Env}
    {n0 sps dps lo hi full : Nat}
    {S : List Nat} (hfresh : ∀ i ∈ S, i < n0) (hcov : Covers c0 lo S hi) (hhi : hi < wordMod)
    (hfuel : S.length ≤ full) :
    ∀ (t : Tree) (par : Ptr) (fuel : Nat) (V : List Nat) (d : Space) (e : Env),
      Shape c0 t par → t.height ≤ fuel → (∀ x ∈ t.toList, x ∈ S ∧ x ∉ V) → t.toList.Nodup →
      (∀ x ∈ t.toList, ∀ m0, c0 x = some m0 → Forkable e0 m0 ∨ Asserting e0 m0) →
      Walk c0 e0 n0 sps dps S V d e →
      Outcome (match t.root with
        | some l => cloneRecursive full sps fuel d e l
        | none => Except.ok (d, e))
        (fun r => Walk c0 e0 n0 sps dps S (V ++ t.preorder) r.1 r.2 ∧
          ∀ x ∈ t.toList, ∀ m0, c0 x = some m0 → Forkable e0 m0) := by
  intro t
  induction t with
  | nil =>
    intro par fuel V d e _ _ _ _ _ hw
    simp only [Tree.root, Tree.preorder, List.append_nil]
    exact ⟨hw, fun x hx => (by cases hx)⟩
  | node L i R ihL ihR =>
    intro par fuel V d e hsh hh hmem hnd hkind hw
    obtain ⟨k, rfl⟩ : ∃ k, fuel = k + 1 := ⟨fuel - 1, by simp [Tree.height] at hh; omega⟩
    have hhL : L.height ≤ k := by simp [Tree.height] at hh; omega
    have hhR : R.height ≤ k := by simp [Tree.height] at hh; omega
    rw [Shape_node] at hsh
    obtain ⟨m0, hm0, -, hl0, hr0, hshL, hshR⟩ := hsh
    have hiT : i ∈ (Tree.node L i R).toList := by simp [Tree.toList]
    have hiS := hmem i hiT
    simp only [Tree.toList, List.nodup_append, List.nodup_cons, List.mem_cons] at hnd
    obtain ⟨hndL, ⟨hiR, hndR⟩, hdisj⟩ := hnd
    simp only [root_node]
    rw [cloneRecursive_succ]
    rcases hkind i hiT m0 hm0 with hf | ha
    · have hnode : ∀ m, c0 i = some m → Forkable e0 m := by
        intro m hm
        rw [hm0] at hm
        cases hm
        exact hf
      refine Outcome.chain (Outcome.of_returns
        (cloneNode_step hfresh hcov hhi hnode hfuel hw hiS.1 hiS.2)) ?_
      rintro ⟨d1, e1⟩ hw1
      dsimp only at hw1 ⊢
      obtain ⟨m1, hc1, hl1, hr1⟩ :=
        hw1.kept_links (List.mem_append_right _ (List.mem_singleton_self i)) hm0
      rw [cloneChildren_eq, get_eq hc1, bind_okE, hl1, hl0]
      have hmemL : ∀ x ∈ L.toList, x ∈ S ∧ x ∉ V ++ [i] := by
        intro x hx
        have := hmem x (by simp [Tree.toList, hx])
        refine ⟨this.1, fun h => ?_⟩
        rcases List.mem_append.mp h with h | h
        · exact this.2 h
        · rw [List.mem_singleton] at h
          exact hdisj hx (h ▸ List.mem_cons_self _ _)
      have hkindL : ∀ x ∈ L.toList, ∀ m, c0 x = some m → Forkable e0 m ∨ Asserting e0 m :=
        fun x hx => hkind x (by simp [Tree.toList, hx])
      have hkindR : ∀ x ∈ R.toList, ∀ m, c0 x = some m → Forkable e0 m ∨ Asserting e0 m :=
        fun x hx => hkind x (by simp [Tree.toList, hx])
      refine Outcome.chain (ihL (some i) k (V ++ [i]) d1 e1 hshL hhL hmemL hndL hkindL hw1) ?_
      rintro ⟨d2, e2⟩ ⟨hw2, hfL⟩
      dsimp only at hw2 ⊢
      obtain ⟨m2, hc2, hl2, hr2⟩ := hw2.kept_links
        (List.mem_append_left _ (List.mem_append_right _ (List.mem_singleton_self i))) hm0
      rw [get_eq hc2, bind_okE, hr2, hr0]
      have hmemR : ∀ x ∈ R.toList, x ∈ S ∧ x ∉ V ++ [i] ++ L.preorder := by
        intro x hx
        have := hmem x (by simp [Tree.toList, hx])
        refine ⟨this.1, fun h => ?_⟩
        rcases List.mem_append.mp h with h | h
        · rcases List.mem_append.mp h with h | h
          · exact this.2 h
          · rw [List.mem_singleton] at h
            exact hiR (h ▸ hx)
        · exact hdisj ((Tree.mem_preorder L x).mp h) (List.mem_cons_of_mem _ hx)
      refine (ihR (some i) k (V ++ [i] ++ L.preorder) d2 e2 hshR hhR hmemR hndR hkindR
        hw2).relax ?_
      rintro r ⟨hr, hfR⟩
      refine ⟨?_, fun x hx m hm => ?_⟩
      · simpa only [Tree.preorder, List.append_assoc, List.singleton_append, List.cons_append,
          List.nil_append] using hr
      · simp only [Tree.toList, List.mem_append, List.mem_cons] at hx
        rcases hx with hx | rfl | hx
        · exact hfL x hx m hm
        · exact hnode m hm
        · exact hfR x hx m hm
    · have hm : d.cells i = some m0 := (hw.unvisited i hiS.1 hiS.2).trans hm0
      rw [cloneNode_asserting hm (Asserting.still_stops hw ha), bind_errE]
      rfl

/-- On an address space whose mappings tile a range and are ones that
`cloneRecursive` can clone or ones at which it stops, `fork` stops at an
assertion as soon as one mapping is of the second kind. -/
theorem fork_stops {fuel : Nat} {s : Space} {e : Env} {T : Tree} {lo hi : Nat}
    (hT : TreeAt s T) (hcov : Covers s.cells lo T.toList hi) (hhi : hi < wordMod)
    (hfresh : ∀ i ∈ T.toList, i < s.next)
    (hkind : ∀ i ∈ T.toList, ∀ m, s.cells i = some m → Forkable e m ∨ Asserting e m)
    (hfuel : T.toList.length ≤ fuel)
    (hbad : ∃ i ∈ T.toList, ∃ m, s.cells i = some m ∧ Asserting e m) :
    fork fuel s e = Except.error Err.assertion := by
  obtain ⟨hroot, hsh, hnd⟩ := hT
  cases T with
  | nil =>
    obtain ⟨i, hi, -⟩ := hbad
    cases hi
  | node L i R =>
    have hw0 : Walk s.cells e s.next s.p_pageSpace e.nextPageSpace (Tree.node L i R).toList []
        (Space.mk s.cells s.next none e.nextPageSpace)
        { e with nextPageSpace := e.nextPageSpace + 1 } :=
      ⟨rfl, rfl, fun _ h => (by cases h), List.nodup_nil, fun _ _ _ => rfl,
        ⟨Tree.nil, ValidTree.nil_root rfl, fun _ h => (by cases h), fun _ h => (by cases h)⟩,
        fun _ _ => rfl, le_refl _, by simp⟩
    have hrec := cloneRecursive_outcome hfresh hcov hhi hfuel (Tree.node L i R) none fuel []
      _ _ hsh ((height_le_length _).trans hfuel) (fun x hx => ⟨hx, fun h => (by cases h)⟩) hnd
      hkind hw0
    simp only [root_node, List.nil_append] at hrec
    have hr : s.p_root = some i := hroot
    have hstop := hrec.stops (fun r hr => by
      obtain ⟨j, hj, m, hm, ha⟩ := hbad
      exact ha.not_forkable (hr.2 j hj m hm))
    unfold fork
    simp only [hr, deref, bind_okE, hstop, bind_errE]

/-! ### The mappings of the two spaces after `fork` -/

theorem Covers.of_segs {c c' : Nat → Option Mapping} {l : List Nat} :
    ∀ {l' : List Nat} {lo hi : Nat}, l'.map (seg c') = l.map (seg c) → Covers c lo l hi →
      Covers c' lo l' hi := by
  induction l with
  | nil =>
    intro l' lo hi h hc
    cases l' with
    | nil => exact hc
    | cons j l'' => cases h
  | cons i l ih =>
    intro l' lo hi h hc
    cases l' with
    | nil => cases h
    | cons j l'' =>
      simp only [List.map_cons, List.cons.injEq] at h
      obtain ⟨h1, h2⟩ := h
      have hb : baseOf c' j = baseOf c i := congrArg (fun x => x.1) h1
      have hl : lengthOf c' j = lengthOf c i := congrArg (fun x => x.2.1) h1
      obtain ⟨g1, g2, g3⟩ := hc
      refine ⟨hb.trans g1, hl ▸ g2, ?_⟩
      have he : endOf c' j = endOf c i := by simp only [endOf, hb, hl]
      rw [he]
      exact ih h2 g3

/-- After the walk, the destination tree tiles the range of the source tree
with mappings that are older than the next allocation. -/
theorem Walk.child_tree {c0 : Nat → Option Mapping} {e0 : Env} {n0 sps dps lo hi : Nat}
    {T : Tree} {d : Space} {e : Env} (hcov : Covers c0 lo T.toList hi)
    (hw : Walk c0 e0 n0 sps dps T.toList T.preorder d e) :
    ∃ Dt, ValidTree d Dt ∧ Covers d.cells lo Dt.toList hi ∧
      Dt.toList.length = T.toList.length ∧
      Dt.toList.map (layout d.cells) = T.toList.map (layout c0) ∧
      (∀ j ∈ Dt.toList, j < d.next ∧ ∃ i ∈ T.toList, Copied c0 e0 d e i j) ∧
      (∀ i ∈ T.toList, ∃ j ∈ Dt.toList, Copied c0 e0 d e i j) := by
  obtain ⟨Dt, hv, hD1, hD2⟩ := hw.dest
  have hD1' : ∀ j ∈ Dt.toList, j < d.next ∧ ∃ i ∈ T.toList, Copied c0 e0 d e i j := by
    intro j hj
    obtain ⟨-, b1, i, hi, hcp⟩ := hD1 j hj
    exact ⟨b1, i, (Tree.mem_preorder T i).mp hi, hcp⟩
  have hD2' : ∀ i ∈ T.toList, ∃ j ∈ Dt.toList, Copied c0 e0 d e i j :=
    fun i hi => hD2 i ((Tree.mem_preorder T i).mpr hi)
  have hposS : ∀ i ∈ T.toList, 0 < lengthOf c0 i := fun i hi => (hcov.mem hi).2.2
  have hposD : ∀ j ∈ Dt.toList, 0 < lengthOf d.cells j := by
    intro j hj
    obtain ⟨-, i, hi, hcp⟩ := hD1' j hj
    have := congrArg (fun x => x.2.1) hcp.layout_eq
    simp only [layout] at this
    rw [this]
    exact hposS i hi
  have hlay : Dt.toList.map (layout d.cells) = T.toList.map (layout c0) := by
    refine sorted_ext (Covers.layout_sorted hv.2.2.2.1 hposD)
      (Covers.layout_sorted hcov.ordered hposS) (fun x => ?_)
    simp only [List.mem_map]
    constructor
    · rintro ⟨j, hj, rfl⟩
      obtain ⟨-, i, hi, hcp⟩ := hD1' j hj
      exact ⟨i, hi, hcp.layout_eq.symm⟩
    · rintro ⟨i, hi, rfl⟩
      obtain ⟨j, hj, hcp⟩ := hD2' i hi
      exact ⟨j, hj, hcp.layout_eq⟩
  refine ⟨Dt, hv, Covers.of_segs (seg_of_layout hlay) hcov, ?_, hlay, hD1', hD2'⟩
  have := congrArg List.length hlay
  simpa only [List.length_map] using this

theorem Forkable.still_clones {c0 : Nat → Option Mapping} {e0 : Env} {n0 sps dps : Nat} {S V : List Nat}
    {d : Space} {e : Env} (hw : Walk c0 e0 n0 sps dps S V d e) {m : Mapping}
    (hf : Forkable e0 m) : Forkable e m := by
  rcases hf with hty | ⟨hty, k, mem, hr, hkn, hk, hrest⟩
  · exact Or.inl hty
  · exact Or.inr ⟨hty, k, mem, hr, lt_of_lt_of_le hkn hw.mem_next,
      (hw.mem_old k hkn).trans hk, hrest⟩

/-- After the walk, a source mapping is one that `cloneRecursive` can clone,
unless it was broken to copy-on-write: then its `Memory` object is of type
copy-on-write. -/
theorem Copied.parent_kind {c0 : Nat → Option Mapping} {e0 : Env} {n0 sps dps : Nat}
    {S V : List Nat} {d : Space} {e : Env} {i j : Nat} (hw : Walk c0 e0 n0 sps dps S V d e)
    (hcp : Copied c0 e0 d e i j) {m0 : Mapping} (hm0 : c0 i = some m0) (hf : Forkable e0 m0) :
    ∃ m, d.cells i = some m ∧ (Forkable e m ∨ Asserting e m) ∧ (m0.breaks → Recursive e m) := by
  obtain ⟨m0', a, h1, -, h3, -, h5⟩ := hcp
  rw [hm0] at h1
  cases h1
  refine ⟨_, h3, ?_⟩
  by_cases hb : m0.breaks
  · obtain ⟨g1, g2, -⟩ := h5 hb
    have hrec : Recursive e (sourceCell m0 a) := by
      rw [sourceCell, if_pos hb]
      exact ⟨hb, a, _, rfl, by omega, g2, rfl⟩
    exact ⟨Or.inr hrec.asserting, fun _ => hrec⟩
  · rw [sourceCell, if_neg hb]
    exact ⟨Or.inl (Forkable.still_clones hw hf), fun h => absurd h hb⟩

/-- After the walk, the copy of a mapping has no flag set; it is one that
`cloneRecursive` can clone or one at which it stops, and its `Memory` object
is of type copy-on-write when the mapping was broken to copy-on-write. -/
theorem Copied.child_kind {c0 : Nat → Option Mapping} {e0 : Env} {n0 sps dps : Nat}
    {S V : List Nat} {d : Space} {e : Env} {i j : Nat} (hw : Walk c0 e0 n0 sps dps S V d e)
    (hcp : Copied c0 e0 d e i j) {m0 : Mapping} (hm0 : c0 i = some m0) (hf : Forkable e0 m0) :
    ∃ m, d.cells j = some m ∧ m.flags = 0 ∧ ¬ m.shared ∧ m.type = m0.type ∧
      (m0.type = MappingType.kTypeMemory → m0.shared → m.memoryRegion = m0.memoryRegion) ∧
      (Forkable e m ∨ Asserting e m) ∧ (m0.breaks → Recursive e m) := by
  obtain ⟨m0', a, h1, -, -, h4, h5⟩ := hcp
  rw [hm0] at h1
  cases h1
  cases hc : d.cells j with
  | none => rw [hc] at h4; cases h4
  | some m =>
    rw [hc] at h4
    have hk : m.keys = (cloneCell m0 a).keys := Option.some.inj h4
    have hfl : m.flags = 0 := by
      have h : m.flags = (cloneCell m0 a).flags := congrArg Keys.flags hk
      rw [h]
      unfold cloneCell
      split <;> rfl
    have hns : ¬ m.shared := by
      unfold Mapping.shared
      rw [hfl]
      simp
    have hty : m.type = m0.type := by
      have h : m.type = (cloneCell m0 a).type := congrArg Keys.type hk
      rw [h]
      exact (cloneCell_fields m0 a).2.2.1
    have hlen : m.length = m0.length := by
      have h : m.length = (cloneCell m0 a).length := congrArg Keys.length hk
      rw [h]
      exact (cloneCell_fields m0 a).2.1
    have hreg : m.memoryRegion = (cloneCell m0 a).memoryRegion := congrArg Keys.memoryRegion hk
    refine ⟨m, rfl, hfl, hns, hty, ?_⟩
    rcases hf with hh | ⟨hmem, k, mem, hr, hkn, hkm, hslots, hsh, hbr⟩
    · refine ⟨fun hs => ?_, Or.inl (Or.inl (hty.trans hh)), fun hb => ?_⟩
      · rw [hh] at hs
        cases hs
      · have := hb.1
        rw [hh] at this
        cases this
    · have hnh : ¬ m0.type = MappingType.kTypeHole := by rw [hmem]; decide
      by_cases hs : m0.shared
      · have hreg' : m.memoryRegion = some k := by
          rw [hreg, cloneCell, if_neg hnh]
          show (if m0.shared then m0.memoryRegion else some (a + 1)) = some k
          rw [if_pos hs, hr]
        refine ⟨fun _ _ => hreg'.trans hr.symm, ?_, fun hb => absurd hs hb.2⟩
        have hkm' : e.memories k = some mem := (hw.mem_old k hkn).trans hkm
        have hkn' : k < e.nextMemory := lt_of_lt_of_le hkn hw.mem_next
        by_cases hgood : mem.p_type = MemoryType.kTypeAllocated ∧ 0 < mem.p_physicalPages.length
        · exact Or.inl (Or.inr ⟨hty.trans hmem, k, mem, hreg', hkn', hkm', hlen ▸ hslots,
            fun h => absurd h hns, fun _ => hgood⟩)
        · refine Or.inr (Or.inr ⟨hty.trans hmem, k, mem, hreg', hkn', hkm', Or.inr ⟨hns, ?_⟩⟩)
          by_cases hal : mem.p_type = MemoryType.kTypeAllocated
          · exact Or.inr (by
              have : ¬ 0 < mem.p_physicalPages.length := fun h => hgood ⟨hal, h⟩
              omega)
          · exact Or.inl hal
      · have hb : m0.breaks := ⟨hmem, hs⟩
        obtain ⟨g1, -, g3⟩ := h5 hb
        have hreg' : m.memoryRegion = some (a + 1) := by
          rw [hreg, cloneCell, if_neg hnh]
          show (if m0.shared then m0.memoryRegion else some (a + 1)) = some (a + 1)
          rw [if_neg hs]
        have hrec : Recursive e m :=
          ⟨⟨hty.trans hmem, hns⟩, a + 1, _, hreg', by omega, g3, rfl⟩
        exact ⟨fun _ h => absurd h hs, Or.inr hrec.asserting, fun _ => hrec⟩

theorem seg_of_rangePerms {c c' : Nat → Option Mapping} {l l' : List Nat}
    (h : l.map (rangePerms c) = l'.map (rangePerms c')) : l.map (seg c) = l'.map (seg c') := by
  have := congrArg (List.map (fun x : Nat × Nat × MappingType × Bool × Bool =>
    (x.1, x.2.1, x.2.2.1))) h
  simpa only [List.map_map] using this

/-- The two spaces that `fork` leaves behind: the source keeps its tree and
its tiling, the new space has a tree that tiles the same range, and the
mappings of both are ones that `cloneRecursive` can clone or ones at which it
stops. -/
theorem fork_both_sides {fuel : Nat} {s : Space} {e : Env} {T : Tree} {lo hi : Nat}
    (hT : TreeAt s T) (hcov : Covers s.cells lo T.toList hi) (hlo : lo < hi) (hhi : hi < wordMod)
    (hfresh : ∀ i ∈ T.toList, i < s.next)
    (hready : ∀ i ∈ T.toList, ∀ m, s.cells i = some m → Forkable e m)
    (hfuel : T.toList.length ≤ fuel) :
    Returns (fork fuel s e) (fun r =>
      Walk s.cells e s.next s.p_pageSpace e.nextPageSpace T.toList T.preorder r.2.1 r.2.2 ∧
      r.1 = sourceAfter s r.2.1 ∧
      (TreeAt r.1 T ∧ Covers r.1.cells lo T.toList hi ∧ (∀ i ∈ T.toList, i < r.1.next) ∧
        (∀ i ∈ T.toList, ∀ m, r.1.cells i = some m → Forkable r.2.2 m ∨ Asserting r.2.2 m) ∧
        (∀ i ∈ T.toList, ∀ m0, s.cells i = some m0 → m0.breaks →
          ∃ m, r.1.cells i = some m ∧ Recursive r.2.2 m)) ∧
      ∃ Dt, ValidTree r.2.1 Dt ∧ Covers r.2.1.cells lo Dt.toList hi ∧
        Dt.toList.length = T.toList.length ∧
        Dt.toList.map (layout r.2.1.cells) = T.toList.map (layout s.cells) ∧
        (∀ j ∈ Dt.toList, j < r.2.1.next) ∧
        (∀ j ∈ Dt.toList, ∀ m, r.2.1.cells j = some m → Forkable r.2.2 m ∨ Asserting r.2.2 m) ∧
        (∀ j ∈ Dt.toList, ∃ i ∈ T.toList, Copied s.cells e r.2.1 r.2.2 i j) ∧
        (∀ i ∈ T.toList, ∃ j ∈ Dt.toList, Copied s.cells e r.2.1 r.2.2 i j)) := by
  refine (fork_walk hT hcov hlo hhi hfresh hready hfuel).weaken ?_
  rintro ⟨s', d, e'⟩ ⟨hw, hs'⟩
  dsimp only at hw hs' ⊢
  subst hs'
  obtain ⟨Dt, hv, hcovD, hlenD, hlay, hD1, hD2⟩ := hw.child_tree hcov
  obtain ⟨hsh, hrp⟩ := hw.source_kept hT.2.1
  refine ⟨hw, rfl, ⟨⟨hT.1, hsh, hT.2.2⟩, Covers.of_segs (seg_of_rangePerms hrp) hcov, ?_, ?_, ?_⟩,
    Dt, hv, hcovD, hlenD, hlay, fun j hj => (hD1 j hj).1, ?_, fun j hj => (hD1 j hj).2, hD2⟩
  · intro i hi
    show i < d.next
    have h1 := hw.next_eq
    have h2 := hfresh i hi
    omega
  · intro i hi m hm
    obtain ⟨j, -, hcp⟩ := hD2 i hi
    obtain ⟨m0, hm0⟩ := hcov.some_cell hi
    obtain ⟨m', hm', hk, -⟩ := hcp.parent_kind hw hm0 (hready i hi m0 hm0)
    have hm2 : d.cells i = some m := hm
    rw [hm'] at hm2
    cases hm2
    exact hk
  · intro i hi m0 hm0 hb
    obtain ⟨j, -, hcp⟩ := hD2 i hi
    obtain ⟨m', hm', -, hrec⟩ := hcp.parent_kind hw hm0 (hready i hi m0 hm0)
    exact ⟨m', hm', hrec hb⟩
  · intro j hj m hm
    obtain ⟨-, i, hi, hcp⟩ := hD1 j hj
    obtain ⟨m0, hm0⟩ := hcov.some_cell hi
    obtain ⟨m', hm', -, -, -, -, hk, -⟩ := hcp.child_kind hw hm0 (hready i hi m0 hm0)
    rw [hm'] at hm
    cases hm
    exact hk

/-- After a `fork` that broke a mapping to copy-on-write, a further `fork` of
the source space or of the new space stops at an assertion. -/
theorem fork_again_stops {fuel fuel' : Nat} {s : Space} {e : Env} {T : Tree} {lo hi : Nat}
    (hT : TreeAt s T) (hcov : Covers s.cells lo T.toList hi) (hlo : lo < hi) (hhi : hi < wordMod)
    (hfresh : ∀ i ∈ T.toList, i < s.next)
    (hready : ∀ i ∈ T.toList, ∀ m, s.cells i = some m → Forkable e m)
    (hfuel : T.toList.length ≤ fuel) (hfuel' : T.toList.length ≤ fuel')
    (hbreak : ∃ i ∈ T.toList, ∃ m, s.cells i = some m ∧ m.breaks) :
    Returns (fork fuel s e) (fun r =>
      fork fuel' r.1 r.2.2 = Except.error Err.assertion ∧
      fork fuel' r.2.1 r.2.2 = Except.error Err.assertion) := by
  refine (fork_both_sides hT hcov hlo hhi hfresh hready hfuel).weaken ?_
  rintro ⟨s', d, e'⟩ ⟨hw, -, ⟨hT', hcov', hfresh', hkind', hrec'⟩, Dt, hv, hcovD, hlenD, -, hfreshD,
    hkindD, hD1, hD2⟩
  dsimp only at *
  obtain ⟨i, hi, m0, hm0, hb⟩ := hbreak
  constructor
  · obtain ⟨m, hm, hrec⟩ := hrec' i hi m0 hm0 hb
    exact fork_stops hT' hcov' hhi hfresh' hkind' hfuel' ⟨i, hi, m, hm, hrec.asserting⟩
  · obtain ⟨j, hj, hcp⟩ := hD2 i hi
    obtain ⟨m, hm, -, -, -, -, -, hrec⟩ := hcp.child_kind hw hm0 (hready i hi m0 hm0)
    exact fork_stops ⟨hv.1, hv.2.1, hv.2.2.1⟩ hcovD hhi hfreshD hkindD (hlenD ▸ hfuel')
      ⟨j, hj, m, hm, (hrec hb).asserting⟩

/-- The copy of a mapping has the range and the kind of the mapping. -/
theorem Copied.seg_eq {c0 : Nat → Option Mapping} {e0 : Env} {d : Space} {e : Env} {i j : Nat}
    (h : Copied c0 e0 d e i j) : seg d.cells j = seg c0 i := by
  have := h.layout_eq
  simp only [layout, Prod.mk.injEq] at this
  simp only [seg, this.1, this.2.1, this.2.2.1]

/-! ### Scenario E, forked again -/

set_option maxRecDepth 100000 in
theorem threeSlotFork_eq :
    fork 16 theThreeSlotMap.1 theThreeSlotMap.2.1 = Except.ok theThreeSlotFork :=
  eq_ok_of_returns (fork 16 theThreeSlotMap.1 theThreeSlotMap.2.1)
    (emptySpace, emptySpace, threeSlotEnv) (by decide!)

set_option maxRecDepth 100000 in
/-- The mapping of `theThreeSlotMap` (object 1) is a memory mapping without
share-on-fork. -/
theorem threeSlot_breaks :
    ∃ i ∈ oneMapTree.toList, ∃ m, theThreeSlotMap.1.cells i = some m ∧ m.breaks := by
  have hs : (theThreeSlotMap.1.cells 1).isSome = true := by decide!
  obtain ⟨m, hm⟩ := Option.isSome_iff_exists.mp hs
  have hty : typeOf theThreeSlotMap.1.cells 1 = MappingType.kTypeMemory := by decide!
  have hfl : fieldOf theThreeSlotMap.1.cells Mapping.flags 1 1 = 0 := by decide!
  rw [show typeOf theThreeSlotMap.1.cells 1 = m.type from fieldOf_some hm _ _] at hty
  rw [show fieldOf theThreeSlotMap.1.cells Mapping.flags 1 1 = m.flags from
    fieldOf_some hm _ _] at hfl
  refine ⟨1, by decide, m, hm, hty, ?_⟩
  unfold Mapping.shared
  rw [hfl]
  decide

set_option maxRecDepth 100000 in
/-- The mappings of the address space `theSharedMap` can be cloned. -/
theorem shared_forkable :
    ∀ i ∈ oneMapTree.toList, ∀ m, theSharedMap.1.cells i = some m →
      Forkable theSharedMap.2.1 m := by
  intro i hi m hm
  have h1 : i = 1 ∨ i = 2 := by simpa [oneMapTree, Tree.toList] using hi
  rcases h1 with rfl | rfl
  · right
    have hty : typeOf theSharedMap.1.cells 1 = MappingType.kTypeMemory := by decide!
    have hmr : fieldOf theSharedMap.1.cells Mapping.memoryRegion none 1 = some 0 := by decide!
    have hlen : lengthOf theSharedMap.1.cells 1 = 0x3000 := by decide!
    have hfl : fieldOf theSharedMap.1.cells Mapping.flags 0 1 &&& kFlagShareOnFork ≠ 0 := by
      decide!
    rw [show typeOf theSharedMap.1.cells 1 = m.type from fieldOf_some hm _ _] at hty
    rw [show fieldOf theSharedMap.1.cells Mapping.memoryRegion none 1 = m.memoryRegion from
      fieldOf_some hm _ _] at hmr
    rw [show lengthOf theSharedMap.1.cells 1 = m.length from fieldOf_some hm _ _] at hlen
    rw [show fieldOf theSharedMap.1.cells Mapping.flags 0 1 = m.flags from
      fieldOf_some hm _ _] at hfl
    refine ⟨hty, 0, threeSlotMemory, hmr, by decide!, by decide!, ?_, fun _ => Or.inl rfl,
      fun hns => absurd hfl hns⟩
    rw [hlen]
    decide
  · left
    have hty : typeOf theSharedMap.1.cells 2 = MappingType.kTypeHole := by decide!
    rw [show typeOf theSharedMap.1.cells 2 = m.type from fieldOf_some hm _ _] at hty
    exact hty

/-! ### What `checkInvariant` returns -/

theorem isBlack_root {s : Space} {t : Tree} {par : Ptr} (h : Shape s.cells t par) :
    isBlack s t.root = Except.ok (decide (blackPtr s.cells t.root)) := by
  cases t with
  | nil => rfl
  | node l i r =>
    rw [Shape_node] at h
    obtain ⟨m, hm, -⟩ := h
    simp only [root_node, isBlack, get_eq hm, bind_okE, blackPtr, colorOf, fieldOf_some hm]

theorem checked_nil (c : Nat → Option Mapping) : checked c Tree.nil = true := rfl

theorem blackHeight_nil (c : Nat → Option Mapping) : blackHeight c Tree.nil = 0 := rfl

set_option maxHeartbeats 4000000 in
/-- On a subtree of the heap, `checkInvariant(mapping, ...)` returns, and it
returns true exactly when all its tests pass (`checked`); it then reports the
number of black nodes on the leftmost path, the first and the last node. -/
theorem checkInvariantAt_eq (s : Space) :
    ∀ (t : Tree) (fuel : Nat) (par : Ptr), t.height ≤ fuel → Shape s.cells t par →
      ∀ l i r, t = Tree.node l i r →
        checkInvariantAt fuel s i = Except.ok
          (if checked s.cells t = true then some (blackHeight s.cells t, l.minId i, r.maxId i)
            else none) := by
  intro t
  induction t with
  | nil => intro _ _ _ _ l i r e; cases e
  | node l i r ihl ihr =>
    intro fuel par hf hS l' i' r' e
    cases e
    obtain ⟨f, rfl⟩ : ∃ f, fuel = f + 1 := ⟨fuel - 1, by simp only [Tree.height] at hf; omega⟩
    have hfl : l.height ≤ f := by simp only [Tree.height] at hf; omega
    have hfr : r.height ≤ f := by simp only [Tree.height] at hf; omega
    rw [Shape_node] at hS
    obtain ⟨m, hm, hmp, hml, hmr, hSl, hSr⟩ := hS
    have hcomp : computeHole s m = Except.ok (wantedHole s.cells m) :=
      computeHole_eq
        (fun j hj => by
          obtain ⟨y, hy, -⟩ := hSl.root_alive (hml ▸ hj)
          exact ⟨y, hy⟩)
        (fun j hj => by
          obtain ⟨y, hy, -⟩ := hSr.root_alive (hmr ▸ hj)
          exact ⟨y, hy⟩)
    have hwant : wantedHole s.cells m = max (ownHole s.cells i)
        (max (largestHoleAt s.cells l.root) (largestHoleAt s.cells r.root)) := by
      rw [wantedHole, hml, hmr, ownHole_some hm]
    have hlh : largestHoleAt s.cells (some i) = m.largestHole := fieldOf_some hm _ _
    have hcol : colorOf s.cells i = m.color := fieldOf_some hm _ _
    have hbi : baseOf s.cells i = m.baseAddress := fieldOf_some hm _ _
    have hli : lengthOf s.cells i = m.length := fieldOf_some hm _ _
    have hlo : fieldOf s.cells Mapping.lowerPtr none i = m.lowerPtr := fieldOf_some hm _ _
    have hhi : fieldOf s.cells Mapping.higherPtr none i = m.higherPtr := fieldOf_some hm _ _
    have hbl := isBlack_root hSl
    have hbr := isBlack_root hSr
    have hleft : ∀ l1 j l2, l = Tree.node l1 j l2 →
        checkInvariantAt f s j = Except.ok
          (if checked s.cells l = true then some (blackHeight s.cells l, l1.minId j, l2.maxId j)
            else none) ∧
        ∃ pm, s.cells (l2.maxId j) = some pm ∧ baseOf s.cells (l2.maxId j) = pm.baseAddress ∧
          lengthOf s.cells (l2.maxId j) = pm.length ∧
          fieldOf s.cells Mapping.higherPtr none (l2.maxId j) = pm.higherPtr := by
      intro l1 j l2 e
      subst e
      obtain ⟨pm, hpm⟩ := hSl.mem_alive (maxId_mem l1 l2 j)
      exact ⟨ihl f (some i) hfl hSl l1 j l2 rfl, pm, hpm, fieldOf_some hpm _ _,
        fieldOf_some hpm _ _, fieldOf_some hpm _ _⟩
    have hright : ∀ r1 j r2, r = Tree.node r1 j r2 →
        checkInvariantAt f s j = Except.ok
          (if checked s.cells r = true then some (blackHeight s.cells r, r1.minId j, r2.maxId j)
            else none) ∧
        ∃ sm, s.cells (r1.minId j) = some sm ∧ baseOf s.cells (r1.minId j) = sm.baseAddress ∧
          fieldOf s.cells Mapping.lowerPtr none (r1.minId j) = sm.lowerPtr := by
      intro r1 j r2 e
      subst e
      obtain ⟨sm, hsm⟩ := hSr.mem_alive (minId_mem r1 r2 j)
      exact ⟨ihr f (some i) hfr hSr r1 j r2 rfl, sm, hsm, fieldOf_some hsm _ _,
        fieldOf_some hsm _ _⟩
    rw [checkInvariantAt]
    simp only [get_eq hm, bind_okE, hcomp, hml, hmr, hbl, hbr]
    rw [checked, blackHeight, hlh, hcol, ← hwant]
    by_cases hA : m.largestHole = wantedHole s.cells m
    swap
    · simp [hA]
    by_cases hB : m.color = Color.kColorRed → blackPtr s.cells l.root ∧ blackPtr s.cells r.root
    swap
    · by_cases hred : m.color = Color.kColorRed
      · by_cases hlb : blackPtr s.cells l.root
        · have hrb : ¬ blackPtr s.cells r.root := fun h => hB (fun _ => ⟨hlb, h⟩)
          simp [hA, hB, hred, hlb, hrb]
        · simp [hA, hB, hred, hlb]
      · exact absurd (fun h => absurd h hred) hB
    have hBd : decide (m.color = Color.kColorRed →
        blackPtr s.cells l.root ∧ blackPtr s.cells r.root) = true := decide_eq_true hB
    rw [hBd]
    have hcolour : (m.color = Color.kColorRed ∧ blackPtr s.cells l.root ∧
        blackPtr s.cells r.root) ∨ ¬ m.color = Color.kColorRed := by
      by_cases hred : m.color = Color.kColorRed
      · exact Or.inl ⟨hred, hB hred⟩
      · exact Or.inr hred
    rcases hcolour with ⟨hred, hlb, hrb⟩ | hred
    on_goal 1 => simp only [hA, hred, hlb, hrb, not_true_eq_false, if_true, if_false,
      decide_True, decide_False, Bool.not_true, Bool.not_false, bind_okE, Bool.true_and,
      Bool.false_eq_true, ne_eq]
    on_goal 2 => simp only [hA, hred, not_true_eq_false, if_true, if_false,
      decide_True, decide_False, Bool.not_true, Bool.not_false, bind_okE, Bool.true_and,
      Bool.false_eq_true, ne_eq]
    all_goals
      cases l with
      | nil =>
        cases r with
        | nil =>
          simp only [root_nil, leftOK, rightOK, checked_nil, blackHeight_nil, Tree.minId,
            Tree.maxId, Bool.and_self, decide_True, if_true]
        | node r1 k r2 =>
          obtain ⟨hR, sm, hsm, e1, e2⟩ := hright r1 k r2 rfl
          by_cases hcr : checked s.cells (Tree.node r1 k r2) = true
          · simp only [root_nil, root_node, hR, hcr, if_true, bind_okE, get_eq hsm, leftOK,
              rightOK, Tree.minId, Tree.maxId, e1, e2, hbi, hli, hhi, hlo]
            clear * - hcr
            split_ifs <;> simp_all [checked_nil, blackHeight_nil] <;> omega
          · simp only [root_nil, root_node, hR, hcr, if_false, bind_okE, Bool.false_and,
              Bool.and_false, Bool.false_eq_true]
      | node l1 j l2 =>
        obtain ⟨hL, pm, hpm, d1, d2, d3⟩ := hleft l1 j l2 rfl
        by_cases hcl : checked s.cells (Tree.node l1 j l2) = true
        · cases r with
          | nil =>
            simp only [root_nil, root_node, hL, hcl, if_true, bind_okE, get_eq hpm, leftOK,
              rightOK, Tree.minId, Tree.maxId, d1, d2, d3, hbi, hli, hhi, hlo]
            clear * - hcl
            split_ifs <;> simp_all [checked_nil, blackHeight_nil] <;> omega
          | node r1 k r2 =>
            obtain ⟨hR, sm, hsm, e1, e2⟩ := hright r1 k r2 rfl
            by_cases hcr : checked s.cells (Tree.node r1 k r2) = true
            · simp only [root_nil, root_node, hL, hcl, hR, hcr, if_true, bind_okE, get_eq hpm,
                get_eq hsm, leftOK, rightOK, Tree.minId, Tree.maxId, d1, d2, d3, e1, e2, hbi,
                hli, hhi, hlo]
              clear * - hcl hcr
              split_ifs <;> simp_all [checked_nil, blackHeight_nil] <;> omega
            · simp only [root_nil, root_node, hL, hcl, hR, hcr, if_true, bind_okE, get_eq hpm,
                leftOK, rightOK, Tree.minId, Tree.maxId, d1, d2, d3, hbi, hli, hhi, hlo]
              clear * - hcl hcr
              split_ifs <;> simp_all [checked_nil, blackHeight_nil] <;> omega
        · simp only [root_node, hL, hcl, if_false, bind_okE, Bool.false_and,
            Bool.and_false, Bool.false_eq_true]

/-! ### The tests of `checkInvariant` as properties of the tree -/

theorem toList_head (t : Tree) :
    ∀ (j : Nat) (tail : List Nat), (t.toList ++ j :: tail).head? = some (t.minId j) := by
  induction t with
  | nil => intro j tail; rfl
  | node a x b iha _ =>
    intro j tail
    have := iha x (b.toList ++ j :: tail)
    simpa only [Tree.toList, Tree.minId, List.append_assoc, List.cons_append] using this

theorem toList_last (t : Tree) :
    ∀ (j : Nat) (init : List Nat), (init ++ j :: t.toList).getLast? = some (t.maxId j) := by
  induction t with
  | nil =>
    intro j init
    simp [Tree.toList, Tree.maxId]
  | node a x b _ ihb =>
    intro j init
    have := ihb x (init ++ j :: a.toList)
    simpa only [Tree.toList, Tree.maxId, List.append_assoc, List.cons_append] using this

theorem toList_getLast (l : Tree) (i : Nat) (P : Nat → Prop) :
    (∀ x ∈ l.toList.getLast?, P x) ↔ (∀ l1 j l2, l = Tree.node l1 j l2 → P (l.maxId i)) := by
  cases l with
  | nil =>
    simp [Tree.toList]
  | node a x b =>
    have h := toList_last b x a.toList
    simp only [Tree.toList, h, Option.mem_def, Option.some.injEq, forall_eq', Tree.maxId]
    constructor
    · intro hp _ _ _ _
      exact hp
    · intro hp
      exact hp a x b rfl

theorem toList_head_all (r : Tree) (i : Nat) (P : Nat → Prop) :
    (∀ y ∈ r.toList.head?, P y) ↔ (∀ r1 j r2, r = Tree.node r1 j r2 → P (r.minId i)) := by
  cases r with
  | nil =>
    simp [Tree.toList]
  | node a x b =>
    have h := toList_head a x b.toList
    simp only [Tree.toList, h, Option.mem_def, Option.some.injEq, forall_eq', Tree.minId]
    constructor
    · intro hp _ _ _ _
      exact hp
    · intro hp
      exact hp a x b rfl

/-- A relation chains the in-order sequence of a tree when it chains the
sequences of the two subtrees, holds between the last node of the left subtree
and the root, and holds between the root and the first node of the right
subtree. -/
theorem chain_node (R : Nat → Nat → Prop) (l r : Tree) (i : Nat) :
    List.Chain' R (Tree.node l i r).toList ↔
      List.Chain' R l.toList ∧ List.Chain' R r.toList ∧
      (∀ l1 j l2, l = Tree.node l1 j l2 → R (l.maxId i) i) ∧
      (∀ r1 j r2, r = Tree.node r1 j r2 → R i (r.minId i)) := by
  rw [← toList_getLast l i (fun x => R x i), ← toList_head_all r i (fun y => R i y)]
  simp only [Tree.toList]
  have e1 : List.Chain' R (l.toList ++ i :: r.toList) ↔
      List.Chain' R (l.toList ++ [i]) ∧ List.Chain' R (i :: r.toList) := List.chain'_split
  have e2 : List.Chain' R (l.toList ++ [i]) ↔
      List.Chain' R l.toList ∧ List.Chain' R [i] ∧
        ∀ x ∈ l.toList.getLast?, ∀ y ∈ [i].head?, R x y := List.chain'_append
  have e3 : List.Chain' R (i :: r.toList) ↔
      (∀ y ∈ r.toList.head?, R i y) ∧ List.Chain' R r.toList := List.chain'_cons'
  rw [e1, e2, e3]
  constructor
  · rintro ⟨⟨h1, -, h3⟩, h4, h5⟩
    exact ⟨h1, h5, fun x hx => h3 x hx i rfl, h4⟩
  · rintro ⟨h1, h2, h3, h4⟩
    refine ⟨⟨h1, List.chain'_singleton i, fun x hx y hy => ?_⟩, h4, h2⟩
    have hy' : i = y := by simpa using hy
    subst hy'
    exact h3 x hx

theorem blackCount_cons (c : Nat → Option Mapping) (l r : Tree) (i n : Nat) :
    BlackCount c (Tree.node l i r) n ↔
      if colorOf c i = Color.kColorBlack then
        0 < n ∧ BlackCount c l (n - 1) ∧ BlackCount c r (n - 1)
      else BlackCount c l n ∧ BlackCount c r n := by
  rw [BlackCount]

theorem blackHeight_cons (c : Nat → Option Mapping) (l r : Tree) (i : Nat) :
    blackHeight c (Tree.node l i r) =
      if colorOf c i = Color.kColorBlack then blackHeight c l + 1 else blackHeight c l := by
  rw [blackHeight]

theorem BlackCount.height_eq {c : Nat → Option Mapping} {t : Tree} {n : Nat}
    (h : BlackCount c t n) : n = blackHeight c t := by
  induction t generalizing n with
  | nil => exact h
  | node l i r ihl _ =>
    rw [blackCount_cons] at h
    rw [blackHeight_cons]
    by_cases hb : colorOf c i = Color.kColorBlack
    · rw [if_pos hb] at h ⊢
      have := ihl h.2.1
      omega
    · rw [if_neg hb] at h ⊢
      exact ihl h.1

theorem blackCount_node (c : Nat → Option Mapping) (l r : Tree) (i : Nat) :
    BlackCount c (Tree.node l i r) (blackHeight c (Tree.node l i r)) ↔
      BlackCount c l (blackHeight c l) ∧ BlackCount c r (blackHeight c r) ∧
      blackHeight c l = blackHeight c r := by
  rw [blackCount_cons, blackHeight_cons]
  by_cases hb : colorOf c i = Color.kColorBlack
  · simp only [if_pos hb, Nat.add_sub_cancel, Nat.succ_pos, true_and]
    constructor
    · rintro ⟨h1, h2⟩
      have := h2.height_eq
      exact ⟨h1, this ▸ h2, this⟩
    · rintro ⟨h1, h2, h3⟩
      exact ⟨h1, h3 ▸ h2⟩
  · simp only [if_neg hb]
    constructor
    · rintro ⟨h1, h2⟩
      have := h2.height_eq
      exact ⟨h1, this ▸ h2, this⟩
    · rintro ⟨h1, h2, h3⟩
      exact ⟨h1, h3 ▸ h2⟩

theorem leftOK_iff (c : Nat → Option Mapping) (l : Tree) (i : Nat) :
    leftOK c l i = true ↔
      (∀ l1 j l2, l = Tree.node l1 j l2 →
        add64 (baseOf c (l.maxId i)) (lengthOf c (l.maxId i)) ≤ baseOf c i) ∧
      (∀ l1 j l2, l = Tree.node l1 j l2 →
        fieldOf c Mapping.higherPtr none (l.maxId i) = some i ∧
        fieldOf c Mapping.lowerPtr none i = some (l.maxId i)) := by
  cases l with
  | nil => simp [leftOK]
  | node a x b =>
    simp only [leftOK, Bool.and_eq_true, decide_eq_true_eq]
    constructor
    · rintro ⟨⟨h1, h2⟩, h3⟩
      exact ⟨fun _ _ _ _ => h1, fun _ _ _ _ => ⟨h2, h3⟩⟩
    · rintro ⟨h1, h2⟩
      exact ⟨⟨h1 a x b rfl, (h2 a x b rfl).1⟩, (h2 a x b rfl).2⟩

theorem rightOK_iff (c : Nat → Option Mapping) (r : Tree) (i : Nat) :
    rightOK c r i = true ↔
      (∀ r1 j r2, r = Tree.node r1 j r2 →
        add64 (baseOf c i) (lengthOf c i) ≤ baseOf c (r.minId i)) ∧
      (∀ r1 j r2, r = Tree.node r1 j r2 →
        fieldOf c Mapping.higherPtr none i = some (r.minId i) ∧
        fieldOf c Mapping.lowerPtr none (r.minId i) = some i) := by
  cases r with
  | nil => simp [rightOK]
  | node a x b =>
    simp only [rightOK, Bool.and_eq_true, decide_eq_true_eq]
    constructor
    · rintro ⟨⟨h1, h2⟩, h3⟩
      exact ⟨fun _ _ _ _ => h1, fun _ _ _ _ => ⟨h2, h3⟩⟩
    · rintro ⟨h1, h2⟩
      exact ⟨⟨h1 a x b rfl, (h2 a x b rfl).1⟩, (h2 a x b rfl).2⟩

/-- The tests of `checkInvariant` pass on a tree exactly when the augment is
correct at every node, both children of every red node are black, every
mapping ends (modulo 2^64) at or below the base of the next one, every two
neighbours of the in-order sequence are linked by `higherPtr` and `lowerPtr`,
and every path to a null link passes the same number of black nodes. -/
theorem checked_iff (c : Nat → Option Mapping) :
    ∀ t, checked c t = true ↔
      Augmented c t ∧ RedRule c t ∧ OrderedMod c t.toList ∧ Threaded c t.toList ∧
        BlackCount c t (blackHeight c t) := by
  intro t
  induction t with
  | nil =>
    simp [checked, Augmented, RedRule, OrderedMod, Threaded, BlackCount, blackHeight,
      Tree.toList]
  | node l i r ihl ihr =>
    simp only [checked, Bool.and_eq_true, decide_eq_true_eq, Augmented, RedRule, OrderedMod,
      Threaded, chain_node, blackCount_node, leftOK_iff, rightOK_iff, ihl, ihr]
    tauto

/-- When no interval wraps around the 64-bit address space, the order that
`checkInvariant` tests is search-tree order. -/
theorem orderedMod_iff {c : Nat → Option Mapping} {l : List Nat} (hF : Fits c l) :
    OrderedMod c l ↔ Ordered c l := by
  haveI : IsTrans Nat (fun i j => endOf c i ≤ baseOf c j) :=
    ⟨fun a b d h1 h2 => le_trans h1 (le_trans (Nat.le_add_right _ _) h2)⟩
  unfold OrderedMod Ordered
  rw [← List.chain'_iff_pairwise]
  constructor
  · intro h
    refine (List.Chain'.iff_mem.mp h).imp ?_
    rintro a b ⟨ha, -, hr⟩
    have hfit : baseOf c a + lengthOf c a < wordMod := hF a ha
    rw [add64_eq hfit] at hr
    exact hr
  · intro h
    refine (List.Chain'.iff_mem.mp h).imp ?_
    rintro a b ⟨ha, -, hr⟩
    have hfit : baseOf c a + lengthOf c a < wordMod := hF a ha
    rw [add64_eq hfit]
    exact hr

theorem redBlack_iff_rules {c : Nat → Option Mapping} :
    ∀ (t : Tree) (n : Nat), Coloured c t.toList →
      (RedBlack c t n ↔ RedRule c t ∧ BlackCount c t n) := by
  intro t
  induction t with
  | nil =>
    intro n _
    simp [RedBlack, RedRule, BlackCount]
  | node l i r ihl ihr =>
    intro n hcol
    have hcl : Coloured c l.toList := fun j hj => hcol j (by simp [Tree.toList, hj])
    have hcr : Coloured c r.toList := fun j hj => hcol j (by simp [Tree.toList, hj])
    have hi := hcol i (by simp [Tree.toList])
    rw [RedBlack, RedRule, blackCount_cons]
    rcases hi with hred | hblack
    · have hnb : ¬ colorOf c i = Color.kColorBlack := by rw [hred]; decide
      simp only [hred, if_neg hnb, ihl n hcl, ihr n hcr, true_and, false_and, or_false,
        forall_true_left, (by decide : ¬ Color.kColorRed = Color.kColorBlack), if_false]
      tauto
    · have hnr : ¬ colorOf c i = Color.kColorRed := by rw [hblack]; decide
      simp only [hblack, ihl (n - 1) hcl, ihr (n - 1) hcr, true_and, false_and, false_or,
        (by decide : ¬ Color.kColorBlack = Color.kColorRed), if_true, false_implies]
      tauto

/-- On a tree whose nodes are all red or black, the colour tests of
`checkInvariant` are the red-black rules below the root. -/
theorem redBlack_iff {c : Nat → Option Mapping} {t : Tree} (hcol : Coloured c t.toList) :
    (∃ n, RedBlack c t n) ↔ RedRule c t ∧ BlackCount c t (blackHeight c t) := by
  constructor
  · rintro ⟨n, h⟩
    obtain ⟨h1, h2⟩ := (redBlack_iff_rules t n hcol).mp h
    exact ⟨h1, h2.height_eq ▸ h2⟩
  · rintro ⟨h1, h2⟩
    exact ⟨_, (redBlack_iff_rules t _ hcol).mpr ⟨h1, h2⟩⟩

/-- What `checkInvariant()` returns on an address space whose heap holds the
tree `t`. -/
theorem checkInvariant_eq {s : Space} {t : Tree} {fuel : Nat} (hT : TreeAt s t)
    (hf : t.height ≤ fuel) : checkInvariant fuel s = Except.ok (checked s.cells t) := by
  unfold checkInvariant
  cases t with
  | nil =>
    have : s.p_root = none := hT.1
    simp only [this]
    rfl
  | node l i r =>
    have : s.p_root = some i := hT.1
    simp only [this]
    rw [checkInvariantAt_eq s (Tree.node l i r) fuel none hf hT.2.1 l i r rfl, bind_okE]
    by_cases h : checked s.cells (Tree.node l i r) = true
    · rw [if_pos h, h]
      rfl
    · rw [if_neg h]
      have : checked s.cells (Tree.node l i r) = false := by simpa using h
      rw [this]
      rfl

/-! ### `Memory::copyTo` -/

theorem addrOf_chunk (m : Memory) {y j : Nat} (h : y % kPageSize + j < kPageSize) :
    m.addrOf (y + j) = m.addrOf y + j := by
  have hk : kPageSize = 4096 := rfl
  rw [hk] at h
  unfold Memory.addrOf
  rw [hk]
  have h1 : (y + j) / 4096 = y / 4096 := by omega
  have h2 : (y + j) % 4096 = y % 4096 + j := by omega
  rw [h1, h2]
  omega

/-- Two bytes of a `Memory` object in bound slots have different physical
addresses. -/
theorem addrOf_inj {m : Memory} (hfr : m.framed) {x y : Nat}
    (hx : x / kPageSize < m.p_physicalPages.length)
    (hy : y / kPageSize < m.p_physicalPages.length)
    (hbx : m.p_physicalPages.getD (x / kPageSize) noPage ≠ noPage)
    (hby : m.p_physicalPages.getD (y / kPageSize) noPage ≠ noPage)
    (h : m.addrOf x = m.addrOf y) : x = y := by
  have hk : kPageSize = 4096 := rfl
  obtain ⟨hal, hinj⟩ := hfr
  have ax := hal _ hx hbx
  have ay := hal _ hy hby
  unfold Memory.addrOf at h
  rw [hk] at h ax ay hx hy hbx hby
  have hf : m.p_physicalPages.getD (x / 4096) noPage = m.p_physicalPages.getD (y / 4096) noPage := by
    omega
  have hs : x / 4096 = y / 4096 := hinj _ hx _ hy hbx hf
  omega

/-- One `memcpy` of `Memory::copyTo`: `n` more bytes, within one page. -/
theorem CopyInv.memcpy_step {m : Memory} {p : Phys} {offset length : Nat} {source : Nat → Nat}
    {p' : Phys} {seen : List Nat} {disp n k : Nat} (hfr : m.framed)
    (hbound : ∀ i, touched offset length i →
      i < m.p_physicalPages.length ∧ m.p_physicalPages.getD i noPage ≠ noPage)
    (hinv : CopyInv m p offset source length p' seen disp) (hn : disp + n ≤ length)
    (hpage : (offset + disp) % kPageSize + n ≤ kPageSize)
    (htk : touched offset length k) :
    CopyInv m p offset source length
      (p'.store (m.addrOf (offset + disp)) (fun j => source (disp + j)) n) (seen ++ [k])
      (disp + n) := by
  have hk : kPageSize = 4096 := rfl
  obtain ⟨h1, h2, h3, h4, h5⟩ := hinv
  have hslot : ∀ x, offset ≤ x → x < offset + length →
      x / kPageSize < m.p_physicalPages.length ∧
        m.p_physicalPages.getD (x / kPageSize) noPage ≠ noPage := by
    intro x hx1 hx2
    refine hbound _ ⟨?_, ?_⟩
    · rw [hk]
      omega
    · rw [hk]
      omega
  have hchunk : ∀ j, j < n → m.addrOf (offset + disp + j) = m.addrOf (offset + disp) + j :=
    fun j hj => addrOf_chunk m (by omega)
  have hout : ∀ x, offset ≤ x → x < offset + disp →
      ¬ (m.addrOf (offset + disp) ≤ m.addrOf x ∧ m.addrOf x < m.addrOf (offset + disp) + n) := by
    rintro x hx1 hx2 ⟨g1, g2⟩
    have hj : m.addrOf x - m.addrOf (offset + disp) < n := by omega
    have hy := hchunk _ hj
    have heq : m.addrOf x = m.addrOf (offset + disp + (m.addrOf x - m.addrOf (offset + disp))) := by
      rw [hy]
      omega
    have hsx := hslot x hx1 (by omega)
    have hsy := hslot (offset + disp + (m.addrOf x - m.addrOf (offset + disp))) (by omega)
      (by omega)
    have := addrOf_inj hfr hsx.1 hsy.1 hsx.2 hsy.2 heq
    omega
  refine ⟨fun x hx1 hx2 => ?_, fun a ha => ?_, fun i hi => ?_, h4, h5⟩
  · by_cases hlt : x < offset + disp
    · show (if _ then _ else _) = _
      rw [if_neg (hout x hx1 hlt)]
      exact h1 x hx1 hlt
    · have hj : x - (offset + disp) < n := by omega
      have hx : x = offset + disp + (x - (offset + disp)) := by omega
      have ha := hchunk _ hj
      show (if _ then _ else _) = _
      rw [if_pos (by rw [hx, ha]; omega)]
      rw [hx, ha, Nat.add_sub_cancel_left]
      congr 1
      omega
  · show (if _ then _ else _) = _
    have hnot : ¬ (m.addrOf (offset + disp) ≤ a ∧ a < m.addrOf (offset + disp) + n) := by
      rintro ⟨g1, g2⟩
      have hj : a - m.addrOf (offset + disp) < n := by omega
      have := hchunk _ hj
      exact ha (offset + disp + (a - m.addrOf (offset + disp))) (by omega) (by omega)
        (by rw [this]; omega)
    rw [if_neg hnot]
    exact h2 a (fun x hx1 hx2 => ha x hx1 (by omega))
  · rcases List.mem_append.mp hi with hi | hi
    · exact h3 i hi
    · rw [List.mem_singleton] at hi
      rw [hi]
      exact htk

set_option maxHeartbeats 1000000 in
/-- The whole-page loop of `Memory::copyTo`: it ends, its assertions hold, and
it leaves less than a page to copy. -/
theorem copyLoop_spec {m : Memory} {p : Phys} {offset length : Nat} {source : Nat → Nat}
    (hfr : m.framed)
    (hbound : ∀ i, touched offset length i →
      i < m.p_physicalPages.length ∧ m.p_physicalPages.getD i noPage ≠ noPage)
    (hlen : offset + length < wordMod) :
    ∀ (fuel : Nat) (p' : Phys) (seen : List Nat) (disp index : Nat),
      CopyInv m p offset source length p' seen disp → disp ≤ length →
      (disp < length → (offset + disp) % kPageSize = 0 ∧ index = (offset + disp) / kPageSize) →
      (length - disp) / kPageSize < fuel →
      Returns (copyLoop m offset source length fuel p' seen disp index) (fun r =>
        CopyInv m p offset source length r.1 r.2.1 r.2.2.1 ∧ r.2.2.1 ≤ length ∧
        length - r.2.2.1 < kPageSize ∧
        (r.2.2.1 < length →
          (offset + r.2.2.1) % kPageSize = 0 ∧ r.2.2.2 = (offset + r.2.2.1) / kPageSize)) := by
  have hk : kPageSize = 4096 := rfl
  have hw : wordMod = 18446744073709551616 := rfl
  intro fuel
  induction fuel with
  | zero =>
    intro p' seen disp index _ _ _ hf
    exact absurd hf (Nat.not_lt_zero _)
  | succ f ih =>
    intro p' seen disp index hinv hdl halign hf
    have hsub : sub64 length disp = length - disp := sub64_eq hdl (by omega)
    rw [copyLoop, hsub]
    by_cases hge : length - disp ≥ kPageSize
    · rw [if_pos hge]
      rw [hk] at hge
      obtain ⟨ha1, ha2⟩ := halign (by omega)
      have hadd : add64 offset disp = offset + disp := add64_eq (by omega)
      have htk : touched offset length index := by
        rw [ha2]
        constructor
        · rw [hk]
          omega
        · rw [hk] at ha1 ⊢
          omega
      obtain ⟨hin, hbd⟩ := hbound index htk
      have hpage : m.p_physicalPages.getD index noPage = m.addrOf (offset + disp) := by
        unfold Memory.addrOf
        rw [ha1, ← ha2, Nat.add_zero]
      have hd' : add64 disp kPageSize = disp + kPageSize := add64_eq (by rw [hk]; omega)
      have hi' : add64 index 1 = index + 1 := add64_eq (by
        rw [ha2, hk]
        omega)
      have hstep := CopyInv.memcpy_step (n := kPageSize) (k := index) hfr hbound hinv
        (by rw [hk]; omega) (by rw [ha1]; omega) htk
      simp only [hadd, ha1, decide_True, assert, if_true, bind_okE, getPage_eq hin, hbd, ne_eq,
        not_false_eq_true, hd', hi']
      rw [hpage]
      refine ih _ _ _ _ hstep (by rw [hk]; omega) (fun _ => ?_) ?_
      · rw [hk] at ha1 ha2 ⊢
        constructor
        · omega
        · omega
      · rw [hk] at hf ⊢
        omega
    · rw [if_neg hge]
      exact Returns.pure_ok ⟨hinv, hdl, Nat.lt_of_not_ge hge, halign⟩

theorem touched_def (offset length i : Nat) :
    touched offset length i ↔ offset / 4096 ≤ i ∧ i * 4096 < offset + length := Iff.rfl

theorem CopyInv.initial (m : Memory) (p : Phys) (offset length : Nat) (source : Nat → Nat) :
    CopyInv m p offset source length p [] 0 :=
  ⟨fun x h1 h2 => absurd h2 (by omega), fun _ _ => rfl, fun _ h => (by cases h), rfl, rfl⟩

set_option maxHeartbeats 1000000 in
/-- On an allocated `Memory` object whose slots for the range are bound,
`Memory::copyTo` returns, and it has then copied `length` bytes. -/
theorem copyTo_inv {m : Memory} {p : Phys} {offset length fuel : Nat} {source : Nat → Nat}
    (hty : m.p_type = MemoryType.kTypeAllocated) (hfr : m.framed)
    (hbound : ∀ i, touched offset length i →
      i < m.p_physicalPages.length ∧ m.p_physicalPages.getD i noPage ≠ noPage)
    (hlen : offset + length < wordMod) (hfuel : length / kPageSize < fuel) :
    Returns (m.copyTo fuel p offset source length) (fun r =>
      CopyInv m p offset source length r.1 r.2 length) := by
  have hk : kPageSize = 4096 := rfl
  have hw : wordMod = 18446744073709551616 := rfl
  have htail : ∀ (r : Phys × List Nat × Nat × Nat),
      (CopyInv m p offset source length r.1 r.2.1 r.2.2.1 ∧ r.2.2.1 ≤ length ∧
        length - r.2.2.1 < kPageSize ∧
        (r.2.2.1 < length →
          (offset + r.2.2.1) % kPageSize = 0 ∧ r.2.2.2 = (offset + r.2.2.1) / kPageSize)) →
      Returns
        (if sub64 length r.2.2.1 > 0 then
          m.getPage r.2.2.2 >>= fun page =>
            assert (decide (page ≠ noPage)) >>= fun _ =>
              Except.ok (r.1.store page (fun k => source (r.2.2.1 + k)) (sub64 length r.2.2.1),
                r.2.1 ++ [r.2.2.2])
        else Except.ok (r.1, r.2.1))
        (fun q => CopyInv m p offset source length q.1 q.2 length) := by
    rintro ⟨p2, seen2, disp2, index2⟩ ⟨hinv, hdl, hsmall, halign⟩
    dsimp only at hinv hdl hsmall halign ⊢
    have hsub : sub64 length disp2 = length - disp2 := sub64_eq hdl (by omega)
    rw [hsub]
    by_cases hpos : length - disp2 > 0
    · rw [if_pos hpos]
      obtain ⟨ha1, ha2⟩ := halign (by omega)
      have htk : touched offset length index2 := by
        rw [ha2, touched_def]
        rw [hk] at ha1 hsmall ⊢
        constructor
        · omega
        · omega
      obtain ⟨hin, hbd⟩ := hbound index2 htk
      have hpage : m.p_physicalPages.getD index2 noPage = m.addrOf (offset + disp2) := by
        unfold Memory.addrOf
        rw [ha1, ← ha2, Nat.add_zero]
      have hstep := CopyInv.memcpy_step (n := length - disp2) (k := index2) hfr hbound hinv
        (by omega) (by rw [ha1]; omega) htk
      simp only [getPage_eq hin, bind_okE, hbd, ne_eq, not_false_eq_true, decide_True, assert,
        if_true]
      rw [hpage]
      have hfin : disp2 + (length - disp2) = length := by omega
      rw [hfin] at hstep
      exact Returns.pure_ok hstep
    · rw [if_neg hpos]
      have hfin : disp2 = length := by omega
      rw [hfin] at hinv
      exact Returns.pure_ok hinv
  unfold Memory.copyTo
  simp only [hty, decide_True, assert, if_true, bind_okE]
  by_cases hmis : offset % kPageSize > 0
  · rw [if_pos hmis]
    have hmlt : offset % kPageSize < kPageSize := Nat.mod_lt _ (by decide)
    have hsub : sub64 kPageSize (offset % kPageSize) = kPageSize - offset % kPageSize :=
      sub64_eq (le_of_lt hmlt) (by decide)
    have htk : touched offset length (offset / kPageSize) := by
      rw [touched_def]
      rw [hk] at hmis ⊢
      constructor
      · exact le_refl _
      · omega
    obtain ⟨hin, hbd⟩ := hbound _ htk
    have hpre : min (kPageSize - offset % kPageSize) length ≤ length := Nat.min_le_right _ _
    have hpre' : min (kPageSize - offset % kPageSize) length ≤ kPageSize - offset % kPageSize :=
      Nat.min_le_left _ _
    have hd : add64 0 (min (kPageSize - offset % kPageSize) length) =
        min (kPageSize - offset % kPageSize) length := by
      rw [add64_eq (by omega), Nat.zero_add]
    have hi : add64 (offset / kPageSize) 1 = offset / kPageSize + 1 := add64_eq (by
      rw [hk]
      omega)
    have hstep := CopyInv.memcpy_step (n := min (kPageSize - offset % kPageSize) length)
      (k := offset / kPageSize) hfr hbound (CopyInv.initial m p offset length source)
      (by omega) (by rw [Nat.add_zero]; omega) htk
    have hstore : p.store (m.p_physicalPages.getD (offset / kPageSize) noPage +
        offset % kPageSize) source (min (kPageSize - offset % kPageSize) length) =
        p.store (m.addrOf (offset + 0)) (fun j => source (0 + j))
          (min (kPageSize - offset % kPageSize) length) := by
      simp only [Memory.addrOf, Nat.add_zero, Nat.zero_add]
    simp only [hsub, getPage_eq hin, bind_okE, hbd, ne_eq, not_false_eq_true, decide_True,
      assert, if_true, hd, hi, hstore]
    rw [Nat.zero_add, List.nil_append] at hstep
    refine Returns.seq (copyLoop_spec hfr hbound hlen fuel _ _ _ _ hstep hpre (fun hlt => ?_)
      ?_) htail
    · have hpe : min (kPageSize - offset % kPageSize) length = kPageSize - offset % kPageSize := by
        rw [Nat.min_def]
        split
        · rfl
        · omega
      rw [hpe]
      rw [hk] at hmis hmlt ⊢
      constructor
      · omega
      · omega
    · rw [hk] at hfuel ⊢
      omega
  · rw [if_neg hmis]
    refine Returns.seq (copyLoop_spec hfr hbound hlen fuel _ _ _ _
      (CopyInv.initial m p offset length source) (Nat.zero_le _) (fun _ => ?_) ?_) htail
    · rw [Nat.add_zero]
      exact ⟨by omega, rfl⟩
    · rw [Nat.sub_zero]
      exact hfuel

/-- The slots of the two-byte-before to two-byte-after range around the first
page boundary of `twoPageMemory` are bound. -/
theorem twoPage_bound :
    ∀ i, touched 0xFFE 4 i →
      i < twoPageMemory.p_physicalPages.length ∧
        twoPageMemory.p_physicalPages.getD i noPage ≠ noPage := by
  intro i hi
  rw [touched_def] at hi
  have h : i = 0 ∨ i = 1 := by omega
  rcases h with rfl | rfl
  · exact ⟨by decide, by decide⟩
  · exact ⟨by decide, by decide⟩

/-! ## Claims C31 to C36 -/

set_option maxRecDepth 100000 in
/-- Claim C32, counterexample: slot 0 of the `Memory` object `threeSlotMemory`
is bound to the frame `0x300000`, and `setPage(0, 0x777000)` is not rejected:
it returns, and the slot is bound to the new frame. -/
theorem setPage_rebinds_bound_slot :
    threeSlotMemory.getPage 0 = Except.ok 0x300000 ∧ 0x300000 ≠ noPage ∧
    Returns (threeSlotMemory.setPage 0 0x777000)
      (fun m => m.getPage 0 = Except.ok 0x777000) := by
  decide!

/-- Claim C32, as amended: `Memory::setPage(i, frame)` has no assertion; for
every slot `i` of the page vector, bound or not, it returns, sets slot `i` to
`frame` and leaves every other slot and every other field unchanged.  The guard
is at its callers: whenever `handleFault` returns, every slot of a `Memory`
object that it has changed held the sentinel before the call, so `handleFault`
never re-binds a bound slot. -/
theorem setPage_effect (m : Memory) (index page fuel : Nat) (s : Space) (e : Env) (p : Phys)
    (address flags : Nat) (hindex : index < m.p_physicalPages.length) :
    (∃ m', m.setPage index page = Except.ok m' ∧ m'.getPage index = Except.ok page ∧
      (∀ j, j ≠ index → m'.getPage j = m.getPage j) ∧
      m'.p_physicalPages.length = m.p_physicalPages.length ∧ m'.p_type = m.p_type ∧
      m'.flags = m.flags ∧ m'.master = m.master) ∧
    ∀ r, handleFault fuel s e p address flags = Except.ok r →
      ∀ k mem mem' j, e.memories k = some mem → r.2.1.memories k = some mem' →
        mem'.getPage j ≠ mem.getPage j → mem.getPage j = Except.ok noPage := by
  refine ⟨⟨m.withPage index page, ?_, getPage_set page hindex,
    fun j hj => getPage_withPage_ne m page hj, ?_, rfl, rfl, rfl⟩,
    handleFault_binds_unbound fuel s e p address flags⟩
  · simp only [Memory.setPage, if_pos hindex, Memory.withPage]
  · simp only [Memory.withPage, List.length_set]

set_option maxRecDepth 100000 in
/-- Claim C32, witness: `setPage(1, 0x777000)` on the unbound slot 1 of
`threeSlotMemory`, and the first touch of scenario D. -/
theorem setPage_effect_witness :
    1 < threeSlotMemory.p_physicalPages.length ∧
    ((∃ m', threeSlotMemory.setPage 1 0x777000 = Except.ok m' ∧
      m'.getPage 1 = Except.ok 0x777000 ∧
      (∀ j, j ≠ 1 → m'.getPage j = threeSlotMemory.getPage j) ∧
      m'.p_physicalPages.length = threeSlotMemory.p_physicalPages.length ∧
      m'.p_type = threeSlotMemory.p_type ∧
      m'.flags = threeSlotMemory.flags ∧ m'.master = threeSlotMemory.master) ∧
    ∀ r, handleFault 16 theOnDemandMap.1 theOnDemandMap.2.1 somePhys 0x101234 0 = Except.ok r →
      ∀ k mem mem' j, theOnDemandMap.2.1.memories k = some mem →
        r.2.1.memories k = some mem' →
        mem'.getPage j ≠ mem.getPage j → mem.getPage j = Except.ok noPage) :=
  ⟨by decide,
    setPage_effect threeSlotMemory 1 0x777000 16 theOnDemandMap.1 theOnDemandMap.2.1 somePhys
      0x101234 0 (by decide)⟩

/-- Claim C34 (rotations): let `n` be the right child of `u` in a tree with a
correct augment, `u(a, n(b, c))` below the path `fs`.  Then `rotateLeft(n)`
returns; the tree is then `n(u(a, b), c)` below the same path, with the same
in-order sequence of mappings and the same ranges; the parent pointers agree
with the child pointers and `p_root` is the root of the new tree (`TreeAt`), so
`p_root` is `n` when `u` was the root; the augment is correct at every node;
and `largestHole` has changed at no node other than `u` and `n`.  The same
holds for `rotateRight(n)` when `n` is the left child of `u`, which turns
`u(n(a, b), c)` into `n(a, u(b, c))`. -/
theorem rotations_keep_invariants (s : Space) (fs : List Frame) (a b c : Tree) (u n : Nat) :
    (TreeAt s (plug fs (Tree.node a u (Tree.node b n c))) →
      Augmented s.cells (plug fs (Tree.node a u (Tree.node b n c))) →
      ∃ s', rotateLeft s n = Except.ok s' ∧
        (plug fs (Tree.node (Tree.node a u b) n c)).toList =
          (plug fs (Tree.node a u (Tree.node b n c))).toList ∧
        (∀ j, seg s'.cells j = seg s.cells j) ∧
        TreeAt s' (plug fs (Tree.node (Tree.node a u b) n c)) ∧
        (fs = [] → s'.p_root = some n) ∧
        Augmented s'.cells (plug fs (Tree.node (Tree.node a u b) n c)) ∧
        ∀ j, j ≠ u → j ≠ n →
          largestHoleAt s'.cells (some j) = largestHoleAt s.cells (some j)) ∧
    (TreeAt s (plug fs (Tree.node (Tree.node a n b) u c)) →
      Augmented s.cells (plug fs (Tree.node (Tree.node a n b) u c)) →
      ∃ s', rotateRight s n = Except.ok s' ∧
        (plug fs (Tree.node a n (Tree.node b u c))).toList =
          (plug fs (Tree.node (Tree.node a n b) u c)).toList ∧
        (∀ j, seg s'.cells j = seg s.cells j) ∧
        TreeAt s' (plug fs (Tree.node a n (Tree.node b u c))) ∧
        (fs = [] → s'.p_root = some n) ∧
        Augmented s'.cells (plug fs (Tree.node a n (Tree.node b u c))) ∧
        ∀ j, j ≠ u → j ≠ n →
          largestHoleAt s'.cells (some j) = largestHoleAt s.cells (some j)) := by
  constructor
  · intro hT hA
    obtain ⟨s', h1, h2, h3, h4, h5⟩ := rotateLeft_holes hT hA
    refine ⟨s', h1, ?_, seg_of_noRot h4, h2, ?_, h3, h5⟩
    · rw [toList_plug, toList_plug]
      simp [Tree.toList]
    · rintro rfl
      exact h2.1
  · intro hT hA
    obtain ⟨s', h1, h2, h3, h4, h5⟩ := rotateRight_holes hT hA
    refine ⟨s', h1, ?_, seg_of_noRot h4, h2, ?_, h3, h5⟩
    · rw [toList_plug, toList_plug]
      simp [Tree.toList]
    · rintro rfl
      exact h2.1

set_option maxRecDepth 100000 in
/-- Claim C34, witness: `rotateLeft(2)` in the address space with one mapping
(object 1, the root) and the hole after it (object 2, its right child), and
`rotateRight(2)` in the address space `wrappedSpace`, where object 2 is the
left child of the root. -/
theorem rotations_keep_invariants_witness :
    (TreeAt theThreeSlotMap.1 oneMapTree ∧ Augmented theThreeSlotMap.1.cells oneMapTree ∧
      ∃ s', rotateLeft theThreeSlotMap.1 2 = Except.ok s' ∧
        (plug [] (Tree.node (Tree.node Tree.nil 1 Tree.nil) 2 Tree.nil)).toList =
          (plug [] (Tree.node Tree.nil 1 (Tree.node Tree.nil 2 Tree.nil))).toList ∧
        (∀ j, seg s'.cells j = seg theThreeSlotMap.1.cells j) ∧
        TreeAt s' (plug [] (Tree.node (Tree.node Tree.nil 1 Tree.nil) 2 Tree.nil)) ∧
        (([] : List Frame) = [] → s'.p_root = some 2) ∧
        Augmented s'.cells (plug [] (Tree.node (Tree.node Tree.nil 1 Tree.nil) 2 Tree.nil)) ∧
        ∀ j, j ≠ 1 → j ≠ 2 →
          largestHoleAt s'.cells (some j) = largestHoleAt theThreeSlotMap.1.cells (some j)) ∧
    (TreeAt wrappedSpace wrappedTree ∧ Augmented wrappedSpace.cells wrappedTree ∧
      ∃ s', rotateRight wrappedSpace 2 = Except.ok s' ∧
        (plug [] (Tree.node Tree.nil 2 (Tree.node Tree.nil 1 Tree.nil))).toList =
          (plug [] (Tree.node (Tree.node Tree.nil 2 Tree.nil) 1 Tree.nil)).toList ∧
        (∀ j, seg s'.cells j = seg wrappedSpace.cells j) ∧
        TreeAt s' (plug [] (Tree.node Tree.nil 2 (Tree.node Tree.nil 1 Tree.nil))) ∧
        (([] : List Frame) = [] → s'.p_root = some 2) ∧
        Augmented s'.cells (plug [] (Tree.node Tree.nil 2 (Tree.node Tree.nil 1 Tree.nil))) ∧
        ∀ j, j ≠ 1 → j ≠ 2 →
          largestHoleAt s'.cells (some j) = largestHoleAt wrappedSpace.cells (some j)) :=
  ⟨⟨by decide!, by decide!,
      (rotations_keep_invariants theThreeSlotMap.1 [] Tree.nil Tree.nil Tree.nil 1 2).1
        (by decide!) (by decide!)⟩,
    ⟨by decide!, by decide!,
      (rotations_keep_invariants wrappedSpace [] Tree.nil Tree.nil Tree.nil 1 2).2
        (by decide!) (by decide!)⟩⟩

/-- Claim C31 (recursive copy-on-write is rejected): let the mappings of the
source space tile a range, each of them one that `cloneRecursive` can clone
(`Forkable`) or one at which it stops (`Asserting`: these are all the cases in
which the `Memory` object of a memory mapping exists and has a page slot for
each page).  If one of them is a memory mapping without share-on-fork whose
`Memory` object is of type copy-on-write (`Recursive`), `fork` does not return:
it stops at an assertion.  Consequently, when all mappings can be cloned and
one of them is a memory mapping without share-on-fork, `fork` returns, and a
second `fork`, of the source space or of the space just created, stops at an
assertion. -/
theorem fork_rejects_recursive_copy_on_write (fuel fuel' : Nat) (s : Space) (e : Env) (T : Tree)
    (lo hi : Nat) (hT : TreeAt s T) (hcov : Covers s.cells lo T.toList hi) (hlo : lo < hi)
    (hhi : hi < wordMod) (hfresh : ∀ i ∈ T.toList, i < s.next)
    (hfuel : T.toList.length ≤ fuel) (hfuel' : T.toList.length ≤ fuel') :
    ((∀ i ∈ T.toList, ∀ m, s.cells i = some m → Forkable e m ∨ Asserting e m) →
      (∃ i ∈ T.toList, ∃ m, s.cells i = some m ∧ Recursive e m) →
      fork fuel s e = Except.error Err.assertion) ∧
    ((∀ i ∈ T.toList, ∀ m, s.cells i = some m → Forkable e m) →
      (∃ i ∈ T.toList, ∃ m, s.cells i = some m ∧ m.breaks) →
      Returns (fork fuel s e) (fun r =>
        fork fuel' r.1 r.2.2 = Except.error Err.assertion ∧
        fork fuel' r.2.1 r.2.2 = Except.error Err.assertion)) := by
  refine ⟨fun hkind hbad => ?_, fun hready hbreak =>
    fork_again_stops hT hcov hlo hhi hfresh hready hfuel hfuel' hbreak⟩
  obtain ⟨i, hi, m, hm, hrec⟩ := hbad
  exact fork_stops hT hcov hhi hfresh hkind hfuel ⟨i, hi, m, hm, hrec.asserting⟩

set_option maxRecDepth 100000 in
/-- Claim C31, witness: scenario E.  The address space with one writable
mapping of three pages is forked; a second `fork` of the source and of the new
space stop at an assertion, and so does `fork` of the source space as the
first `fork` has left it, whose mapping (object 1) has a `Memory` object of
type copy-on-write. -/
theorem fork_rejects_recursive_copy_on_write_witness :
    (TreeAt theThreeSlotMap.1 oneMapTree ∧
      Covers theThreeSlotMap.1.cells windowBase oneMapTree.toList windowEnd ∧
      Returns (fork 16 theThreeSlotMap.1 theThreeSlotMap.2.1) (fun r =>
        fork 16 r.1 r.2.2 = Except.error Err.assertion ∧
        fork 16 r.2.1 r.2.2 = Except.error Err.assertion)) ∧
    (TreeAt theThreeSlotFork.1 oneMapTree ∧
      Covers theThreeSlotFork.1.cells windowBase oneMapTree.toList windowEnd ∧
      fork 16 theThreeSlotFork.1 theThreeSlotFork.2.2 = Except.error Err.assertion) := by
  have hboth := fork_both_sides (show TreeAt theThreeSlotMap.1 oneMapTree by decide!)
    (show Covers theThreeSlotMap.1.cells windowBase oneMapTree.toList windowEnd by decide!)
    (show windowBase < windowEnd by decide) (show windowEnd < wordMod by decide)
    (show ∀ i ∈ oneMapTree.toList, i < theThreeSlotMap.1.next by decide!) threeSlot_forkable
    (show oneMapTree.toList.length ≤ 16 by decide)
  rw [threeSlotFork_eq] at hboth
  obtain ⟨-, -, ⟨hT', hcov', hfresh', hkind', hrec'⟩, -⟩ := hboth
  obtain ⟨i, hi, m0, hm0, hb⟩ := threeSlot_breaks
  obtain ⟨m, hm, hrec⟩ := hrec' i hi m0 hm0 hb
  exact ⟨⟨by decide!, by decide!,
      (fork_rejects_recursive_copy_on_write 16 16 theThreeSlotMap.1 theThreeSlotMap.2.1
        oneMapTree windowBase windowEnd (by decide!) (by decide!) (by decide) (by decide)
        (by decide!) (by decide) (by decide)).2 threeSlot_forkable threeSlot_breaks⟩,
    ⟨hT', hcov',
      (fork_rejects_recursive_copy_on_write 16 16 theThreeSlotFork.1 theThreeSlotFork.2.2
        oneMapTree windowBase windowEnd hT' hcov' (by decide) (by decide)
        hfresh' (by decide) (by decide)).1 hkind' ⟨i, hi, m, hm, hrec⟩⟩⟩

/-- Claim C36 (`fork` does not propagate share-on-fork): on a source space
whose mappings tile a range and can be cloned, `fork` returns; afterwards every mapping
of the new space has the flags 0, and the copy of a memory mapping with
share-on-fork is a memory mapping without share-on-fork on the same `Memory`
object.  A second `fork`, of the new space, therefore takes the copy-on-write
branch for it: it stops at an assertion when the `Memory` object is not of
type allocated, and when all memory mappings of the source are shared mappings
of allocated `Memory` objects with a page slot, it returns and has replaced
the `Memory` object of every memory mapping of the new space by a fresh
copy-on-write object. -/
theorem fork_drops_share_on_fork (fuel : Nat) (s : Space) (e : Env) (T : Tree) (lo hi : Nat)
    (hT : TreeAt s T) (hcov : Covers s.cells lo T.toList hi) (hlo : lo < hi) (hhi : hi < wordMod)
    (hfresh : ∀ i ∈ T.toList, i < s.next)
    (hready : ∀ i ∈ T.toList, ∀ m, s.cells i = some m → Forkable e m)
    (hfuel : T.toList.length ≤ fuel) :
    Returns (fork fuel s e) (fun r =>
      ∃ Dt, ValidTree r.2.1 Dt ∧ Dt.toList.map (seg r.2.1.cells) = T.toList.map (seg s.cells) ∧
        (∀ j ∈ Dt.toList, fieldOf r.2.1.cells Mapping.flags 1 j = 0) ∧
        (∀ i ∈ T.toList, ∀ m, s.cells i = some m → m.type = MappingType.kTypeMemory → m.shared →
          ∃ j ∈ Dt.toList, ∃ m', r.2.1.cells j = some m' ∧ seg r.2.1.cells j = seg s.cells i ∧
            m'.memoryRegion = m.memoryRegion ∧ m'.breaks) ∧
        ∀ fuel', T.toList.length ≤ fuel' →
          ((∃ i ∈ T.toList, ∃ m k O, s.cells i = some m ∧ m.type = MappingType.kTypeMemory ∧
              m.shared ∧ m.memoryRegion = some k ∧ e.memories k = some O ∧
              O.p_type ≠ MemoryType.kTypeAllocated) →
            fork fuel' r.2.1 r.2.2 = Except.error Err.assertion) ∧
          ((∀ i ∈ T.toList, ∀ m, s.cells i = some m → m.type = MappingType.kTypeMemory →
              m.shared ∧ ∃ k O, m.memoryRegion = some k ∧ e.memories k = some O ∧
                O.p_type = MemoryType.kTypeAllocated ∧ 0 < O.p_physicalPages.length) →
            Returns (fork fuel' r.2.1 r.2.2) (fun r2 =>
              ∀ j ∈ Dt.toList, ∀ m', r.2.1.cells j = some m' →
                m'.type = MappingType.kTypeMemory →
                ∃ a k O, m'.memoryRegion = some k ∧ e.memories k = some O ∧
                  r.2.2.nextMemory ≤ a ∧
                  fieldOf r2.1.cells Mapping.memoryRegion none j = some a ∧
                  r2.2.2.memories a = some (cowMemory O.p_physicalPages.length (some k))))) := by
  refine (fork_both_sides hT hcov hlo hhi hfresh hready hfuel).weaken ?_
  rintro ⟨s', d, e'⟩ ⟨hw, -, -, Dt, hv, hcovD, hlenD, hlay, hfreshD, hkindD, hD1, hD2⟩
  dsimp only at *
  have hTD : TreeAt d Dt := ⟨hv.1, hv.2.1, hv.2.2.1⟩
  refine ⟨Dt, hv, seg_of_layout hlay, fun j hj => ?_, fun i hi m hm hty hs => ?_,
    fun fuel' hfuel' => ⟨?_, fun hall => ?_⟩⟩
  · obtain ⟨i, hi, hcp⟩ := hD1 j hj
    obtain ⟨m, hm, hfl⟩ := hcp.flags_zero
    rw [fieldOf_some hm]
    exact hfl
  · obtain ⟨j, hj, hcp⟩ := hD2 i hi
    obtain ⟨m', hm', -, hns, hty', hreg, -, -⟩ := hcp.child_kind hw hm (hready i hi m hm)
    exact ⟨j, hj, m', hm', hcp.seg_eq, hreg hty hs, hty'.trans hty, hns⟩
  · rintro ⟨i, hi, m, k, O, hm, hty, hs, hr, hk, hO⟩
    obtain ⟨j, hj, hcp⟩ := hD2 i hi
    obtain ⟨m', hm', -, hns, hty', hreg, -, -⟩ := hcp.child_kind hw hm (hready i hi m hm)
    have hkn : k < e.nextMemory := by
      rcases hready i hi m hm with h | ⟨-, k', mem, hr', hkn, -⟩
      · rw [hty] at h
        cases h
      · rw [hr] at hr'
        cases hr'
        exact hkn
    have hbad : Asserting e' m' :=
      Or.inr ⟨hty'.trans hty, k, O, (hreg hty hs).trans hr, lt_of_lt_of_le hkn hw.mem_next,
        (hw.mem_old k hkn).trans hk, Or.inr ⟨hns, Or.inl hO⟩⟩
    exact fork_stops hTD hcovD hhi hfreshD hkindD (hlenD ▸ hfuel') ⟨j, hj, m', hm', hbad⟩
  · have hreadyD : ∀ j ∈ Dt.toList, ∀ m', d.cells j = some m' → Forkable e' m' := by
      intro j hj m' hm'
      rcases hkindD j hj m' hm' with h | h
      · exact h
      · exfalso
        obtain ⟨i, hi, hcp⟩ := hD1 j hj
        obtain ⟨m0, hm0⟩ := hcov.some_cell hi
        obtain ⟨m'', hm'', -, hns, hty', hreg, -, -⟩ :=
          hcp.child_kind hw hm0 (hready i hi m0 hm0)
        rw [hm'] at hm''
        cases hm''
        rcases h with h | ⟨hty, k, mem, hr, hkn, hk, hcase⟩
        · rcases hready i hi m0 hm0 with g | ⟨g, -⟩
          · rw [hty', g] at h
            cases h
          · rw [hty', g] at h
            cases h
        · obtain ⟨hs0, k0, O, hr0, hk0, hO, hpos⟩ := hall i hi m0 hm0 (hty'.symm.trans hty)
          have hkn0 : k0 < e.nextMemory := by
            rcases hready i hi m0 hm0 with g | ⟨-, k', mem', hr', hkn', -⟩
            · rw [hty'.symm.trans hty] at g
              cases g
            · rw [hr0] at hr'
              cases hr'
              exact hkn'
          have hr' := hreg (hty'.symm.trans hty) hs0
          rw [hr, hr0] at hr'
          cases hr'
          rw [(hw.mem_old k hkn0).trans hk0] at hk
          cases hk
          rcases hcase with ⟨hsh, -⟩ | ⟨-, hc⟩
          · exact hns hsh
          · rcases hc with hc | hc
            · exact hc hO
            · omega
    refine (fork_both_sides hTD hcovD hlo hhi hfreshD hreadyD (hlenD ▸ hfuel')).weaken ?_
    rintro ⟨s2, d2, e2⟩ ⟨hw2, hs2, -, Dt2, -, -, -, -, -, -, -, hD22⟩ j hj m' hm' hty
    dsimp only at *
    subst hs2
    obtain ⟨i, hi, hcp⟩ := hD1 j hj
    obtain ⟨m0, hm0⟩ := hcov.some_cell hi
    obtain ⟨m'', hm'', -, hns, hty', hreg, -, -⟩ := hcp.child_kind hw hm0 (hready i hi m0 hm0)
    rw [hm'] at hm''
    cases hm''
    obtain ⟨hs0, k, O, hr0, hk0, hO, hpos⟩ := hall i hi m0 hm0 (hty'.symm.trans hty)
    have hr' : m'.memoryRegion = some k := (hreg (hty'.symm.trans hty) hs0).trans hr0
    have hkn : k < e.nextMemory := by
      rcases hready i hi m0 hm0 with g | ⟨-, k', mem', hr1, hkn', -⟩
      · rw [hty'.symm.trans hty] at g
        cases g
      · rw [hr0] at hr1
        cases hr1
        exact hkn'
    obtain ⟨j2, -, hcp2⟩ := hD22 j hj
    obtain ⟨a, -, g2, g3, -, g5, -⟩ := @Walk.broken _ _ _ _ _ _ _ _ hw2 Dt2 j j2 k m' O hcp2 hm'
      ⟨hty, hns⟩ hr' ((hw.mem_old k hkn).trans hk0) (lt_of_lt_of_le hkn hw.mem_next)
    exact ⟨a, k, O, hr', hk0, g2, g3, g5⟩

set_option maxRecDepth 100000 in
/-- Claim C36, witness: `fork` of the address space `theSharedMap`, whose
mapping (object 1) has share-on-fork set. -/
theorem fork_drops_share_on_fork_witness :
    fieldOf theSharedMap.1.cells Mapping.flags 0 1 &&& kFlagShareOnFork ≠ 0 ∧
    TreeAt theSharedMap.1 oneMapTree ∧
    Covers theSharedMap.1.cells windowBase oneMapTree.toList windowEnd ∧
    Returns (fork 16 theSharedMap.1 theSharedMap.2.1) (fun r =>
      ∃ Dt, ValidTree r.2.1 Dt ∧
        Dt.toList.map (seg r.2.1.cells) = oneMapTree.toList.map (seg theSharedMap.1.cells) ∧
        (∀ j ∈ Dt.toList, fieldOf r.2.1.cells Mapping.flags 1 j = 0) ∧
        (∀ i ∈ oneMapTree.toList, ∀ m, theSharedMap.1.cells i = some m →
          m.type = MappingType.kTypeMemory → m.shared →
          ∃ j ∈ Dt.toList, ∃ m', r.2.1.cells j = some m' ∧
            seg r.2.1.cells j = seg theSharedMap.1.cells i ∧
            m'.memoryRegion = m.memoryRegion ∧ m'.breaks) ∧
        ∀ fuel', oneMapTree.toList.length ≤ fuel' →
          ((∃ i ∈ oneMapTree.toList, ∃ m k O, theSharedMap.1.cells i = some m ∧
              m.type = MappingType.kTypeMemory ∧
              m.shared ∧ m.memoryRegion = some k ∧ theSharedMap.2.1.memories k = some O ∧
              O.p_type ≠ MemoryType.kTypeAllocated) →
            fork fuel' r.2.1 r.2.2 = Except.error Err.assertion) ∧
          ((∀ i ∈ oneMapTree.toList, ∀ m, theSharedMap.1.cells i = some m →
              m.type = MappingType.kTypeMemory →
              m.shared ∧ ∃ k O, m.memoryRegion = some k ∧
                theSharedMap.2.1.memories k = some O ∧
                O.p_type = MemoryType.kTypeAllocated ∧ 0 < O.p_physicalPages.length) →
            Returns (fork fuel' r.2.1 r.2.2) (fun r2 =>
              ∀ j ∈ Dt.toList, ∀ m', r.2.1.cells j = some m' →
                m'.type = MappingType.kTypeMemory →
                ∃ a k O, m'.memoryRegion = some k ∧ theSharedMap.2.1.memories k = some O ∧
                  r.2.2.nextMemory ≤ a ∧
                  fieldOf r2.1.cells Mapping.memoryRegion none j = some a ∧
                  r2.2.2.memories a = some (cowMemory O.p_physicalPages.length (some k))))) :=
  ⟨by decide!, by decide!, by decide!,
    fork_drops_share_on_fork 16 theSharedMap.1 theSharedMap.2.1 oneMapTree windowBase windowEnd
      (by decide!) (by decide!) (by decide) (by decide) (by decide!) shared_forkable
      (by decide)⟩

set_option maxRecDepth 100000 in
/-- Claim C35, counterexample: three trees on which `checkInvariant()` returns
true although a tree invariant of the claim fails.  A single red mapping: the
root is not black.  A single black mapping whose `lowerPtr` and `higherPtr`
point to the objects 7 and 9: `lowerPtr` and `higherPtr` do not form the
in-order traversal.  The tree of `wrappedSpace`, where the left child of the
root has the base `2^64 - 0x1000` and the length `0x2000`: its end wraps around
to `0x1000`, the base of the root, and the mappings are not in search-tree
order. -/
theorem checkInvariant_accepts_invalid_trees :
    (TreeAt (loneSpace (loneMapping Color.kColorRed none none))
        (Tree.node Tree.nil 1 Tree.nil) ∧
      checkInvariant 4 (loneSpace (loneMapping Color.kColorRed none none)) = Except.ok true ∧
      ¬ blackPtr (loneSpace (loneMapping Color.kColorRed none none)).cells (some 1)) ∧
    (TreeAt (loneSpace (loneMapping Color.kColorBlack (some 7) (some 9)))
        (Tree.node Tree.nil 1 Tree.nil) ∧
      checkInvariant 4 (loneSpace (loneMapping Color.kColorBlack (some 7) (some 9))) =
        Except.ok true ∧
      ¬ Linked (loneSpace (loneMapping Color.kColorBlack (some 7) (some 9))).cells none
        (Tree.node Tree.nil 1 Tree.nil).toList none) ∧
    (TreeAt wrappedSpace wrappedTree ∧ checkInvariant 4 wrappedSpace = Except.ok true ∧
      ¬ Ordered wrappedSpace.cells wrappedTree.toList) := by
  decide!

/-- Claim C35, as amended: for every tree in the heap, `checkInvariant()`
returns, and it returns true if and only if every mapping ends, with the end
computed modulo 2^64, at or below the base of the next mapping of the in-order
sequence (`OrderedMod`), both children of every red node are black or null
(`RedRule`), every path from the root to a null link passes the same number of
black nodes (`BlackCount`), the augment is correct at every node, and every two
neighbours of the in-order sequence are linked by `higherPtr` and `lowerPtr`
(`Threaded`).  It tests neither that the root is black nor `lowerPtr` of the
first and `higherPtr` of the last mapping.  When no interval wraps around
2^64 and every node is red or black, the first three conditions are
search-tree order with non-overlapping intervals and the red-black rules below
the root. -/
theorem checkInvariant_checks (fuel : Nat) (s : Space) (t : Tree) (hT : TreeAt s t)
    (hf : t.height ≤ fuel) :
    ∃ b, checkInvariant fuel s = Except.ok b ∧
      (b = true ↔ OrderedMod s.cells t.toList ∧ RedRule s.cells t ∧
        (∃ n, BlackCount s.cells t n) ∧ Augmented s.cells t ∧ Threaded s.cells t.toList) ∧
      (Fits s.cells t.toList → Coloured s.cells t.toList →
        (b = true ↔ Ordered s.cells t.toList ∧ (∃ n, RedBlack s.cells t n) ∧
          Augmented s.cells t ∧ Threaded s.cells t.toList)) := by
  have hcount : (∃ n, BlackCount s.cells t n) ↔
      BlackCount s.cells t (blackHeight s.cells t) :=
    ⟨fun ⟨n, h⟩ => h.height_eq ▸ h, fun h => ⟨_, h⟩⟩
  refine ⟨checked s.cells t, checkInvariant_eq hT hf, ?_, fun hF hC => ?_⟩
  · rw [checked_iff, hcount]
    tauto
  · rw [checked_iff, orderedMod_iff hF, redBlack_iff hC]
    tauto

set_option maxRecDepth 100000 in
/-- Claim C35, witness: the address space with one mapping of three pages and
the hole after it. -/
theorem checkInvariant_checks_witness :
    TreeAt theThreeSlotMap.1 oneMapTree ∧ oneMapTree.height ≤ 16 ∧
    ∃ b, checkInvariant 16 theThreeSlotMap.1 = Except.ok b ∧
      (b = true ↔ OrderedMod theThreeSlotMap.1.cells oneMapTree.toList ∧
        RedRule theThreeSlotMap.1.cells oneMapTree ∧
        (∃ n, BlackCount theThreeSlotMap.1.cells oneMapTree n) ∧
        Augmented theThreeSlotMap.1.cells oneMapTree ∧
        Threaded theThreeSlotMap.1.cells oneMapTree.toList) ∧
      (Fits theThreeSlotMap.1.cells oneMapTree.toList →
        Coloured theThreeSlotMap.1.cells oneMapTree.toList →
        (b = true ↔ Ordered theThreeSlotMap.1.cells oneMapTree.toList ∧
          (∃ n, RedBlack theThreeSlotMap.1.cells oneMapTree n) ∧
          Augmented theThreeSlotMap.1.cells oneMapTree ∧
          Threaded theThreeSlotMap.1.cells oneMapTree.toList)) :=
  ⟨by decide!, by decide,
    checkInvariant_checks 16 theThreeSlotMap.1 oneMapTree (by decide!) (by decide)⟩

/-- Claim C33 (`Memory::copyTo`): let the `Memory` object be of type allocated,
let the slots `offset / 4096` to `(offset + length - 1) / 4096` (`touched`) be
bound, to page-aligned frames that differ from slot to slot (`framed`), and
let `offset + length` not exceed 64 bits.  Then `copyTo(offset, source,
length)` returns, so none of its assertions fails, among them the assertion
`(offset + disp) % kPageSize == 0` in every iteration of the whole-page loop.
Seen as the concatenation of its pages, the `Memory` object afterwards holds
`source[0 .. length)` in its bytes from `offset` to `offset + length`, and
every other byte of a bound slot is unchanged; no physical byte outside of the
range has changed, and only slots of the range were read. -/
theorem copyTo_copies (m : Memory) (p : Phys) (offset length fuel : Nat) (source : Nat → Nat)
    (hty : m.p_type = MemoryType.kTypeAllocated) (hfr : m.framed)
    (hbound : ∀ i, touched offset length i →
      i < m.p_physicalPages.length ∧ m.p_physicalPages.getD i noPage ≠ noPage)
    (hlen : offset + length < wordMod) (hfuel : length / kPageSize < fuel) :
    Returns (m.copyTo fuel p offset source length) (fun r =>
      (∀ x, offset ≤ x → x < offset + length → m.byteAt r.1 x = source (x - offset)) ∧
      (∀ x, x / kPageSize < m.p_physicalPages.length →
        m.p_physicalPages.getD (x / kPageSize) noPage ≠ noPage →
        ¬ (offset ≤ x ∧ x < offset + length) → m.byteAt r.1 x = m.byteAt p x) ∧
      (∀ a, (∀ x, offset ≤ x → x < offset + length → a ≠ m.addrOf x) →
        r.1.bytes a = p.bytes a) ∧
      (∀ i ∈ r.2, touched offset length i) ∧
      r.1.free = p.free ∧ r.1.allocated = p.allocated) := by
  refine (copyTo_inv hty hfr hbound hlen hfuel).weaken ?_
  rintro ⟨p', seen⟩ ⟨h1, h2, h3, h4, h5⟩
  refine ⟨h1, fun x hx hb hout => h2 _ (fun y hy1 hy2 heq => ?_), h2, h3, h4, h5⟩
  have hy : touched offset length (y / kPageSize) := by
    rw [touched_def]
    have hk : kPageSize = 4096 := rfl
    rw [hk]
    constructor
    · omega
    · omega
  obtain ⟨g1, g2⟩ := hbound _ hy
  have := addrOf_inj hfr hx g1 hb g2 heq
  subst this
  exact hout ⟨hy1, hy2⟩

set_option maxRecDepth 100000 in
/-- Claim C33, witness: four bytes are copied to the offset `0xFFE` of a
`Memory` object whose first two slots are bound: two bytes go to the end of the
first page and two to the start of the second. -/
theorem copyTo_copies_witness :
    twoPageMemory.p_type = MemoryType.kTypeAllocated ∧ twoPageMemory.framed ∧
    (∀ i, touched 0xFFE 4 i →
      i < twoPageMemory.p_physicalPages.length ∧
        twoPageMemory.p_physicalPages.getD i noPage ≠ noPage) ∧
    Returns (twoPageMemory.copyTo 3 sevenPhys 0xFFE (fun k => k + 1) 4) (fun r =>
      (∀ x, 0xFFE ≤ x → x < 0xFFE + 4 →
        twoPageMemory.byteAt r.1 x = (fun k => k + 1) (x - 0xFFE)) ∧
      (∀ x, x / kPageSize < twoPageMemory.p_physicalPages.length →
        twoPageMemory.p_physicalPages.getD (x / kPageSize) noPage ≠ noPage →
        ¬ (0xFFE ≤ x ∧ x < 0xFFE + 4) →
        twoPageMemory.byteAt r.1 x = twoPageMemory.byteAt sevenPhys x) ∧
      (∀ a, (∀ x, 0xFFE ≤ x → x < 0xFFE + 4 → a ≠ twoPageMemory.addrOf x) →
        r.1.bytes a = sevenPhys.bytes a) ∧
      (∀ i ∈ r.2, touched 0xFFE 4 i) ∧
      r.1.free = sevenPhys.free ∧ r.1.allocated = sevenPhys.allocated) :=
  ⟨rfl, by decide, twoPage_bound,
    copyTo_copies twoPageMemory sevenPhys 0xFFE 4 3 (fun k => k + 1) rfl (by decide)
      twoPage_bound (by decide) (by decide)⟩

/-! ## The runs that keep their stop state are runs of the same program -/

namespace Traced

theorem forget_inState {σ α : Type} (st : σ) (x : Except Err α) :
    forget (inState st x) = x := by
  cases x <;> rfl

theorem forget_ok {σ α : Type} (a : α) :
    forget (Except.ok a : Except (Err × σ) α) = Except.ok a := rfl

theorem forget_withEnv {α : Type} (e : Env) (x : Except (Err × Space) α) :
    forget (withEnv e x) = forget x := by
  rcases x with ⟨err, s⟩ | a <;> rfl

theorem forget_withOps {α : Type} (s : Space) (e : Env) (x : Except (Err × List PageOp) α) :
    forget (withOps s e x) = forget x := by
  rcases x with ⟨err, s⟩ | a <;> rfl

theorem forget_env {α : Type} {e : Env} {x : Except (Err × Space) α} {y : Except Err α}
    (h : forget x = y) : forget (withEnv e x) = y := by
  rw [forget_withEnv, h]

theorem forget_ops {α : Type} {s : Space} {e : Env} {x : Except (Err × List PageOp) α}
    {y : Except Err α} (h : forget x = y) : forget (withOps s e x) = y := by
  rw [forget_withOps, h]

theorem forget_bind {σ α β : Type} (x : Except (Err × σ) α)
    (f : α → Except (Err × σ) β) :
    forget (x >>= f) = forget x >>= fun a => forget (f a) := by
  rcases x with ⟨err, s⟩ | a <;> rfl

theorem forget_step {σ α β : Type} {x : Except (Err × σ) α} {y : Except Err α}
    {f : α → Except (Err × σ) β} {g : α → Except Err β}
    (hx : forget x = y) (hf : ∀ a, forget (f a) = g a) : forget (x >>= f) = y >>= g := by
  rw [forget_bind, hx]
  cases y with
  | error err => rfl
  | ok a => exact hf a

theorem forget_ite {σ α : Type} {c : Prop} [Decidable c] {a b : Except (Err × σ) α}
    {a' b' : Except Err α} (ha : c → forget a = a') (hb : ¬ c → forget b = b') :
    forget (if c then a else b) = if c then a' else b' := by
  by_cases h : c
  · rw [if_pos h, if_pos h]; exact ha h
  · rw [if_neg h, if_neg h]; exact hb h

theorem forget_destruct (fuel : Nat) : ∀ (s : Space) (p : Ptr),
    forget (Traced.destruct fuel s p) = Thor.destruct fuel s p := by
  induction fuel with
  | zero => intros; rfl
  | succ k ih =>
    intro s p
    cases p with
    | none => rfl
    | some i =>
      rw [Traced.destruct, Thor.destruct]
      repeat' (first
        | rfl
        | exact forget_inState _ _
        | exact ih _ _
        | refine forget_step ?_ (fun _ => ?_))

/-- Without its stop state, the run of `updateLargestHoleAt` that keeps it is the run of
`updateLargestHoleAt` defined first. -/
theorem forget_updateLargestHoleAt (s : Space) (p : Ptr) :
    forget (Traced.updateLargestHoleAt s p) =
      Thor.updateLargestHoleAt s p := by
  unfold Traced.updateLargestHoleAt Thor.updateLargestHoleAt
  repeat' (first
    | with_reducible exact forget_inState _ _
    | with_reducible exact forget_ok _
    | with_reducible refine forget_env ?_
    | with_reducible refine forget_ops ?_
    | with_reducible refine forget_step ?_ (fun _ => ?_)
    | with_reducible refine forget_ite (fun _ => ?_) (fun _ => ?_)
    | split
    | dsimp only
    | rfl)

set_option maxHeartbeats 1000000 in
/-- Without its stop state, the run of `updateLargestHoleUpwards` that keeps it is the run of
`updateLargestHoleUpwards` defined first. -/
theorem forget_updateLargestHoleUpwards (fuel : Nat) :
    ∀ (s : Space) (p : Ptr),
    forget (Traced.updateLargestHoleUpwards fuel s p) =
      Thor.updateLargestHoleUpwards fuel s p := by
  induction fuel with
  | zero => intros; rfl
  | succ k ih =>
    intros
    rw [Traced.updateLargestHoleUpwards, Thor.updateLargestHoleUpwards]
    repeat' (first
      | with_reducible exact forget_inState _ _
      | with_reducible exact forget_ok _
      | with_reducible exact ih ..
      | with_reducible exact forget_updateLargestHoleAt ..
      | with_reducible refine forget_step ?_ (fun _ => ?_)
      | with_reducible refine forget_ite (fun _ => ?_) (fun _ => ?_)
      | split
      | dsimp only
      | rfl)

/-- Without its stop state, the run of `replaceChild` that keeps it is the run of
`replaceChild` defined first. -/
theorem forget_replaceChild (s : Space) (parent : Ptr) (node : Nat) (child : Ptr) :
    forget (Traced.replaceChild s parent node child) =
      Thor.replaceChild s parent node child := by
  unfold Traced.replaceChild Thor.replaceChild
  repeat' (first
    | with_reducible exact forget_inState _ _
    | with_reducible exact forget_ok _
    | with_reducible refine forget_env ?_
    | with_reducible refine forget_ops ?_
    | with_reducible refine forget_step ?_ (fun _ => ?_)
    | with_reducible refine forget_ite (fun _ => ?_) (fun _ => ?_)
    | split
    | dsimp only
    | rfl)

/-- Without its stop state, the run of `rotateLeft` that keeps it is the run of
`rotateLeft` defined first. -/
theorem forget_rotateLeft (s : Space) (n : Nat) :
    forget (Traced.rotateLeft s n) =
      Thor.rotateLeft s n := by
  unfold Traced.rotateLeft Thor.rotateLeft
  repeat' (first
    | with_reducible exact forget_inState _ _
    | with_reducible exact forget_ok _
    | with_reducible exact forget_replaceChild ..
    | with_reducible exact forget_updateLargestHoleAt ..
    | with_reducible refine forget_env ?_
    | with_reducible refine forget_ops ?_
    | with_reducible refine forget_step ?_ (fun _ => ?_)
    | with_reducible refine forget_ite (fun _ => ?_) (fun _ => ?_)
    | split
    | dsimp only
    | rfl)

/-- Without its stop state, the run of `rotateRight` that keeps it is the run of
`rotateRight` defined first. -/
theorem forget_rotateRight (s : Space) (n : Nat) :
    forget (Traced.rotateRight s n) =
      Thor.rotateRight s n := by
  unfold Traced.rotateRight Thor.rotateRight
  repeat' (first
    | with_reducible exact forget_inState _ _
    | with_reducible exact forget_ok _
    | with_reducible exact forget_replaceChild ..
    | with_reducible exact forget_updateLargestHoleAt ..
    | with_reducible refine forget_env ?_
    | with_reducible refine forget_ops ?_
    | with_reducible refine forget_step ?_ (fun _ => ?_)
    | with_reducible refine forget_ite (fun _ => ?_) (fun _ => ?_)
    | split
    | dsimp only
    | rfl)

set_option maxHeartbeats 1000000 in
/-- Without its stop state, the run of `fixAfterInsert` that keeps it is the run of
`fixAfterInsert` defined first. -/
theorem forget_fixAfterInsert (fuel : Nat) :
    ∀ (s : Space) (n : Nat),
    forget (Traced.fixAfterInsert fuel s n) =
      Thor.fixAfterInsert fuel s n := by
  induction fuel with
  | zero => intros; rfl
  | succ k ih =>
    intros
    rw [Traced.fixAfterInsert, Thor.fixAfterInsert]
    repeat' (first
      | with_reducible exact forget_inState _ _
      | with_reducible exact forget_ok _
      | with_reducible exact ih ..
      | with_reducible exact forget_rotateLeft ..
      | with_reducible exact forget_rotateRight ..
      | with_reducible refine forget_step ?_ (fun _ => ?_)
      | with_reducible refine forget_ite (fun _ => ?_) (fun _ => ?_)
      | split
      | dsimp only
      | rfl)

set_option maxHeartbeats 1000000 in
/-- Without its stop state, the run of `insertLoop` that keeps it is the run of
`insertLoop` defined first. -/
theorem forget_insertLoop (full : Nat) (fuel : Nat) :
    ∀ (s : Space) (mapping current : Nat),
    forget (Traced.insertLoop full fuel s mapping current) =
      Thor.insertLoop full fuel s mapping current := by
  induction fuel with
  | zero => intros; rfl
  | succ k ih =>
    intros
    rw [Traced.insertLoop, Thor.insertLoop]
    repeat' (first
      | with_reducible exact forget_inState _ _
      | with_reducible exact forget_ok _
      | with_reducible exact ih ..
      | with_reducible exact forget_updateLargestHoleUpwards ..
      | with_reducible exact forget_fixAfterInsert ..
      | with_reducible refine forget_step ?_ (fun _ => ?_)
      | with_reducible refine forget_ite (fun _ => ?_) (fun _ => ?_)
      | split
      | dsimp only
      | rfl)

/-- Without its stop state, the run of `addressTreeInsert` that keeps it is the run of
`addressTreeInsert` defined first. -/
theorem forget_addressTreeInsert (fuel : Nat) (s : Space) (mapping : Nat) :
    forget (Traced.addressTreeInsert fuel s mapping) =
      Thor.addressTreeInsert fuel s mapping := by
  unfold Traced.addressTreeInsert Thor.addressTreeInsert
  repeat' (first
    | with_reducible exact forget_inState _ _
    | with_reducible exact forget_ok _
    | with_reducible exact forget_insertLoop ..
    | with_reducible exact forget_fixAfterInsert ..
    | with_reducible refine forget_env ?_
    | with_reducible refine forget_ops ?_
    | with_reducible refine forget_step ?_ (fun _ => ?_)
    | with_reducible refine forget_ite (fun _ => ?_) (fun _ => ?_)
    | split
    | dsimp only
    | rfl)

set_option maxHeartbeats 1000000 in
/-- Without its stop state, the run of `fixAfterRemove` that keeps it is the run of
`fixAfterRemove` defined first. -/
theorem forget_fixAfterRemove (fuel : Nat) :
    ∀ (s : Space) (n : Nat),
    forget (Traced.fixAfterRemove fuel s n) =
      Thor.fixAfterRemove fuel s n := by
  induction fuel with
  | zero => intros; rfl
  | succ k ih =>
    intros
    rw [Traced.fixAfterRemove, Thor.fixAfterRemove]
    repeat' (first
      | with_reducible exact forget_inState _ _
      | with_reducible exact forget_ok _
      | with_reducible exact ih ..
      | with_reducible exact forget_rotateLeft ..
      | with_reducible exact forget_rotateRight ..
      | with_reducible refine forget_step ?_ (fun _ => ?_)
      | with_reducible refine forget_ite (fun _ => ?_) (fun _ => ?_)
      | split
      | dsimp only
      | rfl)

/-- Without its stop state, the run of `replaceNode` that keeps it is the run of
`replaceNode` defined first. -/
theorem forget_replaceNode (fuel : Nat) (s : Space) (node replacement : Nat) :
    forget (Traced.replaceNode fuel s node replacement) =
      Thor.replaceNode fuel s node replacement := by
  unfold Traced.replaceNode Thor.replaceNode
  repeat' (first
    | with_reducible exact forget_inState _ _
    | with_reducible exact forget_ok _
    | with_reducible exact forget_replaceChild ..
    | with_reducible exact forget_updateLargestHoleAt ..
    | with_reducible exact forget_updateLargestHoleUpwards ..
    | with_reducible refine forget_env ?_
    | with_reducible refine forget_ops ?_
    | with_reducible refine forget_step ?_ (fun _ => ?_)
    | with_reducible refine forget_ite (fun _ => ?_) (fun _ => ?_)
    | split
    | dsimp only
    | rfl)

/-- Without its stop state, the run of `removeHalfLeaf` that keeps it is the run of
`removeHalfLeaf` defined first. -/
theorem forget_removeHalfLeaf (fuel : Nat) (s : Space) (mapping : Nat) (child : Ptr) :
    forget (Traced.removeHalfLeaf fuel s mapping child) =
      Thor.removeHalfLeaf fuel s mapping child := by
  unfold Traced.removeHalfLeaf Thor.removeHalfLeaf
  repeat' (first
    | with_reducible exact forget_inState _ _
    | with_reducible exact forget_ok _
    | with_reducible exact forget_replaceChild ..
    | with_reducible exact forget_fixAfterRemove ..
    | with_reducible exact forget_updateLargestHoleUpwards ..
    | with_reducible refine forget_env ?_
    | with_reducible refine forget_ops ?_
    | with_reducible refine forget_step ?_ (fun _ => ?_)
    | with_reducible refine forget_ite (fun _ => ?_) (fun _ => ?_)
    | split
    | dsimp only
    | rfl)

/-- Without its stop state, the run of `addressTreeRemove` that keeps it is the run of
`addressTreeRemove` defined first. -/
theorem forget_addressTreeRemove (fuel : Nat) (s : Space) (mapping : Nat) :
    forget (Traced.addressTreeRemove fuel s mapping) =
      Thor.addressTreeRemove fuel s mapping := by
  unfold Traced.addressTreeRemove Thor.addressTreeRemove
  repeat' (first
    | with_reducible exact forget_inState _ _
    | with_reducible exact forget_ok _
    | with_reducible exact forget_removeHalfLeaf ..
    | with_reducible exact forget_replaceNode ..
    | with_reducible refine forget_env ?_
    | with_reducible refine forget_ops ?_
    | with_reducible refine forget_step ?_ (fun _ => ?_)
    | with_reducible refine forget_ite (fun _ => ?_) (fun _ => ?_)
    | split
    | dsimp only
    | rfl)

/-- Without its stop state, the run of `splitHole` that keeps it is the run of
`splitHole` defined first. -/
theorem forget_splitHole (fuel : Nat) (s : Space) (mapping split_offset split_length : Nat) :
    forget (Traced.splitHole fuel s mapping split_offset split_length) =
      Thor.splitHole fuel s mapping split_offset split_length := by
  unfold Traced.splitHole Thor.splitHole
  repeat' (first
    | with_reducible exact forget_inState _ _
    | with_reducible exact forget_ok _
    | with_reducible exact forget_addressTreeRemove ..
    | with_reducible exact forget_destruct ..
    | with_reducible exact forget_updateLargestHoleUpwards ..
    | with_reducible exact forget_addressTreeInsert ..
    | with_reducible refine forget_env ?_
    | with_reducible refine forget_ops ?_
    | with_reducible refine forget_step ?_ (fun _ => ?_)
    | with_reducible refine forget_ite (fun _ => ?_) (fun _ => ?_)
    | split
    | dsimp only
    | rfl)

set_option maxHeartbeats 1000000 in
/-- Without its stop state, the run of `allocateDfs` that keeps it is the run of
`allocateDfs` defined first. -/
theorem forget_allocateDfs (full : Nat) (fuel : Nat) :
    ∀ (s : Space) (mapping length flags : Nat),
    forget (Traced.allocateDfs full fuel s mapping length flags) =
      Thor.allocateDfs full fuel s mapping length flags := by
  induction fuel with
  | zero => intros; rfl
  | succ k ih =>
    intros
    rw [Traced.allocateDfs, Thor.allocateDfs]
    repeat' (first
      | with_reducible exact forget_inState _ _
      | with_reducible exact forget_ok _
      | with_reducible exact ih ..
      | with_reducible exact forget_splitHole ..
      | with_reducible refine forget_step ?_ (fun _ => ?_)
      | with_reducible refine forget_ite (fun _ => ?_) (fun _ => ?_)
      | split
      | dsimp only
      | rfl)

/-- Without its stop state, the run of `allocate` that keeps it is the run of
`allocate` defined first. -/
theorem forget_allocate (fuel : Nat) (s : Space) (length flags : Nat) :
    forget (Traced.allocate fuel s length flags) =
      Thor.allocate fuel s length flags := by
  unfold Traced.allocate Thor.allocate
  repeat' (first
    | with_reducible exact forget_inState _ _
    | with_reducible exact forget_ok _
    | with_reducible exact forget_allocateDfs ..
    | with_reducible refine forget_env ?_
    | with_reducible refine forget_ops ?_
    | with_reducible refine forget_step ?_ (fun _ => ?_)
    | with_reducible refine forget_ite (fun _ => ?_) (fun _ => ?_)
    | split
    | dsimp only
    | rfl)

/-- Without its stop state, the run of `allocateAt` that keeps it is the run of
`allocateAt` defined first. -/
theorem forget_allocateAt (fuel : Nat) (s : Space) (address length : Nat) :
    forget (Traced.allocateAt fuel s address length) =
      Thor.allocateAt fuel s address length := by
  unfold Traced.allocateAt Thor.allocateAt
  repeat' (first
    | with_reducible exact forget_inState _ _
    | with_reducible exact forget_ok _
    | with_reducible exact forget_splitHole ..
    | with_reducible refine forget_env ?_
    | with_reducible refine forget_ops ?_
    | with_reducible refine forget_step ?_ (fun _ => ?_)
    | with_reducible refine forget_ite (fun _ => ?_) (fun _ => ?_)
    | split
    | dsimp only
    | rfl)

set_option maxHeartbeats 1000000 in
/-- Without its stop state, the run of `installLoop` that keeps it is the run of
`installLoop` defined first. -/
theorem forget_installLoop (e : Env) (memory : Ptr) (space base page_flags : Nat)
    (remap : Bool) (fuel : Nat) :
    ∀ (i : Nat) (ops : List PageOp),
    forget (Traced.installLoop e memory space base page_flags remap fuel i ops) =
      Thor.installLoop e memory space base page_flags remap fuel i ops := by
  induction fuel with
  | zero => intros; rfl
  | succ k ih =>
    intros
    rw [Traced.installLoop, Thor.installLoop]
    repeat' (first
      | with_reducible exact forget_inState _ _
      | with_reducible exact forget_ok _
      | with_reducible exact ih ..
      | with_reducible refine forget_step ?_ (fun _ => ?_)
      | with_reducible refine forget_ite (fun _ => ?_) (fun _ => ?_)
      | split
      | dsimp only
      | rfl)

/-- Without its stop state, the run of `map` that keeps it is the run of
`map` defined first. -/
theorem forget_map (fuel : Nat) (s : Space) (e : Env) (memory : Ptr) (address length flags : Nat) :
    forget (Traced.map fuel s e memory address length flags) =
      Thor.map fuel s e memory address length flags := by
  unfold Traced.map Thor.map
  repeat' (first
    | with_reducible exact forget_inState _ _
    | with_reducible exact forget_ok _
    | with_reducible exact forget_allocateAt ..
    | with_reducible exact forget_allocate ..
    | with_reducible exact forget_installLoop ..
    | with_reducible refine forget_env ?_
    | with_reducible refine forget_ops ?_
    | with_reducible refine forget_step ?_ (fun _ => ?_)
    | with_reducible refine forget_ite (fun _ => ?_) (fun _ => ?_)
    | split
    | dsimp only
    | rfl)

/-- Without its stop state, the run of `unmap` that keeps it is the run of
`unmap` defined first. -/
theorem forget_unmap (fuel : Nat) (s : Space) (e : Env) (address length : Nat) :
    forget (Traced.unmap fuel s e address length) =
      Thor.unmap fuel s e address length := by
  unfold Traced.unmap Thor.unmap
  repeat' (first
    | with_reducible exact forget_inState _ _
    | with_reducible exact forget_ok _
    | with_reducible exact forget_addressTreeRemove ..
    | with_reducible exact forget_destruct ..
    | with_reducible exact forget_updateLargestHoleUpwards ..
    | with_reducible refine forget_env ?_
    | with_reducible refine forget_ops ?_
    | with_reducible refine forget_step ?_ (fun _ => ?_)
    | with_reducible refine forget_ite (fun _ => ?_) (fun _ => ?_)
    | split
    | dsimp only
    | rfl)

end Traced

/-! ## Requests that are turned down before anything is written -/

theorem StopsIn.of_error {σ α : Type} {x : Except (Err × σ) α} {st : σ} {err : Err}
    (h : x = Except.error (err, st)) : StopsIn x st := ⟨err, h⟩

theorem StopsIn.in_step {σ α β : Type} {st : σ} {x : Except Err α} {f : α → Except (Err × σ) β}
    (h : ∀ a, x = Except.ok a → StopsIn (f a) st) : StopsIn (Traced.inState st x >>= f) st := by
  cases x with
  | error err => exact ⟨err, rfl⟩
  | ok a => exact h a rfl

theorem StopsIn.in_first {σ α β : Type} {st : σ} {x : Except (Err × σ) α}
    {f : α → Except (Err × σ) β} (h : StopsIn x st) : StopsIn (x >>= f) st := by
  obtain ⟨err, rfl⟩ := h
  exact ⟨err, rfl⟩

theorem StopsIn.in_after {σ α β : Type} {st : σ} {a : α} {f : α → Except (Err × σ) β}
    (h : StopsIn (f a) st) : StopsIn ((Except.ok a : Except (Err × σ) α) >>= f) st := h

theorem StopsIn.in_ite {σ α : Type} {st : σ} {c : Prop} [Decidable c] {a b : Except (Err × σ) α}
    (ha : c → StopsIn a st) (hb : ¬ c → StopsIn b st) : StopsIn (if c then a else b) st := by
  by_cases h : c
  · rw [if_pos h]; exact ha h
  · rw [if_neg h]; exact hb h

theorem StopsIn.in_env {α : Type} {s : Space} {e : Env} {x : Except (Err × Space) α}
    (h : StopsIn x s) : StopsIn (Traced.withEnv e x) (s, e) := by
  obtain ⟨err, rfl⟩ := h
  exact ⟨err, rfl⟩

theorem StopsIn.error_eq {σ α : Type} {x : Except (Err × σ) α} {st : σ} {err : Err}
    (h : StopsIn x st) (hf : Traced.forget x = Except.error err) :
    x = Except.error (err, st) := by
  obtain ⟨err', rfl⟩ := h
  cases hf
  rfl

theorem splitHole_zero_stops (fuel : Nat) (s : Space) (h off : Nat) :
    StopsIn (Traced.splitHole fuel s h off 0) s := by
  unfold Traced.splitHole
  exact StopsIn.in_step (fun _ h0 => by cases h0)

theorem allocateDfs_zero_stops (full flags : Nat) (fuel : Nat) :
    ∀ (s : Space) (i : Nat), StopsIn (Traced.allocateDfs full fuel s i 0 flags) s := by
  induction fuel with
  | zero => intros; exact ⟨_, rfl⟩
  | succ k ih =>
    intro s i
    rw [Traced.allocateDfs]
    repeat' (first
      | exact ih _ _
      | exact splitHole_zero_stops _ _ _ _
      | with_reducible refine StopsIn.in_step (fun _ _ => ?_)
      | with_reducible refine StopsIn.in_after ?_
      | with_reducible refine StopsIn.in_ite (fun _ => ?_) (fun _ => ?_)
      | split
      | dsimp only
      | rw [bind_assoc])

theorem allocate_zero_stops (fuel : Nat) (s : Space) (flags : Nat) :
    StopsIn (Traced.allocate fuel s 0 flags) s := by
  unfold Traced.allocate
  refine StopsIn.in_step (fun _ _ => ?_)
  refine StopsIn.in_step (fun rm _ => ?_)
  rw [if_neg (Nat.not_lt_zero _)]
  refine StopsIn.in_step (fun _ _ => ?_)
  exact StopsIn.in_first (allocateDfs_zero_stops _ _ _ _ _)

theorem allocateAt_zero_stops (fuel : Nat) (s : Space) (address : Nat) :
    StopsIn (Traced.allocateAt fuel s address 0) s := by
  unfold Traced.allocateAt
  repeat' (first
    | exact splitHole_zero_stops _ _ _ _
    | with_reducible refine StopsIn.in_step (fun _ _ => ?_))

theorem map_zero_stops (fuel : Nat) (s : Space) (e : Env) (memory : Ptr) (address flags : Nat) :
    StopsIn (Traced.map fuel s e memory address 0 flags) (s, e) := by
  unfold Traced.map
  refine StopsIn.in_step (fun _ _ => ?_)
  dsimp only
  refine StopsIn.in_ite (fun _ => ?_) (fun _ => ?_)
  · refine StopsIn.in_step (fun _ _ => ?_)
    exact StopsIn.in_first (StopsIn.in_env (allocateAt_zero_stops _ _ _))
  · exact StopsIn.in_first (StopsIn.in_env (allocate_zero_stops _ _ _))

/-! ## The assertion that turns a request down -/

theorem splitHole_zero_asserts (fuel : Nat) (s : Space) (h off : Nat) :
    splitHole fuel s h off 0 = Except.error Err.assertion := by
  unfold splitHole
  rfl

theorem allocateDfs_zero_asserts (full flags : Nat) (s : Space) :
    ∀ (t : Tree) (par : Ptr) (i fuel : Nat), Shape s.cells t par → t.root = some i →
      t.toList.length < fuel → allocateDfs full fuel s i 0 flags = Except.error Err.assertion := by
  intro t
  induction t with
  | nil => intro par i fuel _ h; cases h
  | node l j r ihl ihr =>
    intro par i fuel hs hroot hfuel
    cases hroot
    obtain ⟨k, rfl⟩ : ∃ k, fuel = k + 1 := ⟨fuel - 1, by omega⟩
    rw [Shape_node] at hs
    obtain ⟨m, hm, -, hl, hr, hsl, hsr⟩ := hs
    have hlen : l.toList.length + r.toList.length + 1 < k + 1 := by
      simpa [Tree.toList, Nat.add_assoc] using hfuel
    have hleft : ∀ li, l.root = some li →
        ∃ lm, s.get li = Except.ok lm ∧
          allocateDfs full k s li 0 flags = Except.error Err.assertion := by
      intro li hli
      obtain ⟨lm, hlm, -⟩ := hsl.root_alive hli
      exact ⟨lm, get_eq hlm, ihl (some j) li k hsl hli (by omega)⟩
    have hright : ∀ ri, r.root = some ri →
        ∃ rm, s.get ri = Except.ok rm ∧
          allocateDfs full k s ri 0 flags = Except.error Err.assertion := by
      intro ri hri
      obtain ⟨rm, hrm, -⟩ := hsr.root_alive hri
      exact ⟨rm, get_eq hrm, ihr (some j) ri k hsr hri (by omega)⟩
    rw [allocateDfs, get_eq hm]
    simp only [bind_okE, hl, hr]
    cases hlo : l.root with
    | none =>
      cases hro : r.root with
      | none =>
        simp only [splitHole_zero_asserts, assertSome, assert, bind_errE, Bool.false_eq_true, if_false]
        split_ifs <;> rfl
      | some ri =>
        obtain ⟨rm, hrm, hrrec⟩ := hright ri hro
        simp only [splitHole_zero_asserts, assertSome, assert, deref, hrm, hrrec, bind_okE,
          bind_errE, ge_iff_le, Nat.zero_le, decide_True, if_true, Bool.false_eq_true,
          if_false]
        split_ifs <;> rfl
    | some li =>
      obtain ⟨lm, hlm, hlrec⟩ := hleft li hlo
      cases hro : r.root with
      | none =>
        simp only [splitHole_zero_asserts, assertSome, assert, deref, hlm, hlrec, bind_okE,
          bind_errE, ge_iff_le, Nat.zero_le, decide_True, if_true, Bool.false_eq_true,
          if_false]
        split_ifs <;> rfl
      | some ri =>
        obtain ⟨rm, hrm, hrrec⟩ := hright ri hro
        simp only [splitHole_zero_asserts, assertSome, assert, deref, hlm, hlrec, hrm, hrrec,
          bind_okE, bind_errE, ge_iff_le, Nat.zero_le, decide_True, if_true, Bool.false_eq_true,
          if_false]
        split_ifs <;> rfl

theorem allocate_zero_asserts {s : Space} {t : Tree} {fuel : Nat} (flags : Nat) (hT : TreeAt s t)
    (hne : t ≠ Tree.nil) (hfuel : t.toList.length < fuel) :
    allocate fuel s 0 flags = Except.error Err.assertion := by
  obtain ⟨hroot, hs, -⟩ := hT
  cases t with
  | nil => exact absurd rfl hne
  | node l i r =>
    obtain ⟨m, hm, -⟩ := hs.root_alive rfl
    have h := allocateDfs_zero_asserts fuel flags s _ none i fuel hs rfl hfuel
    unfold allocate
    rw [hroot]
    simp [Tree.root, Space.getP, get_eq hm, deref, assert, h]

theorem getMappingLoop_alive (s : Space) (a : Nat) :
    ∀ (t : Tree) (par : Ptr) (fuel : Nat), Shape s.cells t par → t.toList.length < fuel →
      ∃ r, getMappingLoop fuel s t.root a = Except.ok r ∧
        ∀ i, r = some i → ∃ m, s.cells i = some m := by
  intro t
  induction t with
  | nil =>
    intro par fuel _ hfuel
    obtain ⟨k, rfl⟩ : ∃ k, fuel = k + 1 := ⟨fuel - 1, by omega⟩
    exact ⟨none, rfl, fun i h => by cases h⟩
  | node l j r ihl ihr =>
    intro par fuel hs hfuel
    obtain ⟨k, rfl⟩ : ∃ k, fuel = k + 1 := ⟨fuel - 1, by omega⟩
    rw [Shape_node] at hs
    obtain ⟨m, hm, -, hl, hr, hsl, hsr⟩ := hs
    have hlen : l.toList.length + r.toList.length + 1 < k + 1 := by
      simpa [Tree.toList, Nat.add_assoc] using hfuel
    rw [Tree.root, getMappingLoop, get_eq hm]
    simp only [bind_okE, hl, hr]
    by_cases h1 : a < m.baseAddress
    · rw [if_pos h1]
      exact ihl (some j) k hsl (by omega)
    · rw [if_neg h1]
      by_cases h2 : a ≥ add64 m.baseAddress m.length
      · rw [if_pos h2]
        exact ihr (some j) k hsr (by omega)
      · rw [if_neg h2]
        refine ⟨some j, ?_, fun i h => by cases h; exact ⟨m, hm⟩⟩
        have h3 : m.baseAddress ≤ a := Nat.le_of_not_lt h1
        have h4 : a < add64 m.baseAddress m.length := Nat.lt_of_not_ge h2
        simp [assert, h3, h4]

theorem allocateAt_zero_asserts {s : Space} {t : Tree} {fuel : Nat} (address : Nat)
    (hT : TreeAt s t) (hfuel : t.toList.length < fuel) :
    allocateAt fuel s address 0 = Except.error Err.assertion := by
  obtain ⟨hroot, hs, -⟩ := hT
  obtain ⟨r, hr, halive⟩ := getMappingLoop_alive s address t none fuel hs hfuel
  unfold allocateAt getMapping
  rw [hroot, hr]
  cases r with
  | none =>
    simp only [assert, assertSome, bind_okE]
    split_ifs <;> rfl
  | some h =>
    obtain ⟨hm, hhm⟩ := halive h rfl
    simp only [assert, assertSome, bind_okE, get_eq hhm, splitHole_zero_asserts]
    split_ifs <;> rfl

theorem map_zero_asserts {s : Space} {t : Tree} {fuel : Nat} (e : Env) (memory : Ptr)
    (address flags : Nat) (hT : TreeAt s t) (hne : t ≠ Tree.nil)
    (hfuel : t.toList.length < fuel) :
    map fuel s e memory address 0 flags = Except.error Err.assertion := by
  unfold map
  simp only [allocateAt_zero_asserts address hT hfuel, allocate_zero_asserts flags hT hne hfuel,
    assert, bind_errE]
  split_ifs <;> rfl

theorem StopsIn.or_step {σ α β : Type} {st : σ} {x : Except Err α}
    {f : α → Except (Err × σ) β} {P : Prop} (h : ∀ a, x = Except.ok a → StopsIn (f a) st ∨ P) :
    StopsIn (Traced.inState st x >>= f) st ∨ P := by
  cases x with
  | error err => exact Or.inl ⟨err, rfl⟩
  | ok a => exact h a rfl

theorem unmap_stops_or_exact (fuel : Nat) (s : Space) (e : Env) (address length : Nat) :
    StopsIn (Traced.unmap fuel s e address length) (s, e) ∨
      ∃ i m, getMapping fuel s address = Except.ok (some i) ∧ s.cells i = some m ∧
        m.type = MappingType.kTypeMemory ∧ m.baseAddress = address ∧ m.length = length := by
  unfold Traced.unmap
  refine StopsIn.or_step (fun found hfound => ?_)
  refine StopsIn.or_step (fun i hi => ?_)
  refine StopsIn.or_step (fun m hm => ?_)
  refine StopsIn.or_step (fun _ h1 => ?_)
  refine StopsIn.or_step (fun _ h2 => ?_)
  refine StopsIn.or_step (fun _ h3 => ?_)
  right
  have hi' : found = some i := by
    cases found with
    | none => cases hi
    | some j => cases hi; rfl
  have hm' : s.cells i = some m := by
    unfold Space.get at hm
    cases hc : s.cells i with
    | none => rw [hc] at hm; cases hm
    | some m' => rw [hc] at hm; cases hm; rfl
  have hassert : ∀ c : Prop, ∀ [Decidable c], assert (decide c) = Except.ok () → c := by
    intro c _ h
    by_cases hc : c
    · exact hc
    · simp [assert, hc] at h
  exact ⟨i, m, hi' ▸ hfound, hm', hassert _ h1, hassert _ h2, hassert _ h3⟩

theorem unmap_asserts {s : Space} {t : Tree} {fuel : Nat} (e : Env) (address length : Nat)
    (hT : TreeAt s t) (hc : Covers s.cells windowBase t.toList windowEnd)
    (hfuel : t.toList.length < fuel)
    (hno : ∀ i ∈ t.toList, ¬ (typeOf s.cells i = MappingType.kTypeMemory ∧
      baseOf s.cells i = address ∧ lengthOf s.cells i = length)) :
    unmap fuel s e address length = Except.error Err.assertion := by
  unfold unmap
  rcases getMapping_total address hT hc (by decide) hfuel with ⟨i, m, hg, hil, hm, -, -⟩ | ⟨hg, -⟩
  · have hno' := hno i hil
    rw [typeOf, baseOf, lengthOf, fieldOf_some hm, fieldOf_some hm, fieldOf_some hm] at hno'
    rw [hg]
    simp only [assertSome, bind_okE, get_eq hm, assert]
    by_cases h1 : m.type = MappingType.kTypeMemory
    · by_cases h2 : m.baseAddress = address
      · have h3 : ¬ m.length = length := fun h3 => hno' ⟨h1, h2, h3⟩
        simp [h1, h2, h3]
      · simp [h1, h2]
    · simp [h1]
  · rw [hg]
    rfl

theorem no_exact_of_cases {s : Space} {t : Tree} {address length : Nat}
    (hc : Covers s.cells windowBase t.toList windowEnd)
    (h : (∀ i ∈ t.toList, ¬ (typeOf s.cells i = MappingType.kTypeMemory ∧
        baseOf s.cells i = address ∧ lengthOf s.cells i = length)) ∨
      (∀ i ∈ t.toList, ¬ (baseOf s.cells i ≤ address ∧ address < endOf s.cells i)) ∨
      (∃ i ∈ t.toList, baseOf s.cells i ≤ address ∧ address < endOf s.cells i ∧
        (typeOf s.cells i = MappingType.kTypeHole ∨ baseOf s.cells i ≠ address ∨
          lengthOf s.cells i ≠ length))) :
    ∀ i ∈ t.toList, ¬ (typeOf s.cells i = MappingType.kTypeMemory ∧
      baseOf s.cells i = address ∧ lengthOf s.cells i = length) := by
  have hin : ∀ j ∈ t.toList, baseOf s.cells j = address →
      baseOf s.cells j ≤ address ∧ address < endOf s.cells j := by
    intro j hj hb
    obtain ⟨-, -, hpos⟩ := hc.mem hj
    unfold endOf
    omega
  rcases h with h | h | ⟨i, hi, h1, h2, h3⟩
  · exact h
  · exact fun j hj hx => h j hj (hin j hj hx.2.1)
  · intro j hj ⟨ht, hb, hl⟩
    obtain ⟨g1, g2⟩ := hin j hj hb
    have : i = j := Covers.unique hc hi hj h1 h2 g1 g2
    subst this
    rcases h3 with h3 | h3 | h3
    · rw [h3] at ht
      cases ht
    · exact h3 hb
    · exact h3 hl

theorem exact_in_tree {s : Space} {t : Tree} {fuel address i : Nat} (hT : TreeAt s t)
    (hc : Covers s.cells windowBase t.toList windowEnd) (hfuel : t.toList.length < fuel)
    (hg : getMapping fuel s address = Except.ok (some i)) : i ∈ t.toList := by
  rcases getMapping_total address hT hc (by decide) hfuel with ⟨j, m, hj, hjl, -⟩ | ⟨hn, -⟩
  · rw [hj] at hg
    cases hg
    exact hjl
  · rw [hn] at hg
    cases hg

/-! ## Rejected requests leave the state as it was -/

/-- C13: zero-length requests are rejected and the tree is left exactly as it
was.  In the run that keeps its stop state, `allocate(0, flags)` never returns
(neither a mapping nor null) and stops in the address space `s` it was started
in, for every `s`, every flags (either placement policy, both, or none) and
every fuel; `map` with length 0 never returns either, with or without the
fixed flag, and stops with the address space, the `Memory` objects and the
page table as they were.  When `s` holds a non-empty tree (in particular a
valid one) and the fuel exceeds its size, what stops both is a failed
assertion (`split_length > 0` in `splitHole`, or an assertion before it); the
runs of `allocate` and `map` that do not keep the stop state end with the
same failed assertion. -/
theorem zero_length_rejected (fuel : Nat) (s : Space) (e : Env) (memory : Ptr)
    (address flags : Nat) :
    StopsIn (Traced.allocate fuel s 0 flags) s ∧
    StopsIn (Traced.map fuel s e memory address 0 flags) (s, e) ∧
    (∀ t, TreeAt s t → t ≠ Tree.nil → t.toList.length < fuel →
      Traced.allocate fuel s 0 flags = Except.error (Err.assertion, s) ∧
      Traced.map fuel s e memory address 0 flags = Except.error (Err.assertion, s, e) ∧
      allocate fuel s 0 flags = Except.error Err.assertion ∧
      map fuel s e memory address 0 flags = Except.error Err.assertion) := by
  refine ⟨allocate_zero_stops fuel s flags, map_zero_stops fuel s e memory address flags, ?_⟩
  intro t hT hne hfuel
  have ha := allocate_zero_asserts flags hT hne hfuel
  have hm := map_zero_asserts e memory address flags hT hne hfuel
  refine ⟨?_, ?_, ha, hm⟩
  · exact (allocate_zero_stops fuel s flags).error_eq
      ((Traced.forget_allocate fuel s 0 flags).trans ha)
  · exact (map_zero_stops fuel s e memory address flags).error_eq
      ((Traced.forget_map fuel s e memory address 0 flags).trans hm)

set_option maxRecDepth 100000 in
/-- C13, witness: after three one-page maps and the unmap of the middle page
the tree has four nodes; there `allocate(0, prefer_top)` and a fixed `map`
of length 0 at the first page stop at a failed assertion, in the state they
were started in. -/
theorem zero_length_rejected_witness :
    TreeAt (scenarioSpace (pagesUnmapped 3 [1])) threeMapsTree ∧
    threeMapsTree ≠ Tree.nil ∧ threeMapsTree.toList.length < 16 ∧
    (Traced.allocate 16 (scenarioSpace (pagesUnmapped 3 [1])) 0 topReadWrite =
        Except.error (Err.assertion, scenarioSpace (pagesUnmapped 3 [1])) ∧
      Traced.map 16 (scenarioSpace (pagesUnmapped 3 [1])) oneMemoryEnv (some 0) 0x100000 0
          topReadWrite =
        Except.error (Err.assertion, scenarioSpace (pagesUnmapped 3 [1]), oneMemoryEnv) ∧
      allocate 16 (scenarioSpace (pagesUnmapped 3 [1])) 0 topReadWrite =
        Except.error Err.assertion ∧
      map 16 (scenarioSpace (pagesUnmapped 3 [1])) oneMemoryEnv (some 0) 0x100000 0
          topReadWrite =
        Except.error Err.assertion) :=
  ⟨by decide!, by decide, by decide,
    (zero_length_rejected 16 (scenarioSpace (pagesUnmapped 3 [1])) oneMemoryEnv (some 0)
      0x100000 topReadWrite).2.2 threeMapsTree (by decide!) (by decide) (by decide)⟩

/-- C17: `unmap(address, length)` is rejected, leaving the tree, the `Memory`
references and the page table unchanged, unless there is a mapping of kind
memory whose base is `address` and whose length is `length`.  For every
address space and every fuel, the run that keeps its stop state either stops
in the state `(s, e)` it was started in (`s` holds the tree and the `Memory`
reference of every mapping, `e` the `Memory` objects and the page table
operations), or `getMapping(address)` found such a mapping.  When `s` holds a
tree that tiles the window and the fuel exceeds its size, `unmap` stops at a
failed assertion in the state it was started in (and the run of `unmap` that
does not keep the stop state ends with the same failed assertion) in each of
these cases: no mapping of the tree is a memory mapping with this base and
this length; no mapping contains `address`; the mapping that contains
`address` is a hole, or its base is not `address`, or its length is not
`length`. -/
theorem unmap_requires_exact_memory (fuel : Nat) (s : Space) (e : Env) (address length : Nat) :
    (StopsIn (Traced.unmap fuel s e address length) (s, e) ∨
      ∃ i m, getMapping fuel s address = Except.ok (some i) ∧ s.cells i = some m ∧
        m.type = MappingType.kTypeMemory ∧ m.baseAddress = address ∧ m.length = length) ∧
    (∀ t, TreeAt s t → Covers s.cells windowBase t.toList windowEnd → t.toList.length < fuel →
      ((∀ i ∈ t.toList, ¬ (typeOf s.cells i = MappingType.kTypeMemory ∧
          baseOf s.cells i = address ∧ lengthOf s.cells i = length)) ∨
        (∀ i ∈ t.toList, ¬ (baseOf s.cells i ≤ address ∧ address < endOf s.cells i)) ∨
        (∃ i ∈ t.toList, baseOf s.cells i ≤ address ∧ address < endOf s.cells i ∧
          (typeOf s.cells i = MappingType.kTypeHole ∨ baseOf s.cells i ≠ address ∨
            lengthOf s.cells i ≠ length))) →
      Traced.unmap fuel s e address length = Except.error (Err.assertion, s, e) ∧
      unmap fuel s e address length = Except.error Err.assertion) := by
  refine ⟨unmap_stops_or_exact fuel s e address length, ?_⟩
  intro t hT hc hfuel hcases
  have hno := no_exact_of_cases hc hcases
  have hu := unmap_asserts e address length hT hc hfuel hno
  refine ⟨?_, hu⟩
  rcases unmap_stops_or_exact fuel s e address length with hstop | ⟨i, m, hg, hm, h1, h2, h3⟩
  · exact hstop.error_eq ((Traced.forget_unmap fuel s e address length).trans hu)
  · refine absurd ?_ (hno i (exact_in_tree hT hc hfuel hg))
    rw [typeOf, baseOf, lengthOf, fieldOf_some hm, fieldOf_some hm, fieldOf_some hm]
    exact ⟨h1, h2, h3⟩

set_option maxRecDepth 100000 in
/-- C17, witness: after three one-page maps and the unmap of the middle page,
`unmap(0x101000, 0x1000)` names the hole left by the first unmap: it stops at
a failed assertion with the tree, the `Memory` objects and the page table as
they were. -/
theorem unmap_requires_exact_memory_witness :
    TreeAt (scenarioSpace (pagesUnmapped 3 [1])) threeMapsTree ∧
    Covers (scenarioSpace (pagesUnmapped 3 [1])).cells windowBase threeMapsTree.toList
      windowEnd ∧
    threeMapsTree.toList.length < 16 ∧
    (∃ i ∈ threeMapsTree.toList,
      baseOf (scenarioSpace (pagesUnmapped 3 [1])).cells i ≤ 0x101000 ∧
      0x101000 < endOf (scenarioSpace (pagesUnmapped 3 [1])).cells i ∧
      (typeOf (scenarioSpace (pagesUnmapped 3 [1])).cells i = MappingType.kTypeHole ∨
        baseOf (scenarioSpace (pagesUnmapped 3 [1])).cells i ≠ 0x101000 ∨
        lengthOf (scenarioSpace (pagesUnmapped 3 [1])).cells i ≠ 0x1000)) ∧
    Traced.unmap 16 (scenarioSpace (pagesUnmapped 3 [1])) oneMemoryEnv 0x101000 0x1000 =
      Except.error (Err.assertion, scenarioSpace (pagesUnmapped 3 [1]), oneMemoryEnv) ∧
    unmap 16 (scenarioSpace (pagesUnmapped 3 [1])) oneMemoryEnv 0x101000 0x1000 =
      Except.error Err.assertion :=
  ⟨by decide!, by decide!, by decide, by decide!,
    (unmap_requires_exact_memory 16 (scenarioSpace (pagesUnmapped 3 [1])) oneMemoryEnv
      0x101000 0x1000).2 threeMapsTree (by decide!) (by decide!) (by decide)
      (Or.inr (Or.inr (by decide!)))⟩
end Thor
